import Mathlib

/-! # mua: a verification development of the compiler front end

Shallow embedding of the lexer, the parser, the AST walker, the semantic
analyzer and the lowering pass of `mua`, followed by theorems about them.

Conventions of the embedding:

* a source buffer is a list of bytes, each byte a natural number;
* a `Position` is its byte offset: a compilation reads exactly one `File`, so
  the file pointer every `Position` carries in the source is left implicit;
* a `Text` is the `Range` it views, resolved to bytes with `File.slice`;
* an output stream (`llvm::raw_ostream`) is the `String` written to it so far;
* a loop is a recursive function over a loop budget (`fuel`). The parsing
  functions report an exhausted budget as `outOfFuel`, apart from every result
  of the source program, and `Parse` is shown to run within its budget. The
  loops of the lexer run with a budget of one more than the bytes of the
  buffer, and each of their steps moves the scan position forward.
-/

namespace mua

/-! ## Source coordinates (`Position.h`, `File.cpp`) -/

/-- The type `Offset` of the source is `std::uint32_t`: conversion to it wraps. -/
def toOffset (n : Nat) : Nat := n % 2 ^ 32

/-- Arithmetic on `unsigned` wraps as well. -/
def toUnsigned (n : Int) : Nat := (n % 2 ^ 32).toNat

/-- A half-open range `[Begin, End)` of byte offsets. -/
structure Range where
  Begin : Nat
  End : Nat
deriving DecidableEq, Repr

/-- `Range::operator<`: ranges are ordered by their begin position. -/
def Range.lt (a b : Range) : Bool := decide (a.Begin < b.Begin)

/-- A source file: its name and its bytes. The embedding covers the files whose
size fits the 32-bit `Offset` type of the source. -/
structure File where
  Filename : String
  Buffer : List Nat
  fits : Buffer.length < 2 ^ 32

/-- `Buffer->getBufferSize()`. -/
def File.size (f : File) : Nat := f.Buffer.length

/-- The loop of the constructor `File::File`, from byte index `i` on. -/
def lineOffsetsFrom : List Nat → Nat → List Nat
  | [], _ => []
  | b :: rest, i =>
    if b = 10 then toOffset (i + 1) :: lineOffsetsFrom rest (i + 1)
    else lineOffsetsFrom rest (i + 1)

/-- The member `LineOffsets` as the constructor `File::File` fills it. -/
def File.LineOffsets (f : File) : List Nat := 0 :: lineOffsetsFrom f.Buffer 0

/-- `File::slice`: `StringRef::slice(begin, end)`, which clamps both ends. -/
def File.slice (f : File) (r : Range) : List Nat :=
  (f.Buffer.take r.End).drop r.Begin

/-- `llvm::upper_bound(LineOffsets, offset)`: index of the first entry that is
greater than `offset`, the length when there is none. The table is sorted. -/
def upperBound : List Nat → Nat → Nat
  | [], _ => 0
  | x :: xs, offset => if offset < x then 0 else upperBound xs offset + 1

/-- `File::getLineAndColumn`. -/
def File.getLineAndColumn (f : File) (offset : Nat) : Nat × Nat :=
  let line := toUnsigned ((upperBound f.LineOffsets offset : Int) - 1)
  let column := toUnsigned ((offset : Int) - (f.LineOffsets.getD line 0 : Int))
  (line, column)

/-- The characters `StringRef::rtrim()` strips: `" \t\n\v\f\r"`. -/
def isTrimChar (c : Nat) : Bool :=
  c == 32 || c == 9 || c == 10 || c == 11 || c == 12 || c == 13

/-- `StringRef::rtrim()`. -/
def rtrim (s : List Nat) : List Nat := (s.reverse.dropWhile isTrimChar).reverse

/-- `File::getLineAt`. -/
def File.getLineAt (f : File) (offset : Nat) : List Nat :=
  let line := (f.getLineAndColumn offset).1
  let b := f.LineOffsets.getD line 0
  let e := if line + 1 < f.LineOffsets.length then f.LineOffsets.getD (line + 1) 0
           else toOffset f.size
  rtrim ((f.Buffer.drop b).take (toOffset (e + 2 ^ 32 - b)))

/-- Bytes of the source written to a stream. -/
def bytesToString (bs : List Nat) : String := String.mk (bs.map Char.ofNat)

/-- `operator<<(raw_ostream &, Range)` of `Position.cpp`. -/
def Range.print (f : File) (r : Range) : String :=
  let b := f.getLineAndColumn r.Begin
  let e := f.getLineAndColumn r.End
  if b.1 = e.1 then
    f.Filename ++ ":" ++ toString (toUnsigned (b.1 + 1)) ++ ":"
      ++ toString (toUnsigned (b.2 + 1)) ++ "-" ++ toString (toUnsigned (e.2 + 1))
  else
    f.Filename ++ ":" ++ toString (toUnsigned (b.1 + 1)) ++ ":"
      ++ toString (toUnsigned (b.2 + 1)) ++ "-" ++ toString (toUnsigned (e.1 + 1))
      ++ ":" ++ toString (toUnsigned (e.2 + 1))

/-- `File::print`: range header, source line, caret line. -/
def File.print (f : File) (r : Range) : String :=
  let column := (f.getLineAndColumn r.Begin).2
  let line := f.getLineAt r.Begin
  let rawLen := toUnsigned ((r.End : Int) - (r.Begin : Int))
  let maxLen := toUnsigned ((line.length : Int) - (column : Int))
  let len := if rawLen ≠ 0 then min rawLen maxLen else 1
  Range.print f r ++ "\n" ++ bytesToString line ++ "\n"
    ++ String.mk (List.replicate column ' ')
    ++ String.mk (List.replicate (if len ≠ 0 then len else 1) '^')

/-! ## Tokens (`Token.cpp`, `Token.def`) -/

/-- The token tags, in the order the parser's exhaustive switches list them. -/
inductive Token where
  | EndOfFile | Invalid | Identifier | Number
  | Function | Return | End
  | Equal | Comma | LParen | RParen | Plus | Minus | Star | Slash
deriving DecidableEq, Repr

/-- Modelled from the spec: the `KEYWORD(name, spelling)` entries of the table
`Token.def`, which is not part of the sources at hand: the keywords are
`function`, `return` and `end`. The spellings are given as bytes. -/
def keywords : List (List Nat × Token) :=
  [ ([102, 117, 110, 99, 116, 105, 111, 110], Token.Function),
    ([114, 101, 116, 117, 114, 110], Token.Return),
    ([101, 110, 100], Token.End) ]

/-- Modelled from the spec: the `PUNCT(name, ch)` entries of the table
`Token.def`: the punctuation `=`, `,`, `(`, `)`, `+`, `-`, `*`, `/`. -/
def puncts : List (Nat × Token) :=
  [ (61, Token.Equal), (44, Token.Comma), (40, Token.LParen), (41, Token.RParen),
    (43, Token.Plus), (45, Token.Minus), (42, Token.Star), (47, Token.Slash) ]

/-- `operator<<(raw_ostream &, Token)`: the spelling of a token. The spellings
of the four `TOKEN(name, spelling)` entries of `Token.def` are not known, so
they are a parameter (`tokenSpelling`). -/
def Token.spelling (tokenSpelling : Token → String) : Token → String
  | .Function => "function"
  | .Return => "return"
  | .End => "end"
  | .Equal => "="
  | .Comma => ","
  | .LParen => "("
  | .RParen => ")"
  | .Plus => "+"
  | .Minus => "-"
  | .Star => "*"
  | .Slash => "/"
  | t => tokenSpelling t

/-! ## Lexer (`Lexer.cpp`) -/

/-- `std::isspace` in the "C" locale. -/
def isspace (c : Nat) : Bool := c == 32 || (decide (9 ≤ c) && decide (c ≤ 13))

/-- `std::isalpha` in the "C" locale. -/
def isalpha (c : Nat) : Bool :=
  (decide (65 ≤ c) && decide (c ≤ 90)) || (decide (97 ≤ c) && decide (c ≤ 122))

/-- `std::isdigit`. -/
def isdigit (c : Nat) : Bool := decide (48 ≤ c) && decide (c ≤ 57)

/-- `std::isalnum`. -/
def isalnum (c : Nat) : Bool := isalpha c || isdigit c

/-- The lexer: the file, the scan position `Current` (as the distance from
`Start`), the range of the last token and, from `Lexer.h`, the last token. -/
structure Lexer where
  File : File
  Current : Nat
  Range : Range
  CurrentToken : Token

namespace Lexer

/-- `Lexer::peek`. -/
def peek (L : Lexer) (lookahead : Nat) : Nat :=
  if L.Current + lookahead ≥ L.File.size then 0
  else L.File.Buffer.getD (L.Current + lookahead) 0

/-- `Lexer::advance`. -/
def advance (L : Lexer) : Lexer :=
  if L.Current ≥ L.File.size then L else { L with Current := L.Current + 1 }

/-- `Lexer::getOffset`. -/
def getOffset (L : Lexer) : Nat := toOffset L.Current

/-- `Lexer::makeRange`. -/
def makeRange (b e : Nat) : mua.Range := ⟨b, e⟩

/-- `while (std::isspace(peek())) advance();` -/
def skipWhitespace : Nat → Lexer → Lexer
  | 0, L => L
  | fuel + 1, L => if isspace (L.peek 0) then skipWhitespace fuel L.advance else L

/-- `while (peek() && peek() != '\n') advance();` -/
def skipLine : Nat → Lexer → Lexer
  | 0, L => L
  | fuel + 1, L =>
    if L.peek 0 ≠ 0 ∧ L.peek 0 ≠ 10 then skipLine fuel L.advance else L

/-- The `while (true)` loop at the head of `Lexer::lex`, which skips white
space and comments. -/
def skipTrivia : Nat → Lexer → Lexer
  | 0, L => L
  | fuel + 1, L =>
    let L1 := skipWhitespace (L.File.size + 1) L
    if L1.peek 0 = 45 ∧ L1.peek 1 = 45 then
      skipTrivia fuel (skipLine (L.File.size + 1) L1.advance.advance)
    else L1

/-- `do advance(); while (std::isalnum(peek()) || peek() == '_');` -/
def lexIdentifier : Nat → Lexer → Lexer
  | 0, L => L
  | fuel + 1, L =>
    let L1 := L.advance
    if isalnum (L1.peek 0) || L1.peek 0 == 95 then lexIdentifier fuel L1 else L1

/-- The `do ... while` loop of the number rule, with its flag `dotSeen`. -/
def lexNumber : Nat → Bool → Lexer → Lexer
  | 0, _, L => L
  | fuel + 1, dotSeen, L =>
    let dotSeen1 := dotSeen || L.peek 0 == 46
    let L1 := L.advance
    if isdigit (L1.peek 0) || (!dotSeen1 && L1.peek 0 == 46) then
      lexNumber fuel dotSeen1 L1
    else L1

/-- The `llvm::StringSwitch` over the keyword table. -/
def keywordOrIdentifier (lexeme : List Nat) : Token :=
  match keywords.find? (fun kw => kw.1 == lexeme) with
  | some kw => kw.2
  | none => Token.Identifier

/-- The `switch (peek())` over the punctuation table. -/
def punctOrInvalid (c : Nat) : Token :=
  match puncts.find? (fun p => p.1 == c) with
  | some p => p.2
  | none => Token.Invalid

/-- The part of `Lexer::lex` after the skipping loop: the token that starts at
the scan position, and the lexer after it. -/
def lexToken (L1 : Lexer) : Token × Lexer :=
  let b := L1.getOffset
  if L1.Current ≥ L1.File.size then
    (Token.EndOfFile, { L1 with Range := makeRange b L1.getOffset })
  else if isalpha (L1.peek 0) || L1.peek 0 == 95 then
    let L2 := lexIdentifier (L1.File.size + 1) L1
    let r := makeRange b L2.getOffset
    (keywordOrIdentifier (L2.File.slice r), { L2 with Range := r })
  else if isdigit (L1.peek 0) || L1.peek 0 == 46 then
    let L2 := lexNumber (L1.File.size + 1) false L1
    (Token.Number, { L2 with Range := makeRange b L2.getOffset })
  else
    let token := punctOrInvalid (L1.peek 0)
    let L2 := L1.advance
    (token, { L2 with Range := makeRange b L2.getOffset })

/-- `Lexer::lex`: the token and the lexer after the call. -/
def lex (L : Lexer) : Token × Lexer :=
  lexToken (skipTrivia (L.File.size + 1) L)

/-- The constructor `Lexer::Lexer`. Modelled from the spec: the initial value
of the current token is set in `Lexer.h`, which is not part of the sources at
hand; no function reads it before the first call of `next`. -/
def init (file : mua.File) : Lexer :=
  { File := file, Current := 0, Range := makeRange 0 0, CurrentToken := Token.Invalid }

/-- Modelled from the spec: `Lexer::next` of `Lexer.h` ("advance consumes the
current token and lexes the next"). -/
def next (L : Lexer) : Lexer :=
  let r := L.lex
  { r.2 with CurrentToken := r.1 }

/-- Modelled from the spec: `Lexer::getCurrent` of `Lexer.h` ("peek current
returns the last-produced token tag"). -/
def getCurrent (L : Lexer) : Token := L.CurrentToken

/-- Modelled from the spec: `Lexer::getRange` of `Lexer.h` ("and its range"). -/
def getRange (L : Lexer) : mua.Range := L.Range

/-- Modelled from the spec: `Lexer::consume` of `Lexer.h`: the parser calls it
only with the current token, and it advances to the next one. -/
def consume (L : Lexer) (_token : Token) : Lexer := L.next

end Lexer

/-! ## AST (`Expr.h`, `Stmt.h`, `Decl.h`) -/

/-- A `double`, as the 64 bits of its IEEE-754 encoding. The embedding never
computes with it. -/
structure Double where
  bits : Nat
deriving DecidableEq, Repr

/-- `BinaryExpr::Op`. -/
inductive Op where
  | Assign | Add | Sub | Mul | Div
deriving DecidableEq, Repr

/-- The expressions. `IdentifierExpr` takes its range from its name. -/
inductive Expr where
  | NumberExpr (value : Double) (range : Range)
  | IdentifierExpr (name : Range)
  | CallExpr (callee : Range) (args : List Expr) (range : Range)
  | BinaryExpr (op : Op) (lhs rhs : Expr) (range : Range)
deriving Repr

/-- `Node::getRange` on an expression. -/
def Expr.getRange : Expr → Range
  | .NumberExpr _ r => r
  | .IdentifierExpr name => name
  | .CallExpr _ _ r => r
  | .BinaryExpr _ _ _ r => r

/-- The statements a statement list holds. `ExprStmt` takes its range from its
expression. -/
inductive Stmt where
  | ExprStmt (expr : Expr)
  | ReturnStmt (value : Expr) (range : Range)
deriving Repr

/-- `Node::getRange` on a statement. -/
def Stmt.getRange : Stmt → Range
  | .ExprStmt e => e.getRange
  | .ReturnStmt _ r => r

/-- `CompoundStmt`. In the class hierarchy it is a `Stmt` too; the only
compound statement the repository ever builds is the body of a function, and
the embedding types it as such. -/
structure CompoundStmt where
  Stmts : List Stmt
  range : Range
deriving Repr

/-- `ParamDecl`: its range is the range of its name. -/
structure ParamDecl where
  Name : Range
deriving DecidableEq, Repr

/-- `Node::getRange` on a parameter. -/
def ParamDecl.getRange (pd : ParamDecl) : Range := pd.Name

/-- `FunctionDecl`. -/
structure FunctionDecl where
  Name : Range
  Params : List ParamDecl
  Body : CompoundStmt
  range : Range
deriving Repr

/-- `TranslationUnit`. -/
structure TranslationUnit where
  FNs : List FunctionDecl
  range : Range
deriving Repr

/-! ## Parser (`Parser.cpp`) -/

/-- What the front end uses from outside the sources at hand:
`llvm::StringRef::getAsDouble` (`none` when the conversion fails), the
spellings of the `TOKEN` entries of `Token.def`, and the constant folder of
`llvm::IRBuilder` (`none` when it does not fold). -/
structure Extern where
  getAsDouble : List Nat → Option Double
  tokenSpelling : Token → String
  foldBinOp : Op → Double → Double → Option Double

/-- The local struct `Expected`. -/
inductive Expected where
  | Token (token : Token)
  | Expr
deriving DecidableEq, Repr

/-- `operator<<(raw_ostream &, Expected)`. -/
def Expected.print (X : Extern) : Expected → String
  | .Token t => t.spelling X.tokenSpelling
  | .Expr => "expression"

/-- `BinaryExprOp::Create`. -/
def BinaryExprOp.Create : Token → Option Op
  | .Equal => some .Assign
  | .Plus => some .Add
  | .Minus => some .Sub
  | .Star => some .Mul
  | .Slash => some .Div
  | .EndOfFile | .Invalid | .Identifier | .Number | .Function | .Return | .End
  | .Comma | .LParen | .RParen => none

/-- `BinaryExprOp::getPrecedence`. -/
def Op.getPrecedence : Op → Int
  | .Assign => 10
  | .Add | .Sub => 20
  | .Mul | .Div => 30

/-- `BinaryExprOp::isRightAssociative`. -/
def Op.isRightAssociative : Op → Bool
  | .Assign => true
  | .Add | .Sub | .Mul | .Div => false

/-- The struct `Parser`: what was written to `OS`, and the lexer. -/
structure Parser where
  OS : String
  TheLexer : Lexer

/-- The result of a parsing function: a node (`ok`), `nullptr` (`null`), each
with the parser after the call; or the loop budget of the embedding ran out. -/
inductive Result (α : Type) where
  | ok (value : α) (P : Parser)
  | null (P : Parser)
  | outOfFuel

/-- The idiom `if (!node) return nullptr;`: the rest of a parsing function,
`f`, runs on a node; `nullptr` is handed on to the caller. -/
def Result.bind {α β : Type} (r : Result α) (f : α → Parser → Result β) : Result β :=
  match r with
  | .ok a P => f a P
  | .null P => .null P
  | .outOfFuel => .outOfFuel

namespace Parser

/-- The text one call of `Parser::error` writes. -/
def errorText (X : Extern) (file : File) (range : Range) (expected : Expected)
    (context : String) : String :=
  "error: expected " ++ expected.print X ++ " " ++ context ++ "\n"
    ++ file.print range ++ "\n"

/-- `Parser::error`: writes the diagnostic; the caller returns `nullptr`. -/
def error (X : Extern) (P : Parser) (expected : Expected) (context : String) : Parser :=
  { P with OS := P.OS ++ errorText X P.TheLexer.File P.TheLexer.getRange expected context }

/-- `TheLexer.consume(token)`. -/
def consume (P : Parser) (token : Token) : Parser :=
  { P with TheLexer := P.TheLexer.consume token }

/-- `TheLexer.getCurrent()`. -/
def getCurrent (P : Parser) : Token := P.TheLexer.getCurrent

/-- `Parser::parseNumberExpr`. -/
def parseNumberExpr (X : Extern) (context : String) (P : Parser) : Result Expr :=
  let range := P.TheLexer.getRange
  match X.getAsDouble (P.TheLexer.File.slice range) with
  | none => .null (P.error X (.Token .Number) context)
  | some value => .ok (.NumberExpr value range) (P.consume .Number)

mutual

/-- `Parser::parsePrimaryExpr`. -/
def parsePrimaryExpr (X : Extern) : Nat → String → Parser → Result Expr
  | 0, _, _ => .outOfFuel
  | fuel + 1, context, P =>
    match P.getCurrent with
    | .Number => parseNumberExpr X context P
    | .Identifier => parseIdentifierOrCallExpr X fuel P
    | .EndOfFile | .Invalid | .Function | .Return | .End | .Equal | .Comma
    | .LParen | .RParen | .Plus | .Minus | .Star | .Slash =>
      .null (P.error X .Expr context)

/-- `Parser::parseIdentifierOrCallExpr`. -/
def parseIdentifierOrCallExpr (X : Extern) : Nat → Parser → Result Expr
  | 0, _ => .outOfFuel
  | fuel + 1, P =>
    let name := P.TheLexer.getRange
    let P1 := P.consume .Identifier
    if P1.getCurrent ≠ .LParen then .ok (.IdentifierExpr name) P1
    else
      let P2 := P1.consume .LParen
      (parseArgs X fuel [] P2).bind fun args P3 =>
        if P3.getCurrent ≠ .RParen then
          .null (P3.error X (.Token .RParen) "after call argument list")
        else
          let e := P3.TheLexer.getRange.End
          .ok (.CallExpr name args ⟨name.Begin, e⟩) (P3.consume .RParen)

/-- The argument loop of `parseIdentifierOrCallExpr`:
`while (TheLexer.getCurrent() != Token::RParen)`, entered with `args`. -/
def parseArgs (X : Extern) : Nat → List Expr → Parser → Result (List Expr)
  | 0, _, _ => .outOfFuel
  | fuel + 1, args, P =>
    if P.getCurrent ≠ .RParen then
      (parseBinaryExpr X fuel 0 "in call argument list" P).bind fun arg P1 =>
        if P1.getCurrent ≠ .Comma then .ok (args ++ [arg]) P1
        else parseArgs X fuel (args ++ [arg]) (P1.consume .Comma)
    else .ok args P

/-- `Parser::parseBinaryExpr`. -/
def parseBinaryExpr (X : Extern) : Nat → Int → String → Parser → Result Expr
  | 0, _, _, _ => .outOfFuel
  | fuel + 1, minPrec, context, P =>
    (parsePrimaryExpr X fuel context P).bind fun lhs P1 =>
      parseBinaryExprLoop X fuel minPrec lhs P1

/-- The `while (true)` loop of `parseBinaryExpr`, entered with `lhs`. -/
def parseBinaryExprLoop (X : Extern) : Nat → Int → Expr → Parser → Result Expr
  | 0, _, _, _ => .outOfFuel
  | fuel + 1, minPrec, lhs, P =>
    let token := P.getCurrent
    match BinaryExprOp.Create token with
    | none => .ok lhs P
    | some binaryExprOp =>
      if binaryExprOp.getPrecedence < minPrec then .ok lhs P
      else
        let P1 := P.consume token
        let nextMinPrec :=
          if binaryExprOp.isRightAssociative then binaryExprOp.getPrecedence + 1
          else binaryExprOp.getPrecedence
        (parseBinaryExpr X fuel nextMinPrec
            "in the right-hand side of a binary expression" P1).bind fun rhs P2 =>
          let range : Range := ⟨lhs.getRange.Begin, rhs.getRange.End⟩
          parseBinaryExprLoop X fuel minPrec (.BinaryExpr binaryExprOp lhs rhs range) P2

end

/-- `Parser::parseExpr`. -/
def parseExpr (X : Extern) (fuel : Nat) (context : String) (P : Parser) : Result Expr :=
  parseBinaryExpr X fuel 0 context P

/-- `Parser::parseExprStmt`. -/
def parseExprStmt (X : Extern) (fuel : Nat) (context : String) (P : Parser) : Result Stmt :=
  (parseExpr X fuel context P).bind fun expr P1 => .ok (.ExprStmt expr) P1

/-- `Parser::parseReturnStmt`. -/
def parseReturnStmt (X : Extern) (fuel : Nat) (P : Parser) : Result Stmt :=
  let b := P.TheLexer.getRange.Begin
  let P1 := P.consume .Return
  (parseExpr X fuel "after return" P1).bind fun value P2 =>
    .ok (.ReturnStmt value ⟨b, value.getRange.End⟩) P2

/-- `Parser::parseStmt`. -/
def parseStmt (X : Extern) (fuel : Nat) (context : String) (P : Parser) : Result Stmt :=
  match P.getCurrent with
  | .Return => parseReturnStmt X fuel P
  | .EndOfFile | .Invalid | .Identifier | .Number | .Function | .End | .Equal
  | .Comma | .LParen | .RParen | .Plus | .Minus | .Star | .Slash =>
    parseExprStmt X fuel context P

/-- The statement loop of `parseCompoundStmt`:
`while (TheLexer.getCurrent() != Token::End)`, entered with `stmts`. -/
def parseStmts (X : Extern) : Nat → String → List Stmt → Parser → Result (List Stmt)
  | 0, _, _, _ => .outOfFuel
  | fuel + 1, context, stmts, P =>
    if P.getCurrent ≠ .End then
      (parseStmt X fuel context P).bind fun stmt P1 =>
        parseStmts X fuel context (stmts ++ [stmt]) P1
    else .ok stmts P

/-- `Parser::parseCompoundStmt`. -/
def parseCompoundStmt (X : Extern) (fuel : Nat) (context : String) (P : Parser) :
    Result CompoundStmt :=
  let b := P.TheLexer.getRange.Begin
  (parseStmts X fuel context [] P).bind fun stmts P1 =>
    let e := P1.TheLexer.getRange.End
    .ok ⟨stmts, ⟨b, e⟩⟩ (P1.consume .End)

/-- The parameter loop of `parseFunctionDecl`:
`while (TheLexer.getCurrent() != Token::RParen)`, entered with `params`. -/
def parseParams (X : Extern) : Nat → List ParamDecl → Parser → Result (List ParamDecl)
  | 0, _, _ => .outOfFuel
  | fuel + 1, params, P =>
    if P.getCurrent ≠ .RParen then
      if P.getCurrent ≠ .Identifier then
        .null (P.error X (.Token .Identifier) "in function parameter list")
      else
        let name := P.TheLexer.getRange
        let P1 := P.consume .Identifier
        if P1.getCurrent ≠ .Comma then .ok (params ++ [⟨name⟩]) P1
        else parseParams X fuel (params ++ [⟨name⟩]) (P1.consume .Comma)
    else .ok params P

/-- `Parser::parseFunctionDecl`. -/
def parseFunctionDecl (X : Extern) (fuel : Nat) (context : String) (P : Parser) :
    Result FunctionDecl :=
  if P.getCurrent ≠ .Function then .null (P.error X (.Token .Function) context)
  else
    let b := P.TheLexer.getRange.Begin
    let P1 := P.consume .Function
    if P1.getCurrent ≠ .Identifier then
      .null (P1.error X (.Token .Identifier) "after function")
    else
      let name := P1.TheLexer.getRange
      let P2 := P1.consume .Identifier
      if P2.getCurrent ≠ .LParen then
        .null (P2.error X (.Token .LParen) "after function identifier")
      else
        let P3 := P2.consume .LParen
        (parseParams X fuel [] P3).bind fun params P4 =>
          if P4.getCurrent ≠ .RParen then
            .null (P4.error X (.Token .RParen) "after function parameter list")
          else
            let P5 := P4.consume .RParen
            (parseCompoundStmt X fuel "in function body" P5).bind fun body P6 =>
              .ok ⟨name, params, body, ⟨b, body.range.End⟩⟩ P6

/-- The loop of `parseTranslationUnit`:
`while (TheLexer.getCurrent() != Token::EndOfFile)`, entered with `fns`. -/
def parseFunctions (X : Extern) : Nat → List FunctionDecl → Parser →
    Result (List FunctionDecl)
  | 0, _, _ => .outOfFuel
  | fuel + 1, fns, P =>
    if P.getCurrent ≠ .EndOfFile then
      (parseFunctionDecl X fuel "at top level" P).bind fun fn P1 =>
        parseFunctions X fuel (fns ++ [fn]) P1
    else .ok fns P

/-- `Parser::parseTranslationUnit`. -/
def parseTranslationUnit (X : Extern) (fuel : Nat) (P : Parser) : Result TranslationUnit :=
  let b := P.TheLexer.getRange.Begin
  let P0 : Parser := { P with TheLexer := P.TheLexer.next }
  (parseFunctions X fuel [] P0).bind fun fns P1 =>
    let e := P1.TheLexer.getRange.End
    .ok ⟨fns, ⟨b, e⟩⟩ (P1.consume .EndOfFile)

end Parser

/-- The loop budget with which `Parse` runs the parser on a file: no file
needs more (`Parse_total`). -/
def parseFuel (file : File) : Nat := 2 * file.size + 8

/-- `mua::parser::Parse`: the parser runs on a fresh lexer over `file` and
writes to `os`. -/
def Parse (X : Extern) (file : File) (os : String) : Result TranslationUnit :=
  Parser.parseTranslationUnit X (parseFuel file) ⟨os, Lexer.init file⟩

/-! ## Walker (`Walker.h`) -/

/-- A node of any kind, as `Walker::walk` takes it (`const Node &`). -/
inductive Node where
  | Expr (e : Expr)
  | Stmt (s : Stmt)
  | CompoundStmt (cs : CompoundStmt)
  | ParamDecl (pd : ParamDecl)
  | FunctionDecl (fn : FunctionDecl)
  | TranslationUnit (tu : TranslationUnit)

/-- A visitor over the state `σ`: the overload set `onEnter` / `onExit` a walk
calls. The first eight hooks are the overloads taken for the base classes
`Node`, `Expr`, `Stmt` and `Decl`, the others the overloads of the ten node
kinds. -/
structure Visitor (σ : Type) where
  onEnterNode : Node → σ → Bool × σ
  onExitNode : Node → σ → σ
  onEnterExpr : Expr → σ → Bool × σ
  onExitExpr : Expr → σ → σ
  onEnterStmt : Node → σ → Bool × σ
  onExitStmt : Node → σ → σ
  onEnterDecl : Node → σ → Bool × σ
  onExitDecl : Node → σ → σ
  onEnterNumberExpr : Expr → σ → Bool × σ
  onExitNumberExpr : Expr → σ → σ
  onEnterIdentifierExpr : Expr → σ → Bool × σ
  onExitIdentifierExpr : Expr → σ → σ
  onEnterCallExpr : Expr → σ → Bool × σ
  onExitCallExpr : Expr → σ → σ
  onEnterBinaryExpr : Expr → σ → Bool × σ
  onExitBinaryExpr : Expr → σ → σ
  onEnterExprStmt : Stmt → σ → Bool × σ
  onExitExprStmt : Stmt → σ → σ
  onEnterReturnStmt : Stmt → σ → Bool × σ
  onExitReturnStmt : Stmt → σ → σ
  onEnterCompoundStmt : CompoundStmt → σ → Bool × σ
  onExitCompoundStmt : CompoundStmt → σ → σ
  onEnterParamDecl : ParamDecl → σ → Bool × σ
  onExitParamDecl : ParamDecl → σ → σ
  onEnterFunctionDecl : FunctionDecl → σ → Bool × σ
  onExitFunctionDecl : FunctionDecl → σ → σ
  onEnterTranslationUnit : TranslationUnit → σ → Bool × σ
  onExitTranslationUnit : TranslationUnit → σ → σ

/-- The catch-all templates `onEnter(const T &)`, which returns `true`, and
`onExit(const T &)`, which does nothing: every visitor of the repository has
them, and overrides the hooks of some node kinds. -/
def Visitor.base (σ : Type) : Visitor σ where
  onEnterNode := fun _ s => (true, s)
  onExitNode := fun _ s => s
  onEnterExpr := fun _ s => (true, s)
  onExitExpr := fun _ s => s
  onEnterStmt := fun _ s => (true, s)
  onExitStmt := fun _ s => s
  onEnterDecl := fun _ s => (true, s)
  onExitDecl := fun _ s => s
  onEnterNumberExpr := fun _ s => (true, s)
  onExitNumberExpr := fun _ s => s
  onEnterIdentifierExpr := fun _ s => (true, s)
  onExitIdentifierExpr := fun _ s => s
  onEnterCallExpr := fun _ s => (true, s)
  onExitCallExpr := fun _ s => s
  onEnterBinaryExpr := fun _ s => (true, s)
  onExitBinaryExpr := fun _ s => s
  onEnterExprStmt := fun _ s => (true, s)
  onExitExprStmt := fun _ s => s
  onEnterReturnStmt := fun _ s => (true, s)
  onExitReturnStmt := fun _ s => s
  onEnterCompoundStmt := fun _ s => (true, s)
  onExitCompoundStmt := fun _ s => s
  onEnterParamDecl := fun _ s => (true, s)
  onExitParamDecl := fun _ s => s
  onEnterFunctionDecl := fun _ s => (true, s)
  onExitFunctionDecl := fun _ s => s
  onEnterTranslationUnit := fun _ s => (true, s)
  onExitTranslationUnit := fun _ s => s

namespace Walker

/-- `if (onEnter(node)) ... onExit(node);` as `walkChildren` has it: `children`
walks the children. -/
def entered {σ : Type} (r : Bool × σ) (children : σ → σ) (onExit : σ → σ) : σ :=
  if r.1 then onExit (children r.2) else r.2

/-- The frame of `Walker::walk` around the `switch` for an expression: the
hooks of `Node` and of `Expr` on the way in, with the early returns, and on the
way out. -/
def aroundExpr {σ : Type} (v : Visitor σ) (e : Expr) (s : σ) (kind : σ → σ) : σ :=
  let r1 := v.onEnterNode (.Expr e) s
  if !r1.1 then r1.2
  else
    let r2 := v.onEnterExpr e r1.2
    if !r2.1 then r2.2
    else v.onExitNode (.Expr e) (v.onExitExpr e (kind r2.2))

/-- The same frame for a statement or a declaration (`n`), with the hooks of
`Stmt` or of `Decl`. -/
def around {σ : Type} (v : Visitor σ) (n : Node) (onEnterBase : Node → σ → Bool × σ)
    (onExitBase : Node → σ → σ) (s : σ) (kind : σ → σ) : σ :=
  let r1 := v.onEnterNode n s
  if !r1.1 then r1.2
  else
    let r2 := onEnterBase n r1.2
    if !r2.1 then r2.2
    else v.onExitNode n (onExitBase n (kind r2.2))

mutual

/-- `Walker::walk` on an expression, with the `walkChildren` of its kind. -/
def walkExpr {σ : Type} (v : Visitor σ) : Expr → σ → σ
  | .NumberExpr value range, s =>
    aroundExpr v (.NumberExpr value range) s fun s1 =>
      entered (v.onEnterNumberExpr (.NumberExpr value range) s1) (fun s2 => s2)
        (v.onExitNumberExpr (.NumberExpr value range))
  | .IdentifierExpr name, s =>
    aroundExpr v (.IdentifierExpr name) s fun s1 =>
      entered (v.onEnterIdentifierExpr (.IdentifierExpr name) s1) (fun s2 => s2)
        (v.onExitIdentifierExpr (.IdentifierExpr name))
  | .CallExpr callee args range, s =>
    aroundExpr v (.CallExpr callee args range) s fun s1 =>
      entered (v.onEnterCallExpr (.CallExpr callee args range) s1)
        (fun s2 => walkExprs v args s2) (v.onExitCallExpr (.CallExpr callee args range))
  | .BinaryExpr op lhs rhs range, s =>
    aroundExpr v (.BinaryExpr op lhs rhs range) s fun s1 =>
      entered (v.onEnterBinaryExpr (.BinaryExpr op lhs rhs range) s1)
        (fun s2 => walkExpr v rhs (walkExpr v lhs s2))
        (v.onExitBinaryExpr (.BinaryExpr op lhs rhs range))

/-- The loop `for (const ExprPtr &arg : call.getArgs()) walk(*arg);`. -/
def walkExprs {σ : Type} (v : Visitor σ) : List Expr → σ → σ
  | [], s => s
  | e :: es, s => walkExprs v es (walkExpr v e s)

end

/-- `Walker::walk` on a statement of a statement list. -/
def walkStmt {σ : Type} (v : Visitor σ) (st : Stmt) (s : σ) : σ :=
  around v (.Stmt st) v.onEnterStmt v.onExitStmt s fun s1 =>
    match st with
    | .ExprStmt expr =>
      entered (v.onEnterExprStmt st s1) (fun s2 => walkExpr v expr s2) (v.onExitExprStmt st)
    | .ReturnStmt value _ =>
      entered (v.onEnterReturnStmt st s1) (fun s2 => walkExpr v value s2)
        (v.onExitReturnStmt st)

/-- `Walker::walk` on a compound statement. -/
def walkCompoundStmt {σ : Type} (v : Visitor σ) (cs : CompoundStmt) (s : σ) : σ :=
  around v (.CompoundStmt cs) v.onEnterStmt v.onExitStmt s fun s1 =>
    entered (v.onEnterCompoundStmt cs s1)
      (fun s2 => cs.Stmts.foldl (fun acc st => walkStmt v st acc) s2)
      (v.onExitCompoundStmt cs)

/-- `Walker::walk` on a parameter. -/
def walkParamDecl {σ : Type} (v : Visitor σ) (pd : ParamDecl) (s : σ) : σ :=
  around v (.ParamDecl pd) v.onEnterDecl v.onExitDecl s fun s1 =>
    entered (v.onEnterParamDecl pd s1) (fun s2 => s2) (v.onExitParamDecl pd)

/-- `Walker::walk` on a function. -/
def walkFunctionDecl {σ : Type} (v : Visitor σ) (fn : FunctionDecl) (s : σ) : σ :=
  around v (.FunctionDecl fn) v.onEnterDecl v.onExitDecl s fun s1 =>
    entered (v.onEnterFunctionDecl fn s1)
      (fun s2 => walkCompoundStmt v fn.Body
        (fn.Params.foldl (fun acc pd => walkParamDecl v pd acc) s2))
      (v.onExitFunctionDecl fn)

/-- `Walker::walk` on a translation unit, which is neither an `Expr`, a `Stmt`
nor a `Decl`. -/
def walkTranslationUnit {σ : Type} (v : Visitor σ) (tu : TranslationUnit) (s : σ) : σ :=
  let r1 := v.onEnterNode (.TranslationUnit tu) s
  if !r1.1 then r1.2
  else
    v.onExitNode (.TranslationUnit tu)
      (entered (v.onEnterTranslationUnit tu r1.2)
        (fun s2 => tu.FNs.foldl (fun acc fn => walkFunctionDecl v fn acc) s2)
        (v.onExitTranslationUnit tu))

end Walker

/-- `mua::ast::Walk` on a translation unit. -/
def Walk {σ : Type} (tu : TranslationUnit) (v : Visitor σ) (s : σ) : σ :=
  Walker.walkTranslationUnit v tu s

/-! ## Scopes and symbols (`Symbol.h`, `Symbol.cpp`)

The scopes of one analysis live in a `ScopeTree`, a store of scopes; a
`Scope *` is the index of a scope in the store (a `ScopeId`) and a `Symbol *`
is a scope together with the index of a symbol in it (a `SymbolRef`). The
global scope is the scope `0`. -/

/-- `Symbol::Kind`. -/
inductive SymbolKind where
  | Param | Function | Var
deriving DecidableEq, Repr

/-- A `Scope *`. -/
abbrev ScopeId := Nat

/-- A `Symbol *`: the scope that holds the symbol and the position of the
symbol in that scope, in the order of declaration. -/
structure SymbolRef where
  scope : ScopeId
  index : Nat
deriving DecidableEq, Repr

/-- `Symbol`: its kind, its name and the scope it owns (`TheScope`). -/
structure Symbol where
  TheKind : SymbolKind
  Name : Range
  TheScope : Option ScopeId
deriving DecidableEq, Repr

/-- `Scope`: its parent, the symbol it belongs to and its symbols, in the
order of declaration (the `llvm::StringMap` of the source keeps no order, and
`getSymbols` sorts what it returns). -/
structure Scope where
  Parent : Option ScopeId
  TheSymbol : Option SymbolRef
  Symbols : List Symbol
deriving DecidableEq, Repr

/-- The store of the scopes of one analysis. -/
structure ScopeTree where
  scopes : List Scope
deriving DecidableEq, Repr

namespace ScopeTree

/-- The scope behind a `Scope *`. -/
def get? (T : ScopeTree) (id : ScopeId) : Option Scope := T.scopes.get? id

/-- The symbol behind a `Symbol *`. -/
def symbol? (T : ScopeTree) (r : SymbolRef) : Option Symbol :=
  match T.get? r.scope with
  | some sc => sc.Symbols.get? r.index
  | none => none

/-- `Symbols.find(name)` in one scope: names are compared as the bytes they
view in the file. -/
def find (file : File) (sc : Scope) (name : Range) : Option Nat :=
  let i := sc.Symbols.findIdx (fun sym => file.slice sym.Name == file.slice name)
  if i < sc.Symbols.length then some i else none

/-- `Scope::lookup`: the loop over the scope and its parents. The loop budget
is the number of scopes of the store, which no chain of parents exceeds. -/
def lookupFrom (file : File) (T : ScopeTree) : Nat → Option ScopeId → Range → Option SymbolRef
  | 0, _, _ => none
  | _, none, _ => none
  | fuel + 1, some id, name =>
    match T.get? id with
    | none => none
    | some sc =>
      match find file sc name with
      | some i => some ⟨id, i⟩
      | none => lookupFrom file T fuel sc.Parent name

/-- `Scope::lookup` on the scope `id`. -/
def lookup (file : File) (T : ScopeTree) (id : ScopeId) (name : Range) : Option SymbolRef :=
  lookupFrom file T (T.scopes.length + 1) (some id) name

/-- `Scope::declare` on the scope `id`: the symbol, whether it was declared by
this call, and the store after the call. -/
def declare (file : File) (T : ScopeTree) (id : ScopeId) (kind : SymbolKind) (name : Range) :
    Option SymbolRef × Bool × ScopeTree :=
  match lookup file T id name with
  | some sym => (some sym, false, T)
  | none =>
    match T.get? id with
    | none => (none, false, T)
    | some sc =>
      let ref : SymbolRef := ⟨id, sc.Symbols.length⟩
      match kind with
      | .Function =>
        let child : ScopeId := T.scopes.length
        let sc1 : Scope := { sc with Symbols := sc.Symbols ++ [⟨kind, name, some child⟩] }
        (some ref, true, ⟨T.scopes.set id sc1 ++ [⟨some id, some ref, []⟩]⟩)
      | .Param | .Var =>
        let sc1 : Scope := { sc with Symbols := sc.Symbols ++ [⟨kind, name, none⟩] }
        (some ref, true, ⟨T.scopes.set id sc1⟩)

/-- Insertion of a symbol into a list sorted by `Range::operator<` on the
names. -/
def insertSorted (x : SymbolRef × Symbol) : List (SymbolRef × Symbol) → List (SymbolRef × Symbol)
  | [] => [x]
  | y :: ys => if Range.lt x.2.Name y.2.Name then x :: y :: ys else y :: insertSorted x ys

/-- `llvm::sort` by `Range::operator<` on the names. -/
def sortSymbols (l : List (SymbolRef × Symbol)) : List (SymbolRef × Symbol) :=
  l.foldr insertSorted []

/-- `Scope::getSymbols` on the scope `id`. -/
def getSymbols (T : ScopeTree) (id : ScopeId) (kind : Option SymbolKind) : List SymbolRef :=
  match T.get? id with
  | none => []
  | some sc =>
    let all := (List.range sc.Symbols.length).zip sc.Symbols
    let kept := all.filter (fun p => kind.isNone || (some p.2.TheKind == kind))
    (sortSymbols (kept.map (fun p => ((⟨id, p.1⟩ : SymbolRef), p.2)))).map (fun p => p.1)

/-- The constructor `Scope(nullptr)`: a store with the global scope only. -/
def init : ScopeTree := ⟨[⟨none, none, []⟩]⟩

end ScopeTree

/-! ## Semantic analysis (`Sema.cpp`) -/

/-- The state of `AnalyzerVisitor`. `Undefined` is set where the source
dereferences a null pointer; a walk over a translation unit never sets it. -/
structure AnalyzerVisitor where
  OS : String
  GlobalScope : ScopeTree
  CurrentScope : Option ScopeId
  Error : Bool
  Undefined : Bool
deriving DecidableEq, Repr

namespace AnalyzerVisitor

/-- `AnalyzerVisitor::error`. -/
def error (file : File) (A : AnalyzerVisitor) (range : Range) (message : String) :
    AnalyzerVisitor :=
  { A with OS := A.OS ++ "error: " ++ message ++ "\n" ++ file.print range ++ "\n",
           Error := true }

/-- `AnalyzerVisitor::note`. -/
def note (file : File) (A : AnalyzerVisitor) (range : Range) (message : String) :
    AnalyzerVisitor :=
  { A with OS := A.OS ++ "note: " ++ message ++ "\n" ++ file.print range ++ "\n" }

/-- A `Text` in a message. -/
def text (file : File) (name : Range) : String := bytesToString (file.slice name)

/-- The range of the name of a symbol, for a note. -/
def nameRange (A : AnalyzerVisitor) (sym : SymbolRef) : Range :=
  match A.GlobalScope.symbol? sym with
  | some s => s.Name
  | none => ⟨0, 0⟩

/-- `onEnter(const ast::IdentifierExpr &)`. -/
def onEnterIdentifierExpr (file : File) (e : Expr) (A : AnalyzerVisitor) :
    Bool × AnalyzerVisitor :=
  match e, A.CurrentScope with
  | .IdentifierExpr name, some cur =>
    (true, { A with GlobalScope := (A.GlobalScope.declare file cur .Var name).2.2 })
  | _, _ => (true, { A with Undefined := true })

/-- `onEnter(const ast::CallExpr &)`. -/
def onEnterCallExpr (file : File) (e : Expr) (A : AnalyzerVisitor) : Bool × AnalyzerVisitor :=
  match e, A.CurrentScope with
  | .CallExpr callee args range, some cur =>
    match A.GlobalScope.lookup file cur callee with
    | none => (false, A.error file range ("use of undeclared function " ++ text file callee))
    | some ref =>
      match A.GlobalScope.symbol? ref with
      | none => (false, { A with Undefined := true })
      | some symbol =>
        if symbol.TheKind ≠ .Function then
          (false, ((A.error file range
            ("called object " ++ text file callee ++ " is not a function")).note file
              symbol.Name "previous definition is here"))
        else
          match symbol.TheScope with
          | none => (false, { A with Undefined := true })
          | some scope =>
            if args.length ≠ (A.GlobalScope.getSymbols scope (some .Param)).length then
              (false, A.error file range ("call to function " ++ text file callee
                ++ " with incorrect number of arguments"))
            else (true, A)
  | _, _ => (false, { A with Undefined := true })

/-- `onEnter(const ast::BinaryExpr &)`. -/
def onEnterBinaryExpr (file : File) (e : Expr) (A : AnalyzerVisitor) : Bool × AnalyzerVisitor :=
  match e with
  | .BinaryExpr .Assign lhs _ _ =>
    match lhs with
    | .IdentifierExpr _ => (true, A)
    | _ => (false, A.error file lhs.getRange "expression is not assignable")
  | _ => (true, A)

/-- `onEnter(const ast::ParamDecl &)`. -/
def onEnterParamDecl (file : File) (pd : ParamDecl) (A : AnalyzerVisitor) :
    Bool × AnalyzerVisitor :=
  match A.CurrentScope with
  | none => (false, { A with Undefined := true })
  | some cur =>
    match A.GlobalScope.declare file cur .Param pd.Name with
    | (some symbol, false, _) =>
      (false, ((A.error file pd.getRange
        ("redefinition of parameter " ++ text file pd.Name)).note file
          (A.nameRange symbol) "previous definition is here"))
    | (_, true, T) => (true, { A with GlobalScope := T })
    | (none, false, _) => (false, { A with Undefined := true })

/-- `onEnter(const ast::FunctionDecl &)`. -/
def onEnterFunctionDecl (file : File) (fn : FunctionDecl) (A : AnalyzerVisitor) :
    Bool × AnalyzerVisitor :=
  match A.CurrentScope with
  | none => (false, { A with Undefined := true })
  | some cur =>
    match A.GlobalScope.declare file cur .Function fn.Name with
    | (some symbol, false, _) =>
      (false, ((A.error file fn.range
        ("redefinition of function " ++ text file fn.Name)).note file
          (A.nameRange symbol) "previous definition is here"))
    | (some symbol, true, T) =>
      match T.symbol? symbol with
      | some sym => (true, { A with GlobalScope := T, CurrentScope := sym.TheScope })
      | none => (false, { A with Undefined := true })
    | (none, _, _) => (false, { A with Undefined := true })

/-- `onExit(const ast::FunctionDecl &)`. -/
def onExitFunctionDecl (file : File) (fn : FunctionDecl) (A : AnalyzerVisitor) :
    AnalyzerVisitor :=
  let A1 :=
    match fn.Body.Stmts.getLast? with
    | none =>
      A.error file fn.range
        ("function " ++ text file fn.Name ++ " must end with a return statement")
    | some (.ReturnStmt _ _) => A
    | some last =>
      A.error file last.getRange
        ("last statement of function " ++ text file fn.Name
          ++ " must be a return statement")
  match A1.CurrentScope with
  | none => { A1 with Undefined := true }
  | some cur =>
    match A1.GlobalScope.get? cur with
    | none => { A1 with Undefined := true }
    | some sc => { A1 with CurrentScope := sc.Parent }

/-- The visitor: the hooks `AnalyzerVisitor` overrides, over the catch-all
templates. -/
def visitor (file : File) : Visitor AnalyzerVisitor :=
  { Visitor.base AnalyzerVisitor with
    onEnterIdentifierExpr := onEnterIdentifierExpr file
    onEnterCallExpr := onEnterCallExpr file
    onEnterBinaryExpr := onEnterBinaryExpr file
    onEnterParamDecl := onEnterParamDecl file
    onEnterFunctionDecl := onEnterFunctionDecl file
    onExitFunctionDecl := onExitFunctionDecl file }

/-- The constructor of `AnalyzerVisitor`, on a stream that holds `os`. -/
def init (os : String) : AnalyzerVisitor :=
  { OS := os, GlobalScope := ScopeTree.init, CurrentScope := some 0, Error := false,
    Undefined := false }

/-- `AnalyzerVisitor::takeGlobalScope`. -/
def takeGlobalScope (A : AnalyzerVisitor) : Option ScopeTree :=
  if A.Error then none else some A.GlobalScope

end AnalyzerVisitor

/-- `mua::sema::Analyze`: the global scope (`none` for `nullptr`) and the
stream after the call; `file` is the file the ranges of `tu` point into. The
result is `none` where the source dereferences a null pointer. -/
def Analyze (file : File) (tu : TranslationUnit) (os : String) :
    Option (Option ScopeTree × String) :=
  let A := Walk tu (AnalyzerVisitor.visitor file) (AnalyzerVisitor.init os)
  if A.Undefined then none else some (A.takeGlobalScope, A.OS)

/-! ## Lowering (`Lower.cpp`)

The part of LLVM the lowering uses is modelled as data: a module is a list of
functions, a function has a name, a number of parameters and one basic block,
the entry block, which is a list of instructions. -/

namespace IR

/-- An `llvm::Value *` of the lowering: a floating-point constant, the `i`-th
argument of the function `fn` of the module, or the result of the `i`-th
instruction of the entry block of the function `fn`. -/
inductive Value where
  | ConstantFP (value : Double)
  | Argument (fn i : Nat)
  | Instruction (fn i : Nat)
deriving DecidableEq, Repr

/-- The instructions the lowering creates. The callee of a `Call` is the index
of a function of the module, `none` for a null pointer. -/
inductive Instr where
  | Alloca (name : List Nat)
  | Store (value addr : Value)
  | Load (addr : Value) (name : List Nat)
  | FAdd (lhs rhs : Value)
  | FSub (lhs rhs : Value)
  | FMul (lhs rhs : Value)
  | FDiv (lhs rhs : Value)
  | Call (callee : Option Nat) (args : List Value)
  | Ret (value : Value)
deriving DecidableEq, Repr

/-- An `llvm::Function` with its entry block. -/
structure Function where
  Name : List Nat
  NumParams : Nat
  Entry : List Instr
deriving DecidableEq, Repr

/-- An `llvm::Module`. -/
structure Module where
  ModuleID : String
  SourceFileName : String
  Functions : List Function
deriving DecidableEq, Repr

/-- `Module::getFunction`: the function of that name, if any. -/
def Module.getFunction (M : Module) (name : List Nat) : Option Nat :=
  let i := M.Functions.findIdx (fun f => f.Name == name)
  if i < M.Functions.length then some i else none

end IR

/-- `IRUnit`: the module (the `LLVMContext` it comes with holds no data of the
model). -/
structure IRUnit where
  Module : IR.Module
deriving DecidableEq, Repr

/-- The state of `LowerToLLVMIRVisitor`: the module, the current scope, the
function whose entry block is the insertion point of the `IRBuilder`, and the
map from symbols to addresses. `Undefined` is set where the source
dereferences a null pointer or a failed `at`. -/
structure LowerToLLVMIRVisitor where
  Module : IR.Module
  CurrentScope : Option ScopeId
  InsertPoint : Option Nat
  SymbolToValue : List (SymbolRef × IR.Value)
  Undefined : Bool
deriving DecidableEq, Repr

namespace LowerToLLVMIRVisitor

/-- An instruction appended at the insertion point of the `IRBuilder`: the
value of the instruction and the state after. -/
def insert (V : LowerToLLVMIRVisitor) (i : IR.Instr) : IR.Value × LowerToLLVMIRVisitor :=
  match V.InsertPoint with
  | none => (.ConstantFP ⟨0⟩, { V with Undefined := true })
  | some fn =>
    match V.Module.Functions.get? fn with
    | none => (.ConstantFP ⟨0⟩, { V with Undefined := true })
    | some f =>
      (.Instruction fn f.Entry.length,
        { V with Module := { V.Module with
            Functions := V.Module.Functions.set fn { f with Entry := f.Entry ++ [i] } } })

/-- `SymbolToValue.at(symbol)`. -/
def addressOf (V : LowerToLLVMIRVisitor) (symbol : Option SymbolRef) : Option IR.Value :=
  match symbol with
  | none => none
  | some ref => (V.SymbolToValue.find? (fun p => p.1 == ref)).map (fun p => p.2)

/-- `SymbolToValue[symbol] = value`. -/
def setAddress (V : LowerToLLVMIRVisitor) (ref : SymbolRef) (value : IR.Value) :
    LowerToLLVMIRVisitor :=
  { V with SymbolToValue := (ref, value) :: V.SymbolToValue.filter (fun p => p.1 != ref) }

/-- `IRBuilder.CreateFAdd` and the like: the constant folder of the builder
comes first. -/
def createBinOp (X : Extern) (V : LowerToLLVMIRVisitor) (op : Op) (lhs rhs : IR.Value) :
    IR.Value × LowerToLLVMIRVisitor :=
  let folded :=
    match lhs, rhs with
    | .ConstantFP a, .ConstantFP b => X.foldBinOp op a b
    | _, _ => none
  match folded with
  | some c => (.ConstantFP c, V)
  | none =>
    match op with
    | .Add => V.insert (.FAdd lhs rhs)
    | .Sub => V.insert (.FSub lhs rhs)
    | .Mul => V.insert (.FMul lhs rhs)
    | .Div => V.insert (.FDiv lhs rhs)
    | .Assign => (lhs, { V with Undefined := true })

/-- The name of a symbol, for the name of its `alloca`. -/
def symbolName (file : File) (T : ScopeTree) (ref : Option SymbolRef) : List Nat :=
  match ref with
  | none => []
  | some r =>
    match T.symbol? r with
    | some s => file.slice s.Name
    | none => []

mutual

/-- `LowerToLLVMIRVisitor::lower`. -/
def lower (X : Extern) (file : File) (T : ScopeTree) :
    Expr → LowerToLLVMIRVisitor → IR.Value × LowerToLLVMIRVisitor
  | .NumberExpr value _, V => (.ConstantFP value, V)
  | .IdentifierExpr name, V =>
    let symbol := V.CurrentScope.bind fun cur => T.lookup file cur name
    match V.addressOf symbol with
    | none => (.ConstantFP ⟨0⟩, { V with Undefined := true })
    | some addr => V.insert (.Load addr (symbolName file T symbol))
  | .CallExpr callee args _, V =>
    let fn := V.Module.getFunction (file.slice callee)
    let r := lowerArgs X file T args [] V
    r.2.insert (.Call fn r.1)
  | .BinaryExpr .Assign lhs rhs _, V =>
    match lhs with
    | .IdentifierExpr name =>
      let symbol := V.CurrentScope.bind fun cur => T.lookup file cur name
      let r := lower X file T rhs V
      match r.2.addressOf symbol with
      | none => (r.1, { r.2 with Undefined := true })
      | some addr => (r.1, (r.2.insert (.Store r.1 addr)).2)
    | _ => (.ConstantFP ⟨0⟩, { V with Undefined := true })
  | .BinaryExpr .Add lhs rhs _, V =>
    let l := lower X file T lhs V
    let r := lower X file T rhs l.2
    createBinOp X r.2 .Add l.1 r.1
  | .BinaryExpr .Sub lhs rhs _, V =>
    let l := lower X file T lhs V
    let r := lower X file T rhs l.2
    createBinOp X r.2 .Sub l.1 r.1
  | .BinaryExpr .Mul lhs rhs _, V =>
    let l := lower X file T lhs V
    let r := lower X file T rhs l.2
    createBinOp X r.2 .Mul l.1 r.1
  | .BinaryExpr .Div lhs rhs _, V =>
    let l := lower X file T lhs V
    let r := lower X file T rhs l.2
    createBinOp X r.2 .Div l.1 r.1

/-- The loop over the arguments of a call in `lower`, entered with `acc`. -/
def lowerArgs (X : Extern) (file : File) (T : ScopeTree) :
    List Expr → List IR.Value → LowerToLLVMIRVisitor → List IR.Value × LowerToLLVMIRVisitor
  | [], acc, V => (acc, V)
  | arg :: rest, acc, V =>
    let r := lower X file T arg V
    lowerArgs X file T rest (acc ++ [r.1]) r.2

end

/-- `onEnter(const ast::ExprStmt &)`. -/
def onEnterExprStmt (X : Extern) (file : File) (T : ScopeTree) (st : Stmt)
    (V : LowerToLLVMIRVisitor) : Bool × LowerToLLVMIRVisitor :=
  match st with
  | .ExprStmt expr => (true, (lower X file T expr V).2)
  | _ => (true, V)

/-- `onEnter(const ast::ReturnStmt &)`. -/
def onEnterReturnStmt (X : Extern) (file : File) (T : ScopeTree) (st : Stmt)
    (V : LowerToLLVMIRVisitor) : Bool × LowerToLLVMIRVisitor :=
  match st with
  | .ReturnStmt value _ =>
    let r := lower X file T value V
    (true, (r.2.insert (.Ret r.1)).2)
  | _ => (true, V)

/-- The first loop of `onEnter(const ast::FunctionDecl &)`: a slot for each
parameter and the store of the incoming argument, `i` the index of the
argument. -/
def allocaParams (file : File) (T : ScopeTree) (fn : Nat) :
    List SymbolRef → Nat → LowerToLLVMIRVisitor → LowerToLLVMIRVisitor
  | [], _, V => V
  | symbol :: rest, i, V =>
    let a := V.insert (.Alloca (symbolName file T (some symbol)))
    let st := a.2.insert (.Store (.Argument fn i) a.1)
    allocaParams file T fn rest (i + 1) (st.2.setAddress symbol a.1)

/-- The second loop: a slot for each variable. -/
def allocaVars (file : File) (T : ScopeTree) :
    List SymbolRef → LowerToLLVMIRVisitor → LowerToLLVMIRVisitor
  | [], V => V
  | symbol :: rest, V =>
    let a := V.insert (.Alloca (symbolName file T (some symbol)))
    allocaVars file T rest (a.2.setAddress symbol a.1)

/-- `onEnter(const ast::FunctionDecl &)`. -/
def onEnterFunctionDecl (file : File) (T : ScopeTree) (fn : FunctionDecl)
    (V : LowerToLLVMIRVisitor) : Bool × LowerToLLVMIRVisitor :=
  let symbol := V.CurrentScope.bind fun cur => T.lookup file cur fn.Name
  match symbol.bind T.symbol? with
  | none => (true, { V with Undefined := true })
  | some sym =>
    match sym.TheScope with
    | none => (true, { V with Undefined := true })
    | some scope =>
      let params := T.getSymbols scope (some .Param)
      let function : IR.Function := ⟨file.slice sym.Name, params.length, []⟩
      let index := V.Module.Functions.length
      let V1 : LowerToLLVMIRVisitor :=
        { V with Module := { V.Module with Functions := V.Module.Functions ++ [function] },
                 InsertPoint := some index }
      let V2 := allocaParams file T index params 0 V1
      let V3 := allocaVars file T (T.getSymbols scope (some .Var)) V2
      (true, { V3 with CurrentScope := some scope })

/-- `onExit(const ast::FunctionDecl &)`: the `assert` on the verifier leaves no
trace in the state. -/
def onExitFunctionDecl (T : ScopeTree) (_fn : FunctionDecl) (V : LowerToLLVMIRVisitor) :
    LowerToLLVMIRVisitor :=
  match V.CurrentScope.bind T.get? with
  | none => { V with Undefined := true }
  | some sc => { V with CurrentScope := sc.Parent }

/-- `onEnter(const ast::TranslationUnit &)`. -/
def onEnterTranslationUnit (file : File) (_tu : TranslationUnit) (V : LowerToLLVMIRVisitor) :
    Bool × LowerToLLVMIRVisitor :=
  (true, { V with Module := { V.Module with SourceFileName := file.Filename } })

/-- The visitor: the hooks `LowerToLLVMIRVisitor` overrides, over the
catch-all templates. -/
def visitor (X : Extern) (file : File) (T : ScopeTree) : Visitor LowerToLLVMIRVisitor :=
  { Visitor.base LowerToLLVMIRVisitor with
    onEnterExprStmt := onEnterExprStmt X file T
    onEnterReturnStmt := onEnterReturnStmt X file T
    onEnterFunctionDecl := onEnterFunctionDecl file T
    onExitFunctionDecl := onExitFunctionDecl T
    onEnterTranslationUnit := onEnterTranslationUnit file }

/-- The constructor of `LowerToLLVMIRVisitor` on the global scope. -/
def init : LowerToLLVMIRVisitor :=
  { Module := ⟨"mua module", "", []⟩, CurrentScope := some 0, InsertPoint := none,
    SymbolToValue := [], Undefined := false }

/-- `LowerToLLVMIRVisitor::takeIRUnit`. -/
def takeIRUnit (V : LowerToLLVMIRVisitor) : IRUnit := ⟨V.Module⟩

end LowerToLLVMIRVisitor

/-- `mua::lower::LowerToLLVMIR` on a translation unit and the scopes of its
analysis; `none` where the source dereferences a null pointer. -/
def LowerToLLVMIR (X : Extern) (file : File) (tu : TranslationUnit) (scope : ScopeTree) :
    Option IRUnit :=
  let V := Walk tu (LowerToLLVMIRVisitor.visitor X file scope) LowerToLLVMIRVisitor.init
  if V.Undefined then none else some V.takeIRUnit

/-! ## Specification vocabulary

The notions the theorems are stated with: the measure of the token stream
that is left, well-formed lexer states, the relation between the parser before
and after a call, nodes whose ranges are in order, the grammar of the
language, and the token sequence of a file. -/

namespace Lexer

/-- The position at which the next token starts: where the skipping loop of
`lex` stops. -/
def tokenStart (L : Lexer) : Lexer := skipTrivia (L.File.size + 1) L

/-- The bytes an identifier continues with: `[A-Za-z0-9_]`. -/
def isIdentifierByte (c : Nat) : Bool := isalnum c || c == 95

/-- The longest run of identifier bytes that starts at offset `b`. -/
def identifierRun (file : mua.File) (b : Nat) : List Nat :=
  (file.Buffer.drop b).takeWhile isIdentifierByte

/-- The measure of the token stream that is left: the bytes left to scan, plus
one while the current token is not the end of the file. -/
def measure (L : Lexer) : Nat :=
  (L.File.size - L.Current) + (if L.CurrentToken = Token.EndOfFile then 0 else 1)

/-- The well-formed lexer states: the range of the current token ends at the
scan position, inside the buffer. -/
def WF (L : Lexer) : Prop :=
  L.Range.Begin ≤ L.Range.End ∧ L.Range.End = L.Current ∧ L.Current ≤ L.File.size

/-- Scanning steps: the file, the range and the token stay, `Current` moves
forward and stays within the buffer. -/
structure Adv (L L1 : Lexer) : Prop where
  file : L1.File = L.File
  range : L1.Range = L.Range
  token : L1.CurrentToken = L.CurrentToken
  mono : L.Current ≤ L1.Current
  bound : L.Current ≤ L.File.size → L1.Current ≤ L.File.size

/-- `Span L ts L1`: the calls of `next` that lead from `L` to `L1` consume the
tokens `ts`, none of which is the end of the file. -/
def Span (L : Lexer) : List Token → Lexer → Prop
  | [], L1 => L1 = L
  | t :: ts, L1 => L.CurrentToken = t ∧ t ≠ Token.EndOfFile ∧ Span L.next ts L1

/-- The tokens from the current one up to the end of the file. -/
def tokens : Nat → Lexer → List Token
  | 0, _ => []
  | fuel + 1, L =>
    if L.CurrentToken = Token.EndOfFile then [] else L.CurrentToken :: tokens fuel L.next

/-- The bytes the loop of the number rule scans after the first byte of a
literal: digits, and one `.` while `dotSeen` is not set. -/
def numberTail (dotSeen : Bool) : List Nat → List Nat
  | [] => []
  | c :: cs =>
    if isdigit c || (!dotSeen && c == 46) then c :: numberTail (dotSeen || c == 46) cs else []

/-- The lexer after `k` calls of `lex`. -/
def lexTimes : Nat → Lexer → Lexer
  | 0, L => L
  | k + 1, L => lexTimes k L.lex.2

end Lexer

/-- The token sequence of a file: what `next` returns from the start of the
file up to the end-of-file token. -/
def File.tokens (file : File) : List Token :=
  Lexer.tokens (file.size + 1) (Lexer.init file).next

/-- A postcondition on the nodes a parsing function returns. -/
inductive Result.Post {α : Type} (okP : α → Parser → Prop) : Result α → Prop where
  | ok {a : α} {P : Parser} (h : okP a P) : Result.Post okP (.ok a P)
  | null (P : Parser) : Result.Post okP (.null P)
  | outOfFuel : Result.Post okP .outOfFuel

namespace Parser

/-- The measure of the token stream the parser has left. -/
def measure (P : Parser) : Nat := P.TheLexer.measure

/-- The parser `P1` comes after `P`: nothing was written, the file is the same
and the token stream has not grown; it has shrunk when `strict` is set. -/
structure Rel (strict : Bool) (P P1 : Parser) : Prop where
  measure_le : P1.measure ≤ P.measure
  measure_lt_of : strict = true → P1.measure < P.measure
  os : P1.OS = P.OS
  file : P1.TheLexer.File = P.TheLexer.File

/-- The result of a parsing function run from `P` is in order: it is not
`outOfFuel`; after a node nothing was written; `nullptr` comes right after one
call of `error`, before which nothing was written. -/
inductive Good {α : Type} (X : Extern) (strict : Bool) (P : Parser) : Result α → Prop where
  | ok (a : α) {P1 : Parser} (h : Rel strict P P1) : Good X strict P (.ok a P1)
  | null {Pe : Parser} (h : Rel false P Pe) (expected : Expected) (context : String) :
      Good X strict P (.null (Pe.error X expected context))

/-- With a large enough loop budget `parsePrimaryExpr` returns the node `e`
and leaves the parser `P1`. -/
def parsesPrimaryExpr (X : Extern) (context : String) (P : Parser) (e : Expr) (P1 : Parser) :
    Prop :=
  ∃ fuel, parsePrimaryExpr X fuel context P = .ok e P1

/-- With a large enough loop budget `parseBinaryExpr` returns the node `e` and
leaves the parser `P1`. -/
def parsesBinaryExpr (X : Extern) (minPrec : Int) (context : String) (P : Parser) (e : Expr)
    (P1 : Parser) : Prop :=
  ∃ fuel, parseBinaryExpr X fuel minPrec context P = .ok e P1

/-- The token of an operator, by the operator table. -/
def opToken : Op → Token
  | .Assign => .Equal
  | .Add => .Plus
  | .Sub => .Minus
  | .Mul => .Star
  | .Div => .Slash

/-- The source text ends the expression at `P`: the current token is no binary
operator. -/
def atExprEnd (P : Parser) : Prop := BinaryExprOp.Create P.getCurrent = none

/-- The range of a binary expression over `lhs` and `rhs`. -/
def binaryRange (lhs rhs : Expr) : Range := ⟨lhs.getRange.Begin, rhs.getRange.End⟩

/-- The context `parseBinaryExpr` passes on for a right-hand side. -/
def rhsContext : String := "in the right-hand side of a binary expression"

end Parser

/-- A range is valid in a buffer of `size` bytes: `Begin ≤ End ≤ size`. -/
def Range.Valid (size : Nat) (r : Range) : Prop := r.Begin ≤ r.End ∧ r.End ≤ size

/-- The range `c` lies within the range `p`. -/
def Range.Within (c p : Range) : Prop := p.Begin ≤ c.Begin ∧ c.End ≤ p.End

mutual

/-- The ranges of an expression are in order: the range of every node in it is
valid, and the range of every operand and argument lies within the range of
its parent. -/
def Expr.RangesOK (size : Nat) : Expr → Prop
  | .NumberExpr _ range => range.Valid size
  | .IdentifierExpr name => name.Valid size
  | .CallExpr _ args range => range.Valid size ∧ Expr.ArgsOK size range args
  | .BinaryExpr _ lhs rhs range =>
    range.Valid size ∧ lhs.RangesOK size ∧ rhs.RangesOK size ∧
      lhs.getRange.Within range ∧ rhs.getRange.Within range

/-- The same for the arguments of a call whose range is `parent`. -/
def Expr.ArgsOK (size : Nat) (parent : Range) : List Expr → Prop
  | [] => True
  | arg :: rest =>
    arg.RangesOK size ∧ arg.getRange.Within parent ∧ Expr.ArgsOK size parent rest

end

/-- The ranges of a statement are in order. -/
def Stmt.RangesOK (size : Nat) : Stmt → Prop
  | .ExprStmt expr => expr.getRange.Valid size ∧ expr.RangesOK size
  | .ReturnStmt value range =>
    range.Valid size ∧ value.RangesOK size ∧ value.getRange.Within range

/-- The ranges of a compound statement are in order. -/
def CompoundStmt.RangesOK (size : Nat) (cs : CompoundStmt) : Prop :=
  cs.range.Valid size ∧ ∀ st ∈ cs.Stmts, st.RangesOK size ∧ st.getRange.Within cs.range

/-- The ranges of a function are in order. -/
def FunctionDecl.RangesOK (size : Nat) (fn : FunctionDecl) : Prop :=
  fn.range.Valid size ∧
    (∀ pd ∈ fn.Params, pd.getRange.Valid size ∧ pd.getRange.Within fn.range) ∧
    fn.Body.RangesOK size ∧ fn.Body.range.Within fn.range

/-- The ranges of a translation unit are in order. -/
def TranslationUnit.RangesOK (size : Nat) (tu : TranslationUnit) : Prop :=
  tu.range.Valid size ∧ ∀ fn ∈ tu.FNs, fn.RangesOK size ∧ fn.range.Within tu.range

/-- The ranges of `e` are in order and `e` lies between the offsets `lo` and
`hi`. -/
def Expr.Fits (size lo hi : Nat) (e : Expr) : Prop :=
  e.RangesOK size ∧ lo ≤ e.getRange.Begin ∧ e.getRange.End ≤ hi

/-- The parser `P1` is reached from the parser `P`: its lexer is well formed,
reads the same file, and its current token begins no earlier. -/
structure Parser.After (P P1 : Parser) : Prop where
  wf : P1.TheLexer.WF
  file : P1.TheLexer.File = P.TheLexer.File
  begin_le : P.TheLexer.Range.Begin ≤ P1.TheLexer.Range.Begin

/-- The postcondition of the functions that parse one expression from `P`: the
parser after is reached from `P`, and the expression lies between `lo` and the
begin of the token that follows it. -/
def Parser.ExprPost (P : Parser) (lo : Nat) (e : Expr) (P1 : Parser) : Prop :=
  Parser.After P P1 ∧ e.Fits P.TheLexer.File.size lo P1.TheLexer.Range.Begin

/-- The postcondition of the argument loop run from `P`. -/
def Parser.ArgsPost (P : Parser) (lo : Nat) (args : List Expr) (P1 : Parser) : Prop :=
  Parser.After P P1 ∧ ∀ a ∈ args, a.Fits P.TheLexer.File.size lo P1.TheLexer.Range.Begin

/-- The parsing function consumed the tokens `ts` on the way from `P` to `P1`. -/
def Parser.Consumed (P P1 : Parser) (ts : List Token) : Prop :=
  Lexer.Span P.TheLexer ts P1.TheLexer

/-! ### The grammar of section 4.2 of the specification

The grammar is written from the words of the specification, over token
sequences. With `trailingComma = false` it is the grammar as printed; with
`trailingComma = true` a parameter list and an argument list may end in a
comma. -/

namespace Grammar

/-- The operator table: the precedence of an operator token. -/
def prec : Token → Option Int
  | .Equal => some 10
  | .Plus | .Minus => some 20
  | .Star | .Slash => some 30
  | _ => none

/-- The operator table: the operators that associate to the right. -/
def rightAssoc : Token → Bool
  | .Equal => true
  | _ => false

/-- "recurse with `nextMinPrec = prec + (right-associative ? 1 : 0)`". -/
def nextMinPrec (op : Token) (q : Int) : Int := q + (if rightAssoc op then 1 else 0)

mutual

/-- `PrimaryExpr := NumberLit | Identifier | Identifier '(' ArgList? ')'`. -/
inductive PrimaryExpr (trailingComma : Bool) : List Token → Prop where
  | number : PrimaryExpr trailingComma [.Number]
  | identifier : PrimaryExpr trailingComma [.Identifier]
  | callEmpty : PrimaryExpr trailingComma [.Identifier, .LParen, .RParen]
  | call {args : List Token} (h : ArgList trailingComma args) :
      PrimaryExpr trailingComma (.Identifier :: .LParen :: (args ++ [.RParen]))

/-- `ArgList := Expr (',' Expr)*`, and `Expr := BinaryExpr(minPrec=0)`. -/
inductive ArgList (trailingComma : Bool) : List Token → Prop where
  | last {e : List Token} (h : BinaryExpr trailingComma 0 e) : ArgList trailingComma e
  | lastComma {e : List Token} (ht : trailingComma = true)
      (h : BinaryExpr trailingComma 0 e) : ArgList trailingComma (e ++ [.Comma])
  | cons {e rest : List Token} (h : BinaryExpr trailingComma 0 e)
      (hr : ArgList trailingComma rest) : ArgList trailingComma (e ++ .Comma :: rest)

/-- `BinaryExpr(p) := PrimaryExpr ( Op[≥p] BinaryExpr(p') )*`. -/
inductive BinaryExpr (trailingComma : Bool) : Int → List Token → Prop where
  | mk {p : Int} {primary tail : List Token} (h : PrimaryExpr trailingComma primary)
      (ht : BinaryTail trailingComma p tail) : BinaryExpr trailingComma p (primary ++ tail)

/-- `( Op[≥p] BinaryExpr(p') )*`. -/
inductive BinaryTail (trailingComma : Bool) : Int → List Token → Prop where
  | nil {p : Int} : BinaryTail trailingComma p []
  | cons {p q : Int} {op : Token} {rhs rest : List Token} (hq : prec op = some q)
      (hp : q ≥ p) (h : BinaryExpr trailingComma (nextMinPrec op q) rhs)
      (hr : BinaryTail trailingComma p rest) : BinaryTail trailingComma p (op :: (rhs ++ rest))

end

/-- `Expr := BinaryExpr(minPrec=0)`. -/
def Expr (trailingComma : Bool) (ts : List Token) : Prop := BinaryExpr trailingComma 0 ts

/-- `ParamList := Identifier (',' Identifier)*`. -/
inductive ParamList (trailingComma : Bool) : List Token → Prop where
  | last : ParamList trailingComma [.Identifier]
  | lastComma (ht : trailingComma = true) : ParamList trailingComma [.Identifier, .Comma]
  | cons {rest : List Token} (hr : ParamList trailingComma rest) :
      ParamList trailingComma (.Identifier :: .Comma :: rest)

/-- `Stmt := ReturnStmt | ExprStmt`, `ReturnStmt := 'return' Expr`,
`ExprStmt := Expr`. -/
inductive Stmt (trailingComma : Bool) : List Token → Prop where
  | returnStmt {e : List Token} (h : Expr trailingComma e) : Stmt trailingComma (.Return :: e)
  | exprStmt {e : List Token} (h : Expr trailingComma e) : Stmt trailingComma e

/-- `Stmt*`. -/
inductive Stmts (trailingComma : Bool) : List Token → Prop where
  | nil : Stmts trailingComma []
  | cons {st rest : List Token} (h : Stmt trailingComma st) (hr : Stmts trailingComma rest) :
      Stmts trailingComma (st ++ rest)

/-- `FunctionDecl := 'function' Identifier '(' ParamList? ')' CompoundBody`,
`CompoundBody := Stmt* 'end'`. -/
inductive FunctionDecl (trailingComma : Bool) : List Token → Prop where
  | noParams {body : List Token} (hb : Stmts trailingComma body) :
      FunctionDecl trailingComma
        (.Function :: .Identifier :: .LParen :: .RParen :: (body ++ [.End]))
  | params {ps body : List Token} (hp : ParamList trailingComma ps)
      (hb : Stmts trailingComma body) :
      FunctionDecl trailingComma
        (.Function :: .Identifier :: .LParen :: (ps ++ .RParen :: (body ++ [.End])))

/-- `TranslationUnit := FunctionDecl*`. -/
inductive TranslationUnit (trailingComma : Bool) : List Token → Prop where
  | nil : TranslationUnit trailingComma []
  | cons {fn rest : List Token} (h : FunctionDecl trailingComma fn)
      (hr : TranslationUnit trailingComma rest) : TranslationUnit trailingComma (fn ++ rest)

end Grammar

/-! ## Specification vocabulary of the semantic analysis -/

namespace ScopeTree

/-- The store `T1` has grown from the store `T`: every scope of `T` is still
there, with its parent, its symbol and its symbols in front of the symbols
that have come since, and every name that resolved from a scope resolves to
the same symbol still. -/
structure Grows (file : File) (T T1 : ScopeTree) : Prop where
  scopes : ∀ id sc, T.get? id = some sc →
    ∃ sc1, T1.get? id = some sc1 ∧ sc1.Parent = sc.Parent ∧ sc1.TheSymbol = sc.TheSymbol ∧
      sc.Symbols <+: sc1.Symbols
  lookup : ∀ s name r, T.lookup file s name = some r → T1.lookup file s name = some r

/-- Every `Function` symbol of the store owns a scope. -/
def WF (T : ScopeTree) : Prop :=
  ∀ id sc sym, T.get? id = some sc → sym ∈ sc.Symbols → sym.TheKind = .Function →
    sym.TheScope ≠ none

/-- The scope `c` is the scope of the function `fn`: the global scope holds
the `Function` symbol that `fn` declared, whose name is the name of `fn` (the
very range), and that symbol owns `c`. -/
def IsScopeOf (T : ScopeTree) (fn : FunctionDecl) (c : ScopeId) : Prop :=
  ∃ sc, T.get? 0 = some sc ∧ (⟨.Function, fn.Name, some c⟩ : Symbol) ∈ sc.Symbols

/-- The symbol a declaration that goes through adds. -/
def newSymbol (T : ScopeTree) (kind : SymbolKind) (name : Range) : Symbol :=
  ⟨kind, name, if kind = .Function then some T.scopes.length else none⟩

/-- The store `T1` is the store `T` after a declaration of `name`, of the kind
`kind`, has gone through in the scope `id`, which held `sc`: the name did not
resolve from `id`; the scope `id` has the new symbol behind its symbols, the
other scopes are as they were, and for a function the scope of the function
comes behind the scopes. -/
structure Declared (file : File) (T : ScopeTree) (id : ScopeId) (kind : SymbolKind)
    (name : Range) (sc : Scope) (T1 : ScopeTree) : Prop where
  scope : T.get? id = some sc
  fresh : T.lookup file id name = none
  here : T1.get? id = some { sc with Symbols := sc.Symbols ++ [T.newSymbol kind name] }
  others : ∀ j, j ≠ id → j < T.scopes.length → T1.get? j = T.get? j
  length : T1.scopes.length = T.scopes.length + (if kind = .Function then 1 else 0)
  child : kind = .Function →
    T1.get? T.scopes.length = some ⟨some id, some ⟨id, sc.Symbols.length⟩, []⟩
  store : T1 = ⟨T.scopes.set id { sc with Symbols := sc.Symbols ++ [T.newSymbol kind name] }
    ++ (if kind = .Function then [⟨some id, some ⟨id, sc.Symbols.length⟩, []⟩] else [])⟩

end ScopeTree

/-- The expression a statement holds: the expression of an `ExprStmt`, the
value of a `ReturnStmt`. -/
def Stmt.expr : Stmt → Expr
  | .ExprStmt e => e
  | .ReturnStmt value _ => value

/-- `Expr.Sub e1 e`: the expression `e1` is `e` or occurs in `e`, as an operand
or an argument at any depth. -/
inductive Expr.Sub : Expr → Expr → Prop where
  | here (e : Expr) : Expr.Sub e e
  | arg {e1 : Expr} {callee : Range} {args : List Expr} {range : Range} {a : Expr}
      (ha : a ∈ args) (h : Expr.Sub e1 a) : Expr.Sub e1 (.CallExpr callee args range)
  | lhs {e1 : Expr} {op : Op} {l r : Expr} {range : Range} (h : Expr.Sub e1 l) :
      Expr.Sub e1 (.BinaryExpr op l r range)
  | rhs {e1 : Expr} {op : Op} {l r : Expr} {range : Range} (h : Expr.Sub e1 r) :
      Expr.Sub e1 (.BinaryExpr op l r range)

/-- The expression `e` occurs in the body of the function `fn`. -/
def FunctionDecl.Contains (fn : FunctionDecl) (e : Expr) : Prop :=
  ∃ st ∈ fn.Body.Stmts, Expr.Sub e st.expr

/-- The body of the function is not empty and its last statement is a
`ReturnStmt`. -/
def FunctionDecl.EndsWithReturn (fn : FunctionDecl) : Prop :=
  ∃ value range, fn.Body.Stmts.getLast? = some (.ReturnStmt value range)

namespace AnalyzerVisitor

/-- The return-placement diagnostic of a function, by the words of the
specification: "function N must end with a return statement" at the range of
the function when the body is empty, "last statement of function N must be a
return statement" at the range of the last statement when that is no
`ReturnStmt`, and nothing otherwise. -/
def returnDiagnostic (file : File) (fn : FunctionDecl) : String :=
  match fn.Body.Stmts.getLast? with
  | none =>
    "error: " ++ ("function " ++ text file fn.Name ++ " must end with a return statement")
      ++ "\n" ++ file.print fn.range ++ "\n"
  | some (.ReturnStmt _ _) => ""
  | some last =>
    "error: " ++ ("last statement of function " ++ text file fn.Name
      ++ " must be a return statement") ++ "\n" ++ file.print last.getRange ++ "\n"

/-- The text of an `error:` diagnostic: the message, then the excerpt of the
source at `range`. -/
def errorText (file : File) (range : Range) (message : String) : String :=
  "error: " ++ message ++ "\n" ++ file.print range ++ "\n"

/-- The text of a `note:` diagnostic. -/
def noteText (file : File) (range : Range) (message : String) : String :=
  "note: " ++ message ++ "\n" ++ file.print range ++ "\n"

/-- The states of the analyzer in which no null pointer is dereferenced: none
has been so far, the current scope is a scope of the store, and every
`Function` symbol owns a scope. -/
structure Inv (A : AnalyzerVisitor) : Prop where
  defined : A.Undefined = false
  scope : ∃ cur sc, A.CurrentScope = some cur ∧ A.GlobalScope.get? cur = some sc
  wf : A.GlobalScope.WF

/-- What was written on the way from `A` to `A1`: text behind the text of `A`;
none if `A1` has no error; text that begins with an `error:` diagnostic if the
first error came on the way. -/
def Wrote (A A1 : AnalyzerVisitor) : Prop :=
  ∃ out, A1.OS = A.OS ++ out ∧ (A1.Error = false → out = "") ∧
    (A.Error = false → A1.Error = true → ∃ rest, out = "error: " ++ rest)

/-- A stretch of the walk, from the state `A` to the state `A1`: the current
scope is the same at both ends, an error stays, text was written behind the
text, the store has grown, and no null pointer was dereferenced. -/
structure Step (file : File) (A A1 : AnalyzerVisitor) : Prop where
  scope : A1.CurrentScope = A.CurrentScope
  error : A.Error = true → A1.Error = true
  wrote : Wrote A A1
  grows : A.GlobalScope.Grows file A1.GlobalScope
  inv : Inv A1

/-- A stretch of the walk inside the body of a function: the symbols that
came are variables of the current scope, and no other scope has changed. -/
structure BodyStep (file : File) (A A1 : AnalyzerVisitor) extends Step file A A1 : Prop where
  locals : ∀ cur sc, A.CurrentScope = some cur → A.GlobalScope.get? cur = some sc →
    ∃ added : List Symbol, (∀ s ∈ added, s.TheKind = .Var ∧ s.TheScope = none) ∧
      A1.GlobalScope = ⟨A.GlobalScope.scopes.set cur { sc with Symbols := sc.Symbols ++ added }⟩

/-- The symbol a parameter declares. -/
def paramSymbol (pd : ParamDecl) : Symbol := ⟨.Param, pd.Name, none⟩

/-- A stretch of the walk over the parameters `params` of a function: the
symbols that came are parameters of the current scope, one for each of
`params` in their order unless there is an error, and no other scope has
changed. -/
structure ParamStep (file : File) (params : List ParamDecl) (A A1 : AnalyzerVisitor)
    extends Step file A A1 : Prop where
  locals : ∀ cur sc, A.CurrentScope = some cur → A.GlobalScope.get? cur = some sc →
    ∃ added : List Symbol, (∀ s ∈ added, s.TheKind = .Param ∧ s.TheScope = none) ∧
      A1.GlobalScope = ⟨A.GlobalScope.scopes.set cur { sc with Symbols := sc.Symbols ++ added }⟩ ∧
      (A1.Error = false → added = params.map paramSymbol)

/-- The hook `onEnter` of the kind of the expression `e`. -/
def enter (file : File) (e : Expr) (A : AnalyzerVisitor) : Bool × AnalyzerVisitor :=
  match e with
  | .NumberExpr _ _ => (true, A)
  | .IdentifierExpr _ => onEnterIdentifierExpr file e A
  | .CallExpr _ _ _ => onEnterCallExpr file e A
  | .BinaryExpr _ _ _ _ => onEnterBinaryExpr file e A

/-- `EntersExpr file e A e1 A1`: the walk of the expression `e` from the state
`A` calls the hook `onEnter` of the expression `e1`, which is `e` or occurs in
it, in the state `A1`: it goes down only where the hooks on the way return
`true`, and it has walked the arguments and the operand in front. -/
inductive EntersExpr (file : File) : Expr → AnalyzerVisitor → Expr → AnalyzerVisitor → Prop where
  | here (e : Expr) (A : AnalyzerVisitor) : EntersExpr file e A e A
  | arg {callee : Range} {args : List Expr} {range : Range} {A : AnalyzerVisitor}
      {front : List Expr} {a : Expr} {back : List Expr} {e1 : Expr} {A1 : AnalyzerVisitor}
      (hargs : args = front ++ a :: back)
      (henter : (enter file (.CallExpr callee args range) A).1 = true)
      (h : EntersExpr file a
        (Walker.walkExprs (visitor file) front (enter file (.CallExpr callee args range) A).2)
        e1 A1) :
      EntersExpr file (.CallExpr callee args range) A e1 A1
  | lhs {op : Op} {l r : Expr} {range : Range} {A : AnalyzerVisitor} {e1 : Expr}
      {A1 : AnalyzerVisitor} (henter : (enter file (.BinaryExpr op l r range) A).1 = true)
      (h : EntersExpr file l (enter file (.BinaryExpr op l r range) A).2 e1 A1) :
      EntersExpr file (.BinaryExpr op l r range) A e1 A1
  | rhs {op : Op} {l r : Expr} {range : Range} {A : AnalyzerVisitor} {e1 : Expr}
      {A1 : AnalyzerVisitor} (henter : (enter file (.BinaryExpr op l r range) A).1 = true)
      (h : EntersExpr file r
        (Walker.walkExpr (visitor file) l (enter file (.BinaryExpr op l r range) A).2) e1 A1) :
      EntersExpr file (.BinaryExpr op l r range) A e1 A1

/-- The state in which the walk of a translation unit arrives at the function
that follows the functions `front`. -/
def atFunction (file : File) (os : String) (front : List FunctionDecl) : AnalyzerVisitor :=
  front.foldl (fun acc fn => Walker.walkFunctionDecl (visitor file) fn acc) (init os)

/-- The state in which the walk arrives at the body of the function `fn`, which
it has entered in the state `A`: the state after the parameters. -/
def atBody (file : File) (fn : FunctionDecl) (A : AnalyzerVisitor) : AnalyzerVisitor :=
  fn.Params.foldl (fun acc pd => Walker.walkParamDecl (visitor file) pd acc)
    (onEnterFunctionDecl file fn A).2

/-- The state in which the walk of a body from the state `A` arrives at the
statement that follows the statements `front`. -/
def atStmt (file : File) (front : List Stmt) (A : AnalyzerVisitor) : AnalyzerVisitor :=
  front.foldl (fun acc st => Walker.walkStmt (visitor file) st acc) A

/-- The walk of the function `fn` from the state `A`, in which the current
scope `cur` holds `sc`, goes through the function: the declaration of `fn`
goes through and leaves the store `T1`, the walk goes over the parameters and
the body in the scope of `fn`, and `onExit` closes it in the scope `cur`. -/
structure FnWalk (file : File) (fn : FunctionDecl) (A : AnalyzerVisitor) (cur : ScopeId)
    (sc : Scope) (T1 : ScopeTree) : Prop where
  declared : ScopeTree.Declared file A.GlobalScope cur .Function fn.Name sc T1
  entered : onEnterFunctionDecl file fn A =
    (true, { A with GlobalScope := T1, CurrentScope := some A.GlobalScope.scopes.length })
  invIn : Inv (onEnterFunctionDecl file fn A).2
  params : ParamStep file fn.Params (onEnterFunctionDecl file fn A).2 (atBody file fn A)
  body : BodyStep file (atBody file fn A) (atStmt file fn.Body.Stmts (atBody file fn A))
  walk : Walker.walkFunctionDecl (visitor file) fn A =
    onExitFunctionDecl file fn (atStmt file fn.Body.Stmts (atBody file fn A))
  os : (Walker.walkFunctionDecl (visitor file) fn A).OS =
    (atStmt file fn.Body.Stmts (atBody file fn A)).OS ++ returnDiagnostic file fn
  store : (Walker.walkFunctionDecl (visitor file) fn A).GlobalScope =
    (atStmt file fn.Body.Stmts (atBody file fn A)).GlobalScope
  error : (Walker.walkFunctionDecl (visitor file) fn A).Error =
    ((atStmt file fn.Body.Stmts (atBody file fn A)).Error
      || decide (returnDiagnostic file fn ≠ ""))

/-- The state `A1` comes later in the walk than the state `A`: an error
stays, text was written behind the text, and the store has grown. -/
structure Later (file : File) (A A1 : AnalyzerVisitor) : Prop where
  error : A.Error = true → A1.Error = true
  wrote : Wrote A A1
  grows : A.GlobalScope.Grows file A1.GlobalScope

/-- The state `A` of the walk between two functions, after the functions
`front`: the current scope is the global scope `0`, which has no parent; the
symbols of the global scope are `Function` symbols of functions of `front`,
each with its own scope under the global scope, which holds no `Function`
symbol (and, while there is no error, the parameters of the function, in
their order, as its `Param` symbols); a name is found in the global scope if a
function of `front` has it, and the symbol found then is the symbol of the
first function of that name; while there is no error, no two functions of
`front` have the same name. -/
structure TopInv (file : File) (front : List FunctionDecl) (A : AnalyzerVisitor)
    (sc0 : Scope) : Prop where
  scope : A.CurrentScope = some 0
  global : A.GlobalScope.get? 0 = some sc0
  parent : sc0.Parent = none
  shape : ∀ sym ∈ sc0.Symbols, ∃ g ∈ front, ∃ c scc, sym = ⟨.Function, g.Name, some c⟩ ∧
    c ≠ 0 ∧ A.GlobalScope.get? c = some scc ∧ scc.Parent = some 0 ∧
    (∀ s ∈ scc.Symbols, s.TheKind ≠ .Function) ∧
    (A.Error = false →
      scc.Symbols.filter (fun s => s.TheKind == .Param) = g.Params.map paramSymbol)
  first : ∀ name i, ScopeTree.find file sc0 name = some i →
    ∃ p1 g0 p2 sym, front = p1 ++ g0 :: p2 ∧
      (∀ h ∈ p1, file.slice h.Name ≠ file.slice name) ∧
      file.slice g0.Name = file.slice name ∧ sc0.Symbols.get? i = some sym ∧
      sym.Name = g0.Name
  all : ∀ g ∈ front, ScopeTree.find file sc0 g.Name ≠ none
  distinct : A.Error = false →
    front.Pairwise (fun a b => file.slice a.Name ≠ file.slice b.Name)

/-- `Enters file tu os fn e A`: while `Analyze file tu os` runs, the walk calls
the hook `onEnter` of the expression `e`, which occurs in the body of the
function `fn` of `tu`, in the state `A`. The function was not rejected as a
redefinition. -/
def Enters (file : File) (tu : TranslationUnit) (os : String) (fn : FunctionDecl) (e : Expr)
    (A : AnalyzerVisitor) : Prop :=
  ∃ front back sfront st sback,
    tu.FNs = front ++ fn :: back ∧ fn.Body.Stmts = sfront ++ st :: sback ∧
    (onEnterFunctionDecl file fn (atFunction file os front)).1 = true ∧
    EntersExpr file st.expr (atStmt file sfront (atBody file fn (atFunction file os front))) e A

end AnalyzerVisitor

mutual

/-- The operands and arguments of an expression stand in the order of the
source: the left operand of a binary expression ends before the right one
begins, and every argument of a call ends before the arguments behind it
begin. -/
def Expr.Ordered : Expr → Prop
  | .NumberExpr _ _ => True
  | .IdentifierExpr _ => True
  | .CallExpr _ args _ => Expr.ArgsOrdered args
  | .BinaryExpr _ lhs rhs _ =>
    lhs.Ordered ∧ rhs.Ordered ∧ lhs.getRange.End ≤ rhs.getRange.Begin

/-- The same for a list of arguments. -/
def Expr.ArgsOrdered : List Expr → Prop
  | [] => True
  | arg :: rest =>
    arg.Ordered ∧ (∀ b ∈ rest, arg.getRange.End ≤ b.getRange.Begin) ∧ Expr.ArgsOrdered rest

end

/-- The statements of a compound statement stand in the order of the source:
every statement ends before the statements behind it begin. -/
def CompoundStmt.Ordered (cs : CompoundStmt) : Prop :=
  (∀ st ∈ cs.Stmts, st.expr.Ordered) ∧
    cs.Stmts.Pairwise (fun a b => a.getRange.End ≤ b.getRange.Begin)

/-- The name and the parameters of a function begin no later than its body,
and the body is in the order of the source. -/
def FunctionDecl.Ordered (fn : FunctionDecl) : Prop :=
  fn.Name.Begin ≤ fn.Body.range.Begin ∧
    (∀ pd ∈ fn.Params, pd.Name.Begin ≤ fn.Body.range.Begin) ∧ fn.Body.Ordered

/-- The functions of a translation unit stand in the order of the source. -/
def TranslationUnit.Ordered (tu : TranslationUnit) : Prop :=
  (∀ fn ∈ tu.FNs, fn.Ordered) ∧ tu.FNs.Pairwise (fun a b => a.range.End ≤ b.range.Begin)

/-- Every symbol of the store has a name that begins at the offset `b` or
before it. -/
def ScopeTree.Bounded (b : Nat) (T : ScopeTree) : Prop :=
  ∀ id sc sym, T.get? id = some sc → sym ∈ sc.Symbols → sym.Name.Begin ≤ b

namespace AnalyzerVisitor

/-- The state in which the walk arrives at the parameter of the function `fn`
that follows the parameters `pfront`, after it has entered `fn` in the state
`A`. -/
def atParam (file : File) (fn : FunctionDecl) (pfront : List ParamDecl) (A : AnalyzerVisitor) :
    AnalyzerVisitor :=
  pfront.foldl (fun acc pd => Walker.walkParamDecl (visitor file) pd acc)
    (onEnterFunctionDecl file fn A).2

end AnalyzerVisitor

namespace ScopeTree

/-- The stores that calls of `declare` build from the store of the
constructor, which holds the global scope only. -/
inductive Built (file : File) : ScopeTree → Prop where
  | init : Built file ScopeTree.init
  | declare {T : ScopeTree} (h : Built file T) (id : ScopeId) (kind : SymbolKind)
      (name : Range) : Built file (T.declare file id kind name).2.2

end ScopeTree

mutual

/-- The names of the `IdentifierExpr` nodes of an expression, in the order in
which the walk enters them: the left operand before the right one, the
arguments of a call in their order. The callee of a call is no
`IdentifierExpr`. -/
def Expr.identifiers : Expr → List Range
  | .NumberExpr _ _ => []
  | .IdentifierExpr name => [name]
  | .CallExpr _ args _ => Expr.identifiersOf args
  | .BinaryExpr _ lhs rhs _ => lhs.identifiers ++ rhs.identifiers

/-- The same for a list of arguments. -/
def Expr.identifiersOf : List Expr → List Range
  | [] => []
  | e :: es => e.identifiers ++ Expr.identifiersOf es

end

/-- The names of the `IdentifierExpr` nodes of statements, in the order of the
walk. -/
def Stmt.identifiersOf : List Stmt → List Range
  | [] => []
  | st :: rest => st.expr.identifiers ++ Stmt.identifiersOf rest

/-- The names of the `IdentifierExpr` nodes of the body of a function, in the
order of the walk. -/
def FunctionDecl.identifiers (fn : FunctionDecl) : List Range :=
  Stmt.identifiersOf fn.Body.Stmts

/-- The first occurrences, by the words of the specification: of the names
`ids`, in their order, those whose text is not the text of a name of `known`
nor of a name in front of them. -/
def firstOccurrences (file : File) : List Range → List Range → List Range
  | _, [] => []
  | known, n :: rest =>
    if known.any (fun k => file.slice k == file.slice n) then firstOccurrences file known rest
    else n :: firstOccurrences file (known ++ [n]) rest

/-- The store after calls of `declare` on the scope `id`, one for each of the
names, in their order. -/
def ScopeTree.declareAll (file : File) (T : ScopeTree) (id : ScopeId) (kind : SymbolKind)
    (names : List Range) : ScopeTree :=
  names.foldl (fun acc n => (acc.declare file id kind n).2.2) T

/-- The current token of the lexer, unless it is the end of the file, has a
range of at least one byte. -/
def Lexer.Fresh (L : Lexer) : Prop :=
  L.CurrentToken ≠ Token.EndOfFile → L.Range.Begin < L.Range.End

/-- The names of the identifiers of an expression are not empty. -/
def Expr.Named (e : Expr) : Prop := ∀ n ∈ e.identifiers, n.Begin < n.End

/-- The names of a function stand apart: the name of the function is not
empty and lies in the range of the function, the names of the parameters are
not empty, every one ends before the ones behind it begin and before the body
begins, and the names of the identifiers of the body are not empty. -/
def FunctionDecl.Spaced (fn : FunctionDecl) : Prop :=
  fn.range.Begin ≤ fn.Name.Begin ∧ fn.Name.Begin < fn.Name.End ∧
    fn.Name.End ≤ fn.range.End ∧
    (∀ pd ∈ fn.Params, pd.Name.Begin < pd.Name.End ∧ pd.Name.End ≤ fn.Body.range.Begin) ∧
    fn.Params.Pairwise (fun a b => a.Name.End ≤ b.Name.Begin) ∧
    ∀ st ∈ fn.Body.Stmts, st.expr.Named

/-- The names of every function of a translation unit stand apart. -/
def TranslationUnit.Spaced (tu : TranslationUnit) : Prop := ∀ fn ∈ tu.FNs, fn.Spaced

/-- The symbols of the global scope of an accepted translation unit: a
`Function` symbol for each function, in their order; the function at the
index `i` owns the scope `i + 1`. -/
def acceptedGlobals (fns : List FunctionDecl) : List Symbol :=
  fns.enum.map (fun p => ⟨.Function, p.2.Name, some (p.1 + 1)⟩)

/-- The symbols of the scope of the function `fn`, which follows the functions
`front`, in an accepted translation unit, by the words of the specification: a
`Param` symbol for each parameter, in their order, then a `Var` symbol at the
first occurrence of each name that occurs as an identifier in the body and is
neither the name of a parameter nor the name of `fn` or of a function of
`front`. -/
def acceptedLocals (file : File) (front : List FunctionDecl) (fn : FunctionDecl) :
    List Symbol :=
  fn.Params.map AnalyzerVisitor.paramSymbol ++
    (firstOccurrences file
      ((front ++ [fn]).map (fun g => g.Name) ++ fn.Params.map (fun pd => pd.Name))
      fn.identifiers).map (fun n => ⟨.Var, n, none⟩)

/-- The store of an accepted translation unit: the global scope, then the
scope of each function, in their order, under the global scope. -/
def acceptedStore (file : File) (fns : List FunctionDecl) : ScopeTree :=
  ⟨⟨none, none, acceptedGlobals fns⟩ ::
    fns.enum.map (fun p => ⟨some 0, some ⟨0, p.1⟩, acceptedLocals file (fns.take p.1) p.2⟩)⟩

/-- The instruction is an `alloca`. -/
def IR.Instr.isAlloca : IR.Instr → Bool
  | .Alloca _ => true
  | _ => false

namespace LowerToLLVMIRVisitor

/-- The slots of the parameters, by the words of the specification: for each
of the names, in their order, an `alloca` and right behind it the store of the
incoming argument into it; `i` is the index of the first argument, and the
`alloca` of the argument `i` is the instruction `2 * i` of the entry block. -/
def paramSlots (fn : Nat) : Nat → List (List Nat) → List IR.Instr
  | _, [] => []
  | i, name :: rest =>
    .Alloca name :: .Store (.Argument fn i) (.Instruction fn (2 * i)) ::
      paramSlots fn (i + 1) rest

/-- The slots of the variables: an `alloca` for each of the names. -/
def varSlots (names : List (List Nat)) : List IR.Instr := names.map .Alloca

/-- `Ext k V V1`: on the way from the state `V` to the state `V1` the
insertion point and the current scope stay, and the module changes only in
that instructions that are no `alloca` come behind the entry block of the
function `k`. -/
structure Ext (k : Nat) (V V1 : LowerToLLVMIRVisitor) : Prop where
  point : V1.InsertPoint = V.InsertPoint
  scope : V1.CurrentScope = V.CurrentScope
  length : V1.Module.Functions.length = V.Module.Functions.length
  others : ∀ j, j ≠ k → V1.Module.Functions[j]? = V.Module.Functions[j]?
  here : ∃ added : List IR.Instr, (∀ i ∈ added, i.isAlloca = false) ∧
    ∀ f, V.Module.Functions[k]? = some f →
      V1.Module.Functions[k]? = some { f with Entry := f.Entry ++ added }

end LowerToLLVMIRVisitor

/-! ## The driver (`muac.cpp`) -/

namespace muac

/-- `enum class Action`: what `--emit` selects. -/
inductive Action where
  | None
  | DumpAST
  | DumpSema
  | DumpLLVM
deriving DecidableEq, Repr

/-- What the driver uses from outside the sources at hand:
`llvm::cl::ParseCommandLineOptions` on the arguments (the file name and the
action of the options, `none` when it fails, and what it writes to
`llvm::errs()`), `llvm::MemoryBuffer::getFile` (the file, or the message of the
error code), and the text each of the three `Dump` functions writes, on which
no exit code depends. -/
structure Host where
  parseCommandLineOptions : List String → Option (String × Action) × String
  getFile : String → Except String File
  dumpAST : TranslationUnit → String
  dumpSema : ScopeTree → String
  dumpLLVM : IRUnit → String

/-- The calls `main` makes into the libraries. -/
inductive Call where
  | ParseCommandLineOptions
  | Open
  | Parse
  | DumpAST
  | Analyze
  | DumpSema
  | LowerToLLVMIR
  | DumpLLVM
deriving DecidableEq, Repr

/-- A run of `main` that returns: the value returned, what was written to
`llvm::errs()`, and the calls made into the libraries, in their order. -/
structure Outcome where
  Code : Nat
  Errs : String
  Calls : List Call
deriving DecidableEq, Repr

/-- `File::Open`: the file, or `nullptr` after the diagnostic. -/
def Open (H : Host) (filename : String) (os : String) : Option File × String :=
  match H.getFile filename with
  | .error message =>
    (none, os ++ "error: could not open file " ++ filename ++ ": " ++ message ++ "\n")
  | .ok file => (some file, os)

/-- `main`. It returns no value (`none`) where the lowering dereferences a
null pointer. -/
def main (X : Extern) (H : Host) (argv : List String) : Option Outcome :=
  match H.parseCommandLineOptions argv with
  | (none, errs) => some ⟨1, errs, [.ParseCommandLineOptions]⟩
  | (some (InputFilename, EmitAction), errs) =>
    match Open H InputFilename errs with
    | (none, errs1) => some ⟨2, errs1, [.ParseCommandLineOptions, .Open]⟩
    | (some file, errs1) =>
      match Parse X file errs1 with
      | .outOfFuel => none
      | .null P => some ⟨3, P.OS, [.ParseCommandLineOptions, .Open, .Parse]⟩
      | .ok translationUnit P =>
        if EmitAction = .DumpAST then
          some ⟨0, P.OS ++ H.dumpAST translationUnit,
            [.ParseCommandLineOptions, .Open, .Parse, .DumpAST]⟩
        else
          match Analyze file translationUnit P.OS with
          | none => none
          | some (none, errs2) =>
            some ⟨4, errs2, [.ParseCommandLineOptions, .Open, .Parse, .Analyze]⟩
          | some (some scope, errs2) =>
            if EmitAction = .DumpSema then
              some ⟨0, errs2 ++ H.dumpSema scope,
                [.ParseCommandLineOptions, .Open, .Parse, .Analyze, .DumpSema]⟩
            else
              match LowerToLLVMIR X file translationUnit scope with
              | none => none
              | some theIRUnit =>
                if EmitAction = .DumpLLVM then
                  some ⟨0, errs2 ++ H.dumpLLVM theIRUnit,
                    [.ParseCommandLineOptions, .Open, .Parse, .Analyze, .LowerToLLVMIR,
                      .DumpLLVM]⟩
                else
                  some ⟨0, errs2,
                    [.ParseCommandLineOptions, .Open, .Parse, .Analyze, .LowerToLLVMIR]⟩

end muac

namespace Walker

/-- The hooks a walk calls on a node, in the order of `Walker::walk`:
`onEnter` for the base class `Node`, `onEnter` for the base class `Expr`, `Stmt`
or `Decl`, `onEnter` of the kind of the node, then `onExit` of the kind, of
`Expr`, `Stmt` or `Decl`, and of `Node`. -/
inductive Hook where
  | EnterNode
  | EnterBase
  | Enter
  | Exit
  | ExitBase
  | ExitNode
deriving DecidableEq, Repr

/-- One call of a hook on a node. -/
structure Event where
  hook : Hook
  node : Node

/-- The visitor that records every call of a hook, in the order of the
calls. Its hooks for the base classes return `true`, as the catch-all
templates do; its `onEnter` hook of a node kind returns what `accept` says of
the node. -/
def recorder (accept : Node → Bool) : Visitor (List Event) where
  onEnterNode := fun n log => (true, log ++ [⟨.EnterNode, n⟩])
  onExitNode := fun n log => log ++ [⟨.ExitNode, n⟩]
  onEnterExpr := fun e log => (true, log ++ [⟨.EnterBase, .Expr e⟩])
  onExitExpr := fun e log => log ++ [⟨.ExitBase, .Expr e⟩]
  onEnterStmt := fun n log => (true, log ++ [⟨.EnterBase, n⟩])
  onExitStmt := fun n log => log ++ [⟨.ExitBase, n⟩]
  onEnterDecl := fun n log => (true, log ++ [⟨.EnterBase, n⟩])
  onExitDecl := fun n log => log ++ [⟨.ExitBase, n⟩]
  onEnterNumberExpr := fun e log => (accept (.Expr e), log ++ [⟨.Enter, .Expr e⟩])
  onExitNumberExpr := fun e log => log ++ [⟨.Exit, .Expr e⟩]
  onEnterIdentifierExpr := fun e log => (accept (.Expr e), log ++ [⟨.Enter, .Expr e⟩])
  onExitIdentifierExpr := fun e log => log ++ [⟨.Exit, .Expr e⟩]
  onEnterCallExpr := fun e log => (accept (.Expr e), log ++ [⟨.Enter, .Expr e⟩])
  onExitCallExpr := fun e log => log ++ [⟨.Exit, .Expr e⟩]
  onEnterBinaryExpr := fun e log => (accept (.Expr e), log ++ [⟨.Enter, .Expr e⟩])
  onExitBinaryExpr := fun e log => log ++ [⟨.Exit, .Expr e⟩]
  onEnterExprStmt := fun st log => (accept (.Stmt st), log ++ [⟨.Enter, .Stmt st⟩])
  onExitExprStmt := fun st log => log ++ [⟨.Exit, .Stmt st⟩]
  onEnterReturnStmt := fun st log => (accept (.Stmt st), log ++ [⟨.Enter, .Stmt st⟩])
  onExitReturnStmt := fun st log => log ++ [⟨.Exit, .Stmt st⟩]
  onEnterCompoundStmt := fun cs log =>
    (accept (.CompoundStmt cs), log ++ [⟨.Enter, .CompoundStmt cs⟩])
  onExitCompoundStmt := fun cs log => log ++ [⟨.Exit, .CompoundStmt cs⟩]
  onEnterParamDecl := fun pd log => (accept (.ParamDecl pd), log ++ [⟨.Enter, .ParamDecl pd⟩])
  onExitParamDecl := fun pd log => log ++ [⟨.Exit, .ParamDecl pd⟩]
  onEnterFunctionDecl := fun fn log =>
    (accept (.FunctionDecl fn), log ++ [⟨.Enter, .FunctionDecl fn⟩])
  onExitFunctionDecl := fun fn log => log ++ [⟨.Exit, .FunctionDecl fn⟩]
  onEnterTranslationUnit := fun tu log =>
    (accept (.TranslationUnit tu), log ++ [⟨.Enter, .TranslationUnit tu⟩])
  onExitTranslationUnit := fun tu log => log ++ [⟨.Exit, .TranslationUnit tu⟩]

/-- The traversal contract for one node, by the words of the specification:
the hooks on the way in, the last of which is the `onEnter` hook of the kind of
the node; if that one returns `true`, the calls for the children, which are
`children`, and then the `onExit` hook of the kind; if it returns `false`, no
call for a descendant and no call of the `onExit` hook of the kind; then the
`onExit` hooks of the base classes. -/
def visit (accept : Node → Bool) (n : Node) (children : List Event) : List Event :=
  [⟨.EnterNode, n⟩, ⟨.EnterBase, n⟩, ⟨.Enter, n⟩]
    ++ (if accept n then children ++ [⟨.Exit, n⟩] else [])
    ++ [⟨.ExitBase, n⟩, ⟨.ExitNode, n⟩]

end Walker

mutual

/-- The calls of hooks for an expression, in pre-order: a number and an
identifier have no children; the children of a call are its arguments, in
their order, and the callee is no child; the children of a binary expression
are the left operand, then the right operand. -/
def Expr.events (accept : Node → Bool) : Expr → List Walker.Event
  | .NumberExpr value range => Walker.visit accept (.Expr (.NumberExpr value range)) []
  | .IdentifierExpr name => Walker.visit accept (.Expr (.IdentifierExpr name)) []
  | .CallExpr callee args range =>
    Walker.visit accept (.Expr (.CallExpr callee args range)) (Expr.eventsOf accept args)
  | .BinaryExpr op lhs rhs range =>
    Walker.visit accept (.Expr (.BinaryExpr op lhs rhs range))
      (lhs.events accept ++ rhs.events accept)

/-- The calls of hooks for the arguments of a call, in their order. -/
def Expr.eventsOf (accept : Node → Bool) : List Expr → List Walker.Event
  | [] => []
  | e :: es => e.events accept ++ Expr.eventsOf accept es

end

/-- The calls of hooks for a statement: its child is its expression. -/
def Stmt.events (accept : Node → Bool) (st : Stmt) : List Walker.Event :=
  Walker.visit accept (.Stmt st) (st.expr.events accept)

/-- The calls of hooks for a compound statement: its children are its
statements, in their order. -/
def CompoundStmt.events (accept : Node → Bool) (cs : CompoundStmt) : List Walker.Event :=
  Walker.visit accept (.CompoundStmt cs) (cs.Stmts.map (Stmt.events accept)).flatten

/-- The calls of hooks for a parameter, which has no children. -/
def ParamDecl.events (accept : Node → Bool) (pd : ParamDecl) : List Walker.Event :=
  Walker.visit accept (.ParamDecl pd) []

/-- The calls of hooks for a function: its children are all its parameters,
in their order, then its body. -/
def FunctionDecl.events (accept : Node → Bool) (fn : FunctionDecl) : List Walker.Event :=
  Walker.visit accept (.FunctionDecl fn)
    ((fn.Params.map (ParamDecl.events accept)).flatten ++ fn.Body.events accept)

/-- The calls of hooks for a translation unit, which is neither an `Expr`, a
`Stmt` nor a `Decl`: its children are its functions, in their order. -/
def TranslationUnit.events (accept : Node → Bool) (tu : TranslationUnit) :
    List Walker.Event :=
  [⟨.EnterNode, .TranslationUnit tu⟩, ⟨.Enter, .TranslationUnit tu⟩]
    ++ (if accept (.TranslationUnit tu) then
          (tu.FNs.map (FunctionDecl.events accept)).flatten ++ [⟨.Exit, .TranslationUnit tu⟩]
        else [])
    ++ [⟨.ExitNode, .TranslationUnit tu⟩]

/-- The name and the number of parameters a function declares. -/
def FunctionDecl.signature (file : File) (fn : FunctionDecl) : List Nat × Nat :=
  (file.slice fn.Name, fn.Params.length)

namespace LowerToLLVMIRVisitor

/-- The entry block of the function at the insertion point of the builder:
the instructions emitted into it so far. -/
def block (V : LowerToLLVMIRVisitor) : List IR.Instr :=
  match V.InsertPoint.bind (fun k => V.Module.Functions[k]?) with
  | some f => f.Entry
  | none => []

/-- The floating-point instruction of an arithmetic operator on two values, by
the words of the specification: `fadd`, `fsub`, `fmul` or `fdiv`. -/
def arith : Op → IR.Value → IR.Value → List IR.Instr
  | .Add, lhs, rhs => [.FAdd lhs rhs]
  | .Sub, lhs, rhs => [.FSub lhs rhs]
  | .Mul, lhs, rhs => [.FMul lhs rhs]
  | .Div, lhs, rhs => [.FDiv lhs rhs]
  | .Assign, _, _ => []

/-- The name and the number of parameters of each function of the module, in
their order. -/
def signatures (V : LowerToLLVMIRVisitor) : List (List Nat × Nat) :=
  V.Module.Functions.map (fun f => (f.Name, f.NumParams))

/-- The state in which the lowering arrives at the first function: the state
of the constructor after `onEnter(TranslationUnit)`. -/
def start (file : File) : LowerToLLVMIRVisitor :=
  { init with Module := { init.Module with SourceFileName := file.Filename } }

/-- The state in which the lowering of a translation unit arrives at the
function that follows the functions `front`. -/
def atFunction (X : Extern) (file : File) (T : ScopeTree) (front : List FunctionDecl) :
    LowerToLLVMIRVisitor :=
  front.foldl (fun acc fn => Walker.walkFunctionDecl (visitor X file T) fn acc) (start file)

/-- The state in which the lowering of the function `fn`, entered in the state
`V`, arrives at the statement that follows the statements `sfront`. -/
def atStmt (X : Extern) (file : File) (T : ScopeTree) (fn : FunctionDecl)
    (sfront : List Stmt) (V : LowerToLLVMIRVisitor) : LowerToLLVMIRVisitor :=
  sfront.foldl (fun acc st => Walker.walkStmt (visitor X file T) st acc)
    (onEnterFunctionDecl file T fn V).2

/-- `LowersExpr X file T e V e1 V1`: the call of `lower` on the expression `e`
in the state `V` calls `lower` on the expression `e1`, which is `e` or occurs
in it, in the state `V1`. The arguments of a call are lowered in their order,
each in the state the ones in front of it leave; the left operand of an
arithmetic operator is lowered first and the right operand in the state it
leaves; of an assignment only the right operand is lowered. -/
inductive LowersExpr (X : Extern) (file : File) (T : ScopeTree) :
    Expr → LowerToLLVMIRVisitor → Expr → LowerToLLVMIRVisitor → Prop where
  | here (e : Expr) (V : LowerToLLVMIRVisitor) : LowersExpr X file T e V e V
  | arg {callee : Range} {args : List Expr} {range : Range} {V : LowerToLLVMIRVisitor}
      {front : List Expr} {a : Expr} {back : List Expr} {e1 : Expr}
      {V1 : LowerToLLVMIRVisitor} (hargs : args = front ++ a :: back)
      (h : LowersExpr X file T a (lowerArgs X file T front [] V).2 e1 V1) :
      LowersExpr X file T (.CallExpr callee args range) V e1 V1
  | lhs {op : Op} {l r : Expr} {range : Range} {V : LowerToLLVMIRVisitor} {e1 : Expr}
      {V1 : LowerToLLVMIRVisitor} (hop : op ≠ .Assign) (h : LowersExpr X file T l V e1 V1) :
      LowersExpr X file T (.BinaryExpr op l r range) V e1 V1
  | rhs {op : Op} {l r : Expr} {range : Range} {V : LowerToLLVMIRVisitor} {e1 : Expr}
      {V1 : LowerToLLVMIRVisitor} (hop : op ≠ .Assign)
      (h : LowersExpr X file T r (lower X file T l V).2 e1 V1) :
      LowersExpr X file T (.BinaryExpr op l r range) V e1 V1
  | assigned {name : Range} {r : Expr} {range : Range} {V : LowerToLLVMIRVisitor}
      {e1 : Expr} {V1 : LowerToLLVMIRVisitor} (h : LowersExpr X file T r V e1 V1) :
      LowersExpr X file T (.BinaryExpr .Assign (.IdentifierExpr name) r range) V e1 V1

/-- `Lowers X file T tu fn e V`: while `LowerToLLVMIR X file tu T` runs, `lower`
is called on the expression `e`, which occurs in the body of the function `fn`
of `tu`, in the state `V`. -/
def Lowers (X : Extern) (file : File) (T : ScopeTree) (tu : TranslationUnit)
    (fn : FunctionDecl) (e : Expr) (V : LowerToLLVMIRVisitor) : Prop :=
  ∃ front back sfront st sback,
    tu.FNs = front ++ fn :: back ∧ fn.Body.Stmts = sfront ++ st :: sback ∧
    LowersExpr X file T st.expr (atStmt X file T fn sfront (atFunction X file T front)) e V

end LowerToLLVMIRVisitor

namespace ScopeTree

/-- The stores in which the scopes are where the scope pointer of the analyzer
puts them: the global scope `0` has no parent and holds `Function` symbols
only; every other scope is the scope of a `Function` symbol of the global
scope, has the global scope as its parent, and holds `Param` and `Var` symbols
only. -/
structure Tidy (T : ScopeTree) : Prop where
  global : ∃ sc0, T.get? 0 = some sc0 ∧ sc0.Parent = none ∧
    ∀ sym ∈ sc0.Symbols, sym.TheKind = .Function
  functions : ∀ id sc, id ≠ 0 → T.get? id = some sc →
    sc.Parent = some 0 ∧
    (∀ sym ∈ sc.Symbols, sym.TheKind = .Param ∨ sym.TheKind = .Var) ∧
    ∃ sc0 sym, T.get? 0 = some sc0 ∧ sym ∈ sc0.Symbols ∧ sym.TheKind = .Function ∧
      sym.TheScope = some id

end ScopeTree

namespace AnalyzerVisitor

/-- `EntersAt file os front fn e A`: in the walk of a translation unit in which
the function `fn` follows the functions `front`, the hook `onEnter` of the
expression `e`, which occurs in the body of `fn`, is called in the state `A`.
The function was not rejected as a redefinition. -/
def EntersAt (file : File) (os : String) (front : List FunctionDecl) (fn : FunctionDecl)
    (e : Expr) (A : AnalyzerVisitor) : Prop :=
  ∃ sfront st sback, fn.Body.Stmts = sfront ++ st :: sback ∧
    (onEnterFunctionDecl file fn (atFunction file os front)).1 = true ∧
    EntersExpr file st.expr (atStmt file sfront (atBody file fn (atFunction file os front))) e A

end AnalyzerVisitor

namespace Lexer

/-- `Reads X L ts L1`: the calls of `next` that lead from `L` to `L1` consume
the tokens `ts`, none of which is the end of the file, and the lexeme of every
`Number` token among them converts to a double. -/
def Reads (X : Extern) (L : Lexer) : List Token → Lexer → Prop
  | [], L1 => L1 = L
  | t :: ts, L1 =>
    L.CurrentToken = t ∧ t ≠ Token.EndOfFile ∧
      (t = Token.Number → (X.getAsDouble (L.File.slice L.Range)).isSome = true) ∧
      Reads X L.next ts L1

/-- The ranges of the `Number` tokens from the current token up to the end of
the file. -/
def numbers : Nat → Lexer → List mua.Range
  | 0, _ => []
  | fuel + 1, L =>
    if L.CurrentToken = Token.EndOfFile then []
    else if L.CurrentToken = Token.Number then L.Range :: numbers fuel L.next
    else numbers fuel L.next

end Lexer

/-- The ranges of the `Number` lexemes of a file, in the order of the token
sequence of the file. -/
def File.numbers (file : File) : List Range :=
  Lexer.numbers (file.size + 1) (Lexer.init file).next

/-- A postcondition on the results that are no `nullptr`: the parsing function
returned a node, for which the postcondition holds, unless the loop budget of
the embedding ran out. -/
inductive Result.Accepts {α : Type} (okP : α → Parser → Prop) : Result α → Prop where
  | ok {a : α} {P : Parser} (h : okP a P) : Result.Accepts okP (.ok a P)
  | outOfFuel : Result.Accepts okP .outOfFuel

namespace Grammar

/-- The token sequences `( Op PrimaryExpr )*`: what follows the first primary
expression of a binary expression, with the precedences left out. -/
inductive FlatTail (trailingComma : Bool) : List Token → Prop where
  | nil : FlatTail trailingComma []
  | cons {op : Token} {q : Int} {primary rest : List Token} (hq : prec op = some q)
      (h : PrimaryExpr trailingComma primary) (hr : FlatTail trailingComma rest) :
      FlatTail trailingComma (op :: (primary ++ rest))

/-- The tokens that may follow an expression: no binary operator and no `(`. -/
def Follow (t : Token) : Prop := BinaryExprOp.Create t = none ∧ t ≠ Token.LParen

/-- `ParamList` with the number of its identifiers. -/
inductive ParamListN (trailingComma : Bool) : Nat → List Token → Prop where
  | last : ParamListN trailingComma 1 [.Identifier]
  | lastComma (ht : trailingComma = true) : ParamListN trailingComma 1 [.Identifier, .Comma]
  | cons {k : Nat} {rest : List Token} (hr : ParamListN trailingComma k rest) :
      ParamListN trailingComma (k + 1) (.Identifier :: .Comma :: rest)

/-- `Stmt*` with the number of its statements. -/
inductive StmtsN (trailingComma : Bool) : Nat → List Token → Prop where
  | nil : StmtsN trailingComma 0 []
  | cons {n : Nat} {st rest : List Token} (h : Stmt trailingComma st)
      (hr : StmtsN trailingComma n rest) : StmtsN trailingComma (n + 1) (st ++ rest)

/-- `FunctionDecl` with the number `k` of its parameters and the number `n` of
the statements of its body: one `function ... end` group. -/
inductive FunctionDeclN (trailingComma : Bool) : Nat → Nat → List Token → Prop where
  | noParams {n : Nat} {body : List Token} (hb : StmtsN trailingComma n body) :
      FunctionDeclN trailingComma 0 n
        (.Function :: .Identifier :: .LParen :: .RParen :: (body ++ [.End]))
  | params {k n : Nat} {ps body : List Token} (hp : ParamListN trailingComma k ps)
      (hb : StmtsN trailingComma n body) :
      FunctionDeclN trailingComma k n
        (.Function :: .Identifier :: .LParen :: (ps ++ .RParen :: (body ++ [.End])))

/-- `Groups trailingComma l ts`: the token sequence `ts` is a sequence of
`function ... end` groups, one for each entry of `l` and in its order, and
each entry holds the number of parameters and the number of statements of its
group. -/
inductive Groups (trailingComma : Bool) : List (Nat × Nat) → List Token → Prop where
  | nil : Groups trailingComma [] []
  | cons {k n : Nat} {l : List (Nat × Nat)} {fn rest : List Token}
      (h : FunctionDeclN trailingComma k n fn) (hr : Groups trailingComma l rest) :
      Groups trailingComma ((k, n) :: l) (fn ++ rest)

end Grammar

/-- The number of parameters and the number of statements of each function
of a translation unit, in the order of the unit. -/
def TranslationUnit.counts (tu : TranslationUnit) : List (Nat × Nat) :=
  tu.FNs.map fun fn => (fn.Params.length, fn.Body.Stmts.length)

namespace Parser

/-- What is left of the tokens `( Op PrimaryExpr )*` up to `L1` when
`parseBinaryExpr` returns at `L` with the minimal precedence `minPrec`: nothing,
or tokens that begin with an operator of a lower precedence. -/
def Rest (X : Extern) (trailingComma : Bool) (minPrec : Int) (L L1 : Lexer) : Prop :=
  ∃ ts, Lexer.Reads X L ts L1 ∧ Grammar.FlatTail trailingComma ts ∧
    (ts = [] ∨ ∃ op rest q, ts = op :: rest ∧ Grammar.prec op = some q ∧ q < minPrec)

end Parser

/-! ## Example inputs -/

namespace Examples

/-- A stand-in for what comes from outside the sources: every number lexeme
converts, to the double of bits `0`; nothing is folded. -/
def X0 : Extern := ⟨fun _ => some ⟨0⟩, fun _ => "token", fun _ _ _ => none⟩

/-- The source `function f() return a = b = c end`. -/
def assignChain : File :=
  ⟨"assign.mua", [102, 117, 110, 99, 116, 105, 111, 110, 32, 102, 40, 41, 32, 114, 101, 116,
    117, 114, 110, 32, 97, 32, 61, 32, 98, 32, 61, 32, 99, 32, 101, 110, 100], by decide⟩

/-- The source `function f() return a - b - c end`. -/
def subChain : File :=
  ⟨"sub.mua", [102, 117, 110, 99, 116, 105, 111, 110, 32, 102, 40, 41, 32, 114, 101, 116,
    117, 114, 110, 32, 97, 32, 45, 32, 98, 32, 45, 32, 99, 32, 101, 110, 100], by decide⟩

/-- The source `1 + 2 * 3`. -/
def addMul : File := ⟨"addmul.mua", [49, 32, 43, 32, 50, 32, 42, 32, 51], by decide⟩

/-- The source `1 * 2 + 3`. -/
def mulAdd : File := ⟨"muladd.mua", [49, 32, 42, 32, 50, 32, 43, 32, 51], by decide⟩

/-- The source `a = b + c`. -/
def assignAdd : File := ⟨"assignadd.mua", [97, 32, 61, 32, 98, 32, 43, 32, 99], by decide⟩

/-- The source `a * b = c`. -/
def mulAssign : File := ⟨"mulassign.mua", [97, 32, 42, 32, 98, 32, 61, 32, 99], by decide⟩

/-- The source `function f(a,) return a end`. -/
def trailingParam : File :=
  ⟨"param.mua", [102, 117, 110, 99, 116, 105, 111, 110, 32, 102, 40, 97, 44, 41, 32, 114,
    101, 116, 117, 114, 110, 32, 97, 32, 101, 110, 100], by decide⟩

/-- The source `function f() return g(1,) end`. -/
def trailingArg : File :=
  ⟨"arg.mua", [102, 117, 110, 99, 116, 105, 111, 110, 32, 102, 40, 41, 32, 114, 101, 116,
    117, 114, 110, 32, 103, 40, 49, 44, 41, 32, 101, 110, 100], by decide⟩

/-- The source `function f() return 0 end`. -/
def returnZero : File :=
  ⟨"zero.mua", [102, 117, 110, 99, 116, 105, 111, 110, 32, 102, 40, 41, 32, 114, 101, 116,
    117, 114, 110, 32, 48, 32, 101, 110, 100], by decide⟩

/-- A source of two blanks and a comment line: `  -- only a comment`. -/
def onlyComment : File :=
  ⟨"comment.mua", [32, 32, 45, 45, 32, 111, 110, 108, 121, 32, 97, 32, 99, 111, 109, 109,
    101, 110, 116, 10], by decide⟩

/-- A comment that holds a zero byte: `--`, the byte `0`, a newline. -/
def nulComment : File := ⟨"nul.mua", [45, 45, 0, 10], by decide⟩

/-- The source `return_1 end`. -/
def identifiers : File :=
  ⟨"ident.mua", [114, 101, 116, 117, 114, 110, 95, 49, 32, 101, 110, 100], by decide⟩

/-- The parser at the first token of a file, with nothing written. -/
def start (file : File) : Parser := ⟨"", (Lexer.init file).next⟩

/-- The source `1.2.3`. -/
def oneTwoThree : File := ⟨"number.mua", [49, 46, 50, 46, 51], by decide⟩

/-- The source `.`, a lone dot. -/
def loneDot : File := ⟨"dot.mua", [46], by decide⟩

/-- The source `a $ b`, whose byte `$` starts no token. -/
def dollar : File := ⟨"dollar.mua", [97, 32, 36, 32, 98], by decide⟩

/-- The source `function f() 1 + 2 end`. -/
def exprLast : File :=
  ⟨"expr.mua", [102, 117, 110, 99, 116, 105, 111, 110, 32, 102, 40, 41, 32, 49, 32, 43, 32, 50,
    32, 101, 110, 100], by decide⟩

/-- The source `function f() end`. -/
def emptyBody : File :=
  ⟨"empty.mua", [102, 117, 110, 99, 116, 105, 111, 110, 32, 102, 40, 41, 32, 101, 110, 100],
    by decide⟩

/-- The source `function f() return 0 end function f() return 1 end`. -/
def twice : File :=
  ⟨"twice.mua", [102, 117, 110, 99, 116, 105, 111, 110, 32, 102, 40, 41, 32, 114, 101, 116, 117, 114,
    110, 32, 48, 32, 101, 110, 100, 32, 102, 117, 110, 99, 116, 105, 111, 110, 32, 102,
    40, 41, 32, 114, 101, 116, 117, 114, 110, 32, 49, 32, 101, 110, 100],
    by decide⟩

/-- The source `function f() return g() end`. -/
def undeclared : File :=
  ⟨"undeclared.mua", [102, 117, 110, 99, 116, 105, 111, 110, 32, 102, 40, 41, 32, 114, 101, 116, 117, 114,
    110, 32, 103, 40, 41, 32, 101, 110, 100],
    by decide⟩

/-- The source `function f(x) return x end function g() return f() end`. -/
def arity : File :=
  ⟨"arity.mua", [102, 117, 110, 99, 116, 105, 111, 110, 32, 102, 40, 120, 41, 32, 114, 101, 116, 117,
    114, 110, 32, 120, 32, 101, 110, 100, 32, 102, 117, 110, 99, 116, 105, 111, 110, 32,
    103, 40, 41, 32, 114, 101, 116, 117, 114, 110, 32, 102, 40, 41, 32, 101, 110, 100],
    by decide⟩

/-- The source `function f(x, x) return x end function g() return f(1) end`. -/
def maskedArity : File :=
  ⟨"masked.mua", [102, 117, 110, 99, 116, 105, 111, 110, 32, 102, 40, 120, 44, 32, 120, 41, 32, 114, 101,
    116, 117, 114, 110, 32, 120, 32, 101, 110, 100, 32, 102, 117, 110, 99, 116, 105, 111,
    110, 32, 103, 40, 41, 32, 114, 101, 116, 117, 114, 110, 32, 102, 40, 49, 41, 32, 101,
    110, 100],
    by decide⟩

/-- The source `function f(x) return f(x) end`. -/
def recursive : File :=
  ⟨"recursive.mua", [102, 117, 110, 99, 116, 105, 111, 110, 32, 102, 40, 120, 41, 32, 114, 101, 116, 117,
    114, 110, 32, 102, 40, 120, 41, 32, 101, 110, 100],
    by decide⟩

/-- The source `function f(x) y = x + 1 return y end function g(a, b) return f(a) + b end`. -/
def twoFns : File :=
  ⟨"two.mua", [102, 117, 110, 99, 116, 105, 111, 110, 32, 102, 40, 120, 41, 32, 121, 32, 61, 32, 120,
    32, 43, 32, 49, 32, 114, 101, 116, 117, 114, 110, 32, 121, 32, 101, 110, 100, 32,
    102, 117, 110, 99, 116, 105, 111, 110, 32, 103, 40, 97, 44, 32, 98, 41, 32, 114, 101,
    116, 117, 114, 110, 32, 102, 40, 97, 41, 32, 43, 32, 98, 32, 101, 110, 100],
    by decide⟩

/-- The translation unit the parser returns on a file, if it returns one. -/
def parsed (file : File) : Option TranslationUnit :=
  match Parse X0 file "" with
  | .ok tu _ => some tu
  | _ => none

/-- The source `function f(x) return x end function g(y) return f(y) end`. -/
def twoCalls : File :=
  ⟨"calls.mua", [102, 117, 110, 99, 116, 105, 111, 110, 32, 102, 40, 120, 41, 32, 114, 101, 116, 117,
    114, 110, 32, 120, 32, 101, 110, 100, 32, 102, 117, 110, 99, 116, 105, 111, 110, 32,
    103, 40, 121, 41, 32, 114, 101, 116, 117, 114, 110, 32, 102, 40, 121, 41, 32, 101,
    110, 100],
    by decide⟩

/-- The source `function g(y) return f(y) end function f(x) return x end`. -/
def calleeLast : File :=
  ⟨"last.mua", [102, 117, 110, 99, 116, 105, 111, 110, 32, 103, 40, 121, 41, 32, 114, 101, 116, 117,
    114, 110, 32, 102, 40, 121, 41, 32, 101, 110, 100, 32, 102, 117, 110, 99, 116, 105,
    111, 110, 32, 102, 40, 120, 41, 32, 114, 101, 116, 117, 114, 110, 32, 120, 32, 101,
    110, 100],
    by decide⟩

/-- The source `function f() return f end`. -/
def selfRead : File :=
  ⟨"selfread.mua", [102, 117, 110, 99, 116, 105, 111, 110, 32, 102, 40, 41, 32, 114, 101, 116,
    117, 114, 110, 32, 102, 32, 101, 110, 100],
    by decide⟩

/-- The source `function f() f = 1 return 0 end`. -/
def selfAssign : File :=
  ⟨"selfassign.mua", [102, 117, 110, 99, 116, 105, 111, 110, 32, 102, 40, 41, 32, 102, 32, 61,
    32, 49, 32, 114, 101, 116, 117, 114, 110, 32, 48, 32, 101, 110, 100],
    by decide⟩

/-- The source `function f() return 1 return 2 end`. -/
def twoReturns : File :=
  ⟨"returns.mua", [102, 117, 110, 99, 116, 105, 111, 110, 32, 102, 40, 41, 32, 114, 101, 116,
    117, 114, 110, 32, 49, 32, 114, 101, 116, 117, 114, 110, 32, 50, 32, 101, 110, 100],
    by decide⟩

/-- The source `function f() g = 1 return g end function g() return 0 end`. -/
def lateFunction : File :=
  ⟨"late.mua", [102, 117, 110, 99, 116, 105, 111, 110, 32, 102, 40, 41, 32, 103, 32, 61, 32, 49,
    32, 114, 101, 116, 117, 114, 110, 32, 103, 32, 101, 110, 100, 32, 102, 117, 110, 99, 116,
    105, 111, 110, 32, 103, 40, 41, 32, 114, 101, 116, 117, 114, 110, 32, 48, 32, 101, 110, 100],
    by decide⟩

/-- The source `function f(x) y = x + 1 return y end`. -/
def implicitVar : File :=
  ⟨"implicit.mua", [102, 117, 110, 99, 116, 105, 111, 110, 32, 102, 40, 120, 41, 32, 121, 32, 61,
    32, 120, 32, 43, 32, 49, 32, 114, 101, 116, 117, 114, 110, 32, 121, 32, 101, 110, 100],
    by decide⟩

/-- The source `function f(x) return x end`. -/
def oneParam : File :=
  ⟨"one.mua", [102, 117, 110, 99, 116, 105, 111, 110, 32, 102, 40, 120, 41, 32, 114, 101, 116,
    117, 114, 110, 32, 120, 32, 101, 110, 100],
    by decide⟩

/-- The source `function f(a, b) return a end`. -/
def twoParams : File :=
  ⟨"params.mua", [102, 117, 110, 99, 116, 105, 111, 110, 32, 102, 40, 97, 44, 32, 98, 41, 32,
    114, 101, 116, 117, 114, 110, 32, 97, 32, 101, 110, 100],
    by decide⟩

/-- The source `ab`. -/
def overlap : File :=
  ⟨"ab.mua", [97, 98],
    by decide⟩

/-- A host on which the arguments select the action `action` and every file
name opens `file`. -/
def host (file : File) (action : muac.Action) : muac.Host :=
  ⟨fun _ => (some (file.Filename, action), ""), fun _ => .ok file,
    fun _ => "ast", fun _ => "sema", fun _ => "llvm"⟩

/-- A host on which no file opens. -/
def noFile : muac.Host :=
  ⟨fun _ => (some ("none.mua", .None), ""), fun _ => .error "No such file or directory",
    fun _ => "ast", fun _ => "sema", fun _ => "llvm"⟩

/-- An `Extern` whose `getAsDouble` converts the lexeme `1` to the double `1.0`,
whose encoding is `0x3FF0000000000000`, and whose constant folder folds
nothing. -/
def X1 : Extern :=
  ⟨fun bs => if bs = [49] then some ⟨4607182418800017408⟩ else some ⟨0⟩, fun _ => "token",
    fun _ _ _ => none⟩

/-- The source `function f() return h(g()) end function g() return 0 end`: the
call of `g`, which is declared behind `f`, is an argument of a call of `h`,
which is declared nowhere. -/
def forwardInside : File :=
  ⟨"inside.mua", [102, 117, 110, 99, 116, 105, 111, 110, 32, 102, 40, 41, 32, 114, 101, 116,
    117, 114, 110, 32, 104, 40, 103, 40, 41, 41, 32, 101, 110, 100, 32, 102, 117, 110, 99, 116,
    105, 111, 110, 32, 103, 40, 41, 32, 114, 101, 116, 117, 114, 110, 32, 48, 32, 101, 110,
    100],
    by decide⟩

/-- The source `function f(g) return g() end function g() return 0 end`: the
function `g` is declared behind `f`, whose parameter has its name. -/
def forwardShadowed : File :=
  ⟨"shadowed.mua", [102, 117, 110, 99, 116, 105, 111, 110, 32, 102, 40, 103, 41, 32, 114, 101,
    116, 117, 114, 110, 32, 103, 40, 41, 32, 101, 110, 100, 32, 102, 117, 110, 99, 116, 105,
    111, 110, 32, 103, 40, 41, 32, 114, 101, 116, 117, 114, 110, 32, 48, 32, 101, 110, 100],
    by decide⟩

/-- The source `function f() return g() end function g() return 0 end`: a
call of a function that is declared behind the call. -/
def forwardCall : File :=
  ⟨"forward.mua", [102, 117, 110, 99, 116, 105, 111, 110, 32, 102, 40, 41, 32, 114, 101, 116,
    117, 114, 110, 32, 103, 40, 41, 32, 101, 110, 100, 32, 102, 117, 110, 99, 116, 105, 111,
    110, 32, 103, 40, 41, 32, 114, 101, 116, 117, 114, 110, 32, 48, 32, 101, 110, 100],
    by decide⟩

/-- The source `function f(x, x) return f(0, 0) end`: the second parameter
of `f` is rejected, and the call of `f` in its body has two arguments. -/
def recursiveTwice : File :=
  ⟨"recursive2.mua", [102, 117, 110, 99, 116, 105, 111, 110, 32, 102, 40, 120, 44, 32, 120,
    41, 32, 114, 101, 116, 117, 114, 110, 32, 102, 40, 48, 44, 32, 48, 41, 32, 101, 110, 100],
    by decide⟩

/-- The source `function`: the file ends where the parser expects the name of
the function. -/
def noName : File := ⟨"eof.mua", [102, 117, 110, 99, 116, 105, 111, 110], by decide⟩

/-- The three lines `ab`, the empty line, and `c`, without a final newline. -/
def threeLines : File := ⟨"lines.mua", [97, 98, 10, 10, 99], by decide⟩

/-- The source `function f()`, a newline, `end`: a function without a
statement, on two lines. -/
def brokenLine : File :=
  ⟨"broken.mua", [102, 117, 110, 99, 116, 105, 111, 110, 32, 102, 40, 41, 10, 101, 110, 100],
    by decide⟩

/-- The two lines `ab`, followed by three spaces, and `cd`. -/
def trailingSpace : File := ⟨"space.mua", [97, 98, 32, 32, 32, 10, 99, 100], by decide⟩

end Examples

/-! # Theorems -/

/-! ## The lexer: scanning steps, progress, well-formed states -/

namespace Lexer

theorem Adv.reflAdv (L : Lexer) : Adv L L := ⟨rfl, rfl, rfl, le_rfl, id⟩

theorem Adv.transAdv {L L1 L2 : Lexer} (h1 : Adv L L1) (h2 : Adv L1 L2) : Adv L L2 :=
  ⟨h2.file.trans h1.file, h2.range.trans h1.range, h2.token.trans h1.token,
    h1.mono.trans h2.mono, fun h => by
      have := h2.bound (by rw [h1.file]; exact h1.bound h)
      rwa [h1.file] at this⟩

theorem adv_advance (L : Lexer) : Adv L L.advance := by
  unfold advance
  split
  · exact Adv.reflAdv L
  · exact ⟨rfl, rfl, rfl, Nat.le_succ _, fun _ => by simp at *; omega⟩

theorem adv_skipWhitespace (fuel : Nat) (L : Lexer) : Adv L (skipWhitespace fuel L) := by
  induction fuel generalizing L with
  | zero => exact Adv.reflAdv L
  | succ n ih =>
    unfold skipWhitespace
    split
    · exact (adv_advance L).transAdv (ih _)
    · exact Adv.reflAdv L

theorem adv_skipLine (fuel : Nat) (L : Lexer) : Adv L (skipLine fuel L) := by
  induction fuel generalizing L with
  | zero => exact Adv.reflAdv L
  | succ n ih =>
    unfold skipLine
    split
    · exact (adv_advance L).transAdv (ih _)
    · exact Adv.reflAdv L

theorem adv_skipTrivia (fuel : Nat) (L : Lexer) : Adv L (skipTrivia fuel L) := by
  induction fuel generalizing L with
  | zero => exact Adv.reflAdv L
  | succ n ih =>
    unfold skipTrivia
    simp only
    split
    · exact (adv_skipWhitespace _ L).transAdv (((adv_advance _).transAdv (adv_advance _)).transAdv
        ((adv_skipLine _ _).transAdv (ih _)))
    · exact adv_skipWhitespace _ L

theorem adv_lexIdentifier (fuel : Nat) (L : Lexer) : Adv L (lexIdentifier fuel L) := by
  induction fuel generalizing L with
  | zero => exact Adv.reflAdv L
  | succ n ih =>
    unfold lexIdentifier
    simp only
    split
    · exact (adv_advance L).transAdv (ih _)
    · exact adv_advance L

theorem adv_lexNumber (fuel : Nat) (d : Bool) (L : Lexer) : Adv L (lexNumber fuel d L) := by
  induction fuel generalizing L d with
  | zero => exact Adv.reflAdv L
  | succ n ih =>
    unfold lexNumber
    simp only
    split
    · exact (adv_advance L).transAdv (ih _ _)
    · exact adv_advance L

theorem advance_current_of_lt {L : Lexer} (h : L.Current < L.File.size) :
    L.advance.Current = L.Current + 1 := by
  unfold advance
  rw [if_neg (by omega)]

theorem lexIdentifier_progress (fuel : Nat) (L : Lexer) (h : L.Current < L.File.size) :
    L.Current < (lexIdentifier (fuel + 1) L).Current := by
  unfold lexIdentifier
  simp only
  have h1 := advance_current_of_lt h
  split
  · have := (adv_lexIdentifier fuel L.advance).mono
    omega
  · omega

theorem lexNumber_progress (fuel : Nat) (d : Bool) (L : Lexer) (h : L.Current < L.File.size) :
    L.Current < (lexNumber (fuel + 1) d L).Current := by
  unfold lexNumber
  simp only
  have h1 := advance_current_of_lt h
  split
  · have := (adv_lexNumber fuel (d || L.peek 0 == 46) L.advance).mono
    omega
  · omega

theorem toOffset_of_le_size {f : mua.File} {n : Nat} (h : n ≤ f.size) : toOffset n = n := by
  unfold toOffset
  have := f.fits
  unfold File.size at h
  exact Nat.mod_eq_of_lt (by omega)

/-- What `lexToken` does to the lexer. -/
theorem lexToken_spec (L : Lexer) :
    (L.lexToken).2.File = L.File ∧ (L.lexToken).2.CurrentToken = L.CurrentToken ∧
    L.Current ≤ (L.lexToken).2.Current ∧
    (L.Current ≤ L.File.size → (L.lexToken).2.Current ≤ L.File.size) ∧
    ((L.lexToken).1 ≠ Token.EndOfFile →
      L.Current < (L.lexToken).2.Current ∧ (L.lexToken).2.Current ≤ L.File.size) ∧
    (L.lexToken).2.Range.End = toOffset (L.lexToken).2.Current ∧
    (L.lexToken).2.Range.Begin = toOffset L.Current := by
  unfold lexToken
  simp only
  split
  · exact ⟨rfl, rfl, le_rfl, id, fun h => absurd rfl h, rfl, rfl⟩
  · rename_i hlt
    have hlt2 : L.Current < L.File.size := by omega
    split
    · have hI := adv_lexIdentifier (L.File.size + 1) L
      have hp := lexIdentifier_progress L.File.size L hlt2
      exact ⟨hI.file, hI.token, hI.mono, hI.bound, fun _ => ⟨hp, hI.bound (by omega)⟩,
        rfl, rfl⟩
    · split
      · have hI := adv_lexNumber (L.File.size + 1) false L
        have hp := lexNumber_progress L.File.size false L hlt2
        exact ⟨hI.file, hI.token, hI.mono, hI.bound, fun _ => ⟨hp, hI.bound (by omega)⟩,
          rfl, rfl⟩
      · have hI := adv_advance L
        have hp := advance_current_of_lt hlt2
        refine ⟨hI.file, hI.token, hI.mono, hI.bound,
          fun _ => ⟨?_, hI.bound (by omega)⟩, rfl, rfl⟩
        show L.Current < L.advance.Current
        omega

/-- What one call of `lex` does to the lexer. -/
theorem lex_spec (L : Lexer) :
    (L.lex).2.File = L.File ∧ (L.lex).2.CurrentToken = L.CurrentToken ∧
    L.Current ≤ (L.lex).2.Current ∧
    (L.Current ≤ L.File.size → (L.lex).2.Current ≤ L.File.size) ∧
    ((L.lex).1 ≠ Token.EndOfFile →
      L.Current < (L.lex).2.Current ∧ (L.lex).2.Current ≤ L.File.size) ∧
    (L.lex).2.Range.End = toOffset (L.lex).2.Current ∧
    (L.lex).2.Range.Begin = toOffset (skipTrivia (L.File.size + 1) L).Current ∧
    (skipTrivia (L.File.size + 1) L).Current ≤ (L.lex).2.Current := by
  have hT := adv_skipTrivia (L.File.size + 1) L
  unfold lex
  generalize skipTrivia (L.File.size + 1) L = L1 at hT ⊢
  obtain ⟨hf, ht, hm, hb, hP, hE, hB⟩ := lexToken_spec L1
  have hTm := hT.mono
  have hTf := hT.file
  refine ⟨hf.trans hT.file, ht.trans hT.token, hTm.trans hm, fun h => ?_, fun h => ?_,
    hE, hB, hm⟩
  · have := hb (by rw [hTf]; exact hT.bound h)
    rwa [hTf] at this
  · have := hP h
    rw [hTf] at this
    constructor <;> omega

/-- What `next` does to the lexer. -/
theorem next_spec (L : Lexer) :
    L.next.File = L.File ∧ L.Current ≤ L.next.Current ∧
    (L.Current ≤ L.File.size → L.next.Current ≤ L.File.size) ∧
    (L.next.CurrentToken ≠ Token.EndOfFile →
      L.Current < L.next.Current ∧ L.next.Current ≤ L.File.size) ∧
    L.next.Range.End = toOffset L.next.Current ∧
    (∃ c, L.Current ≤ c ∧ c ≤ L.next.Current ∧ L.next.Range.Begin = toOffset c) := by
  obtain ⟨hf, -, hm, hb, hP, hE, hB, hT⟩ := lex_spec L
  have hTm := (adv_skipTrivia (L.File.size + 1) L).mono
  unfold next
  generalize L.lex = r at *
  exact ⟨hf, hm, hb, hP, hE, _, hTm, hT, hB⟩

theorem next_file (L : Lexer) : L.next.File = L.File := (next_spec L).1

theorem next_mono (L : Lexer) : L.Current ≤ L.next.Current := (next_spec L).2.1

theorem next_progress (L : Lexer) (h : L.next.CurrentToken ≠ Token.EndOfFile) :
    L.Current < L.next.Current ∧ L.next.Current ≤ L.File.size :=
  (next_spec L).2.2.2.1 h

/-- `next` keeps the lexer well formed, and the next token begins at or after
the end of the current one. -/
theorem next_WF {L : Lexer} (h : WF L) :
    WF L.next ∧ L.Range.End ≤ L.next.Range.Begin := by
  obtain ⟨h1, h2, h3⟩ := h
  obtain ⟨hf, hm, hb, -, hE, c, hc1, hc2, hB⟩ := next_spec L
  have hb1 := hb h3
  rw [toOffset_of_le_size hb1] at hE
  rw [toOffset_of_le_size (hc2.trans hb1)] at hB
  unfold WF
  rw [hf]
  generalize L.next = L1 at *
  omega

theorem init_WF (file : mua.File) : WF (init file) := by
  refine ⟨le_rfl, rfl, Nat.zero_le _⟩

theorem measure_next_lt (L : Lexer) (h : L.CurrentToken ≠ Token.EndOfFile) :
    L.next.measure < L.measure := by
  unfold measure
  rw [if_neg h, next_file]
  by_cases hn : L.next.CurrentToken = Token.EndOfFile
  · rw [if_pos hn]
    have := next_mono L
    omega
  · rw [if_neg hn]
    have := next_progress L hn
    omega

theorem measure_next_le (L : Lexer) : L.next.measure ≤ L.measure := by
  obtain ⟨hf, hm, hb, hP, -, -⟩ := next_spec L
  unfold measure
  rw [hf]
  by_cases hn : L.next.CurrentToken = Token.EndOfFile
  · rw [if_pos hn]
    omega
  · rw [if_neg hn]
    have := hP hn
    omega

theorem measure_init_next (file : mua.File) : (init file).next.measure ≤ file.size + 1 := by
  unfold measure
  rw [next_file]
  have : (init file).File = file := rfl
  rw [this]
  split <;> omega

end Lexer

/-! ## The parser: termination and the error discipline -/

namespace Parser

theorem consume_TheLexer (P : Parser) (t : Token) : (P.consume t).TheLexer = P.TheLexer.next :=
  rfl

theorem consume_OS (P : Parser) (t : Token) : (P.consume t).OS = P.OS := rfl

theorem measure_consume_le (P : Parser) (t : Token) : (P.consume t).measure ≤ P.measure := by
  unfold measure
  rw [consume_TheLexer]
  exact Lexer.measure_next_le _

theorem measure_consume_lt (P : Parser) (t : Token) (h : P.getCurrent ≠ Token.EndOfFile) :
    (P.consume t).measure < P.measure := by
  unfold measure
  rw [consume_TheLexer]
  exact Lexer.measure_next_lt _ h

theorem Rel.reflRel (P : Parser) : Rel false P P :=
  ⟨Nat.le_refl _, fun h => Bool.noConfusion h, rfl, rfl⟩

theorem Rel.weakenRel {s : Bool} {P P1 : Parser} (h : Rel s P P1) : Rel false P P1 :=
  ⟨h.1, fun h => Bool.noConfusion h, h.3, h.4⟩

theorem Rel.trans_left {s t : Bool} {P P1 P2 : Parser} (h1 : Rel s P P1) (h2 : Rel t P1 P2) :
    Rel s P P2 :=
  ⟨h2.1.trans h1.1, fun h => Nat.lt_of_le_of_lt h2.1 (h1.2 h), h2.3.trans h1.3,
    h2.4.trans h1.4⟩

theorem Rel.relConsume (P : Parser) (t : Token) (h : P.getCurrent ≠ Token.EndOfFile) :
    Rel true P (P.consume t) := by
  refine ⟨measure_consume_le P t, fun _ => measure_consume_lt P t h, consume_OS P t, ?_⟩
  rw [consume_TheLexer]
  exact Lexer.next_file _

theorem Rel.consume_le (P : Parser) (t : Token) : Rel false P (P.consume t) := by
  refine ⟨measure_consume_le P t, fun h => Bool.noConfusion h, consume_OS P t, ?_⟩
  rw [consume_TheLexer]
  exact Lexer.next_file _

theorem Rel.measure_lt {P P1 : Parser} (h : Rel true P P1) : P1.measure < P.measure :=
  h.2 rfl

theorem Good.weakenGood {α : Type} {X : Extern} {s : Bool} {P : Parser} {r : Result α}
    (h : Good X s P r) : Good X false P r := by
  cases h with
  | ok a h => exact .ok a h.weakenRel
  | null h e c => exact .null h e c

theorem Good.from {α : Type} {X : Extern} {s : Bool} {P P1 : Parser} {r : Result α}
    (h1 : Rel s P P1) (h2 : Good X false P1 r) : Good X s P r := by
  cases h2 with
  | ok a h => exact .ok a (h1.trans_left h)
  | null h e c => exact .null (h1.trans_left h).weakenRel e c

theorem Good.bindGood {α β : Type} {X : Extern} {s : Bool} {P : Parser} {r : Result α}
    {f : α → Parser → Result β} (h : Good X s P r)
    (hf : ∀ a P1, Rel s P P1 → Good X false P1 (f a P1)) : Good X s P (r.bind f) := by
  cases h with
  | ok a h => exact Good.from h (hf a _ h)
  | null h e c => exact .null h e c

theorem Good.iteGood {α : Type} {X : Extern} {s : Bool} {P : Parser} {c : Prop} [Decidable c]
    {a b : Result α} (ha : c → Good X s P a) (hb : ¬c → Good X s P b) :
    Good X s P (if c then a else b) := by
  by_cases h : c
  · rw [if_pos h]; exact ha h
  · rw [if_neg h]; exact hb h

theorem parseNumberExpr_good (X : Extern) (ctx : String) (P : Parser)
    (h : P.getCurrent = Token.Number) : Good X true P (parseNumberExpr X ctx P) := by
  unfold parseNumberExpr
  simp only
  split
  · exact Good.null (Rel.reflRel P) _ _
  · exact Good.ok _ (Rel.relConsume P _ (by rw [h]; decide))

theorem Create_ne_eof {t : Token} {op : Op} (h : BinaryExprOp.Create t = some op) :
    t ≠ Token.EndOfFile := by
  intro h1; rw [h1] at h; simp [BinaryExprOp.Create] at h

theorem expr_good (X : Extern) (fuel : Nat) :
    (∀ ctx P, 2 * P.measure + 2 ≤ fuel → Good X true P (parsePrimaryExpr X fuel ctx P)) ∧
    (∀ P, P.getCurrent = Token.Identifier → 2 * P.measure + 1 ≤ fuel →
      Good X true P (parseIdentifierOrCallExpr X fuel P)) ∧
    (∀ args P, 2 * P.measure + 4 ≤ fuel → Good X false P (parseArgs X fuel args P)) ∧
    (∀ minPrec ctx P, 2 * P.measure + 3 ≤ fuel →
      Good X true P (parseBinaryExpr X fuel minPrec ctx P)) ∧
    (∀ minPrec lhs P, 2 * P.measure + 4 ≤ fuel →
      Good X false P (parseBinaryExprLoop X fuel minPrec lhs P)) := by
  induction fuel with
  | zero =>
    refine ⟨?_, ?_, ?_, ?_, ?_⟩ <;> intros <;> omega
  | succ n ih =>
    obtain ⟨ihPrim, ihId, ihArgs, ihBin, ihLoop⟩ := ih
    refine ⟨?_, ?_, ?_, ?_, ?_⟩
    · intro ctx P hf
      rw [parsePrimaryExpr]
      split
      · rename_i hc
        exact parseNumberExpr_good X ctx P hc
      · rename_i hc
        exact ihId P hc (by omega)
      all_goals exact Good.null (Rel.reflRel P) _ _
    · intro P hc hf
      rw [parseIdentifierOrCallExpr]
      simp only
      have h1 := Rel.relConsume P .Identifier (by rw [hc]; decide)
      split
      · exact Good.ok _ h1
      · rename_i hl
        have hl : (P.consume .Identifier).getCurrent = .LParen := by simpa using hl
        have h2 := Rel.relConsume (P.consume .Identifier) .LParen (by rw [hl]; decide)
        have h12 := h1.trans_left h2
        have hm1 := h1.measure_lt
        have hm2 := h2.measure_lt
        refine Good.from h12 (Good.bindGood (ihArgs [] _ (by omega)) ?_)
        intro args P3 h3
        split
        · exact Good.null (Rel.reflRel P3) _ _
        · rename_i hr
          have hr : P3.getCurrent = .RParen := by simpa using hr
          exact Good.ok _ (Rel.relConsume P3 .RParen (by rw [hr]; decide)).weakenRel
    · intro args P hf
      rw [parseArgs]
      split
      · refine Good.weakenGood (Good.bindGood (ihBin 0 _ P (by omega)) ?_)
        intro arg P1 h1
        have hm := h1.measure_lt
        split
        · exact Good.ok _ (Rel.reflRel P1)
        · rename_i hc
          have hc : P1.getCurrent = .Comma := by simpa using hc
          have h2 := Rel.relConsume P1 .Comma (by rw [hc]; decide)
          have hm2 := h2.measure_lt
          exact Good.weakenGood (Good.from h2 (ihArgs _ _ (by omega)))
      · exact Good.ok _ (Rel.reflRel P)
    · intro minPrec ctx P hf
      rw [parseBinaryExpr]
      refine Good.bindGood (ihPrim ctx P (by omega)) ?_
      intro lhs P1 h1
      have hm := h1.measure_lt
      exact ihLoop _ _ _ (by omega)
    · intro minPrec lhs P hf
      rw [parseBinaryExprLoop]
      simp only
      split
      · exact Good.ok _ (Rel.reflRel P)
      · rename_i op hop
        split
        · exact Good.ok _ (Rel.reflRel P)
        · have h1 := Rel.relConsume P P.getCurrent (Create_ne_eof hop)
          have hm := h1.measure_lt
          refine Good.weakenGood (Good.from h1 (Good.weakenGood (s := true) ?_))
          refine Good.bindGood (ihBin _ _ _ (by omega)) ?_
          intro rhs P2 h2
          have hm2 := h2.measure_lt
          exact ihLoop _ _ _ (by omega)


theorem parseExpr_good (X : Extern) (fuel : Nat) (ctx : String) (P : Parser)
    (hf : 2 * P.measure + 3 ≤ fuel) : Good X true P (parseExpr X fuel ctx P) :=
  (expr_good X fuel).2.2.2.1 0 ctx P hf

theorem parseStmt_good (X : Extern) (fuel : Nat) (ctx : String) (P : Parser)
    (hf : 2 * P.measure + 3 ≤ fuel) : Good X true P (parseStmt X fuel ctx P) := by
  have hE : Good X true P (parseExprStmt X fuel ctx P) := by
    unfold parseExprStmt
    exact Good.bindGood (parseExpr_good X fuel ctx P hf) (fun a P1 _ => Good.ok _ (Rel.reflRel P1))
  unfold parseStmt
  split
  · rename_i hc
    unfold parseReturnStmt
    simp only
    have h1 := Rel.relConsume P .Return (by rw [hc]; decide)
    have hm := h1.measure_lt
    refine Good.from h1 (Good.weakenGood (s := true) ?_)
    exact Good.bindGood (parseExpr_good X fuel _ _ (by omega)) (fun a P1 _ => Good.ok _ (Rel.reflRel P1))
  all_goals exact hE

theorem parseStmts_good (X : Extern) (fuel : Nat) :
    ∀ ctx stmts P, 2 * P.measure + 4 ≤ fuel → Good X false P (parseStmts X fuel ctx stmts P) := by
  induction fuel with
  | zero => intros; omega
  | succ n ih =>
    intro ctx stmts P hf
    rw [parseStmts]
    split
    · refine Good.weakenGood (Good.bindGood (parseStmt_good X n ctx P (by omega)) ?_)
      intro stmt P1 h1
      have hm := h1.measure_lt
      exact ih _ _ _ (by omega)
    · exact Good.ok _ (Rel.reflRel P)

theorem parseCompoundStmt_good (X : Extern) (fuel : Nat) (ctx : String) (P : Parser)
    (hf : 2 * P.measure + 4 ≤ fuel) : Good X false P (parseCompoundStmt X fuel ctx P) := by
  unfold parseCompoundStmt
  simp only
  exact Good.bindGood (parseStmts_good X fuel ctx [] P hf)
    (fun stmts P1 _ => Good.ok _ (Rel.consume_le P1 .End))

theorem parseParams_good (X : Extern) (fuel : Nat) :
    ∀ params P, 2 * P.measure + 4 ≤ fuel → Good X false P (parseParams X fuel params P) := by
  induction fuel with
  | zero => intros; omega
  | succ n ih =>
    intro params P hf
    rw [parseParams]
    split
    · split
      · exact Good.null (Rel.reflRel P) _ _
      · rename_i hc
        have hc : P.getCurrent = .Identifier := by simpa using hc
        have h1 := Rel.relConsume P .Identifier (by rw [hc]; decide)
        have hm := h1.measure_lt
        simp only
        split
        · exact Good.ok _ h1.weakenRel
        · exact Good.from h1.weakenRel (Good.from (Rel.consume_le _ .Comma)
            (ih _ _ (by have := (Rel.consume_le (P.consume .Identifier) .Comma).measure_le; omega)))
    · exact Good.ok _ (Rel.reflRel P)

theorem parseFunctionDecl_good (X : Extern) (fuel : Nat) (ctx : String) (P : Parser)
    (hf : 2 * P.measure + 4 ≤ fuel) (hc : P.getCurrent ≠ .EndOfFile) :
    Good X true P (parseFunctionDecl X fuel ctx P) := by
  unfold parseFunctionDecl
  simp only
  have h1 := Rel.relConsume P .Function hc
  have hm1 := h1.measure_lt
  have h2 := Rel.consume_le (P.consume .Function) .Identifier
  have hm2 := h2.measure_le
  have h3 := Rel.consume_le ((P.consume .Function).consume .Identifier) .LParen
  have hm3 := h3.measure_le
  have h123 := (h1.trans_left h2).trans_left h3
  refine Good.iteGood (fun _ => Good.null (Rel.reflRel P) _ _) (fun _ => ?_)
  refine Good.iteGood (fun _ => Good.null h1.weakenRel _ _) (fun _ => ?_)
  refine Good.iteGood (fun _ => Good.null (h1.trans_left h2).weakenRel _ _) (fun _ => ?_)
  refine Good.from h123 (Good.bindGood (parseParams_good X fuel [] _ (by omega)) ?_)
  intro params P4 h4
  have hm4 := h4.measure_le
  refine Good.iteGood (fun _ => Good.null (Rel.reflRel P4) _ _) (fun _ => ?_)
  have h5 := Rel.consume_le P4 .RParen
  have hm5 := h5.measure_le
  refine Good.from h5 (Good.bindGood (parseCompoundStmt_good X fuel _ _ (by omega)) ?_)
  intro body P6 _
  exact Good.ok _ (Rel.reflRel P6)

theorem parseFunctions_good (X : Extern) (fuel : Nat) :
    ∀ fns P, 2 * P.measure + 5 ≤ fuel → Good X false P (parseFunctions X fuel fns P) := by
  induction fuel with
  | zero => intros; omega
  | succ n ih =>
    intro fns P hf
    rw [parseFunctions]
    split
    · rename_i hc
      refine Good.weakenGood (Good.bindGood (parseFunctionDecl_good X n _ P (by omega) hc) ?_)
      intro fn P1 h1
      have hm := h1.measure_lt
      exact ih _ _ (by omega)
    · exact Good.ok _ (Rel.reflRel P)

theorem parseTranslationUnit_good (X : Extern) (fuel : Nat) (P : Parser)
    (hf : 2 * P.TheLexer.next.measure + 5 ≤ fuel) :
    Good X false ⟨P.OS, P.TheLexer.next⟩ (parseTranslationUnit X fuel P) := by
  unfold parseTranslationUnit
  simp only
  exact Good.bindGood (parseFunctions_good X fuel [] _ hf)
    (fun fns P1 _ => Good.ok _ (Rel.consume_le P1 .EndOfFile))

end Parser

theorem Parse_good (X : Extern) (file : File) (os : String) :
    Parser.Good X false ⟨os, (Lexer.init file).next⟩ (Parse X file os) := by
  unfold Parse
  refine Parser.parseTranslationUnit_good X _ ⟨os, Lexer.init file⟩ ?_
  have := Lexer.measure_init_next file
  show 2 * (Lexer.init file).next.measure + 5 ≤ parseFuel file
  unfold parseFuel
  omega

/-! ## The loop budget: more of it changes no result -/

theorem Result.bind_congr_of_ne {α β : Type} {r r1 : Result α} {f f1 : α → Parser → Result β}
    (hr : r ≠ .outOfFuel → r1 = r) (hf : ∀ a P, f a P ≠ .outOfFuel → f1 a P = f a P)
    (h : r.bind f ≠ .outOfFuel) : r1.bind f1 = r.bind f := by
  cases r with
  | ok a P =>
    rw [hr (by simp)]
    exact hf a P h
  | null P =>
    rw [hr (by simp)]
    rfl
  | outOfFuel => exact absurd rfl h

theorem Result.ite_congr_of_ne {α : Type} {c : Prop} [Decidable c] {a a1 b b1 : Result α}
    (ha : a ≠ .outOfFuel → a1 = a) (hb : b ≠ .outOfFuel → b1 = b)
    (h : (if c then a else b) ≠ .outOfFuel) :
    (if c then a1 else b1) = (if c then a else b) := by
  by_cases hc : c
  · rw [if_pos hc] at h ⊢; rw [if_pos hc]; exact ha h
  · rw [if_neg hc] at h ⊢; rw [if_neg hc]; exact hb h

namespace Parser

theorem expr_fuel_succ (X : Extern) (n : Nat) :
    (∀ ctx P, parsePrimaryExpr X n ctx P ≠ .outOfFuel →
      parsePrimaryExpr X (n + 1) ctx P = parsePrimaryExpr X n ctx P) ∧
    (∀ P, parseIdentifierOrCallExpr X n P ≠ .outOfFuel →
      parseIdentifierOrCallExpr X (n + 1) P = parseIdentifierOrCallExpr X n P) ∧
    (∀ args P, parseArgs X n args P ≠ .outOfFuel →
      parseArgs X (n + 1) args P = parseArgs X n args P) ∧
    (∀ minPrec ctx P, parseBinaryExpr X n minPrec ctx P ≠ .outOfFuel →
      parseBinaryExpr X (n + 1) minPrec ctx P = parseBinaryExpr X n minPrec ctx P) ∧
    (∀ minPrec lhs P, parseBinaryExprLoop X n minPrec lhs P ≠ .outOfFuel →
      parseBinaryExprLoop X (n + 1) minPrec lhs P = parseBinaryExprLoop X n minPrec lhs P) := by
  induction n with
  | zero =>
    refine ⟨?_, ?_, ?_, ?_, ?_⟩ <;> intros <;> rename_i h <;> exact absurd rfl h
  | succ n ih =>
    obtain ⟨ihPrim, ihId, ihArgs, ihBin, ihLoop⟩ := ih
    refine ⟨?_, ?_, ?_, ?_, ?_⟩
    · intro ctx P h
      rw [parsePrimaryExpr] at h
      rw [parsePrimaryExpr, parsePrimaryExpr]
      revert h
      split <;> intro h
      · rfl
      · exact ihId P h
      all_goals rfl
    · intro P h
      rw [parseIdentifierOrCallExpr] at h
      rw [parseIdentifierOrCallExpr, parseIdentifierOrCallExpr]
      simp only at h ⊢
      refine Result.ite_congr_of_ne (fun _ => rfl) (fun h1 => ?_) h
      exact Result.bind_congr_of_ne (ihArgs _ _) (fun _ _ _ => rfl) h1
    · intro args P h
      rw [parseArgs] at h
      rw [parseArgs, parseArgs]
      refine Result.ite_congr_of_ne (fun h1 => ?_) (fun _ => rfl) h
      refine Result.bind_congr_of_ne (ihBin _ _ _) (fun arg P1 h2 => ?_) h1
      exact Result.ite_congr_of_ne (fun _ => rfl) (ihArgs _ _) h2
    · intro minPrec ctx P h
      rw [parseBinaryExpr] at h
      rw [parseBinaryExpr, parseBinaryExpr]
      exact Result.bind_congr_of_ne (ihPrim _ _) (fun lhs P1 h2 => ihLoop _ _ _ h2) h
    · intro minPrec lhs P h
      rw [parseBinaryExprLoop] at h
      rw [parseBinaryExprLoop, parseBinaryExprLoop]
      simp only at h ⊢
      revert h
      split
      · intro _; rfl
      · intro h
        refine Result.ite_congr_of_ne (fun _ => rfl) (fun h1 => ?_) h
        exact Result.bind_congr_of_ne (ihBin _ _ _) (fun rhs P2 h2 => ihLoop _ _ _ h2) h1

theorem parsePrimaryExpr_fuel_le (X : Extern) {n m : Nat} {ctx : String} {P P1 : Parser}
    {e : Expr} (h : parsePrimaryExpr X n ctx P = .ok e P1) (hnm : n ≤ m) :
    parsePrimaryExpr X m ctx P = .ok e P1 := by
  induction hnm with
  | refl => exact h
  | step _ ih =>
    rw [(expr_fuel_succ X _).1 ctx P (by rw [ih]; simp)]
    exact ih

theorem parseBinaryExpr_fuel_le (X : Extern) {n m : Nat} {minPrec : Int} {ctx : String}
    {P P1 : Parser} {e : Expr} (h : parseBinaryExpr X n minPrec ctx P = .ok e P1)
    (hnm : n ≤ m) : parseBinaryExpr X m minPrec ctx P = .ok e P1 := by
  induction hnm with
  | refl => exact h
  | step _ ih =>
    rw [(expr_fuel_succ X _).2.2.2.1 minPrec ctx P (by rw [ih]; simp)]
    exact ih

/-! ## One step of precedence climbing -/

theorem parseBinaryExpr_of_primary (X : Extern) {n : Nat} {minPrec : Int} {ctx : String}
    {P P1 : Parser} {lhs : Expr} (h : parsePrimaryExpr X n ctx P = .ok lhs P1) :
    parseBinaryExpr X (n + 1) minPrec ctx P = parseBinaryExprLoop X n minPrec lhs P1 := by
  rw [parseBinaryExpr, h]
  rfl

theorem parseBinaryExprLoop_stop (X : Extern) (n : Nat) (minPrec : Int) (lhs : Expr)
    (P : Parser) (h : BinaryExprOp.Create P.getCurrent = none) :
    parseBinaryExprLoop X (n + 1) minPrec lhs P = .ok lhs P := by
  rw [parseBinaryExprLoop]
  simp only [h]

theorem parseBinaryExprLoop_low (X : Extern) (n : Nat) (minPrec : Int) (lhs : Expr)
    (P : Parser) (op : Op) (h : BinaryExprOp.Create P.getCurrent = some op)
    (hp : op.getPrecedence < minPrec) :
    parseBinaryExprLoop X (n + 1) minPrec lhs P = .ok lhs P := by
  rw [parseBinaryExprLoop]
  simp only [h, hp, if_true]

theorem parseBinaryExprLoop_step (X : Extern) (n : Nat) (minPrec : Int) (lhs rhs : Expr)
    (P P2 : Parser) (op : Op) (h : BinaryExprOp.Create P.getCurrent = some op)
    (hp : ¬ op.getPrecedence < minPrec)
    (hr : parseBinaryExpr X n
      (if op.isRightAssociative then op.getPrecedence + 1 else op.getPrecedence)
      rhsContext (P.consume P.getCurrent) = .ok rhs P2) :
    parseBinaryExprLoop X (n + 1) minPrec lhs P =
      parseBinaryExprLoop X n minPrec
        (.BinaryExpr op lhs rhs ⟨lhs.getRange.Begin, rhs.getRange.End⟩) P2 := by
  rw [parseBinaryExprLoop]
  simp only [h, hp, if_false]
  unfold rhsContext at hr
  rw [hr]
  rfl


theorem Create_opToken (op : Op) : BinaryExprOp.Create (opToken op) = some op := by
  cases op <;> rfl

/-- Two operators in a row, the second binding tighter or the operator being
such that the loop recurses: `a op1 b op2 c` groups to the right. -/
theorem parses_right_nested (X : Extern) {ctx : String} {P Pa Pb Pc : Parser} {a b c : Expr}
    (op1 op2 : Op)
    (ha : parsesPrimaryExpr X ctx P a Pa) (h1 : Pa.getCurrent = opToken op1)
    (hb : parsesPrimaryExpr X rhsContext (Pa.consume (opToken op1)) b Pb)
    (h2 : Pb.getCurrent = opToken op2)
    (hc : parsesPrimaryExpr X rhsContext (Pb.consume (opToken op2)) c Pc)
    (hend : atExprEnd Pc)
    (hp : ¬ op2.getPrecedence <
      (if op1.isRightAssociative then op1.getPrecedence + 1 else op1.getPrecedence)) :
    parsesBinaryExpr X 0 ctx P
      (.BinaryExpr op1 a (.BinaryExpr op2 b c (binaryRange b c))
        (binaryRange a (.BinaryExpr op2 b c (binaryRange b c)))) Pc := by
  obtain ⟨na, ha⟩ := ha
  obtain ⟨nb, hb⟩ := hb
  obtain ⟨nc, hc⟩ := hc
  have ha1 := parsePrimaryExpr_fuel_le X ha (Nat.le_add_right na (nb + nc + 5) |>.trans
    (by omega : na + (nb + nc + 5) ≤ na + nb + nc + 5))
  have hb1 := parsePrimaryExpr_fuel_le X hb (by omega : nb ≤ na + nb + nc + 3)
  have hc1 := parsePrimaryExpr_fuel_le X hc (by omega : nc ≤ na + nb + nc + 1)
  have hC1 : BinaryExprOp.Create Pa.getCurrent = some op1 := by rw [h1]; exact Create_opToken op1
  have hC2 : BinaryExprOp.Create Pb.getCurrent = some op2 := by rw [h2]; exact Create_opToken op2
  have hp0 : ∀ op : Op, ¬ op.getPrecedence < 0 := by
    intro op; cases op <;> simp [Op.getPrecedence]
  refine ⟨na + nb + nc + 6, ?_⟩
  rw [parseBinaryExpr_of_primary X ha1]
  -- the inner expression `b op2 c`
  have hinner : parseBinaryExpr X (na + nb + nc + 2)
      (if op2.isRightAssociative then op2.getPrecedence + 1 else op2.getPrecedence)
      rhsContext (Pb.consume Pb.getCurrent) = .ok c Pc := by
    rw [h2, parseBinaryExpr_of_primary X hc1]
    exact parseBinaryExprLoop_stop X _ _ _ _ hend
  have hrhs : parseBinaryExpr X (na + nb + nc + 4)
      (if op1.isRightAssociative then op1.getPrecedence + 1 else op1.getPrecedence)
      rhsContext (Pa.consume Pa.getCurrent) =
        .ok (.BinaryExpr op2 b c (binaryRange b c)) Pc := by
    rw [h1, parseBinaryExpr_of_primary X hb1]
    rw [parseBinaryExprLoop_step X _ _ b c Pb Pc op2 hC2 hp hinner]
    exact parseBinaryExprLoop_stop X _ _ _ _ hend
  rw [parseBinaryExprLoop_step X _ _ a _ Pa Pc op1 hC1 (hp0 op1) hrhs]
  exact parseBinaryExprLoop_stop X _ _ _ _ hend

/-- Two operators in a row, the second binding looser than what the loop asks
of a right-hand side: `a op1 b op2 c` groups to the left. -/
theorem parses_left_nested (X : Extern) {ctx : String} {P Pa Pb Pc : Parser} {a b c : Expr}
    (op1 op2 : Op)
    (ha : parsesPrimaryExpr X ctx P a Pa) (h1 : Pa.getCurrent = opToken op1)
    (hb : parsesPrimaryExpr X rhsContext (Pa.consume (opToken op1)) b Pb)
    (h2 : Pb.getCurrent = opToken op2)
    (hc : parsesPrimaryExpr X rhsContext (Pb.consume (opToken op2)) c Pc)
    (hend : atExprEnd Pc)
    (hp : op2.getPrecedence <
      (if op1.isRightAssociative then op1.getPrecedence + 1 else op1.getPrecedence)) :
    parsesBinaryExpr X 0 ctx P
      (.BinaryExpr op2 (.BinaryExpr op1 a b (binaryRange a b)) c
        (binaryRange (.BinaryExpr op1 a b (binaryRange a b)) c)) Pc := by
  obtain ⟨na, ha⟩ := ha
  obtain ⟨nb, hb⟩ := hb
  obtain ⟨nc, hc⟩ := hc
  have ha1 := parsePrimaryExpr_fuel_le X ha (by omega : na ≤ na + nb + nc + 5)
  have hb1 := parsePrimaryExpr_fuel_le X hb (by omega : nb ≤ na + nb + nc + 3)
  have hc1 := parsePrimaryExpr_fuel_le X hc (by omega : nc ≤ na + nb + nc + 2)
  have hC1 : BinaryExprOp.Create Pa.getCurrent = some op1 := by rw [h1]; exact Create_opToken op1
  have hC2 : BinaryExprOp.Create Pb.getCurrent = some op2 := by rw [h2]; exact Create_opToken op2
  have hp0 : ∀ op : Op, ¬ op.getPrecedence < 0 := by
    intro op; cases op <;> simp [Op.getPrecedence]
  refine ⟨na + nb + nc + 6, ?_⟩
  rw [parseBinaryExpr_of_primary X ha1]
  have hrhs1 : parseBinaryExpr X (na + nb + nc + 4)
      (if op1.isRightAssociative then op1.getPrecedence + 1 else op1.getPrecedence)
      rhsContext (Pa.consume Pa.getCurrent) = .ok b Pb := by
    rw [h1, parseBinaryExpr_of_primary X hb1]
    exact parseBinaryExprLoop_low X _ _ _ _ op2 hC2 hp
  rw [parseBinaryExprLoop_step X _ _ a b Pa Pb op1 hC1 (hp0 op1) hrhs1]
  have hrhs2 : parseBinaryExpr X (na + nb + nc + 3)
      (if op2.isRightAssociative then op2.getPrecedence + 1 else op2.getPrecedence)
      rhsContext (Pb.consume Pb.getCurrent) = .ok c Pc := by
    rw [h2, parseBinaryExpr_of_primary X hc1]
    exact parseBinaryExprLoop_stop X _ _ _ _ hend
  rw [parseBinaryExprLoop_step X _ _ _ c Pb Pc op2 hC2 (hp0 op2) hrhs2]
  exact parseBinaryExprLoop_stop X _ _ _ _ hend

end Parser

open Parser

/-- C1 (what the code does). On `function f() return a = b = c end` the parser
returns the assignment grouped to the left, `Assign(Assign(a, b), c)`. -/
theorem assign_chain_groups_left (X : Extern) :
    Parse X Examples.assignChain "" =
      .ok ⟨[⟨⟨9, 10⟩, [],
          ⟨[.ReturnStmt
              (.BinaryExpr .Assign
                (.BinaryExpr .Assign (.IdentifierExpr ⟨20, 21⟩) (.IdentifierExpr ⟨24, 25⟩)
                  ⟨20, 25⟩)
                (.IdentifierExpr ⟨28, 29⟩) ⟨20, 29⟩)
              ⟨13, 29⟩], ⟨13, 33⟩⟩, ⟨0, 33⟩⟩], ⟨0, 33⟩⟩
        ⟨"", ⟨Examples.assignChain, 33, ⟨33, 33⟩, .EndOfFile⟩⟩ :=
  rfl

/-- C2 (what the code does). On `function f() return a - b - c end` the parser
returns the subtraction grouped to the right, `Sub(a, Sub(b, c))`. -/
theorem sub_chain_groups_right (X : Extern) :
    Parse X Examples.subChain "" =
      .ok ⟨[⟨⟨9, 10⟩, [],
          ⟨[.ReturnStmt
              (.BinaryExpr .Sub (.IdentifierExpr ⟨20, 21⟩)
                (.BinaryExpr .Sub (.IdentifierExpr ⟨24, 25⟩) (.IdentifierExpr ⟨28, 29⟩)
                  ⟨24, 29⟩)
                ⟨20, 29⟩)
              ⟨13, 29⟩], ⟨13, 33⟩⟩, ⟨0, 33⟩⟩], ⟨0, 33⟩⟩
        ⟨"", ⟨Examples.subChain, 33, ⟨33, 33⟩, .EndOfFile⟩⟩ :=
  rfl

/-- C3. Multiplicative operators bind tighter than additive ones: for primary
expressions `a`, `b`, `c`, `s` in `+ -` and `m` in `* /`, the source `a s b m c`
parses to `BinaryExpr(s, a, BinaryExpr(m, b, c))` and the source `a m b s c` to
`BinaryExpr(s, BinaryExpr(m, a, b), c)`. -/
theorem mul_binds_tighter_than_add (X : Extern) (ctx : String) (P Pa Pb Pc : Parser)
    (a b c : Expr) (s m : Op) (hs : s = .Add ∨ s = .Sub) (hm : m = .Mul ∨ m = .Div) :
    (parsesPrimaryExpr X ctx P a Pa → Pa.getCurrent = opToken s →
      parsesPrimaryExpr X rhsContext (Pa.consume (opToken s)) b Pb →
      Pb.getCurrent = opToken m →
      parsesPrimaryExpr X rhsContext (Pb.consume (opToken m)) c Pc → atExprEnd Pc →
      parsesBinaryExpr X 0 ctx P
        (.BinaryExpr s a (.BinaryExpr m b c ⟨b.getRange.Begin, c.getRange.End⟩)
          ⟨a.getRange.Begin, c.getRange.End⟩) Pc) ∧
    (parsesPrimaryExpr X ctx P a Pa → Pa.getCurrent = opToken m →
      parsesPrimaryExpr X rhsContext (Pa.consume (opToken m)) b Pb →
      Pb.getCurrent = opToken s →
      parsesPrimaryExpr X rhsContext (Pb.consume (opToken s)) c Pc → atExprEnd Pc →
      parsesBinaryExpr X 0 ctx P
        (.BinaryExpr s (.BinaryExpr m a b ⟨a.getRange.Begin, b.getRange.End⟩) c
          ⟨a.getRange.Begin, c.getRange.End⟩) Pc) := by
  constructor
  · intro ha h1 hb h2 hc hend
    refine parses_right_nested X s m ha h1 hb h2 hc hend ?_
    rcases hs with rfl | rfl <;> rcases hm with rfl | rfl <;> decide
  · intro ha h1 hb h2 hc hend
    refine parses_left_nested X m s ha h1 hb h2 hc hend ?_
    rcases hs with rfl | rfl <;> rcases hm with rfl | rfl <;> decide

/-- C3, on `1 + 2 * 3` and on `1 * 2 + 3`. -/
theorem mul_binds_tighter_than_add_witness :
    parsesBinaryExpr Examples.X0 0 "in function body" (Examples.start Examples.addMul)
      (.BinaryExpr .Add (.NumberExpr ⟨0⟩ ⟨0, 1⟩)
        (.BinaryExpr .Mul (.NumberExpr ⟨0⟩ ⟨4, 5⟩) (.NumberExpr ⟨0⟩ ⟨8, 9⟩) ⟨4, 9⟩) ⟨0, 9⟩)
      (((((Examples.start Examples.addMul).consume .Number).consume .Plus).consume
        .Number).consume .Star |>.consume .Number) ∧
    parsesBinaryExpr Examples.X0 0 "in function body" (Examples.start Examples.mulAdd)
      (.BinaryExpr .Add
        (.BinaryExpr .Mul (.NumberExpr ⟨0⟩ ⟨0, 1⟩) (.NumberExpr ⟨0⟩ ⟨4, 5⟩) ⟨0, 5⟩)
        (.NumberExpr ⟨0⟩ ⟨8, 9⟩) ⟨0, 9⟩)
      (((((Examples.start Examples.mulAdd).consume .Number).consume .Star).consume
        .Number).consume .Plus |>.consume .Number) :=
  ⟨(mul_binds_tighter_than_add Examples.X0 "in function body" (Examples.start Examples.addMul)
      ((Examples.start Examples.addMul).consume .Number)
      ((((Examples.start Examples.addMul).consume .Number).consume .Plus).consume .Number)
      _ (.NumberExpr ⟨0⟩ ⟨0, 1⟩) (.NumberExpr ⟨0⟩ ⟨4, 5⟩) (.NumberExpr ⟨0⟩ ⟨8, 9⟩)
      .Add .Mul (Or.inl rfl) (Or.inl rfl)).1
      ⟨1, rfl⟩ (by decide) ⟨1, rfl⟩ (by decide) ⟨1, rfl⟩ rfl,
   (mul_binds_tighter_than_add Examples.X0 "in function body" (Examples.start Examples.mulAdd)
      ((Examples.start Examples.mulAdd).consume .Number)
      ((((Examples.start Examples.mulAdd).consume .Number).consume .Star).consume .Number)
      _ (.NumberExpr ⟨0⟩ ⟨0, 1⟩) (.NumberExpr ⟨0⟩ ⟨4, 5⟩) (.NumberExpr ⟨0⟩ ⟨8, 9⟩)
      .Add .Mul (Or.inl rfl) (Or.inl rfl)).2
      ⟨1, rfl⟩ (by decide) ⟨1, rfl⟩ (by decide) ⟨1, rfl⟩ rfl⟩

/-- C4. Assignment binds looser than arithmetic: for an identifier `a`, primary
expressions `b`, `c` and `op` in `+ - * /`, the source `a = b op c` parses to
`Assign(a, BinaryExpr(op, b, c))`, and the source `a op b = c` parses to
`Assign(BinaryExpr(op, a, b), c)`, whose left-hand side is no identifier. -/
theorem assign_binds_looser (X : Extern) (ctx : String) (P Pa Pb Pc : Parser)
    (name : Range) (b c : Expr) (op : Op) (hop : op ≠ .Assign) :
    (parsesPrimaryExpr X ctx P (.IdentifierExpr name) Pa → Pa.getCurrent = .Equal →
      parsesPrimaryExpr X rhsContext (Pa.consume .Equal) b Pb →
      Pb.getCurrent = opToken op →
      parsesPrimaryExpr X rhsContext (Pb.consume (opToken op)) c Pc → atExprEnd Pc →
      parsesBinaryExpr X 0 ctx P
        (.BinaryExpr .Assign (.IdentifierExpr name)
          (.BinaryExpr op b c ⟨b.getRange.Begin, c.getRange.End⟩)
          ⟨name.Begin, c.getRange.End⟩) Pc) ∧
    (parsesPrimaryExpr X ctx P (.IdentifierExpr name) Pa → Pa.getCurrent = opToken op →
      parsesPrimaryExpr X rhsContext (Pa.consume (opToken op)) b Pb →
      Pb.getCurrent = .Equal →
      parsesPrimaryExpr X rhsContext (Pb.consume .Equal) c Pc → atExprEnd Pc →
      parsesBinaryExpr X 0 ctx P
        (.BinaryExpr .Assign
          (.BinaryExpr op (.IdentifierExpr name) b ⟨name.Begin, b.getRange.End⟩) c
          ⟨name.Begin, c.getRange.End⟩) Pc) := by
  constructor
  · intro ha h1 hb h2 hc hend
    refine parses_right_nested X .Assign op ha h1 hb h2 hc hend ?_
    cases op <;> first | exact absurd rfl hop | decide
  · intro ha h1 hb h2 hc hend
    refine parses_left_nested X op .Assign ha h1 hb h2 hc hend ?_
    cases op <;> first | exact absurd rfl hop | decide

/-- C4, on `a = b + c` and on `a * b = c`. -/
theorem assign_binds_looser_witness :
    parsesBinaryExpr Examples.X0 0 "in function body" (Examples.start Examples.assignAdd)
      (.BinaryExpr .Assign (.IdentifierExpr ⟨0, 1⟩)
        (.BinaryExpr .Add (.IdentifierExpr ⟨4, 5⟩) (.IdentifierExpr ⟨8, 9⟩) ⟨4, 9⟩) ⟨0, 9⟩)
      (((((Examples.start Examples.assignAdd).consume .Identifier).consume .Equal).consume
        .Identifier).consume .Plus |>.consume .Identifier) ∧
    parsesBinaryExpr Examples.X0 0 "in function body" (Examples.start Examples.mulAssign)
      (.BinaryExpr .Assign
        (.BinaryExpr .Mul (.IdentifierExpr ⟨0, 1⟩) (.IdentifierExpr ⟨4, 5⟩) ⟨0, 5⟩)
        (.IdentifierExpr ⟨8, 9⟩) ⟨0, 9⟩)
      (((((Examples.start Examples.mulAssign).consume .Identifier).consume .Star).consume
        .Identifier).consume .Equal |>.consume .Identifier) :=
  ⟨(assign_binds_looser Examples.X0 "in function body" (Examples.start Examples.assignAdd)
      ((Examples.start Examples.assignAdd).consume .Identifier)
      ((((Examples.start Examples.assignAdd).consume .Identifier).consume .Equal).consume
        .Identifier)
      _ ⟨0, 1⟩ (.IdentifierExpr ⟨4, 5⟩) (.IdentifierExpr ⟨8, 9⟩) .Add (by decide)).1
      ⟨2, rfl⟩ (by decide) ⟨2, rfl⟩ (by decide) ⟨2, rfl⟩ rfl,
   (assign_binds_looser Examples.X0 "in function body" (Examples.start Examples.mulAssign)
      ((Examples.start Examples.mulAssign).consume .Identifier)
      ((((Examples.start Examples.mulAssign).consume .Identifier).consume .Star).consume
        .Identifier)
      _ ⟨0, 1⟩ (.IdentifierExpr ⟨4, 5⟩) (.IdentifierExpr ⟨8, 9⟩) .Mul (by decide)).2
      ⟨2, rfl⟩ (by decide) ⟨2, rfl⟩ (by decide) ⟨2, rfl⟩ rfl⟩

theorem Result.Post.bindPost {α β : Type} {okP : α → Parser → Prop} {okQ : β → Parser → Prop}
    {r : Result α} {f : α → Parser → Result β} (h : Result.Post okP r)
    (hf : ∀ a P, okP a P → Result.Post okQ (f a P)) : Result.Post okQ (r.bind f) := by
  cases h with
  | ok h => exact hf _ _ h
  | null P => exact .null P
  | outOfFuel => exact .outOfFuel

theorem Result.Post.monoPost {α : Type} {okP okQ : α → Parser → Prop} {r : Result α}
    (h : Result.Post okP r) (hf : ∀ a P, okP a P → okQ a P) : Result.Post okQ r := by
  cases h with
  | ok h => exact .ok (hf _ _ h)
  | null P => exact .null P
  | outOfFuel => exact .outOfFuel

theorem Result.Post.itePost {α : Type} {okP : α → Parser → Prop} {c : Prop} [Decidable c]
    {a b : Result α} (ha : c → Result.Post okP a) (hb : ¬c → Result.Post okP b) :
    Result.Post okP (if c then a else b) := by
  by_cases h : c
  · rw [if_pos h]; exact ha h
  · rw [if_neg h]; exact hb h

theorem Result.Post.of_eq_ok {α : Type} {okP : α → Parser → Prop} {r : Result α} {a : α}
    {P : Parser} (h : Result.Post okP r) (hr : r = .ok a P) : okP a P := by
  subst hr
  cases h with
  | ok h => exact h

theorem Expr.RangesOK_call (size : Nat) (callee : Range) (args : List Expr) (range : Range) :
    (Expr.CallExpr callee args range).RangesOK size ↔
      range.Valid size ∧ ∀ a ∈ args, a.RangesOK size ∧ a.getRange.Within range := by
  have h : ∀ l : List Expr, Expr.ArgsOK size range l ↔
      ∀ a ∈ l, a.RangesOK size ∧ a.getRange.Within range := by
    intro l
    induction l with
    | nil => simp [Expr.ArgsOK]
    | cons x xs ih => simp [Expr.ArgsOK, ih, and_assoc]
  simp only [Expr.RangesOK, h]

theorem Expr.Fits.monoFits {size lo hi lo1 hi1 : Nat} {e : Expr} (h : e.Fits size lo hi)
    (hlo : lo1 ≤ lo) (hhi : hi ≤ hi1) : e.Fits size lo1 hi1 :=
  ⟨h.1, hlo.trans h.2.1, h.2.2.trans hhi⟩

namespace Parser

theorem After.reflAfter {P : Parser} (h : P.TheLexer.WF) : After P P := ⟨h, rfl, Nat.le_refl _⟩

theorem After.transAfter {P P1 P2 : Parser} (h1 : After P P1) (h2 : After P1 P2) : After P P2 :=
  ⟨h2.wf, h2.file.trans h1.file, h1.begin_le.trans h2.begin_le⟩

/-- Consuming a token from a well-formed parser. -/
theorem After.afterConsume {P : Parser} (h : P.TheLexer.WF) (t : Token) :
    After P (P.consume t) ∧
      P.TheLexer.Range.End ≤ (P.consume t).TheLexer.Range.Begin := by
  have h1 := Lexer.next_WF h
  have h2 := Lexer.next_file P.TheLexer
  rw [← consume_TheLexer P t] at h1 h2
  obtain ⟨hb, -, -⟩ := h
  exact ⟨⟨h1.1, h2, hb.trans h1.2⟩, h1.2⟩

theorem getRange_eq (P : Parser) : P.TheLexer.getRange = P.TheLexer.Range := rfl

theorem parseNumberExpr_ranges (X : Extern) (ctx : String) (P : Parser) (h : P.TheLexer.WF) :
    Result.Post (ExprPost P P.TheLexer.Range.Begin) (parseNumberExpr X ctx P) := by
  unfold parseNumberExpr
  simp only
  split
  · exact .null _
  · refine .ok ?_
    obtain ⟨hA, hE⟩ := After.afterConsume h .Number
    obtain ⟨h1, h2, h3⟩ := h
    refine ⟨hA, ?_, Nat.le_refl _, hE⟩
    simp only [Expr.RangesOK, Range.Valid, getRange_eq]
    omega

theorem expr_ranges (X : Extern) (fuel : Nat) :
    (∀ ctx P, P.TheLexer.WF →
      Result.Post (ExprPost P P.TheLexer.Range.Begin) (parsePrimaryExpr X fuel ctx P)) ∧
    (∀ P, P.TheLexer.WF →
      Result.Post (ExprPost P P.TheLexer.Range.Begin) (parseIdentifierOrCallExpr X fuel P)) ∧
    (∀ args P lo, P.TheLexer.WF → lo ≤ P.TheLexer.Range.Begin →
      (∀ a ∈ args, a.Fits P.TheLexer.File.size lo P.TheLexer.Range.Begin) →
      Result.Post (ArgsPost P lo) (parseArgs X fuel args P)) ∧
    (∀ minPrec ctx P, P.TheLexer.WF →
      Result.Post (ExprPost P P.TheLexer.Range.Begin)
        (parseBinaryExpr X fuel minPrec ctx P)) ∧
    (∀ minPrec lhs P lo, P.TheLexer.WF →
      lhs.Fits P.TheLexer.File.size lo P.TheLexer.Range.Begin →
      Result.Post (ExprPost P lo) (parseBinaryExprLoop X fuel minPrec lhs P)) := by
  induction fuel with
  | zero =>
    refine ⟨?_, ?_, ?_, ?_, ?_⟩ <;> intros <;> exact .outOfFuel
  | succ n ih =>
    obtain ⟨ihPrim, ihId, ihArgs, ihBin, ihLoop⟩ := ih
    refine ⟨?_, ?_, ?_, ?_, ?_⟩
    · intro ctx P hwf
      rw [parsePrimaryExpr]
      split
      · exact parseNumberExpr_ranges X ctx P hwf
      · exact ihId P hwf
      all_goals exact .null _
    · intro P hwf
      rw [parseIdentifierOrCallExpr]
      simp only
      obtain ⟨hA1, hE1⟩ := After.afterConsume hwf .Identifier
      obtain ⟨hA2, hE2⟩ := After.afterConsume hA1.wf .LParen
      refine Result.Post.itePost (fun _ => .ok ?_) (fun _ => ?_)
      · obtain ⟨h1, h2, h3⟩ := hwf
        refine ⟨hA1, ?_, Nat.le_refl _, hE1⟩
        simp only [Expr.RangesOK, Range.Valid, getRange_eq]
        omega
      · have hA12 := hA1.transAfter hA2
        refine Result.Post.bindPost (ihArgs [] _ _ hA2.wf (Nat.le_refl _) (by simp)) ?_
        intro args P3 h3
        obtain ⟨hA3, hargs⟩ := h3
        refine Result.Post.itePost (fun _ => .null _) (fun _ => .ok ?_)
        obtain ⟨hA4, hE4⟩ := After.afterConsume hA3.wf .RParen
        have hA := (hA12.transAfter hA3).transAfter hA4
        refine ⟨hA, ?_, Nat.le_refl _, hE4⟩
        rw [Expr.RangesOK_call]
        have hf2 := hA12.file
        have hf3 := hA3.file
        have hb12 := hA12.begin_le
        have hb3 := hA3.begin_le
        obtain ⟨w1, w2, w3⟩ := hA3.wf
        rw [hf3, hf2] at w3
        refine ⟨?_, ?_⟩
        · simp only [Range.Valid, getRange_eq]
          omega
        · intro a ha
          obtain ⟨r1, r2, r3⟩ := hargs a ha
          rw [hf2] at r1
          refine ⟨r1, ?_⟩
          simp only [Range.Within, getRange_eq]
          omega
    · intro args P lo hwf hlo hargs
      rw [parseArgs]
      refine Result.Post.itePost (fun _ => ?_) (fun _ => .ok ⟨After.reflAfter hwf, hargs⟩)
      refine Result.Post.bindPost (ihBin 0 _ P hwf) ?_
      intro arg P1 h1
      obtain ⟨hA1, hfit⟩ := h1
      have hall : ∀ a ∈ args ++ [arg],
          a.Fits P.TheLexer.File.size lo P1.TheLexer.Range.Begin := by
        intro a ha
        rcases List.mem_append.1 ha with ha | ha
        · exact (hargs a ha).monoFits (Nat.le_refl _) hA1.begin_le
        · rw [List.mem_singleton.1 ha]
          exact hfit.monoFits hlo (Nat.le_refl _)
      refine Result.Post.itePost (fun _ => .ok ⟨hA1, hall⟩) (fun _ => ?_)
      obtain ⟨hA2, hE2⟩ := After.afterConsume hA1.wf .Comma
      have hall2 : ∀ a ∈ args ++ [arg], a.Fits (P1.consume .Comma).TheLexer.File.size lo
          (P1.consume .Comma).TheLexer.Range.Begin := by
        intro a ha
        rw [hA2.file, hA1.file]
        exact (hall a ha).monoFits (Nat.le_refl _) hA2.begin_le
      have hlo2 : lo ≤ (P1.consume .Comma).TheLexer.Range.Begin :=
        hlo.trans (hA1.begin_le.trans hA2.begin_le)
      refine Result.Post.monoPost (ihArgs _ _ lo hA2.wf hlo2 hall2) ?_
      intro as P3 h3
      obtain ⟨hA3, has⟩ := h3
      refine ⟨(hA1.transAfter hA2).transAfter hA3, ?_⟩
      intro a ha
      have := has a ha
      rwa [hA2.file, hA1.file] at this
    · intro minPrec ctx P hwf
      rw [parseBinaryExpr]
      refine Result.Post.bindPost (ihPrim ctx P hwf) ?_
      intro lhs P1 h1
      obtain ⟨hA1, hfit⟩ := h1
      have hfit1 : lhs.Fits P1.TheLexer.File.size P.TheLexer.Range.Begin
          P1.TheLexer.Range.Begin := by rw [hA1.file]; exact hfit
      refine Result.Post.monoPost (ihLoop minPrec lhs P1 _ hA1.wf hfit1) ?_
      intro e P2 h2
      obtain ⟨hA2, hfit2⟩ := h2
      rw [hA1.file] at hfit2
      exact ⟨hA1.transAfter hA2, hfit2⟩
    · intro minPrec lhs P lo hwf hfit
      rw [parseBinaryExprLoop]
      simp only
      split
      · exact .ok ⟨After.reflAfter hwf, hfit⟩
      · rename_i op hop
        refine Result.Post.itePost (fun _ => .ok ⟨After.reflAfter hwf, hfit⟩) (fun _ => ?_)
        obtain ⟨hA1, hE1⟩ := After.afterConsume hwf P.getCurrent
        refine Result.Post.bindPost (ihBin _ _ _ hA1.wf) ?_
        intro rhs P2 h2
        obtain ⟨hA2, hfitr⟩ := h2
        rw [hA1.file] at hfitr
        have hnew : (Expr.BinaryExpr op lhs rhs
            ⟨lhs.getRange.Begin, rhs.getRange.End⟩).Fits P2.TheLexer.File.size lo
            P2.TheLexer.Range.Begin := by
          rw [hA2.file, hA1.file]
          obtain ⟨l1, l2, l3⟩ := hfit
          obtain ⟨r1, r2, r3⟩ := hfitr
          have hlv : lhs.getRange.Begin ≤ lhs.getRange.End := by
            cases lhs <;> simp only [Expr.RangesOK, Range.Valid, Expr.getRange] at l1 ⊢ <;>
              omega
          have hrv : rhs.getRange.Begin ≤ rhs.getRange.End ∧
              rhs.getRange.End ≤ P.TheLexer.File.size := by
            cases rhs <;> simp only [Expr.RangesOK, Range.Valid, Expr.getRange] at r1 ⊢ <;>
              omega
          obtain ⟨w1, w2, w3⟩ := hwf
          refine ⟨?_, l2, r3⟩
          simp only [Expr.RangesOK, Range.Valid, Range.Within]
          refine ⟨?_, l1, r1, ?_, ?_⟩ <;> omega
        refine Result.Post.monoPost (ihLoop minPrec _ P2 lo hA2.wf hnew) ?_
        intro e P3 h3
        obtain ⟨hA3, hfit3⟩ := h3
        rw [hA2.file, hA1.file] at hfit3
        exact ⟨(hA1.transAfter hA2).transAfter hA3, hfit3⟩


theorem parseExpr_ranges (X : Extern) (fuel : Nat) (ctx : String) (P : Parser)
    (h : P.TheLexer.WF) :
    Result.Post (ExprPost P P.TheLexer.Range.Begin) (parseExpr X fuel ctx P) :=
  (expr_ranges X fuel).2.2.2.1 0 ctx P h

theorem prime_eq (P : Parser) :
    ({ P with TheLexer := P.TheLexer.next } : Parser) = P.consume .EndOfFile := rfl

end Parser

theorem Expr.RangesOK.valid {size : Nat} {e : Expr} (h : e.RangesOK size) :
    e.getRange.Valid size := by
  cases e <;> simp only [Expr.RangesOK, Expr.getRange] at h ⊢
  · exact h
  · exact h
  · exact h.1
  · exact h.1

namespace Parser

theorem parseStmt_ranges (X : Extern) (fuel : Nat) (ctx : String) (P : Parser)
    (h : P.TheLexer.WF) :
    Result.Post (fun st P1 => After P P1 ∧ st.RangesOK P.TheLexer.File.size ∧
      P.TheLexer.Range.Begin ≤ st.getRange.Begin ∧
      st.getRange.End ≤ P1.TheLexer.Range.Begin) (parseStmt X fuel ctx P) := by
  have hE : Result.Post (fun st P1 => After P P1 ∧ st.RangesOK P.TheLexer.File.size ∧
      P.TheLexer.Range.Begin ≤ st.getRange.Begin ∧
      st.getRange.End ≤ P1.TheLexer.Range.Begin) (parseExprStmt X fuel ctx P) := by
    unfold parseExprStmt
    refine Result.Post.bindPost (parseExpr_ranges X fuel ctx P h) ?_
    intro e P1 h1
    obtain ⟨hA, hok, hlo, hhi⟩ := h1
    exact .ok ⟨hA, ⟨hok.valid, hok⟩, hlo, hhi⟩
  unfold parseStmt
  split
  · unfold parseReturnStmt
    simp only
    obtain ⟨hA1, hE1⟩ := After.afterConsume h .Return
    refine Result.Post.bindPost (parseExpr_ranges X fuel _ _ hA1.wf) ?_
    intro e P2 h2
    obtain ⟨hA2, hok, hlo, hhi⟩ := h2
    rw [hA1.file] at hok
    have hv := hok.valid
    obtain ⟨w1, w2, w3⟩ := h
    refine .ok ⟨hA1.transAfter hA2, ?_, Nat.le_refl _, hhi⟩
    simp only [Stmt.RangesOK, Range.Valid, Range.Within, getRange_eq] at hv ⊢
    refine ⟨?_, hok, ?_⟩ <;> omega
  all_goals exact hE

theorem parseStmts_ranges (X : Extern) (fuel : Nat) :
    ∀ ctx stmts P lo, P.TheLexer.WF →
      (∀ st ∈ stmts, st.RangesOK P.TheLexer.File.size ∧ lo ≤ st.getRange.Begin ∧
        st.getRange.End ≤ P.TheLexer.Range.Begin) →
      lo ≤ P.TheLexer.Range.Begin →
      Result.Post (fun sts P1 => After P P1 ∧
        ∀ st ∈ sts, st.RangesOK P.TheLexer.File.size ∧ lo ≤ st.getRange.Begin ∧
          st.getRange.End ≤ P1.TheLexer.Range.Begin) (parseStmts X fuel ctx stmts P) := by
  induction fuel with
  | zero => intros; exact .outOfFuel
  | succ n ih =>
    intro ctx stmts P lo hwf hall hlo
    rw [parseStmts]
    refine Result.Post.itePost (fun _ => ?_) (fun _ => .ok ⟨After.reflAfter hwf, hall⟩)
    refine Result.Post.bindPost (parseStmt_ranges X n ctx P hwf) ?_
    intro st P1 h1
    obtain ⟨hA1, hok, hb, he⟩ := h1
    have hall1 : ∀ s ∈ stmts ++ [st], s.RangesOK P1.TheLexer.File.size ∧
        lo ≤ s.getRange.Begin ∧ s.getRange.End ≤ P1.TheLexer.Range.Begin := by
      intro s hs
      rw [hA1.file]
      rcases List.mem_append.1 hs with hs | hs
      · obtain ⟨a, b, c⟩ := hall s hs
        exact ⟨a, b, c.trans hA1.begin_le⟩
      · rw [List.mem_singleton.1 hs]
        exact ⟨hok, hlo.trans hb, he⟩
    refine Result.Post.monoPost (ih ctx _ P1 lo hA1.wf hall1 (hlo.trans hA1.begin_le)) ?_
    intro sts P2 h2
    obtain ⟨hA2, hsts⟩ := h2
    rw [hA1.file] at hsts
    exact ⟨hA1.transAfter hA2, hsts⟩

theorem parseCompoundStmt_ranges (X : Extern) (fuel : Nat) (ctx : String) (P : Parser)
    (h : P.TheLexer.WF) :
    Result.Post (fun cs P1 => After P P1 ∧ cs.RangesOK P.TheLexer.File.size ∧
      cs.range.Begin = P.TheLexer.Range.Begin ∧
      cs.range.End ≤ P1.TheLexer.Range.Begin) (parseCompoundStmt X fuel ctx P) := by
  unfold parseCompoundStmt
  simp only
  refine Result.Post.bindPost (parseStmts_ranges X fuel ctx [] P _ h (by simp) (Nat.le_refl _)) ?_
  intro sts P1 h1
  obtain ⟨hA1, hsts⟩ := h1
  obtain ⟨hA2, hE2⟩ := After.afterConsume hA1.wf .End
  obtain ⟨w1, w2, w3⟩ := hA1.wf
  rw [hA1.file] at w3
  have hb := hA1.begin_le
  refine .ok ⟨hA1.transAfter hA2, ⟨?_, ?_⟩, rfl, hE2⟩
  · simp only [Range.Valid, getRange_eq]
    omega
  · intro st hst
    obtain ⟨a, b, c⟩ := hsts st hst
    refine ⟨a, ?_⟩
    simp only [Range.Within, getRange_eq]
    omega

theorem parseParams_ranges (X : Extern) (fuel : Nat) :
    ∀ params P lo, P.TheLexer.WF → lo ≤ P.TheLexer.Range.Begin →
      (∀ pd ∈ params, pd.getRange.Valid P.TheLexer.File.size ∧ lo ≤ pd.getRange.Begin ∧
        pd.getRange.End ≤ P.TheLexer.Range.Begin) →
      Result.Post (fun pds P1 => After P P1 ∧
        ∀ pd ∈ pds, pd.getRange.Valid P.TheLexer.File.size ∧ lo ≤ pd.getRange.Begin ∧
          pd.getRange.End ≤ P1.TheLexer.Range.Begin) (parseParams X fuel params P) := by
  induction fuel with
  | zero => intros; exact .outOfFuel
  | succ n ih =>
    intro params P lo hwf hlo hall
    rw [parseParams]
    refine Result.Post.itePost (fun _ => ?_) (fun _ => .ok ⟨After.reflAfter hwf, hall⟩)
    refine Result.Post.itePost (fun _ => .null _) (fun _ => ?_)
    simp only
    obtain ⟨hA1, hE1⟩ := After.afterConsume hwf .Identifier
    obtain ⟨hA2, hE2⟩ := After.afterConsume hA1.wf .Comma
    have hall1 : ∀ pd ∈ params ++ [(⟨P.TheLexer.getRange⟩ : ParamDecl)],
        pd.getRange.Valid P.TheLexer.File.size ∧ lo ≤ pd.getRange.Begin ∧
          pd.getRange.End ≤ (P.consume .Identifier).TheLexer.Range.Begin := by
      intro pd hpd
      rcases List.mem_append.1 hpd with hpd | hpd
      · obtain ⟨a, b, c⟩ := hall pd hpd
        exact ⟨a, b, c.trans hA1.begin_le⟩
      · rw [List.mem_singleton.1 hpd]
        obtain ⟨w1, w2, w3⟩ := hwf
        simp only [ParamDecl.getRange, Range.Valid, getRange_eq]
        omega
    refine Result.Post.itePost (fun _ => .ok ⟨hA1, hall1⟩) (fun _ => ?_)
    have hall2 : ∀ pd ∈ params ++ [(⟨P.TheLexer.getRange⟩ : ParamDecl)],
        pd.getRange.Valid ((P.consume .Identifier).consume .Comma).TheLexer.File.size ∧
          lo ≤ pd.getRange.Begin ∧
          pd.getRange.End ≤ ((P.consume .Identifier).consume .Comma).TheLexer.Range.Begin := by
      intro pd hpd
      rw [hA2.file, hA1.file]
      obtain ⟨a, b, c⟩ := hall1 pd hpd
      exact ⟨a, b, c.trans hA2.begin_le⟩
    refine Result.Post.monoPost (ih _ _ lo hA2.wf
      (hlo.trans (hA1.begin_le.trans hA2.begin_le)) hall2) ?_
    intro pds P3 h3
    obtain ⟨hA3, hpds⟩ := h3
    rw [hA2.file, hA1.file] at hpds
    exact ⟨(hA1.transAfter hA2).transAfter hA3, hpds⟩

theorem parseFunctionDecl_ranges (X : Extern) (fuel : Nat) (ctx : String) (P : Parser)
    (h : P.TheLexer.WF) :
    Result.Post (fun fn P1 => After P P1 ∧ fn.RangesOK P.TheLexer.File.size ∧
      P.TheLexer.Range.Begin ≤ fn.range.Begin ∧
      fn.range.End ≤ P1.TheLexer.Range.Begin) (parseFunctionDecl X fuel ctx P) := by
  unfold parseFunctionDecl
  simp only
  obtain ⟨hA1, hE1⟩ := After.afterConsume h .Function
  obtain ⟨hA2, hE2⟩ := After.afterConsume hA1.wf .Identifier
  obtain ⟨hA3, hE3⟩ := After.afterConsume hA2.wf .LParen
  have hA123 := (hA1.transAfter hA2).transAfter hA3
  refine Result.Post.itePost (fun _ => .null _) (fun _ => ?_)
  refine Result.Post.itePost (fun _ => .null _) (fun _ => ?_)
  refine Result.Post.itePost (fun _ => .null _) (fun _ => ?_)
  refine Result.Post.bindPost (parseParams_ranges X fuel [] _
    (((P.consume .Function).consume .Identifier).consume .LParen).TheLexer.Range.Begin
    hA3.wf (Nat.le_refl _) (by simp)) ?_
  intro params P4 h4
  obtain ⟨hA4, hparams⟩ := h4
  refine Result.Post.itePost (fun _ => .null _) (fun _ => ?_)
  obtain ⟨hA5, hE5⟩ := After.afterConsume hA4.wf .RParen
  refine Result.Post.bindPost (parseCompoundStmt_ranges X fuel _ _ hA5.wf) ?_
  intro body P6 h6
  obtain ⟨hA6, hbody, hbb, hbe⟩ := h6
  have hA := ((hA123.transAfter hA4).transAfter hA5).transAfter hA6
  have hf5 : (P4.consume .RParen).TheLexer.File.size = P.TheLexer.File.size := by
    rw [hA5.file, hA4.file, hA123.file]
  rw [hf5] at hbody
  have hf3 : (((P.consume .Function).consume .Identifier).consume .LParen).TheLexer.File.size
      = P.TheLexer.File.size := by rw [hA123.file]
  have hbv := hbody.1
  have hb123 := hA123.begin_le
  have hb4 := hA4.begin_le
  have hb5 := hA5.begin_le
  refine .ok ⟨hA, ⟨?_, ?_, hbody, ?_⟩, Nat.le_refl _, hbe⟩
  · simp only [Range.Valid, getRange_eq] at hbv ⊢
    omega
  · intro pd hpd
    obtain ⟨a, b, c⟩ := hparams pd hpd
    rw [hf3] at a
    refine ⟨a, ?_⟩
    simp only [Range.Within, Range.Valid, getRange_eq] at hbv ⊢
    omega
  · simp only [Range.Within, Range.Valid, getRange_eq] at hbv ⊢
    omega

theorem parseFunctions_ranges (X : Extern) (fuel : Nat) :
    ∀ fns P lo, P.TheLexer.WF → lo ≤ P.TheLexer.Range.Begin →
      (∀ fn ∈ fns, fn.RangesOK P.TheLexer.File.size ∧ lo ≤ fn.range.Begin ∧
        fn.range.End ≤ P.TheLexer.Range.Begin) →
      Result.Post (fun fs P1 => After P P1 ∧
        ∀ fn ∈ fs, fn.RangesOK P.TheLexer.File.size ∧ lo ≤ fn.range.Begin ∧
          fn.range.End ≤ P1.TheLexer.Range.Begin) (parseFunctions X fuel fns P) := by
  induction fuel with
  | zero => intros; exact .outOfFuel
  | succ n ih =>
    intro fns P lo hwf hlo hall
    rw [parseFunctions]
    refine Result.Post.itePost (fun _ => ?_) (fun _ => .ok ⟨After.reflAfter hwf, hall⟩)
    refine Result.Post.bindPost (parseFunctionDecl_ranges X n _ P hwf) ?_
    intro fn P1 h1
    obtain ⟨hA1, hok, hb, he⟩ := h1
    have hall1 : ∀ f ∈ fns ++ [fn], f.RangesOK P1.TheLexer.File.size ∧
        lo ≤ f.range.Begin ∧ f.range.End ≤ P1.TheLexer.Range.Begin := by
      intro f hf
      rw [hA1.file]
      rcases List.mem_append.1 hf with hf | hf
      · obtain ⟨a, b, c⟩ := hall f hf
        exact ⟨a, b, c.trans hA1.begin_le⟩
      · rw [List.mem_singleton.1 hf]
        exact ⟨hok, hlo.trans hb, he⟩
    refine Result.Post.monoPost (ih _ P1 lo hA1.wf (hlo.trans hA1.begin_le) hall1) ?_
    intro fs P2 h2
    obtain ⟨hA2, hfs⟩ := h2
    rw [hA1.file] at hfs
    exact ⟨hA1.transAfter hA2, hfs⟩

theorem parseTranslationUnit_ranges (X : Extern) (fuel : Nat) (P : Parser)
    (h : P.TheLexer.WF) :
    Result.Post (fun tu _ => tu.RangesOK P.TheLexer.File.size)
      (parseTranslationUnit X fuel P) := by
  unfold parseTranslationUnit
  simp only
  rw [prime_eq]
  obtain ⟨hA0, hE0⟩ := After.afterConsume h .EndOfFile
  refine Result.Post.bindPost (parseFunctions_ranges X fuel [] _ P.TheLexer.Range.Begin hA0.wf
    hA0.begin_le (by simp)) ?_
  intro fns P1 h1
  obtain ⟨hA1, hfns⟩ := h1
  rw [hA0.file] at hfns
  obtain ⟨w1, w2, w3⟩ := hA1.wf
  rw [hA1.file, hA0.file] at w3
  have hb0 := hA0.begin_le
  have hb1 := hA1.begin_le
  refine .ok ⟨?_, ?_⟩
  · simp only [Range.Valid, getRange_eq]
    omega
  · intro fn hfn
    obtain ⟨a, b, c⟩ := hfns fn hfn
    refine ⟨a, ?_⟩
    simp only [Range.Within, getRange_eq]
    omega

end Parser

/-- C7. The range invariant of the parser's output: in every translation unit
`Parse` returns, the range of every node satisfies `Begin ≤ End ≤` the size of
the buffer, and the range of every child (function in unit, parameter and body
in function, statement in compound statement, expression in statement, operand
in binary expression, argument in call) lies within the range of its parent. -/
theorem Parse_ranges (X : Extern) (file : File) (os : String) (tu : TranslationUnit)
    (P1 : Parser) (h : Parse X file os = .ok tu P1) : tu.RangesOK file.size := by
  have h1 := Parser.parseTranslationUnit_ranges X (parseFuel file) ⟨os, Lexer.init file⟩
    (Lexer.init_WF file)
  exact h1.of_eq_ok h

/-- C7, on `function f() return a = b = c end`. -/
theorem Parse_ranges_witness :
    TranslationUnit.RangesOK 33
      ⟨[⟨⟨9, 10⟩, [],
          ⟨[.ReturnStmt
              (.BinaryExpr .Assign
                (.BinaryExpr .Assign (.IdentifierExpr ⟨20, 21⟩) (.IdentifierExpr ⟨24, 25⟩)
                  ⟨20, 25⟩)
                (.IdentifierExpr ⟨28, 29⟩) ⟨20, 29⟩)
              ⟨13, 29⟩], ⟨13, 33⟩⟩, ⟨0, 33⟩⟩], ⟨0, 33⟩⟩ :=
  Parse_ranges Examples.X0 Examples.assignChain "" _ _ rfl

/-! ## The tokens a parsing function consumes, and the grammar -/

namespace Lexer

theorem Span.nilSpan (L : Lexer) : Span L [] L := rfl

theorem Span.single {L : Lexer} {t : Token} (h : L.CurrentToken = t)
    (hne : t ≠ Token.EndOfFile) : Span L [t] L.next := ⟨h, hne, rfl⟩

theorem Span.appendSpan {L L1 L2 : Lexer} {ts us : List Token} (h1 : Span L ts L1)
    (h2 : Span L1 us L2) : Span L (ts ++ us) L2 := by
  induction ts generalizing L with
  | nil =>
    have : L1 = L := h1
    subst this
    exact h2
  | cons t ts ih =>
    obtain ⟨a, b, c⟩ := h1
    exact ⟨a, b, ih c⟩

theorem Span.consSpan {L L2 : Lexer} {t : Token} {us : List Token} (h : L.CurrentToken = t)
    (hne : t ≠ Token.EndOfFile) (h2 : Span L.next us L2) : Span L (t :: us) L2 :=
  ⟨h, hne, h2⟩

theorem measure_pos {L : Lexer} (h : L.CurrentToken ≠ Token.EndOfFile) : 0 < L.measure := by
  unfold measure
  rw [if_neg h]
  omega

/-- The tokens consumed up to the end of the file are the tokens of the stream. -/
theorem tokens_of_span {L L1 : Lexer} {ts : List Token} (h : Span L ts L1)
    (heof : L1.CurrentToken = Token.EndOfFile) (fuel : Nat) (hf : L.measure ≤ fuel) :
    tokens fuel L = ts := by
  induction ts generalizing L fuel with
  | nil =>
    have : L1 = L := h
    subst this
    cases fuel with
    | zero => rfl
    | succ n => rw [tokens, if_pos heof]
  | cons t ts ih =>
    obtain ⟨a, b, c⟩ := h
    have hne : L.CurrentToken ≠ Token.EndOfFile := by rw [a]; exact b
    have hpos := measure_pos hne
    have hlt := measure_next_lt L hne
    cases fuel with
    | zero => omega
    | succ n =>
      rw [tokens, if_neg hne, a, ih c n (by omega)]

end Lexer

namespace Grammar

theorem prec_of_Create {t : Token} {op : Op} (h : BinaryExprOp.Create t = some op) :
    prec t = some op.getPrecedence ∧ rightAssoc t = op.isRightAssociative := by
  cases t <;> simp [BinaryExprOp.Create] at h <;> subst h <;> exact ⟨rfl, rfl⟩

theorem nextMinPrec_eq (t : Token) (op : Op) (h : BinaryExprOp.Create t = some op) :
    (if op.isRightAssociative then op.getPrecedence + 1 else op.getPrecedence) =
      nextMinPrec t op.getPrecedence := by
  unfold nextMinPrec
  rw [(prec_of_Create h).2]
  cases op.isRightAssociative <;> simp

end Grammar

namespace Parser

theorem Consumed.nilConsumed (P : Parser) : Consumed P P [] := Lexer.Span.nilSpan _

theorem Consumed.appendConsumed {P P1 P2 : Parser} {ts us : List Token} (h1 : Consumed P P1 ts)
    (h2 : Consumed P1 P2 us) : Consumed P P2 (ts ++ us) := Lexer.Span.appendSpan h1 h2

theorem Consumed.ofConsume {P : Parser} {t : Token} (h : P.getCurrent = t)
    (hne : t ≠ Token.EndOfFile) (u : Token) : Consumed P (P.consume u) [t] := by
  unfold Consumed
  rw [consume_TheLexer]
  exact Lexer.Span.single h hne

theorem Consumed.consConsumed {P P2 : Parser} {t : Token} {us : List Token} (h : P.getCurrent = t)
    (hne : t ≠ Token.EndOfFile) (u : Token) (h2 : Consumed (P.consume u) P2 us) :
    Consumed P P2 (t :: us) :=
  Consumed.appendConsumed (Consumed.ofConsume h hne u) h2

theorem parseNumberExpr_grammar (X : Extern) (ctx : String) (P : Parser)
    (h : P.getCurrent = .Number) :
    Result.Post (fun _ P1 => ∃ ts, Consumed P P1 ts ∧ Grammar.PrimaryExpr true ts)
      (parseNumberExpr X ctx P) := by
  unfold parseNumberExpr
  simp only
  split
  · exact .null _
  · exact .ok ⟨_, Consumed.ofConsume h (by decide) _, .number⟩

theorem expr_grammar (X : Extern) (fuel : Nat) :
    (∀ ctx P, Result.Post (fun _ P1 => ∃ ts, Consumed P P1 ts ∧ Grammar.PrimaryExpr true ts)
      (parsePrimaryExpr X fuel ctx P)) ∧
    (∀ P, P.getCurrent = .Identifier →
      Result.Post (fun _ P1 => ∃ ts, Consumed P P1 ts ∧ Grammar.PrimaryExpr true ts)
        (parseIdentifierOrCallExpr X fuel P)) ∧
    (∀ args P, Result.Post
      (fun _ P1 => ∃ ts, Consumed P P1 ts ∧ (ts = [] ∨ Grammar.ArgList true ts))
      (parseArgs X fuel args P)) ∧
    (∀ minPrec ctx P,
      Result.Post (fun _ P1 => ∃ ts, Consumed P P1 ts ∧ Grammar.BinaryExpr true minPrec ts)
        (parseBinaryExpr X fuel minPrec ctx P)) ∧
    (∀ minPrec lhs P,
      Result.Post (fun _ P1 => ∃ ts, Consumed P P1 ts ∧ Grammar.BinaryTail true minPrec ts)
        (parseBinaryExprLoop X fuel minPrec lhs P)) := by
  induction fuel with
  | zero =>
    refine ⟨?_, ?_, ?_, ?_, ?_⟩ <;> intros <;> exact .outOfFuel
  | succ n ih =>
    obtain ⟨ihPrim, ihId, ihArgs, ihBin, ihLoop⟩ := ih
    refine ⟨?_, ?_, ?_, ?_, ?_⟩
    · intro ctx P
      rw [parsePrimaryExpr]
      split
      · rename_i hc
        exact parseNumberExpr_grammar X ctx P hc
      · rename_i hc
        exact ihId P hc
      all_goals exact .null _
    · intro P hc
      rw [parseIdentifierOrCallExpr]
      simp only
      have h1 := Consumed.ofConsume hc (by decide) Token.Identifier
      refine Result.Post.itePost (fun _ => .ok ⟨_, h1, .identifier⟩) (fun hl => ?_)
      have hl : (P.consume .Identifier).getCurrent = .LParen := by simpa using hl
      have h2 := Consumed.ofConsume hl (by decide) Token.LParen
      refine Result.Post.bindPost (ihArgs [] _) ?_
      intro args P3 h3
      obtain ⟨ts, hts, hargs⟩ := h3
      refine Result.Post.itePost (fun _ => .null _) (fun hr => .ok ?_)
      have hr : P3.getCurrent = .RParen := by simpa using hr
      have h4 := Consumed.ofConsume hr (by decide) Token.RParen
      have hall := (h1.appendConsumed (h2.appendConsumed (hts.appendConsumed h4)))
      refine ⟨_, hall, ?_⟩
      rcases hargs with rfl | hargs
      · exact .callEmpty
      · exact .call hargs
    · intro args P
      rw [parseArgs]
      refine Result.Post.itePost (fun _ => ?_) (fun _ => .ok ⟨[], Consumed.nilConsumed P, Or.inl rfl⟩)
      refine Result.Post.bindPost (ihBin 0 _ P) ?_
      intro arg P1 h1
      obtain ⟨te, hte, he⟩ := h1
      refine Result.Post.itePost (fun _ => .ok ⟨te, hte, Or.inr (.last he)⟩) (fun hc => ?_)
      have hc : P1.getCurrent = .Comma := by simpa using hc
      have h2 := Consumed.ofConsume hc (by decide) Token.Comma
      refine Result.Post.monoPost (ihArgs _ _) ?_
      intro as P3 h3
      obtain ⟨ts, hts, hargs⟩ := h3
      refine ⟨te ++ ([Token.Comma] ++ ts), hte.appendConsumed (h2.appendConsumed hts), Or.inr ?_⟩
      rcases hargs with rfl | hargs
      · exact .lastComma rfl he
      · exact .cons he hargs
    · intro minPrec ctx P
      rw [parseBinaryExpr]
      refine Result.Post.bindPost (ihPrim ctx P) ?_
      intro lhs P1 h1
      obtain ⟨tp, htp, hp⟩ := h1
      refine Result.Post.monoPost (ihLoop minPrec lhs P1) ?_
      intro e P2 h2
      obtain ⟨tt, htt, ht⟩ := h2
      exact ⟨tp ++ tt, htp.appendConsumed htt, .mk hp ht⟩
    · intro minPrec lhs P
      rw [parseBinaryExprLoop]
      simp only
      split
      · exact .ok ⟨[], Consumed.nilConsumed P, .nil⟩
      · rename_i op hop
        refine Result.Post.itePost (fun _ => .ok ⟨[], Consumed.nilConsumed P, .nil⟩) (fun hp => ?_)
        have h1 := Consumed.ofConsume (rfl : P.getCurrent = P.getCurrent) (Create_ne_eof hop)
          P.getCurrent
        rw [Grammar.nextMinPrec_eq _ _ hop]
        refine Result.Post.bindPost (ihBin _ _ _) ?_
        intro rhs P2 h2
        obtain ⟨tr, htr, hr⟩ := h2
        refine Result.Post.monoPost (ihLoop minPrec _ P2) ?_
        intro e P3 h3
        obtain ⟨tt, htt, ht⟩ := h3
        refine ⟨P.getCurrent :: (tr ++ tt), h1.appendConsumed (htr.appendConsumed htt), ?_⟩
        exact .cons (Grammar.prec_of_Create hop).1 (Int.not_lt.1 hp) hr ht


theorem parseExpr_grammar (X : Extern) (fuel : Nat) (ctx : String) (P : Parser) :
    Result.Post (fun _ P1 => ∃ ts, Consumed P P1 ts ∧ Grammar.Expr true ts)
      (parseExpr X fuel ctx P) :=
  (expr_grammar X fuel).2.2.2.1 0 ctx P

theorem parseStmt_grammar (X : Extern) (fuel : Nat) (ctx : String) (P : Parser) :
    Result.Post (fun _ P1 => ∃ ts, Consumed P P1 ts ∧ Grammar.Stmt true ts)
      (parseStmt X fuel ctx P) := by
  have hE : Result.Post (fun _ P1 => ∃ ts, Consumed P P1 ts ∧ Grammar.Stmt true ts)
      (parseExprStmt X fuel ctx P) := by
    unfold parseExprStmt
    refine Result.Post.bindPost (parseExpr_grammar X fuel ctx P) ?_
    intro e P1 h1
    obtain ⟨ts, hts, he⟩ := h1
    exact .ok ⟨ts, hts, .exprStmt he⟩
  unfold parseStmt
  split
  · rename_i hc
    unfold parseReturnStmt
    simp only
    have h1 := Consumed.ofConsume hc (by decide) Token.Return
    refine Result.Post.bindPost (parseExpr_grammar X fuel _ _) ?_
    intro e P2 h2
    obtain ⟨ts, hts, he⟩ := h2
    exact .ok ⟨_, h1.appendConsumed hts, .returnStmt he⟩
  all_goals exact hE

theorem parseStmts_grammar (X : Extern) (fuel : Nat) :
    ∀ ctx stmts P, Result.Post
      (fun _ P1 => ∃ ts, Consumed P P1 ts ∧ Grammar.Stmts true ts ∧ P1.getCurrent = .End)
      (parseStmts X fuel ctx stmts P) := by
  induction fuel with
  | zero => intros; exact .outOfFuel
  | succ n ih =>
    intro ctx stmts P
    rw [parseStmts]
    refine Result.Post.itePost (fun hc => ?_)
      (fun hc => .ok ⟨[], Consumed.nilConsumed P, .nil, by simpa using hc⟩)
    refine Result.Post.bindPost (parseStmt_grammar X n ctx P) ?_
    intro st P1 h1
    obtain ⟨ts, hts, hst⟩ := h1
    refine Result.Post.monoPost (ih ctx _ P1) ?_
    intro sts P2 h2
    obtain ⟨us, hus, hsts, hend⟩ := h2
    exact ⟨ts ++ us, hts.appendConsumed hus, .cons hst hsts, hend⟩

theorem parseCompoundStmt_grammar (X : Extern) (fuel : Nat) (ctx : String) (P : Parser) :
    Result.Post
      (fun _ P1 => ∃ body, Consumed P P1 (body ++ [.End]) ∧ Grammar.Stmts true body)
      (parseCompoundStmt X fuel ctx P) := by
  unfold parseCompoundStmt
  simp only
  refine Result.Post.bindPost (parseStmts_grammar X fuel ctx [] P) ?_
  intro sts P1 h1
  obtain ⟨ts, hts, hsts, hend⟩ := h1
  exact .ok ⟨ts, hts.appendConsumed (Consumed.ofConsume hend (by decide) _), hsts⟩

theorem parseParams_grammar (X : Extern) (fuel : Nat) :
    ∀ params P, Result.Post
      (fun _ P1 => ∃ ts, Consumed P P1 ts ∧ (ts = [] ∨ Grammar.ParamList true ts))
      (parseParams X fuel params P) := by
  induction fuel with
  | zero => intros; exact .outOfFuel
  | succ n ih =>
    intro params P
    rw [parseParams]
    refine Result.Post.itePost (fun _ => ?_) (fun _ => .ok ⟨[], Consumed.nilConsumed P, Or.inl rfl⟩)
    refine Result.Post.itePost (fun _ => .null _) (fun hc => ?_)
    have hc : P.getCurrent = .Identifier := by simpa using hc
    simp only
    have h1 := Consumed.ofConsume hc (by decide) Token.Identifier
    refine Result.Post.itePost (fun _ => .ok ⟨_, h1, Or.inr .last⟩) (fun hm => ?_)
    have hm : (P.consume .Identifier).getCurrent = .Comma := by simpa using hm
    have h2 := Consumed.ofConsume hm (by decide) Token.Comma
    refine Result.Post.monoPost (ih _ _) ?_
    intro pds P3 h3
    obtain ⟨ts, hts, hps⟩ := h3
    refine ⟨[Token.Identifier] ++ ([Token.Comma] ++ ts), h1.appendConsumed (h2.appendConsumed hts), Or.inr ?_⟩
    rcases hps with rfl | hps
    · exact .lastComma rfl
    · exact .cons hps

theorem parseFunctionDecl_grammar (X : Extern) (fuel : Nat) (ctx : String) (P : Parser) :
    Result.Post (fun _ P1 => ∃ ts, Consumed P P1 ts ∧ Grammar.FunctionDecl true ts)
      (parseFunctionDecl X fuel ctx P) := by
  unfold parseFunctionDecl
  simp only
  refine Result.Post.itePost (fun _ => .null _) (fun h1 => ?_)
  have h1 : P.getCurrent = .Function := by simpa using h1
  have c1 := Consumed.ofConsume h1 (by decide) Token.Function
  refine Result.Post.itePost (fun _ => .null _) (fun h2 => ?_)
  have h2 : (P.consume .Function).getCurrent = .Identifier := by simpa using h2
  have c2 := Consumed.ofConsume h2 (by decide) Token.Identifier
  refine Result.Post.itePost (fun _ => .null _) (fun h3 => ?_)
  have h3 : ((P.consume .Function).consume .Identifier).getCurrent = .LParen := by
    simpa using h3
  have c3 := Consumed.ofConsume h3 (by decide) Token.LParen
  refine Result.Post.bindPost (parseParams_grammar X fuel [] _) ?_
  intro params P4 h4
  obtain ⟨ps, hps, hpl⟩ := h4
  refine Result.Post.itePost (fun _ => .null _) (fun h5 => ?_)
  have h5 : P4.getCurrent = .RParen := by simpa using h5
  have c5 := Consumed.ofConsume h5 (by decide) Token.RParen
  refine Result.Post.bindPost (parseCompoundStmt_grammar X fuel _ _) ?_
  intro body P6 h6
  obtain ⟨bs, hbs, hb⟩ := h6
  refine .ok ⟨_, c1.appendConsumed (c2.appendConsumed (c3.appendConsumed (hps.appendConsumed (c5.appendConsumed hbs)))), ?_⟩
  rcases hpl with rfl | hpl
  · exact .noParams hb
  · exact .params hpl hb

theorem parseFunctions_grammar (X : Extern) (fuel : Nat) :
    ∀ fns P, Result.Post
      (fun _ P1 => ∃ ts, Consumed P P1 ts ∧ Grammar.TranslationUnit true ts ∧
        P1.getCurrent = .EndOfFile)
      (parseFunctions X fuel fns P) := by
  induction fuel with
  | zero => intros; exact .outOfFuel
  | succ n ih =>
    intro fns P
    rw [parseFunctions]
    refine Result.Post.itePost (fun _ => ?_)
      (fun hc => .ok ⟨[], Consumed.nilConsumed P, .nil, by simpa using hc⟩)
    refine Result.Post.bindPost (parseFunctionDecl_grammar X n _ P) ?_
    intro fn P1 h1
    obtain ⟨ts, hts, hfn⟩ := h1
    refine Result.Post.monoPost (ih _ P1) ?_
    intro fs P2 h2
    obtain ⟨us, hus, htu, hend⟩ := h2
    exact ⟨ts ++ us, hts.appendConsumed hus, .cons hfn htu, hend⟩

theorem parseTranslationUnit_grammar (X : Extern) (fuel : Nat) (P : Parser) (n : Nat)
    (hn : P.TheLexer.next.measure ≤ n) :
    Result.Post (fun _ _ => Grammar.TranslationUnit true (Lexer.tokens n P.TheLexer.next))
      (parseTranslationUnit X fuel P) := by
  unfold parseTranslationUnit
  simp only
  refine Result.Post.bindPost (parseFunctions_grammar X fuel [] _) ?_
  intro fns P1 h1
  obtain ⟨ts, hts, htu, hend⟩ := h1
  refine .ok ?_
  rw [Lexer.tokens_of_span hts hend n hn]
  exact htu

end Parser

/-- C5 (amended). Soundness of the parser with respect to the grammar in which
a parameter list and an argument list may end in a comma: whenever `Parse`
returns a translation unit, the token sequence of the file is derivable from
`TranslationUnit` in the grammar of section 4.2 with that one addition. -/
theorem Parse_sound (X : Extern) (file : File) (os : String) (tu : TranslationUnit)
    (P1 : Parser) (h : Parse X file os = .ok tu P1) :
    Grammar.TranslationUnit true file.tokens := by
  have h1 := Parser.parseTranslationUnit_grammar X (parseFuel file) ⟨os, Lexer.init file⟩
    (file.size + 1) (Lexer.measure_init_next file)
  exact h1.of_eq_ok h

/-- C5 (amended), on `function f(a,) return a end`. -/
theorem Parse_sound_witness :
    Grammar.TranslationUnit true Examples.trailingParam.tokens :=
  Parse_sound Examples.X0 Examples.trailingParam ""
    ⟨[⟨⟨9, 10⟩, [⟨⟨11, 12⟩⟩], ⟨[.ReturnStmt (.IdentifierExpr ⟨22, 23⟩) ⟨15, 23⟩], ⟨15, 27⟩⟩,
      ⟨0, 27⟩⟩], ⟨0, 27⟩⟩ _ rfl

/-- C5 (counterexample). `Parse` returns a translation unit on the source
`function f(a,) return a end`, whose token sequence is not derivable from
`TranslationUnit` in the grammar of section 4.2 as printed: the parser does not
reject a comma before the closing parenthesis. -/
theorem Parse_accepts_trailing_comma :
    (∃ tu P1, Parse Examples.X0 Examples.trailingParam "" = .ok tu P1) ∧
    ¬ Grammar.TranslationUnit false Examples.trailingParam.tokens := by
  refine ⟨⟨_, _, rfl⟩, ?_⟩
  have ht : Examples.trailingParam.tokens =
      [.Function, .Identifier, .LParen, .Identifier, .Comma, .RParen, .Return, .Identifier,
        .End] := by decide
  rw [ht]
  intro h
  generalize hts : [Token.Function, Token.Identifier, Token.LParen, Token.Identifier,
    Token.Comma, Token.RParen, Token.Return, Token.Identifier, Token.End] = ts at h
  cases h with
  | nil => simp at hts
  | cons hfn hr =>
    cases hfn with
    | noParams hb => simp at hts
    | params hp hb =>
      cases hp with
      | last => simp at hts
      | lastComma ht => simp at ht
      | cons hp1 =>
        cases hp1 with
        | last => simp at hts
        | lastComma ht => simp at ht
        | cons hp2 => simp at hts

theorem Analyze_empty (file : File) (range : Range) (os : String) :
    Analyze file ⟨[], range⟩ os = some (some ScopeTree.init, os) := rfl

theorem LowerToLLVMIR_empty (X : Extern) (file : File) (range : Range) (T : ScopeTree) :
    LowerToLLVMIR X file ⟨[], range⟩ T = some ⟨⟨"mua module", file.Filename, []⟩⟩ := rfl

theorem Parse_empty (X : Extern) (file : File) (os : String)
    (h : (Lexer.init file).next.CurrentToken = .EndOfFile) :
    Parse X file os =
      .ok ⟨[], ⟨0, (Lexer.init file).next.Range.End⟩⟩
        ⟨os, (Lexer.init file).next.next⟩ := by
  unfold Parse Parser.parseTranslationUnit
  have hf : parseFuel file = (2 * file.size + 7) + 1 := rfl
  rw [hf]
  simp only
  rw [Parser.parseFunctions]
  have hc : Parser.getCurrent ⟨os, (Lexer.init file).next⟩ = .EndOfFile := h
  rw [if_neg (by rw [hc]; simp)]
  rfl

/-- C8. The empty program: for every source that holds no token (the first
token the lexer returns is the end of the file), `Parse` returns a translation
unit with no function and writes nothing, `Analyze` on it returns the global
scope with no symbol and writes nothing, and the lowering yields a module with
no function. -/
theorem empty_program (X : Extern) (file : File) (os : String)
    (h : (Lexer.init file).next.CurrentToken = .EndOfFile) :
    ∃ tu P1, Parse X file os = .ok tu P1 ∧ tu.FNs = [] ∧ P1.OS = os ∧
      Analyze file tu os = some (some ScopeTree.init, os) ∧
      ScopeTree.init.getSymbols 0 none = [] ∧
      ∃ ir, LowerToLLVMIR X file tu ScopeTree.init = some ir ∧ ir.Module.Functions = [] :=
  ⟨_, _, Parse_empty X file os h, rfl, rfl, Analyze_empty file _ os, rfl,
    _, LowerToLLVMIR_empty X file _ _, rfl⟩

/-- C8, on a source of two blanks and a comment line. -/
theorem empty_program_witness :
    ∃ tu P1, Parse Examples.X0 Examples.onlyComment "" = .ok tu P1 ∧ tu.FNs = [] ∧
      P1.OS = "" ∧
      Analyze Examples.onlyComment tu "" = some (some ScopeTree.init, "") ∧
      ScopeTree.init.getSymbols 0 none = [] ∧
      ∃ ir, LowerToLLVMIR Examples.X0 Examples.onlyComment tu ScopeTree.init = some ir ∧
        ir.Module.Functions = [] :=
  empty_program Examples.X0 Examples.onlyComment "" (by decide)

/-- C9 (what the code does). On the four bytes `--`, `0`, newline, the first
token the lexer returns is an `Invalid` token over the zero byte, at `[2, 3)`:
the zero byte ends the comment, which the newline at offset 3 should end. -/
theorem nul_byte_ends_comment :
    (Lexer.init Examples.nulComment).next.CurrentToken = .Invalid ∧
    (Lexer.init Examples.nulComment).next.Range = ⟨2, 3⟩ := by
  decide

namespace Lexer

theorem isIdentifierByte_zero : isIdentifierByte 0 = false := by decide

theorem peek_of_lt {L : Lexer} (h : L.Current < L.File.size) :
    L.peek 0 = L.File.Buffer.getD L.Current 0 := by
  unfold peek
  rw [if_neg (by simp only [Nat.add_zero]; omega)]
  rfl

theorem peek_of_ge {L : Lexer} (h : L.File.size ≤ L.Current) : L.peek 0 = 0 := by
  unfold peek
  rw [if_pos (by simp only [Nat.add_zero]; omega)]

theorem drop_eq_peek_cons {L : Lexer} (h : L.Current < L.File.size) :
    L.File.Buffer.drop L.Current = L.peek 0 :: L.File.Buffer.drop (L.Current + 1) := by
  rw [peek_of_lt h]
  have h1 : L.Current < L.File.Buffer.length := h
  rw [List.getD_eq_getElem _ _ h1]
  exact List.drop_eq_getElem_cons h1

/-- The run of identifier bytes from the scan position on. -/
theorem identifierRun_eq (L : Lexer) :
    identifierRun L.File L.Current =
      if isIdentifierByte (L.peek 0) then
        L.peek 0 :: identifierRun L.File (L.Current + 1)
      else [] := by
  unfold identifierRun
  by_cases h : L.Current < L.File.size
  · rw [drop_eq_peek_cons h, List.takeWhile_cons]
  · have h1 : L.File.size ≤ L.Current := by omega
    rw [peek_of_ge h1, isIdentifierByte_zero]
    have : L.File.Buffer.drop L.Current = [] := List.drop_eq_nil_of_le h1
    rw [this]
    rfl

theorem advance_file (L : Lexer) : L.advance.File = L.File := (adv_advance L).file

/-- The loop of the identifier rule stops at the end of the run of identifier
bytes. -/
theorem lexIdentifier_current (fuel : Nat) (L : Lexer) (h : L.Current < L.File.size)
    (hf : L.File.size - L.Current ≤ fuel + 1) :
    (lexIdentifier (fuel + 1) L).Current =
      L.Current + 1 + (identifierRun L.File (L.Current + 1)).length := by
  induction fuel generalizing L with
  | zero =>
    rw [lexIdentifier]
    have hc := advance_current_of_lt h
    have hfile := advance_file L
    have hge : L.advance.File.size ≤ L.advance.Current := by rw [hfile, hc]; omega
    have hrun := identifierRun_eq L.advance
    rw [peek_of_ge hge, isIdentifierByte_zero] at hrun
    rw [hfile, hc] at hrun
    simp only [Bool.false_eq_true, if_false] at hrun
    have hp : (isalnum (L.advance.peek 0) || L.advance.peek 0 == 95) = false := by
      rw [peek_of_ge hge]; decide
    rw [hp]
    simp only [Bool.false_eq_true, if_false]
    rw [hc, hrun]
    rfl
  | succ n ih =>
    rw [lexIdentifier]
    have hc := advance_current_of_lt h
    have hfile := advance_file L
    have hrun := identifierRun_eq L.advance
    rw [hfile, hc] at hrun
    by_cases hp : (isalnum (L.advance.peek 0) || L.advance.peek 0 == 95) = true
    · rw [if_pos hp]
      have hlt : L.advance.Current < L.advance.File.size := by
        by_contra hn
        rw [peek_of_ge (by omega)] at hp
        exact absurd hp (by decide)
      rw [ih L.advance hlt (by rw [hfile, hc]; omega)]
      have hp1 : isIdentifierByte (L.advance.peek 0) = true := hp
      rw [hp1] at hrun
      simp only [if_true] at hrun
      rw [hrun, hfile, hc, List.length_cons]
      omega
    · rw [if_neg hp]
      have hp1 : isIdentifierByte (L.advance.peek 0) = false := by
        simpa [isIdentifierByte] using hp
      rw [hp1] at hrun
      simp only [Bool.false_eq_true, if_false] at hrun
      rw [hc, hrun]
      rfl

theorem keywordOrIdentifier_eq (lexeme : List Nat) :
    keywordOrIdentifier lexeme =
      if lexeme = [102, 117, 110, 99, 116, 105, 111, 110] then Token.Function
      else if lexeme = [114, 101, 116, 117, 114, 110] then Token.Return
      else if lexeme = [101, 110, 100] then Token.End
      else Token.Identifier := by
  unfold keywordOrIdentifier keywords
  by_cases h1 : lexeme = [102, 117, 110, 99, 116, 105, 111, 110]
  · subst h1; rfl
  · by_cases h2 : lexeme = [114, 101, 116, 117, 114, 110]
    · subst h2; rfl
    · by_cases h3 : lexeme = [101, 110, 100]
      · subst h3; rfl
      · rw [if_neg h1, if_neg h2, if_neg h3]
        have e1 : (([102, 117, 110, 99, 116, 105, 111, 110] : List Nat) == lexeme) = false := by
          rw [beq_eq_false_iff_ne]; exact fun h => h1 h.symm
        have e2 : (([114, 101, 116, 117, 114, 110] : List Nat) == lexeme) = false := by
          rw [beq_eq_false_iff_ne]; exact fun h => h2 h.symm
        have e3 : (([101, 110, 100] : List Nat) == lexeme) = false := by
          rw [beq_eq_false_iff_ne]; exact fun h => h3 h.symm
        simp only [List.find?, e1, e2, e3]


theorem slice_identifierRun (file : mua.File) (b : Nat) :
    file.slice ⟨b, b + (identifierRun file b).length⟩ = identifierRun file b := by
  unfold File.slice identifierRun
  simp only
  rw [List.drop_take]
  have hb : b + (List.takeWhile isIdentifierByte (List.drop b file.Buffer)).length - b =
      (List.takeWhile isIdentifierByte (List.drop b file.Buffer)).length := by omega
  rw [hb]
  exact (List.prefix_iff_eq_take.1 (List.takeWhile_prefix _)).symm

theorem lexToken_identifier (L1 : Lexer)
    (h : isalpha (L1.peek 0) = true ∨ L1.peek 0 = 95) :
    (L1.lexToken).2.Range =
      ⟨L1.Current, L1.Current + (identifierRun L1.File L1.Current).length⟩ ∧
    (L1.lexToken).1 = keywordOrIdentifier (identifierRun L1.File L1.Current) := by
  have hlt : L1.Current < L1.File.size := by
    by_contra hn
    rw [peek_of_ge (by omega)] at h
    rcases h with h | h
    · exact absurd h (by decide)
    · exact absurd h (by decide)
  have hstart : isIdentifierByte (L1.peek 0) = true := by
    rcases h with h | h
    · simp [isIdentifierByte, isalnum, h]
    · simp [isIdentifierByte, h]
  have hcond : (isalpha (L1.peek 0) || L1.peek 0 == 95) = true := by
    rcases h with h | h
    · simp [h]
    · simp [h]
  have hrun := identifierRun_eq L1
  rw [hstart] at hrun
  simp only [if_true] at hrun
  have hcur := lexIdentifier_current L1.File.size L1 hlt (by omega)
  have hadv := adv_lexIdentifier (L1.File.size + 1) L1
  have hfits := L1.File.fits
  have hsz : L1.File.size = L1.File.Buffer.length := rfl
  have hend : (lexIdentifier (L1.File.size + 1) L1).Current =
      L1.Current + (identifierRun L1.File L1.Current).length := by
    rw [hcur, hrun, List.length_cons]; omega
  have hb := hadv.bound (Nat.le_of_lt hlt)
  have ho1 : toOffset L1.Current = L1.Current := by
    unfold toOffset; exact Nat.mod_eq_of_lt (by omega)
  have ho2 : toOffset (lexIdentifier (L1.File.size + 1) L1).Current =
      (lexIdentifier (L1.File.size + 1) L1).Current := by
    unfold toOffset; exact Nat.mod_eq_of_lt (by omega)
  have hR : (makeRange L1.getOffset (lexIdentifier (L1.File.size + 1) L1).getOffset) =
      ⟨L1.Current, L1.Current + (identifierRun L1.File L1.Current).length⟩ := by
    unfold makeRange getOffset
    rw [ho1, ho2, hend]
  unfold lexToken
  simp only
  rw [if_neg (by omega), if_pos hcond, hR, hadv.file, slice_identifierRun]
  exact ⟨rfl, rfl⟩

end Lexer

/-- C10. The identifier and keyword rule: whenever `lex` starts a token at a
byte in `[A-Za-z_]`, the lexeme of the token is the longest run of bytes in
`[A-Za-z0-9_]` that starts there, and its tag is `Function`, `Return` or `End`
exactly when the whole lexeme is `function`, `return` or `end`, and
`Identifier` otherwise. -/
theorem identifier_rule (L : Lexer)
    (h : isalpha (L.tokenStart.peek 0) = true ∨ L.tokenStart.peek 0 = 95) :
    (L.lex).2.Range = ⟨L.tokenStart.Current,
      L.tokenStart.Current + (Lexer.identifierRun L.File L.tokenStart.Current).length⟩ ∧
    L.File.slice (L.lex).2.Range = Lexer.identifierRun L.File L.tokenStart.Current ∧
    (L.lex).1 =
      (if Lexer.identifierRun L.File L.tokenStart.Current
          = [102, 117, 110, 99, 116, 105, 111, 110] then Token.Function
      else if Lexer.identifierRun L.File L.tokenStart.Current
          = [114, 101, 116, 117, 114, 110] then Token.Return
      else if Lexer.identifierRun L.File L.tokenStart.Current = [101, 110, 100] then Token.End
      else Token.Identifier) := by
  have hfile : L.tokenStart.File = L.File := (Lexer.adv_skipTrivia _ L).file
  have hlex : L.lex = L.tokenStart.lexToken := rfl
  obtain ⟨h1, h2⟩ := Lexer.lexToken_identifier L.tokenStart h
  rw [hfile] at h1 h2
  rw [hlex, h1, h2, Lexer.slice_identifierRun, Lexer.keywordOrIdentifier_eq]
  exact ⟨rfl, rfl, rfl⟩

/-- C10, on `return_1 end`: the first lexeme is `return_1`, an identifier, and
the second is `end`, the keyword. -/
theorem identifier_rule_witness :
    ((Lexer.init Examples.identifiers).lex.2.Range = ⟨0, 8⟩ ∧
      Examples.identifiers.slice (Lexer.init Examples.identifiers).lex.2.Range
        = [114, 101, 116, 117, 114, 110, 95, 49] ∧
      (Lexer.init Examples.identifiers).lex.1 = Token.Identifier) ∧
    ((Lexer.init Examples.identifiers).next.lex.2.Range = ⟨9, 12⟩ ∧
      Examples.identifiers.slice (Lexer.init Examples.identifiers).next.lex.2.Range
        = [101, 110, 100] ∧
      (Lexer.init Examples.identifiers).next.lex.1 = Token.End) :=
  ⟨identifier_rule (Lexer.init Examples.identifiers) (by decide),
   identifier_rule (Lexer.init Examples.identifiers).next (by decide)⟩

/-! ## The lexer: numbers, the end of the file, progress -/

namespace Lexer

theorem numberTail_initial (d : Bool) (l : List Nat) : numberTail d l <+: l := by
  induction l generalizing d with
  | nil => exact List.prefix_refl _
  | cons c cs ih =>
    unfold numberTail
    split
    · exact (List.prefix_cons_inj c).2 (ih _)
    · exact List.nil_prefix

theorem numberTail_chars (d : Bool) (l : List Nat) :
    ∀ c ∈ numberTail d l, isdigit c = true ∨ c = 46 := by
  induction l generalizing d with
  | nil => intro c hc; simp [numberTail] at hc
  | cons x xs ih =>
    intro c hc
    unfold numberTail at hc
    split at hc
    · rename_i hx
      rcases List.mem_cons.1 hc with rfl | hc
      · rcases Bool.or_eq_true _ _ ▸ hx with h | h
        · exact Or.inl h
        · simp only [Bool.and_eq_true, beq_iff_eq] at h
          exact Or.inr h.2
      · exact ih _ c hc
    · simp at hc

theorem isdigit_46 : isdigit 46 = false := by decide

theorem numberTail_count (d : Bool) (l : List Nat) :
    (numberTail d l).count 46 ≤ if d = true then 0 else 1 := by
  induction l generalizing d with
  | nil => simp [numberTail]
  | cons x xs ih =>
    unfold numberTail
    split
    · rename_i hx
      by_cases h46 : x = 46
      · subst h46
        rw [isdigit_46] at hx
        simp only [Bool.false_or, Bool.and_eq_true, Bool.not_eq_true', beq_self_eq_true,
          and_true] at hx
        subst hx
        have hd : (false || (46 : Nat) == 46) = true := rfl
        have := ih true
        rw [hd]
        simp only [if_true] at this
        simp only [List.count_cons_self, Bool.false_eq_true, if_false]
        omega
      · have hb : (x == 46) = false := by simpa using h46
        rw [hb, Bool.or_false, List.count_cons_of_ne (fun h => h46 h.symm)]
        exact ih d
    · simp

theorem numberTail_stop (d : Bool) (l : List Nat) (c : Nat) (rest : List Nat)
    (h : l = numberTail d l ++ c :: rest) :
    isdigit c = false ∧ (c = 46 → d = true ∨ 46 ∈ numberTail d l) := by
  induction l generalizing d with
  | nil => simp [numberTail] at h
  | cons x xs ih =>
    unfold numberTail at h ⊢
    split at h
    · rename_i hx
      rw [if_pos hx]
      simp only [List.cons_append, List.cons.injEq, true_and] at h
      obtain ⟨h1, h2⟩ := ih _ h
      refine ⟨h1, fun hc => ?_⟩
      rcases h2 hc with h3 | h3
      · simp only [Bool.or_eq_true, beq_iff_eq] at h3
        rcases h3 with h3 | h3
        · exact Or.inl h3
        · exact Or.inr (by rw [h3]; exact List.mem_cons_self _ _)
      · exact Or.inr (List.mem_cons_of_mem _ h3)
    · rename_i hx
      rw [if_neg hx]
      simp only [List.nil_append, List.cons.injEq] at h
      obtain ⟨rfl, -⟩ := h
      simp only [Bool.or_eq_true, Bool.and_eq_true, Bool.not_eq_true', beq_iff_eq, not_or,
        not_and, Bool.not_eq_true] at hx
      refine ⟨hx.1, fun hc => Or.inl ?_⟩
      by_contra hd
      exact hx.2 (by simpa using hd) hc

/-- The loop of the number rule stops at the end of the run `numberTail`. -/
theorem lexNumber_current (fuel : Nat) (d : Bool) (L : Lexer) (h : L.Current < L.File.size)
    (hf : L.File.size - L.Current ≤ fuel + 1) :
    (lexNumber (fuel + 1) d L).Current =
      L.Current + 1 +
        (numberTail (d || L.peek 0 == 46) (L.File.Buffer.drop (L.Current + 1))).length := by
  induction fuel generalizing L d with
  | zero =>
    rw [lexNumber]
    have hc := advance_current_of_lt h
    have hfile := advance_file L
    have hge : L.advance.File.size ≤ L.advance.Current := by rw [hfile, hc]; omega
    have hp : (isdigit (L.advance.peek 0) ||
        (!(d || L.peek 0 == 46) && L.advance.peek 0 == 46)) = false := by
      rw [peek_of_ge hge]; simp [isdigit]
    simp only [hp, Bool.false_eq_true, if_false]
    have hnil : L.File.Buffer.drop (L.Current + 1) = [] :=
      List.drop_eq_nil_of_le (by unfold File.size at h hf; omega)
    rw [hnil, hc]
    rfl
  | succ n ih =>
    rw [lexNumber]
    have hc := advance_current_of_lt h
    have hfile := advance_file L
    by_cases hlt : L.advance.Current < L.advance.File.size
    · have hdrop := drop_eq_peek_cons hlt
      rw [hfile, hc] at hdrop
      rw [hdrop, numberTail]
      by_cases hp : (isdigit (L.advance.peek 0) ||
          (!(d || L.peek 0 == 46) && L.advance.peek 0 == 46)) = true
      · rw [if_pos hp, if_pos hp, ih _ L.advance hlt (by rw [hfile, hc]; omega), hfile, hc,
          List.length_cons]
        omega
      · rw [if_neg hp, if_neg hp, hc]
        rfl
    · have hge : L.advance.File.size ≤ L.advance.Current := by omega
      have hp : (isdigit (L.advance.peek 0) ||
          (!(d || L.peek 0 == 46) && L.advance.peek 0 == 46)) = false := by
        rw [peek_of_ge hge]; simp [isdigit]
      simp only [hp, Bool.false_eq_true, if_false]
      have hnil : L.File.Buffer.drop (L.Current + 1) = [] := by
        rw [hfile, hc] at hge
        exact List.drop_eq_nil_of_le hge
      rw [hnil, hc]
      rfl

theorem not_identifier_start_of_number {c : Nat} (h : isdigit c = true ∨ c = 46) :
    (isalpha c || c == 95) = false := by
  rcases h with h | h
  · simp only [isdigit, Bool.and_eq_true, decide_eq_true_eq] at h
    simp only [isalpha, Bool.or_eq_false_iff, Bool.and_eq_false_imp, decide_eq_true_eq,
      decide_eq_false_iff_not, beq_eq_false_iff_ne]
    omega
  · subst h; decide

/-- What `lexToken` does at a digit or a `.`. -/
theorem lexToken_number (L1 : Lexer) (h : isdigit (L1.peek 0) = true ∨ L1.peek 0 = 46) :
    (L1.lexToken).1 = Token.Number ∧
    (L1.lexToken).2.Range = ⟨L1.Current, L1.Current + 1 +
      (numberTail (L1.peek 0 == 46) (L1.File.Buffer.drop (L1.Current + 1))).length⟩ ∧
    (L1.lexToken).2.Current = L1.Current + 1 +
      (numberTail (L1.peek 0 == 46) (L1.File.Buffer.drop (L1.Current + 1))).length ∧
    (L1.lexToken).2.File = L1.File := by
  have hlt : L1.Current < L1.File.size := by
    by_contra hn
    rw [peek_of_ge (by omega)] at h
    rcases h with h | h
    · exact absurd h (by decide)
    · exact absurd h (by decide)
  have hcond : (isdigit (L1.peek 0) || L1.peek 0 == 46) = true := by
    rcases h with h | h
    · simp [h]
    · simp [h]
  have hcur := lexNumber_current L1.File.size false L1 hlt (by omega)
  rw [Bool.false_or] at hcur
  have hadv := adv_lexNumber (L1.File.size + 1) false L1
  have hb := hadv.bound (Nat.le_of_lt hlt)
  have ho1 : toOffset L1.Current = L1.Current := toOffset_of_le_size (Nat.le_of_lt hlt)
  have ho2 : toOffset (lexNumber (L1.File.size + 1) false L1).Current =
      (lexNumber (L1.File.size + 1) false L1).Current := toOffset_of_le_size hb
  have hR : (makeRange L1.getOffset (lexNumber (L1.File.size + 1) false L1).getOffset) =
      ⟨L1.Current, L1.Current + 1 +
        (numberTail (L1.peek 0 == 46) (L1.File.Buffer.drop (L1.Current + 1))).length⟩ := by
    unfold makeRange getOffset
    rw [ho1, ho2, hcur]
  unfold lexToken
  simp only
  rw [if_neg (by omega), not_identifier_start_of_number h]
  simp only [Bool.false_eq_true, if_false]
  rw [if_pos hcond, hR]
  exact ⟨rfl, rfl, hcur, hadv.file⟩

/-- The bytes of a number literal: the byte at the scan position, then the run
`numberTail`. -/
theorem slice_number (L1 : Lexer) (h : L1.Current < L1.File.size) (d : Bool) :
    L1.File.slice ⟨L1.Current, L1.Current + 1 +
      (numberTail d (L1.File.Buffer.drop (L1.Current + 1))).length⟩ =
      L1.peek 0 :: numberTail d (L1.File.Buffer.drop (L1.Current + 1)) := by
  unfold File.slice
  simp only
  rw [List.drop_take, drop_eq_peek_cons h]
  have hb : L1.Current + 1 + (numberTail d (L1.File.Buffer.drop (L1.Current + 1))).length
      - L1.Current = (numberTail d (L1.File.Buffer.drop (L1.Current + 1))).length + 1 := by
    omega
  rw [hb, List.take_succ_cons]
  congr 1
  exact (List.prefix_iff_eq_take.1 (numberTail_initial _ _)).symm

end Lexer

/-- C11. The number rule: whenever `lex` starts a token at a digit or at `.`,
it returns a `Number` token that begins there; its lexeme is not empty, holds
only digits and `.`, and at most one `.`; the scan stops where it must: the
byte after the lexeme is no digit, and it is a `.` only when the lexeme holds
one already. So `1.2.3` lexes as the two `Number` tokens `1.2` and `.3`, and a
lone `.` as a `Number` token of one byte. -/
theorem number_rule :
    (∀ L : Lexer, (isdigit (L.tokenStart.peek 0) = true ∨ L.tokenStart.peek 0 = 46) →
      (L.lex).1 = Token.Number ∧
      (L.lex).2.Range.Begin = L.tokenStart.Current ∧
      (L.lex).2.Range.End = (L.lex).2.Current ∧
      L.File.slice (L.lex).2.Range ≠ [] ∧
      (L.File.slice (L.lex).2.Range).length = (L.lex).2.Range.End - (L.lex).2.Range.Begin ∧
      (∀ c ∈ L.File.slice (L.lex).2.Range, isdigit c = true ∨ c = 46) ∧
      (L.File.slice (L.lex).2.Range).count 46 ≤ 1 ∧
      isdigit ((L.lex).2.peek 0) = false ∧
      ((L.lex).2.peek 0 = 46 → 46 ∈ L.File.slice (L.lex).2.Range)) ∧
    ((Lexer.init Examples.oneTwoThree).lex.1 = Token.Number ∧
      (Lexer.init Examples.oneTwoThree).lex.2.Range = ⟨0, 3⟩ ∧
      ((Lexer.init Examples.oneTwoThree).lexTimes 1).lex.1 = Token.Number ∧
      ((Lexer.init Examples.oneTwoThree).lexTimes 1).lex.2.Range = ⟨3, 5⟩ ∧
      ((Lexer.init Examples.oneTwoThree).lexTimes 2).lex.1 = Token.EndOfFile) ∧
    ((Lexer.init Examples.loneDot).lex.1 = Token.Number ∧
      (Lexer.init Examples.loneDot).lex.2.Range = ⟨0, 1⟩ ∧
      ((Lexer.init Examples.loneDot).lexTimes 1).lex.1 = Token.EndOfFile) := by
  refine ⟨?_, by decide, by decide⟩
  intro L h
  have hfile : L.tokenStart.File = L.File := (Lexer.adv_skipTrivia _ L).file
  have hlex : L.lex = L.tokenStart.lexToken := rfl
  have hlt : L.tokenStart.Current < L.tokenStart.File.size := by
    by_contra hn
    rw [Lexer.peek_of_ge (by omega)] at h
    rcases h with h | h
    · exact absurd h (by decide)
    · exact absurd h (by decide)
  obtain ⟨h1, h2, h3, h4⟩ := Lexer.lexToken_number L.tokenStart h
  have hs := Lexer.slice_number L.tokenStart hlt (L.tokenStart.peek 0 == 46)
  rw [hlex, h1, h2, ← hfile, hs]
  generalize htl : Lexer.numberTail (L.tokenStart.peek 0 == 46)
    (L.tokenStart.File.Buffer.drop (L.tokenStart.Current + 1)) = tl at *
  have hpre : tl <+: L.tokenStart.File.Buffer.drop (L.tokenStart.Current + 1) := by
    rw [← htl]; exact Lexer.numberTail_initial _ _
  refine ⟨rfl, rfl, h3.symm, List.cons_ne_nil _ _, ?_, ?_, ?_, ?_⟩
  · simp only [List.length_cons]; omega
  · intro c hc
    rcases List.mem_cons.1 hc with rfl | hc
    · exact h
    · rw [← htl] at hc
      exact Lexer.numberTail_chars _ _ c hc
  · have hcount := Lexer.numberTail_count (L.tokenStart.peek 0 == 46)
      (L.tokenStart.File.Buffer.drop (L.tokenStart.Current + 1))
    rw [htl] at hcount
    by_cases h46 : L.tokenStart.peek 0 = 46
    · rw [h46] at hcount ⊢
      simp only [beq_self_eq_true, if_true] at hcount
      simp only [List.count_cons_self]
      omega
    · rw [List.count_cons_of_ne (fun h => h46 h.symm)]
      split at hcount <;> omega
  · by_cases hend : (L.tokenStart.lexToken).2.Current < (L.tokenStart.lexToken).2.File.size
    · have hdrop := Lexer.drop_eq_peek_cons hend
      rw [h4, h3] at hdrop
      obtain ⟨rest, hrest⟩ := hpre
      have hlen : L.tokenStart.File.Buffer.drop (L.tokenStart.Current + 1 + tl.length) = rest := by
        rw [← List.drop_drop, ← hrest, List.drop_left]
      rw [hlen] at hdrop
      have hstop := Lexer.numberTail_stop (L.tokenStart.peek 0 == 46)
        (L.tokenStart.File.Buffer.drop (L.tokenStart.Current + 1))
        ((L.tokenStart.lexToken).2.peek 0)
        (L.tokenStart.File.Buffer.drop (L.tokenStart.Current + 1 + tl.length + 1))
        (by rw [htl, ← hdrop, hrest])
      rw [htl] at hstop
      refine ⟨hstop.1, fun hc => ?_⟩
      rcases hstop.2 hc with hd | hd
      · simp only [beq_iff_eq] at hd
        rw [hd]; exact List.mem_cons_self _ _
      · exact List.mem_cons_of_mem _ hd
    · rw [Lexer.peek_of_ge (by omega)]
      exact ⟨by decide, fun hc => absurd hc (by decide)⟩

/-- C11, on `1.2.3`: the first token and the token after it. -/
theorem number_rule_witness :
    ((Lexer.init Examples.oneTwoThree).lex.1 = Token.Number ∧
      Examples.oneTwoThree.slice (Lexer.init Examples.oneTwoThree).lex.2.Range
        = [49, 46, 50]) ∧
    (((Lexer.init Examples.oneTwoThree).lexTimes 1).lex.1 = Token.Number ∧
      Examples.oneTwoThree.slice ((Lexer.init Examples.oneTwoThree).lexTimes 1).lex.2.Range
        = [46, 51]) :=
  ⟨⟨(number_rule.1 (Lexer.init Examples.oneTwoThree) (by decide)).1, by decide⟩,
   ⟨(number_rule.1 ((Lexer.init Examples.oneTwoThree).lexTimes 1) (by decide)).1, by decide⟩⟩

namespace Lexer

theorem punctOrInvalid_ne_eof (c : Nat) : punctOrInvalid c ≠ Token.EndOfFile := by
  unfold punctOrInvalid
  split
  · rename_i p hp
    have hmem := List.mem_of_find?_eq_some hp
    simp only [puncts, List.mem_cons, List.mem_singleton, List.not_mem_nil, or_false] at hmem
    rcases hmem with h | h | h | h | h | h | h | h <;> rw [h] <;> decide
  · decide

theorem punctOrInvalid_of_not_mem (c : Nat) (h : ∀ p ∈ puncts, p.1 ≠ c) :
    punctOrInvalid c = Token.Invalid := by
  unfold punctOrInvalid
  have : puncts.find? (fun p => p.1 == c) = none := by
    rw [List.find?_eq_none]
    intro p hp
    simpa using h p hp
  rw [this]

theorem keywordOrIdentifier_ne_eof (lexeme : List Nat) :
    keywordOrIdentifier lexeme ≠ Token.EndOfFile := by
  rw [keywordOrIdentifier_eq]
  split
  · decide
  · split
    · decide
    · split <;> decide

/-- `lexToken` returns the end of the file only at the end of the buffer. -/
theorem lexToken_eof {L : Lexer} (h : (L.lexToken).1 = Token.EndOfFile) :
    L.File.size ≤ L.Current := by
  by_contra hn
  unfold lexToken at h
  simp only at h
  rw [if_neg hn] at h
  split at h
  · exact keywordOrIdentifier_ne_eof _ h
  · split at h
    · exact Token.noConfusion h
    · exact punctOrInvalid_ne_eof _ h

/-- At the end of the buffer `lexToken` returns the end of the file, with the
range of no byte there. -/
theorem lexToken_at_end {L : Lexer} (h : L.Current = L.File.size) :
    (L.lexToken).1 = Token.EndOfFile ∧ (L.lexToken).2.Current = L.File.size ∧
    (L.lexToken).2.Range = ⟨L.File.size, L.File.size⟩ ∧ (L.lexToken).2.File = L.File := by
  unfold lexToken
  simp only
  rw [if_pos (by omega)]
  refine ⟨rfl, h, ?_, rfl⟩
  show makeRange L.getOffset L.getOffset = _
  unfold makeRange getOffset
  rw [h, toOffset_of_le_size (Nat.le_refl _)]

/-- A call of `lex` that returns the end of the file leaves the scan position
at the end of the buffer. -/
theorem lex_eof {L : Lexer} (hL : L.Current ≤ L.File.size) (h : (L.lex).1 = Token.EndOfFile) :
    (L.lex).2.Current = L.File.size ∧ (L.lex).2.Range = ⟨L.File.size, L.File.size⟩ ∧
    (L.lex).2.File = L.File := by
  have hT := adv_skipTrivia (L.File.size + 1) L
  unfold lex at h ⊢
  generalize skipTrivia (L.File.size + 1) L = L1 at hT h ⊢
  have h1 := lexToken_eof h
  have h2 := hT.bound hL
  rw [hT.file] at h1
  have h3 : L1.Current = L1.File.size := by rw [hT.file]; omega
  obtain ⟨-, a, b, c⟩ := lexToken_at_end h3
  rw [hT.file] at a b
  exact ⟨a, b, c.trans hT.file⟩

theorem lex_at_end {L : Lexer} (h : L.Current = L.File.size) :
    (L.lex).1 = Token.EndOfFile := by
  have hT := adv_skipTrivia (L.File.size + 1) L
  unfold lex
  generalize skipTrivia (L.File.size + 1) L = L1 at hT ⊢
  have h2 := hT.bound (Nat.le_of_eq h)
  have h3 := hT.mono
  have h4 : L1.Current = L1.File.size := by rw [hT.file]; omega
  exact (lexToken_at_end h4).1

theorem lexTimes_succ (k : Nat) (L : Lexer) : L.lexTimes (k + 1) = (L.lex).2.lexTimes k := rfl

theorem lexTimes_file (k : Nat) (L : Lexer) : (L.lexTimes k).File = L.File := by
  induction k generalizing L with
  | zero => rfl
  | succ n ih => rw [lexTimes_succ, ih, (lex_spec L).1]

/-- The tokens up to the first end of the file: from a scan position with at
most `m` bytes ahead, one of the first `m + 1` calls of `lex` returns the end
of the file. -/
theorem first_eof (m : Nat) (L : Lexer) (hL : L.Current ≤ L.File.size)
    (hm : L.File.size - L.Current ≤ m) :
    ∃ k, k ≤ m ∧ ((L.lexTimes k).lex).1 = Token.EndOfFile ∧
      ∀ i, i < k → ((L.lexTimes i).lex).1 ≠ Token.EndOfFile := by
  induction m generalizing L with
  | zero =>
    have hc : L.Current = L.File.size := by omega
    exact ⟨0, Nat.le_refl _, lex_at_end hc, fun i hi => absurd hi (Nat.not_lt_zero _)⟩
  | succ n ih =>
    by_cases h : (L.lex).1 = Token.EndOfFile
    · exact ⟨0, Nat.zero_le _, h, fun i hi => absurd hi (Nat.not_lt_zero _)⟩
    · obtain ⟨hf, -, -, -, hP, -⟩ := lex_spec L
      obtain ⟨hp1, hp2⟩ := hP h
      obtain ⟨k, hk, hE, hN⟩ := ih (L.lex).2 (by rw [hf]; exact hp2) (by rw [hf]; omega)
      refine ⟨k + 1, Nat.succ_le_succ hk, hE, ?_⟩
      intro i hi
      cases i with
      | zero => exact h
      | succ j => exact hN j (by omega)

end Lexer

/-- C12. The end of the file is absorbing: once a call of `lex` on a buffer of
`n` bytes has returned `EndOfFile`, that call and every later call return
`EndOfFile` with the range `[n, n)`. -/
theorem eof_absorbing (L : Lexer) (hL : L.Current ≤ L.File.size)
    (h : (L.lex).1 = Token.EndOfFile) (k : Nat) :
    ((L.lexTimes k).lex).1 = Token.EndOfFile ∧
    ((L.lexTimes k).lex).2.Range = ⟨L.File.size, L.File.size⟩ := by
  induction k generalizing L with
  | zero => exact ⟨h, (Lexer.lex_eof hL h).2.1⟩
  | succ n ih =>
    obtain ⟨h1, -, h3⟩ := Lexer.lex_eof hL h
    rw [Lexer.lexTimes_succ]
    have := ih (L.lex).2 (by rw [h3, h1]) (Lexer.lex_at_end (by rw [h3, h1]))
    rwa [h3] at this

/-- C12, on `function f() return 0 end`: the eighth call of `lex` returns the
end of the file, and so does the eleventh, with the range `[25, 25)`. -/
theorem eof_absorbing_witness :
    (((Lexer.init Examples.returnZero).lexTimes 7).lexTimes 3).lex.1 = Token.EndOfFile ∧
    (((Lexer.init Examples.returnZero).lexTimes 7).lexTimes 3).lex.2.Range = ⟨25, 25⟩ :=
  eof_absorbing ((Lexer.init Examples.returnZero).lexTimes 7) (by decide) (by decide) 3

/-- C13. Progress and termination of the lexer: a call of `lex` that returns a
token other than `EndOfFile` returns a range with `Begin < End` and moves the
scan position forward, within the buffer; so on a buffer of `n` bytes one of
the first `n + 1` calls returns `EndOfFile`, after at most `n` other tokens;
and a byte that starts no identifier, no number and no punctuation yields an
`Invalid` token of exactly that byte. -/
theorem lexer_progress :
    (∀ L : Lexer, L.Current ≤ L.File.size → (L.lex).1 ≠ Token.EndOfFile →
      (L.lex).2.Range.Begin < (L.lex).2.Range.End ∧ L.Current < (L.lex).2.Current ∧
      (L.lex).2.Current ≤ L.File.size) ∧
    (∀ file : File, ∃ k, k ≤ file.size ∧
      (((Lexer.init file).lexTimes k).lex).1 = Token.EndOfFile ∧
      ∀ i, i < k → (((Lexer.init file).lexTimes i).lex).1 ≠ Token.EndOfFile) ∧
    (∀ L : Lexer, L.tokenStart.Current < L.File.size →
      isalpha (L.tokenStart.peek 0) = false → L.tokenStart.peek 0 ≠ 95 →
      isdigit (L.tokenStart.peek 0) = false → L.tokenStart.peek 0 ≠ 46 →
      (∀ p ∈ puncts, p.1 ≠ L.tokenStart.peek 0) →
      (L.lex).1 = Token.Invalid ∧
      (L.lex).2.Range = ⟨L.tokenStart.Current, L.tokenStart.Current + 1⟩) := by
  refine ⟨?_, ?_, ?_⟩
  · intro L hL h
    have hT := Lexer.adv_skipTrivia (L.File.size + 1) L
    have hlex : L.lex = L.tokenStart.lexToken := rfl
    have hts : L.tokenStart = Lexer.skipTrivia (L.File.size + 1) L := rfl
    rw [hlex] at h ⊢
    rw [← hts] at hT
    generalize L.tokenStart = L1 at hT h ⊢
    obtain ⟨-, -, -, -, hP, hE, hB⟩ := Lexer.lexToken_spec L1
    obtain ⟨p1, p2⟩ := hP h
    have hm := hT.mono
    rw [hT.file] at p2
    have e1 : toOffset (L1.lexToken).2.Current = (L1.lexToken).2.Current :=
      Lexer.toOffset_of_le_size (f := L.File) p2
    have e2 : toOffset L1.Current = L1.Current :=
      Lexer.toOffset_of_le_size (f := L.File) (by omega)
    rw [hE, hB, e1, e2]
    exact ⟨p1, by omega, p2⟩
  · intro file
    exact Lexer.first_eof file.size (Lexer.init file) (Nat.zero_le _) (Nat.le_of_eq rfl)
  · intro L hlt ha hu hd hdot hp
    have hT := Lexer.adv_skipTrivia (L.File.size + 1) L
    have hlex : L.lex = L.tokenStart.lexToken := rfl
    have hts : L.tokenStart = Lexer.skipTrivia (L.File.size + 1) L := rfl
    rw [hlex]
    rw [← hts] at hT
    generalize L.tokenStart = L1 at hT hlt ha hu hd hdot hp ⊢
    have hlt1 : L1.Current < L1.File.size := by rw [hT.file]; exact hlt
    have hc := Lexer.advance_current_of_lt hlt1
    have hf := Lexer.advance_file L1
    unfold Lexer.lexToken
    simp only
    rw [if_neg (by omega)]
    have c1 : (isalpha (L1.peek 0) || L1.peek 0 == 95) = false := by
      rw [ha]; simpa using hu
    have c2 : (isdigit (L1.peek 0) || L1.peek 0 == 46) = false := by
      rw [hd]; simpa using hdot
    simp only [c1, c2, Bool.false_eq_true, if_false]
    refine ⟨Lexer.punctOrInvalid_of_not_mem _ hp, ?_⟩
    show Lexer.makeRange L1.getOffset L1.advance.getOffset = _
    unfold Lexer.makeRange Lexer.getOffset
    rw [hc, Lexer.toOffset_of_le_size (Nat.le_of_lt hlt1),
      Lexer.toOffset_of_le_size (f := L1.File) (by omega)]

/-- C13, on `a $ b`: the second call of `lex` returns an `Invalid` token over
the byte `$`, at `[2, 3)`, and the fourth call is the first to return the end
of the file. -/
theorem lexer_progress_witness :
    (((Lexer.init Examples.dollar).lexTimes 1).lex.1 = Token.Invalid ∧
      ((Lexer.init Examples.dollar).lexTimes 1).lex.2.Range = ⟨2, 3⟩) ∧
    (((Lexer.init Examples.dollar).lexTimes 1).lex.2.Range.Begin
        < ((Lexer.init Examples.dollar).lexTimes 1).lex.2.Range.End ∧
      ((Lexer.init Examples.dollar).lexTimes 1).Current
        < ((Lexer.init Examples.dollar).lexTimes 1).lex.2.Current ∧
      ((Lexer.init Examples.dollar).lexTimes 1).lex.2.Current ≤ 5) ∧
    ((Lexer.init Examples.dollar).lexTimes 3).lex.1 = Token.EndOfFile :=
  ⟨lexer_progress.2.2 ((Lexer.init Examples.dollar).lexTimes 1) (by decide) (by decide)
      (by decide) (by decide) (by decide) (by decide),
   lexer_progress.1 ((Lexer.init Examples.dollar).lexTimes 1) (by decide) (by decide),
   by decide⟩

/-! ## The semantic analysis -/

namespace ScopeTree

theorem find_eq_none {file : File} {sc : Scope} {name : Range} :
    find file sc name = none ↔
      ∀ s ∈ sc.Symbols, file.slice s.Name ≠ file.slice name := by
  unfold find
  simp only
  constructor
  · intro h s hs heq
    split at h
    · exact Option.noConfusion h
    · rename_i hlt
      apply hlt
      exact List.findIdx_lt_length_of_exists ⟨s, hs, by simpa using heq⟩
  · intro h
    rw [if_neg]
    intro hlt
    have := List.findIdx_getElem (w := hlt)
    simp only [beq_iff_eq] at this
    exact h _ (List.getElem_mem _) this

theorem find_eq_some {file : File} {sc : Scope} {name : Range} {i : Nat}
    (h : find file sc name = some i) :
    ∃ sym, sc.Symbols.get? i = some sym ∧ file.slice sym.Name = file.slice name := by
  unfold find at h
  simp only at h
  split at h
  · rename_i hlt
    simp only [Option.some.injEq] at h
    subst h
    refine ⟨sc.Symbols.get ⟨_, hlt⟩, ?_, ?_⟩
    · rw [List.get?_eq_getElem?, List.getElem?_eq_getElem hlt]
      rfl
    · have := List.findIdx_getElem (w := hlt)
      simpa using this
  · exact Option.noConfusion h

theorem find_congr {file : File} (sc : Scope) {n1 n2 : Range}
    (h : file.slice n1 = file.slice n2) : find file sc n1 = find file sc n2 := by
  unfold find
  rw [h]

/-- Symbols that come behind do not change what `find` finds. -/
theorem find_append_some {file : File} {sc : Scope} {name : Range} {i : Nat} (l : List Symbol)
    (h : find file sc name = some i) :
    find file { sc with Symbols := sc.Symbols ++ l } name = some i := by
  unfold find at h ⊢
  simp only at h ⊢
  split at h
  · rename_i hlt
    have hex : ∃ x ∈ sc.Symbols, (file.slice x.Name == file.slice name) = true :=
      ⟨_, List.getElem_mem hlt, List.findIdx_getElem (w := hlt)⟩
    rw [List.findIdx_append, if_pos hlt, if_pos]
    · exact h
    · rw [List.length_append]; omega
  · exact Option.noConfusion h

theorem find_append_none {file : File} {sc : Scope} {name : Range} (l : List Symbol)
    (h : find file sc name = none) (hl : ∀ s ∈ l, file.slice s.Name ≠ file.slice name) :
    find file { sc with Symbols := sc.Symbols ++ l } name = none := by
  rw [find_eq_none] at h ⊢
  intro s hs
  rcases List.mem_append.1 hs with hs | hs
  · exact h s hs
  · exact hl s hs

theorem find_append_new {file : File} {sc : Scope} {name : Range} (sym : Symbol)
    (h : find file sc name = none) (hs : file.slice sym.Name = file.slice name) :
    find file { sc with Symbols := sc.Symbols ++ [sym] } name = some sc.Symbols.length := by
  rw [find_eq_none] at h
  unfold find
  simp only
  have hfalse : ∀ x ∈ sc.Symbols, (file.slice x.Name == file.slice name) = false := by
    intro x hx
    simpa using h x hx
  have h1 : sc.Symbols.findIdx (fun s => file.slice s.Name == file.slice name)
      = sc.Symbols.length := List.findIdx_eq_length_of_false hfalse
  have h2 : (sc.Symbols ++ [sym]).findIdx (fun s => file.slice s.Name == file.slice name)
      = sc.Symbols.length := by
    rw [List.findIdx_append, h1, if_neg (Nat.lt_irrefl _), List.findIdx_cons]
    simp [hs]
  rw [h2, if_pos (by simp)]

end ScopeTree

namespace ScopeTree

theorem get?_eq (T : ScopeTree) (id : ScopeId) : T.get? id = T.scopes[id]? := by
  unfold get?
  exact List.get?_eq_getElem? _ _

theorem get?_lt {T : ScopeTree} {id : ScopeId} {sc : Scope} (h : T.get? id = some sc) :
    id < T.scopes.length := by
  rw [get?_eq] at h
  by_contra hn
  rw [List.getElem?_eq_none (Nat.le_of_not_lt hn)] at h
  exact Option.noConfusion h

theorem lookupFrom_zero (file : File) (T : ScopeTree) (s : Option ScopeId) (name : Range) :
    lookupFrom file T 0 s name = none := by
  cases s <;> rfl

theorem lookupFrom_none (file : File) (T : ScopeTree) (f : Nat) (name : Range) :
    lookupFrom file T f none name = none := by
  cases f <;> rfl

theorem lookupFrom_succ (file : File) (T : ScopeTree) (f : Nat) (id : ScopeId) (name : Range) :
    lookupFrom file T (f + 1) (some id) name =
      match T.get? id with
      | none => none
      | some sc =>
        match find file sc name with
        | some i => some ⟨id, i⟩
        | none => lookupFrom file T f sc.Parent name := by
  rw [lookupFrom]

/-- More loop budget changes no symbol `lookupFrom` has found. -/
theorem lookupFrom_mono {file : File} {T : ScopeTree} {f : Nat} {s : Option ScopeId}
    {name : Range} {r : SymbolRef} (h : lookupFrom file T f s name = some r) (k : Nat) :
    lookupFrom file T (f + k) s name = some r := by
  induction f generalizing s with
  | zero => rw [lookupFrom_zero] at h; exact Option.noConfusion h
  | succ n ih =>
    cases s with
    | none => rw [lookupFrom_none] at h; exact Option.noConfusion h
    | some id =>
      have e : n + 1 + k = (n + k) + 1 := by omega
      rw [e, lookupFrom_succ]
      rw [lookupFrom_succ] at h
      cases hg : T.get? id with
      | none => rw [hg] at h; exact Option.noConfusion h
      | some sc =>
        rw [hg] at h
        simp only at h ⊢
        cases hf : find file sc name with
        | some i => rw [hf] at h; exact h
        | none => rw [hf] at h; exact ih h

theorem lookupFrom_congr {file : File} (T : ScopeTree) (f : Nat) (s : Option ScopeId)
    {n1 n2 : Range} (h : file.slice n1 = file.slice n2) :
    lookupFrom file T f s n1 = lookupFrom file T f s n2 := by
  induction f generalizing s with
  | zero => rw [lookupFrom_zero, lookupFrom_zero]
  | succ n ih =>
    cases s with
    | none => rw [lookupFrom_none, lookupFrom_none]
    | some id =>
      rw [lookupFrom_succ, lookupFrom_succ]
      cases T.get? id with
      | none => rfl
      | some sc =>
        simp only
        rw [find_congr sc h]
        cases find file sc n2 with
        | some i => rfl
        | none => exact ih _

theorem lookup_congr {file : File} (T : ScopeTree) (id : ScopeId) {n1 n2 : Range}
    (h : file.slice n1 = file.slice n2) : lookup file T id n1 = lookup file T id n2 :=
  lookupFrom_congr T _ _ h

/-- What `lookupFrom` finds is a symbol of the store, of the name looked up. -/
theorem lookupFrom_some {file : File} {T : ScopeTree} {f : Nat} {s : Option ScopeId}
    {name : Range} {r : SymbolRef} (h : lookupFrom file T f s name = some r) :
    ∃ sc sym, T.get? r.scope = some sc ∧ sc.Symbols.get? r.index = some sym ∧
      file.slice sym.Name = file.slice name := by
  induction f generalizing s with
  | zero => rw [lookupFrom_zero] at h; exact Option.noConfusion h
  | succ n ih =>
    cases s with
    | none => rw [lookupFrom_none] at h; exact Option.noConfusion h
    | some id =>
      rw [lookupFrom_succ] at h
      cases hg : T.get? id with
      | none => rw [hg] at h; exact Option.noConfusion h
      | some sc =>
        rw [hg] at h
        simp only at h
        cases hf : find file sc name with
        | some i =>
          rw [hf] at h
          simp only [Option.some.injEq] at h
          subst h
          obtain ⟨sym, h1, h2⟩ := find_eq_some hf
          exact ⟨sc, sym, hg, h1, h2⟩
        | none => rw [hf] at h; exact ih h

theorem lookup_some {file : File} {T : ScopeTree} {id : ScopeId} {name : Range} {r : SymbolRef}
    (h : lookup file T id name = some r) :
    ∃ sym, T.symbol? r = some sym ∧ file.slice sym.Name = file.slice name := by
  obtain ⟨sc, sym, h1, h2, h3⟩ := lookupFrom_some h
  refine ⟨sym, ?_, h3⟩
  unfold symbol?
  rw [h1]
  exact h2

/-- One symbol more in the scope `id`, of a name that does not resolve from
`id`, changes nothing that `lookupFrom` has found. -/
theorem lookupFrom_stable {file : File} {T T1 : ScopeTree} {id : ScopeId} {sc : Scope}
    {sym : Symbol} (hsc : T.get? id = some sc)
    (h1 : T1.get? id = some { sc with Symbols := sc.Symbols ++ [sym] })
    (h2 : ∀ j scj, j ≠ id → T.get? j = some scj → T1.get? j = some scj)
    (hnone : lookup file T id sym.Name = none) :
    ∀ f, f ≤ T.scopes.length + 1 → ∀ s name r, lookupFrom file T f s name = some r →
      lookupFrom file T1 f s name = some r := by
  intro f
  induction f with
  | zero => intro _ s name r h; rw [lookupFrom_zero] at h; exact Option.noConfusion h
  | succ n ih =>
    intro hle s name r h
    cases s with
    | none => rw [lookupFrom_none] at h; exact Option.noConfusion h
    | some j =>
      have h0 := h
      rw [lookupFrom_succ] at h ⊢
      cases hg : T.get? j with
      | none => rw [hg] at h; exact Option.noConfusion h
      | some scj =>
        rw [hg] at h
        simp only at h
        by_cases hj : j = id
        · subst hj
          rw [hsc] at hg
          simp only [Option.some.injEq] at hg
          subst hg
          rw [h1]
          simp only
          cases hf : find file sc name with
          | some i =>
            rw [hf] at h
            rw [find_append_some _ hf]
            exact h
          | none =>
            rw [hf] at h
            have hne : file.slice sym.Name ≠ file.slice name := by
              intro heq
              have h3 := lookupFrom_mono h0 (T.scopes.length + 1 - (n + 1))
              have e : n + 1 + (T.scopes.length + 1 - (n + 1)) = T.scopes.length + 1 := by omega
              rw [e] at h3
              have h4 : lookup file T j sym.Name = some r := by
                rw [lookup_congr T j heq]
                exact h3
              rw [hnone] at h4
              exact Option.noConfusion h4
            rw [find_append_none [sym] hf (by
              intro s hs
              rw [List.mem_singleton.1 hs]
              exact hne)]
            exact ih (by omega) _ _ _ h
        · rw [h2 j scj hj hg]
          simp only
          cases hf : find file scj name with
          | some i => rw [hf] at h; exact h
          | none => rw [hf] at h; exact ih (by omega) _ _ _ h

theorem lookup_stable {file : File} {T T1 : ScopeTree} {id : ScopeId} {sc : Scope}
    {sym : Symbol} (hsc : T.get? id = some sc)
    (h1 : T1.get? id = some { sc with Symbols := sc.Symbols ++ [sym] })
    (h2 : ∀ j scj, j ≠ id → T.get? j = some scj → T1.get? j = some scj)
    (hnone : lookup file T id sym.Name = none) (hlen : T.scopes.length ≤ T1.scopes.length)
    (s : ScopeId) (name : Range) (r : SymbolRef) (h : lookup file T s name = some r) :
    lookup file T1 s name = some r := by
  have h3 := lookupFrom_stable hsc h1 h2 hnone (T.scopes.length + 1) (Nat.le_refl _) _ _ _ h
  have h4 := lookupFrom_mono h3 (T1.scopes.length - T.scopes.length)
  have e : T.scopes.length + 1 + (T1.scopes.length - T.scopes.length) = T1.scopes.length + 1 := by
    omega
  rw [e] at h4
  exact h4

theorem Grows.reflGrows (file : File) (T : ScopeTree) : Grows file T T :=
  ⟨fun _ sc h => ⟨sc, h, rfl, rfl, List.prefix_refl _⟩, fun _ _ _ h => h⟩

theorem Grows.transGrows {file : File} {T T1 T2 : ScopeTree} (h1 : Grows file T T1)
    (h2 : Grows file T1 T2) : Grows file T T2 := by
  refine ⟨fun id sc h => ?_, fun s name r h => h2.lookup _ _ _ (h1.lookup _ _ _ h)⟩
  obtain ⟨sc1, a1, b1, c1, d1⟩ := h1.scopes id sc h
  obtain ⟨sc2, a2, b2, c2, d2⟩ := h2.scopes id sc1 a1
  exact ⟨sc2, a2, b2.trans b1, c2.trans c1, d1.trans d2⟩

theorem Grows.symbol {file : File} {T T1 : ScopeTree} (h : Grows file T T1) {r : SymbolRef}
    {sym : Symbol} (hs : T.symbol? r = some sym) : T1.symbol? r = some sym := by
  unfold symbol? at hs ⊢
  cases hg : T.get? r.scope with
  | none => rw [hg] at hs; exact Option.noConfusion hs
  | some sc =>
    rw [hg] at hs
    simp only at hs
    obtain ⟨sc1, a, -, -, d⟩ := h.scopes _ _ hg
    rw [a]
    simp only
    obtain ⟨l, hl⟩ := d
    rw [← hl]
    rw [List.get?_eq_getElem?] at hs ⊢
    have hlt : r.index < sc.Symbols.length := by
      by_contra hn
      rw [List.getElem?_eq_none (by omega)] at hs
      exact Option.noConfusion hs
    rw [List.getElem?_append_left hlt]
    exact hs

theorem Grows.isScopeOf {file : File} {T T1 : ScopeTree} (h : Grows file T T1)
    {fn : FunctionDecl} {c : ScopeId} (hs : T.IsScopeOf fn c) : T1.IsScopeOf fn c := by
  obtain ⟨sc, h0, hm⟩ := hs
  obtain ⟨sc1, a, -, -, d⟩ := h.scopes _ _ h0
  exact ⟨sc1, a, d.subset hm⟩

end ScopeTree

namespace ScopeTree

theorem declare_found {file : File} {T : ScopeTree} {id : ScopeId} {name : Range}
    {r : SymbolRef} (kind : SymbolKind) (h : lookup file T id name = some r) :
    declare file T id kind name = (some r, false, T) := by
  unfold declare
  rw [h]

theorem declare_invalid {file : File} {T : ScopeTree} {id : ScopeId} {name : Range}
    (kind : SymbolKind) (h : lookup file T id name = none) (hsc : T.get? id = none) :
    declare file T id kind name = (none, false, T) := by
  unfold declare
  rw [h, hsc]

theorem getElem?_set_self_of_get? {T : ScopeTree} {id : ScopeId} {sc sc1 : Scope}
    (hsc : T.get? id = some sc) : (T.scopes.set id sc1)[id]? = some sc1 := by
  have hlt := get?_lt hsc
  rw [List.getElem?_set_self hlt]

/-- A declaration of a name that does not resolve goes through. -/
theorem declare_new {file : File} {T : ScopeTree} {id : ScopeId} {name : Range} {sc : Scope}
    (kind : SymbolKind) (h : lookup file T id name = none) (hsc : T.get? id = some sc) :
    ∃ T1, declare file T id kind name = (some ⟨id, sc.Symbols.length⟩, true, T1) ∧
      Declared file T id kind name sc T1 := by
  have hlt := get?_lt hsc
  cases kind with
  | Function =>
    refine ⟨⟨T.scopes.set id { sc with Symbols := sc.Symbols ++ [T.newSymbol .Function name] }
      ++ [⟨some id, some ⟨id, sc.Symbols.length⟩, []⟩]⟩, ?_, ?_⟩
    · unfold declare
      rw [h, hsc]
      rfl
    · refine ⟨hsc, h, ?_, ?_, ?_, ?_, ?_⟩
      · rw [get?_eq]
        simp only
        rw [List.getElem?_append_left (by rw [List.length_set]; exact hlt)]
        exact getElem?_set_self_of_get? hsc
      · intro j hj hjl
        rw [get?_eq, get?_eq]
        simp only
        rw [List.getElem?_append_left (by rw [List.length_set]; exact hjl)]
        exact List.getElem?_set_ne (fun e => hj e.symm)
      · simp
      · intro _
        rw [get?_eq]
        simp only
        rw [List.getElem?_append_right (by rw [List.length_set])]
        simp
      · rfl
  | Param =>
    refine ⟨⟨T.scopes.set id { sc with Symbols := sc.Symbols ++ [T.newSymbol .Param name] }⟩,
      ?_, ?_⟩
    · unfold declare
      rw [h, hsc]
      rfl
    · refine ⟨hsc, h, ?_, ?_, ?_, ?_, ?_⟩
      · rw [get?_eq]
        exact getElem?_set_self_of_get? hsc
      · intro j hj hjl
        rw [get?_eq, get?_eq]
        exact List.getElem?_set_ne (fun e => hj e.symm)
      · simp
      · intro hk; exact SymbolKind.noConfusion hk
      · simp
  | Var =>
    refine ⟨⟨T.scopes.set id { sc with Symbols := sc.Symbols ++ [T.newSymbol .Var name] }⟩,
      ?_, ?_⟩
    · unfold declare
      rw [h, hsc]
      rfl
    · refine ⟨hsc, h, ?_, ?_, ?_, ?_, ?_⟩
      · rw [get?_eq]
        exact getElem?_set_self_of_get? hsc
      · intro j hj hjl
        rw [get?_eq, get?_eq]
        exact List.getElem?_set_ne (fun e => hj e.symm)
      · simp
      · intro hk; exact SymbolKind.noConfusion hk
      · simp

theorem Declared.len_le {file : File} {T T1 : ScopeTree} {id : ScopeId} {kind : SymbolKind}
    {name : Range} {sc : Scope} (h : Declared file T id kind name sc T1) :
    T.scopes.length ≤ T1.scopes.length := by
  rw [h.length]; omega

theorem Declared.other {file : File} {T T1 : ScopeTree} {id : ScopeId} {kind : SymbolKind}
    {name : Range} {sc : Scope} (h : Declared file T id kind name sc T1) {j : ScopeId}
    {scj : Scope} (hj : j ≠ id) (hg : T.get? j = some scj) : T1.get? j = some scj := by
  rw [h.others j hj (get?_lt hg)]
  exact hg

/-- A declaration that goes through makes the store grow. -/
theorem Declared.grows {file : File} {T T1 : ScopeTree} {id : ScopeId} {kind : SymbolKind}
    {name : Range} {sc : Scope} (h : Declared file T id kind name sc T1) : Grows file T T1 := by
  refine ⟨fun j scj hg => ?_, fun s n r hl => ?_⟩
  · by_cases hj : j = id
    · subst hj
      rw [h.scope] at hg
      simp only [Option.some.injEq] at hg
      subst hg
      exact ⟨_, h.here, rfl, rfl, List.prefix_append _ _⟩
    · exact ⟨scj, h.other hj hg, rfl, rfl, List.prefix_refl _⟩
  · exact @lookup_stable file T T1 id sc (T.newSymbol kind name) h.scope h.here
      (fun j scj hj hg => h.other hj hg) h.fresh h.len_le s n r hl

theorem lookup_succ (file : File) (T : ScopeTree) (id : ScopeId) (name : Range) :
    lookup file T id name =
      match T.get? id with
      | none => none
      | some sc =>
        match find file sc name with
        | some i => some ⟨id, i⟩
        | none => lookupFrom file T T.scopes.length sc.Parent name := by
  unfold lookup
  rw [lookupFrom_succ]

theorem lookup_none_find {file : File} {T : ScopeTree} {id : ScopeId} {name : Range}
    {sc : Scope} (h : lookup file T id name = none) (hsc : T.get? id = some sc) :
    find file sc name = none := by
  rw [lookup_succ, hsc] at h
  simp only at h
  cases hf : find file sc name with
  | some i => rw [hf] at h; exact Option.noConfusion h
  | none => rfl

/-- After a declaration that has gone through, the name resolves to the new
symbol. -/
theorem Declared.lookup_new {file : File} {T T1 : ScopeTree} {id : ScopeId}
    {kind : SymbolKind} {name : Range} {sc : Scope} (h : Declared file T id kind name sc T1) :
    lookup file T1 id name = some ⟨id, sc.Symbols.length⟩ ∧
    T1.symbol? ⟨id, sc.Symbols.length⟩ = some (T.newSymbol kind name) := by
  constructor
  · rw [lookup_succ, h.here]
    simp only
    rw [find_append_new (T.newSymbol kind name) (lookup_none_find h.fresh h.scope) rfl]
  · unfold symbol?
    simp only
    rw [h.here]
    simp

/-- The three outcomes of `declare`. -/
theorem declare_cases (file : File) (T : ScopeTree) (id : ScopeId) (kind : SymbolKind)
    (name : Range) :
    (∃ r, lookup file T id name = some r ∧ declare file T id kind name = (some r, false, T)) ∨
    (lookup file T id name = none ∧ T.get? id = none ∧
      declare file T id kind name = (none, false, T)) ∨
    (∃ sc T1, declare file T id kind name = (some ⟨id, sc.Symbols.length⟩, true, T1) ∧
      Declared file T id kind name sc T1) := by
  cases h : lookup file T id name with
  | some r => exact Or.inl ⟨r, rfl, declare_found kind h⟩
  | none =>
    cases hsc : T.get? id with
    | none => exact Or.inr (Or.inl ⟨rfl, rfl, declare_invalid kind h hsc⟩)
    | some sc =>
      obtain ⟨T1, h1, h2⟩ := declare_new kind h hsc
      exact Or.inr (Or.inr ⟨sc, T1, h1, h2⟩)

theorem declare_grows (file : File) (T : ScopeTree) (id : ScopeId) (kind : SymbolKind)
    (name : Range) : Grows file T (declare file T id kind name).2.2 := by
  rcases declare_cases file T id kind name with ⟨r, -, h⟩ | ⟨-, -, h⟩ | ⟨sc, T1, h, hd⟩
  · rw [h]; exact Grows.reflGrows file T
  · rw [h]; exact Grows.reflGrows file T
  · rw [h]; exact hd.grows

end ScopeTree

namespace ScopeTree

theorem Declared.wf {file : File} {T T1 : ScopeTree} {id : ScopeId} {kind : SymbolKind}
    {name : Range} {sc : Scope} (h : Declared file T id kind name sc T1) (hw : T.WF) :
    T1.WF := by
  intro j scj sym hg hm hk
  by_cases hj : j = id
  · subst hj
    rw [h.here] at hg
    simp only [Option.some.injEq] at hg
    subst hg
    simp only at hm
    rcases List.mem_append.1 hm with hm | hm
    · exact hw _ _ _ h.scope hm hk
    · rw [List.mem_singleton.1 hm] at hk ⊢
      unfold newSymbol at hk ⊢
      simp only at hk ⊢
      rw [if_pos hk]
      exact Option.noConfusion
  · by_cases hjl : j < T.scopes.length
    · rw [h.others j hj hjl] at hg
      exact hw _ _ _ hg hm hk
    · have hlt := get?_lt hg
      rw [h.length] at hlt
      by_cases hkf : kind = .Function
      · rw [if_pos hkf] at hlt
        have hje : j = T.scopes.length :=
          Nat.le_antisymm (Nat.lt_succ_iff.1 hlt) (Nat.le_of_not_lt hjl)
        subst hje
        rw [h.child hkf] at hg
        simp only [Option.some.injEq] at hg
        subst hg
        simp at hm
      · rw [if_neg hkf, Nat.add_zero] at hlt
        exact absurd hlt hjl

theorem set_get?_self {T : ScopeTree} {id : ScopeId} {sc : Scope} (h : T.get? id = some sc) :
    T.scopes.set id sc = T.scopes := by
  rw [get?_eq] at h
  apply List.ext_getElem?
  intro j
  by_cases hj : id = j
  · subst hj
    rw [List.getElem?_set_self (get?_lt (by rw [get?_eq]; exact h)), h]
  · rw [List.getElem?_set_ne hj]

end ScopeTree

namespace AnalyzerVisitor
open Walker

theorem walkExpr_number (file : File) (value : Double) (range : Range) (A : AnalyzerVisitor) :
    walkExpr (visitor file) (.NumberExpr value range) A = A := by
  rw [walkExpr]; rfl

theorem walkExpr_identifier (file : File) (name : Range) (A : AnalyzerVisitor) :
    walkExpr (visitor file) (.IdentifierExpr name) A = (enter file (.IdentifierExpr name) A).2 := by
  rw [walkExpr]
  simp only [aroundExpr, entered, visitor, Visitor.base, enter]
  simp

theorem walkExpr_call (file : File) (callee : Range) (args : List Expr) (range : Range)
    (A : AnalyzerVisitor) :
    walkExpr (visitor file) (.CallExpr callee args range) A =
      if (enter file (.CallExpr callee args range) A).1 = true then
        walkExprs (visitor file) args (enter file (.CallExpr callee args range) A).2
      else (enter file (.CallExpr callee args range) A).2 := by
  rw [walkExpr]
  simp only [aroundExpr, entered, visitor, Visitor.base, enter]
  simp

theorem walkExpr_binary (file : File) (op : Op) (lhs rhs : Expr) (range : Range)
    (A : AnalyzerVisitor) :
    walkExpr (visitor file) (.BinaryExpr op lhs rhs range) A =
      if (enter file (.BinaryExpr op lhs rhs range) A).1 = true then
        walkExpr (visitor file) rhs
          (walkExpr (visitor file) lhs (enter file (.BinaryExpr op lhs rhs range) A).2)
      else (enter file (.BinaryExpr op lhs rhs range) A).2 := by
  rw [walkExpr]
  simp only [aroundExpr, entered, visitor, Visitor.base, enter]
  simp

theorem walkExprs_nil (file : File) (A : AnalyzerVisitor) :
    walkExprs (visitor file) [] A = A := by
  rw [walkExprs]

theorem walkExprs_cons (file : File) (e : Expr) (es : List Expr) (A : AnalyzerVisitor) :
    walkExprs (visitor file) (e :: es) A =
      walkExprs (visitor file) es (walkExpr (visitor file) e A) := by
  rw [walkExprs]

theorem walkExprs_append (file : File) (es fs : List Expr) (A : AnalyzerVisitor) :
    walkExprs (visitor file) (es ++ fs) A =
      walkExprs (visitor file) fs (walkExprs (visitor file) es A) := by
  induction es generalizing A with
  | nil => rw [List.nil_append, walkExprs_nil]
  | cons e es ih => rw [List.cons_append, walkExprs_cons, walkExprs_cons, ih]

theorem walkStmt_eq (file : File) (st : Stmt) (A : AnalyzerVisitor) :
    walkStmt (visitor file) st A = walkExpr (visitor file) st.expr A := by
  cases st <;> rfl

theorem walkCompoundStmt_eq (file : File) (cs : CompoundStmt) (A : AnalyzerVisitor) :
    walkCompoundStmt (visitor file) cs A = atStmt file cs.Stmts A := rfl

theorem walkParamDecl_eq (file : File) (pd : ParamDecl) (A : AnalyzerVisitor) :
    walkParamDecl (visitor file) pd A = (onEnterParamDecl file pd A).2 := by
  simp only [walkParamDecl, around, entered, visitor, Visitor.base]
  simp

theorem walkFunctionDecl_eq (file : File) (fn : FunctionDecl) (A : AnalyzerVisitor) :
    walkFunctionDecl (visitor file) fn A =
      if (onEnterFunctionDecl file fn A).1 = true then
        onExitFunctionDecl file fn (atStmt file fn.Body.Stmts (atBody file fn A))
      else (onEnterFunctionDecl file fn A).2 := by
  simp only [walkFunctionDecl, around, entered, visitor, Visitor.base]
  simp only [Bool.not_true, Bool.false_eq_true, if_false]
  rfl

theorem walkTranslationUnit_eq (file : File) (tu : TranslationUnit) (A : AnalyzerVisitor) :
    walkTranslationUnit (visitor file) tu A =
      tu.FNs.foldl (fun acc fn => walkFunctionDecl (visitor file) fn acc) A := rfl

theorem Analyze_eq (file : File) (tu : TranslationUnit) (os : String) :
    Analyze file tu os =
      if (atFunction file os tu.FNs).Undefined = true then none
      else some ((atFunction file os tu.FNs).takeGlobalScope, (atFunction file os tu.FNs).OS) :=
  rfl

theorem atFunction_append (file : File) (os : String) (front : List FunctionDecl)
    (fn : FunctionDecl) :
    atFunction file os (front ++ [fn]) =
      walkFunctionDecl (visitor file) fn (atFunction file os front) := by
  unfold atFunction
  rw [List.foldl_append]
  rfl

theorem atStmt_append (file : File) (front : List Stmt) (st : Stmt) (A : AnalyzerVisitor) :
    atStmt file (front ++ [st]) A = walkExpr (visitor file) st.expr (atStmt file front A) := by
  unfold atStmt
  rw [List.foldl_append]
  exact walkStmt_eq file st _

/-! ### What `error` and `note` do -/

theorem error_OS (file : File) (A : AnalyzerVisitor) (range : Range) (message : String) :
    (A.error file range message).OS =
      A.OS ++ ("error: " ++ (message ++ ("\n" ++ (file.print range ++ "\n")))) := by
  simp only [error, String.append_assoc]

theorem note_OS (file : File) (A : AnalyzerVisitor) (range : Range) (message : String) :
    (A.note file range message).OS =
      A.OS ++ ("note: " ++ (message ++ ("\n" ++ (file.print range ++ "\n")))) := by
  simp only [note, String.append_assoc]

theorem Wrote.reflWrote (A : AnalyzerVisitor) : Wrote A A :=
  ⟨"", (String.append_empty _).symm, fun _ => rfl, fun h1 h2 => by rw [h1] at h2; cases h2⟩

theorem Wrote.transWrote {A B C : AnalyzerVisitor} (h1 : Wrote A B) (h2 : Wrote B C)
    (he : B.Error = true → C.Error = true) : Wrote A C := by
  obtain ⟨o1, a1, b1, c1⟩ := h1
  obtain ⟨o2, a2, b2, c2⟩ := h2
  refine ⟨o1 ++ o2, by rw [a2, a1, String.append_assoc], ?_, ?_⟩
  · intro hc
    have hb : B.Error = false := by
      cases hB : B.Error with
      | false => rfl
      | true => rw [he hB] at hc; cases hc
    rw [b1 hb, b2 hc]
    rfl
  · intro ha hc
    cases hB : B.Error with
    | false =>
      obtain ⟨rest, hr⟩ := c2 hB hc
      exact ⟨rest, by rw [b1 hB, hr, String.empty_append]⟩
    | true =>
      obtain ⟨rest, hr⟩ := c1 ha hB
      exact ⟨rest ++ o2, by rw [hr, String.append_assoc]⟩

theorem wrote_error (file : File) (A : AnalyzerVisitor) (range : Range) (message : String) :
    Wrote A (A.error file range message) :=
  ⟨_, error_OS file A range message, fun h => Bool.noConfusion h, fun _ _ => ⟨_, rfl⟩⟩

theorem wrote_error_note (file : File) (A : AnalyzerVisitor) (r1 r2 : Range) (m1 m2 : String) :
    Wrote A ((A.error file r1 m1).note file r2 m2) := by
  refine ⟨"error: " ++ ((m1 ++ ("\n" ++ (file.print r1 ++ "\n"))) ++
    ("note: " ++ (m2 ++ ("\n" ++ (file.print r2 ++ "\n"))))), ?_,
    fun h => Bool.noConfusion h, fun _ _ => ⟨_, rfl⟩⟩
  rw [note_OS, error_OS]
  simp only [String.append_assoc]

theorem Step.reflStep (file : File) {A : AnalyzerVisitor} (h : Inv A) : Step file A A :=
  ⟨rfl, id, Wrote.reflWrote A, ScopeTree.Grows.reflGrows file _, h⟩

theorem Step.transStep {file : File} {A B C : AnalyzerVisitor} (h1 : Step file A B)
    (h2 : Step file B C) : Step file A C :=
  ⟨h2.scope.trans h1.scope, fun h => h2.error (h1.error h),
    h1.wrote.transWrote h2.wrote h2.error, h1.grows.transGrows h2.grows, h2.inv⟩

theorem BodyStep.reflBody (file : File) {A : AnalyzerVisitor} (h : Inv A) : BodyStep file A A := by
  refine ⟨Step.reflStep file h, ?_⟩
  intro cur sc _ hsc
  refine ⟨[], fun s hs => by simp at hs, ?_⟩
  simp only [List.append_nil]
  rw [ScopeTree.set_get?_self hsc]

theorem BodyStep.transBody {file : File} {A B C : AnalyzerVisitor} (h1 : BodyStep file A B)
    (h2 : BodyStep file B C) : BodyStep file A C := by
  refine ⟨h1.toStep.transStep h2.toStep, ?_⟩
  intro cur sc hcur hsc
  obtain ⟨ad1, k1, e1⟩ := h1.locals cur sc hcur hsc
  have hlt := ScopeTree.get?_lt hsc
  have hB : B.GlobalScope.get? cur = some { sc with Symbols := sc.Symbols ++ ad1 } := by
    rw [e1, ScopeTree.get?_eq]
    exact List.getElem?_set_self hlt
  obtain ⟨ad2, k2, e2⟩ := h2.locals cur _ (h1.scope.trans hcur) hB
  refine ⟨ad1 ++ ad2, ?_, ?_⟩
  · intro s hs
    rcases List.mem_append.1 hs with hs | hs
    · exact k1 s hs
    · exact k2 s hs
  · rw [e2, e1]
    simp only [List.set_set, List.append_assoc]

end AnalyzerVisitor

namespace ScopeTree

theorem symbol?_mem {T : ScopeTree} {r : SymbolRef} {sym : Symbol}
    (h : T.symbol? r = some sym) : ∃ sc, T.get? r.scope = some sc ∧ sym ∈ sc.Symbols := by
  unfold symbol? at h
  cases hg : T.get? r.scope with
  | none => rw [hg] at h; exact Option.noConfusion h
  | some sc =>
    rw [hg] at h
    exact ⟨sc, rfl, List.get?_mem h⟩

end ScopeTree

namespace AnalyzerVisitor
open Walker

/-- A state that differs from `A` in what was written and in the error flag
only is a stretch of the walk away from `A`. -/
theorem BodyStep.of_same (file : File) {A A1 : AnalyzerVisitor} (hinv : Inv A)
    (hs : A1.CurrentScope = A.CurrentScope) (ht : A1.GlobalScope = A.GlobalScope)
    (hu : A1.Undefined = A.Undefined) (he : A.Error = true → A1.Error = true)
    (hw : Wrote A A1) : BodyStep file A A1 := by
  have hinv1 : Inv A1 := by
    obtain ⟨d, ⟨cur, sc, c1, c2⟩, w⟩ := hinv
    exact ⟨hu.trans d, ⟨cur, sc, hs.trans c1, by rw [ht]; exact c2⟩, by rw [ht]; exact w⟩
  refine ⟨⟨hs, he, hw, by rw [ht]; exact ScopeTree.Grows.reflGrows file _, hinv1⟩, ?_⟩
  intro cur sc _ hsc
  refine ⟨[], fun s hs => by simp at hs, ?_⟩
  simp only [List.append_nil]
  rw [ScopeTree.set_get?_self hsc, ht]

theorem BodyStep.of_error (file : File) {A : AnalyzerVisitor} (hinv : Inv A) (range : Range)
    (message : String) : BodyStep file A (A.error file range message) :=
  BodyStep.of_same file hinv rfl rfl rfl (fun _ => rfl) (wrote_error file A range message)

theorem BodyStep.of_error_note (file : File) {A : AnalyzerVisitor} (hinv : Inv A)
    (r1 r2 : Range) (m1 m2 : String) :
    BodyStep file A ((A.error file r1 m1).note file r2 m2) :=
  BodyStep.of_same file hinv rfl rfl rfl (fun _ => rfl) (wrote_error_note file A r1 r2 m1 m2)

theorem enter_identifier (file : File) (name : Range) {A : AnalyzerVisitor} {cur : ScopeId}
    (hcur : A.CurrentScope = some cur) :
    enter file (.IdentifierExpr name) A =
      (true, { A with GlobalScope := (A.GlobalScope.declare file cur .Var name).2.2 }) := by
  unfold enter onEnterIdentifierExpr
  simp only
  rw [hcur]

/-- The outcomes of the hook of a call. -/
theorem enter_call (file : File) (callee : Range) (args : List Expr) (range : Range)
    {A : AnalyzerVisitor} (hinv : Inv A) :
    ∃ cur, A.CurrentScope = some cur ∧
    ((A.GlobalScope.lookup file cur callee = none ∧
        enter file (.CallExpr callee args range) A =
          (false, A.error file range ("use of undeclared function " ++ text file callee))) ∨
      (∃ ref sym, A.GlobalScope.lookup file cur callee = some ref ∧
        A.GlobalScope.symbol? ref = some sym ∧ sym.TheKind ≠ .Function ∧
        enter file (.CallExpr callee args range) A =
          (false, (A.error file range
            ("called object " ++ text file callee ++ " is not a function")).note file
              sym.Name "previous definition is here")) ∨
      (∃ ref sym scope, A.GlobalScope.lookup file cur callee = some ref ∧
        A.GlobalScope.symbol? ref = some sym ∧ sym.TheKind = .Function ∧
        sym.TheScope = some scope ∧
        args.length ≠ (A.GlobalScope.getSymbols scope (some .Param)).length ∧
        enter file (.CallExpr callee args range) A =
          (false, A.error file range ("call to function " ++ text file callee
            ++ " with incorrect number of arguments"))) ∨
      (∃ ref sym scope, A.GlobalScope.lookup file cur callee = some ref ∧
        A.GlobalScope.symbol? ref = some sym ∧ sym.TheKind = .Function ∧
        sym.TheScope = some scope ∧
        args.length = (A.GlobalScope.getSymbols scope (some .Param)).length ∧
        enter file (.CallExpr callee args range) A = (true, A))) := by
  obtain ⟨-, ⟨cur, sc, hcur, hsc⟩, hwf⟩ := hinv
  refine ⟨cur, hcur, ?_⟩
  unfold enter onEnterCallExpr
  simp only
  rw [hcur]
  simp only
  cases hl : A.GlobalScope.lookup file cur callee with
  | none => exact Or.inl ⟨rfl, rfl⟩
  | some ref =>
    obtain ⟨sym, hsym, -⟩ := ScopeTree.lookup_some hl
    simp only
    rw [hsym]
    simp only
    by_cases hk : sym.TheKind = .Function
    · rw [if_neg (by simpa using hk)]
      obtain ⟨scr, h1, h2⟩ := ScopeTree.symbol?_mem hsym
      have hts := hwf _ _ _ h1 h2 hk
      cases hscope : sym.TheScope with
      | none => exact absurd hscope hts
      | some scope =>
        simp only
        by_cases ha : args.length = (A.GlobalScope.getSymbols scope (some .Param)).length
        · rw [if_neg (by simpa using ha)]
          exact Or.inr (Or.inr (Or.inr ⟨ref, sym, scope, rfl, hsym, hk, hscope, ha, rfl⟩))
        · rw [if_pos ha]
          exact Or.inr (Or.inr (Or.inl ⟨ref, sym, scope, rfl, hsym, hk, hscope, ha, rfl⟩))
    · rw [if_pos hk]
      exact Or.inr (Or.inl ⟨ref, sym, rfl, hsym, hk, rfl⟩)

/-- The outcomes of the hook of a binary expression. -/
theorem enter_binary (file : File) (op : Op) (lhs rhs : Expr) (range : Range)
    (A : AnalyzerVisitor) :
    (op = .Assign ∧ (∀ name, lhs ≠ .IdentifierExpr name) ∧
      enter file (.BinaryExpr op lhs rhs range) A =
        (false, A.error file lhs.getRange "expression is not assignable")) ∨
    ((op = .Assign → ∃ name, lhs = .IdentifierExpr name) ∧
      enter file (.BinaryExpr op lhs rhs range) A = (true, A)) := by
  unfold enter onEnterBinaryExpr
  cases op with
  | Assign =>
    cases lhs with
    | IdentifierExpr name => exact Or.inr ⟨fun _ => ⟨name, rfl⟩, rfl⟩
    | NumberExpr v r => exact Or.inl ⟨rfl, fun _ h => Expr.noConfusion h, rfl⟩
    | CallExpr c a r => exact Or.inl ⟨rfl, fun _ h => Expr.noConfusion h, rfl⟩
    | BinaryExpr o l r rg => exact Or.inl ⟨rfl, fun _ h => Expr.noConfusion h, rfl⟩
  | Add => exact Or.inr ⟨fun h => Op.noConfusion h, rfl⟩
  | Sub => exact Or.inr ⟨fun h => Op.noConfusion h, rfl⟩
  | Mul => exact Or.inr ⟨fun h => Op.noConfusion h, rfl⟩
  | Div => exact Or.inr ⟨fun h => Op.noConfusion h, rfl⟩

/-- A declaration in the current scope that goes through, of a parameter or
of a variable. -/
theorem Inv.declared {file : File} {A : AnalyzerVisitor} (hinv : Inv A) {cur : ScopeId}
    {kind : SymbolKind} {name : Range} {sc : Scope} {T1 : ScopeTree}
    (hcur : A.CurrentScope = some cur)
    (hd : ScopeTree.Declared file A.GlobalScope cur kind name sc T1) :
    Inv { A with GlobalScope := T1 } :=
  ⟨hinv.defined, ⟨cur, _, hcur, hd.here⟩, hd.wf hinv.wf⟩

/-- The hook of an expression is a stretch of the walk inside a body. -/
theorem enter_step (file : File) (e : Expr) {A : AnalyzerVisitor} (hinv : Inv A) :
    BodyStep file A (enter file e A).2 := by
  cases e with
  | NumberExpr v r => exact BodyStep.reflBody file hinv
  | IdentifierExpr name =>
    obtain ⟨cur, sc, hcur, hsc⟩ := hinv.scope
    rw [enter_identifier file name hcur]
    simp only
    rcases ScopeTree.declare_cases file A.GlobalScope cur .Var name with
      ⟨r, -, h⟩ | ⟨-, h0, -⟩ | ⟨sc1, T1, h, hd⟩
    · rw [h]
      exact BodyStep.reflBody file hinv
    · rw [hsc] at h0
      exact Option.noConfusion h0
    · rw [h]
      simp only
      refine ⟨⟨rfl, id, ⟨"", (String.append_empty _).symm, fun _ => rfl,
        fun h1 h2 => by rw [h1] at h2; cases h2⟩, hd.grows, hinv.declared hcur hd⟩, ?_⟩
      intro cur2 sc2 hcur2 hsc2
      rw [hcur] at hcur2
      simp only [Option.some.injEq] at hcur2
      subst hcur2
      have hsame : sc1 = sc2 := by
        have := hd.scope
        rw [hsc2] at this
        simp only [Option.some.injEq] at this
        exact this.symm
      subst hsame
      refine ⟨[A.GlobalScope.newSymbol .Var name], ?_, ?_⟩
      · intro s hs
        rw [List.mem_singleton.1 hs]
        exact ⟨rfl, rfl⟩
      · rw [hd.store]
        simp
  | CallExpr callee args range =>
    obtain ⟨cur, -, h⟩ := enter_call file callee args range hinv
    rcases h with ⟨-, h⟩ | ⟨ref, sym, -, -, -, h⟩ | ⟨ref, sym, scope, -, -, -, -, -, h⟩ |
      ⟨ref, sym, scope, -, -, -, -, -, h⟩
    · rw [h]; exact BodyStep.of_error file hinv _ _
    · rw [h]; exact BodyStep.of_error_note file hinv _ _ _ _
    · rw [h]; exact BodyStep.of_error file hinv _ _
    · rw [h]; exact BodyStep.reflBody file hinv
  | BinaryExpr op lhs rhs range =>
    rcases enter_binary file op lhs rhs range A with ⟨-, -, h⟩ | ⟨-, h⟩
    · rw [h]; exact BodyStep.of_error file hinv _ _
    · rw [h]; exact BodyStep.reflBody file hinv

/-- Induction on expressions and on lists of expressions. -/
theorem Expr.induct {P : Expr → Prop} {Q : List Expr → Prop}
    (hnum : ∀ v r, P (.NumberExpr v r)) (hid : ∀ n, P (.IdentifierExpr n))
    (hcall : ∀ c args r, Q args → P (.CallExpr c args r))
    (hbin : ∀ op l r rg, P l → P r → P (.BinaryExpr op l r rg))
    (hnil : Q []) (hcons : ∀ e es, P e → Q es → Q (e :: es)) :
    (∀ e, P e) ∧ (∀ es, Q es) :=
  ⟨fun e => @Expr.rec P Q hnum hid hcall hbin hnil hcons e,
   fun es => @Expr.rec_1 P Q hnum hid hcall hbin hnil hcons es⟩

/-- The walk of an expression, and of a list of arguments, is a stretch of
the walk inside a body. -/
theorem walkExpr_step (file : File) :
    (∀ e (A : AnalyzerVisitor), Inv A → BodyStep file A (walkExpr (visitor file) e A)) ∧
    (∀ es (A : AnalyzerVisitor), Inv A → BodyStep file A (walkExprs (visitor file) es A)) := by
  apply Expr.induct
  · intro v r A hinv
    rw [walkExpr_number]
    exact BodyStep.reflBody file hinv
  · intro n A hinv
    rw [walkExpr_identifier]
    exact enter_step file _ hinv
  · intro c args r ih A hinv
    rw [walkExpr_call]
    have h1 := enter_step file (.CallExpr c args r) hinv
    split
    · exact h1.transBody (ih _ h1.inv)
    · exact h1
  · intro op l r rg ihl ihr A hinv
    rw [walkExpr_binary]
    have h1 := enter_step file (.BinaryExpr op l r rg) hinv
    split
    · have h2 := ihl _ h1.inv
      exact (h1.transBody h2).transBody (ihr _ h2.inv)
    · exact h1
  · intro A hinv
    rw [walkExprs_nil]
    exact BodyStep.reflBody file hinv
  · intro e es ihe ihes A hinv
    rw [walkExprs_cons]
    have h1 := ihe A hinv
    exact h1.transBody (ihes _ h1.inv)

theorem atStmt_step (file : File) (sts : List Stmt) {A : AnalyzerVisitor} (hinv : Inv A) :
    BodyStep file A (atStmt file sts A) := by
  induction sts generalizing A with
  | nil => exact BodyStep.reflBody file hinv
  | cons st rest ih =>
    have h1 : BodyStep file A (walkStmt (visitor file) st A) := by
      rw [walkStmt_eq]
      exact (walkExpr_step file).1 _ _ hinv
    exact h1.transBody (ih h1.inv)

end AnalyzerVisitor

namespace AnalyzerVisitor
open Walker

theorem nameRange_eq {A : AnalyzerVisitor} {r : SymbolRef} {sym : Symbol}
    (h : A.GlobalScope.symbol? r = some sym) : A.nameRange r = sym.Name := by
  unfold nameRange
  rw [h]

/-- The outcomes of the hook of a parameter. -/
theorem onEnterParamDecl_cases (file : File) (pd : ParamDecl) {A : AnalyzerVisitor}
    (hinv : Inv A) {cur : ScopeId} (hcur : A.CurrentScope = some cur) :
    (∃ r sym, A.GlobalScope.lookup file cur pd.Name = some r ∧
        A.GlobalScope.symbol? r = some sym ∧
        onEnterParamDecl file pd A =
          (false, (A.error file pd.getRange
            ("redefinition of parameter " ++ text file pd.Name)).note file
              sym.Name "previous definition is here")) ∨
    (∃ sc T1, ScopeTree.Declared file A.GlobalScope cur .Param pd.Name sc T1 ∧
        onEnterParamDecl file pd A = (true, { A with GlobalScope := T1 })) := by
  obtain ⟨cur2, sc, hcur2, hsc⟩ := hinv.scope
  rw [hcur] at hcur2
  simp only [Option.some.injEq] at hcur2
  subst hcur2
  unfold onEnterParamDecl
  rw [hcur]
  simp only
  rcases ScopeTree.declare_cases file A.GlobalScope cur .Param pd.Name with
    ⟨r, hl, h⟩ | ⟨-, h0, -⟩ | ⟨sc1, T1, h, hd⟩
  · obtain ⟨sym, hsym, -⟩ := ScopeTree.lookup_some hl
    rw [h]
    simp only
    rw [nameRange_eq hsym]
    exact Or.inl ⟨r, sym, hl, hsym, rfl⟩
  · rw [hsc] at h0
    exact Option.noConfusion h0
  · rw [h]
    exact Or.inr ⟨sc1, T1, hd, rfl⟩

theorem ParamStep.nilParams (file : File) {A : AnalyzerVisitor} (h : Inv A) :
    ParamStep file [] A A := by
  refine ⟨Step.reflStep file h, ?_⟩
  intro cur sc _ hsc
  refine ⟨[], fun s hs => by simp at hs, ?_, fun _ => rfl⟩
  simp only [List.append_nil]
  rw [ScopeTree.set_get?_self hsc]

/-- The hook of a parameter is a stretch of the walk over that parameter. -/
theorem onEnterParamDecl_step (file : File) (pd : ParamDecl) {A : AnalyzerVisitor}
    (hinv : Inv A) : ParamStep file [pd] A (onEnterParamDecl file pd A).2 := by
  obtain ⟨cur, sc, hcur, hsc⟩ := hinv.scope
  rcases onEnterParamDecl_cases file pd hinv hcur with ⟨r, sym, -, -, h⟩ | ⟨sc1, T1, hd, h⟩
  · rw [h]
    have hb := BodyStep.of_error_note file hinv pd.getRange sym.Name
      ("redefinition of parameter " ++ text file pd.Name) "previous definition is here"
    refine ⟨hb.toStep, ?_⟩
    intro cur2 sc2 _ hsc2
    refine ⟨[], fun s hs => by simp at hs, ?_, fun he => Bool.noConfusion he⟩
    simp only [List.append_nil]
    rw [ScopeTree.set_get?_self hsc2]
    rfl
  · rw [h]
    refine ⟨⟨rfl, id, ⟨"", (String.append_empty _).symm, fun _ => rfl,
      fun h1 h2 => by rw [h1] at h2; cases h2⟩, hd.grows, hinv.declared hcur hd⟩, ?_⟩
    intro cur2 sc2 hcur2 hsc2
    rw [hcur] at hcur2
    simp only [Option.some.injEq] at hcur2
    subst hcur2
    have hsame : sc1 = sc2 := by
      have := hd.scope
      rw [hsc2] at this
      simp only [Option.some.injEq] at this
      exact this.symm
    subst hsame
    refine ⟨[A.GlobalScope.newSymbol .Param pd.Name], ?_, ?_, fun _ => rfl⟩
    · intro s hs
      rw [List.mem_singleton.1 hs]
      exact ⟨rfl, rfl⟩
    · rw [hd.store]
      simp

theorem ParamStep.consParams {file : File} {pd : ParamDecl} {rest : List ParamDecl}
    {A B C : AnalyzerVisitor} (h1 : ParamStep file [pd] A B) (h2 : ParamStep file rest B C) :
    ParamStep file (pd :: rest) A C := by
  refine ⟨h1.toStep.transStep h2.toStep, ?_⟩
  intro cur sc hcur hsc
  obtain ⟨ad1, k1, e1, f1⟩ := h1.locals cur sc hcur hsc
  have hlt := ScopeTree.get?_lt hsc
  have hB : B.GlobalScope.get? cur = some { sc with Symbols := sc.Symbols ++ ad1 } := by
    rw [e1, ScopeTree.get?_eq]
    exact List.getElem?_set_self hlt
  obtain ⟨ad2, k2, e2, f2⟩ := h2.locals cur _ (h1.scope.trans hcur) hB
  refine ⟨ad1 ++ ad2, ?_, ?_, ?_⟩
  · intro s hs
    rcases List.mem_append.1 hs with hs | hs
    · exact k1 s hs
    · exact k2 s hs
  · rw [e2, e1]
    simp only [List.set_set, List.append_assoc]
  · intro hc
    have hb : B.Error = false := by
      cases hB : B.Error with
      | false => rfl
      | true => rw [h2.error hB] at hc; cases hc
    rw [f1 hb, f2 hc]
    rfl

/-- The walk over the parameters of a function. -/
theorem params_step (file : File) (params : List ParamDecl) {A : AnalyzerVisitor}
    (hinv : Inv A) :
    ParamStep file params A
      (params.foldl (fun acc pd => walkParamDecl (visitor file) pd acc) A) := by
  induction params generalizing A with
  | nil => exact ParamStep.nilParams file hinv
  | cons pd rest ih =>
    rw [List.foldl_cons, walkParamDecl_eq]
    have h1 := onEnterParamDecl_step file pd hinv
    exact h1.consParams (ih h1.inv)

/-- The outcomes of the hook `onEnter` of a function. -/
theorem onEnterFunctionDecl_cases (file : File) (fn : FunctionDecl) {A : AnalyzerVisitor}
    (hinv : Inv A) {cur : ScopeId} (hcur : A.CurrentScope = some cur) :
    (∃ r sym, A.GlobalScope.lookup file cur fn.Name = some r ∧
        A.GlobalScope.symbol? r = some sym ∧
        onEnterFunctionDecl file fn A =
          (false, (A.error file fn.range
            ("redefinition of function " ++ text file fn.Name)).note file
              sym.Name "previous definition is here")) ∨
    (∃ sc T1, ScopeTree.Declared file A.GlobalScope cur .Function fn.Name sc T1 ∧
        onEnterFunctionDecl file fn A =
          (true, { A with GlobalScope := T1,
                          CurrentScope := some A.GlobalScope.scopes.length })) := by
  obtain ⟨cur2, sc, hcur2, hsc⟩ := hinv.scope
  rw [hcur] at hcur2
  simp only [Option.some.injEq] at hcur2
  subst hcur2
  unfold onEnterFunctionDecl
  rw [hcur]
  simp only
  rcases ScopeTree.declare_cases file A.GlobalScope cur .Function fn.Name with
    ⟨r, hl, h⟩ | ⟨-, h0, -⟩ | ⟨sc1, T1, h, hd⟩
  · obtain ⟨sym, hsym, -⟩ := ScopeTree.lookup_some hl
    rw [h]
    simp only
    rw [nameRange_eq hsym]
    exact Or.inl ⟨r, sym, hl, hsym, rfl⟩
  · rw [hsc] at h0
    exact Option.noConfusion h0
  · rw [h]
    simp only
    rw [hd.lookup_new.2]
    exact Or.inr ⟨sc1, T1, hd, rfl⟩

theorem error_ne_empty (s : String) : "error: " ++ s ≠ "" := by
  intro h
  have h1 := congrArg String.length h
  rw [String.length_append] at h1
  have h2 : "error: ".length = 7 := rfl
  have h3 : "".length = 0 := rfl
  rw [h2, h3] at h1
  omega

theorem returnDiagnostic_cases (file : File) (fn : FunctionDecl) :
    (fn.EndsWithReturn ∧ returnDiagnostic file fn = "") ∨
    (¬fn.EndsWithReturn ∧ ∃ rest, returnDiagnostic file fn = "error: " ++ rest) := by
  unfold returnDiagnostic FunctionDecl.EndsWithReturn
  cases h : fn.Body.Stmts.getLast? with
  | none =>
    refine Or.inr ⟨fun ⟨_, _, h1⟩ => Option.noConfusion h1, ?_⟩
    simp only [String.append_assoc]
    exact ⟨_, rfl⟩
  | some last =>
    cases last with
    | ReturnStmt v r => exact Or.inl ⟨⟨v, r, rfl⟩, rfl⟩
    | ExprStmt e =>
      refine Or.inr ⟨fun ⟨_, _, h1⟩ => ?_, ?_⟩
      · simp only [Option.some.injEq] at h1
        exact Stmt.noConfusion h1
      · simp only [String.append_assoc]
        exact ⟨_, rfl⟩

/-- What the hook `onExit` of a function does. -/
theorem onExitFunctionDecl_spec (file : File) (fn : FunctionDecl) {A : AnalyzerVisitor}
    {c : ScopeId} {scc : Scope} (hcur : A.CurrentScope = some c)
    (hsc : A.GlobalScope.get? c = some scc) :
    (onExitFunctionDecl file fn A).OS = A.OS ++ returnDiagnostic file fn ∧
    (onExitFunctionDecl file fn A).GlobalScope = A.GlobalScope ∧
    (onExitFunctionDecl file fn A).Undefined = A.Undefined ∧
    (onExitFunctionDecl file fn A).CurrentScope = scc.Parent ∧
    (onExitFunctionDecl file fn A).Error = (A.Error || decide (returnDiagnostic file fn ≠ "")) := by
  unfold onExitFunctionDecl returnDiagnostic
  cases h : fn.Body.Stmts.getLast? with
  | none =>
    simp only [error, hcur, hsc, String.append_assoc]
    refine ⟨trivial, trivial, trivial, trivial, ?_⟩
    simp [error_ne_empty]
  | some last =>
    cases last with
    | ReturnStmt v r =>
      simp only [hcur, hsc]
      refine ⟨(String.append_empty _).symm, trivial, trivial, trivial, ?_⟩
      simp
    | ExprStmt e =>
      simp only [error, hcur, hsc, String.append_assoc]
      refine ⟨trivial, trivial, trivial, trivial, ?_⟩
      simp [error_ne_empty]

end AnalyzerVisitor

namespace AnalyzerVisitor
open Walker

theorem Wrote.of_eq {A A1 : AnalyzerVisitor} (hos : A1.OS = A.OS) (he : A1.Error = A.Error) :
    Wrote A A1 :=
  ⟨"", by rw [hos, String.append_empty], fun _ => rfl,
    fun h1 h2 => by rw [he, h1] at h2; cases h2⟩

theorem Inv.init (os : String) : Inv (init os) := by
  refine ⟨rfl, ⟨0, ⟨none, none, []⟩, rfl, rfl⟩, ?_⟩
  intro id sc sym hg hm
  have hlt : id < 1 := ScopeTree.get?_lt hg
  have h0 : id = 0 := Nat.lt_one_iff.1 hlt
  subst h0
  have h1 : some (⟨none, none, []⟩ : Scope) = some sc := hg
  simp only [Option.some.injEq] at h1
  subst h1
  simp at hm

/-- The walk of a function: it is rejected as a redefinition, or it goes
through. -/
theorem walkFunctionDecl_cases (file : File) (fn : FunctionDecl) {A : AnalyzerVisitor}
    (hinv : Inv A) {cur : ScopeId} {sc : Scope} (hcur : A.CurrentScope = some cur)
    (hsc : A.GlobalScope.get? cur = some sc) :
    (∃ r sym, A.GlobalScope.lookup file cur fn.Name = some r ∧
        A.GlobalScope.symbol? r = some sym ∧
        (onEnterFunctionDecl file fn A).1 = false ∧
        walkFunctionDecl (visitor file) fn A =
          (A.error file fn.range ("redefinition of function " ++ text file fn.Name)).note file
            sym.Name "previous definition is here") ∨
    (∃ T1, FnWalk file fn A cur sc T1) := by
  rcases onEnterFunctionDecl_cases file fn hinv hcur with ⟨r, sym, h1, h2, h⟩ | ⟨sc1, T1, hd, h⟩
  · refine Or.inl ⟨r, sym, h1, h2, by rw [h], ?_⟩
    rw [walkFunctionDecl_eq, h]
    simp
  · have hsame : sc1 = sc := by
      have := hd.scope
      rw [hsc] at this
      simp only [Option.some.injEq] at this
      exact this.symm
    subst hsame
    refine Or.inr ⟨T1, ?_⟩
    have hinvIn : Inv (onEnterFunctionDecl file fn A).2 := by
      rw [h]
      exact ⟨hinv.defined, ⟨_, _, rfl, hd.child rfl⟩, hd.wf hinv.wf⟩
    have hp : ParamStep file fn.Params (onEnterFunctionDecl file fn A).2 (atBody file fn A) :=
      params_step file fn.Params hinvIn
    have hb := atStmt_step file fn.Body.Stmts hp.inv
    have hw : walkFunctionDecl (visitor file) fn A =
        onExitFunctionDecl file fn (atStmt file fn.Body.Stmts (atBody file fn A)) := by
      rw [walkFunctionDecl_eq, h]
      simp
    have hcurB : (atStmt file fn.Body.Stmts (atBody file fn A)).CurrentScope
        = some A.GlobalScope.scopes.length := by
      rw [hb.scope, hp.scope, h]
    obtain ⟨cb, scb, hcb, hscb⟩ := hb.inv.scope
    obtain ⟨x1, x2, -, -, x5⟩ := onExitFunctionDecl_spec file fn hcb hscb
    exact ⟨hd, h, hinvIn, hp, hb, hw, by rw [hw]; exact x1, by rw [hw]; exact x2,
      by rw [hw]; exact x5⟩

theorem FnWalk.scopeIn {file : File} {fn : FunctionDecl} {A : AnalyzerVisitor} {cur : ScopeId}
    {sc : Scope} {T1 : ScopeTree} (h : FnWalk file fn A cur sc T1) :
    (onEnterFunctionDecl file fn A).2.CurrentScope = some A.GlobalScope.scopes.length ∧
    (onEnterFunctionDecl file fn A).2.GlobalScope = T1 ∧
    (onEnterFunctionDecl file fn A).2.OS = A.OS ∧
    (onEnterFunctionDecl file fn A).2.Error = A.Error := by
  rw [h.entered]
  exact ⟨rfl, rfl, rfl, rfl⟩

/-- The scope of the function, at the end of its body: it is the scope the
declaration made, with the symbols that came since. -/
theorem FnWalk.child_at_end {file : File} {fn : FunctionDecl} {A : AnalyzerVisitor}
    {cur : ScopeId} {sc : Scope} {T1 : ScopeTree} (h : FnWalk file fn A cur sc T1) :
    (atStmt file fn.Body.Stmts (atBody file fn A)).CurrentScope
      = some A.GlobalScope.scopes.length ∧
    ∃ scc, (atStmt file fn.Body.Stmts (atBody file fn A)).GlobalScope.get?
        A.GlobalScope.scopes.length = some scc ∧ scc.Parent = some cur := by
  obtain ⟨s1, s2, -, -⟩ := h.scopeIn
  refine ⟨by rw [h.body.scope, h.params.scope, s1], ?_⟩
  have hg := h.params.grows.transGrows h.body.grows
  rw [s2] at hg
  obtain ⟨scc, a, b, -, -⟩ := hg.scopes _ _ (h.declared.child rfl)
  exact ⟨scc, a, b⟩

/-- The walk of a function that goes through is a stretch of the walk. -/
theorem FnWalk.step {file : File} {fn : FunctionDecl} {A : AnalyzerVisitor} {cur : ScopeId}
    {sc : Scope} {T1 : ScopeTree} (h : FnWalk file fn A cur sc T1)
    (hcur : A.CurrentScope = some cur) :
    Step file A (walkFunctionDecl (visitor file) fn A) := by
  obtain ⟨s1, s2, s3, s4⟩ := h.scopeIn
  obtain ⟨hcb, scc, hscc, hpar⟩ := h.child_at_end
  obtain ⟨-, -, x3, x4, -⟩ := onExitFunctionDecl_spec file fn hcb hscc
  have hstepPB := h.params.toStep.transStep h.body.toStep
  have hgrow : A.GlobalScope.Grows file
      (atStmt file fn.Body.Stmts (atBody file fn A)).GlobalScope := by
    have := hstepPB.grows
    rw [s2] at this
    exact h.declared.grows.transGrows this
  have herrB : A.Error = true → (atStmt file fn.Body.Stmts (atBody file fn A)).Error = true := by
    intro he
    exact hstepPB.error (by rw [s4]; exact he)
  have hwB : Wrote A (atStmt file fn.Body.Stmts (atBody file fn A)) :=
    (Wrote.of_eq s3 s4).transWrote hstepPB.wrote hstepPB.error
  have hwE : Wrote (atStmt file fn.Body.Stmts (atBody file fn A))
      (walkFunctionDecl (visitor file) fn A) := by
    refine ⟨returnDiagnostic file fn, h.os, ?_, ?_⟩
    · intro he
      rw [h.error] at he
      simp only [Bool.or_eq_false_iff, decide_eq_false_iff_not, not_not] at he
      exact he.2
    · intro hb he
      rcases returnDiagnostic_cases file fn with ⟨-, hd⟩ | ⟨-, hd⟩
      · rw [h.error, hb, hd] at he
        simp at he
      · exact hd
  have herrE : (atStmt file fn.Body.Stmts (atBody file fn A)).Error = true →
      (walkFunctionDecl (visitor file) fn A).Error = true := by
    intro he
    rw [h.error, he]
    rfl
  refine ⟨?_, fun he => herrE (herrB he), hwB.transWrote hwE herrE, ?_, ?_⟩
  · rw [h.walk, x4, hpar, hcur]
  · rw [h.store]; exact hgrow
  · obtain ⟨sc2, a, -, -, -⟩ := hgrow.scopes _ _ h.declared.scope
    refine ⟨?_, ⟨cur, sc2, by rw [h.walk, x4, hpar], by rw [h.store]; exact a⟩, ?_⟩
    · rw [h.walk, x3]; exact h.body.inv.defined
    · rw [h.store]; exact h.body.inv.wf

/-- The walk of a function is a stretch of the walk. -/
theorem walkFunctionDecl_step (file : File) (fn : FunctionDecl) {A : AnalyzerVisitor}
    (hinv : Inv A) : Step file A (walkFunctionDecl (visitor file) fn A) := by
  obtain ⟨cur, sc, hcur, hsc⟩ := hinv.scope
  rcases walkFunctionDecl_cases file fn hinv hcur hsc with ⟨r, sym, -, -, -, h⟩ | ⟨T1, h⟩
  · rw [h]
    exact (BodyStep.of_error_note file hinv _ _ _ _).toStep
  · exact h.step hcur

theorem functions_step (file : File) (fns : List FunctionDecl) {A : AnalyzerVisitor}
    (hinv : Inv A) :
    Step file A (fns.foldl (fun acc fn => walkFunctionDecl (visitor file) fn acc) A) := by
  induction fns generalizing A with
  | nil => exact Step.reflStep file hinv
  | cons fn rest ih =>
    have h1 := walkFunctionDecl_step file fn hinv
    exact h1.transStep (ih h1.inv)

theorem atFunction_step (file : File) (os : String) (front : List FunctionDecl) :
    Step file (init os) (atFunction file os front) :=
  functions_step file front (Inv.init os)

/-- `Analyze` dereferences no null pointer: it returns, and what it returns
is read off the state at the end of the walk. -/
theorem Analyze_total (file : File) (tu : TranslationUnit) (os : String) :
    Analyze file tu os =
      some ((atFunction file os tu.FNs).takeGlobalScope, (atFunction file os tu.FNs).OS) := by
  rw [Analyze_eq, (atFunction_step file os tu.FNs).inv.defined]
  rfl

theorem atFunction_split (file : File) (os : String) (front : List FunctionDecl)
    (fn : FunctionDecl) (back : List FunctionDecl) :
    Step file (walkFunctionDecl (visitor file) fn (atFunction file os front))
      (atFunction file os (front ++ fn :: back)) := by
  have h : atFunction file os (front ++ fn :: back) =
      back.foldl (fun acc fn => walkFunctionDecl (visitor file) fn acc)
        (walkFunctionDecl (visitor file) fn (atFunction file os front)) := by
    unfold atFunction
    rw [List.foldl_append, List.foldl_cons]
  rw [h]
  exact functions_step file back
    (walkFunctionDecl_step file fn (atFunction_step file os front).inv).inv

end AnalyzerVisitor

/-- C14. `Analyze` returns, and it returns none exactly when it wrote an
`error:` diagnostic: what it writes comes behind the text of the sink; it is
nothing at all when a scope is returned, and it begins with an `error:`
diagnostic when none is returned. -/
theorem Analyze_result (file : File) (tu : TranslationUnit) (os : String) :
    ∃ r out, Analyze file tu os = some (r, os ++ out) ∧
      (r = none ↔ ∃ rest, out = "error: " ++ rest) ∧ (r ≠ none → out = "") := by
  have hstep := AnalyzerVisitor.atFunction_step file os tu.FNs
  obtain ⟨out, h1, h2, h3⟩ := hstep.wrote
  refine ⟨(AnalyzerVisitor.atFunction file os tu.FNs).takeGlobalScope, out, ?_, ?_, ?_⟩
  · rw [AnalyzerVisitor.Analyze_total, h1]
    rfl
  · unfold AnalyzerVisitor.takeGlobalScope
    cases he : (AnalyzerVisitor.atFunction file os tu.FNs).Error with
    | true =>
      simp only [if_true, true_iff]
      exact h3 rfl he
    | false =>
      simp only [Bool.false_eq_true, if_false]
      refine ⟨fun h => Option.noConfusion h, ?_⟩
      rintro ⟨rest, hr⟩
      rw [h2 he] at hr
      exact absurd hr.symm (AnalyzerVisitor.error_ne_empty rest)
  · intro hr
    apply h2
    unfold AnalyzerVisitor.takeGlobalScope at hr
    cases he : (AnalyzerVisitor.atFunction file os tu.FNs).Error with
    | true => rw [he] at hr; simp at hr
    | false => rfl

namespace AnalyzerVisitor
open Walker

/-- A translation unit is accepted when the walk ends with no error. -/
theorem accepted {file : File} {tu : TranslationUnit} {os : String} {T : ScopeTree}
    {os1 : String} (h : Analyze file tu os = some (some T, os1)) :
    (atFunction file os tu.FNs).Error = false ∧ T = (atFunction file os tu.FNs).GlobalScope ∧
    os1 = (atFunction file os tu.FNs).OS := by
  rw [Analyze_total] at h
  simp only [Option.some.injEq, Prod.mk.injEq] at h
  obtain ⟨h1, h2⟩ := h
  unfold takeGlobalScope at h1
  cases he : (atFunction file os tu.FNs).Error with
  | true => rw [he] at h1; simp at h1
  | false =>
    rw [he] at h1
    simp only [Bool.false_eq_true, if_false, Option.some.injEq] at h1
    exact ⟨rfl, h1.symm, h2.symm⟩

theorem Step.error_false {file : File} {A A1 : AnalyzerVisitor} (h : Step file A A1)
    (he : A1.Error = false) : A.Error = false := by
  cases ha : A.Error with
  | false => rfl
  | true => rw [h.error ha] at he; cases he

/-- In an accepted translation unit the walk of every function goes through
and ends with no error. -/
theorem accepted_function {file : File} {os : String} {front back : List FunctionDecl}
    {fn : FunctionDecl} (he : (atFunction file os (front ++ fn :: back)).Error = false) :
    (atFunction file os front).CurrentScope = some 0 ∧
    ∃ sc T1, FnWalk file fn (atFunction file os front) 0 sc T1 ∧
      (walkFunctionDecl (visitor file) fn (atFunction file os front)).Error = false := by
  have h0 := atFunction_step file os front
  have hcur : (atFunction file os front).CurrentScope = some 0 := h0.scope
  obtain ⟨cur, sc, hc, hsc⟩ := h0.inv.scope
  rw [hcur] at hc
  simp only [Option.some.injEq] at hc
  subst hc
  have h1 := (atFunction_split file os front fn back).error_false he
  refine ⟨hcur, ?_⟩
  rcases walkFunctionDecl_cases file fn h0.inv hcur hsc with ⟨r, sym, -, -, -, h⟩ | ⟨T1, h⟩
  · rw [h] at h1
    cases h1
  · exact ⟨sc, T1, h, h1⟩

end AnalyzerVisitor

/-- C15. In every translation unit on which `Analyze` returns a scope, the
body of every function is not empty and its last statement is a
`ReturnStmt`. -/
theorem accepted_ends_with_return (file : File) (tu : TranslationUnit) (os : String)
    (T : ScopeTree) (os1 : String) (h : Analyze file tu os = some (some T, os1)) :
    ∀ fn ∈ tu.FNs, ∃ value range, fn.Body.Stmts.getLast? = some (.ReturnStmt value range) := by
  intro fn hfn
  obtain ⟨front, back, hsplit⟩ := List.append_of_mem hfn
  obtain ⟨he, -, -⟩ := AnalyzerVisitor.accepted h
  rw [hsplit] at he
  obtain ⟨-, sc, T1, hw, herr⟩ := AnalyzerVisitor.accepted_function he
  rw [hw.error] at herr
  simp only [Bool.or_eq_false_iff, decide_eq_false_iff_not, not_not] at herr
  rcases AnalyzerVisitor.returnDiagnostic_cases file fn with ⟨hr, -⟩ | ⟨-, rest, hd⟩
  · exact hr
  · rw [herr.2] at hd
    exact absurd hd.symm (AnalyzerVisitor.error_ne_empty rest)

/-- C15, on `function f() return 0 end`. -/
theorem accepted_ends_with_return_witness :
    ∃ value range,
      (⟨⟨9, 10⟩, [], ⟨[.ReturnStmt (.NumberExpr ⟨0⟩ ⟨20, 21⟩) ⟨13, 21⟩], ⟨13, 25⟩⟩,
        ⟨0, 25⟩⟩ : FunctionDecl).Body.Stmts.getLast? = some (.ReturnStmt value range) :=
  accepted_ends_with_return Examples.returnZero
    ⟨[⟨⟨9, 10⟩, [], ⟨[.ReturnStmt (.NumberExpr ⟨0⟩ ⟨20, 21⟩) ⟨13, 21⟩], ⟨13, 25⟩⟩, ⟨0, 25⟩⟩],
      ⟨0, 25⟩⟩ ""
    ⟨[⟨none, none, [⟨.Function, ⟨9, 10⟩, some 1⟩]⟩, ⟨some 0, some ⟨0, 0⟩, []⟩]⟩ "" (by decide)
    ⟨⟨9, 10⟩, [], ⟨[.ReturnStmt (.NumberExpr ⟨0⟩ ⟨20, 21⟩) ⟨13, 21⟩], ⟨13, 25⟩⟩, ⟨0, 25⟩⟩
    (List.mem_cons_self _ _)

/-- C16. The return-placement diagnostics. Let the walk of a translation unit
arrive at a function that is not rejected as a redefinition. On exit of the
function `Analyze` writes, behind what the parameters and the body have
written: `function N must end with a return statement` at the range of the
function if the body has no statement; `last statement of function N must be
a return statement` at the range of the last statement if that is no
`ReturnStmt`; nothing otherwise. The text stays in what `Analyze` has written
at the end, and in the first two cases `Analyze` returns none. On
`function f() 1 + 2 end` the diagnostic is at the `ExprStmt`, `[13, 18)`. -/
theorem return_placement :
    (∀ (file : File) (tu : TranslationUnit) (os : String) (front back : List FunctionDecl)
      (fn : FunctionDecl), tu.FNs = front ++ fn :: back →
      (AnalyzerVisitor.onEnterFunctionDecl file fn
        (AnalyzerVisitor.atFunction file os front)).1 = true →
      (Walker.walkFunctionDecl (AnalyzerVisitor.visitor file) fn
          (AnalyzerVisitor.atFunction file os front)).OS =
        (AnalyzerVisitor.atStmt file fn.Body.Stmts
          (AnalyzerVisitor.atBody file fn (AnalyzerVisitor.atFunction file os front))).OS
          ++ AnalyzerVisitor.returnDiagnostic file fn ∧
      ∃ r rest, Analyze file tu os =
        some (r, (AnalyzerVisitor.atStmt file fn.Body.Stmts
          (AnalyzerVisitor.atBody file fn (AnalyzerVisitor.atFunction file os front))).OS
          ++ AnalyzerVisitor.returnDiagnostic file fn ++ rest) ∧
        (¬fn.EndsWithReturn → r = none)) ∧
    (∃ tu P1, Parse Examples.X0 Examples.exprLast "" = .ok tu P1 ∧
      Analyze Examples.exprLast tu "" = some (none,
        "error: last statement of function f must be a return statement\n"
          ++ Examples.exprLast.print ⟨13, 18⟩ ++ "\n")) ∧
    (∃ tu P1, Parse Examples.X0 Examples.emptyBody "" = .ok tu P1 ∧
      Analyze Examples.emptyBody tu "" = some (none,
        "error: function f must end with a return statement\n"
          ++ Examples.emptyBody.print ⟨0, 16⟩ ++ "\n")) := by
  refine ⟨?_, ⟨_, _, rfl, by decide⟩, ⟨_, _, rfl, by decide⟩⟩
  intro file tu os front back fn hsplit henter
  have h0 := AnalyzerVisitor.atFunction_step file os front
  obtain ⟨cur, sc, hcur, hsc⟩ := h0.inv.scope
  rcases AnalyzerVisitor.walkFunctionDecl_cases file fn h0.inv hcur hsc with
    ⟨r, sym, -, -, hf, -⟩ | ⟨T1, hw⟩
  · rw [hf] at henter
    cases henter
  · refine ⟨hw.os, ?_⟩
    have hs := AnalyzerVisitor.atFunction_split file os front fn back
    obtain ⟨rest, hr, -, -⟩ := hs.wrote
    refine ⟨(AnalyzerVisitor.atFunction file os tu.FNs).takeGlobalScope, rest, ?_, ?_⟩
    · rw [AnalyzerVisitor.Analyze_total, hsplit, hr, hw.os]
    · intro hne
      have he : (Walker.walkFunctionDecl (AnalyzerVisitor.visitor file) fn
          (AnalyzerVisitor.atFunction file os front)).Error = true := by
        rw [hw.error]
        rcases AnalyzerVisitor.returnDiagnostic_cases file fn with ⟨hr, -⟩ | ⟨-, rest, hd⟩
        · exact absurd hr hne
        · rw [hd]
          simp [AnalyzerVisitor.error_ne_empty]
      have he2 := hs.error he
      rw [hsplit]
      unfold AnalyzerVisitor.takeGlobalScope
      rw [he2]
      rfl

/-- C16, on `function f() 1 + 2 end`: the function is entered, and its exit
writes the diagnostic at the range of `1 + 2`. -/
theorem return_placement_witness :
    (Walker.walkFunctionDecl (AnalyzerVisitor.visitor Examples.exprLast)
        ⟨⟨9, 10⟩, [], ⟨[.ExprStmt (.BinaryExpr .Add (.NumberExpr ⟨0⟩ ⟨13, 14⟩)
          (.NumberExpr ⟨0⟩ ⟨17, 18⟩) ⟨13, 18⟩)], ⟨13, 22⟩⟩, ⟨0, 22⟩⟩
        (AnalyzerVisitor.init "")).OS =
      "" ++ ("error: last statement of function f must be a return statement\n"
        ++ "expr.mua:1:14-19\nfunction f() 1 + 2 end\n             ^^^^^\n") :=
  (return_placement.1 Examples.exprLast
    ⟨[⟨⟨9, 10⟩, [], ⟨[.ExprStmt (.BinaryExpr .Add (.NumberExpr ⟨0⟩ ⟨13, 14⟩)
      (.NumberExpr ⟨0⟩ ⟨17, 18⟩) ⟨13, 18⟩)], ⟨13, 22⟩⟩, ⟨0, 22⟩⟩], ⟨0, 22⟩⟩ "" [] []
    ⟨⟨9, 10⟩, [], ⟨[.ExprStmt (.BinaryExpr .Add (.NumberExpr ⟨0⟩ ⟨13, 14⟩)
      (.NumberExpr ⟨0⟩ ⟨17, 18⟩) ⟨13, 18⟩)], ⟨13, 22⟩⟩, ⟨0, 22⟩⟩ rfl (by decide)).1.trans
    (by decide)

namespace ScopeTree

theorem get?_set_self {T : ScopeTree} {id : ScopeId} {sc : Scope} (X : Scope)
    (h : T.get? id = some sc) : (⟨T.scopes.set id X⟩ : ScopeTree).get? id = some X := by
  rw [get?_eq]
  exact List.getElem?_set_self (get?_lt h)

theorem get?_set_ne (T : ScopeTree) {id j : ScopeId} (X : Scope) (h : j ≠ id) :
    (⟨T.scopes.set id X⟩ : ScopeTree).get? j = T.get? j := by
  rw [get?_eq, get?_eq]
  exact List.getElem?_set_ne (fun e => h e.symm)

theorem newSymbol_function (T : ScopeTree) (name : Range) :
    T.newSymbol .Function name = ⟨.Function, name, some T.scopes.length⟩ := rfl

/-- The lookup of a name from the global scope is what `find` finds there. -/
theorem lookup_global {file : File} {T : ScopeTree} {sc0 : Scope} (h : T.get? 0 = some sc0)
    (hp : sc0.Parent = none) (name : Range) :
    lookup file T 0 name = (find file sc0 name).map (fun i => ⟨0, i⟩) := by
  rw [lookup_succ, h]
  simp only
  cases find file sc0 name with
  | some i => rfl
  | none => rw [hp, lookupFrom_none]; rfl

end ScopeTree

namespace AnalyzerVisitor
open Walker

/-- The store inside the body of a function the walk has gone into: the scope
`cur` has the symbol of the function behind its symbols, the scopes that were
there are as they were, and the scope of the function holds parameters, then
variables. -/
theorem FnWalk.store_inside {file : File} {fn : FunctionDecl} {A : AnalyzerVisitor}
    {cur : ScopeId} {sc : Scope} {T1 : ScopeTree} (h : FnWalk file fn A cur sc T1)
    {A1 : AnalyzerVisitor} (hb : BodyStep file (atBody file fn A) A1) :
    ∃ padded vadded : List Symbol,
      (∀ s ∈ padded, s.TheKind = .Param ∧ s.TheScope = none) ∧
      (∀ s ∈ vadded, s.TheKind = .Var ∧ s.TheScope = none) ∧
      ((atBody file fn A).Error = false → padded = fn.Params.map paramSymbol) ∧
      A1.GlobalScope.get? cur = some { sc with Symbols := sc.Symbols ++
        [⟨.Function, fn.Name, some A.GlobalScope.scopes.length⟩] } ∧
      (∀ j, j ≠ cur → j < A.GlobalScope.scopes.length →
        A1.GlobalScope.get? j = A.GlobalScope.get? j) ∧
      A1.GlobalScope.get? A.GlobalScope.scopes.length =
        some ⟨some cur, some ⟨cur, sc.Symbols.length⟩, padded ++ vadded⟩ ∧
      A1.CurrentScope = some A.GlobalScope.scopes.length := by
  obtain ⟨s1, s2, -, -⟩ := h.scopeIn
  have hchild : (onEnterFunctionDecl file fn A).2.GlobalScope.get? A.GlobalScope.scopes.length
      = some ⟨some cur, some ⟨cur, sc.Symbols.length⟩, []⟩ := by
    rw [s2]; exact h.declared.child rfl
  obtain ⟨padded, k1, e1, f1⟩ := h.params.locals _ _ s1 hchild
  have hcurP : (atBody file fn A).CurrentScope = some A.GlobalScope.scopes.length := by
    rw [h.params.scope, s1]
  have hP : (atBody file fn A).GlobalScope.get? A.GlobalScope.scopes.length =
      some ⟨some cur, some ⟨cur, sc.Symbols.length⟩, padded⟩ := by
    rw [e1, ScopeTree.get?_set_self _ hchild]
    simp
  obtain ⟨vadded, k2, e2⟩ := hb.locals _ _ hcurP hP
  have hlt := ScopeTree.get?_lt h.declared.scope
  have hne : cur ≠ A.GlobalScope.scopes.length := Nat.ne_of_lt hlt
  refine ⟨padded, vadded, k1, k2, f1, ?_, ?_, ?_, by rw [hb.scope, hcurP]⟩
  · rw [e2, ScopeTree.get?_set_ne _ _ hne, e1, ScopeTree.get?_set_ne _ _ hne, s2,
      h.declared.here]
    rfl
  · intro j hj hjl
    have hjn : j ≠ A.GlobalScope.scopes.length := Nat.ne_of_lt hjl
    rw [e2, ScopeTree.get?_set_ne _ _ hjn, e1, ScopeTree.get?_set_ne _ _ hjn, s2,
      h.declared.others j hj hjl]
  · rw [e2, ScopeTree.get?_set_self _ hP]

theorem TopInv.initTop (file : File) (os : String) :
    TopInv file [] (init os) ⟨none, none, []⟩ :=
  ⟨rfl, rfl, rfl, fun _ h => by simp at h,
    fun name i h => by simp [ScopeTree.find] at h,
    fun _ h => by simp at h, fun _ => List.Pairwise.nil⟩

theorem filter_param_append {padded vadded : List Symbol}
    (k1 : ∀ s ∈ padded, s.TheKind = .Param ∧ s.TheScope = none)
    (k2 : ∀ s ∈ vadded, s.TheKind = .Var ∧ s.TheScope = none) :
    (padded ++ vadded).filter (fun s => s.TheKind == .Param) = padded := by
  rw [List.filter_append]
  have h1 : padded.filter (fun s => s.TheKind == .Param) = padded := by
    rw [List.filter_eq_self]
    intro s hs
    rw [(k1 s hs).1]
    rfl
  have h2 : vadded.filter (fun s => s.TheKind == .Param) = [] := by
    rw [List.filter_eq_nil_iff]
    intro s hs
    rw [(k2 s hs).1]
    decide
  rw [h1, h2, List.append_nil]

/-- The walk of one more function keeps the state between two functions in
order. -/
theorem TopInv.nextTop {file : File} {front : List FunctionDecl} {A : AnalyzerVisitor}
    {sc0 : Scope} (h : TopInv file front A sc0) (hinv : Inv A) (fn : FunctionDecl) :
    ∃ sc1, TopInv file (front ++ [fn]) (walkFunctionDecl (visitor file) fn A) sc1 := by
  rcases walkFunctionDecl_cases file fn hinv h.scope h.global with
    ⟨r, sym, hl, -, -, hw⟩ | ⟨T1, hw⟩
  · refine ⟨sc0, ?_⟩
    rw [hw]
    refine ⟨h.scope, h.global, h.parent, ?_, ?_, ?_, fun he => Bool.noConfusion he⟩
    · intro s hs
      obtain ⟨g, hg, c, scc, a1, a2, a3, a4, a5, -⟩ := h.shape s hs
      exact ⟨g, List.mem_append_left _ hg, c, scc, a1, a2, a3, a4, a5,
        fun he => Bool.noConfusion he⟩
    · intro name i hf
      obtain ⟨p1, g0, p2, s, b1, b2, b3, b4, b5⟩ := h.first name i hf
      exact ⟨p1, g0, p2 ++ [fn], s, by rw [b1]; simp, b2, b3, b4, b5⟩
    · intro g hg
      rcases List.mem_append.1 hg with hg | hg
      · exact h.all g hg
      · rw [List.mem_singleton.1 hg]
        intro hn
        rw [ScopeTree.lookup_global h.global h.parent, hn] at hl
        exact Option.noConfusion hl
  · obtain ⟨padded, vadded, k1, k2, f1, g1, g2, g3, -⟩ := hw.store_inside hw.body
    have hstep := hw.step h.scope
    have hfresh : ScopeTree.find file sc0 fn.Name = none :=
      ScopeTree.lookup_none_find hw.declared.fresh h.global
    have hdiff : ∀ g ∈ front, file.slice g.Name ≠ file.slice fn.Name := by
      intro g hg heq
      apply h.all g hg
      rw [ScopeTree.find_congr sc0 heq]
      exact hfresh
    have hlen : 0 < A.GlobalScope.scopes.length := ScopeTree.get?_lt h.global
    refine ⟨{ sc0 with Symbols := sc0.Symbols ++
      [⟨.Function, fn.Name, some A.GlobalScope.scopes.length⟩] }, ?_⟩
    refine ⟨hstep.scope.trans h.scope, by rw [hw.store]; exact g1, h.parent, ?_, ?_, ?_, ?_⟩
    · intro s hs
      rcases List.mem_append.1 hs with hs | hs
      · obtain ⟨g, hg, c, scc, a1, a2, a3, a4, a5, a6⟩ := h.shape s hs
        refine ⟨g, List.mem_append_left _ hg, c, scc, a1, a2, ?_, a4, a5, ?_⟩
        · rw [hw.store, g2 c a2 (ScopeTree.get?_lt a3)]
          exact a3
        · intro he
          exact a6 (hstep.error_false he)
      · rw [List.mem_singleton.1 hs]
        refine ⟨fn, List.mem_append_right _ (List.mem_singleton.2 rfl),
          A.GlobalScope.scopes.length, _, rfl, Nat.ne_of_gt hlen,
          by rw [hw.store]; exact g3, rfl, ?_, ?_⟩
        · intro x hx
          rcases List.mem_append.1 hx with hx | hx
          · rw [(k1 x hx).1]; decide
          · rw [(k2 x hx).1]; decide
        · intro he
          have hb : (atStmt file fn.Body.Stmts (atBody file fn A)).Error = false := by
            rw [hw.error] at he
            simp only [Bool.or_eq_false_iff] at he
            exact he.1
          have hp := hw.body.toStep.error_false hb
          simp only
          rw [filter_param_append k1 k2]
          exact f1 hp
    · intro name i hf
      cases hold : ScopeTree.find file sc0 name with
      | some j =>
        have := ScopeTree.find_append_some
          [(⟨.Function, fn.Name, some A.GlobalScope.scopes.length⟩ : Symbol)] hold
        rw [this] at hf
        simp only [Option.some.injEq] at hf
        subst hf
        obtain ⟨p1, g0, p2, s, b1, b2, b3, b4, b5⟩ := h.first name j hold
        refine ⟨p1, g0, p2 ++ [fn], s, by rw [b1]; simp, b2, b3, ?_, b5⟩
        simp only
        rw [List.get?_eq_getElem?] at b4 ⊢
        have hj : j < sc0.Symbols.length := by
          by_contra hn
          rw [List.getElem?_eq_none (Nat.le_of_not_lt hn)] at b4
          exact Option.noConfusion b4
        rw [List.getElem?_append_left hj]
        exact b4
      | none =>
        by_cases hs : file.slice fn.Name = file.slice name
        · have := ScopeTree.find_append_new
            (⟨.Function, fn.Name, some A.GlobalScope.scopes.length⟩ : Symbol) hold hs
          rw [this] at hf
          simp only [Option.some.injEq] at hf
          subst hf
          refine ⟨front, fn, [], ⟨.Function, fn.Name, some A.GlobalScope.scopes.length⟩, rfl,
            ?_, hs, ?_, rfl⟩
          · intro g hg
            rw [← hs]
            exact hdiff g hg
          · simp
        · have := ScopeTree.find_append_none
            [(⟨.Function, fn.Name, some A.GlobalScope.scopes.length⟩ : Symbol)] hold
            (by
              intro s hs2
              rw [List.mem_singleton.1 hs2]
              exact hs)
          rw [this] at hf
          exact Option.noConfusion hf
    · intro g hg
      rcases List.mem_append.1 hg with hg | hg
      · cases hold : ScopeTree.find file sc0 g.Name with
        | some j =>
          rw [ScopeTree.find_append_some _ hold]
          exact Option.noConfusion
        | none => exact absurd hold (h.all g hg)
      · rw [List.mem_singleton.1 hg, ScopeTree.find_append_new _ hfresh rfl]
        exact Option.noConfusion
    · intro he
      rw [List.pairwise_append]
      refine ⟨h.distinct (hstep.error_false he), List.pairwise_singleton _ _, ?_⟩
      intro a ha b hb
      rw [List.mem_singleton.1 hb]
      exact hdiff a ha

/-- The state between two functions is in order. -/
theorem topInv (file : File) (os : String) (front : List FunctionDecl) :
    ∃ sc0, TopInv file front (atFunction file os front) sc0 := by
  induction front using List.reverseRecOn with
  | nil => exact ⟨_, TopInv.initTop file os⟩
  | append_singleton l fn ih =>
    obtain ⟨sc0, h⟩ := ih
    rw [atFunction_append]
    exact h.nextTop (atFunction_step file os l).inv fn

end AnalyzerVisitor

set_option maxRecDepth 4096

namespace AnalyzerVisitor
open Walker

/-- The first element of a list with a property is where it is. -/
theorem first_unique {α : Type} {P : α → Prop} :
    ∀ {p1 q1 : List α} {a b : α} {p2 q2 : List α}, p1 ++ a :: p2 = q1 ++ b :: q2 →
      (∀ x ∈ p1, ¬P x) → (∀ x ∈ q1, ¬P x) → P a → P b → p1 = q1 ∧ a = b := by
  intro p1
  induction p1 with
  | nil =>
    intro q1 a b p2 q2 h _ hq ha _
    cases q1 with
    | nil =>
      simp only [List.nil_append, List.cons.injEq] at h
      exact ⟨rfl, h.1⟩
    | cons y ys =>
      simp only [List.nil_append, List.cons_append, List.cons.injEq] at h
      exact absurd (h.1 ▸ ha) (hq y (List.mem_cons_self _ _))
  | cons x xs ih =>
    intro q1 a b p2 q2 h hp hq ha hb
    cases q1 with
    | nil =>
      simp only [List.nil_append, List.cons_append, List.cons.injEq] at h
      exact absurd (h.1 ▸ hb) (hp x (List.mem_cons_self _ _))
    | cons y ys =>
      simp only [List.cons_append, List.cons.injEq] at h
      obtain ⟨e1, e2⟩ := ih h.2 (fun z hz => hp z (List.mem_cons_of_mem _ hz))
        (fun z hz => hq z (List.mem_cons_of_mem _ hz)) ha hb
      exact ⟨by rw [h.1, e1], e2⟩

theorem error_note_eq (file : File) (A : AnalyzerVisitor) (r1 r2 : Range) (m1 m2 : String) :
    (A.error file r1 m1).note file r2 m2 =
      { A with
        OS := A.OS ++ ("error: " ++ m1 ++ "\n" ++ file.print r1 ++ "\n"
          ++ "note: " ++ m2 ++ "\n" ++ file.print r2 ++ "\n"),
        Error := true } := by
  simp only [error, note, String.append_assoc]

/-- The walk of a function whose name an earlier function has: it is rejected,
with a note at the name of the first function of that name. -/
theorem walkFunctionDecl_redefinition (file : File) (os : String)
    (front mid : List FunctionDecl) (g0 fn : FunctionDecl)
    (hfront : ∀ h ∈ front, file.slice h.Name ≠ file.slice fn.Name)
    (hg0 : file.slice g0.Name = file.slice fn.Name) :
    walkFunctionDecl (visitor file) fn (atFunction file os (front ++ g0 :: mid)) =
      ((atFunction file os (front ++ g0 :: mid)).error file fn.range
        ("redefinition of function " ++ text file fn.Name)).note file g0.Name
          "previous definition is here" := by
  obtain ⟨sc0, htop⟩ := topInv file os (front ++ g0 :: mid)
  have hinv := (atFunction_step file os (front ++ g0 :: mid)).inv
  have hall := htop.all g0 (List.mem_append_right _ (List.mem_cons_self _ _))
  rw [ScopeTree.find_congr sc0 hg0] at hall
  cases hf : ScopeTree.find file sc0 fn.Name with
  | none => exact absurd hf hall
  | some i =>
    obtain ⟨p1, g1, p2, sym, b1, b2, b3, b4, b5⟩ := htop.first fn.Name i hf
    obtain ⟨-, e2⟩ := first_unique (P := fun g => file.slice g.Name = file.slice fn.Name)
      b1 hfront b2 hg0 b3
    have hl : (atFunction file os (front ++ g0 :: mid)).GlobalScope.lookup file 0 fn.Name
        = some ⟨0, i⟩ := by
      rw [ScopeTree.lookup_global htop.global htop.parent, hf]
      rfl
    have hsym : (atFunction file os (front ++ g0 :: mid)).GlobalScope.symbol? ⟨0, i⟩
        = some sym := by
      unfold ScopeTree.symbol?
      simp only
      rw [htop.global]
      exact b4
    rcases walkFunctionDecl_cases file fn hinv htop.scope htop.global with
      ⟨r, s, hl2, hs2, -, hw⟩ | ⟨T1, hw⟩
    · rw [hl] at hl2
      simp only [Option.some.injEq] at hl2
      subst hl2
      rw [hsym] at hs2
      simp only [Option.some.injEq] at hs2
      subst hs2
      rw [hw, b5, e2]
    · have := hw.declared.fresh
      rw [hl] at this
      exact Option.noConfusion this

end AnalyzerVisitor

/-- C20. Function redefinition. If a function `fn` of a translation unit has
the name of an earlier function, and `g0` is the first function of that name,
then at `fn` the walk writes `redefinition of function N` at the range of
`fn` and the note `previous definition is here` at the name of `g0`, sets the
error flag, and leaves all else of the state as it was: the store and the
current scope are the same, so the parameters and the body of `fn` are not
visited, and no symbol comes from it; `Analyze` returns none, and the two
diagnostics are in what it has written. Hence the functions of an accepted
translation unit have names that differ from one another. On
`function f() return 0 end function f() return 1 end` the error is at
`[26, 51)` and the note at `[9, 10)`. -/
theorem function_redefinition :
    (∀ (file : File) (tu : TranslationUnit) (os : String)
      (front mid back : List FunctionDecl) (g0 fn : FunctionDecl),
      tu.FNs = front ++ g0 :: (mid ++ fn :: back) →
      (∀ h ∈ front, file.slice h.Name ≠ file.slice fn.Name) →
      file.slice g0.Name = file.slice fn.Name →
      Walker.walkFunctionDecl (AnalyzerVisitor.visitor file) fn
          (AnalyzerVisitor.atFunction file os (front ++ g0 :: mid)) =
        { AnalyzerVisitor.atFunction file os (front ++ g0 :: mid) with
          OS := (AnalyzerVisitor.atFunction file os (front ++ g0 :: mid)).OS ++
            ("error: " ++ ("redefinition of function " ++ AnalyzerVisitor.text file fn.Name)
              ++ "\n" ++ file.print fn.range ++ "\n"
              ++ "note: " ++ "previous definition is here" ++ "\n"
              ++ file.print g0.Name ++ "\n"),
          Error := true } ∧
      ∃ rest, Analyze file tu os = some (none,
        (AnalyzerVisitor.atFunction file os (front ++ g0 :: mid)).OS ++
          ("error: " ++ ("redefinition of function " ++ AnalyzerVisitor.text file fn.Name)
            ++ "\n" ++ file.print fn.range ++ "\n"
            ++ "note: " ++ "previous definition is here" ++ "\n"
            ++ file.print g0.Name ++ "\n") ++ rest)) ∧
    (∀ (file : File) (tu : TranslationUnit) (os : String) (T : ScopeTree) (os1 : String),
      Analyze file tu os = some (some T, os1) →
      tu.FNs.Pairwise (fun a b => file.slice a.Name ≠ file.slice b.Name)) ∧
    (∃ tu, Examples.parsed Examples.twice = some tu ∧
      Analyze Examples.twice tu "" = some (none,
        "error: redefinition of function f\n" ++ Examples.twice.print ⟨26, 51⟩ ++ "\n"
          ++ "note: previous definition is here\n" ++ Examples.twice.print ⟨9, 10⟩ ++ "\n")) := by
  refine ⟨?_, ?_, ⟨_, rfl, by decide⟩⟩
  · intro file tu os front mid back g0 fn hsplit hfront hg0
    have hw := AnalyzerVisitor.walkFunctionDecl_redefinition file os front mid g0 fn hfront hg0
    rw [AnalyzerVisitor.error_note_eq] at hw
    refine ⟨hw, ?_⟩
    have hsp : tu.FNs = (front ++ g0 :: mid) ++ fn :: back := by
      rw [hsplit]; simp
    have hs := AnalyzerVisitor.atFunction_split file os (front ++ g0 :: mid) fn back
    obtain ⟨rest, hr, -, -⟩ := hs.wrote
    have he := hs.error (by rw [hw])
    refine ⟨rest, ?_⟩
    rw [AnalyzerVisitor.Analyze_total, hsp, hr, hw]
    unfold AnalyzerVisitor.takeGlobalScope
    rw [he]
    rfl
  · intro file tu os T os1 h
    obtain ⟨he, -, -⟩ := AnalyzerVisitor.accepted h
    obtain ⟨sc0, htop⟩ := AnalyzerVisitor.topInv file os tu.FNs
    exact htop.distinct he

/-- C20, on `function f() return 0 end function f() return 1 end`: the walk of
the second function from the state after the first. -/
theorem function_redefinition_witness :
    Walker.walkFunctionDecl (AnalyzerVisitor.visitor Examples.twice)
        ⟨⟨35, 36⟩, [], ⟨[.ReturnStmt (.NumberExpr ⟨0⟩ ⟨46, 47⟩) ⟨39, 47⟩], ⟨39, 51⟩⟩, ⟨26, 51⟩⟩
        (AnalyzerVisitor.atFunction Examples.twice "" ([] ++
          (⟨⟨9, 10⟩, [], ⟨[.ReturnStmt (.NumberExpr ⟨0⟩ ⟨20, 21⟩) ⟨13, 21⟩], ⟨13, 25⟩⟩,
            ⟨0, 25⟩⟩ : FunctionDecl) :: [])) =
      ⟨"error: redefinition of function f\ntwice.mua:1:27-52\n"
        ++ "function f() return 0 end function f() return 1 end\n"
        ++ "                          ^^^^^^^^^^^^^^^^^^^^^^^^^\n"
        ++ "note: previous definition is here\ntwice.mua:1:10-11\n"
        ++ "function f() return 0 end function f() return 1 end\n         ^\n",
        ⟨[⟨none, none, [⟨.Function, ⟨9, 10⟩, some 1⟩]⟩, ⟨some 0, some ⟨0, 0⟩, []⟩]⟩,
        some 0, true, false⟩ :=
  (function_redefinition.1 Examples.twice
    ⟨[⟨⟨9, 10⟩, [], ⟨[.ReturnStmt (.NumberExpr ⟨0⟩ ⟨20, 21⟩) ⟨13, 21⟩], ⟨13, 25⟩⟩, ⟨0, 25⟩⟩,
      ⟨⟨35, 36⟩, [], ⟨[.ReturnStmt (.NumberExpr ⟨0⟩ ⟨46, 47⟩) ⟨39, 47⟩], ⟨39, 51⟩⟩, ⟨26, 51⟩⟩],
      ⟨0, 51⟩⟩ "" [] [] []
    ⟨⟨9, 10⟩, [], ⟨[.ReturnStmt (.NumberExpr ⟨0⟩ ⟨20, 21⟩) ⟨13, 21⟩], ⟨13, 25⟩⟩, ⟨0, 25⟩⟩
    ⟨⟨35, 36⟩, [], ⟨[.ReturnStmt (.NumberExpr ⟨0⟩ ⟨46, 47⟩) ⟨39, 47⟩], ⟨39, 51⟩⟩, ⟨26, 51⟩⟩
    rfl (by simp) (by decide)).1.trans (by decide)

namespace AnalyzerVisitor
open Walker

/-- A hook that returns `false` has set the error flag. -/
theorem enter_false_error (file : File) (e : Expr) {A : AnalyzerVisitor} (hinv : Inv A)
    (h : (enter file e A).1 = false) : (enter file e A).2.Error = true := by
  cases e with
  | NumberExpr v r => exact Bool.noConfusion h
  | IdentifierExpr name =>
    obtain ⟨cur, sc, hcur, -⟩ := hinv.scope
    rw [enter_identifier file name hcur] at h
    exact Bool.noConfusion h
  | CallExpr callee args range =>
    obtain ⟨cur, -, hc⟩ := enter_call file callee args range hinv
    rcases hc with ⟨-, hc⟩ | ⟨ref, sym, -, -, -, hc⟩ | ⟨ref, sym, scope, -, -, -, -, -, hc⟩ |
      ⟨ref, sym, scope, -, -, -, -, -, hc⟩
    · rw [hc]; rfl
    · rw [hc]; rfl
    · rw [hc]; rfl
    · rw [hc] at h; exact Bool.noConfusion h
  | BinaryExpr op lhs rhs range =>
    rcases enter_binary file op lhs rhs range A with ⟨-, -, hc⟩ | ⟨-, hc⟩
    · rw [hc]; rfl
    · rw [hc] at h; exact Bool.noConfusion h

/-- The walk of an expression, from its hook on. -/
theorem walkExpr_after_enter (file : File) (e : Expr) {A : AnalyzerVisitor} (hinv : Inv A) :
    BodyStep file (enter file e A).2 (walkExpr (visitor file) e A) := by
  have h1 := enter_step file e hinv
  cases e with
  | NumberExpr v r => rw [walkExpr_number]; exact BodyStep.reflBody file hinv
  | IdentifierExpr name => rw [walkExpr_identifier]; exact BodyStep.reflBody file h1.inv
  | CallExpr callee args range =>
    rw [walkExpr_call]
    split
    · exact (walkExpr_step file).2 _ _ h1.inv
    · exact BodyStep.reflBody file h1.inv
  | BinaryExpr op lhs rhs range =>
    rw [walkExpr_binary]
    split
    · have h2 := (walkExpr_step file).1 lhs _ h1.inv
      exact h2.transBody ((walkExpr_step file).1 rhs _ h2.inv)
    · exact BodyStep.reflBody file h1.inv

/-- Where the walk of `e` calls the hook of `e1`: the state is a stretch of the
walk inside the body away from the start, and the end of the walk of `e` is
one away from the state after the hook. -/
theorem EntersExpr.steps {file : File} {e e1 : Expr} {A A1 : AnalyzerVisitor}
    (h : EntersExpr file e A e1 A1) (hinv : Inv A) :
    BodyStep file A A1 ∧ BodyStep file (enter file e1 A1).2 (walkExpr (visitor file) e A) := by
  induction h with
  | here e A => exact ⟨BodyStep.reflBody file hinv, walkExpr_after_enter file e hinv⟩
  | @arg callee args range A front a back e1 A1 hargs henter h ih =>
    subst hargs
    have h1 := enter_step file (.CallExpr callee (front ++ a :: back) range) hinv
    have h2 := (walkExpr_step file).2 front _ h1.inv
    obtain ⟨i1, i2⟩ := ih h2.inv
    refine ⟨(h1.transBody h2).transBody i1, ?_⟩
    rw [walkExpr_call, if_pos henter, walkExprs_append, walkExprs_cons]
    exact i2.transBody ((walkExpr_step file).2 back _ i2.inv)
  | @lhs op l r range A e1 A1 henter h ih =>
    have h1 := enter_step file (.BinaryExpr op l r range) hinv
    obtain ⟨i1, i2⟩ := ih h1.inv
    refine ⟨h1.transBody i1, ?_⟩
    rw [walkExpr_binary, if_pos henter]
    exact i2.transBody ((walkExpr_step file).1 r _ i2.inv)
  | @rhs op l r range A e1 A1 henter h ih =>
    have h1 := enter_step file (.BinaryExpr op l r range) hinv
    have h2 := (walkExpr_step file).1 l _ h1.inv
    obtain ⟨i1, i2⟩ := ih h2.inv
    refine ⟨(h1.transBody h2).transBody i1, ?_⟩
    rw [walkExpr_binary, if_pos henter]
    exact i2

/-- A walk that ends with no error has called the hook of every expression
on its way. -/
theorem EntersExpr.complete {file : File} {e e1 : Expr} (hsub : Expr.Sub e1 e) :
    ∀ {A : AnalyzerVisitor}, Inv A → (walkExpr (visitor file) e A).Error = false →
      ∃ A1, EntersExpr file e A e1 A1 := by
  induction hsub with
  | here => intro A _ _; exact ⟨A, EntersExpr.here _ A⟩
  | @arg callee args range a ha h ih =>
    intro A hinv he
    have h1 := enter_step file (.CallExpr callee args range) hinv
    have henter : (enter file (.CallExpr callee args range) A).1 = true := by
      cases hb : (enter file (.CallExpr callee args range) A).1 with
      | true => rfl
      | false =>
        have := enter_false_error file _ hinv hb
        rw [walkExpr_call, hb] at he
        simp only [Bool.false_eq_true, if_false] at he
        rw [this] at he
        cases he
    obtain ⟨front, back, hargs⟩ := List.append_of_mem ha
    subst hargs
    rw [walkExpr_call, if_pos henter, walkExprs_append, walkExprs_cons] at he
    have h2 := (walkExpr_step file).2 front _ h1.inv
    have h3 := (walkExpr_step file).1 a _ h2.inv
    have h4 := (walkExpr_step file).2 back _ h3.inv
    obtain ⟨A1, hA1⟩ := ih h2.inv (h4.toStep.error_false he)
    exact ⟨A1, EntersExpr.arg rfl henter hA1⟩
  | @lhs op l r range h ih =>
    intro A hinv he
    have h1 := enter_step file (.BinaryExpr op l r range) hinv
    have henter : (enter file (.BinaryExpr op l r range) A).1 = true := by
      cases hb : (enter file (.BinaryExpr op l r range) A).1 with
      | true => rfl
      | false =>
        have := enter_false_error file _ hinv hb
        rw [walkExpr_binary, hb] at he
        simp only [Bool.false_eq_true, if_false] at he
        rw [this] at he
        cases he
    rw [walkExpr_binary, if_pos henter] at he
    have h2 := (walkExpr_step file).1 l _ h1.inv
    have h3 := (walkExpr_step file).1 r _ h2.inv
    obtain ⟨A1, hA1⟩ := ih h1.inv (h3.toStep.error_false he)
    exact ⟨A1, EntersExpr.lhs henter hA1⟩
  | @rhs op l r range h ih =>
    intro A hinv he
    have h1 := enter_step file (.BinaryExpr op l r range) hinv
    have henter : (enter file (.BinaryExpr op l r range) A).1 = true := by
      cases hb : (enter file (.BinaryExpr op l r range) A).1 with
      | true => rfl
      | false =>
        have := enter_false_error file _ hinv hb
        rw [walkExpr_binary, hb] at he
        simp only [Bool.false_eq_true, if_false] at he
        rw [this] at he
        cases he
    rw [walkExpr_binary, if_pos henter] at he
    have h2 := (walkExpr_step file).1 l _ h1.inv
    obtain ⟨A1, hA1⟩ := ih h2.inv he
    exact ⟨A1, EntersExpr.rhs henter hA1⟩

theorem Step.later {file : File} {A A1 : AnalyzerVisitor} (h : Step file A A1) :
    Later file A A1 := ⟨h.error, h.wrote, h.grows⟩

theorem Later.transLater {file : File} {A B C : AnalyzerVisitor} (h1 : Later file A B)
    (h2 : Later file B C) : Later file A C :=
  ⟨fun h => h2.error (h1.error h), h1.wrote.transWrote h2.wrote h2.error,
    h1.grows.transGrows h2.grows⟩

theorem Later.clean_before {file : File} {A A1 : AnalyzerVisitor} (h : Later file A A1)
    (he : A1.Error = false) : A.Error = false := by
  cases ha : A.Error with
  | false => rfl
  | true => rw [h.error ha] at he; cases he

/-- The end of the walk of a function comes later than the end of its body. -/
theorem FnWalk.exit_later {file : File} {fn : FunctionDecl} {A : AnalyzerVisitor}
    {cur : ScopeId} {sc : Scope} {T1 : ScopeTree} (h : FnWalk file fn A cur sc T1) :
    Later file (atStmt file fn.Body.Stmts (atBody file fn A))
      (walkFunctionDecl (visitor file) fn A) := by
  refine ⟨?_, ⟨returnDiagnostic file fn, h.os, ?_, ?_⟩, ?_⟩
  · intro he
    rw [h.error, he]
    rfl
  · intro he
    rw [h.error] at he
    simp only [Bool.or_eq_false_iff, decide_eq_false_iff_not, not_not] at he
    exact he.2
  · intro hb he
    rcases returnDiagnostic_cases file fn with ⟨-, hd⟩ | ⟨-, hd⟩
    · rw [h.error, hb, hd] at he
      simp at he
    · exact hd
  · rw [h.store]
    exact ScopeTree.Grows.reflGrows file _

theorem atStmt_split (file : File) (sfront : List Stmt) (st : Stmt) (sback : List Stmt)
    (A : AnalyzerVisitor) :
    atStmt file (sfront ++ st :: sback) A =
      atStmt file sback (walkExpr (visitor file) st.expr (atStmt file sfront A)) := by
  unfold atStmt
  rw [List.foldl_append, List.foldl_cons, walkStmt_eq]

/-- What holds where `Analyze` calls the hook of an expression of a function:
the walk has gone into the function from the global scope, the state is a
stretch of the walk inside the body away from the start of the body, and the
end of the analysis comes later than the state after the hook. -/
theorem Enters.facts {file : File} {tu : TranslationUnit} {os : String} {fn : FunctionDecl}
    {e : Expr} {A1 : AnalyzerVisitor} (h : Enters file tu os fn e A1) :
    ∃ front back sc0 T1, tu.FNs = front ++ fn :: back ∧
      TopInv file front (atFunction file os front) sc0 ∧
      FnWalk file fn (atFunction file os front) 0 sc0 T1 ∧
      BodyStep file (atBody file fn (atFunction file os front)) A1 ∧
      Later file (enter file e A1).2 (atFunction file os tu.FNs) := by
  obtain ⟨front, back, sfront, st, sback, h1, h2, h3, h4⟩ := h
  obtain ⟨sc0, htop⟩ := topInv file os front
  have h0 := atFunction_step file os front
  rcases walkFunctionDecl_cases file fn h0.inv htop.scope htop.global with
    ⟨r, sym, -, -, hf, -⟩ | ⟨T1, hw⟩
  · rw [hf] at h3
    cases h3
  · refine ⟨front, back, sc0, T1, h1, htop, hw, ?_, ?_⟩
    · have hs := atStmt_step file sfront hw.params.inv
      exact hs.transBody (h4.steps hs.inv).1
    · have hs := atStmt_step file sfront hw.params.inv
      obtain ⟨-, k2⟩ := h4.steps hs.inv
      have k3 := atStmt_step file sback k2.inv
      have k4 : Later file (enter file e A1).2
          (atStmt file fn.Body.Stmts (atBody file fn (atFunction file os front))) := by
        rw [h2, atStmt_split]
        exact (k2.transBody k3).toStep.later
      have k5 := (atFunction_split file os front fn back).later
      rw [h1]
      exact (k4.transLater hw.exit_later).transLater k5

/-- In an accepted translation unit `Analyze` calls the hook of every
expression of every function. -/
theorem accepted_enters {file : File} {tu : TranslationUnit} {os : String}
    (he : (atFunction file os tu.FNs).Error = false) {fn : FunctionDecl} (hfn : fn ∈ tu.FNs)
    {e : Expr} (hc : fn.Contains e) : ∃ A1, Enters file tu os fn e A1 := by
  obtain ⟨front, back, hsplit⟩ := List.append_of_mem hfn
  obtain ⟨st, hst, hsub⟩ := hc
  obtain ⟨sfront, sback, hss⟩ := List.append_of_mem hst
  rw [hsplit] at he
  obtain ⟨-, sc, T1, hw, herr⟩ := accepted_function he
  have hb : (atStmt file fn.Body.Stmts (atBody file fn (atFunction file os front))).Error
      = false := hw.exit_later.clean_before herr
  rw [hss, atStmt_split] at hb
  have hs := atStmt_step file sfront hw.params.inv
  have h3 := (walkExpr_step file).1 st.expr _ hs.inv
  have h4 := atStmt_step file sback h3.inv
  obtain ⟨A1, hA1⟩ := EntersExpr.complete hsub hs.inv (h4.toStep.error_false hb)
  refine ⟨A1, front, back, sfront, st, sback, hsplit, hss, ?_, hA1⟩
  rw [hw.entered]

end AnalyzerVisitor

namespace AnalyzerVisitor
open Walker

theorem error_OS_text (file : File) (A : AnalyzerVisitor) (range : Range) (message : String) :
    (A.error file range message).OS = A.OS ++ errorText file range message := by
  simp only [error, errorText, String.append_assoc]

theorem error_note_OS_text (file : File) (A : AnalyzerVisitor) (r1 r2 : Range)
    (m1 m2 : String) :
    ((A.error file r1 m1).note file r2 m2).OS =
      A.OS ++ (errorText file r1 m1 ++ noteText file r2 m2) := by
  simp only [error, note, errorText, noteText, String.append_assoc]

/-- A state with an error, than which the end of the analysis comes later:
`Analyze` returns none, and what the state has written is in front of what
`Analyze` has written. -/
theorem Later.analyze_none {file : File} {tu : TranslationUnit} {os : String}
    {B : AnalyzerVisitor} (h : Later file B (atFunction file os tu.FNs))
    (he : B.Error = true) : ∃ rest, Analyze file tu os = some (none, B.OS ++ rest) := by
  obtain ⟨rest, hr, -, -⟩ := h.wrote
  refine ⟨rest, ?_⟩
  rw [Analyze_total, hr]
  unfold takeGlobalScope
  rw [h.error he]
  rfl

/-- Where `Analyze` calls the hook of an expression of the function `fn`, the
current scope is the scope of `fn`. -/
theorem Enters.scope {file : File} {tu : TranslationUnit} {os : String} {fn : FunctionDecl}
    {e : Expr} {A1 : AnalyzerVisitor} (h : Enters file tu os fn e A1) :
    Inv A1 ∧ ∃ c, A1.CurrentScope = some c ∧ A1.GlobalScope.IsScopeOf fn c := by
  obtain ⟨front, back, sc0, T1, -, -, hw, hb, -⟩ := h.facts
  obtain ⟨padded, vadded, -, -, -, g1, -, -, g4⟩ := hw.store_inside hb
  refine ⟨hb.inv, _, g4, _, g1, ?_⟩
  simp

end AnalyzerVisitor

namespace ScopeTree

theorem insertSorted_length (x : SymbolRef × Symbol) (l : List (SymbolRef × Symbol)) :
    (insertSorted x l).length = l.length + 1 := by
  induction l with
  | nil => rfl
  | cons y ys ih =>
    unfold insertSorted
    split
    · rfl
    · rw [List.length_cons, ih, List.length_cons]

theorem sortSymbols_length (l : List (SymbolRef × Symbol)) :
    (sortSymbols l).length = l.length := by
  unfold sortSymbols
  induction l with
  | nil => rfl
  | cons x xs ih => rw [List.foldr_cons, insertSorted_length, ih, List.length_cons]

theorem filter_zip_length (q : Symbol → Bool) :
    ∀ (is : List Nat) (l : List Symbol), is.length = l.length →
      ((is.zip l).filter (fun p => q p.2)).length = (l.filter q).length := by
  intro is l
  induction l generalizing is with
  | nil => intro _; simp
  | cons x xs ih =>
    intro h
    cases is with
    | nil => simp at h
    | cons i is =>
      simp only [List.length_cons, Nat.add_right_cancel_iff] at h
      rw [List.zip_cons_cons, List.filter_cons, List.filter_cons]
      simp only
      split
      · rw [List.length_cons, List.length_cons, ih is h]
      · exact ih is h

/-- `getSymbols` on a kind returns as many symbols as the scope has of that
kind. -/
theorem getSymbols_length {T : ScopeTree} {id : ScopeId} {sc : Scope} (h : T.get? id = some sc)
    (kind : SymbolKind) :
    (T.getSymbols id (some kind)).length =
      (sc.Symbols.filter (fun s => s.TheKind == kind)).length := by
  unfold getSymbols
  rw [h]
  simp only [List.length_map, sortSymbols_length]
  have := filter_zip_length (fun s => s.TheKind == kind) (List.range sc.Symbols.length)
    sc.Symbols (List.length_range _)
  rw [← this]
  congr 1

/-- A lookup from a scope under the global scope finds its symbol in that
scope or in the global scope. -/
theorem lookup_two_level {file : File} {T : ScopeTree} {c : ScopeId} {scc sc0 : Scope}
    (hc : T.get? c = some scc) (hp : scc.Parent = some 0) (h0 : T.get? 0 = some sc0)
    (hp0 : sc0.Parent = none) {name : Range} {r : SymbolRef} {sym : Symbol} (hl : lookup file T c name = some r)
    (hs : T.symbol? r = some sym) :
    sym ∈ scc.Symbols ∨ sym ∈ sc0.Symbols := by
  rw [lookup_succ, hc] at hl
  simp only at hl
  cases hf : find file scc name with
  | some i =>
    rw [hf] at hl
    simp only [Option.some.injEq] at hl
    subst hl
    unfold symbol? at hs
    simp only at hs
    rw [hc] at hs
    exact Or.inl (List.get?_mem hs)
  | none =>
    rw [hf, hp] at hl
    simp only at hl
    have hlen : T.scopes.length = (T.scopes.length - 1) + 1 :=
      (Nat.sub_add_cancel (get?_lt h0)).symm
    rw [hlen, lookupFrom_succ, h0] at hl
    simp only at hl
    cases hf0 : find file sc0 name with
    | some i =>
      rw [hf0] at hl
      simp only [Option.some.injEq] at hl
      subst hl
      unfold symbol? at hs
      simp only at hs
      rw [h0] at hs
      exact Or.inr (List.get?_mem hs)
    | none =>
      rw [hf0, hp0, lookupFrom_none] at hl
      exact Option.noConfusion hl

end ScopeTree

namespace AnalyzerVisitor
open Walker

/-- Where `Analyze` calls the hook of an expression, with no error so far, a
`Function` symbol that a name resolves to is the symbol of a function of the
unit, the function around the expression or one in front of it, and the scope
of the symbol holds one `Param` symbol for each parameter of that function. -/
theorem Enters.function_symbol {file : File} {tu : TranslationUnit} {os : String}
    {fn : FunctionDecl} {e : Expr} {A1 : AnalyzerVisitor} (h : Enters file tu os fn e A1)
    (he : A1.Error = false) {c : ScopeId} (hcur : A1.CurrentScope = some c) {name : Range}
    {ref : SymbolRef} {sym : Symbol} (hl : A1.GlobalScope.lookup file c name = some ref)
    (hs : A1.GlobalScope.symbol? ref = some sym) (hk : sym.TheKind = .Function) :
    ∃ g ∈ tu.FNs, ∃ scope, sym = ⟨.Function, g.Name, some scope⟩ ∧
      (A1.GlobalScope.getSymbols scope (some .Param)).length = g.Params.length := by
  obtain ⟨front, back, sc0, T1, hsplit, htop, hw, hb, -⟩ := h.facts
  obtain ⟨padded, vadded, k1, k2, f1, g1, g2, g3, g4⟩ := hw.store_inside hb
  rw [hcur] at g4
  simp only [Option.some.injEq] at g4
  subst g4
  have hP := hb.toStep.error_false he
  have h0 : (atFunction file os front).Error = false := by
    have := hw.params.toStep.error_false hP
    rw [hw.scopeIn.2.2.2] at this
    exact this
  rcases ScopeTree.lookup_two_level g3 rfl g1 htop.parent hl hs with hm | hm
  · simp only at hm
    rcases List.mem_append.1 hm with hm | hm
    · rw [(k1 sym hm).1] at hk; cases hk
    · rw [(k2 sym hm).1] at hk; cases hk
  · simp only at hm
    rcases List.mem_append.1 hm with hm | hm
    · obtain ⟨g, hg, cg, scg, a1, a2, a3, -, -, a6⟩ := htop.shape sym hm
      refine ⟨g, by rw [hsplit]; exact List.mem_append_left _ hg, cg, a1, ?_⟩
      have hget : A1.GlobalScope.get? cg = some scg := by
        rw [g2 cg a2 (ScopeTree.get?_lt a3)]
        exact a3
      rw [ScopeTree.getSymbols_length hget, a6 h0, List.length_map]
    · rw [List.mem_singleton.1 hm]
      refine ⟨fn, by rw [hsplit]; exact List.mem_append_right _ (List.mem_cons_self _ _),
        _, rfl, ?_⟩
      rw [ScopeTree.getSymbols_length g3]
      simp only
      rw [filter_param_append k1 k2, f1 hP, List.length_map]

end AnalyzerVisitor

/-- C18 (what the code does on a call to a function with a rejected
parameter). In `function f(x, x) return x end function g() return f(1) end`
the function `f` has two parameters and the call `f(1)` of `g` has one
argument; `Analyze` returns none, and all it writes is the redefinition of the
parameter `x` with its note: there is no diagnostic for the number of
arguments. -/
theorem arity_error_masked :
    ∃ tu f g, Examples.parsed Examples.maskedArity = some tu ∧ tu.FNs = [f, g] ∧
      f.Params.length = 2 ∧
      g.Contains (.CallExpr ⟨50, 51⟩ [.NumberExpr ⟨0⟩ ⟨52, 53⟩] ⟨50, 54⟩) ∧
      Examples.maskedArity.slice ⟨50, 51⟩ = Examples.maskedArity.slice f.Name ∧
      Analyze Examples.maskedArity tu "" = some (none,
        AnalyzerVisitor.errorText Examples.maskedArity ⟨14, 15⟩ "redefinition of parameter x"
        ++ AnalyzerVisitor.noteText Examples.maskedArity ⟨11, 12⟩
          "previous definition is here") :=
  ⟨_, _, _, rfl, rfl, rfl, ⟨_, List.mem_cons_self _ _, Expr.Sub.here _⟩, by decide, by decide⟩

/-- C18. The arity check. In every translation unit on which `Analyze`
returns a scope, every `CallExpr` has as many arguments as parameters has
every function of the unit with the name of the callee, and there is such a
function. Where the walk calls the hook of a `CallExpr` whose callee resolves
to a `Function` symbol, that symbol is the symbol of a function `g` of the
unit; if the number of arguments is not the number of `Param` symbols in the
scope of the symbol, `Analyze` writes
`call to function N with incorrect number of arguments` at the range of the
call and returns none; with no error before the call that number is the
number of parameters of `g`. -/
theorem arity_check :
    (∀ (file : File) (tu : TranslationUnit) (os : String) (T : ScopeTree) (os1 : String),
      Analyze file tu os = some (some T, os1) →
      ∀ fn ∈ tu.FNs, ∀ callee args range, fn.Contains (.CallExpr callee args range) →
        (∃ g ∈ tu.FNs, file.slice g.Name = file.slice callee) ∧
        ∀ g ∈ tu.FNs, file.slice g.Name = file.slice callee → args.length = g.Params.length) ∧
    (∀ (file : File) (tu : TranslationUnit) (os : String) (fn : FunctionDecl)
      (callee : Range) (args : List Expr) (range : Range) (A : AnalyzerVisitor),
      AnalyzerVisitor.Enters file tu os fn (.CallExpr callee args range) A →
      ∀ c ref sym scope, A.CurrentScope = some c →
        A.GlobalScope.lookup file c callee = some ref →
        A.GlobalScope.symbol? ref = some sym → sym.TheKind = .Function →
        sym.TheScope = some scope →
        (args.length ≠ (A.GlobalScope.getSymbols scope (some .Param)).length →
          ∃ rest, Analyze file tu os = some (none, A.OS ++
            AnalyzerVisitor.errorText file range
              ("call to function " ++ AnalyzerVisitor.text file callee
                ++ " with incorrect number of arguments") ++ rest)) ∧
        (A.Error = false → ∃ g ∈ tu.FNs, sym.Name = g.Name ∧
          (A.GlobalScope.getSymbols scope (some .Param)).length = g.Params.length)) ∧
    (∃ tu, Examples.parsed Examples.arity = some tu ∧
      Analyze Examples.arity tu "" = some (none,
        AnalyzerVisitor.errorText Examples.arity ⟨47, 50⟩
          "call to function f with incorrect number of arguments")) ∧
    (∃ tu T, Examples.parsed Examples.recursive = some tu ∧
      Analyze Examples.recursive tu "" = some (some T, "")) := by
  refine ⟨?_, ?_, ⟨_, rfl, by decide⟩,
    ⟨_, ⟨[⟨none, none, [⟨.Function, ⟨9, 10⟩, some 1⟩]⟩,
      ⟨some 0, some ⟨0, 0⟩, [⟨.Param, ⟨11, 12⟩, none⟩]⟩]⟩, rfl, by decide⟩⟩
  · intro file tu os T os1 h fn hfn callee args range hc
    obtain ⟨he, hT, -⟩ := AnalyzerVisitor.accepted h
    obtain ⟨A1, hA1⟩ := AnalyzerVisitor.accepted_enters he hfn hc
    obtain ⟨hinv, c, hcur, hsc⟩ := hA1.scope
    obtain ⟨front, back, sc0, T1, -, -, hw, hb, hl⟩ := hA1.facts
    have hclean := hl.clean_before he
    obtain ⟨cur, hcur2, hcases⟩ := AnalyzerVisitor.enter_call file callee args range hinv
    rw [hcur] at hcur2
    simp only [Option.some.injEq] at hcur2
    subst hcur2
    rcases hcases with ⟨-, hx⟩ | ⟨ref, sym, -, -, -, hx⟩ | ⟨ref, sym, scope, -, -, -, -, -, hx⟩ |
      ⟨ref, sym, scope, h1, h2, h3, h4, h5, hx⟩
    · rw [hx] at hclean; cases hclean
    · rw [hx] at hclean; cases hclean
    · rw [hx] at hclean; cases hclean
    · rw [hx] at hclean
      obtain ⟨g, hg, scope2, e1, e2⟩ := hA1.function_symbol hclean hcur h1 h2 h3
      have hscope : scope2 = scope := by
        rw [e1] at h4
        simp only [Option.some.injEq] at h4
        exact h4
      subst hscope
      have hgname : file.slice g.Name = file.slice callee := by
        have : sym.Name = g.Name := by rw [e1]
        rw [← this]
        obtain ⟨s3, hs3, hn3⟩ := ScopeTree.lookup_some h1
        rw [h2] at hs3
        simp only [Option.some.injEq] at hs3
        rw [hs3]
        exact hn3
      refine ⟨⟨g, hg, hgname⟩, ?_⟩
      intro g2 hg2 hname2
      obtain ⟨sc1, htop⟩ := AnalyzerVisitor.topInv file os tu.FNs
      have hd := htop.distinct he
      by_cases heq : g2 = g
      · rw [heq, h5, e2]
      · have hsym : Symmetric (fun a b : FunctionDecl =>
            file.slice a.Name ≠ file.slice b.Name) := fun a b hab hba => hab hba.symm
        exact absurd (hname2.trans hgname.symm) (hd.forall hsym hg2 hg heq)
  · intro file tu os fn callee args range A hA c ref sym scope hcur hlook hsym hk hscope
    obtain ⟨hinv, c2, hcur2, -⟩ := hA.scope
    obtain ⟨front, back, sc0, T1, -, -, hw, hb, hl⟩ := hA.facts
    refine ⟨?_, ?_⟩
    · intro hne
      obtain ⟨cur, hcur3, hcases⟩ := AnalyzerVisitor.enter_call file callee args range hinv
      rw [hcur] at hcur3
      simp only [Option.some.injEq] at hcur3
      subst hcur3
      rcases hcases with ⟨h1, -⟩ | ⟨ref2, sym2, h1, h2, h3, -⟩ |
        ⟨ref2, sym2, scope2, h1, h2, h3, h4, h5, hx⟩ | ⟨ref2, sym2, scope2, h1, h2, h3, h4, h5, -⟩
      · rw [hlook] at h1; exact Option.noConfusion h1
      · rw [hlook] at h1
        simp only [Option.some.injEq] at h1
        subst h1
        rw [hsym] at h2
        simp only [Option.some.injEq] at h2
        subst h2
        exact absurd hk h3
      · rw [hx] at hl
        obtain ⟨rest, hr⟩ := hl.analyze_none rfl
        exact ⟨rest, by rw [hr, AnalyzerVisitor.error_OS_text]⟩
      · rw [hlook] at h1
        simp only [Option.some.injEq] at h1
        subst h1
        rw [hsym] at h2
        simp only [Option.some.injEq] at h2
        subst h2
        rw [hscope] at h4
        simp only [Option.some.injEq] at h4
        subst h4
        exact absurd h5 hne
    · intro he
      obtain ⟨g, hg, scope2, e1, e2⟩ := hA.function_symbol he hcur hlook hsym hk
      have hscope2 : scope2 = scope := by
        rw [e1] at hscope
        simp only [Option.some.injEq] at hscope
        exact hscope
      subst hscope2
      exact ⟨g, hg, by rw [e1], e2⟩

/-- C18, on `function f(x) return x end function g(y) return f(y) end`: the
call `f(y)` of `g` has one argument, as many as a function named `f` has
parameters. -/
theorem arity_check_witness :
    Examples.twoCalls.slice ⟨9, 10⟩ = Examples.twoCalls.slice ⟨48, 49⟩ ∧
    [Expr.IdentifierExpr ⟨50, 51⟩].length =
      (⟨⟨9, 10⟩, [⟨⟨11, 12⟩⟩], ⟨[.ReturnStmt (.IdentifierExpr ⟨21, 22⟩) ⟨14, 22⟩],
        ⟨14, 26⟩⟩, ⟨0, 26⟩⟩ : FunctionDecl).Params.length :=
  ⟨by decide, (arity_check.1 Examples.twoCalls
    ⟨[⟨⟨9, 10⟩, [⟨⟨11, 12⟩⟩], ⟨[.ReturnStmt (.IdentifierExpr ⟨21, 22⟩) ⟨14, 22⟩],
        ⟨14, 26⟩⟩, ⟨0, 26⟩⟩,
      ⟨⟨36, 37⟩, [⟨⟨38, 39⟩⟩], ⟨[.ReturnStmt (.CallExpr ⟨48, 49⟩ [.IdentifierExpr ⟨50, 51⟩]
        ⟨48, 52⟩) ⟨41, 52⟩], ⟨41, 56⟩⟩, ⟨27, 56⟩⟩], ⟨0, 56⟩⟩ ""
    ⟨[⟨none, none, [⟨.Function, ⟨9, 10⟩, some 1⟩, ⟨.Function, ⟨36, 37⟩, some 2⟩]⟩,
      ⟨some 0, some ⟨0, 0⟩, [⟨.Param, ⟨11, 12⟩, none⟩]⟩,
      ⟨some 0, some ⟨0, 1⟩, [⟨.Param, ⟨38, 39⟩, none⟩]⟩]⟩ "" (by decide)
    ⟨⟨36, 37⟩, [⟨⟨38, 39⟩⟩], ⟨[.ReturnStmt (.CallExpr ⟨48, 49⟩ [.IdentifierExpr ⟨50, 51⟩]
      ⟨48, 52⟩) ⟨41, 52⟩], ⟨41, 56⟩⟩, ⟨27, 56⟩⟩
    (List.mem_cons_of_mem _ (List.mem_cons_self _ _))
    ⟨48, 49⟩ [.IdentifierExpr ⟨50, 51⟩] ⟨48, 52⟩
    ⟨_, List.mem_cons_self _ _, Expr.Sub.here _⟩).2
    ⟨⟨9, 10⟩, [⟨⟨11, 12⟩⟩], ⟨[.ReturnStmt (.IdentifierExpr ⟨21, 22⟩) ⟨14, 22⟩],
      ⟨14, 26⟩⟩, ⟨0, 26⟩⟩ (List.mem_cons_self _ _) (by decide)⟩

/-! ## The parser builds its nodes in the order of the source -/

theorem Result.Post.andPost {α : Type} {okP okQ : α → Parser → Prop} {r : Result α}
    (h1 : Result.Post okP r) (h2 : Result.Post okQ r) :
    Result.Post (fun a P => okP a P ∧ okQ a P) r := by
  cases h1 with
  | ok h =>
    cases h2 with
    | ok h3 => exact .ok ⟨h, h3⟩
  | null P => exact .null P
  | outOfFuel => exact .outOfFuel

theorem Expr.ArgsOrdered_iff (args : List Expr) :
    Expr.ArgsOrdered args ↔
      (∀ a ∈ args, a.Ordered) ∧
        args.Pairwise (fun a b => a.getRange.End ≤ b.getRange.Begin) := by
  induction args with
  | nil => simp [Expr.ArgsOrdered]
  | cons a rest ih =>
    simp only [Expr.ArgsOrdered, ih, List.mem_cons, forall_eq_or_imp, List.pairwise_cons]
    constructor
    · rintro ⟨h1, h2, h3, h4⟩
      exact ⟨⟨h1, h3⟩, h2, h4⟩
    · rintro ⟨⟨h1, h3⟩, h2, h4⟩
      exact ⟨h1, h2, h3, h4⟩

theorem Expr.ArgsOrdered_snoc {args : List Expr} {arg : Expr} (h : Expr.ArgsOrdered args)
    (harg : arg.Ordered) (hlt : ∀ a ∈ args, a.getRange.End ≤ arg.getRange.Begin) :
    Expr.ArgsOrdered (args ++ [arg]) := by
  rw [Expr.ArgsOrdered_iff] at h ⊢
  refine ⟨?_, ?_⟩
  · intro a ha
    rcases List.mem_append.1 ha with ha | ha
    · exact h.1 a ha
    · rw [List.mem_singleton.1 ha]; exact harg
  · rw [List.pairwise_append]
    refine ⟨h.2, List.pairwise_singleton _ _, ?_⟩
    intro a ha b hb
    rw [List.mem_singleton.1 hb]
    exact hlt a ha

namespace Parser

theorem expr_ordered (X : Extern) (fuel : Nat) :
    (∀ ctx P, P.TheLexer.WF →
      Result.Post (fun e _ => e.Ordered) (parsePrimaryExpr X fuel ctx P)) ∧
    (∀ P, P.TheLexer.WF →
      Result.Post (fun e _ => e.Ordered) (parseIdentifierOrCallExpr X fuel P)) ∧
    (∀ args P lo, P.TheLexer.WF → lo ≤ P.TheLexer.Range.Begin →
      (∀ a ∈ args, a.Fits P.TheLexer.File.size lo P.TheLexer.Range.Begin) →
      Expr.ArgsOrdered args →
      Result.Post (fun as _ => Expr.ArgsOrdered as) (parseArgs X fuel args P)) ∧
    (∀ minPrec ctx P, P.TheLexer.WF →
      Result.Post (fun e _ => e.Ordered) (parseBinaryExpr X fuel minPrec ctx P)) ∧
    (∀ minPrec lhs P lo, P.TheLexer.WF →
      lhs.Fits P.TheLexer.File.size lo P.TheLexer.Range.Begin → lhs.Ordered →
      Result.Post (fun e _ => e.Ordered) (parseBinaryExprLoop X fuel minPrec lhs P)) := by
  induction fuel with
  | zero =>
    refine ⟨?_, ?_, ?_, ?_, ?_⟩ <;> intros <;> exact .outOfFuel
  | succ n ih =>
    obtain ⟨ihPrim, ihId, ihArgs, ihBin, ihLoop⟩ := ih
    obtain ⟨rgPrim, rgId, rgArgs, rgBin, rgLoop⟩ := expr_ranges X n
    refine ⟨?_, ?_, ?_, ?_, ?_⟩
    · intro ctx P hwf
      rw [parsePrimaryExpr]
      split
      · unfold parseNumberExpr
        simp only
        split
        · exact .null _
        · exact .ok trivial
      · exact ihId P hwf
      all_goals exact .null _
    · intro P hwf
      rw [parseIdentifierOrCallExpr]
      simp only
      obtain ⟨hA1, hE1⟩ := After.afterConsume hwf .Identifier
      obtain ⟨hA2, hE2⟩ := After.afterConsume hA1.wf .LParen
      refine Result.Post.itePost (fun _ => .ok trivial) (fun _ => ?_)
      refine Result.Post.bindPost
        (ihArgs [] _ _ hA2.wf (Nat.le_refl _) (by simp) trivial) ?_
      intro args P3 h3
      exact Result.Post.itePost (fun _ => .null _) (fun _ => .ok h3)
    · intro args P lo hwf hlo hargs hord
      rw [parseArgs]
      refine Result.Post.itePost (fun _ => ?_) (fun _ => .ok hord)
      refine Result.Post.bindPost ((rgBin 0 _ P hwf).andPost (ihBin 0 _ P hwf)) ?_
      intro arg P1 h1
      obtain ⟨⟨hA1, hfit⟩, hao⟩ := h1
      have hnew : Expr.ArgsOrdered (args ++ [arg]) := by
        refine Expr.ArgsOrdered_snoc hord hao ?_
        intro a ha
        exact (hargs a ha).2.2.trans hfit.2.1
      have hall : ∀ a ∈ args ++ [arg],
          a.Fits P.TheLexer.File.size lo P1.TheLexer.Range.Begin := by
        intro a ha
        rcases List.mem_append.1 ha with ha | ha
        · exact (hargs a ha).monoFits (Nat.le_refl _) hA1.begin_le
        · rw [List.mem_singleton.1 ha]
          exact hfit.monoFits hlo (Nat.le_refl _)
      refine Result.Post.itePost (fun _ => .ok hnew) (fun _ => ?_)
      obtain ⟨hA2, hE2⟩ := After.afterConsume hA1.wf .Comma
      have hall2 : ∀ a ∈ args ++ [arg], a.Fits (P1.consume .Comma).TheLexer.File.size lo
          (P1.consume .Comma).TheLexer.Range.Begin := by
        intro a ha
        rw [hA2.file, hA1.file]
        exact (hall a ha).monoFits (Nat.le_refl _) hA2.begin_le
      have hlo2 : lo ≤ (P1.consume .Comma).TheLexer.Range.Begin :=
        hlo.trans (hA1.begin_le.trans hA2.begin_le)
      exact ihArgs _ _ lo hA2.wf hlo2 hall2 hnew
    · intro minPrec ctx P hwf
      rw [parseBinaryExpr]
      refine Result.Post.bindPost ((rgPrim ctx P hwf).andPost (ihPrim ctx P hwf)) ?_
      intro lhs P1 h1
      obtain ⟨⟨hA1, hfit⟩, hlo⟩ := h1
      have hfit1 : lhs.Fits P1.TheLexer.File.size P.TheLexer.Range.Begin
          P1.TheLexer.Range.Begin := by rw [hA1.file]; exact hfit
      exact ihLoop minPrec lhs P1 _ hA1.wf hfit1 hlo
    · intro minPrec lhs P lo hwf hfit hord
      rw [parseBinaryExprLoop]
      simp only
      split
      · exact .ok hord
      · rename_i op hop
        refine Result.Post.itePost (fun _ => .ok hord) (fun _ => ?_)
        obtain ⟨hA1, hE1⟩ := After.afterConsume hwf P.getCurrent
        refine Result.Post.bindPost ((rgBin _ _ _ hA1.wf).andPost (ihBin _ _ _ hA1.wf)) ?_
        intro rhs P2 h2
        obtain ⟨⟨hA2, hfitr⟩, hro⟩ := h2
        rw [hA1.file] at hfitr
        have hbl := hA1.begin_le
        have hnew : (Expr.BinaryExpr op lhs rhs
            ⟨lhs.getRange.Begin, rhs.getRange.End⟩).Fits P2.TheLexer.File.size lo
            P2.TheLexer.Range.Begin := by
          rw [hA2.file, hA1.file]
          obtain ⟨l1, l2, l3⟩ := hfit
          obtain ⟨r1, r2, r3⟩ := hfitr
          have hlv : lhs.getRange.Begin ≤ lhs.getRange.End := by
            cases lhs <;> simp only [Expr.RangesOK, Range.Valid, Expr.getRange] at l1 ⊢ <;>
              omega
          have hrv : rhs.getRange.Begin ≤ rhs.getRange.End ∧
              rhs.getRange.End ≤ P.TheLexer.File.size := by
            cases rhs <;> simp only [Expr.RangesOK, Range.Valid, Expr.getRange] at r1 ⊢ <;>
              omega
          obtain ⟨w1, w2, w3⟩ := hwf
          refine ⟨?_, l2, r3⟩
          simp only [Expr.RangesOK, Range.Valid, Range.Within]
          refine ⟨?_, l1, r1, ?_, ?_⟩ <;> omega
        have hnewo : (Expr.BinaryExpr op lhs rhs
            ⟨lhs.getRange.Begin, rhs.getRange.End⟩).Ordered := by
          simp only [Expr.Ordered]
          exact ⟨hord, hro, hfit.2.2.trans (hbl.trans hfitr.2.1)⟩
        exact ihLoop minPrec _ P2 lo hA2.wf hnew hnewo

theorem parseStmt_ordered (X : Extern) (fuel : Nat) (ctx : String) (P : Parser)
    (h : P.TheLexer.WF) :
    Result.Post (fun st _ => st.expr.Ordered) (parseStmt X fuel ctx P) := by
  have hE : Result.Post (fun st _ => st.expr.Ordered) (parseExprStmt X fuel ctx P) := by
    unfold parseExprStmt
    refine Result.Post.bindPost ((expr_ordered X fuel).2.2.2.1 0 ctx P h) ?_
    intro e P1 h1
    exact .ok h1
  unfold parseStmt
  split
  · unfold parseReturnStmt
    simp only
    obtain ⟨hA1, hE1⟩ := After.afterConsume h .Return
    refine Result.Post.bindPost ((expr_ordered X fuel).2.2.2.1 0 _ _ hA1.wf) ?_
    intro e P2 h2
    exact .ok h2
  all_goals exact hE

theorem parseStmts_ordered (X : Extern) (fuel : Nat) :
    ∀ ctx stmts P, P.TheLexer.WF →
      (∀ st ∈ stmts, st.getRange.End ≤ P.TheLexer.Range.Begin) →
      (∀ st ∈ stmts, st.expr.Ordered) →
      stmts.Pairwise (fun a b => a.getRange.End ≤ b.getRange.Begin) →
      Result.Post (fun sts _ => (∀ st ∈ sts, st.expr.Ordered) ∧
        sts.Pairwise (fun a b => a.getRange.End ≤ b.getRange.Begin))
        (parseStmts X fuel ctx stmts P) := by
  induction fuel with
  | zero => intros; exact .outOfFuel
  | succ n ih =>
    intro ctx stmts P hwf hall hord hpw
    rw [parseStmts]
    refine Result.Post.itePost (fun _ => ?_) (fun _ => .ok ⟨hord, hpw⟩)
    refine Result.Post.bindPost
      ((parseStmt_ranges X n ctx P hwf).andPost (parseStmt_ordered X n ctx P hwf)) ?_
    intro st P1 h1
    obtain ⟨⟨hA1, hok, hb, he⟩, hso⟩ := h1
    refine ih ctx _ P1 hA1.wf ?_ ?_ ?_
    · intro s hs
      rcases List.mem_append.1 hs with hs | hs
      · exact (hall s hs).trans hA1.begin_le
      · rw [List.mem_singleton.1 hs]; exact he
    · intro s hs
      rcases List.mem_append.1 hs with hs | hs
      · exact hord s hs
      · rw [List.mem_singleton.1 hs]; exact hso
    · rw [List.pairwise_append]
      refine ⟨hpw, List.pairwise_singleton _ _, ?_⟩
      intro a ha b hb2
      rw [List.mem_singleton.1 hb2]
      exact (hall a ha).trans hb

theorem parseCompoundStmt_ordered (X : Extern) (fuel : Nat) (ctx : String) (P : Parser)
    (h : P.TheLexer.WF) :
    Result.Post (fun cs _ => cs.Ordered) (parseCompoundStmt X fuel ctx P) := by
  unfold parseCompoundStmt
  simp only
  refine Result.Post.bindPost
    (parseStmts_ordered X fuel ctx [] P h (by simp) (by simp) List.Pairwise.nil) ?_
  intro sts P1 h1
  exact .ok h1

theorem parseFunctionDecl_ordered (X : Extern) (fuel : Nat) (ctx : String) (P : Parser)
    (h : P.TheLexer.WF) :
    Result.Post (fun fn _ => fn.Ordered) (parseFunctionDecl X fuel ctx P) := by
  unfold parseFunctionDecl
  simp only
  obtain ⟨hA1, hE1⟩ := After.afterConsume h .Function
  obtain ⟨hA2, hE2⟩ := After.afterConsume hA1.wf .Identifier
  obtain ⟨hA3, hE3⟩ := After.afterConsume hA2.wf .LParen
  refine Result.Post.itePost (fun _ => .null _) (fun _ => ?_)
  refine Result.Post.itePost (fun _ => .null _) (fun _ => ?_)
  refine Result.Post.itePost (fun _ => .null _) (fun _ => ?_)
  refine Result.Post.bindPost (parseParams_ranges X fuel [] _
    (((P.consume .Function).consume .Identifier).consume .LParen).TheLexer.Range.Begin
    hA3.wf (Nat.le_refl _) (by simp)) ?_
  intro params P4 h4
  obtain ⟨hA4, hparams⟩ := h4
  refine Result.Post.itePost (fun _ => .null _) (fun _ => ?_)
  obtain ⟨hA5, hE5⟩ := After.afterConsume hA4.wf .RParen
  refine Result.Post.bindPost ((parseCompoundStmt_ranges X fuel _ _ hA5.wf).andPost
    (parseCompoundStmt_ordered X fuel _ _ hA5.wf)) ?_
  intro body P6 h6
  obtain ⟨⟨hA6, hbody, hbb, hbe⟩, hbo⟩ := h6
  have hb2 := hA2.begin_le
  have hb3 := hA3.begin_le
  have hb4 := hA4.begin_le
  have hb5 := hA5.begin_le
  refine .ok ⟨?_, ?_, hbo⟩
  · simp only [getRange_eq]
    rw [hbb]
    omega
  · intro pd hpd
    obtain ⟨a, b, c⟩ := hparams pd hpd
    simp only [ParamDecl.getRange, Range.Valid] at a c
    simp only
    rw [hbb]
    omega

theorem parseFunctions_ordered (X : Extern) (fuel : Nat) :
    ∀ fns P, P.TheLexer.WF →
      (∀ fn ∈ fns, fn.range.End ≤ P.TheLexer.Range.Begin) →
      (∀ fn ∈ fns, fn.Ordered) →
      fns.Pairwise (fun a b => a.range.End ≤ b.range.Begin) →
      Result.Post (fun fs _ => (∀ fn ∈ fs, fn.Ordered) ∧
        fs.Pairwise (fun a b => a.range.End ≤ b.range.Begin))
        (parseFunctions X fuel fns P) := by
  induction fuel with
  | zero => intros; exact .outOfFuel
  | succ n ih =>
    intro fns P hwf hall hord hpw
    rw [parseFunctions]
    refine Result.Post.itePost (fun _ => ?_) (fun _ => .ok ⟨hord, hpw⟩)
    refine Result.Post.bindPost ((parseFunctionDecl_ranges X n _ P hwf).andPost
      (parseFunctionDecl_ordered X n _ P hwf)) ?_
    intro fn P1 h1
    obtain ⟨⟨hA1, hok, hb, he⟩, hfo⟩ := h1
    refine ih _ P1 hA1.wf ?_ ?_ ?_
    · intro f hf
      rcases List.mem_append.1 hf with hf | hf
      · exact (hall f hf).trans hA1.begin_le
      · rw [List.mem_singleton.1 hf]; exact he
    · intro f hf
      rcases List.mem_append.1 hf with hf | hf
      · exact hord f hf
      · rw [List.mem_singleton.1 hf]; exact hfo
    · rw [List.pairwise_append]
      refine ⟨hpw, List.pairwise_singleton _ _, ?_⟩
      intro a ha b hb2
      rw [List.mem_singleton.1 hb2]
      exact (hall a ha).trans hb

theorem parseTranslationUnit_ordered (X : Extern) (fuel : Nat) (P : Parser)
    (h : P.TheLexer.WF) :
    Result.Post (fun tu _ => tu.Ordered) (parseTranslationUnit X fuel P) := by
  unfold parseTranslationUnit
  simp only
  rw [prime_eq]
  obtain ⟨hA0, hE0⟩ := After.afterConsume h .EndOfFile
  refine Result.Post.bindPost
    (parseFunctions_ordered X fuel [] _ hA0.wf (by simp) (by simp) List.Pairwise.nil) ?_
  intro fns P1 h1
  exact .ok h1

end Parser

/-- The translation unit `Parse` returns has its ranges in order, and its
functions, parameters, statements, operands and arguments stand in the order
of the source. -/
theorem Parse_ordered {X : Extern} {file : File} {os : String} {tu : TranslationUnit}
    {P1 : Parser} (h : Parse X file os = .ok tu P1) : tu.RangesOK file.size ∧ tu.Ordered :=
  ⟨(Parser.parseTranslationUnit_ranges X (parseFuel file) ⟨os, Lexer.init file⟩
      (Lexer.init_WF file)).of_eq_ok h,
    (Parser.parseTranslationUnit_ordered X (parseFuel file) ⟨os, Lexer.init file⟩
      (Lexer.init_WF file)).of_eq_ok h⟩

/-! ## Declared before use -/

namespace ScopeTree

theorem Bounded.monoBounded {b b1 : Nat} {T : ScopeTree} (h : Bounded b T) (hb : b ≤ b1) :
    Bounded b1 T :=
  fun id sc sym hg hm => (h id sc sym hg hm).trans hb

theorem bounded_iff (b : Nat) (T : ScopeTree) :
    Bounded b T ↔ ∀ sc ∈ T.scopes, ∀ sym ∈ sc.Symbols, sym.Name.Begin ≤ b := by
  constructor
  · intro h sc hsc sym hm
    obtain ⟨i, hi⟩ := List.mem_iff_getElem?.1 hsc
    exact h i sc sym (by rw [get?_eq]; exact hi) hm
  · intro h id sc sym hg hm
    rw [get?_eq] at hg
    exact h sc (List.mem_iff_getElem?.2 ⟨id, hg⟩) sym hm

theorem Bounded.initBounded (b : Nat) : Bounded b ScopeTree.init := by
  rw [bounded_iff]
  intro sc hsc sym hm
  simp only [ScopeTree.init, List.mem_singleton] at hsc
  subst hsc
  simp at hm

theorem Bounded.declareBounded {b : Nat} {T : ScopeTree} (h : Bounded b T) (file : File)
    (id : ScopeId) (kind : SymbolKind) {name : Range} (hn : name.Begin ≤ b) :
    Bounded b (T.declare file id kind name).2.2 := by
  rcases declare_cases file T id kind name with ⟨r, -, hd⟩ | ⟨-, -, hd⟩ | ⟨sc, T1, hd, hD⟩
  · rw [hd]; exact h
  · rw [hd]; exact h
  · rw [hd]
    simp only
    have hold := (bounded_iff b T).1 h
    rw [bounded_iff, hD.store]
    intro scj hscj sym hm
    simp only [List.mem_append] at hscj
    rcases hscj with hscj | hscj
    · rcases List.mem_or_eq_of_mem_set hscj with hscj | hscj
      · exact hold scj hscj sym hm
      · subst hscj
        simp only at hm
        rcases List.mem_append.1 hm with hm | hm
        · exact h id sc sym hD.scope hm
        · rw [List.mem_singleton.1 hm]
          exact hn
    · split at hscj
      · rw [List.mem_singleton.1 hscj] at hm
        simp at hm
      · simp at hscj

end ScopeTree

namespace AnalyzerVisitor
open Walker ScopeTree

theorem enter_bounded (file : File) (e : Expr) (A : AnalyzerVisitor) {b : Nat}
    (h : Bounded b A.GlobalScope) (hid : ∀ name, e = .IdentifierExpr name → name.Begin ≤ b) :
    Bounded b (enter file e A).2.GlobalScope := by
  cases e with
  | NumberExpr v r => exact h
  | IdentifierExpr name =>
    simp only [enter, onEnterIdentifierExpr]
    split
    · rename_i e0 x0 n cur he hc
      exact h.declareBounded file cur .Var (hid n he)
    · exact h
  | CallExpr callee args range =>
    have : (enter file (.CallExpr callee args range) A).2.GlobalScope = A.GlobalScope := by
      simp only [enter, onEnterCallExpr]
      repeat' split
      all_goals rfl
    rw [this]; exact h
  | BinaryExpr op l r range =>
    have : (enter file (.BinaryExpr op l r range) A).2.GlobalScope = A.GlobalScope := by
      simp only [enter, onEnterBinaryExpr]
      repeat' split
      all_goals rfl
    rw [this]; exact h

theorem onEnterParamDecl_bounded (file : File) (pd : ParamDecl) (A : AnalyzerVisitor) {b : Nat}
    (h : Bounded b A.GlobalScope) (hn : pd.Name.Begin ≤ b) :
    Bounded b (onEnterParamDecl file pd A).2.GlobalScope := by
  unfold onEnterParamDecl
  split
  · exact h
  · rename_i cur hc
    have hd := h.declareBounded file cur .Param hn
    split
    · exact h
    · rename_i o T heq
      rw [heq] at hd
      exact hd
    · exact h

theorem onEnterFunctionDecl_bounded (file : File) (fn : FunctionDecl) (A : AnalyzerVisitor)
    {b : Nat} (h : Bounded b A.GlobalScope) (hn : fn.Name.Begin ≤ b) :
    Bounded b (onEnterFunctionDecl file fn A).2.GlobalScope := by
  unfold onEnterFunctionDecl
  split
  · exact h
  · rename_i cur hc
    have hd := h.declareBounded file cur .Function hn
    split
    · exact h
    · rename_i symbol T heq
      rw [heq] at hd
      split
      · exact hd
      · exact h
    · exact h

theorem onExitFunctionDecl_store (file : File) (fn : FunctionDecl) (A : AnalyzerVisitor) :
    (onExitFunctionDecl file fn A).GlobalScope = A.GlobalScope := by
  unfold onExitFunctionDecl
  simp only
  repeat' split
  all_goals rfl

end AnalyzerVisitor

theorem Stmt.expr_within {size : Nat} {st : Stmt} (h : st.RangesOK size) :
    st.expr.RangesOK size ∧ st.getRange.Begin ≤ st.expr.getRange.Begin ∧
      st.expr.getRange.End ≤ st.getRange.End := by
  cases st with
  | ExprStmt e => exact ⟨h.2, Nat.le_refl _, Nat.le_refl _⟩
  | ReturnStmt value range => exact ⟨h.2.1, h.2.2.1, h.2.2.2⟩

namespace AnalyzerVisitor
open Walker ScopeTree

/-- The walk of an expression whose nodes are in the order of the source, from
a store whose symbols begin at `b` or before, where `b` is not behind the
expression: the symbols of the store after the walk begin before the end of the
expression. -/
theorem walkExpr_bounded (file : File) :
    (∀ e (A : AnalyzerVisitor) (b size : Nat), e.RangesOK size → e.Ordered →
      Bounded b A.GlobalScope → b ≤ e.getRange.Begin →
      Bounded e.getRange.End (walkExpr (visitor file) e A).GlobalScope) ∧
    (∀ es (A : AnalyzerVisitor) (b hi size : Nat),
      (∀ a ∈ es, a.RangesOK size ∧ b ≤ a.getRange.Begin ∧ a.getRange.End ≤ hi) →
      Expr.ArgsOrdered es → Bounded b A.GlobalScope → b ≤ hi →
      Bounded hi (walkExprs (visitor file) es A).GlobalScope) := by
  apply Expr.induct
  · intro v r A b size hr _ hB hb
    rw [walkExpr_number]
    have hv := hr.valid
    exact hB.monoBounded (hb.trans hv.1)
  · intro n A b size hr _ hB hb
    rw [walkExpr_identifier]
    have hv := hr.valid
    refine (enter_bounded file _ A (hB.monoBounded hb) ?_).monoBounded hv.1
    intro name he
    cases he
    exact Nat.le_refl _
  · intro c args r ih A b size hr ho hB hb
    rw [walkExpr_call]
    have hE := enter_bounded file (.CallExpr c args r) A hB (fun _ he => Expr.noConfusion he)
    rw [Expr.RangesOK_call] at hr
    obtain ⟨hv, hargs⟩ := hr
    have hb1 : b ≤ r.Begin := hb
    split
    · refine ih _ b r.End size ?_ ho hE (hb1.trans hv.1)
      intro a ha
      obtain ⟨h1, h2⟩ := hargs a ha
      exact ⟨h1, hb1.trans h2.1, h2.2⟩
    · exact hE.monoBounded (hb1.trans hv.1)
  · intro op l r rg ihl ihr A b size hr ho hB hb
    rw [walkExpr_binary]
    have hE := enter_bounded file (.BinaryExpr op l r rg) A hB (fun _ he => Expr.noConfusion he)
    simp only [Expr.RangesOK] at hr
    simp only [Expr.Ordered] at ho
    obtain ⟨hv, hl, hrr, hlw, hrw⟩ := hr
    obtain ⟨hol, hor, hlr⟩ := ho
    have hb1 : b ≤ rg.Begin := hb
    split
    · have h1 := ihl _ b size hl hol hE (hb1.trans hlw.1)
      have h2 := ihr _ _ size hrr hor h1 hlr
      exact h2.monoBounded hrw.2
    · exact hE.monoBounded (hb1.trans hv.1)
  · intro A b hi size _ _ hB hb
    rw [walkExprs_nil]
    exact hB.monoBounded hb
  · intro e es ihe ihes A b hi size hall ho hB hb
    rw [walkExprs_cons]
    simp only [Expr.ArgsOrdered] at ho
    obtain ⟨hoe, hlt, hoes⟩ := ho
    obtain ⟨h1, h2, h3⟩ := hall e (List.mem_cons_self _ _)
    have hB1 := ihe A b size h1 hoe hB h2
    refine ihes _ e.getRange.End hi size ?_ hoes hB1 h3
    intro a ha
    obtain ⟨a1, a2, a3⟩ := hall a (List.mem_cons_of_mem _ ha)
    exact ⟨a1, hlt a ha, a3⟩

/-- Where the walk of an expression calls the hook of an expression in it, the
symbols of the store begin at the begin of that expression or before. -/
theorem EntersExpr.boundedAt {file : File} {e e1 : Expr} {A A1 : AnalyzerVisitor}
    (h : EntersExpr file e A e1 A1) :
    ∀ (b size : Nat), e.RangesOK size → e.Ordered → Bounded b A.GlobalScope →
      b ≤ e.getRange.Begin → Bounded e1.getRange.Begin A1.GlobalScope := by
  induction h with
  | here e A =>
    intro b size _ _ hB hb
    exact hB.monoBounded hb
  | @arg callee args range A front a back e1 A1 hargs henter h ih =>
    intro b size hr ho hB hb
    have hE := enter_bounded file (.CallExpr callee args range) A hB
      (fun _ he => Expr.noConfusion he)
    rw [Expr.RangesOK_call] at hr
    obtain ⟨hv, hall⟩ := hr
    have hb1 : b ≤ range.Begin := hb
    simp only [Expr.Ordered] at ho
    rw [Expr.ArgsOrdered_iff, hargs] at ho
    obtain ⟨hoa, hpw⟩ := ho
    rw [List.pairwise_append] at hpw
    obtain ⟨hpf, -, hcross⟩ := hpw
    have ha : a ∈ args := by rw [hargs]; simp
    obtain ⟨ha1, ha2⟩ := hall a ha
    have hfront := (walkExpr_bounded file).2 front _ b a.getRange.Begin size ?_
      ((Expr.ArgsOrdered_iff front).2 ⟨fun x hx => hoa x (by simp [hx]), hpf⟩) hE
      (hb1.trans ha2.1)
    · exact ih _ size ha1 (hoa a (by simp)) hfront (Nat.le_refl _)
    · intro x hx
      have hxa : x ∈ args := by rw [hargs]; simp [hx]
      obtain ⟨x1, x2⟩ := hall x hxa
      exact ⟨x1, hb1.trans x2.1, hcross x hx a (List.mem_cons_self _ _)⟩
  | @lhs op l r range A e1 A1 henter h ih =>
    intro b size hr ho hB hb
    have hE := enter_bounded file (.BinaryExpr op l r range) A hB
      (fun _ he => Expr.noConfusion he)
    simp only [Expr.RangesOK] at hr
    simp only [Expr.Ordered] at ho
    have hb1 : b ≤ range.Begin := hb
    exact ih b size hr.2.1 ho.1 hE (hb1.trans hr.2.2.2.1.1)
  | @rhs op l r range A e1 A1 henter h ih =>
    intro b size hr ho hB hb
    have hE := enter_bounded file (.BinaryExpr op l r range) A hB
      (fun _ he => Expr.noConfusion he)
    simp only [Expr.RangesOK] at hr
    simp only [Expr.Ordered] at ho
    have hb1 : b ≤ range.Begin := hb
    have h1 := (walkExpr_bounded file).1 l _ b size hr.2.1 ho.1 hE (hb1.trans hr.2.2.2.1.1)
    exact ih _ size hr.2.2.1 ho.2.1 h1 ho.2.2

theorem atStmt_bounded (file : File) (sts : List Stmt) :
    ∀ (A : AnalyzerVisitor) (b hi size : Nat),
      (∀ st ∈ sts, st.RangesOK size ∧ st.expr.Ordered ∧ b ≤ st.getRange.Begin ∧
        st.getRange.End ≤ hi) →
      sts.Pairwise (fun a b => a.getRange.End ≤ b.getRange.Begin) →
      Bounded b A.GlobalScope → b ≤ hi → Bounded hi (atStmt file sts A).GlobalScope := by
  induction sts with
  | nil =>
    intro A b hi size _ _ hB hb
    exact hB.monoBounded hb
  | cons st rest ih =>
    intro A b hi size hall hpw hB hb
    rw [List.pairwise_cons] at hpw
    obtain ⟨h1, h2, h3, h4⟩ := hall st (List.mem_cons_self _ _)
    obtain ⟨e1, e2, e3⟩ := Stmt.expr_within h1
    have hw : atStmt file (st :: rest) A
        = atStmt file rest (walkExpr (visitor file) st.expr A) := by
      unfold atStmt
      rw [List.foldl_cons, walkStmt_eq]
    rw [hw]
    have hB1 := ((walkExpr_bounded file).1 st.expr A b size e1 h2 hB (h3.trans e2)).monoBounded e3
    refine ih _ st.getRange.End hi size ?_ hpw.2 hB1 h4
    intro s hs
    obtain ⟨s1, s2, s3, s4⟩ := hall s (List.mem_cons_of_mem _ hs)
    exact ⟨s1, s2, hpw.1 s hs, s4⟩

theorem params_bounded (file : File) (params : List ParamDecl) :
    ∀ (A : AnalyzerVisitor) (b : Nat), (∀ pd ∈ params, pd.Name.Begin ≤ b) →
      Bounded b A.GlobalScope →
      Bounded b (params.foldl (fun acc pd => walkParamDecl (visitor file) pd acc)
        A).GlobalScope := by
  induction params with
  | nil => intro A b _ hB; exact hB
  | cons pd rest ih =>
    intro A b hall hB
    rw [List.foldl_cons, walkParamDecl_eq]
    exact ih _ b (fun p hp => hall p (List.mem_cons_of_mem _ hp))
      (onEnterParamDecl_bounded file pd A hB (hall pd (List.mem_cons_self _ _)))

theorem atBody_bounded (file : File) (fn : FunctionDecl) (A : AnalyzerVisitor) {b size : Nat}
    (hr : fn.RangesOK size) (ho : fn.Ordered) (hB : Bounded b A.GlobalScope)
    (hb : b ≤ fn.range.Begin) :
    Bounded fn.Body.range.Begin (atBody file fn A).GlobalScope := by
  obtain ⟨-, -, -, hw⟩ := hr
  obtain ⟨hn, hp, -⟩ := ho
  exact params_bounded file fn.Params _ _ hp
    (onEnterFunctionDecl_bounded file fn A (hB.monoBounded (hb.trans hw.1)) hn)

theorem body_facts {size : Nat} {fn : FunctionDecl} (hr : fn.RangesOK size) (ho : fn.Ordered) :
    (∀ st ∈ fn.Body.Stmts, st.RangesOK size ∧ st.expr.Ordered ∧
      fn.Body.range.Begin ≤ st.getRange.Begin ∧ st.getRange.End ≤ fn.Body.range.End) ∧
    fn.Body.Stmts.Pairwise (fun a b => a.getRange.End ≤ b.getRange.Begin) ∧
    fn.Body.range.Begin ≤ fn.Body.range.End := by
  obtain ⟨-, -, ⟨hbv, hst⟩, -⟩ := hr
  obtain ⟨-, -, hso, hpw⟩ := ho
  refine ⟨?_, hpw, hbv.1⟩
  intro st hs
  obtain ⟨s1, s2⟩ := hst st hs
  exact ⟨s1, hso st hs, s2.1, s2.2⟩

theorem walkFunctionDecl_bounded (file : File) (fn : FunctionDecl) (A : AnalyzerVisitor)
    {b size : Nat} (hr : fn.RangesOK size) (ho : fn.Ordered) (hB : Bounded b A.GlobalScope)
    (hb : b ≤ fn.range.Begin) :
    Bounded fn.range.End (walkFunctionDecl (visitor file) fn A).GlobalScope := by
  obtain ⟨hall, hpw, hbv⟩ := body_facts hr ho
  have hw := hr.2.2.2
  rw [walkFunctionDecl_eq]
  split
  · rw [onExitFunctionDecl_store]
    exact (atStmt_bounded file fn.Body.Stmts _ _ _ size hall hpw
      (atBody_bounded file fn A hr ho hB hb) hbv).monoBounded hw.2
  · exact onEnterFunctionDecl_bounded file fn A
      (hB.monoBounded (hb.trans ((hw.1.trans hbv).trans hw.2)))
      ((ho.1.trans hbv).trans hw.2)

theorem functions_bounded (file : File) (fns : List FunctionDecl) :
    ∀ (A : AnalyzerVisitor) (b hi size : Nat),
      (∀ fn ∈ fns, fn.RangesOK size ∧ fn.Ordered ∧ b ≤ fn.range.Begin ∧ fn.range.End ≤ hi) →
      fns.Pairwise (fun a b => a.range.End ≤ b.range.Begin) →
      Bounded b A.GlobalScope → b ≤ hi →
      Bounded hi (fns.foldl (fun acc fn => walkFunctionDecl (visitor file) fn acc)
        A).GlobalScope := by
  induction fns with
  | nil =>
    intro A b hi size _ _ hB hb
    exact hB.monoBounded hb
  | cons fn rest ih =>
    intro A b hi size hall hpw hB hb
    rw [List.pairwise_cons] at hpw
    obtain ⟨h1, h2, h3, h4⟩ := hall fn (List.mem_cons_self _ _)
    rw [List.foldl_cons]
    refine ih _ fn.range.End hi size ?_ hpw.2 (walkFunctionDecl_bounded file fn A h1 h2 hB h3) h4
    intro f hf
    obtain ⟨f1, f2, f3, f4⟩ := hall f (List.mem_cons_of_mem _ hf)
    exact ⟨f1, f2, hpw.1 f hf, f4⟩

/-- Where `Analyze` calls the hook of an expression of a translation unit whose
ranges are in order and whose nodes are in the order of the source, every
symbol of the store begins at the begin of the expression or before. -/
theorem Enters.bounded {file : File} {tu : TranslationUnit} {os : String} {fn : FunctionDecl}
    {e : Expr} {A : AnalyzerVisitor} (h : Enters file tu os fn e A) {size : Nat}
    (hr : tu.RangesOK size) (ho : tu.Ordered) : Bounded e.getRange.Begin A.GlobalScope := by
  obtain ⟨front, back, sfront, st, sback, hsplit, hbody, -, hE⟩ := h
  obtain ⟨-, hfr⟩ := hr
  obtain ⟨hfo, hpw⟩ := ho
  rw [hsplit] at hfr hfo hpw
  rw [List.pairwise_append] at hpw
  obtain ⟨hpf, -, hcross⟩ := hpw
  have hfn := hfr fn (by simp)
  have hfnr := hfn.1
  have hfno := hfo fn (by simp)
  have h0 : Bounded fn.range.Begin (atFunction file os front).GlobalScope := by
    refine functions_bounded file front (init os) 0 _ size ?_ hpf
      (Bounded.initBounded 0) (Nat.zero_le _)
    intro f hf
    exact ⟨(hfr f (by simp [hf])).1, hfo f (by simp [hf]), Nat.zero_le _,
      hcross f hf fn (List.mem_cons_self _ _)⟩
  have h1 := atBody_bounded file fn _ hfnr hfno h0 (Nat.le_refl _)
  obtain ⟨hall, hspw, hbv⟩ := body_facts hfnr hfno
  rw [hbody] at hall hspw
  rw [List.pairwise_append] at hspw
  obtain ⟨hsf, -, hscross⟩ := hspw
  obtain ⟨t1, t2, t3, t4⟩ := hall st (by simp)
  have h2 : Bounded st.getRange.Begin
      (atStmt file sfront (atBody file fn (atFunction file os front))).GlobalScope := by
    refine atStmt_bounded file sfront _ _ _ size ?_ hsf h1 t3
    intro s hs
    obtain ⟨s1, s2, s3, -⟩ := hall s (by simp [hs])
    exact ⟨s1, s2, s3, hscross s hs st (List.mem_cons_self _ _)⟩
  obtain ⟨e1, e2, e3⟩ := Stmt.expr_within t1
  exact hE.boundedAt _ size e1 t2 h2 e2

end AnalyzerVisitor

namespace AnalyzerVisitor
open Walker ScopeTree

/-- Where `Analyze` calls the hook of an `IdentifierExpr`, the name resolves at
the end of the walk, from the scope of the function around it, to a symbol
that was in the store at the call of the hook or has the name of the
expression as its name. -/
theorem Enters.identifier_resolves {file : File} {tu : TranslationUnit} {os : String}
    {fn : FunctionDecl} {name : Range} {A1 : AnalyzerVisitor}
    (h : Enters file tu os fn (.IdentifierExpr name) A1) :
    ∃ c ref sym, (atFunction file os tu.FNs).GlobalScope.IsScopeOf fn c ∧
      (atFunction file os tu.FNs).GlobalScope.lookup file c name = some ref ∧
      (atFunction file os tu.FNs).GlobalScope.symbol? ref = some sym ∧
      ∀ b, Bounded b A1.GlobalScope → name.Begin ≤ b → sym.Name.Begin ≤ b := by
  obtain ⟨hinv, c, hcur, hsc⟩ := h.scope
  obtain ⟨front, back, sc0, T1, -, -, hw, hb, hl⟩ := h.facts
  have hstep := enter_step file (.IdentifierExpr name) hinv
  have hsc1 := hstep.grows.isScopeOf hsc
  have hent := enter_identifier file name hcur
  rw [hent] at hl hsc1
  simp only at hl hsc1
  rcases declare_cases file A1.GlobalScope c .Var name with ⟨r, hlk, hd⟩ | ⟨-, hnone, -⟩ |
    ⟨sc, T2, hd, hD⟩
  · rw [hd] at hl hsc1
    simp only at hl hsc1
    obtain ⟨sym, hs, -⟩ := lookup_some hlk
    refine ⟨c, r, sym, hl.grows.isScopeOf hsc1, hl.grows.lookup _ _ _ hlk,
      hl.grows.symbol hs, ?_⟩
    intro b hB _
    obtain ⟨scs, hg, hm⟩ := symbol?_mem hs
    exact hB _ _ _ hg hm
  · obtain ⟨cur, scc, hc2, hg2⟩ := hinv.scope
    rw [hcur] at hc2
    simp only [Option.some.injEq] at hc2
    subst hc2
    rw [hnone] at hg2
    exact Option.noConfusion hg2
  · rw [hd] at hl hsc1
    simp only at hl hsc1
    obtain ⟨hlk, hs⟩ := hD.lookup_new
    refine ⟨c, _, _, hl.grows.isScopeOf hsc1, hl.grows.lookup _ _ _ hlk,
      hl.grows.symbol hs, ?_⟩
    intro b _ hb2
    exact hb2

/-- Where `Analyze` calls the hook of a `CallExpr` in a translation unit it
accepts, the callee resolves at the end of the walk, from the scope of the
function around it, to a symbol that was in the store at the call of the
hook. -/
theorem Enters.callee_resolves {file : File} {tu : TranslationUnit} {os : String}
    {fn : FunctionDecl} {callee : Range} {args : List Expr} {range : Range}
    {A1 : AnalyzerVisitor} (h : Enters file tu os fn (.CallExpr callee args range) A1)
    (he : (atFunction file os tu.FNs).Error = false) :
    ∃ c ref sym, (atFunction file os tu.FNs).GlobalScope.IsScopeOf fn c ∧
      (atFunction file os tu.FNs).GlobalScope.lookup file c callee = some ref ∧
      (atFunction file os tu.FNs).GlobalScope.symbol? ref = some sym ∧
      ∀ b, Bounded b A1.GlobalScope → sym.Name.Begin ≤ b := by
  obtain ⟨hinv, c, hcur, hsc⟩ := h.scope
  obtain ⟨front, back, sc0, T1, -, -, hw, hb, hl⟩ := h.facts
  have hclean := hl.clean_before he
  obtain ⟨cur, hcur2, hcases⟩ := enter_call file callee args range hinv
  rw [hcur] at hcur2
  simp only [Option.some.injEq] at hcur2
  subst hcur2
  rcases hcases with ⟨-, hx⟩ | ⟨ref, sym, -, -, -, hx⟩ | ⟨ref, sym, scope, -, -, -, -, -, hx⟩ |
    ⟨ref, sym, scope, h1, h2, h3, -, -, hx⟩
  · rw [hx] at hclean; cases hclean
  · rw [hx] at hclean; cases hclean
  · rw [hx] at hclean; cases hclean
  · rw [hx] at hl
    refine ⟨c, ref, sym, hl.grows.isScopeOf hsc, hl.grows.lookup _ _ _ h1,
      hl.grows.symbol h2, ?_⟩
    intro b hB
    obtain ⟨scs, hg, hm⟩ := symbol?_mem h2
    exact hB _ _ _ hg hm

end AnalyzerVisitor

/-- C19. Declared before use. In every translation unit on which `Analyze`
returns a scope `T`, the name of every `IdentifierExpr` and the callee of every
`CallExpr` of every function `fn` resolves in `T`, by lookup from the scope of
`fn`, to some symbol. If the translation unit is the one `Parse` returned on
the file, the name of that symbol begins at or before the begin of the range
of the `IdentifierExpr` or of the `CallExpr`. -/
theorem declared_before_use :
    (∀ (file : File) (tu : TranslationUnit) (os : String) (T : ScopeTree) (os1 : String),
      Analyze file tu os = some (some T, os1) → ∀ fn ∈ tu.FNs,
        (∀ name, fn.Contains (.IdentifierExpr name) →
          ∃ c ref sym, T.IsScopeOf fn c ∧ T.lookup file c name = some ref ∧
            T.symbol? ref = some sym) ∧
        (∀ callee args range, fn.Contains (.CallExpr callee args range) →
          ∃ c ref sym, T.IsScopeOf fn c ∧ T.lookup file c callee = some ref ∧
            T.symbol? ref = some sym)) ∧
    (∀ (X : Extern) (file : File) (os0 : String) (tu : TranslationUnit) (P1 : Parser)
      (os : String) (T : ScopeTree) (os1 : String),
      Parse X file os0 = .ok tu P1 → Analyze file tu os = some (some T, os1) →
      ∀ fn ∈ tu.FNs,
        (∀ name, fn.Contains (.IdentifierExpr name) →
          ∃ c ref sym, T.IsScopeOf fn c ∧ T.lookup file c name = some ref ∧
            T.symbol? ref = some sym ∧ sym.Name.Begin ≤ name.Begin) ∧
        (∀ callee args range, fn.Contains (.CallExpr callee args range) →
          ∃ c ref sym, T.IsScopeOf fn c ∧ T.lookup file c callee = some ref ∧
            T.symbol? ref = some sym ∧ sym.Name.Begin ≤ range.Begin)) := by
  refine ⟨?_, ?_⟩
  · intro file tu os T os1 h fn hfn
    obtain ⟨he, hT, -⟩ := AnalyzerVisitor.accepted h
    subst hT
    refine ⟨?_, ?_⟩
    · intro name hc
      obtain ⟨A1, hA1⟩ := AnalyzerVisitor.accepted_enters he hfn hc
      obtain ⟨c, ref, sym, a1, a2, a3, -⟩ := hA1.identifier_resolves
      exact ⟨c, ref, sym, a1, a2, a3⟩
    · intro callee args range hc
      obtain ⟨A1, hA1⟩ := AnalyzerVisitor.accepted_enters he hfn hc
      obtain ⟨c, ref, sym, a1, a2, a3, -⟩ := hA1.callee_resolves he
      exact ⟨c, ref, sym, a1, a2, a3⟩
  · intro X file os0 tu P1 os T os1 hp h fn hfn
    obtain ⟨hr, ho⟩ := Parse_ordered hp
    obtain ⟨he, hT, -⟩ := AnalyzerVisitor.accepted h
    subst hT
    refine ⟨?_, ?_⟩
    · intro name hc
      obtain ⟨A1, hA1⟩ := AnalyzerVisitor.accepted_enters he hfn hc
      obtain ⟨c, ref, sym, a1, a2, a3, a4⟩ := hA1.identifier_resolves
      exact ⟨c, ref, sym, a1, a2, a3, a4 _ (hA1.bounded hr ho) (Nat.le_refl _)⟩
    · intro callee args range hc
      obtain ⟨A1, hA1⟩ := AnalyzerVisitor.accepted_enters he hfn hc
      obtain ⟨c, ref, sym, a1, a2, a3, a4⟩ := hA1.callee_resolves he
      exact ⟨c, ref, sym, a1, a2, a3, a4 _ (hA1.bounded hr ho)⟩

/-- C19, on `function f(x) return f(x) end`: the identifier `x` at offset 23
resolves to a symbol whose name begins at or before offset 23. -/
theorem declared_before_use_witness :
    ∃ c ref sym,
      ScopeTree.IsScopeOf ⟨[⟨none, none, [⟨.Function, ⟨9, 10⟩, some 1⟩]⟩,
        ⟨some 0, some ⟨0, 0⟩, [⟨.Param, ⟨11, 12⟩, none⟩]⟩]⟩
        ⟨⟨9, 10⟩, [⟨⟨11, 12⟩⟩], ⟨[.ReturnStmt (.CallExpr ⟨21, 22⟩ [.IdentifierExpr ⟨23, 24⟩]
          ⟨21, 25⟩) ⟨14, 25⟩], ⟨14, 29⟩⟩, ⟨0, 29⟩⟩ c ∧
      ScopeTree.lookup Examples.recursive ⟨[⟨none, none, [⟨.Function, ⟨9, 10⟩, some 1⟩]⟩,
        ⟨some 0, some ⟨0, 0⟩, [⟨.Param, ⟨11, 12⟩, none⟩]⟩]⟩ c ⟨23, 24⟩ = some ref ∧
      ScopeTree.symbol? ⟨[⟨none, none, [⟨.Function, ⟨9, 10⟩, some 1⟩]⟩,
        ⟨some 0, some ⟨0, 0⟩, [⟨.Param, ⟨11, 12⟩, none⟩]⟩]⟩ ref = some sym ∧
      sym.Name.Begin ≤ 23 :=
  (declared_before_use.2 Examples.X0 Examples.recursive ""
    ⟨[⟨⟨9, 10⟩, [⟨⟨11, 12⟩⟩], ⟨[.ReturnStmt (.CallExpr ⟨21, 22⟩ [.IdentifierExpr ⟨23, 24⟩]
      ⟨21, 25⟩) ⟨14, 25⟩], ⟨14, 29⟩⟩, ⟨0, 29⟩⟩], ⟨0, 29⟩⟩ _ ""
    ⟨[⟨none, none, [⟨.Function, ⟨9, 10⟩, some 1⟩]⟩,
      ⟨some 0, some ⟨0, 0⟩, [⟨.Param, ⟨11, 12⟩, none⟩]⟩]⟩ "" rfl (by decide)
    ⟨⟨9, 10⟩, [⟨⟨11, 12⟩⟩], ⟨[.ReturnStmt (.CallExpr ⟨21, 22⟩ [.IdentifierExpr ⟨23, 24⟩]
      ⟨21, 25⟩) ⟨14, 25⟩], ⟨14, 29⟩⟩, ⟨0, 29⟩⟩ (List.mem_cons_self _ _)).1
    ⟨23, 24⟩
    ⟨_, List.mem_cons_self _ _, Expr.Sub.arg (List.mem_cons_self _ _) (Expr.Sub.here _)⟩

/-- The order of declaration and use comes from the parser: `Analyze` reads no
offset. On
`function g(y) return f(y) end function f(x) return x end` the parser returns
the functions `g`, `f` in this order. On the unit that holds the same two
functions in the order `f`, `g`, `Analyze` returns a scope and writes nothing;
the callee of the call `f(y)` of `g`, whose range begins at offset 21, resolves
from the scope of `g` to the symbol of `f`, whose name begins at offset 39. -/
theorem use_before_declaration :
    ∃ tu f g T, Examples.parsed Examples.calleeLast = some tu ∧ tu.FNs = [g, f] ∧
      Analyze Examples.calleeLast ⟨[f, g], tu.range⟩ "" = some (some T, "") ∧
      g.Contains (.CallExpr ⟨21, 22⟩ [.IdentifierExpr ⟨23, 24⟩] ⟨21, 25⟩) ∧
      (∃ c, T.IsScopeOf g c) ∧
      ∀ c ref sym, T.IsScopeOf g c → T.lookup Examples.calleeLast c ⟨21, 22⟩ = some ref →
        T.symbol? ref = some sym → 21 < sym.Name.Begin := by
  refine ⟨⟨[⟨⟨9, 10⟩, [⟨⟨11, 12⟩⟩], ⟨[.ReturnStmt (.CallExpr ⟨21, 22⟩ [.IdentifierExpr ⟨23, 24⟩]
        ⟨21, 25⟩) ⟨14, 25⟩], ⟨14, 29⟩⟩, ⟨0, 29⟩⟩,
      ⟨⟨39, 40⟩, [⟨⟨41, 42⟩⟩], ⟨[.ReturnStmt (.IdentifierExpr ⟨51, 52⟩) ⟨44, 52⟩],
        ⟨44, 56⟩⟩, ⟨30, 56⟩⟩], ⟨0, 56⟩⟩,
    ⟨⟨39, 40⟩, [⟨⟨41, 42⟩⟩], ⟨[.ReturnStmt (.IdentifierExpr ⟨51, 52⟩) ⟨44, 52⟩],
      ⟨44, 56⟩⟩, ⟨30, 56⟩⟩,
    ⟨⟨9, 10⟩, [⟨⟨11, 12⟩⟩], ⟨[.ReturnStmt (.CallExpr ⟨21, 22⟩ [.IdentifierExpr ⟨23, 24⟩]
      ⟨21, 25⟩) ⟨14, 25⟩], ⟨14, 29⟩⟩, ⟨0, 29⟩⟩,
    ⟨[⟨none, none, [⟨.Function, ⟨39, 40⟩, some 1⟩, ⟨.Function, ⟨9, 10⟩, some 2⟩]⟩,
      ⟨some 0, some ⟨0, 0⟩, [⟨.Param, ⟨41, 42⟩, none⟩]⟩,
      ⟨some 0, some ⟨0, 1⟩, [⟨.Param, ⟨11, 12⟩, none⟩]⟩]⟩,
    rfl, rfl, by decide, ⟨_, List.mem_cons_self _ _, Expr.Sub.here _⟩,
    ⟨2, _, rfl, by decide⟩, ?_⟩
  intro c ref sym h1 h2 h3
  obtain ⟨sc, hg, hm⟩ := h1
  have hsc : sc = ⟨none, none, [⟨.Function, ⟨39, 40⟩, some 1⟩, ⟨.Function, ⟨9, 10⟩, some 2⟩]⟩ :=
    (Option.some.inj hg).symm
  subst hsc
  simp only [List.mem_cons, Symbol.mk.injEq, Range.mk.injEq, Option.some.injEq,
    List.mem_singleton, List.not_mem_nil, or_false, true_and] at hm
  rcases hm with ⟨⟨h, -⟩, -⟩ | hc
  · omega
  · subst hc
    have hl : ScopeTree.lookup Examples.calleeLast
        ⟨[⟨none, none, [⟨.Function, ⟨39, 40⟩, some 1⟩, ⟨.Function, ⟨9, 10⟩, some 2⟩]⟩,
          ⟨some 0, some ⟨0, 0⟩, [⟨.Param, ⟨41, 42⟩, none⟩]⟩,
          ⟨some 0, some ⟨0, 1⟩, [⟨.Param, ⟨11, 12⟩, none⟩]⟩]⟩ 2 ⟨21, 22⟩ = some ⟨0, 0⟩ := by
      decide
    rw [hl] at h2
    simp only [Option.some.injEq] at h2
    subst h2
    have hs := Option.some.inj h3
    rw [← hs]
    decide

set_option maxRecDepth 8192

/-! ## Accepted translation units the lowering cannot take -/

/-- C29 (a function read as a variable, and assigned to). On
`function f() return f end` the analyzer returns a scope: the identifier `f`
of the `return`, at offset 20, resolves from the scope of `f` to the
`Function` symbol of `f`, which has no stack slot; the lowering then fails
the `at` of the map from symbols to addresses. The same happens to the target
of the assignment in `function f() f = 1 return 0 end`. -/
theorem function_name_read :
    (∃ tu fn T, Examples.parsed Examples.selfRead = some tu ∧ tu.FNs = [fn] ∧
      Analyze Examples.selfRead tu "" = some (some T, "") ∧
      fn.Contains (.IdentifierExpr ⟨20, 21⟩) ∧
      (∃ c ref sym, T.IsScopeOf fn c ∧ T.lookup Examples.selfRead c ⟨20, 21⟩ = some ref ∧
        T.symbol? ref = some sym ∧ sym.TheKind = .Function) ∧
      LowerToLLVMIR Examples.X0 Examples.selfRead tu T = none) ∧
    (∃ tu fn T, Examples.parsed Examples.selfAssign = some tu ∧ tu.FNs = [fn] ∧
      Analyze Examples.selfAssign tu "" = some (some T, "") ∧
      fn.Contains (.BinaryExpr .Assign (.IdentifierExpr ⟨13, 14⟩) (.NumberExpr ⟨0⟩ ⟨17, 18⟩)
        ⟨13, 18⟩) ∧
      (∃ c ref sym, T.IsScopeOf fn c ∧ T.lookup Examples.selfAssign c ⟨13, 14⟩ = some ref ∧
        T.symbol? ref = some sym ∧ sym.TheKind = .Function) ∧
      LowerToLLVMIR Examples.X0 Examples.selfAssign tu T = none) :=
  ⟨⟨_, _, ⟨[⟨none, none, [⟨.Function, ⟨9, 10⟩, some 1⟩]⟩, ⟨some 0, some ⟨0, 0⟩, []⟩]⟩,
      rfl, rfl, by decide, ⟨_, List.mem_cons_self _ _, Expr.Sub.here _⟩,
      ⟨1, ⟨0, 0⟩, ⟨.Function, ⟨9, 10⟩, some 1⟩, ⟨_, rfl, by decide⟩, by decide, by decide, rfl⟩,
      by decide⟩,
    ⟨_, _, ⟨[⟨none, none, [⟨.Function, ⟨9, 10⟩, some 1⟩]⟩, ⟨some 0, some ⟨0, 0⟩, []⟩]⟩,
      rfl, rfl, by decide, ⟨_, List.mem_cons_self _ _, Expr.Sub.here _⟩,
      ⟨1, ⟨0, 0⟩, ⟨.Function, ⟨9, 10⟩, some 1⟩, ⟨_, rfl, by decide⟩, by decide, by decide, rfl⟩,
      by decide⟩⟩

/-- C30 (a `return` in front of the last statement). On
`function f() return 1 return 2 end` the analyzer returns a scope, for the
last statement is a `ReturnStmt`, and the entry block of the lowered function
holds two `ret` instructions, the first of which is not the last instruction
of the block. -/
theorem two_returns_lowered :
    ∃ tu T, Examples.parsed Examples.twoReturns = some tu ∧
      Analyze Examples.twoReturns tu "" = some (some T, "") ∧
      LowerToLLVMIR Examples.X0 Examples.twoReturns tu T =
        some ⟨⟨"mua module", "returns.mua",
          [⟨[102], 0, [.Ret (.ConstantFP ⟨0⟩), .Ret (.ConstantFP ⟨0⟩)]⟩]⟩⟩ :=
  ⟨_, ⟨[⟨none, none, [⟨.Function, ⟨9, 10⟩, some 1⟩]⟩, ⟨some 0, some ⟨0, 0⟩, []⟩]⟩,
    rfl, by decide, by decide⟩

/-! ## Assignability -/

namespace ScopeTree

/-- The lookup of a name from the scope of a function, which lies under the
global scope: what `find` finds in the scope, else what it finds in the global
scope. -/
theorem lookup_in_function {file : File} {T : ScopeTree} {c : ScopeId} {scc sc0 : Scope}
    (hc : T.get? c = some scc) (hp : scc.Parent = some 0) (h0 : T.get? 0 = some sc0)
    (hp0 : sc0.Parent = none) (name : Range) :
    lookup file T c name =
      match find file scc name with
      | some i => some ⟨c, i⟩
      | none => (find file sc0 name).map (fun i => ⟨0, i⟩) := by
  rw [lookup_succ, hc]
  simp only
  cases find file scc name with
  | some i => rfl
  | none =>
    simp only
    rw [hp]
    have hlen := get?_lt h0
    obtain ⟨n, hn⟩ : ∃ n, T.scopes.length = n + 1 := ⟨T.scopes.length - 1, (Nat.sub_add_cancel hlen).symm⟩
    rw [hn, lookupFrom_succ, h0]
    simp only
    cases find file sc0 name with
    | some i => rfl
    | none =>
      simp only [Option.map_none']
      rw [hp0]
      cases n with
      | zero => exact lookupFrom_zero _ _ _ _
      | succ m => exact lookupFrom_none _ _ _ _

end ScopeTree

namespace AnalyzerVisitor
open Walker ScopeTree

/-- After the walk over parameters, the name of each of them resolves from the
current scope. -/
theorem params_resolve (file : File) (params : List ParamDecl) :
    ∀ {A : AnalyzerVisitor}, Inv A → ∀ {cur : ScopeId}, A.CurrentScope = some cur →
      ∀ p ∈ params, ∃ r,
        (params.foldl (fun acc pd => walkParamDecl (visitor file) pd acc) A).GlobalScope.lookup
          file cur p.Name = some r := by
  induction params with
  | nil => intro A _ cur _ p hp; simp at hp
  | cons pd rest ih =>
    intro A hinv cur hcur p hp
    rw [List.foldl_cons, walkParamDecl_eq]
    have h1 := onEnterParamDecl_step file pd hinv
    have hrest := params_step file rest h1.inv
    rcases List.mem_cons.1 hp with hp | hp
    · subst hp
      have hB : ∃ r, (onEnterParamDecl file p A).2.GlobalScope.lookup file cur p.Name
          = some r := by
        rcases onEnterParamDecl_cases file p hinv hcur with ⟨r, sym, hl, -, h⟩ | ⟨sc, T1, hd, h⟩
        · rw [h]; exact ⟨r, hl⟩
        · rw [h]; exact ⟨_, hd.lookup_new.1⟩
      obtain ⟨r, hr⟩ := hB
      exact ⟨r, hrest.grows.lookup _ _ _ hr⟩
    · exact ih h1.inv (h1.scope.trans hcur) p hp

/-- The state at a parameter of a function the walk has gone into. -/
theorem atParam_facts {file : File} {fn : FunctionDecl} {A : AnalyzerVisitor} {sc : Scope}
    {T1 : ScopeTree} (hw : FnWalk file fn A 0 sc T1)
    (pfront : List ParamDecl) :
    Inv (atParam file fn pfront A) ∧
    (atParam file fn pfront A).CurrentScope = some A.GlobalScope.scopes.length ∧
    (atParam file fn pfront A).GlobalScope.get? 0 = some { sc with Symbols := sc.Symbols ++
      [⟨.Function, fn.Name, some A.GlobalScope.scopes.length⟩] } ∧
    (∃ scc, (atParam file fn pfront A).GlobalScope.get? A.GlobalScope.scopes.length = some scc ∧
      scc.Parent = some 0) ∧
    ∀ p ∈ pfront, ∃ r, (atParam file fn pfront A).GlobalScope.lookup file
      A.GlobalScope.scopes.length p.Name = some r := by
  obtain ⟨s1, s2, -, -⟩ := hw.scopeIn
  have hps := params_step file pfront hw.invIn
  have hchild := hw.declared.child rfl
  have hlen : 0 < A.GlobalScope.scopes.length := get?_lt hw.declared.scope
  have hne : (0 : ScopeId) ≠ A.GlobalScope.scopes.length := Nat.ne_of_lt hlen
  rw [← s2] at hchild
  obtain ⟨added, -, e1, -⟩ := hps.locals _ _ s1 hchild
  refine ⟨hps.inv, hps.scope.trans s1, ?_, ?_, ?_⟩
  · unfold atParam
    rw [e1, get?_set_ne _ _ hne, s2, hw.declared.here]
    rfl
  · unfold atParam
    rw [e1, get?_set_self _ hchild]
    exact ⟨_, rfl, rfl⟩
  · exact params_resolve file pfront hw.invIn s1

end AnalyzerVisitor

namespace AnalyzerVisitor
open Walker ScopeTree

/-! ## What holds of every store the analyzer builds -/

theorem enter_keeps {file : File} {P : ScopeTree → Prop}
    (hd : ∀ T id kind name, P T → P (ScopeTree.declare file T id kind name).2.2)
    (e : Expr) (A : AnalyzerVisitor) (h : P A.GlobalScope) :
    P (enter file e A).2.GlobalScope := by
  cases e with
  | NumberExpr v r => exact h
  | IdentifierExpr name =>
    simp only [enter, onEnterIdentifierExpr]
    split
    · exact hd _ _ _ _ h
    · exact h
  | CallExpr callee args range =>
    have : (enter file (.CallExpr callee args range) A).2.GlobalScope = A.GlobalScope := by
      simp only [enter, onEnterCallExpr]
      repeat' split
      all_goals rfl
    rw [this]; exact h
  | BinaryExpr op l r range =>
    have : (enter file (.BinaryExpr op l r range) A).2.GlobalScope = A.GlobalScope := by
      simp only [enter, onEnterBinaryExpr]
      repeat' split
      all_goals rfl
    rw [this]; exact h

theorem walkExpr_keeps {file : File} {P : ScopeTree → Prop}
    (hd : ∀ T id kind name, P T → P (ScopeTree.declare file T id kind name).2.2) :
    (∀ e (A : AnalyzerVisitor), P A.GlobalScope →
      P (walkExpr (visitor file) e A).GlobalScope) ∧
    (∀ es (A : AnalyzerVisitor), P A.GlobalScope →
      P (walkExprs (visitor file) es A).GlobalScope) := by
  apply Expr.induct
  · intro v r A h
    rw [walkExpr_number]; exact h
  · intro n A h
    rw [walkExpr_identifier]; exact enter_keeps hd _ A h
  · intro c args r ih A h
    rw [walkExpr_call]
    split
    · exact ih _ (enter_keeps hd _ A h)
    · exact enter_keeps hd _ A h
  · intro op l r rg ihl ihr A h
    rw [walkExpr_binary]
    split
    · exact ihr _ (ihl _ (enter_keeps hd _ A h))
    · exact enter_keeps hd _ A h
  · intro A h
    rw [walkExprs_nil]; exact h
  · intro e es ihe ihes A h
    rw [walkExprs_cons]
    exact ihes _ (ihe A h)

theorem atStmt_keeps {file : File} {P : ScopeTree → Prop}
    (hd : ∀ T id kind name, P T → P (ScopeTree.declare file T id kind name).2.2)
    (sts : List Stmt) :
    ∀ (A : AnalyzerVisitor), P A.GlobalScope → P (atStmt file sts A).GlobalScope := by
  induction sts with
  | nil => intro A h; exact h
  | cons st rest ih =>
    intro A h
    have hw : atStmt file (st :: rest) A
        = atStmt file rest (walkExpr (visitor file) st.expr A) := by
      unfold atStmt
      rw [List.foldl_cons, walkStmt_eq]
    rw [hw]
    exact ih _ ((walkExpr_keeps hd).1 _ A h)

theorem onEnterParamDecl_keeps {file : File} {P : ScopeTree → Prop}
    (hd : ∀ T id kind name, P T → P (ScopeTree.declare file T id kind name).2.2)
    (pd : ParamDecl) (A : AnalyzerVisitor)
    (h : P A.GlobalScope) : P (onEnterParamDecl file pd A).2.GlobalScope := by
  unfold onEnterParamDecl
  split
  · exact h
  · rename_i cur hc
    have h1 := hd _ cur .Param pd.Name h
    split
    · exact h
    · rename_i o T heq
      rw [heq] at h1
      exact h1
    · exact h

theorem onEnterFunctionDecl_keeps {file : File} {P : ScopeTree → Prop}
    (hd : ∀ T id kind name, P T → P (ScopeTree.declare file T id kind name).2.2)
    (fn : FunctionDecl) (A : AnalyzerVisitor)
    (h : P A.GlobalScope) : P (onEnterFunctionDecl file fn A).2.GlobalScope := by
  unfold onEnterFunctionDecl
  split
  · exact h
  · rename_i cur hc
    have h1 := hd _ cur .Function fn.Name h
    split
    · exact h
    · rename_i symbol T heq
      rw [heq] at h1
      split
      · exact h1
      · exact h
    · exact h

theorem params_keeps {file : File} {P : ScopeTree → Prop}
    (hd : ∀ T id kind name, P T → P (ScopeTree.declare file T id kind name).2.2)
    (params : List ParamDecl) :
    ∀ (A : AnalyzerVisitor), P A.GlobalScope →
      P (params.foldl (fun acc pd => walkParamDecl (visitor file) pd acc) A).GlobalScope := by
  induction params with
  | nil => intro A h; exact h
  | cons pd rest ih =>
    intro A h
    rw [List.foldl_cons, walkParamDecl_eq]
    exact ih _ (onEnterParamDecl_keeps hd pd A h)

theorem walkFunctionDecl_keeps {file : File} {P : ScopeTree → Prop}
    (hd : ∀ T id kind name, P T → P (ScopeTree.declare file T id kind name).2.2)
    (fn : FunctionDecl) (A : AnalyzerVisitor)
    (h : P A.GlobalScope) : P (walkFunctionDecl (visitor file) fn A).GlobalScope := by
  rw [walkFunctionDecl_eq]
  split
  · rw [onExitFunctionDecl_store]
    exact atStmt_keeps hd _ _ (params_keeps hd _ _ (onEnterFunctionDecl_keeps hd fn A h))
  · exact onEnterFunctionDecl_keeps hd fn A h

theorem functions_keeps {file : File} {P : ScopeTree → Prop}
    (hd : ∀ T id kind name, P T → P (ScopeTree.declare file T id kind name).2.2)
    (fns : List FunctionDecl) :
    ∀ (A : AnalyzerVisitor), P A.GlobalScope →
      P (fns.foldl (fun acc fn => walkFunctionDecl (visitor file) fn acc) A).GlobalScope := by
  induction fns with
  | nil => intro A h; exact h
  | cons fn rest ih =>
    intro A h
    rw [List.foldl_cons]
    exact ih _ (walkFunctionDecl_keeps hd fn A h)

/-- Every store of the walk of `Analyze` is built by calls of `declare`. -/
theorem atFunction_built (file : File) (os : String) (fns : List FunctionDecl) :
    Built file (atFunction file os fns).GlobalScope :=
  functions_keeps (fun _ id kind name h => h.declare id kind name) fns (init os) Built.init

/-- The scope `Analyze` returns is built by calls of `declare`. -/
theorem Analyze_built {file : File} {tu : TranslationUnit} {os : String} {T : ScopeTree}
    {os1 : String} (h : Analyze file tu os = some (some T, os1)) : Built file T := by
  obtain ⟨-, hT, -⟩ := accepted h
  rw [hT]
  exact atFunction_built file os tu.FNs

end AnalyzerVisitor

namespace ScopeTree

/-- The scopes of the store after a declaration that went through: the scope
of the declaration with the new symbol, a scope of the store before, or the
empty scope of a new function. -/
theorem Declared.get?_cases {file : File} {T T1 : ScopeTree} {id : ScopeId}
    {kind : SymbolKind} {name : Range} {sc : Scope} (h : Declared file T id kind name sc T1)
    {j : ScopeId} {scj : Scope} (hg : T1.get? j = some scj) :
    (j = id ∧ scj = { sc with Symbols := sc.Symbols ++ [T.newSymbol kind name] }) ∨
    (j ≠ id ∧ T.get? j = some scj) ∨
    (j = T.scopes.length ∧ kind = .Function ∧
      scj = ⟨some id, some ⟨id, sc.Symbols.length⟩, []⟩) := by
  by_cases hj : j = id
  · subst hj
    rw [h.here] at hg
    exact Or.inl ⟨rfl, (Option.some.inj hg).symm⟩
  · by_cases hlt : j < T.scopes.length
    · rw [h.others j hj hlt] at hg
      exact Or.inr (Or.inl ⟨hj, hg⟩)
    · have hlt1 := get?_lt hg
      rw [h.length] at hlt1
      by_cases hk : kind = .Function
      · rw [if_pos hk] at hlt1
        have hje : j = T.scopes.length :=
          Nat.le_antisymm (Nat.le_of_lt_succ hlt1) (Nat.le_of_not_lt hlt)
        subst hje
        rw [h.child hk] at hg
        exact Or.inr (Or.inr ⟨rfl, hk, (Option.some.inj hg).symm⟩)
      · rw [if_neg hk] at hlt1
        exact absurd hlt1 hlt

/-- The symbols of the store after a declaration that went through: a symbol
of the store before, or the new symbol. -/
theorem Declared.symbol_cases {file : File} {T T1 : ScopeTree} {id : ScopeId}
    {kind : SymbolKind} {name : Range} {sc : Scope} (h : Declared file T id kind name sc T1)
    {r : SymbolRef} {sym : Symbol} (hs : T1.symbol? r = some sym) :
    T.symbol? r = some sym ∨
      (r = ⟨id, sc.Symbols.length⟩ ∧ sym = T.newSymbol kind name) := by
  unfold symbol? at hs
  cases hg : T1.get? r.scope with
  | none => rw [hg] at hs; exact Option.noConfusion hs
  | some scj =>
    rw [hg] at hs
    simp only at hs
    rcases h.get?_cases hg with ⟨hj, hsc⟩ | ⟨hj, hsc⟩ | ⟨-, -, hsc⟩
    · subst hsc
      simp only [List.get?_eq_getElem?] at hs
      by_cases hlt : r.index < sc.Symbols.length
      · rw [List.getElem?_append_left hlt] at hs
        left
        unfold symbol?
        rw [hj, h.scope]
        simp only [List.get?_eq_getElem?]
        exact hs
      · have hle := Nat.le_of_not_lt hlt
        rw [List.getElem?_append_right hle] at hs
        have hi : r.index - sc.Symbols.length = 0 := by
          by_contra hne
          rw [List.getElem?_eq_none] at hs
          · exact Option.noConfusion hs
          · simp only [List.length_singleton]
            exact Nat.one_le_iff_ne_zero.2 hne
        rw [hi] at hs
        simp only [List.getElem?_cons_zero, Option.some.injEq] at hs
        right
        refine ⟨?_, hs.symm⟩
        have hidx : r.index = sc.Symbols.length :=
          Nat.le_antisymm (Nat.le_of_sub_eq_zero hi) hle
        cases r
        simp only at hj hidx
        rw [hj, hidx]
    · left
      unfold symbol?
      rw [hsc]
      exact hs
    · subst hsc
      simp at hs

/-- In a store that `declare` has built, a symbol owns a scope exactly if it
is a function; the scope it owns has the scope of the symbol as its parent and
the symbol as its symbol; the global scope has no parent and no symbol. -/
theorem Built.owned {file : File} {T : ScopeTree} (h : Built file T) :
    (∀ ref sym, T.symbol? ref = some sym →
      (sym.TheKind = .Function ↔ sym.TheScope ≠ none) ∧
      ∀ c, sym.TheScope = some c →
        ∃ child, T.get? c = some child ∧ child.Parent = some ref.scope ∧
          child.TheSymbol = some ref) ∧
    ∃ sc0, T.get? 0 = some sc0 ∧ sc0.Parent = none ∧ sc0.TheSymbol = none := by
  induction h with
  | init =>
    refine ⟨?_, ⟨_, rfl, rfl, rfl⟩⟩
    intro ref sym hs
    obtain ⟨sc, hg, hm⟩ := symbol?_mem hs
    have hlt := get?_lt hg
    have h0 : ref.scope = 0 := Nat.lt_one_iff.1 hlt
    rw [h0] at hg
    have : sc = ⟨none, none, []⟩ := (Option.some.inj hg).symm
    subst this
    simp at hm
  | @declare T hB id kind name ih =>
    obtain ⟨ih1, sc0, g0, g1, g2⟩ := ih
    rcases declare_cases file T id kind name with ⟨r, -, hd⟩ | ⟨-, -, hd⟩ | ⟨sc, T1, hd, hD⟩
    · rw [hd]; exact ⟨ih1, sc0, g0, g1, g2⟩
    · rw [hd]; exact ⟨ih1, sc0, g0, g1, g2⟩
    · rw [hd]
      simp only
      have hgr := hD.grows
      refine ⟨?_, ?_⟩
      · intro ref sym hs
        rcases hD.symbol_cases hs with hold | ⟨hr, hnew⟩
        · obtain ⟨a, b⟩ := ih1 ref sym hold
          refine ⟨a, ?_⟩
          intro c hc
          obtain ⟨child, c1, c2, c3⟩ := b c hc
          obtain ⟨ch1, d1, d2, d3, -⟩ := hgr.scopes _ _ c1
          exact ⟨ch1, d1, d2.trans c2, d3.trans c3⟩
        · subst hnew
          subst hr
          unfold newSymbol
          refine ⟨?_, ?_⟩
          · simp only
            by_cases hk : kind = .Function
            · simp [hk]
            · simp [hk]
          · intro c hc
            simp only at hc
            by_cases hk : kind = .Function
            · rw [if_pos hk] at hc
              simp only [Option.some.injEq] at hc
              subst hc
              exact ⟨_, hD.child hk, rfl, rfl⟩
            · rw [if_neg hk] at hc
              exact Option.noConfusion hc
      · obtain ⟨s1, d1, d2, d3, -⟩ := hgr.scopes _ _ g0
        exact ⟨s1, d1, d2.trans g1, d3.trans g2⟩

/-- In a store that `declare` has built, no two symbols of one scope have the
same name. -/
theorem Built.distinct {file : File} {T : ScopeTree} (h : Built file T) :
    ∀ id sc, T.get? id = some sc →
      sc.Symbols.Pairwise (fun a b => file.slice a.Name ≠ file.slice b.Name) := by
  induction h with
  | init =>
    intro id sc hg
    have hlt := get?_lt hg
    have h0 : id = 0 := Nat.lt_one_iff.1 hlt
    subst h0
    have : sc = ⟨none, none, []⟩ := (Option.some.inj hg).symm
    subst this
    exact List.Pairwise.nil
  | @declare T hB id kind name ih =>
    rcases declare_cases file T id kind name with ⟨r, -, hd⟩ | ⟨-, -, hd⟩ | ⟨sc, T1, hd, hD⟩
    · rw [hd]; exact ih
    · rw [hd]; exact ih
    · rw [hd]
      simp only
      intro j scj hg
      rcases hD.get?_cases hg with ⟨-, hsc⟩ | ⟨-, hsc⟩ | ⟨-, -, hsc⟩
      · subst hsc
        simp only
        rw [List.pairwise_append]
        refine ⟨ih _ _ hD.scope, List.pairwise_singleton _ _, ?_⟩
        intro a ha b hb
        rw [List.mem_singleton.1 hb]
        have hnone := lookup_none_find hD.fresh hD.scope
        rw [find_eq_none] at hnone
        exact hnone a ha
      · exact ih _ _ hsc
      · subst hsc
        exact List.Pairwise.nil

end ScopeTree

/-- C25 (a name twice on a chain). On
`function f() g = 1 return g end function g() return 0 end` the analyzer
returns a scope, built by calls of `declare`: the scope of `f`, whose parent
is the global scope, holds the variable `g`, declared at offset 13, and the
global scope holds the function `g`, declared later, at offset 41. The chain
from the scope of `f` to the root holds the name `g` twice. -/
theorem name_twice_on_chain :
    ∃ tu T, Examples.parsed Examples.lateFunction = some tu ∧
      Analyze Examples.lateFunction tu "" = some (some T, "") ∧
      ScopeTree.Built Examples.lateFunction T ∧
      ∃ sc1 sc0 a b, T.get? 1 = some sc1 ∧ sc1.Parent = some 0 ∧ T.get? 0 = some sc0 ∧
        a ∈ sc1.Symbols ∧ b ∈ sc0.Symbols ∧ a.Name = ⟨13, 14⟩ ∧ b.Name = ⟨41, 42⟩ ∧
        Examples.lateFunction.slice a.Name = Examples.lateFunction.slice b.Name := by
  have h : Analyze Examples.lateFunction
      ⟨[⟨⟨9, 10⟩, [], ⟨[.ExprStmt (.BinaryExpr .Assign (.IdentifierExpr ⟨13, 14⟩)
            (.NumberExpr ⟨0⟩ ⟨17, 18⟩) ⟨13, 18⟩),
          .ReturnStmt (.IdentifierExpr ⟨26, 27⟩) ⟨19, 27⟩], ⟨13, 31⟩⟩, ⟨0, 31⟩⟩,
        ⟨⟨41, 42⟩, [], ⟨[.ReturnStmt (.NumberExpr ⟨0⟩ ⟨52, 53⟩) ⟨45, 53⟩], ⟨45, 57⟩⟩,
          ⟨32, 57⟩⟩], ⟨0, 57⟩⟩ "" =
      some (some ⟨[⟨none, none, [⟨.Function, ⟨9, 10⟩, some 1⟩, ⟨.Function, ⟨41, 42⟩, some 2⟩]⟩,
        ⟨some 0, some ⟨0, 0⟩, [⟨.Var, ⟨13, 14⟩, none⟩]⟩,
        ⟨some 0, some ⟨0, 1⟩, []⟩]⟩, "") := by decide
  exact ⟨_, _, rfl, h, AnalyzerVisitor.Analyze_built h, _, _, ⟨.Var, ⟨13, 14⟩, none⟩,
    ⟨.Function, ⟨41, 42⟩, some 2⟩, rfl, rfl, rfl, by decide, by decide, rfl, rfl, by decide⟩

/-- C25. The contract of `declare`, on a scope `id` of the store. If the
lookup of the name from the scope finds a symbol, `declare` returns that
symbol and `false`, and the store is the same. Otherwise `declare` returns
`true` and a new symbol, of the kind and the name given, which is behind the
symbols of the scope; the scopes of the store other than `id` are the same;
and the lookup of the name from the scope finds the new symbol afterwards.
Hence, in every store that calls of `declare` have built, no two symbols of
one scope have the same name. -/
theorem declare_contract :
    (∀ (file : File) (T : ScopeTree) (id : ScopeId) (sc : Scope) (kind : SymbolKind)
      (name : Range), T.get? id = some sc →
      (∀ r, T.lookup file id name = some r →
        T.declare file id kind name = (some r, false, T)) ∧
      (T.lookup file id name = none →
        ∃ T1, T.declare file id kind name = (some ⟨id, sc.Symbols.length⟩, true, T1) ∧
          T1.get? id = some { sc with Symbols := sc.Symbols ++
            [⟨kind, name, if kind = .Function then some T.scopes.length else none⟩] } ∧
          (∀ j scj, j ≠ id → T.get? j = some scj → T1.get? j = some scj) ∧
          T1.symbol? ⟨id, sc.Symbols.length⟩ =
            some ⟨kind, name, if kind = .Function then some T.scopes.length else none⟩ ∧
          T1.lookup file id name = some ⟨id, sc.Symbols.length⟩)) ∧
    (∀ (file : File) (T : ScopeTree), ScopeTree.Built file T →
      ∀ id sc, T.get? id = some sc →
        sc.Symbols.Pairwise (fun a b => file.slice a.Name ≠ file.slice b.Name)) := by
  refine ⟨?_, fun file T h => h.distinct⟩
  intro file T id sc kind name hsc
  refine ⟨fun r hl => ScopeTree.declare_found kind hl, ?_⟩
  intro hl
  obtain ⟨T1, hd, hD⟩ := ScopeTree.declare_new kind hl hsc
  exact ⟨T1, hd, hD.here, fun j scj hj hg => hD.other hj hg, hD.lookup_new.2, hD.lookup_new.1⟩

/-- C25, on the store of the constructor and the file `ab`: the name `a` is
declared in the global scope. -/
theorem declare_contract_witness :
    ∃ T1, ScopeTree.declare Examples.overlap ScopeTree.init 0 .Var ⟨0, 1⟩ =
        (some ⟨0, 0⟩, true, T1) ∧
      T1.lookup Examples.overlap 0 ⟨0, 1⟩ = some ⟨0, 0⟩ :=
  ((declare_contract.1 Examples.overlap ScopeTree.init 0 ⟨none, none, []⟩ .Var ⟨0, 1⟩ rfl).2
    (by decide)).imp (fun _ h => ⟨h.1, h.2.2.2.2⟩)

/-- C26. The child-scope invariant. In every store that calls of `declare`
have built, a symbol owns a scope exactly if its kind is `Function`, so a
`Param` and a `Var` own none; the scope a function owns has as its parent the
scope that holds the function symbol, and as its symbol that function symbol;
the global scope has no parent and no symbol. The scope `Analyze` returns is
such a store. -/
theorem child_scope_invariant :
    (∀ (file : File) (T : ScopeTree), ScopeTree.Built file T →
      (∀ ref sym, T.symbol? ref = some sym →
        (sym.TheScope ≠ none ↔ sym.TheKind = .Function) ∧
        (sym.TheKind = .Param ∨ sym.TheKind = .Var → sym.TheScope = none) ∧
        ∀ c, sym.TheScope = some c →
          ∃ child, T.get? c = some child ∧ child.Parent = some ref.scope ∧
            child.TheSymbol = some ref) ∧
      ∃ sc0, T.get? 0 = some sc0 ∧ sc0.Parent = none ∧ sc0.TheSymbol = none) ∧
    (∀ (file : File) (tu : TranslationUnit) (os : String) (T : ScopeTree) (os1 : String),
      Analyze file tu os = some (some T, os1) → ScopeTree.Built file T) := by
  refine ⟨?_, fun file tu os T os1 h => AnalyzerVisitor.Analyze_built h⟩
  intro file T hB
  obtain ⟨h1, h2⟩ := hB.owned
  refine ⟨?_, h2⟩
  intro ref sym hs
  obtain ⟨a, b⟩ := h1 ref sym hs
  refine ⟨a.symm, ?_, b⟩
  intro hk
  by_contra hne
  have := a.2 hne
  rcases hk with hk | hk <;> rw [this] at hk <;> cases hk

/-- C26, on `function f(x) return f(x) end`: the scope that the symbol of `f`
owns has the global scope as its parent and that symbol as its symbol. -/
theorem child_scope_invariant_witness :
    ∃ child,
      ScopeTree.get? ⟨[⟨none, none, [⟨.Function, ⟨9, 10⟩, some 1⟩]⟩,
        ⟨some 0, some ⟨0, 0⟩, [⟨.Param, ⟨11, 12⟩, none⟩]⟩]⟩ 1 = some child ∧
      child.Parent = some 0 ∧ child.TheSymbol = some ⟨0, 0⟩ :=
  ((child_scope_invariant.1 Examples.recursive
    ⟨[⟨none, none, [⟨.Function, ⟨9, 10⟩, some 1⟩]⟩,
      ⟨some 0, some ⟨0, 0⟩, [⟨.Param, ⟨11, 12⟩, none⟩]⟩]⟩
    (child_scope_invariant.2 Examples.recursive
      ⟨[⟨⟨9, 10⟩, [⟨⟨11, 12⟩⟩], ⟨[.ReturnStmt (.CallExpr ⟨21, 22⟩ [.IdentifierExpr ⟨23, 24⟩]
        ⟨21, 25⟩) ⟨14, 25⟩], ⟨14, 29⟩⟩, ⟨0, 29⟩⟩], ⟨0, 29⟩⟩ ""
      ⟨[⟨none, none, [⟨.Function, ⟨9, 10⟩, some 1⟩]⟩,
        ⟨some 0, some ⟨0, 0⟩, [⟨.Param, ⟨11, 12⟩, none⟩]⟩]⟩ "" (by decide))).1
    ⟨0, 0⟩ ⟨.Function, ⟨9, 10⟩, some 1⟩ rfl).2.2 1 rfl

/-! ## What `getSymbols` returns -/

namespace ScopeTree

/-! ## `getSymbols` -/

theorem insertSorted_perm (x : SymbolRef × Symbol) (l : List (SymbolRef × Symbol)) :
    (insertSorted x l).Perm (x :: l) := by
  induction l with
  | nil => exact List.Perm.refl _
  | cons y ys ih =>
    unfold insertSorted
    split
    · exact List.Perm.refl _
    · exact ((List.perm_cons y).2 ih).trans (List.Perm.swap x y ys)

theorem sortSymbols_perm (l : List (SymbolRef × Symbol)) : (sortSymbols l).Perm l := by
  unfold sortSymbols
  induction l with
  | nil => exact List.Perm.refl _
  | cons x xs ih =>
    rw [List.foldr_cons]
    exact (insertSorted_perm x _).trans ((List.perm_cons x).2 ih)

theorem insertSorted_sorted (x : SymbolRef × Symbol) (l : List (SymbolRef × Symbol))
    (h : l.Pairwise (fun a b => a.2.Name.Begin ≤ b.2.Name.Begin)) :
    (insertSorted x l).Pairwise (fun a b => a.2.Name.Begin ≤ b.2.Name.Begin) := by
  induction l with
  | nil => exact List.pairwise_singleton _ _
  | cons y ys ih =>
    rw [List.pairwise_cons] at h
    unfold insertSorted
    split
    · rename_i hlt
      have hxy : x.2.Name.Begin < y.2.Name.Begin := by
        simpa [Range.lt] using hlt
      rw [List.pairwise_cons]
      refine ⟨?_, List.pairwise_cons.2 h⟩
      intro b hb
      rcases List.mem_cons.1 hb with hb | hb
      · rw [hb]; exact Nat.le_of_lt hxy
      · exact (Nat.le_of_lt hxy).trans (h.1 b hb)
    · rename_i hlt
      have hyx : y.2.Name.Begin ≤ x.2.Name.Begin := by
        have : ¬ x.2.Name.Begin < y.2.Name.Begin := by simpa [Range.lt] using hlt
        exact Nat.le_of_not_lt this
      rw [List.pairwise_cons]
      refine ⟨?_, ih h.2⟩
      intro b hb
      rcases List.mem_cons.1 ((insertSorted_perm x ys).mem_iff.1 hb) with hb | hb
      · rw [hb]; exact hyx
      · exact h.1 b hb

theorem sortSymbols_sorted (l : List (SymbolRef × Symbol)) :
    (sortSymbols l).Pairwise (fun a b => a.2.Name.Begin ≤ b.2.Name.Begin) := by
  unfold sortSymbols
  induction l with
  | nil => exact List.Pairwise.nil
  | cons x xs ih =>
    rw [List.foldr_cons]
    exact insertSorted_sorted x _ ih

/-- A list in strictly ascending order of the begin offsets is sorted
already. -/
theorem sortSymbols_of_increasing (l : List (SymbolRef × Symbol))
    (h : l.Pairwise (fun a b => a.2.Name.Begin < b.2.Name.Begin)) : sortSymbols l = l := by
  induction l with
  | nil => rfl
  | cons x xs ih =>
    rw [List.pairwise_cons] at h
    have hs : sortSymbols (x :: xs) = insertSorted x (sortSymbols xs) := rfl
    rw [hs, ih h.2]
    cases xs with
    | nil => rfl
    | cons y ys =>
      unfold insertSorted
      have hxy := h.1 y (List.mem_cons_self _ _)
      rw [if_pos (by simpa [Range.lt] using hxy)]

/-- The pairs `getSymbols` sorts: the symbols of the scope of the kind asked
for, each with its `Symbol *`. -/
theorem getSymbols_eq {T : ScopeTree} {id : ScopeId} {sc : Scope} (h : T.get? id = some sc)
    (kind : Option SymbolKind) :
    T.getSymbols id kind =
      (sortSymbols ((sc.Symbols.enum.filter
        (fun p => kind.isNone || (some p.2.TheKind == kind))).map
          (fun p => ((⟨id, p.1⟩ : SymbolRef), p.2)))).map (fun p => p.1) := by
  unfold getSymbols
  rw [h]
  simp only
  rw [List.enum_eq_zip_range]

theorem mem_entries {id : ScopeId} {sc : Scope} {kind : Option SymbolKind}
    {q : SymbolRef × Symbol} :
    q ∈ (sc.Symbols.enum.filter
        (fun p => kind.isNone || (some p.2.TheKind == kind))).map
          (fun p => ((⟨id, p.1⟩ : SymbolRef), p.2)) ↔
      q.1.scope = id ∧ sc.Symbols[q.1.index]? = some q.2 ∧
        (kind = none ∨ kind = some q.2.TheKind) := by
  simp only [List.mem_map, List.mem_filter, Prod.exists]
  constructor
  · rintro ⟨i, sym, ⟨hm, hc⟩, rfl⟩
    refine ⟨rfl, List.mk_mem_enum_iff_getElem?.1 hm, ?_⟩
    cases kind with
    | none => exact Or.inl rfl
    | some k =>
      right
      simp only [Option.isNone_some, Bool.false_or, beq_iff_eq, Option.some.injEq] at hc
      rw [hc]
  · rintro ⟨h1, h2, h3⟩
    obtain ⟨⟨s, i⟩, sym⟩ := q
    simp only at h1 h2 h3
    subst h1
    refine ⟨i, sym, ⟨List.mk_mem_enum_iff_getElem?.2 h2, ?_⟩, rfl⟩
    rcases h3 with h3 | h3
    · rw [h3]; rfl
    · rw [h3]; simp

theorem symbol?_eq {T : ScopeTree} {id : ScopeId} {sc : Scope} (h : T.get? id = some sc)
    (i : Nat) : T.symbol? ⟨id, i⟩ = sc.Symbols[i]? := by
  unfold symbol?
  simp only
  rw [h]
  exact List.get?_eq_getElem? _ _

theorem entries_nodup (id : ScopeId) (sc : Scope) (kind : Option SymbolKind) :
    (((sc.Symbols.enum.filter
        (fun p => kind.isNone || (some p.2.TheKind == kind))).map
          (fun p => ((⟨id, p.1⟩ : SymbolRef), p.2))).map (fun p => p.1)).Nodup := by
  rw [List.map_map]
  have h1 : (sc.Symbols.enum.map Prod.fst).Nodup := by
    rw [List.enum_map_fst]; exact List.nodup_range _
  have h2 : ((sc.Symbols.enum.filter
      (fun p => kind.isNone || (some p.2.TheKind == kind))).map Prod.fst).Nodup :=
    List.Sublist.nodup ((List.filter_sublist _).map _) h1
  have h3 := List.Nodup.map (f := fun i : Nat => (⟨id, i⟩ : SymbolRef))
    (fun a b hab => by simpa using hab) h2
  rw [List.map_map] at h3
  exact h3

end ScopeTree

namespace ScopeTree

/-- The symbols of a scope with their positions, in strictly ascending order
of the begin offsets if the symbols are. -/
theorem enum_increasing {l : List Symbol}
    (h : l.Pairwise (fun a b => a.Name.Begin < b.Name.Begin)) :
    l.enum.Pairwise (fun a b => a.2.Name.Begin < b.2.Name.Begin) := by
  have h1 : (l.enum.map Prod.snd).Pairwise (fun a b => a.Name.Begin < b.Name.Begin) := by
    rw [List.enum_map_snd]; exact h
  rw [List.pairwise_map] at h1
  exact h1

/-- On a scope whose symbols are in strictly ascending order of the begin
offsets, `getSymbols` returns the symbols of the kind asked for in the order
of the scope. -/
theorem getSymbols_of_increasing {T : ScopeTree} {id : ScopeId} {sc : Scope}
    (h : T.get? id = some sc) (kind : Option SymbolKind)
    (hinc : sc.Symbols.Pairwise (fun a b => a.Name.Begin < b.Name.Begin)) :
    T.getSymbols id kind =
      (sc.Symbols.enum.filter (fun p => kind.isNone || (some p.2.TheKind == kind))).map
        (fun p => (⟨id, p.1⟩ : SymbolRef)) := by
  rw [getSymbols_eq h, sortSymbols_of_increasing, List.map_map]
  · rfl
  · rw [List.pairwise_map]
    exact (enum_increasing hinc).filter _

/-- What `getSymbols` returns, on every scope of every store. -/
theorem getSymbols_spec {T : ScopeTree} {id : ScopeId} {sc : Scope} (h : T.get? id = some sc)
    (kind : Option SymbolKind) :
    (∀ r, r ∈ T.getSymbols id kind ↔
      r.scope = id ∧ ∃ sym, T.symbol? r = some sym ∧ (kind = none ∨ kind = some sym.TheKind)) ∧
    (T.getSymbols id kind).Nodup ∧
    (T.getSymbols id kind).Pairwise (fun r1 r2 => ∀ s1 s2, T.symbol? r1 = some s1 →
      T.symbol? r2 = some s2 → s1.Name.Begin ≤ s2.Name.Begin) ∧
    (sc.Symbols.Pairwise (fun a b => a.Name.Begin ≠ b.Name.Begin) →
      (T.getSymbols id kind).Pairwise (fun r1 r2 => ∀ s1 s2, T.symbol? r1 = some s1 →
        T.symbol? r2 = some s2 → s1.Name.Begin < s2.Name.Begin)) := by
  have hperm := sortSymbols_perm ((sc.Symbols.enum.filter
    (fun p => kind.isNone || (some p.2.TheKind == kind))).map
      (fun p => ((⟨id, p.1⟩ : SymbolRef), p.2)))
  have hmem : ∀ q, q ∈ sortSymbols ((sc.Symbols.enum.filter
      (fun p => kind.isNone || (some p.2.TheKind == kind))).map
        (fun p => ((⟨id, p.1⟩ : SymbolRef), p.2))) ↔
      q.1.scope = id ∧ sc.Symbols[q.1.index]? = some q.2 ∧
        (kind = none ∨ kind = some q.2.TheKind) :=
    fun q => (hperm.mem_iff).trans mem_entries
  have hsym : ∀ q, q ∈ sortSymbols ((sc.Symbols.enum.filter
      (fun p => kind.isNone || (some p.2.TheKind == kind))).map
        (fun p => ((⟨id, p.1⟩ : SymbolRef), p.2))) → T.symbol? q.1 = some q.2 := by
    intro q hq
    obtain ⟨a, b, -⟩ := (hmem q).1 hq
    obtain ⟨⟨s, i⟩, sym⟩ := q
    simp only at a b
    subst a
    rw [symbol?_eq h]
    exact b
  have hnd : (T.getSymbols id kind).Nodup := by
    rw [getSymbols_eq h]
    exact ((hperm.map _).nodup_iff).2 (entries_nodup id sc kind)
  have hsorted : (T.getSymbols id kind).Pairwise (fun r1 r2 => ∀ s1 s2,
      T.symbol? r1 = some s1 → T.symbol? r2 = some s2 → s1.Name.Begin ≤ s2.Name.Begin) := by
    rw [getSymbols_eq h, List.pairwise_map]
    have := List.Pairwise.and_mem.1 (sortSymbols_sorted ((sc.Symbols.enum.filter
      (fun p => kind.isNone || (some p.2.TheKind == kind))).map
        (fun p => ((⟨id, p.1⟩ : SymbolRef), p.2))))
    refine this.imp ?_
    rintro a b ⟨ha, hb, hle⟩ s1 s2 h1 h2
    rw [hsym a ha] at h1
    rw [hsym b hb] at h2
    rw [← Option.some.inj h1, ← Option.some.inj h2]
    exact hle
  have hmemr : ∀ r, r ∈ T.getSymbols id kind ↔
      r.scope = id ∧ ∃ sym, T.symbol? r = some sym ∧
        (kind = none ∨ kind = some sym.TheKind) := by
    intro r
    rw [getSymbols_eq h]
    simp only [List.mem_map]
    constructor
    · rintro ⟨q, hq, rfl⟩
      obtain ⟨a, -, c⟩ := (hmem q).1 hq
      exact ⟨a, q.2, hsym q hq, c⟩
    · rintro ⟨h1, sym, h2, h3⟩
      refine ⟨(r, sym), (hmem _).2 ⟨h1, ?_, h3⟩, rfl⟩
      obtain ⟨s, i⟩ := r
      simp only at h1
      subst h1
      rw [symbol?_eq h] at h2
      exact h2
  refine ⟨hmemr, hnd, hsorted, ?_⟩
  · intro hne
    have hboth := hsorted.and hnd
    refine (List.Pairwise.and_mem.1 hboth).imp ?_
    rintro r1 r2 ⟨hr1, hr2, hle, hneq⟩ s1 s2 h1 h2
    have hle2 := hle s1 s2 h1 h2
    have hrs1 := ((hmemr r1).1 hr1).1
    have hrs2 := ((hmemr r2).1 hr2).1
    obtain ⟨s, i⟩ := r1
    obtain ⟨t, j⟩ := r2
    simp only at hrs1 hrs2
    subst hrs1
    subst hrs2
    rw [symbol?_eq h] at h1 h2
    have hij : i ≠ j := fun e => hneq (by rw [e])
    have hdiff : s1.Name.Begin ≠ s2.Name.Begin := by
      obtain ⟨hi, e1⟩ := List.getElem?_eq_some_iff.1 h1
      obtain ⟨hj, e2⟩ := List.getElem?_eq_some_iff.1 h2
      rw [List.pairwise_iff_getElem] at hne
      rcases Nat.lt_or_gt_of_ne hij with hlt | hgt
      · have := hne i j hi hj hlt
        rw [e1, e2] at this
        exact this
      · have := hne j i hj hi hgt
        rw [e1, e2] at this
        exact fun e => this e.symm
    exact Nat.lt_of_le_of_ne hle2 hdiff

end ScopeTree

/-! ## The names of the nodes the parser builds -/

namespace Lexer

theorem lex_nonempty (L : Lexer) (h : (L.lex).1 ≠ Token.EndOfFile) :
    (L.lex).2.Range.Begin < (L.lex).2.Range.End := by
  have hT := adv_skipTrivia (L.File.size + 1) L
  unfold lex at h ⊢
  generalize skipTrivia (L.File.size + 1) L = L1 at hT h ⊢
  obtain ⟨hf, ht, hm, hb, hP, hE, hB⟩ := lexToken_spec L1
  obtain ⟨h1, h2⟩ := hP h
  have h3 : L1.Current ≤ L1.File.size := by omega
  rw [hE, hB, toOffset_of_le_size h2, toOffset_of_le_size h3]
  exact h1

theorem next_fresh (L : Lexer) : Fresh L.next := by
  intro h
  have := lex_nonempty L
  unfold next at h ⊢
  generalize L.lex = r at *
  exact this h

theorem Span.fresh {L L1 : Lexer} {ts : List Token} (h : Span L ts L1) (hf : Fresh L) :
    Fresh L1 := by
  induction ts generalizing L with
  | nil => rw [show L1 = L from h]; exact hf
  | cons t ts ih => exact ih h.2.2 (next_fresh L)

end Lexer

namespace Parser

theorem consume_fresh (P : Parser) (t : Token) : (P.consume t).TheLexer.Fresh :=
  Lexer.next_fresh P.TheLexer

theorem Consumed.freshAfter {P P1 : Parser} {ts : List Token} (h : Consumed P P1 ts)
    (hf : P.TheLexer.Fresh) : P1.TheLexer.Fresh :=
  Lexer.Span.fresh h hf

end Parser

theorem Expr.mem_identifiersOf {n : Range} (args : List Expr) :
    n ∈ Expr.identifiersOf args ↔ ∃ a ∈ args, n ∈ a.identifiers := by
  induction args with
  | nil => simp [Expr.identifiersOf]
  | cons a rest ih =>
    simp only [Expr.identifiersOf, List.mem_append, ih, List.mem_cons, exists_eq_or_imp]

theorem Expr.Named_number (value : Double) (range : Range) :
    (Expr.NumberExpr value range).Named := by
  intro n hn
  simp [Expr.identifiers] at hn

theorem Expr.Named_identifier {name : Range} (h : name.Begin < name.End) :
    (Expr.IdentifierExpr name).Named := by
  intro n hn
  simp only [Expr.identifiers, List.mem_singleton] at hn
  rw [hn]; exact h

theorem Expr.Named_call (callee : Range) (args : List Expr) (range : Range) :
    (Expr.CallExpr callee args range).Named ↔ ∀ a ∈ args, a.Named := by
  unfold Expr.Named
  simp only [Expr.identifiers, Expr.mem_identifiersOf]
  constructor
  · intro h a ha n hn
    exact h n ⟨a, ha, hn⟩
  · rintro h n ⟨a, ha, hn⟩
    exact h a ha n hn

theorem Expr.Named_binary (op : Op) (lhs rhs : Expr) (range : Range) :
    (Expr.BinaryExpr op lhs rhs range).Named ↔ lhs.Named ∧ rhs.Named := by
  unfold Expr.Named
  simp only [Expr.identifiers, List.mem_append, or_imp, forall_and]

namespace Parser

theorem expr_named (X : Extern) (fuel : Nat) :
    (∀ ctx P, P.TheLexer.WF → P.TheLexer.Fresh →
      Result.Post (fun e _ => e.Named) (parsePrimaryExpr X fuel ctx P)) ∧
    (∀ P, P.TheLexer.WF → P.TheLexer.Fresh → P.getCurrent = .Identifier →
      Result.Post (fun e _ => e.Named) (parseIdentifierOrCallExpr X fuel P)) ∧
    (∀ args P, P.TheLexer.WF → P.TheLexer.Fresh → (∀ a ∈ args, a.Named) →
      Result.Post (fun as _ => ∀ a ∈ as, a.Named) (parseArgs X fuel args P)) ∧
    (∀ minPrec ctx P, P.TheLexer.WF → P.TheLexer.Fresh →
      Result.Post (fun e _ => e.Named) (parseBinaryExpr X fuel minPrec ctx P)) ∧
    (∀ minPrec lhs P, P.TheLexer.WF → P.TheLexer.Fresh → lhs.Named →
      Result.Post (fun e _ => e.Named) (parseBinaryExprLoop X fuel minPrec lhs P)) := by
  induction fuel with
  | zero =>
    refine ⟨?_, ?_, ?_, ?_, ?_⟩ <;> intros <;> exact .outOfFuel
  | succ n ih =>
    obtain ⟨ihPrim, ihId, ihArgs, ihBin, ihLoop⟩ := ih
    obtain ⟨rgPrim, rgId, rgArgs, rgBin, rgLoop⟩ := expr_ranges X n
    obtain ⟨grPrim, grId, grArgs, grBin, grLoop⟩ := expr_grammar X n
    refine ⟨?_, ?_, ?_, ?_, ?_⟩
    · intro ctx P hwf hfr
      rw [parsePrimaryExpr]
      split
      · unfold parseNumberExpr
        simp only
        split
        · exact .null _
        · exact .ok (Expr.Named_number _ _)
      · rename_i hc
        exact ihId P hwf hfr hc
      all_goals exact .null _
    · intro P hwf hfr hc
      rw [parseIdentifierOrCallExpr]
      simp only
      have hname : P.TheLexer.getRange.Begin < P.TheLexer.getRange.End :=
        hfr (by
          have : P.TheLexer.CurrentToken = Token.Identifier := hc
          rw [this]; decide)
      obtain ⟨hA1, hE1⟩ := After.afterConsume hwf .Identifier
      obtain ⟨hA2, hE2⟩ := After.afterConsume hA1.wf .LParen
      refine Result.Post.itePost (fun _ => .ok (Expr.Named_identifier hname)) (fun _ => ?_)
      refine Result.Post.bindPost
        (ihArgs [] _ hA2.wf (consume_fresh _ _) (by simp)) ?_
      intro args P3 h3
      refine Result.Post.itePost (fun _ => .null _) (fun _ => .ok ?_)
      rw [Expr.Named_call]
      exact h3
    · intro args P hwf hfr hargs
      rw [parseArgs]
      refine Result.Post.itePost (fun _ => ?_) (fun _ => .ok hargs)
      refine Result.Post.bindPost ((rgBin 0 _ P hwf).andPost (ihBin 0 _ P hwf hfr)) ?_
      intro arg P1 h1
      obtain ⟨⟨hA1, hfit⟩, hao⟩ := h1
      have hnew : ∀ a ∈ args ++ [arg], a.Named := by
        intro a ha
        rcases List.mem_append.1 ha with ha | ha
        · exact hargs a ha
        · rw [List.mem_singleton.1 ha]; exact hao
      refine Result.Post.itePost (fun _ => .ok hnew) (fun _ => ?_)
      obtain ⟨hA2, hE2⟩ := After.afterConsume hA1.wf .Comma
      exact ihArgs _ _ hA2.wf (consume_fresh _ _) hnew
    · intro minPrec ctx P hwf hfr
      rw [parseBinaryExpr]
      refine Result.Post.bindPost (((rgPrim ctx P hwf).andPost (grPrim ctx P)).andPost
        (ihPrim ctx P hwf hfr)) ?_
      intro lhs P1 h1
      obtain ⟨⟨⟨hA1, -⟩, ts, hts, -⟩, hlo⟩ := h1
      exact ihLoop minPrec lhs P1 hA1.wf (hts.freshAfter hfr) hlo
    · intro minPrec lhs P hwf hfr hord
      rw [parseBinaryExprLoop]
      simp only
      split
      · exact .ok hord
      · rename_i op hop
        refine Result.Post.itePost (fun _ => .ok hord) (fun _ => ?_)
        obtain ⟨hA1, hE1⟩ := After.afterConsume hwf P.getCurrent
        refine Result.Post.bindPost (((rgBin _ _ _ hA1.wf).andPost (grBin _ _ _)).andPost
          (ihBin _ _ _ hA1.wf (consume_fresh _ _))) ?_
        intro rhs P2 h2
        obtain ⟨⟨⟨hA2, -⟩, ts, hts, -⟩, hro⟩ := h2
        have hnewo : (Expr.BinaryExpr op lhs rhs
            ⟨lhs.getRange.Begin, rhs.getRange.End⟩).Named :=
          (Expr.Named_binary _ _ _ _).2 ⟨hord, hro⟩
        exact ihLoop minPrec _ P2 hA2.wf (hts.freshAfter (consume_fresh _ _)) hnewo

end Parser

namespace Parser

theorem parseStmt_named (X : Extern) (fuel : Nat) (ctx : String) (P : Parser)
    (h : P.TheLexer.WF) (hf : P.TheLexer.Fresh) :
    Result.Post (fun st _ => st.expr.Named) (parseStmt X fuel ctx P) := by
  have hE : Result.Post (fun st _ => st.expr.Named) (parseExprStmt X fuel ctx P) := by
    unfold parseExprStmt
    refine Result.Post.bindPost ((expr_named X fuel).2.2.2.1 0 ctx P h hf) ?_
    intro e P1 h1
    exact .ok h1
  unfold parseStmt
  split
  · unfold parseReturnStmt
    simp only
    obtain ⟨hA1, hE1⟩ := After.afterConsume h .Return
    refine Result.Post.bindPost
      ((expr_named X fuel).2.2.2.1 0 _ _ hA1.wf (consume_fresh _ _)) ?_
    intro e P2 h2
    exact .ok h2
  all_goals exact hE

theorem parseStmts_named (X : Extern) (fuel : Nat) :
    ∀ ctx stmts P, P.TheLexer.WF → P.TheLexer.Fresh →
      (∀ st ∈ stmts, st.expr.Named) →
      Result.Post (fun sts _ => ∀ st ∈ sts, st.expr.Named)
        (parseStmts X fuel ctx stmts P) := by
  induction fuel with
  | zero => intros; exact .outOfFuel
  | succ n ih =>
    intro ctx stmts P hwf hfr hall
    rw [parseStmts]
    refine Result.Post.itePost (fun _ => ?_) (fun _ => .ok hall)
    refine Result.Post.bindPost
      (((parseStmt_ranges X n ctx P hwf).andPost (parseStmt_grammar X n ctx P)).andPost
        (parseStmt_named X n ctx P hwf hfr)) ?_
    intro st P1 h1
    obtain ⟨⟨⟨hA1, -⟩, ts, hts, -⟩, hso⟩ := h1
    refine ih ctx _ P1 hA1.wf (hts.freshAfter hfr) ?_
    intro s hs
    rcases List.mem_append.1 hs with hs | hs
    · exact hall s hs
    · rw [List.mem_singleton.1 hs]; exact hso

theorem parseCompoundStmt_named (X : Extern) (fuel : Nat) (ctx : String) (P : Parser)
    (h : P.TheLexer.WF) (hf : P.TheLexer.Fresh) :
    Result.Post (fun cs _ => ∀ st ∈ cs.Stmts, st.expr.Named)
      (parseCompoundStmt X fuel ctx P) := by
  unfold parseCompoundStmt
  simp only
  refine Result.Post.bindPost (parseStmts_named X fuel ctx [] P h hf (by simp)) ?_
  intro sts P1 h1
  exact .ok h1

theorem parseParams_spaced (X : Extern) (fuel : Nat) :
    ∀ params P, P.TheLexer.WF → P.TheLexer.Fresh →
      (∀ pd ∈ params, pd.Name.Begin < pd.Name.End ∧ pd.Name.End ≤ P.TheLexer.Range.Begin) →
      params.Pairwise (fun a b => a.Name.End ≤ b.Name.Begin) →
      Result.Post (fun pds P1 =>
        (∀ pd ∈ pds, pd.Name.Begin < pd.Name.End ∧ pd.Name.End ≤ P1.TheLexer.Range.Begin) ∧
          pds.Pairwise (fun a b => a.Name.End ≤ b.Name.Begin))
        (parseParams X fuel params P) := by
  induction fuel with
  | zero => intros; exact .outOfFuel
  | succ n ih =>
    intro params P hwf hfr hall hpw
    rw [parseParams]
    refine Result.Post.itePost (fun _ => ?_) (fun _ => .ok ⟨hall, hpw⟩)
    refine Result.Post.itePost (fun _ => .null _) (fun hc => ?_)
    have hc : P.getCurrent = .Identifier := by simpa using hc
    have hname : P.TheLexer.getRange.Begin < P.TheLexer.getRange.End :=
      hfr (by
        have : P.TheLexer.CurrentToken = Token.Identifier := hc
        rw [this]; decide)
    simp only
    obtain ⟨hA1, hE1⟩ := After.afterConsume hwf .Identifier
    obtain ⟨hA2, hE2⟩ := After.afterConsume hA1.wf .Comma
    have hall1 : ∀ pd ∈ params ++ [(⟨P.TheLexer.getRange⟩ : ParamDecl)],
        pd.Name.Begin < pd.Name.End ∧
          pd.Name.End ≤ (P.consume .Identifier).TheLexer.Range.Begin := by
      intro pd hpd
      rcases List.mem_append.1 hpd with hpd | hpd
      · obtain ⟨a, c⟩ := hall pd hpd
        exact ⟨a, c.trans hA1.begin_le⟩
      · rw [List.mem_singleton.1 hpd]
        exact ⟨hname, hE1⟩
    have hpw1 : (params ++ [(⟨P.TheLexer.getRange⟩ : ParamDecl)]).Pairwise
        (fun a b => a.Name.End ≤ b.Name.Begin) := by
      rw [List.pairwise_append]
      refine ⟨hpw, List.pairwise_singleton _ _, ?_⟩
      intro a ha b hb
      rw [List.mem_singleton.1 hb]
      exact (hall a ha).2
    refine Result.Post.itePost (fun _ => .ok ⟨hall1, hpw1⟩) (fun _ => ?_)
    refine ih _ _ hA2.wf (consume_fresh _ _) ?_ hpw1
    intro pd hpd
    obtain ⟨a, c⟩ := hall1 pd hpd
    exact ⟨a, c.trans hA2.begin_le⟩

theorem parseFunctionDecl_spaced (X : Extern) (fuel : Nat) (ctx : String) (P : Parser)
    (h : P.TheLexer.WF) :
    Result.Post (fun fn _ => fn.Spaced) (parseFunctionDecl X fuel ctx P) := by
  unfold parseFunctionDecl
  simp only
  obtain ⟨hA1, hE1⟩ := After.afterConsume h .Function
  obtain ⟨hA2, hE2⟩ := After.afterConsume hA1.wf .Identifier
  obtain ⟨hA3, hE3⟩ := After.afterConsume hA2.wf .LParen
  refine Result.Post.itePost (fun _ => .null _) (fun _ => ?_)
  refine Result.Post.itePost (fun _ => .null _) (fun h2 => ?_)
  have h2 : (P.consume .Function).getCurrent = .Identifier := by simpa using h2
  have hname : (P.consume .Function).TheLexer.getRange.Begin <
      (P.consume .Function).TheLexer.getRange.End :=
    consume_fresh P .Function (by
      have : (P.consume .Function).TheLexer.CurrentToken = Token.Identifier := h2
      rw [this]; decide)
  refine Result.Post.itePost (fun _ => .null _) (fun _ => ?_)
  refine Result.Post.bindPost ((parseParams_ranges X fuel [] _
    (((P.consume .Function).consume .Identifier).consume .LParen).TheLexer.Range.Begin
    hA3.wf (Nat.le_refl _) (by simp)).andPost
    (parseParams_spaced X fuel [] _ hA3.wf (consume_fresh _ _) (by simp) List.Pairwise.nil)) ?_
  intro params P4 h4
  obtain ⟨⟨hA4, -⟩, hparams, hpw⟩ := h4
  refine Result.Post.itePost (fun _ => .null _) (fun _ => ?_)
  obtain ⟨hA5, hE5⟩ := After.afterConsume hA4.wf .RParen
  refine Result.Post.bindPost ((parseCompoundStmt_ranges X fuel _ _ hA5.wf).andPost
    (parseCompoundStmt_named X fuel _ _ hA5.wf (consume_fresh _ _))) ?_
  intro body P6 h6
  obtain ⟨⟨hA6, hbody, hbb, hbe⟩, hbo⟩ := h6
  have hb1 := hA1.begin_le
  have hb2 := hA2.begin_le
  have hb3 := hA3.begin_le
  have hb4 := hA4.begin_le
  have hb5 := hA5.begin_le
  have hbv := hbody.1.1
  simp only [getRange_eq] at hname
  refine .ok ⟨?_, ?_, ?_, ?_, hpw, hbo⟩
  · simp only [getRange_eq]
    exact hb1
  · simp only [getRange_eq]
    exact hname
  · simp only [getRange_eq]
    omega
  · intro pd hpd
    obtain ⟨a, c⟩ := hparams pd hpd
    refine ⟨a, ?_⟩
    simp only
    rw [hbb]
    omega

theorem parseFunctions_spaced (X : Extern) (fuel : Nat) :
    ∀ fns P, P.TheLexer.WF → (∀ fn ∈ fns, fn.Spaced) →
      Result.Post (fun fs _ => ∀ fn ∈ fs, fn.Spaced) (parseFunctions X fuel fns P) := by
  induction fuel with
  | zero => intros; exact .outOfFuel
  | succ n ih =>
    intro fns P hwf hall
    rw [parseFunctions]
    refine Result.Post.itePost (fun _ => ?_) (fun _ => .ok hall)
    refine Result.Post.bindPost ((parseFunctionDecl_ranges X n _ P hwf).andPost
      (parseFunctionDecl_spaced X n _ P hwf)) ?_
    intro fn P1 h1
    obtain ⟨⟨hA1, -⟩, hfo⟩ := h1
    refine ih _ P1 hA1.wf ?_
    intro f hf
    rcases List.mem_append.1 hf with hf | hf
    · exact hall f hf
    · rw [List.mem_singleton.1 hf]; exact hfo

theorem parseTranslationUnit_spaced (X : Extern) (fuel : Nat) (P : Parser)
    (h : P.TheLexer.WF) :
    Result.Post (fun tu _ => tu.Spaced) (parseTranslationUnit X fuel P) := by
  unfold parseTranslationUnit
  simp only
  rw [prime_eq]
  obtain ⟨hA0, hE0⟩ := After.afterConsume h .EndOfFile
  refine Result.Post.bindPost (parseFunctions_spaced X fuel [] _ hA0.wf (by simp)) ?_
  intro fns P1 h1
  exact .ok h1

end Parser

/-- The names of the translation unit `Parse` returns stand apart. -/
theorem Parse_spaced {X : Extern} {file : File} {os : String} {tu : TranslationUnit}
    {P1 : Parser} (h : Parse X file os = .ok tu P1) : tu.Spaced :=
  (Parser.parseTranslationUnit_spaced X (parseFuel file) ⟨os, Lexer.init file⟩
    (Lexer.init_WF file)).of_eq_ok h

/-! ## The store of an accepted translation unit -/

namespace ScopeTree

theorem declareAll_nil (file : File) (T : ScopeTree) (id : ScopeId) (kind : SymbolKind) :
    T.declareAll file id kind [] = T := rfl

theorem declareAll_cons (file : File) (T : ScopeTree) (id : ScopeId) (kind : SymbolKind)
    (n : Range) (ns : List Range) :
    T.declareAll file id kind (n :: ns) =
      ((T.declare file id kind n).2.2).declareAll file id kind ns := rfl

theorem declareAll_append (file : File) (T : ScopeTree) (id : ScopeId) (kind : SymbolKind)
    (ns ms : List Range) :
    T.declareAll file id kind (ns ++ ms) =
      (T.declareAll file id kind ns).declareAll file id kind ms := by
  unfold declareAll
  rw [List.foldl_append]

end ScopeTree

namespace AnalyzerVisitor
open Walker ScopeTree

/-- A walk of an expression that ends with no error has declared the
identifiers of the expression, in the order of the walk, and nothing else. -/
theorem walkExpr_clean (file : File) :
    (∀ e (A : AnalyzerVisitor) cur, Inv A → A.CurrentScope = some cur →
      (walkExpr (visitor file) e A).Error = false →
      walkExpr (visitor file) e A =
        { A with GlobalScope := A.GlobalScope.declareAll file cur .Var e.identifiers }) ∧
    (∀ es (A : AnalyzerVisitor) cur, Inv A → A.CurrentScope = some cur →
      (walkExprs (visitor file) es A).Error = false →
      walkExprs (visitor file) es A =
        { A with GlobalScope :=
          A.GlobalScope.declareAll file cur .Var (Expr.identifiersOf es) }) := by
  apply Expr.induct
  · intro v r A cur hinv hcur he
    rw [walkExpr_number]
    rfl
  · intro n A cur hinv hcur he
    rw [walkExpr_identifier, enter_identifier file n hcur]
    rfl
  · intro c args r ih A cur hinv hcur he
    rw [walkExpr_call] at he ⊢
    obtain ⟨cur1, hcur1, h⟩ := enter_call file c args r hinv
    rcases h with ⟨-, h⟩ | ⟨_, _, -, -, -, h⟩ | ⟨_, _, _, -, -, -, -, -, h⟩ |
      ⟨_, _, _, -, -, -, -, -, h⟩
    · rw [h] at he
      simp [error] at he
    · rw [h] at he
      simp [error, note] at he
    · rw [h] at he
      simp [error] at he
    · rw [h] at he ⊢
      simp only [if_true] at he ⊢
      rw [ih A cur hinv hcur he]
      rfl
  · intro op l r rg ihl ihr A cur hinv hcur he
    rw [walkExpr_binary] at he ⊢
    rcases enter_binary file op l r rg A with ⟨-, -, h⟩ | ⟨-, h⟩
    · rw [h] at he
      simp [error] at he
    · rw [h] at he ⊢
      simp only [if_true] at he ⊢
      have hl := (walkExpr_step file).1 l A hinv
      have hr := (walkExpr_step file).1 r _ hl.inv
      have hel := hr.toStep.error_false he
      have hcl : (walkExpr (visitor file) l A).CurrentScope = some cur := by
        rw [hl.scope]; exact hcur
      have e2 := ihr _ cur hl.inv hcl he
      have e1 := ihl A cur hinv hcur hel
      rw [e2, e1]
      simp only [Expr.identifiers, declareAll_append]
  · intro A cur hinv hcur he
    rw [walkExprs_nil]
    rfl
  · intro e es ihe ihes A cur hinv hcur he
    rw [walkExprs_cons] at he ⊢
    have hl := (walkExpr_step file).1 e A hinv
    have hr := (walkExpr_step file).2 es _ hl.inv
    have hel := hr.toStep.error_false he
    have hcl : (walkExpr (visitor file) e A).CurrentScope = some cur := by
      rw [hl.scope]; exact hcur
    have e2 := ihes _ cur hl.inv hcl he
    have e1 := ihe A cur hinv hcur hel
    rw [e2, e1]
    simp only [Expr.identifiersOf, declareAll_append]

/-- A walk of statements that ends with no error has declared the identifiers
of the statements, in the order of the walk, and nothing else. -/
theorem atStmt_clean (file : File) (sts : List Stmt) :
    ∀ (A : AnalyzerVisitor) cur, Inv A → A.CurrentScope = some cur →
      (atStmt file sts A).Error = false →
      atStmt file sts A =
        { A with GlobalScope :=
          A.GlobalScope.declareAll file cur .Var (Stmt.identifiersOf sts) } := by
  induction sts with
  | nil =>
    intro A cur hinv hcur he
    rfl
  | cons st rest ih =>
    intro A cur hinv hcur he
    have hsplit : atStmt file (st :: rest) A =
        atStmt file rest (walkExpr (visitor file) st.expr A) := by
      unfold atStmt
      rw [List.foldl_cons, walkStmt_eq]
    rw [hsplit] at he ⊢
    have hl := (walkExpr_step file).1 st.expr A hinv
    have hr := atStmt_step file rest hl.inv
    have hel := hr.toStep.error_false he
    have hcl : (walkExpr (visitor file) st.expr A).CurrentScope = some cur := by
      rw [hl.scope]; exact hcur
    rw [ih _ cur hl.inv hcl he, (walkExpr_clean file).1 st.expr A cur hinv hcur hel]
    simp only [Stmt.identifiersOf, declareAll_append]

end AnalyzerVisitor

theorem any_slice_iff (file : File) (known : List Range) (n : Range) :
    known.any (fun k => file.slice k == file.slice n) = true ↔
      ∃ k ∈ known, file.slice k = file.slice n := by
  simp only [List.any_eq_true, beq_iff_eq]

theorem firstOccurrences_nil (file : File) (known : List Range) :
    firstOccurrences file known [] = [] := by
  cases known <;> rfl

theorem firstOccurrences_known (file : File) {known : List Range} {n : Range}
    (rest : List Range) (h : ∃ k ∈ known, file.slice k = file.slice n) :
    firstOccurrences file known (n :: rest) = firstOccurrences file known rest := by
  rw [firstOccurrences, if_pos ((any_slice_iff file known n).2 h)]

theorem firstOccurrences_new (file : File) {known : List Range} {n : Range}
    (rest : List Range) (h : ¬ ∃ k ∈ known, file.slice k = file.slice n) :
    firstOccurrences file known (n :: rest) =
      n :: firstOccurrences file (known ++ [n]) rest := by
  rw [firstOccurrences, if_neg (fun hc => h ((any_slice_iff file known n).1 hc))]

/-- No first occurrence has the text of a known name. -/
theorem firstOccurrences_unknown (file : File) (ids : List Range) :
    ∀ known, ∀ m ∈ firstOccurrences file known ids,
      ∀ k ∈ known, file.slice k ≠ file.slice m := by
  induction ids with
  | nil => intro known m hm; rw [firstOccurrences_nil] at hm; cases hm
  | cons n rest ih =>
    intro known m hm k hk
    by_cases h : ∃ k ∈ known, file.slice k = file.slice n
    · rw [firstOccurrences_known file rest h] at hm
      exact ih known m hm k hk
    · rw [firstOccurrences_new file rest h] at hm
      rcases List.mem_cons.1 hm with hm | hm
      · rw [hm]
        exact fun he => h ⟨k, hk, he⟩
      · exact ih _ m hm k (List.mem_append_left _ hk)

/-- The first occurrences are names of the list, in its order. -/
theorem firstOccurrences_sublist (file : File) (ids : List Range) :
    ∀ known, (firstOccurrences file known ids).Sublist ids := by
  induction ids with
  | nil => intro known; rw [firstOccurrences_nil]
  | cons n rest ih =>
    intro known
    by_cases h : ∃ k ∈ known, file.slice k = file.slice n
    · rw [firstOccurrences_known file rest h]
      exact (ih known).cons n
    · rw [firstOccurrences_new file rest h]
      exact (ih _).cons₂ n

/-- No two first occurrences have the same text. -/
theorem firstOccurrences_distinct (file : File) (ids : List Range) :
    ∀ known, (firstOccurrences file known ids).Pairwise
      (fun a b => file.slice a ≠ file.slice b) := by
  induction ids with
  | nil => intro known; rw [firstOccurrences_nil]; exact List.Pairwise.nil
  | cons n rest ih =>
    intro known
    by_cases h : ∃ k ∈ known, file.slice k = file.slice n
    · rw [firstOccurrences_known file rest h]
      exact ih known
    · rw [firstOccurrences_new file rest h]
      refine List.Pairwise.cons ?_ (ih _)
      intro m hm
      exact firstOccurrences_unknown file rest _ m hm n (List.mem_append_right _ (by simp))

/-- Every first occurrence is the first name of its text in the list. -/
theorem firstOccurrences_first (file : File) (ids : List Range) :
    ∀ known, ∀ m ∈ firstOccurrences file known ids,
      ∃ pre post, ids = pre ++ m :: post ∧ ∀ p ∈ pre, file.slice p ≠ file.slice m := by
  induction ids with
  | nil => intro known m hm; rw [firstOccurrences_nil] at hm; cases hm
  | cons n rest ih =>
    intro known m hm
    by_cases h : ∃ k ∈ known, file.slice k = file.slice n
    · have hm0 := hm
      rw [firstOccurrences_known file rest h] at hm
      obtain ⟨pre, post, he, hp⟩ := ih known m hm
      refine ⟨n :: pre, post, by rw [he]; rfl, ?_⟩
      intro p hpm
      rcases List.mem_cons.1 hpm with hpm | hpm
      · rw [hpm]
        obtain ⟨k, hk, hkn⟩ := h
        intro hnm
        exact firstOccurrences_unknown file rest known m hm k hk (hkn.trans hnm)
      · exact hp p hpm
    · rw [firstOccurrences_new file rest h] at hm
      rcases List.mem_cons.1 hm with hm | hm
      · refine ⟨[], rest, by rw [hm]; rfl, ?_⟩
        intro p hp
        cases hp
      · obtain ⟨pre, post, he, hp⟩ := ih _ m hm
        refine ⟨n :: pre, post, by rw [he]; rfl, ?_⟩
        intro p hpm
        rcases List.mem_cons.1 hpm with hpm | hpm
        · rw [hpm]
          exact firstOccurrences_unknown file rest _ m hm n
            (List.mem_append_right _ (by simp))
        · exact hp p hpm

/-- Every name of the list whose text is not the text of a known name has a
first occurrence. -/
theorem firstOccurrences_all (file : File) (ids : List Range) :
    ∀ known, ∀ n ∈ ids, (∀ k ∈ known, file.slice k ≠ file.slice n) →
      ∃ m ∈ firstOccurrences file known ids, file.slice m = file.slice n := by
  induction ids with
  | nil => intro known n hn; cases hn
  | cons a rest ih =>
    intro known n hn hk
    by_cases h : ∃ k ∈ known, file.slice k = file.slice a
    · rw [firstOccurrences_known file rest h]
      rcases List.mem_cons.1 hn with hn | hn
      · obtain ⟨k, hk1, hk2⟩ := h
        rw [hn] at hk
        exact absurd hk2 (hk k hk1)
      · exact ih known n hn hk
    · rw [firstOccurrences_new file rest h]
      by_cases han : file.slice a = file.slice n
      · exact ⟨a, List.mem_cons_self _ _, han⟩
      · rcases List.mem_cons.1 hn with hn | hn
        · rw [hn] at han
          exact absurd rfl han
        · obtain ⟨m, hm, hmn⟩ := ih (known ++ [a]) n hn (by
            intro k hk1
            rcases List.mem_append.1 hk1 with hk1 | hk1
            · exact hk k hk1
            · rw [List.mem_singleton.1 hk1]; exact han)
          exact ⟨m, List.mem_cons_of_mem _ hm, hmn⟩

namespace ScopeTree

/-- The declarations of names as variables in the scope of a function, which
lies under the global scope: the first occurrences of the names that neither
scope holds come behind the symbols of the scope of the function, and nothing
else changes. -/
theorem declareAll_locals {file : File} (names : List Range) :
    ∀ {T : ScopeTree} {c : ScopeId} {scc sc0 : Scope}, T.get? c = some scc →
      scc.Parent = some 0 → T.get? 0 = some sc0 → sc0.Parent = none → c ≠ 0 →
      T.declareAll file c .Var names =
        ⟨T.scopes.set c { scc with Symbols := (scc.Symbols ++
          (firstOccurrences file
            (sc0.Symbols.map (fun s => s.Name) ++ scc.Symbols.map (fun s => s.Name))
            names).map (fun n => ⟨.Var, n, none⟩)) }⟩ := by
  induction names with
  | nil =>
    intro T c scc sc0 hc hp h0 hp0 hne
    rw [declareAll_nil, firstOccurrences_nil]
    simp only [List.map_nil, List.append_nil]
    show T = ⟨T.scopes.set c scc⟩
    rw [set_get?_self hc]
  | cons n rest ih =>
    intro T c scc sc0 hc hp h0 hp0 hne
    rw [declareAll_cons]
    have hl := @lookup_in_function file T c scc sc0 hc hp h0 hp0 n
    by_cases hk : ∃ k ∈ sc0.Symbols.map (fun s => s.Name) ++ scc.Symbols.map (fun s => s.Name),
        file.slice k = file.slice n
    · have hfound : ∃ r, lookup file T c n = some r := by
        cases hfc : find file scc n with
        | some i => rw [hl, hfc]; exact ⟨_, rfl⟩
        | none =>
          cases hf0 : find file sc0 n with
          | some i => rw [hl, hfc, hf0]; exact ⟨_, rfl⟩
          | none =>
            exfalso
            obtain ⟨k, hk1, hk2⟩ := hk
            rcases List.mem_append.1 hk1 with hk1 | hk1
            · obtain ⟨s, hs, rfl⟩ := List.mem_map.1 hk1
              exact find_eq_none.1 hf0 s hs hk2
            · obtain ⟨s, hs, rfl⟩ := List.mem_map.1 hk1
              exact find_eq_none.1 hfc s hs hk2
      obtain ⟨r, hr⟩ := hfound
      rw [declare_found .Var hr, firstOccurrences_known file rest hk]
      exact ih hc hp h0 hp0 hne
    · have hfc : find file scc n = none := by
        rw [find_eq_none]
        intro s hs he
        exact hk ⟨s.Name, List.mem_append_right _ (List.mem_map_of_mem _ hs), he⟩
      have hf0 : find file sc0 n = none := by
        rw [find_eq_none]
        intro s hs he
        exact hk ⟨s.Name, List.mem_append_left _ (List.mem_map_of_mem _ hs), he⟩
      have hnone : lookup file T c n = none := by rw [hl, hfc, hf0]; rfl
      obtain ⟨T1, hd1, hd⟩ := declare_new .Var hnone hc
      rw [hd1, firstOccurrences_new file rest hk]
      simp only
      have h01 : T1.get? 0 = some sc0 := by
        rw [hd.others 0 (fun e => hne e.symm) (get?_lt h0)]; exact h0
      rw [ih hd.here hp h01 hp0 hne]
      have hst := hd.store
      simp only [reduceCtorEq, if_false, List.append_nil] at hst
      rw [hst]
      simp only [List.set_set, List.map_append, List.map_cons, List.map_nil,
        List.append_assoc, newSymbol, reduceCtorEq, if_false, List.cons_append,
        List.nil_append]

end ScopeTree

theorem acceptedGlobals_snoc (front : List FunctionDecl) (fn : FunctionDecl) :
    acceptedGlobals (front ++ [fn]) =
      acceptedGlobals front ++ [⟨.Function, fn.Name, some (front.length + 1)⟩] := by
  unfold acceptedGlobals
  rw [List.enum_append, List.map_append]
  rfl

theorem acceptedGlobals_length (fns : List FunctionDecl) :
    (acceptedGlobals fns).length = fns.length := by
  unfold acceptedGlobals
  rw [List.length_map, List.enum_length]

theorem acceptedGlobals_names (fns : List FunctionDecl) :
    (acceptedGlobals fns).map (fun s => s.Name) = fns.map (fun g => g.Name) := by
  unfold acceptedGlobals
  rw [List.map_map, List.enum_eq_zip_range]
  have h : ∀ (l : List FunctionDecl) (r : List Nat), r.length = l.length →
      List.map ((fun s : Symbol => s.Name) ∘
        fun p : Nat × FunctionDecl => (⟨.Function, p.2.Name, some (p.1 + 1)⟩ : Symbol))
        (r.zip l) = l.map (fun g => g.Name) := by
    intro l
    induction l with
    | nil => intro r _; simp
    | cons a l ih =>
      intro r hr
      cases r with
      | nil => simp at hr
      | cons b r =>
        simp only [List.zip_cons_cons, List.map_cons, Function.comp]
        rw [← ih r (by simpa using hr)]
  exact h fns _ (List.length_range _)

theorem acceptedStore_scopes_snoc (file : File) (front : List FunctionDecl)
    (fn : FunctionDecl) :
    (acceptedStore file (front ++ [fn])).scopes =
      ⟨none, none, acceptedGlobals front ++ [⟨.Function, fn.Name, some (front.length + 1)⟩]⟩ ::
        ((acceptedStore file front).scopes.tail ++
          [⟨some 0, some ⟨0, front.length⟩, acceptedLocals file front fn⟩]) := by
  unfold acceptedStore
  simp only [List.tail_cons]
  rw [acceptedGlobals_snoc, List.enum_append, List.map_append]
  congr 2
  · apply List.map_congr_left
    intro p hp
    have hlt := List.fst_lt_of_mem_enum hp
    rw [List.take_append_of_le_length (Nat.le_of_lt hlt)]
  · show [(⟨some 0, some ⟨0, front.length⟩,
      acceptedLocals file ((front ++ [fn]).take front.length) fn⟩ : Scope)] = _
    rw [List.take_left]

theorem acceptedStore_length (file : File) (fns : List FunctionDecl) :
    (acceptedStore file fns).scopes.length = fns.length + 1 := by
  unfold acceptedStore
  simp only [List.length_cons, List.length_map, List.enum_length]

theorem set_last {α : Type} (l : List α) (x y : α) :
    (l ++ [x]).set l.length y = l ++ [y] := by
  induction l with
  | nil => rfl
  | cons a l ih =>
    simp only [List.cons_append, List.length_cons, List.set_cons_succ, ih]

namespace AnalyzerVisitor
open Walker ScopeTree

/-- The store after the functions `front`, while the walk has met no error. -/
theorem atFunction_store (file : File) (os : String) (front : List FunctionDecl) :
    (atFunction file os front).Error = false →
      (atFunction file os front).GlobalScope = acceptedStore file front := by
  induction front using List.reverseRecOn with
  | nil => intro _; rfl
  | append_singleton front fn ih =>
    intro he
    rw [atFunction_append] at he ⊢
    have h0 := atFunction_step file os front
    have hinv := h0.inv
    have hcur : (atFunction file os front).CurrentScope = some 0 := h0.scope
    have he0 := (walkFunctionDecl_step file fn hinv).error_false he
    have hst := ih he0
    generalize atFunction file os front = A at *
    have hscopes : A.GlobalScope.scopes =
        ⟨none, none, acceptedGlobals front⟩ :: (acceptedStore file front).scopes.tail := by
      rw [hst]; rfl
    have hlen : A.GlobalScope.scopes.length = front.length + 1 := by
      rw [hst, acceptedStore_length]
    have hsc : A.GlobalScope.get? 0 = some ⟨none, none, acceptedGlobals front⟩ := by
      rw [get?_eq, hscopes]; simp
    rcases walkFunctionDecl_cases file fn hinv hcur hsc with ⟨r, sym, -, -, -, h⟩ | ⟨T1, hw⟩
    · rw [h] at he
      cases he
    · obtain ⟨hcurIn, hgsIn, -, -⟩ := hw.scopeIn
      have hT1 := hw.declared.store
      simp only [if_true, newSymbol, hlen, acceptedGlobals_length] at hT1
      rw [hscopes, List.set_cons_zero] at hT1
      have heS : (atStmt file fn.Body.Stmts (atBody file fn A)).Error = false := by
        have := hw.error
        rw [he] at this
        cases hx : (atStmt file fn.Body.Stmts (atBody file fn A)).Error with
        | false => rfl
        | true => rw [hx] at this; simp at this
      have heB : (atBody file fn A).Error = false := hw.body.toStep.error_false heS
      have htl : (acceptedStore file front).scopes.tail.length = front.length := by
        have := acceptedStore_length file front
        rw [List.length_tail, this]
        rfl
      have hchild : (onEnterFunctionDecl file fn A).2.GlobalScope.get? (front.length + 1) =
          some ⟨some 0, some ⟨0, front.length⟩, []⟩ := by
        rw [hgsIn, get?_eq, hT1]
        simp only [List.cons_append, List.getElem?_cons_succ]
        rw [List.getElem?_append_right (by rw [htl]), htl]
        simp
      rw [hlen] at hcurIn
      obtain ⟨added, -, hB, hadded⟩ := hw.params.locals _ _ hcurIn hchild
      rw [hadded heB, hgsIn, hT1] at hB
      simp only [List.cons_append, List.set_cons_succ, List.nil_append] at hB
      rw [← htl, set_last, htl] at hB
      have hcurB : (atBody file fn A).CurrentScope = some (front.length + 1) := by
        rw [hw.params.scope]; exact hcurIn
      have hclean := atStmt_clean file fn.Body.Stmts _ _ hw.params.inv hcurB heS
      have hcB : (atBody file fn A).GlobalScope.get? (front.length + 1) =
          some ⟨some 0, some ⟨0, front.length⟩, fn.Params.map paramSymbol⟩ := by
        rw [get?_eq, hB]
        simp only [List.getElem?_cons_succ]
        rw [List.getElem?_append_right (by rw [htl]), htl]
        simp
      have h0B : (atBody file fn A).GlobalScope.get? 0 = some ⟨none, none,
          acceptedGlobals front ++ [⟨.Function, fn.Name, some (front.length + 1)⟩]⟩ := by
        rw [get?_eq, hB]
        simp
      have hall := @declareAll_locals file (Stmt.identifiersOf fn.Body.Stmts) _ _ _ _
        hcB rfl h0B rfl (Nat.succ_ne_zero _)
      rw [hw.store, hclean]
      simp only
      rw [hall, hB]
      simp only [List.set_cons_succ]
      rw [← htl, set_last, htl]
      have hnames : List.map (fun s : Symbol => s.Name)
          (acceptedGlobals front ++ [⟨.Function, fn.Name, some (front.length + 1)⟩]) =
          (front ++ [fn]).map (fun g => g.Name) := by
        rw [← acceptedGlobals_snoc, acceptedGlobals_names]
      have hpn : List.map (fun s : Symbol => s.Name) (fn.Params.map paramSymbol) =
          fn.Params.map (fun pd => pd.Name) := by
        rw [List.map_map]
        rfl
      simp only [hnames, hpn]
      show _ = acceptedStore file (front ++ [fn])
      have := acceptedStore_scopes_snoc file front fn
      cases hX : acceptedStore file (front ++ [fn]) with
      | mk scopes =>
        rw [hX] at this
        simp only at this
        rw [this]
        rfl

/-- The store `Analyze` returns is the store of an accepted translation
unit. -/
theorem Analyze_store {file : File} {tu : TranslationUnit} {os : String} {T : ScopeTree}
    {os1 : String} (h : Analyze file tu os = some (some T, os1)) :
    T = acceptedStore file tu.FNs := by
  obtain ⟨he, hT, -⟩ := accepted h
  rw [hT]
  exact atFunction_store file os tu.FNs he

end AnalyzerVisitor

theorem Range.Within.transWithin {a b c : Range} (h1 : a.Within b) (h2 : b.Within c) :
    a.Within c :=
  ⟨h2.1.trans h1.1, h1.2.trans h2.2⟩

theorem Stmt.mem_statement_identifiers {n : Range} (sts : List Stmt) :
    n ∈ Stmt.identifiersOf sts ↔ ∃ st ∈ sts, n ∈ st.expr.identifiers := by
  induction sts with
  | nil => simp [Stmt.identifiersOf]
  | cons a rest ih =>
    simp only [Stmt.identifiersOf, List.mem_append, ih, List.mem_cons, exists_eq_or_imp]

/-- The identifiers of an expression whose ranges are in order and whose
operands stand in the order of the source lie within the expression, each
before the ones behind it. -/
theorem Expr.identifiers_apart :
    (∀ e : Expr, ∀ size, e.RangesOK size → e.Ordered →
      (∀ n ∈ e.identifiers, n.Within e.getRange) ∧
        e.identifiers.Pairwise (fun a b => a.End ≤ b.Begin)) ∧
    (∀ es : List Expr, ∀ size, (∀ a ∈ es, a.RangesOK size) → Expr.ArgsOrdered es →
      (∀ n ∈ Expr.identifiersOf es, ∃ a ∈ es, n.Within a.getRange) ∧
        (Expr.identifiersOf es).Pairwise (fun a b => a.End ≤ b.Begin)) := by
  apply AnalyzerVisitor.Expr.induct
  · intro v r size _ _
    simp [Expr.identifiers]
  · intro n size _ _
    simp only [Expr.identifiers, List.mem_singleton, forall_eq, Expr.getRange,
      List.pairwise_singleton, and_true]
    exact ⟨Nat.le_refl _, Nat.le_refl _⟩
  · intro c args r ih size hr ho
    rw [Expr.RangesOK_call] at hr
    simp only [Expr.Ordered] at ho
    obtain ⟨h1, h2⟩ := ih size (fun a ha => (hr.2 a ha).1) ho
    simp only [Expr.identifiers, Expr.getRange]
    refine ⟨?_, h2⟩
    intro n hn
    obtain ⟨a, ha, hw⟩ := h1 n hn
    exact hw.transWithin (hr.2 a ha).2
  · intro op l r rg ihl ihr size hr ho
    simp only [Expr.RangesOK] at hr
    simp only [Expr.Ordered] at ho
    obtain ⟨-, hrl, hrr, hwl, hwr⟩ := hr
    obtain ⟨hol, hor, hlr⟩ := ho
    obtain ⟨l1, l2⟩ := ihl size hrl hol
    obtain ⟨r1, r2⟩ := ihr size hrr hor
    simp only [Expr.identifiers, Expr.getRange, List.mem_append]
    refine ⟨?_, ?_⟩
    · rintro n (hn | hn)
      · exact (l1 n hn).transWithin hwl
      · exact (r1 n hn).transWithin hwr
    · rw [List.pairwise_append]
      refine ⟨l2, r2, ?_⟩
      intro a ha b hb
      exact ((l1 a ha).2.trans hlr).trans (r1 b hb).1
  · intro size _ _
    simp [Expr.identifiersOf]
  · intro e es ihe ihes size hr ho
    simp only [Expr.ArgsOrdered] at ho
    obtain ⟨hoe, hlt, hoes⟩ := ho
    obtain ⟨e1, e2⟩ := ihe size (hr e (List.mem_cons_self _ _)) hoe
    obtain ⟨s1, s2⟩ := ihes size (fun a ha => hr a (List.mem_cons_of_mem _ ha)) hoes
    simp only [Expr.identifiersOf, List.mem_append]
    refine ⟨?_, ?_⟩
    · rintro n (hn | hn)
      · exact ⟨e, List.mem_cons_self _ _, e1 n hn⟩
      · obtain ⟨a, ha, hw⟩ := s1 n hn
        exact ⟨a, List.mem_cons_of_mem _ ha, hw⟩
    · rw [List.pairwise_append]
      refine ⟨e2, s2, ?_⟩
      intro a ha b hb
      obtain ⟨x, hx, hw⟩ := s1 b hb
      exact ((e1 a ha).2.trans (hlt x hx)).trans hw.1

theorem Stmt.expr_in_range {size : Nat} {st : Stmt} (h : st.RangesOK size) :
    st.expr.RangesOK size ∧ st.expr.getRange.Within st.getRange := by
  cases st with
  | ExprStmt e =>
    simp only [Stmt.RangesOK] at h
    exact ⟨h.2, Nat.le_refl _, Nat.le_refl _⟩
  | ReturnStmt v r =>
    simp only [Stmt.RangesOK] at h
    exact ⟨h.2.1, h.2.2⟩

/-- The identifiers of statements that stand in the order of the source lie
within the statements, each before the ones behind it. -/
theorem Stmt.statements_apart {size : Nat} (sts : List Stmt) :
    (∀ st ∈ sts, st.RangesOK size) → (∀ st ∈ sts, st.expr.Ordered) →
      sts.Pairwise (fun a b => a.getRange.End ≤ b.getRange.Begin) →
      (∀ n ∈ Stmt.identifiersOf sts, ∃ st ∈ sts, n.Within st.getRange) ∧
        (Stmt.identifiersOf sts).Pairwise (fun a b => a.End ≤ b.Begin) := by
  induction sts with
  | nil => intro _ _ _; simp [Stmt.identifiersOf]
  | cons st rest ih =>
    intro hr ho hpw
    obtain ⟨hre, hwe⟩ := Stmt.expr_in_range (hr st (List.mem_cons_self _ _))
    obtain ⟨e1, e2⟩ := Expr.identifiers_apart.1 st.expr size hre
      (ho st (List.mem_cons_self _ _))
    rw [List.pairwise_cons] at hpw
    obtain ⟨s1, s2⟩ := ih (fun a ha => hr a (List.mem_cons_of_mem _ ha))
      (fun a ha => ho a (List.mem_cons_of_mem _ ha)) hpw.2
    simp only [Stmt.identifiersOf, List.mem_append]
    refine ⟨?_, ?_⟩
    · rintro n (hn | hn)
      · exact ⟨st, List.mem_cons_self _ _, (e1 n hn).transWithin hwe⟩
      · obtain ⟨a, ha, hw⟩ := s1 n hn
        exact ⟨a, List.mem_cons_of_mem _ ha, hw⟩
    · rw [List.pairwise_append]
      refine ⟨e2, s2, ?_⟩
      intro a ha b hb
      obtain ⟨x, hx, hw⟩ := s1 b hb
      exact (((e1 a ha).transWithin hwe).2.trans (hpw.1 x hx)).trans hw.1

/-- The names of the parameters and of the identifiers of a function the
parser built begin one after the other. -/
theorem FunctionDecl.locals_increasing {size : Nat} {fn : FunctionDecl}
    (hr : fn.RangesOK size) (ho : fn.Ordered) (hs : fn.Spaced) :
    (fn.Params.map (fun pd => pd.Name) ++ fn.identifiers).Pairwise
      (fun a b => a.Begin < b.Begin) := by
  obtain ⟨-, -, hbody, -⟩ := hr
  obtain ⟨-, -, hob⟩ := ho
  obtain ⟨-, -, -, hpar, hpw, hnamed⟩ := hs
  obtain ⟨s1, s2⟩ := Stmt.statements_apart fn.Body.Stmts (fun st hst => (hbody.2 st hst).1)
    hob.1 hob.2
  have hne : ∀ n ∈ fn.Params.map (fun pd => pd.Name) ++ fn.identifiers, n.Begin < n.End := by
    intro n hn
    rcases List.mem_append.1 hn with hn | hn
    · obtain ⟨pd, hpd, rfl⟩ := List.mem_map.1 hn
      exact (hpar pd hpd).1
    · obtain ⟨st, hst, hm⟩ := (Stmt.mem_statement_identifiers _).1 hn
      exact hnamed st hst n hm
  have hap : (fn.Params.map (fun pd => pd.Name) ++ fn.identifiers).Pairwise
      (fun a b => a.End ≤ b.Begin) := by
    rw [List.pairwise_append]
    refine ⟨?_, s2, ?_⟩
    · rw [List.pairwise_map]
      exact hpw
    · intro a ha b hb
      obtain ⟨pd, hpd, rfl⟩ := List.mem_map.1 ha
      obtain ⟨st, hst, hw⟩ := s1 b hb
      exact ((hpar pd hpd).2.trans (hbody.2 st hst).2.1).trans hw.1
  refine hap.imp_of_mem ?_
  intro a b ha _ hab
  exact Nat.lt_of_lt_of_le (hne a ha) hab

/-- The names of the functions of a translation unit the parser built begin
one after the other. -/
theorem TranslationUnit.functions_increasing {tu : TranslationUnit}
    (ho : tu.Ordered) (hs : tu.Spaced) :
    tu.FNs.Pairwise (fun f g => f.Name.Begin < g.Name.Begin) := by
  refine ho.2.imp_of_mem ?_
  intro f g hf hg hfg
  obtain ⟨-, f2, f3, -⟩ := hs f hf
  obtain ⟨g1, -⟩ := hs g hg
  omega

theorem acceptedStore_global (file : File) (fns : List FunctionDecl) :
    (acceptedStore file fns).get? 0 = some ⟨none, none, acceptedGlobals fns⟩ := by
  rw [ScopeTree.get?_eq]
  unfold acceptedStore
  simp

/-- The scope of the function that follows the functions `front`. -/
theorem acceptedStore_function (file : File) (front : List FunctionDecl) (fn : FunctionDecl)
    (back : List FunctionDecl) :
    (acceptedStore file (front ++ fn :: back)).get? (front.length + 1) =
      some ⟨some 0, some ⟨0, front.length⟩, acceptedLocals file front fn⟩ := by
  rw [ScopeTree.get?_eq]
  unfold acceptedStore
  simp only [List.getElem?_cons_succ, List.getElem?_map, List.getElem?_enum]
  rw [List.getElem?_append_right (Nat.le_refl _)]
  simp only [Nat.sub_self, List.getElem?_cons_zero, Option.map_some', List.take_left]

/-- Every scope of the store but the global scope is the scope of a
function. -/
theorem acceptedStore_cases (file : File) (fns : List FunctionDecl) {id : ScopeId} {sc : Scope}
    (h : (acceptedStore file fns).get? id = some sc) :
    (id = 0 ∧ sc = ⟨none, none, acceptedGlobals fns⟩) ∨
    ∃ front fn back, fns = front ++ fn :: back ∧ id = front.length + 1 ∧
      sc = ⟨some 0, some ⟨0, front.length⟩, acceptedLocals file front fn⟩ := by
  cases id with
  | zero =>
    rw [acceptedStore_global] at h
    exact Or.inl ⟨rfl, (Option.some.inj h).symm⟩
  | succ i =>
    right
    have hlt := ScopeTree.get?_lt h
    rw [acceptedStore_length] at hlt
    have hi : i < fns.length := Nat.lt_of_succ_lt_succ hlt
    refine ⟨fns.take i, fns[i], fns.drop (i + 1), ?_, ?_, ?_⟩
    · rw [← List.drop_eq_getElem_cons hi, List.take_append_drop]
    · rw [List.length_take, Nat.min_eq_left (Nat.le_of_lt hi)]
    · have hsplit : fns = fns.take i ++ fns[i] :: fns.drop (i + 1) := by
        rw [← List.drop_eq_getElem_cons hi, List.take_append_drop]
      have hlen : (fns.take i).length = i := by
        rw [List.length_take, Nat.min_eq_left (Nat.le_of_lt hi)]
      have := acceptedStore_function file (fns.take i) fns[i] (fns.drop (i + 1))
      rw [← hsplit, hlen] at this
      rw [this] at h
      rw [hlen]
      exact (Option.some.inj h).symm

theorem acceptedStore_isScopeOf (file : File) (front : List FunctionDecl) (fn : FunctionDecl)
    (back : List FunctionDecl) :
    (acceptedStore file (front ++ fn :: back)).IsScopeOf fn (front.length + 1) := by
  refine ⟨_, acceptedStore_global file _, ?_⟩
  unfold acceptedGlobals
  rw [List.mem_map]
  refine ⟨(front.length, fn), ?_, rfl⟩
  rw [List.mk_mem_enum_iff_getElem?]
  rw [List.getElem?_append_right (Nat.le_refl _)]
  simp

theorem acceptedLocals_names (file : File) (front : List FunctionDecl) (fn : FunctionDecl) :
    (acceptedLocals file front fn).map (fun s => s.Name) =
      fn.Params.map (fun pd => pd.Name) ++
        firstOccurrences file
          ((front ++ [fn]).map (fun g => g.Name) ++ fn.Params.map (fun pd => pd.Name))
          fn.identifiers := by
  unfold acceptedLocals
  rw [List.map_append, List.map_map, List.map_map]
  congr 1
  exact List.map_id _

/-- In the store of an accepted translation unit the parser built, the names
of the symbols of every scope begin one after the other. -/
theorem acceptedStore_increasing (file : File) {size : Nat} {tu : TranslationUnit}
    (hr : tu.RangesOK size) (ho : tu.Ordered) (hs : tu.Spaced) {id : ScopeId} {sc : Scope}
    (h : (acceptedStore file tu.FNs).get? id = some sc) :
    sc.Symbols.Pairwise (fun a b => a.Name.Begin < b.Name.Begin) := by
  have key : ∀ l : List Symbol,
      (l.map (fun s => s.Name)).Pairwise (fun a b => a.Begin < b.Begin) →
      l.Pairwise (fun a b => a.Name.Begin < b.Name.Begin) := by
    intro l hl
    rw [List.pairwise_map] at hl
    exact hl
  rcases acceptedStore_cases file tu.FNs h with ⟨-, rfl⟩ | ⟨front, fn, back, hf, -, rfl⟩
  · apply key
    simp only
    rw [acceptedGlobals_names, List.pairwise_map]
    exact TranslationUnit.functions_increasing ho hs
  · apply key
    simp only
    rw [acceptedLocals_names]
    have hmem : fn ∈ tu.FNs := by rw [hf]; simp
    have hinc := FunctionDecl.locals_increasing (hr.2 fn hmem).1 (ho.1 fn hmem) (hs fn hmem)
    refine hinc.sublist ?_
    exact (List.Sublist.refl _).append (firstOccurrences_sublist file _ _)

/-! ## The scopes of the functions of an accepted translation unit -/

/-- The names of `identifiers` are the names of the identifiers that occur in
the expression. -/
theorem Expr.mem_identifiers :
    (∀ e : Expr, ∀ n, n ∈ e.identifiers ↔ Expr.Sub (.IdentifierExpr n) e) ∧
    (∀ es : List Expr, ∀ n,
      n ∈ Expr.identifiersOf es ↔ ∃ a ∈ es, Expr.Sub (.IdentifierExpr n) a) := by
  apply AnalyzerVisitor.Expr.induct
  · intro v r n
    simp only [Expr.identifiers, List.not_mem_nil, false_iff]
    intro h
    cases h
  · intro m n
    simp only [Expr.identifiers, List.mem_singleton]
    constructor
    · rintro rfl
      exact .here _
    · intro h
      cases h
      rfl
  · intro c args r ih n
    simp only [Expr.identifiers]
    rw [ih]
    constructor
    · rintro ⟨a, ha, h⟩
      exact .arg ha h
    · intro h
      cases h with
      | arg ha h => exact ⟨_, ha, h⟩
  · intro op l r rg ihl ihr n
    simp only [Expr.identifiers, List.mem_append]
    rw [ihl, ihr]
    constructor
    · rintro (h | h)
      · exact .lhs h
      · exact .rhs h
    · intro h
      cases h with
      | lhs h => exact Or.inl h
      | rhs h => exact Or.inr h
  · intro n
    simp [Expr.identifiersOf]
  · intro e es ihe ihes n
    simp only [Expr.identifiersOf, List.mem_append, List.mem_cons, exists_eq_or_imp]
    rw [ihe, ihes]

/-- The names of `identifiers` are the names of the identifiers that occur in
the body of the function. -/
theorem FunctionDecl.mem_body_identifiers (fn : FunctionDecl) (n : Range) :
    n ∈ fn.identifiers ↔ fn.Contains (.IdentifierExpr n) := by
  unfold FunctionDecl.identifiers FunctionDecl.Contains
  rw [Stmt.mem_statement_identifiers]
  constructor
  · rintro ⟨st, hst, h⟩
    exact ⟨st, hst, (Expr.mem_identifiers.1 st.expr n).1 h⟩
  · rintro ⟨st, hst, h⟩
    exact ⟨st, hst, (Expr.mem_identifiers.1 st.expr n).2 h⟩


/-- C23. Implicit variable declaration. On every translation unit on which
`Analyze` returns a scope `T`, the scope of every function `fn`, which follows
the functions `front`, holds a `Param` symbol for each parameter of `fn`, in
their order, then `Var` symbols, and nothing else. The names `vars` of the
`Var` symbols are such that: every name that occurs as an identifier in the
body (the callee of a call is none) and has neither the text of a parameter of
`fn` nor the text of the name of `fn` or of a function of `front` has the text
of one of `vars`; no two of `vars` have the same text; and each of `vars` is
no parameter and no such function, and is the first identifier of its text in
the body, in the order of the walk. On `function f(x) y = x + 1 return y end`
the scope of `f` holds `x : Param` and `y : Var`. -/
theorem implicit_variables :
    (∀ (file : File) (tu : TranslationUnit) (os : String) (T : ScopeTree) (os1 : String),
      Analyze file tu os = some (some T, os1) →
      ∀ front fn back, tu.FNs = front ++ fn :: back →
        ∃ vars : List Range,
          T.IsScopeOf fn (front.length + 1) ∧
          T.get? (front.length + 1) = some ⟨some 0, some ⟨0, front.length⟩,
            fn.Params.map AnalyzerVisitor.paramSymbol ++
              vars.map (fun n => ⟨.Var, n, none⟩)⟩ ∧
          (∀ n, fn.Contains (.IdentifierExpr n) →
            (∀ pd ∈ fn.Params, file.slice pd.Name ≠ file.slice n) →
            (∀ g ∈ front ++ [fn], file.slice g.Name ≠ file.slice n) →
            ∃ m ∈ vars, file.slice m = file.slice n) ∧
          vars.Pairwise (fun a b => file.slice a ≠ file.slice b) ∧
          (∀ m ∈ vars, (∀ pd ∈ fn.Params, file.slice pd.Name ≠ file.slice m) ∧
            (∀ g ∈ front ++ [fn], file.slice g.Name ≠ file.slice m) ∧
            ∃ pre post, fn.identifiers = pre ++ m :: post ∧
              ∀ p ∈ pre, file.slice p ≠ file.slice m)) ∧
    (∃ tu, Examples.parsed Examples.implicitVar = some tu ∧
      Analyze Examples.implicitVar tu "" =
        some (some ⟨[⟨none, none, [⟨.Function, ⟨9, 10⟩, some 1⟩]⟩,
          ⟨some 0, some ⟨0, 0⟩, [⟨.Param, ⟨11, 12⟩, none⟩, ⟨.Var, ⟨14, 15⟩, none⟩]⟩]⟩, "")) := by
  refine ⟨?_, ?_⟩
  · intro file tu os T os1 h front fn back hf
    have hT := AnalyzerVisitor.Analyze_store h
    subst hT
    rw [hf]
    refine ⟨firstOccurrences file
      ((front ++ [fn]).map (fun g => g.Name) ++ fn.Params.map (fun pd => pd.Name))
      fn.identifiers, acceptedStore_isScopeOf file front fn back,
      acceptedStore_function file front fn back, ?_, firstOccurrences_distinct file _ _, ?_⟩
    · intro n hn hp hg
      refine firstOccurrences_all file _ _ n ((fn.mem_body_identifiers n).2 hn) ?_
      intro k hk
      rcases List.mem_append.1 hk with hk | hk
      · obtain ⟨g, hgm, rfl⟩ := List.mem_map.1 hk
        exact hg g hgm
      · obtain ⟨pd, hpd, rfl⟩ := List.mem_map.1 hk
        exact hp pd hpd
    · intro m hm
      have hu := firstOccurrences_unknown file _ _ m hm
      refine ⟨?_, ?_, firstOccurrences_first file _ _ m hm⟩
      · intro pd hpd
        exact hu _ (List.mem_append_right _ (List.mem_map_of_mem _ hpd))
      · intro g hg
        exact hu _ (List.mem_append_left _ (List.mem_map_of_mem _ hg))
  · exact ⟨⟨[⟨⟨9, 10⟩, [⟨⟨11, 12⟩⟩],
      ⟨[.ExprStmt (.BinaryExpr .Assign (.IdentifierExpr ⟨14, 15⟩)
          (.BinaryExpr .Add (.IdentifierExpr ⟨18, 19⟩) (.NumberExpr ⟨0⟩ ⟨22, 23⟩) ⟨18, 23⟩)
          ⟨14, 23⟩),
        .ReturnStmt (.IdentifierExpr ⟨31, 32⟩) ⟨24, 32⟩], ⟨14, 36⟩⟩, ⟨0, 36⟩⟩], ⟨0, 36⟩⟩,
      rfl, by decide⟩

theorem enum_filter_left {α : Type} (p : Nat × α → Bool) (l1 l2 : List α)
    (h1 : ∀ x ∈ l1.enum, p x = true) (h2 : ∀ x ∈ List.enumFrom l1.length l2, ¬ p x = true) :
    (l1 ++ l2).enum.filter p = l1.enum := by
  rw [List.enum_append, List.filter_append, List.filter_eq_self.2 h1,
    List.filter_eq_nil_iff.2 h2, List.append_nil]

theorem enum_filter_right {α : Type} (p : Nat × α → Bool) (l1 l2 : List α)
    (h1 : ∀ x ∈ l1.enum, ¬ p x = true) (h2 : ∀ x ∈ List.enumFrom l1.length l2, p x = true) :
    (l1 ++ l2).enum.filter p = List.enumFrom l1.length l2 := by
  rw [List.enum_append, List.filter_append, List.filter_eq_self.2 h2,
    List.filter_eq_nil_iff.2 h1, List.nil_append]

theorem map_fst_enum {α β : Type} (f : Nat → β) (l : List α) :
    l.enum.map (fun p => f p.1) = (List.range l.length).map f := by
  rw [← List.enum_map_fst l, List.map_map]
  rfl

theorem map_fst_enumFrom {α β : Type} (f : Nat → β) (n : Nat) (l : List α) :
    (List.enumFrom n l).map (fun p => f p.1) = (List.range l.length).map (fun j => f (n + j)) := by
  have h : (List.enumFrom n l).map (fun p => f p.1) =
      ((List.enumFrom n l).map Prod.fst).map f := by
    rw [List.map_map]; rfl
  rw [h, List.enumFrom_map_fst, List.range'_eq_map_range, List.map_map]
  rfl

/-- The `Param` symbols of the scope of a function of an accepted translation
unit are the symbols of its parameters. -/
theorem acceptedLocals_params (file : File) (front : List FunctionDecl) (fn : FunctionDecl) :
    (acceptedLocals file front fn).enum.filter
        (fun p => (some SymbolKind.Param).isNone || (some p.2.TheKind == some .Param)) =
      (fn.Params.map AnalyzerVisitor.paramSymbol).enum := by
  unfold acceptedLocals
  apply enum_filter_left
  · intro x hx
    have := List.snd_mem_of_mem_enumFrom hx
    obtain ⟨pd, -, hpd⟩ := List.mem_map.1 this
    rw [← hpd]
    rfl
  · intro x hx
    have := List.snd_mem_of_mem_enumFrom hx
    obtain ⟨n, -, hn⟩ := List.mem_map.1 this
    rw [← hn]
    simp

/-- The `Var` symbols of the scope of a function of an accepted translation
unit come behind the symbols of its parameters. -/
theorem acceptedLocals_vars (file : File) (front : List FunctionDecl) (fn : FunctionDecl) :
    (acceptedLocals file front fn).enum.filter
        (fun p => (some SymbolKind.Var).isNone || (some p.2.TheKind == some .Var)) =
      List.enumFrom (fn.Params.map AnalyzerVisitor.paramSymbol).length
        ((firstOccurrences file
          ((front ++ [fn]).map (fun g => g.Name) ++ fn.Params.map (fun pd => pd.Name))
          fn.identifiers).map (fun n => ⟨.Var, n, none⟩)) := by
  unfold acceptedLocals
  apply enum_filter_right
  · intro x hx
    have := List.snd_mem_of_mem_enumFrom hx
    obtain ⟨pd, -, hpd⟩ := List.mem_map.1 this
    rw [← hpd]
    simp [AnalyzerVisitor.paramSymbol]
  · intro x hx
    have := List.snd_mem_of_mem_enumFrom hx
    obtain ⟨n, -, hn⟩ := List.mem_map.1 this
    rw [← hn]
    rfl

namespace ScopeTree

/-- What `getSymbols` returns is a rearrangement of the symbols of the kind,
taken in the order of the scope. -/
theorem getSymbols_perm {T : ScopeTree} {id : ScopeId} {sc : Scope} (h : T.get? id = some sc)
    (kind : Option SymbolKind) :
    (T.getSymbols id kind).Perm
      ((sc.Symbols.enum.filter (fun p => kind.isNone || (some p.2.TheKind == kind))).map
        (fun p => (⟨id, p.1⟩ : SymbolRef))) := by
  rw [getSymbols_eq h]
  have := (sortSymbols_perm ((sc.Symbols.enum.filter
    (fun p => kind.isNone || (some p.2.TheKind == kind))).map
      (fun p => ((⟨id, p.1⟩ : SymbolRef), p.2)))).map (fun p => p.1)
  rw [List.map_map] at this
  exact this

end ScopeTree

theorem acceptedStore_params_perm (file : File) (front : List FunctionDecl)
    (fn : FunctionDecl) (back : List FunctionDecl) :
    ((acceptedStore file (front ++ fn :: back)).getSymbols (front.length + 1)
        (some .Param)).Perm
      ((List.range fn.Params.length).map (fun i => (⟨front.length + 1, i⟩ : SymbolRef))) := by
  have h := ScopeTree.getSymbols_perm (acceptedStore_function file front fn back) (some .Param)
  simp only at h
  rw [acceptedLocals_params] at h
  have e := map_fst_enum (fun i => (⟨front.length + 1, i⟩ : SymbolRef))
    (fn.Params.map AnalyzerVisitor.paramSymbol)
  rw [List.length_map] at e
  rw [← e]
  exact h

theorem acceptedStore_vars_perm (file : File) (front : List FunctionDecl)
    (fn : FunctionDecl) (back : List FunctionDecl) :
    ((acceptedStore file (front ++ fn :: back)).getSymbols (front.length + 1)
        (some .Var)).Perm
      ((List.range (firstOccurrences file
          ((front ++ [fn]).map (fun g => g.Name) ++ fn.Params.map (fun pd => pd.Name))
          fn.identifiers).length).map
        (fun j => (⟨front.length + 1, fn.Params.length + j⟩ : SymbolRef))) := by
  have h := ScopeTree.getSymbols_perm (acceptedStore_function file front fn back) (some .Var)
  simp only at h
  rw [acceptedLocals_vars] at h
  have e := map_fst_enumFrom (fun i => (⟨front.length + 1, i⟩ : SymbolRef))
    (fn.Params.map AnalyzerVisitor.paramSymbol).length
    ((firstOccurrences file
      ((front ++ [fn]).map (fun g => g.Name) ++ fn.Params.map (fun pd => pd.Name))
      fn.identifiers).map (fun n => (⟨.Var, n, none⟩ : Symbol)))
  simp only [List.length_map] at e h
  rw [← e]
  exact h

/-- In an accepted translation unit the parser built, `getSymbols(Param)` on
the scope of a function returns the symbols of the parameters in their
order. -/
theorem acceptedStore_params (file : File) {size : Nat} {tu : TranslationUnit}
    (hr : tu.RangesOK size) (ho : tu.Ordered) (hs : tu.Spaced) {front : List FunctionDecl}
    {fn : FunctionDecl} {back : List FunctionDecl} (hf : tu.FNs = front ++ fn :: back) :
    (acceptedStore file tu.FNs).getSymbols (front.length + 1) (some .Param) =
      (List.range fn.Params.length).map (fun i => (⟨front.length + 1, i⟩ : SymbolRef)) := by
  have hg : (acceptedStore file tu.FNs).get? (front.length + 1) =
      some ⟨some 0, some ⟨0, front.length⟩, acceptedLocals file front fn⟩ := by
    rw [hf]; exact acceptedStore_function file front fn back
  rw [ScopeTree.getSymbols_of_increasing hg _ (acceptedStore_increasing file hr ho hs hg)]
  simp only
  rw [acceptedLocals_params]
  have e := map_fst_enum (fun i => (⟨front.length + 1, i⟩ : SymbolRef))
    (fn.Params.map AnalyzerVisitor.paramSymbol)
  rw [List.length_map] at e
  exact e

/-- In an accepted translation unit the parser built, `getSymbols(Var)` on the
scope of a function returns the symbols of the variables in the order of their
first occurrences. -/
theorem acceptedStore_vars (file : File) {size : Nat} {tu : TranslationUnit}
    (hr : tu.RangesOK size) (ho : tu.Ordered) (hs : tu.Spaced) {front : List FunctionDecl}
    {fn : FunctionDecl} {back : List FunctionDecl} (hf : tu.FNs = front ++ fn :: back) :
    (acceptedStore file tu.FNs).getSymbols (front.length + 1) (some .Var) =
      (List.range (firstOccurrences file
          ((front ++ [fn]).map (fun g => g.Name) ++ fn.Params.map (fun pd => pd.Name))
          fn.identifiers).length).map
        (fun j => (⟨front.length + 1, fn.Params.length + j⟩ : SymbolRef)) := by
  have hg : (acceptedStore file tu.FNs).get? (front.length + 1) =
      some ⟨some 0, some ⟨0, front.length⟩, acceptedLocals file front fn⟩ := by
    rw [hf]; exact acceptedStore_function file front fn back
  rw [ScopeTree.getSymbols_of_increasing hg _ (acceptedStore_increasing file hr ho hs hg)]
  simp only
  rw [acceptedLocals_vars]
  have e := map_fst_enumFrom (fun i => (⟨front.length + 1, i⟩ : SymbolRef))
    (fn.Params.map AnalyzerVisitor.paramSymbol).length
    ((firstOccurrences file
      ((front ++ [fn]).map (fun g => g.Name) ++ fn.Params.map (fun pd => pd.Name))
      fn.identifiers).map (fun n => (⟨.Var, n, none⟩ : Symbol)))
  simp only [List.length_map] at e ⊢
  exact e

/-- The symbol of the parameter at the index `i`. -/
theorem acceptedStore_param_symbol (file : File) (front : List FunctionDecl)
    (fn : FunctionDecl) (back : List FunctionDecl) {i : Nat} {pd : ParamDecl}
    (h : fn.Params[i]? = some pd) :
    (acceptedStore file (front ++ fn :: back)).symbol? ⟨front.length + 1, i⟩ =
      some ⟨.Param, pd.Name, none⟩ := by
  rw [ScopeTree.symbol?_eq (acceptedStore_function file front fn back)]
  simp only
  unfold acceptedLocals
  have hlt : i < fn.Params.length := by
    by_contra hn
    rw [List.getElem?_eq_none (Nat.le_of_not_lt hn)] at h
    cases h
  rw [List.getElem?_append_left (by rw [List.length_map]; exact hlt), List.getElem?_map, h]
  rfl

/-- The symbol of the variable at the index `j` among the variables. -/
theorem acceptedStore_var_symbol (file : File) (front : List FunctionDecl)
    (fn : FunctionDecl) (back : List FunctionDecl) {j : Nat} {n : Range}
    (h : (firstOccurrences file
      ((front ++ [fn]).map (fun g => g.Name) ++ fn.Params.map (fun pd => pd.Name))
      fn.identifiers)[j]? = some n) :
    (acceptedStore file (front ++ fn :: back)).symbol? ⟨front.length + 1, fn.Params.length + j⟩ =
      some ⟨.Var, n, none⟩ := by
  rw [ScopeTree.symbol?_eq (acceptedStore_function file front fn back)]
  simp only
  unfold acceptedLocals
  rw [List.getElem?_append_right (by rw [List.length_map]; exact Nat.le_add_right _ _),
    List.length_map, Nat.add_sub_cancel_left, List.getElem?_map, h]
  rfl

/-- C24. On every translation unit on which `Analyze` returns a scope `T`,
`getSymbols(Param)` on the scope of a function returns the symbols of the
parameters of the function, each once: the symbol at the index `i` of the
scope is the `Param` symbol with the name of the `i`-th parameter, and what is
returned is a rearrangement of these. If the translation unit is the one
`Parse` returned on the file, they are returned in the order of the
parameters. -/
theorem parameter_order :
    (∀ (file : File) (tu : TranslationUnit) (os : String) (T : ScopeTree) (os1 : String),
      Analyze file tu os = some (some T, os1) →
      ∀ front fn back, tu.FNs = front ++ fn :: back →
        T.IsScopeOf fn (front.length + 1) ∧
        (∀ i pd, fn.Params[i]? = some pd →
          T.symbol? ⟨front.length + 1, i⟩ = some ⟨.Param, pd.Name, none⟩) ∧
        (T.getSymbols (front.length + 1) (some .Param)).Perm
          ((List.range fn.Params.length).map (fun i => ⟨front.length + 1, i⟩))) ∧
    (∀ (X : Extern) (file : File) (os0 : String) (tu : TranslationUnit) (P1 : Parser)
      (os : String) (T : ScopeTree) (os1 : String),
      Parse X file os0 = .ok tu P1 → Analyze file tu os = some (some T, os1) →
      ∀ front fn back, tu.FNs = front ++ fn :: back →
        T.getSymbols (front.length + 1) (some .Param) =
          (List.range fn.Params.length).map (fun i => ⟨front.length + 1, i⟩)) := by
  refine ⟨?_, ?_⟩
  · intro file tu os T os1 h front fn back hf
    have hT := AnalyzerVisitor.Analyze_store h
    subst hT
    rw [hf]
    exact ⟨acceptedStore_isScopeOf file front fn back,
      fun i pd hi => acceptedStore_param_symbol file front fn back hi,
      acceptedStore_params_perm file front fn back⟩
  · intro X file os0 tu P1 os T os1 hp h front fn back hf
    have hT := AnalyzerVisitor.Analyze_store h
    subst hT
    obtain ⟨hr, ho⟩ := Parse_ordered hp
    exact acceptedStore_params file hr ho (Parse_spaced hp) hf

/-- C27. `getSymbols(kind)` on a scope of a store returns the symbols of that
scope (every one it returns is a symbol of the scope itself) whose kind is
`kind`, or all of them when no kind is given, each once, in ascending order of
the offset at which their names begin; the order is strict when no two symbols
of the scope begin at the same offset. In the store `Analyze` returns on the
translation unit `Parse` returned on a file that is so in every scope, and the
order is strict. -/
theorem getSymbols_contract :
    (∀ (T : ScopeTree) (id : ScopeId) (sc : Scope) (kind : Option SymbolKind),
      T.get? id = some sc →
      (∀ r, r ∈ T.getSymbols id kind ↔
        r.scope = id ∧ ∃ sym, T.symbol? r = some sym ∧
          (kind = none ∨ kind = some sym.TheKind)) ∧
      (T.getSymbols id kind).Nodup ∧
      (T.getSymbols id kind).Pairwise (fun r1 r2 => ∀ s1 s2, T.symbol? r1 = some s1 →
        T.symbol? r2 = some s2 → s1.Name.Begin ≤ s2.Name.Begin) ∧
      (sc.Symbols.Pairwise (fun a b => a.Name.Begin ≠ b.Name.Begin) →
        (T.getSymbols id kind).Pairwise (fun r1 r2 => ∀ s1 s2, T.symbol? r1 = some s1 →
          T.symbol? r2 = some s2 → s1.Name.Begin < s2.Name.Begin))) ∧
    (∀ (X : Extern) (file : File) (os0 : String) (tu : TranslationUnit) (P1 : Parser)
      (os : String) (T : ScopeTree) (os1 : String),
      Parse X file os0 = .ok tu P1 → Analyze file tu os = some (some T, os1) →
      ∀ id kind,
        (T.getSymbols id kind).Pairwise (fun r1 r2 => ∀ s1 s2, T.symbol? r1 = some s1 →
          T.symbol? r2 = some s2 → s1.Name.Begin < s2.Name.Begin)) := by
  refine ⟨?_, ?_⟩
  · intro T id sc kind h
    exact ScopeTree.getSymbols_spec h kind
  · intro X file os0 tu P1 os T os1 hp h id kind
    have hT := AnalyzerVisitor.Analyze_store h
    subst hT
    obtain ⟨hr, ho⟩ := Parse_ordered hp
    cases hg : (acceptedStore file tu.FNs).get? id with
    | none =>
      unfold ScopeTree.getSymbols
      rw [hg]
      exact List.Pairwise.nil
    | some sc =>
      refine (ScopeTree.getSymbols_spec hg kind).2.2.2 ?_
      exact (acceptedStore_increasing file hr ho (Parse_spaced hp) hg).imp
        (fun hab => Nat.ne_of_lt hab)

/-! ## The entry block of a lowered function -/

namespace LowerToLLVMIRVisitor
open Walker

theorem Ext.reflExt (k : Nat) (V : LowerToLLVMIRVisitor) : Ext k V V :=
  ⟨rfl, rfl, rfl, fun _ _ => rfl, [], by simp, fun f hf => by simpa using hf⟩

theorem Ext.transExt {k : Nat} {V V1 V2 : LowerToLLVMIRVisitor} (h1 : Ext k V V1)
    (h2 : Ext k V1 V2) : Ext k V V2 := by
  obtain ⟨a1, n1, e1⟩ := h1.here
  obtain ⟨a2, n2, e2⟩ := h2.here
  refine ⟨h2.point.trans h1.point, h2.scope.trans h1.scope, h2.length.trans h1.length,
    fun j hj => (h2.others j hj).trans (h1.others j hj), a1 ++ a2, ?_, ?_⟩
  · intro i hi
    rcases List.mem_append.1 hi with hi | hi
    · exact n1 i hi
    · exact n2 i hi
  · intro f hf
    rw [e2 _ (e1 f hf)]
    simp only [List.append_assoc]

/-- A state that differs in the address map and the flag only. -/
theorem Ext.of_module {k : Nat} {V V1 : LowerToLLVMIRVisitor}
    (hm : V1.Module = V.Module) (hp : V1.InsertPoint = V.InsertPoint)
    (hs : V1.CurrentScope = V.CurrentScope) : Ext k V V1 :=
  ⟨hp, hs, by rw [hm], fun _ _ => by rw [hm], [], by simp,
    fun f hf => by rw [hm]; simpa using hf⟩

/-- An instruction that is no `alloca`, appended at the insertion point. -/
theorem insert_ext {k : Nat} {V : LowerToLLVMIRVisitor} (hp : V.InsertPoint = some k)
    {i : IR.Instr} (hi : i.isAlloca = false) : Ext k V (V.insert i).2 := by
  unfold insert
  rw [hp]
  simp only
  cases hf : V.Module.Functions.get? k with
  | none => exact Ext.of_module rfl hp.symm rfl
  | some f =>
    simp only
    rw [List.get?_eq_getElem?] at hf
    have hlt : k < V.Module.Functions.length := by
      by_contra hn
      rw [List.getElem?_eq_none (Nat.le_of_not_lt hn)] at hf
      cases hf
    refine ⟨hp.symm, rfl, by simp, fun j hj => ?_, [i], ?_, ?_⟩
    · simp only
      exact List.getElem?_set_ne (fun e => hj e.symm)
    · intro x hx
      rw [List.mem_singleton.1 hx]
      exact hi
    · intro f1 hf1
      rw [hf] at hf1
      cases hf1
      simp only
      exact List.getElem?_set_self hlt

theorem createBinOp_ext (X : Extern) {k : Nat} {V : LowerToLLVMIRVisitor}
    (hp : V.InsertPoint = some k) (op : Op) (lhs rhs : IR.Value) :
    Ext k V (createBinOp X V op lhs rhs).2 := by
  unfold createBinOp
  simp only
  split
  · exact Ext.reflExt k V
  · cases op with
    | Assign => exact Ext.of_module rfl rfl rfl
    | Add => exact insert_ext hp rfl
    | Sub => exact insert_ext hp rfl
    | Mul => exact insert_ext hp rfl
    | Div => exact insert_ext hp rfl

/-- The lowering of an expression appends instructions that are no `alloca`
at the insertion point, and nothing else changes in the module. -/
theorem lower_ext (X : Extern) (file : File) (T : ScopeTree) (k : Nat) :
    (∀ e (V : LowerToLLVMIRVisitor), V.InsertPoint = some k →
      Ext k V (lower X file T e V).2) ∧
    (∀ es acc (V : LowerToLLVMIRVisitor), V.InsertPoint = some k →
      Ext k V (lowerArgs X file T es acc V).2) := by
  apply AnalyzerVisitor.Expr.induct
  · intro v r V hp
    rw [lower]
    exact Ext.reflExt k V
  · intro n V hp
    rw [lower]
    split
    · exact Ext.of_module rfl rfl rfl
    · exact insert_ext hp rfl
  · intro c args r ih V hp
    rw [lower]
    have h1 := ih [] V hp
    exact h1.transExt (insert_ext (h1.point.trans hp) rfl)
  · intro op l r rg ihl ihr V hp
    cases op with
    | Assign =>
      cases l with
      | IdentifierExpr name =>
        rw [lower]
        simp only
        have h1 := ihr V hp
        split
        · exact h1.transExt (Ext.of_module rfl rfl rfl)
        · exact h1.transExt (insert_ext (h1.point.trans hp) rfl)
      | NumberExpr v r0 =>
        rw [lower]
        · exact Ext.of_module rfl rfl rfl
        · intro name h; cases h
      | CallExpr c a r0 =>
        rw [lower]
        · exact Ext.of_module rfl rfl rfl
        · intro name h; cases h
      | BinaryExpr o a b r0 =>
        rw [lower]
        · exact Ext.of_module rfl rfl rfl
        · intro name h; cases h
    | Add =>
      rw [lower]
      have h1 := ihl V hp
      have h2 := ihr _ (h1.point.trans hp)
      exact (h1.transExt h2).transExt (createBinOp_ext X ((h2.point.trans h1.point).trans hp) _ _ _)
    | Sub =>
      rw [lower]
      have h1 := ihl V hp
      have h2 := ihr _ (h1.point.trans hp)
      exact (h1.transExt h2).transExt (createBinOp_ext X ((h2.point.trans h1.point).trans hp) _ _ _)
    | Mul =>
      rw [lower]
      have h1 := ihl V hp
      have h2 := ihr _ (h1.point.trans hp)
      exact (h1.transExt h2).transExt (createBinOp_ext X ((h2.point.trans h1.point).trans hp) _ _ _)
    | Div =>
      rw [lower]
      have h1 := ihl V hp
      have h2 := ihr _ (h1.point.trans hp)
      exact (h1.transExt h2).transExt (createBinOp_ext X ((h2.point.trans h1.point).trans hp) _ _ _)
  · intro acc V hp
    rw [lowerArgs]
    exact Ext.reflExt k V
  · intro e es ihe ihes acc V hp
    rw [lowerArgs]
    have h1 := ihe V hp
    exact h1.transExt (ihes _ _ (h1.point.trans hp))

end LowerToLLVMIRVisitor

namespace LowerToLLVMIRVisitor
open Walker

theorem visitor_onEnterNode (X : Extern) (file : File) (T : ScopeTree) :
    (visitor X file T).onEnterNode = fun _ s => (true, s) := rfl

theorem visitor_onEnterExpr (X : Extern) (file : File) (T : ScopeTree) :
    (visitor X file T).onEnterExpr = fun _ s => (true, s) := rfl

theorem visitor_onEnterStmt (X : Extern) (file : File) (T : ScopeTree) :
    (visitor X file T).onEnterStmt = fun _ s => (true, s) := rfl

theorem visitor_onEnterDecl (X : Extern) (file : File) (T : ScopeTree) :
    (visitor X file T).onEnterDecl = fun _ s => (true, s) := rfl

theorem visitor_onEnterNumberExpr (X : Extern) (file : File) (T : ScopeTree) :
    (visitor X file T).onEnterNumberExpr = fun _ s => (true, s) := rfl

theorem visitor_onEnterIdentifierExpr (X : Extern) (file : File) (T : ScopeTree) :
    (visitor X file T).onEnterIdentifierExpr = fun _ s => (true, s) := rfl

theorem visitor_onEnterCallExpr (X : Extern) (file : File) (T : ScopeTree) :
    (visitor X file T).onEnterCallExpr = fun _ s => (true, s) := rfl

theorem visitor_onEnterBinaryExpr (X : Extern) (file : File) (T : ScopeTree) :
    (visitor X file T).onEnterBinaryExpr = fun _ s => (true, s) := rfl

theorem visitor_onEnterCompoundStmt (X : Extern) (file : File) (T : ScopeTree) :
    (visitor X file T).onEnterCompoundStmt = fun _ s => (true, s) := rfl

theorem visitor_onEnterParamDecl (X : Extern) (file : File) (T : ScopeTree) :
    (visitor X file T).onEnterParamDecl = fun _ s => (true, s) := rfl

theorem visitor_onExitNode (X : Extern) (file : File) (T : ScopeTree) :
    (visitor X file T).onExitNode = fun _ s => s := rfl

theorem visitor_onExitExpr (X : Extern) (file : File) (T : ScopeTree) :
    (visitor X file T).onExitExpr = fun _ s => s := rfl

theorem visitor_onExitStmt (X : Extern) (file : File) (T : ScopeTree) :
    (visitor X file T).onExitStmt = fun _ s => s := rfl

theorem visitor_onExitDecl (X : Extern) (file : File) (T : ScopeTree) :
    (visitor X file T).onExitDecl = fun _ s => s := rfl

theorem visitor_onExitNumberExpr (X : Extern) (file : File) (T : ScopeTree) :
    (visitor X file T).onExitNumberExpr = fun _ s => s := rfl

theorem visitor_onExitIdentifierExpr (X : Extern) (file : File) (T : ScopeTree) :
    (visitor X file T).onExitIdentifierExpr = fun _ s => s := rfl

theorem visitor_onExitCallExpr (X : Extern) (file : File) (T : ScopeTree) :
    (visitor X file T).onExitCallExpr = fun _ s => s := rfl

theorem visitor_onExitBinaryExpr (X : Extern) (file : File) (T : ScopeTree) :
    (visitor X file T).onExitBinaryExpr = fun _ s => s := rfl

theorem visitor_onExitExprStmt (X : Extern) (file : File) (T : ScopeTree) :
    (visitor X file T).onExitExprStmt = fun _ s => s := rfl

theorem visitor_onExitReturnStmt (X : Extern) (file : File) (T : ScopeTree) :
    (visitor X file T).onExitReturnStmt = fun _ s => s := rfl

theorem visitor_onExitCompoundStmt (X : Extern) (file : File) (T : ScopeTree) :
    (visitor X file T).onExitCompoundStmt = fun _ s => s := rfl

theorem visitor_onExitParamDecl (X : Extern) (file : File) (T : ScopeTree) :
    (visitor X file T).onExitParamDecl = fun _ s => s := rfl

theorem visitor_onExitTranslationUnit (X : Extern) (file : File) (T : ScopeTree) :
    (visitor X file T).onExitTranslationUnit = fun _ s => s := rfl

theorem visitor_onEnterExprStmt (X : Extern) (file : File) (T : ScopeTree) :
    (visitor X file T).onEnterExprStmt = onEnterExprStmt X file T := rfl

theorem visitor_onEnterReturnStmt (X : Extern) (file : File) (T : ScopeTree) :
    (visitor X file T).onEnterReturnStmt = onEnterReturnStmt X file T := rfl

theorem visitor_onEnterFunctionDecl (X : Extern) (file : File) (T : ScopeTree) :
    (visitor X file T).onEnterFunctionDecl = onEnterFunctionDecl file T := rfl

theorem visitor_onExitFunctionDecl (X : Extern) (file : File) (T : ScopeTree) :
    (visitor X file T).onExitFunctionDecl = onExitFunctionDecl T := rfl

theorem visitor_onEnterTranslationUnit (X : Extern) (file : File) (T : ScopeTree) :
    (visitor X file T).onEnterTranslationUnit = onEnterTranslationUnit file := rfl

/-- The walk of an expression calls catch-all hooks only. -/
theorem walkExpr_same (X : Extern) (file : File) (T : ScopeTree) :
    (∀ e (V : LowerToLLVMIRVisitor), walkExpr (visitor X file T) e V = V) ∧
    (∀ es (V : LowerToLLVMIRVisitor), walkExprs (visitor X file T) es V = V) := by
  apply AnalyzerVisitor.Expr.induct
  · intro v r V
    rw [walkExpr]
    rfl
  · intro n V
    rw [walkExpr]
    rfl
  · intro c args r ih V
    rw [walkExpr]
    simp only [aroundExpr, entered, visitor_onEnterNode, visitor_onEnterExpr, visitor_onEnterStmt,
      visitor_onEnterDecl, visitor_onEnterNumberExpr, visitor_onEnterIdentifierExpr,
      visitor_onEnterCallExpr, visitor_onEnterBinaryExpr, visitor_onEnterCompoundStmt,
      visitor_onEnterParamDecl, visitor_onExitNode, visitor_onExitExpr, visitor_onExitStmt,
      visitor_onExitDecl, visitor_onExitNumberExpr, visitor_onExitIdentifierExpr,
      visitor_onExitCallExpr, visitor_onExitBinaryExpr, visitor_onExitExprStmt,
      visitor_onExitReturnStmt, visitor_onExitCompoundStmt, visitor_onExitParamDecl,
      visitor_onExitTranslationUnit, visitor_onEnterExprStmt, visitor_onEnterReturnStmt,
      visitor_onEnterFunctionDecl, visitor_onExitFunctionDecl, visitor_onEnterTranslationUnit]
    simp [ih]
  · intro op l r rg ihl ihr V
    rw [walkExpr]
    simp only [aroundExpr, entered, visitor_onEnterNode, visitor_onEnterExpr, visitor_onEnterStmt,
      visitor_onEnterDecl, visitor_onEnterNumberExpr, visitor_onEnterIdentifierExpr,
      visitor_onEnterCallExpr, visitor_onEnterBinaryExpr, visitor_onEnterCompoundStmt,
      visitor_onEnterParamDecl, visitor_onExitNode, visitor_onExitExpr, visitor_onExitStmt,
      visitor_onExitDecl, visitor_onExitNumberExpr, visitor_onExitIdentifierExpr,
      visitor_onExitCallExpr, visitor_onExitBinaryExpr, visitor_onExitExprStmt,
      visitor_onExitReturnStmt, visitor_onExitCompoundStmt, visitor_onExitParamDecl,
      visitor_onExitTranslationUnit, visitor_onEnterExprStmt, visitor_onEnterReturnStmt,
      visitor_onEnterFunctionDecl, visitor_onExitFunctionDecl, visitor_onEnterTranslationUnit]
    simp [ihl, ihr]
  · intro V
    rw [walkExprs]
  · intro e es ihe ihes V
    rw [walkExprs, ihe, ihes]

theorem walkStmt_lower (X : Extern) (file : File) (T : ScopeTree) (st : Stmt)
    (V : LowerToLLVMIRVisitor) :
    walkStmt (visitor X file T) st V =
      match st with
      | .ExprStmt e => (lower X file T e V).2
      | .ReturnStmt v _ =>
        ((lower X file T v V).2.insert (.Ret (lower X file T v V).1)).2 := by
  cases st with
  | ExprStmt e =>
    simp only [walkStmt, around, entered, visitor_onEnterNode, visitor_onEnterExpr,
      visitor_onEnterStmt, visitor_onEnterDecl, visitor_onEnterNumberExpr,
      visitor_onEnterIdentifierExpr, visitor_onEnterCallExpr, visitor_onEnterBinaryExpr,
      visitor_onEnterCompoundStmt, visitor_onEnterParamDecl, visitor_onExitNode,
      visitor_onExitExpr, visitor_onExitStmt, visitor_onExitDecl, visitor_onExitNumberExpr,
      visitor_onExitIdentifierExpr, visitor_onExitCallExpr, visitor_onExitBinaryExpr,
      visitor_onExitExprStmt, visitor_onExitReturnStmt, visitor_onExitCompoundStmt,
      visitor_onExitParamDecl, visitor_onExitTranslationUnit, visitor_onEnterExprStmt,
      visitor_onEnterReturnStmt, visitor_onEnterFunctionDecl, visitor_onExitFunctionDecl,
      visitor_onEnterTranslationUnit, onEnterExprStmt]
    simp [(walkExpr_same X file T).1]
  | ReturnStmt v r =>
    simp only [walkStmt, around, entered, visitor_onEnterNode, visitor_onEnterExpr,
      visitor_onEnterStmt, visitor_onEnterDecl, visitor_onEnterNumberExpr,
      visitor_onEnterIdentifierExpr, visitor_onEnterCallExpr, visitor_onEnterBinaryExpr,
      visitor_onEnterCompoundStmt, visitor_onEnterParamDecl, visitor_onExitNode,
      visitor_onExitExpr, visitor_onExitStmt, visitor_onExitDecl, visitor_onExitNumberExpr,
      visitor_onExitIdentifierExpr, visitor_onExitCallExpr, visitor_onExitBinaryExpr,
      visitor_onExitExprStmt, visitor_onExitReturnStmt, visitor_onExitCompoundStmt,
      visitor_onExitParamDecl, visitor_onExitTranslationUnit, visitor_onEnterExprStmt,
      visitor_onEnterReturnStmt, visitor_onEnterFunctionDecl, visitor_onExitFunctionDecl,
      visitor_onEnterTranslationUnit, onEnterReturnStmt]
    simp [(walkExpr_same X file T).1]

theorem walkStmt_ext (X : Extern) (file : File) (T : ScopeTree) (st : Stmt) {k : Nat}
    {V : LowerToLLVMIRVisitor} (hp : V.InsertPoint = some k) :
    Ext k V (walkStmt (visitor X file T) st V) := by
  rw [walkStmt_lower]
  cases st with
  | ExprStmt e => exact (lower_ext X file T k).1 e V hp
  | ReturnStmt v r =>
    have h1 := (lower_ext X file T k).1 v V hp
    exact h1.transExt (insert_ext (h1.point.trans hp) rfl)

theorem stmts_ext (X : Extern) (file : File) (T : ScopeTree) (sts : List Stmt) {k : Nat} :
    ∀ {V : LowerToLLVMIRVisitor}, V.InsertPoint = some k →
      Ext k V (sts.foldl (fun acc st => walkStmt (visitor X file T) st acc) V) := by
  induction sts with
  | nil => intro V _; exact Ext.reflExt k V
  | cons st rest ih =>
    intro V hp
    rw [List.foldl_cons]
    have h1 := walkStmt_ext X file T st hp
    exact h1.transExt (ih (h1.point.trans hp))

theorem params_same (X : Extern) (file : File) (T : ScopeTree) (params : List ParamDecl)
    (V : LowerToLLVMIRVisitor) :
    params.foldl (fun acc pd => walkParamDecl (visitor X file T) pd acc) V = V := by
  induction params generalizing V with
  | nil => rfl
  | cons pd rest ih =>
    rw [List.foldl_cons]
    have : walkParamDecl (visitor X file T) pd V = V := by
      simp only [walkParamDecl, around, entered, visitor_onEnterNode, visitor_onEnterExpr,
        visitor_onEnterStmt, visitor_onEnterDecl, visitor_onEnterNumberExpr,
        visitor_onEnterIdentifierExpr, visitor_onEnterCallExpr, visitor_onEnterBinaryExpr,
        visitor_onEnterCompoundStmt, visitor_onEnterParamDecl, visitor_onExitNode,
        visitor_onExitExpr, visitor_onExitStmt, visitor_onExitDecl, visitor_onExitNumberExpr,
        visitor_onExitIdentifierExpr, visitor_onExitCallExpr, visitor_onExitBinaryExpr,
        visitor_onExitExprStmt, visitor_onExitReturnStmt, visitor_onExitCompoundStmt,
        visitor_onExitParamDecl, visitor_onExitTranslationUnit, visitor_onEnterExprStmt,
        visitor_onEnterReturnStmt, visitor_onEnterFunctionDecl, visitor_onExitFunctionDecl,
        visitor_onEnterTranslationUnit]
      simp
    rw [this, ih]

theorem onEnterFunctionDecl_true (file : File) (T : ScopeTree) (fn : FunctionDecl)
    (V : LowerToLLVMIRVisitor) : (onEnterFunctionDecl file T fn V).1 = true := by
  unfold onEnterFunctionDecl
  simp only
  split
  · rfl
  · split <;> rfl

theorem walkFunctionDecl_lower (X : Extern) (file : File) (T : ScopeTree) (fn : FunctionDecl)
    (V : LowerToLLVMIRVisitor) :
    walkFunctionDecl (visitor X file T) fn V =
      onExitFunctionDecl T fn
        (fn.Body.Stmts.foldl (fun acc st => walkStmt (visitor X file T) st acc)
          (onEnterFunctionDecl file T fn V).2) := by
  have hp := params_same X file T fn.Params (onEnterFunctionDecl file T fn V).2
  simp only [walkFunctionDecl, walkCompoundStmt, around, entered, visitor_onEnterNode,
    visitor_onEnterExpr, visitor_onEnterStmt, visitor_onEnterDecl, visitor_onEnterNumberExpr,
    visitor_onEnterIdentifierExpr, visitor_onEnterCallExpr, visitor_onEnterBinaryExpr,
    visitor_onEnterCompoundStmt, visitor_onEnterParamDecl, visitor_onExitNode, visitor_onExitExpr,
    visitor_onExitStmt, visitor_onExitDecl, visitor_onExitNumberExpr,
    visitor_onExitIdentifierExpr, visitor_onExitCallExpr, visitor_onExitBinaryExpr,
    visitor_onExitExprStmt, visitor_onExitReturnStmt, visitor_onExitCompoundStmt,
    visitor_onExitParamDecl, visitor_onExitTranslationUnit, visitor_onEnterExprStmt,
    visitor_onEnterReturnStmt, visitor_onEnterFunctionDecl, visitor_onExitFunctionDecl,
    visitor_onEnterTranslationUnit] at hp ⊢
  simp only [onEnterFunctionDecl_true, Bool.not_true, Bool.false_eq_true, if_false, if_true]
  rw [hp]

theorem Walk_lower (X : Extern) (file : File) (T : ScopeTree) (tu : TranslationUnit) :
    Walk tu (visitor X file T) init =
      tu.FNs.foldl (fun acc fn => walkFunctionDecl (visitor X file T) fn acc)
        { init with Module := { init.Module with SourceFileName := file.Filename } } := by
  simp only [Walk, walkTranslationUnit, entered, visitor_onEnterNode, visitor_onEnterExpr,
    visitor_onEnterStmt, visitor_onEnterDecl, visitor_onEnterNumberExpr,
    visitor_onEnterIdentifierExpr, visitor_onEnterCallExpr, visitor_onEnterBinaryExpr,
    visitor_onEnterCompoundStmt, visitor_onEnterParamDecl, visitor_onExitNode, visitor_onExitExpr,
    visitor_onExitStmt, visitor_onExitDecl, visitor_onExitNumberExpr,
    visitor_onExitIdentifierExpr, visitor_onExitCallExpr, visitor_onExitBinaryExpr,
    visitor_onExitExprStmt, visitor_onExitReturnStmt, visitor_onExitCompoundStmt,
    visitor_onExitParamDecl, visitor_onExitTranslationUnit, visitor_onEnterExprStmt,
    visitor_onEnterReturnStmt, visitor_onEnterFunctionDecl, visitor_onExitFunctionDecl,
    visitor_onEnterTranslationUnit, onEnterTranslationUnit]
  simp

/-- An instruction appended to the entry block of the function at the
insertion point. -/
theorem insert_eq {k : Nat} {V : LowerToLLVMIRVisitor} {f : IR.Function}
    (hp : V.InsertPoint = some k) (hf : V.Module.Functions[k]? = some f) (i : IR.Instr) :
    V.insert i = (.Instruction k f.Entry.length,
      { V with Module := { V.Module with
        Functions := V.Module.Functions.set k { f with Entry := f.Entry ++ [i] } } }) := by
  unfold insert
  rw [hp]
  simp only
  rw [List.get?_eq_getElem?, hf]

end LowerToLLVMIRVisitor

namespace LowerToLLVMIRVisitor
open Walker

theorem lt_of_getElem? {α : Type} {l : List α} {k : Nat} {a : α} (h : l[k]? = some a) :
    k < l.length := by
  by_contra hn
  rw [List.getElem?_eq_none (Nat.le_of_not_lt hn)] at h
  cases h

theorem set_same {α : Type} {l : List α} {k : Nat} {a : α} (h : l[k]? = some a) :
    l.set k a = l := by
  apply List.ext_getElem?
  intro j
  by_cases hj : k = j
  · subst hj
    rw [List.getElem?_set_self (lt_of_getElem? h), h]
  · rw [List.getElem?_set_ne hj]

/-- What `insert` does where the insertion point is the function `k`. -/
theorem insert_spec {k : Nat} {V : LowerToLLVMIRVisitor} {f : IR.Function}
    (hp : V.InsertPoint = some k) (hf : V.Module.Functions[k]? = some f) (i : IR.Instr) :
    (V.insert i).1 = .Instruction k f.Entry.length ∧
    (V.insert i).2.InsertPoint = some k ∧
    (V.insert i).2.CurrentScope = V.CurrentScope ∧
    (V.insert i).2.Module.Functions =
      V.Module.Functions.set k { f with Entry := f.Entry ++ [i] } := by
  rw [insert_eq hp hf]
  exact ⟨rfl, hp, rfl, rfl⟩

/-- The first loop of `onEnter(FunctionDecl)`: the slots of the parameters
come behind the entry block. -/
theorem allocaParams_spec (file : File) (T : ScopeTree) (k : Nat) (params : List SymbolRef) :
    ∀ (i : Nat) (V : LowerToLLVMIRVisitor) (f : IR.Function), V.InsertPoint = some k →
      V.Module.Functions[k]? = some f → f.Entry.length = 2 * i →
      (allocaParams file T k params i V).InsertPoint = some k ∧
      (allocaParams file T k params i V).CurrentScope = V.CurrentScope ∧
      (allocaParams file T k params i V).Module.Functions =
        V.Module.Functions.set k { f with Entry := (f.Entry ++
          paramSlots k i (params.map (fun s => symbolName file T (some s)))) } := by
  induction params with
  | nil =>
    intro i V f hp hf hl
    refine ⟨hp, rfl, ?_⟩
    simp only [allocaParams, List.map_nil, paramSlots, List.append_nil]
    exact (set_same hf).symm
  | cons s rest ih =>
    intro i V f hp hf hl
    have hlt := lt_of_getElem? hf
    rw [allocaParams]
    obtain ⟨a1, a2, a3, a4⟩ := insert_spec hp hf (.Alloca (symbolName file T (some s)))
    generalize V.insert (.Alloca (symbolName file T (some s))) = a at a1 a2 a3 a4 ⊢
    have hfa : a.2.Module.Functions[k]? =
        some { f with Entry := f.Entry ++ [.Alloca (symbolName file T (some s))] } := by
      rw [a4]; exact List.getElem?_set_self hlt
    obtain ⟨b1, b2, b3, b4⟩ := insert_spec a2 hfa (.Store (.Argument k i) a.1)
    generalize a.2.insert (.Store (.Argument k i) a.1) = b at b1 b2 b3 b4 ⊢
    have hfb : (b.2.setAddress s a.1).Module.Functions[k]? =
        some { f with Entry := (f.Entry ++ [.Alloca (symbolName file T (some s))] ++
          [.Store (.Argument k i) a.1]) } := by
      show b.2.Module.Functions[k]? = _
      rw [b4, a4, List.set_set]
      exact List.getElem?_set_self hlt
    obtain ⟨h1, h2, h3⟩ := ih (i + 1) (b.2.setAddress s a.1) _ b2 hfb
      (by simp only [List.length_append, List.length_singleton]; omega)
    refine ⟨h1, ?_, ?_⟩
    · rw [h2]
      show b.2.CurrentScope = _
      rw [b3, a3]
    · rw [h3]
      show b.2.Module.Functions.set k _ = _
      rw [b4, a4, List.set_set, List.set_set, a1, hl]
      simp only [List.map_cons, paramSlots, List.append_assoc, List.singleton_append,
        List.cons_append, List.nil_append]

/-- The second loop: the slots of the variables come behind the entry
block. -/
theorem allocaVars_spec (file : File) (T : ScopeTree) (k : Nat) (vars : List SymbolRef) :
    ∀ (V : LowerToLLVMIRVisitor) (f : IR.Function), V.InsertPoint = some k →
      V.Module.Functions[k]? = some f →
      (allocaVars file T vars V).InsertPoint = some k ∧
      (allocaVars file T vars V).CurrentScope = V.CurrentScope ∧
      (allocaVars file T vars V).Module.Functions =
        V.Module.Functions.set k { f with Entry := (f.Entry ++
          varSlots (vars.map (fun s => symbolName file T (some s)))) } := by
  induction vars with
  | nil =>
    intro V f hp hf
    refine ⟨hp, rfl, ?_⟩
    simp only [allocaVars, List.map_nil, varSlots, List.append_nil]
    exact (set_same hf).symm
  | cons s rest ih =>
    intro V f hp hf
    have hlt := lt_of_getElem? hf
    rw [allocaVars]
    obtain ⟨a1, a2, a3, a4⟩ := insert_spec hp hf (.Alloca (symbolName file T (some s)))
    generalize V.insert (.Alloca (symbolName file T (some s))) = a at a1 a2 a3 a4 ⊢
    have hfa : (a.2.setAddress s a.1).Module.Functions[k]? =
        some { f with Entry := f.Entry ++ [.Alloca (symbolName file T (some s))] } := by
      show a.2.Module.Functions[k]? = _
      rw [a4]; exact List.getElem?_set_self hlt
    obtain ⟨h1, h2, h3⟩ := ih (a.2.setAddress s a.1) _ a2 hfa
    refine ⟨h1, ?_, ?_⟩
    · rw [h2]
      show a.2.CurrentScope = _
      rw [a3]
    · rw [h3]
      show a.2.Module.Functions.set k _ = _
      rw [a4, List.set_set]
      simp only [List.map_cons, varSlots, List.append_assoc, List.singleton_append,
        List.cons_append, List.nil_append]

end LowerToLLVMIRVisitor

theorem findIdx_skip {α : Type} (p : α → Bool) (l1 : List α) (x : α) (l2 : List α)
    (h1 : ∀ a ∈ l1, p a = false) (hx : p x = true) :
    (l1 ++ x :: l2).findIdx p = l1.length := by
  induction l1 with
  | nil => simp [List.findIdx_cons, hx]
  | cons a l ih =>
    rw [List.cons_append, List.findIdx_cons, h1 a (List.mem_cons_self _ _)]
    simp only [cond_false, List.length_cons]
    rw [ih (fun b hb => h1 b (List.mem_cons_of_mem _ hb))]

/-- In the store of an accepted translation unit whose functions have
different names, the name of a function resolves from the global scope to the
symbol of the function. -/
theorem acceptedStore_lookup (file : File) (front : List FunctionDecl) (fn : FunctionDecl)
    (back : List FunctionDecl)
    (hd : (front ++ fn :: back).Pairwise (fun a b => file.slice a.Name ≠ file.slice b.Name)) :
    (acceptedStore file (front ++ fn :: back)).lookup file 0 fn.Name =
      some ⟨0, front.length⟩ ∧
    (acceptedStore file (front ++ fn :: back)).symbol? ⟨0, front.length⟩ =
      some ⟨.Function, fn.Name, some (front.length + 1)⟩ := by
  have hG : acceptedGlobals (front ++ fn :: back) =
      acceptedGlobals front ++ (⟨.Function, fn.Name, some (front.length + 1)⟩ : Symbol) ::
        (List.enumFrom (front.length + 1) back).map
          (fun p => (⟨.Function, p.2.Name, some (p.1 + 1)⟩ : Symbol)) := by
    unfold acceptedGlobals
    rw [List.enum_append, List.map_append]
    rfl
  refine ⟨?_, ?_⟩
  · rw [ScopeTree.lookup_global (acceptedStore_global file _) rfl]
    unfold ScopeTree.find
    simp only
    rw [hG, findIdx_skip]
    · simp [acceptedGlobals_length]
    · intro a ha
      have hn : a.Name ∈ (acceptedGlobals front).map (fun s => s.Name) :=
        List.mem_map_of_mem _ ha
      rw [acceptedGlobals_names] at hn
      obtain ⟨g, hg, hgn⟩ := List.mem_map.1 hn
      rw [List.pairwise_append] at hd
      have := hd.2.2 g hg fn (List.mem_cons_self _ _)
      rw [hgn] at this
      simpa using this
    · simp
  · rw [ScopeTree.symbol?_eq (acceptedStore_global file _)]
    simp only
    rw [hG, List.getElem?_append_right (by rw [acceptedGlobals_length]),
      acceptedGlobals_length]
    simp

namespace LowerToLLVMIRVisitor
open Walker

/-- What `onEnter(FunctionDecl)` does where the name of the function resolves
to a symbol that owns a scope: a function comes behind the functions of the
module, with the slots of the `Param` symbols and of the `Var` symbols of the
scope in its entry block. -/
theorem onEnterFunctionDecl_spec (file : File) (T : ScopeTree) (fn : FunctionDecl)
    {V : LowerToLLVMIRVisitor} {cur : ScopeId} {ref : SymbolRef} {sym : Symbol}
    {scope : ScopeId} (hcur : V.CurrentScope = some cur)
    (hl : T.lookup file cur fn.Name = some ref) (hs : T.symbol? ref = some sym)
    (hsc : sym.TheScope = some scope) :
    (onEnterFunctionDecl file T fn V).2.InsertPoint = some V.Module.Functions.length ∧
    (onEnterFunctionDecl file T fn V).2.CurrentScope = some scope ∧
    (onEnterFunctionDecl file T fn V).2.Module.Functions =
      V.Module.Functions ++ [⟨file.slice sym.Name, (T.getSymbols scope (some .Param)).length,
        paramSlots V.Module.Functions.length 0
          ((T.getSymbols scope (some .Param)).map (fun s => symbolName file T (some s))) ++
        varSlots ((T.getSymbols scope (some .Var)).map
          (fun s => symbolName file T (some s)))⟩] := by
  have hsym : (V.CurrentScope.bind fun cur => T.lookup file cur fn.Name) = some ref := by
    rw [hcur]; exact hl
  have hf0 : (V.Module.Functions ++ [(⟨file.slice sym.Name,
      (T.getSymbols scope (some .Param)).length, []⟩ : IR.Function)])[V.Module.Functions.length]?
      = some ⟨file.slice sym.Name, (T.getSymbols scope (some .Param)).length, []⟩ := by
    rw [List.getElem?_append_right (Nat.le_refl _)]
    simp
  obtain ⟨p1, p2, p3⟩ := allocaParams_spec file T V.Module.Functions.length
    (T.getSymbols scope (some .Param)) 0
    ⟨⟨V.Module.ModuleID, V.Module.SourceFileName, V.Module.Functions ++
        [(⟨file.slice sym.Name, (T.getSymbols scope (some .Param)).length, []⟩ : IR.Function)]⟩,
      V.CurrentScope, some V.Module.Functions.length, V.SymbolToValue, V.Undefined⟩ _ rfl hf0 rfl
  simp only [List.nil_append] at p3
  rw [set_last] at p3
  have hf2 : (allocaParams file T V.Module.Functions.length
      (T.getSymbols scope (some .Param)) 0
      ⟨⟨V.Module.ModuleID, V.Module.SourceFileName, V.Module.Functions ++
          [(⟨file.slice sym.Name, (T.getSymbols scope (some .Param)).length, []⟩ :
            IR.Function)]⟩,
        V.CurrentScope, some V.Module.Functions.length, V.SymbolToValue,
        V.Undefined⟩).Module.Functions[V.Module.Functions.length]? = some
      ⟨file.slice sym.Name, (T.getSymbols scope (some .Param)).length,
        paramSlots V.Module.Functions.length 0
          ((T.getSymbols scope (some .Param)).map (fun s => symbolName file T (some s)))⟩ := by
    rw [p3, List.getElem?_append_right (Nat.le_refl _)]
    simp
  obtain ⟨v1, v2, v3⟩ := allocaVars_spec file T V.Module.Functions.length
    (T.getSymbols scope (some .Var)) _ _ p1 hf2
  rw [p3, set_last] at v3
  have heq : onEnterFunctionDecl file T fn V = (true,
      { allocaVars file T (T.getSymbols scope (some .Var))
          (allocaParams file T V.Module.Functions.length
            (T.getSymbols scope (some .Param)) 0
            ⟨⟨V.Module.ModuleID, V.Module.SourceFileName, V.Module.Functions ++
                [(⟨file.slice sym.Name, (T.getSymbols scope (some .Param)).length, []⟩ :
                  IR.Function)]⟩,
              V.CurrentScope, some V.Module.Functions.length, V.SymbolToValue,
              V.Undefined⟩) with CurrentScope := some scope }) := by
    unfold onEnterFunctionDecl
    simp only
    rw [hsym]
    simp only [Option.some_bind, hs, hsc]
  rw [heq]
  exact ⟨v1, rfl, v3⟩

end LowerToLLVMIRVisitor

namespace LowerToLLVMIRVisitor
open Walker

/-- The walk of a function whose name resolves to a symbol that owns a scope:
a function comes behind the functions of the module; its entry block holds the
slots of the parameters, the slots of the variables, and behind them
instructions that are no `alloca`; the functions that were there stay as they
were. -/
theorem walkFunctionDecl_spec (X : Extern) (file : File) (T : ScopeTree) (fn : FunctionDecl)
    {V : LowerToLLVMIRVisitor} {cur : ScopeId} {ref : SymbolRef} {sym : Symbol}
    {scope : ScopeId} {sc : Scope} (hcur : V.CurrentScope = some cur)
    (hl : T.lookup file cur fn.Name = some ref) (hs : T.symbol? ref = some sym)
    (hsc : sym.TheScope = some scope) (hget : T.get? scope = some sc) :
    (walkFunctionDecl (visitor X file T) fn V).CurrentScope = sc.Parent ∧
    (walkFunctionDecl (visitor X file T) fn V).Module.Functions.length =
      V.Module.Functions.length + 1 ∧
    (∀ j, j < V.Module.Functions.length →
      (walkFunctionDecl (visitor X file T) fn V).Module.Functions[j]? =
        V.Module.Functions[j]?) ∧
    ∃ added : List IR.Instr, (∀ i ∈ added, i.isAlloca = false) ∧
      (walkFunctionDecl (visitor X file T) fn V).Module.Functions[V.Module.Functions.length]? =
        some ⟨file.slice sym.Name, (T.getSymbols scope (some .Param)).length,
          paramSlots V.Module.Functions.length 0
            ((T.getSymbols scope (some .Param)).map (fun s => symbolName file T (some s))) ++
          varSlots ((T.getSymbols scope (some .Var)).map
            (fun s => symbolName file T (some s))) ++ added⟩ := by
  rw [walkFunctionDecl_lower]
  obtain ⟨e1, e2, e3⟩ := onEnterFunctionDecl_spec file T fn hcur hl hs hsc
  have hx := stmts_ext X file T fn.Body.Stmts e1
  generalize (onEnterFunctionDecl file T fn V).2 = V1 at e1 e2 e3 hx
  generalize fn.Body.Stmts.foldl (fun acc st => walkStmt (visitor X file T) st acc) V1 = V2
    at hx
  have hexit : onExitFunctionDecl T fn V2 = { V2 with CurrentScope := sc.Parent } := by
    unfold onExitFunctionDecl
    rw [hx.scope, e2]
    simp only [Option.some_bind, hget]
  rw [hexit]
  simp only
  obtain ⟨added, hna, hhere⟩ := hx.here
  refine ⟨trivial, ?_, ?_, added, hna, ?_⟩
  · rw [hx.length, e3]
    simp
  · intro j hj
    rw [hx.others j (Nat.ne_of_lt hj), e3, List.getElem?_append_left hj]
  · have := hhere _ (by rw [e3, List.getElem?_append_right (Nat.le_refl _)]; simp; rfl)
    rw [this]

end LowerToLLVMIRVisitor

namespace LowerToLLVMIRVisitor
open Walker

/-- The state in which the lowering arrives at the first function of a
translation unit: the current scope is the global scope, and the module holds
no function. -/
theorem start_facts (file : File) :
    ({ init with Module := { init.Module with SourceFileName := file.Filename } } :
      LowerToLLVMIRVisitor).CurrentScope = some 0 ∧
    ({ init with Module := { init.Module with SourceFileName := file.Filename } } :
      LowerToLLVMIRVisitor).Module.Functions = [] := ⟨rfl, rfl⟩

/-- Between two functions of an accepted translation unit whose functions have
different names, the current scope is the global scope and the module holds a
function for each function so far. -/
theorem functions_lowered (X : Extern) (file : File) (fns : List FunctionDecl)
    (hd : fns.Pairwise (fun a b => file.slice a.Name ≠ file.slice b.Name))
    (V0 : LowerToLLVMIRVisitor) (hc0 : V0.CurrentScope = some 0)
    (hf0 : V0.Module.Functions = []) (front : List FunctionDecl) :
    ∀ back, fns = front ++ back →
      (front.foldl (fun acc fn => walkFunctionDecl (visitor X file (acceptedStore file fns)) fn acc)
        V0).CurrentScope = some 0 ∧
      (front.foldl (fun acc fn => walkFunctionDecl (visitor X file (acceptedStore file fns)) fn acc)
        V0).Module.Functions.length = front.length := by
  induction front using List.reverseRecOn with
  | nil =>
    intro back _
    exact ⟨hc0, by rw [List.foldl_nil, hf0]; rfl⟩
  | append_singleton front fn ih =>
    intro back hb
    rw [List.append_assoc, List.singleton_append] at hb
    obtain ⟨h1, h2⟩ := ih (fn :: back) hb
    rw [List.foldl_append, List.foldl_cons, List.foldl_nil]
    have hlk := acceptedStore_lookup file front fn back (hb ▸ hd)
    rw [← hb] at hlk
    have hg := acceptedStore_function file front fn back
    rw [← hb] at hg
    obtain ⟨s1, s2, -, -⟩ := walkFunctionDecl_spec X file (acceptedStore file fns) fn h1
      hlk.1 hlk.2 rfl hg
    exact ⟨s1, by rw [s2, h2, List.length_append]; rfl⟩

/-- The functions the lowering has made stay as they are. -/
theorem functions_kept (X : Extern) (file : File) (fns : List FunctionDecl)
    (hd : fns.Pairwise (fun a b => file.slice a.Name ≠ file.slice b.Name))
    (V0 : LowerToLLVMIRVisitor) (hc0 : V0.CurrentScope = some 0)
    (hf0 : V0.Module.Functions = []) (back : List FunctionDecl) :
    ∀ front, fns = front ++ back → ∀ j, j < front.length →
      (fns.foldl (fun acc fn => walkFunctionDecl (visitor X file (acceptedStore file fns)) fn acc)
        V0).Module.Functions[j]? =
      (front.foldl (fun acc fn => walkFunctionDecl (visitor X file (acceptedStore file fns)) fn acc)
        V0).Module.Functions[j]? := by
  induction back with
  | nil =>
    intro front hf j _
    rw [List.append_nil] at hf
    rw [← hf]
  | cons g rest ih =>
    intro front hf j hj
    have hf2 : fns = (front ++ [g]) ++ rest := by
      rw [List.append_assoc, List.singleton_append]; exact hf
    rw [ih (front ++ [g]) hf2 j (by rw [List.length_append]; exact Nat.lt_succ_of_lt hj)]
    rw [List.foldl_append, List.foldl_cons, List.foldl_nil]
    obtain ⟨h1, h2⟩ := functions_lowered X file fns hd V0 hc0 hf0 front (g :: rest) hf
    have hlk := acceptedStore_lookup file front g rest (hf ▸ hd)
    rw [← hf] at hlk
    have hg := acceptedStore_function file front g rest
    rw [← hf] at hg
    obtain ⟨-, -, s3, -⟩ := walkFunctionDecl_spec X file (acceptedStore file fns) g h1
      hlk.1 hlk.2 rfl hg
    exact s3 j (by rw [h2]; exact hj)

/-- The function the lowering makes for a function of an accepted translation
unit whose functions have different names. -/
theorem lowered_entry (X : Extern) (file : File) (fns : List FunctionDecl)
    (hd : fns.Pairwise (fun a b => file.slice a.Name ≠ file.slice b.Name))
    (V0 : LowerToLLVMIRVisitor) (hc0 : V0.CurrentScope = some 0)
    (hf0 : V0.Module.Functions = []) {front : List FunctionDecl} {fn : FunctionDecl}
    {back : List FunctionDecl} (hf : fns = front ++ fn :: back) :
    ∃ added : List IR.Instr, (∀ i ∈ added, i.isAlloca = false) ∧
      (fns.foldl (fun acc fn => walkFunctionDecl (visitor X file (acceptedStore file fns)) fn acc)
        V0).Module.Functions[front.length]? =
        some ⟨file.slice fn.Name,
          ((acceptedStore file fns).getSymbols (front.length + 1) (some .Param)).length,
          paramSlots front.length 0
            (((acceptedStore file fns).getSymbols (front.length + 1) (some .Param)).map
              (fun s => symbolName file (acceptedStore file fns) (some s))) ++
          varSlots (((acceptedStore file fns).getSymbols (front.length + 1) (some .Var)).map
            (fun s => symbolName file (acceptedStore file fns) (some s))) ++ added⟩ := by
  have hf2 : fns = (front ++ [fn]) ++ back := by
    rw [List.append_assoc, List.singleton_append]; exact hf
  rw [functions_kept X file fns hd V0 hc0 hf0 back (front ++ [fn]) hf2 front.length
    (by rw [List.length_append]; exact Nat.lt_succ_self _)]
  rw [List.foldl_append, List.foldl_cons, List.foldl_nil]
  obtain ⟨h1, h2⟩ := functions_lowered X file fns hd V0 hc0 hf0 front (fn :: back) hf
  have hlk := acceptedStore_lookup file front fn back (hf ▸ hd)
  rw [← hf] at hlk
  have hg := acceptedStore_function file front fn back
  rw [← hf] at hg
  obtain ⟨-, -, -, added, hna, s4⟩ := walkFunctionDecl_spec X file (acceptedStore file fns) fn h1
    hlk.1 hlk.2 rfl hg
  rw [h2] at s4
  exact ⟨added, hna, s4⟩

end LowerToLLVMIRVisitor

/-- The functions of an accepted translation unit have different names. -/
theorem AnalyzerVisitor.accepted_distinct {file : File} {tu : TranslationUnit} {os : String}
    {T : ScopeTree} {os1 : String} (h : Analyze file tu os = some (some T, os1)) :
    tu.FNs.Pairwise (fun a b => file.slice a.Name ≠ file.slice b.Name) := by
  obtain ⟨he, -, -⟩ := AnalyzerVisitor.accepted h
  obtain ⟨sc0, ht⟩ := AnalyzerVisitor.topInv file os tu.FNs
  exact ht.distinct he

theorem acceptedStore_param_names (file : File) (front : List FunctionDecl)
    (fn : FunctionDecl) (back : List FunctionDecl) :
    ((List.range fn.Params.length).map
        (fun i => (⟨front.length + 1, i⟩ : SymbolRef))).map
      (fun s => LowerToLLVMIRVisitor.symbolName file
        (acceptedStore file (front ++ fn :: back)) (some s)) =
      fn.Params.map (fun pd => file.slice pd.Name) := by
  apply List.ext_getElem?
  intro i
  simp only [List.getElem?_map, List.getElem?_range]
  by_cases hi : i < fn.Params.length
  · rw [List.getElem?_range hi, List.getElem?_eq_getElem hi]
    simp only [Option.map_some', LowerToLLVMIRVisitor.symbolName]
    rw [acceptedStore_param_symbol file front fn back (List.getElem?_eq_getElem hi)]
  · rw [List.getElem?_eq_none (by rw [List.length_range]; exact Nat.le_of_not_lt hi),
      List.getElem?_eq_none (Nat.le_of_not_lt hi)]
    rfl

theorem acceptedStore_var_names (file : File) (front : List FunctionDecl)
    (fn : FunctionDecl) (back : List FunctionDecl) :
    ((List.range (firstOccurrences file
          ((front ++ [fn]).map (fun g => g.Name) ++ fn.Params.map (fun pd => pd.Name))
          fn.identifiers).length).map
        (fun j => (⟨front.length + 1, fn.Params.length + j⟩ : SymbolRef))).map
      (fun s => LowerToLLVMIRVisitor.symbolName file
        (acceptedStore file (front ++ fn :: back)) (some s)) =
      (firstOccurrences file
        ((front ++ [fn]).map (fun g => g.Name) ++ fn.Params.map (fun pd => pd.Name))
        fn.identifiers).map (fun n => file.slice n) := by
  apply List.ext_getElem?
  intro i
  simp only [List.getElem?_map]
  by_cases hi : i < (firstOccurrences file
      ((front ++ [fn]).map (fun g => g.Name) ++ fn.Params.map (fun pd => pd.Name))
      fn.identifiers).length
  · rw [List.getElem?_range hi, List.getElem?_eq_getElem hi]
    simp only [Option.map_some', LowerToLLVMIRVisitor.symbolName]
    rw [acceptedStore_var_symbol file front fn back (List.getElem?_eq_getElem hi)]
  · rw [List.getElem?_eq_none (by rw [List.length_range]; exact Nat.le_of_not_lt hi),
      List.getElem?_eq_none (Nat.le_of_not_lt hi)]
    rfl

namespace LowerToLLVMIRVisitor

theorem paramSlots_allocas (k : Nat) (names : List (List Nat)) :
    ∀ i, ((paramSlots k i names).filter IR.Instr.isAlloca).length = names.length := by
  induction names with
  | nil => intro i; rfl
  | cons n rest ih =>
    intro i
    simp only [paramSlots, List.filter_cons, IR.Instr.isAlloca, if_true, Bool.false_eq_true,
      if_false, List.length_cons, ih]

theorem varSlots_allocas (names : List (List Nat)) :
    ((varSlots names).filter IR.Instr.isAlloca).length = names.length := by
  unfold varSlots
  induction names with
  | nil => rfl
  | cons n rest ih =>
    simp only [List.map_cons, List.filter_cons, IR.Instr.isAlloca, if_true, List.length_cons, ih]

/-- The number of the `alloca`s of an entry block of slots and of a body with
no `alloca`. -/
theorem slots_allocas (k : Nat) (pnames vnames : List (List Nat)) {added : List IR.Instr}
    (h : ∀ i ∈ added, i.isAlloca = false) :
    ((paramSlots k 0 pnames ++ varSlots vnames ++ added).filter IR.Instr.isAlloca).length =
      pnames.length + vnames.length := by
  rw [List.filter_append, List.filter_append, List.length_append, List.length_append,
    paramSlots_allocas, varSlots_allocas]
  have : added.filter IR.Instr.isAlloca = [] := by
    rw [List.filter_eq_nil_iff]
    intro i hi
    rw [h i hi]
    exact Bool.false_ne_true
  rw [this]
  rfl

end LowerToLLVMIRVisitor

/-- The unit `LowerToLLVMIR` returns holds the module at the end of the walk
over the functions. -/
theorem LowerToLLVMIR_module {X : Extern} {file : File} {tu : TranslationUnit}
    {T : ScopeTree} {U : IRUnit} (h : LowerToLLVMIR X file tu T = some U) :
    U.Module = (tu.FNs.foldl
      (fun acc fn => Walker.walkFunctionDecl (LowerToLLVMIRVisitor.visitor X file T) fn acc)
      { LowerToLLVMIRVisitor.init with Module :=
        { LowerToLLVMIRVisitor.init.Module with SourceFileName := file.Filename } }).Module := by
  unfold LowerToLLVMIR at h
  simp only at h
  rw [LowerToLLVMIRVisitor.Walk_lower] at h
  split at h
  · cases h
  · simp only [Option.some.injEq] at h
    rw [← h]
    rfl

/-- C28. Stack slots. On every translation unit on which `Analyze` returns a
scope `T` and `LowerToLLVMIR` returns a unit, the function the lowering makes
for a function `fn`, whose scope holds the `Var` symbols of the names `vars`
behind the `Param` symbols, has an entry block that begins with the slots of
the parameters (for each an `alloca` and right behind it the store of the
incoming argument into it), goes on with an `alloca` for each of `vars`, and
holds no `alloca` behind these: the number of `alloca`s is the number of
parameters plus the number of variables. The slots of the parameters and of
the variables come in the order in which `getSymbols` returns their symbols,
a rearrangement of the parameters and of `vars`; if the translation unit is
the one `Parse` returned on the file, it is the order of the parameters, the
`i`-th incoming argument stored into the slot of the `i`-th parameter, and the
order of the source for the variables. On `function f(x) return x end` the
entry block is the `alloca` of `x`, the store of the argument, the load and
the `ret`. -/
theorem stack_slots :
    (∀ (X : Extern) (file : File) (tu : TranslationUnit) (os : String) (T : ScopeTree)
      (os1 : String) (U : IRUnit),
      Analyze file tu os = some (some T, os1) → LowerToLLVMIR X file tu T = some U →
      ∀ front fn back, tu.FNs = front ++ fn :: back →
        ∃ (vars : List Range) (pnames vnames : List (List Nat)) (added : List IR.Instr),
          T.get? (front.length + 1) = some ⟨some 0, some ⟨0, front.length⟩,
            fn.Params.map AnalyzerVisitor.paramSymbol ++
              vars.map (fun n => ⟨.Var, n, none⟩)⟩ ∧
          pnames.Perm (fn.Params.map (fun pd => file.slice pd.Name)) ∧
          vnames.Perm (vars.map (fun n => file.slice n)) ∧
          (∀ i ∈ added, i.isAlloca = false) ∧
          U.Module.Functions[front.length]? = some ⟨file.slice fn.Name, fn.Params.length,
            LowerToLLVMIRVisitor.paramSlots front.length 0 pnames ++
              LowerToLLVMIRVisitor.varSlots vnames ++ added⟩ ∧
          ((LowerToLLVMIRVisitor.paramSlots front.length 0 pnames ++
              LowerToLLVMIRVisitor.varSlots vnames ++ added).filter
            IR.Instr.isAlloca).length = fn.Params.length + vars.length) ∧
    (∀ (X : Extern) (file : File) (os0 : String) (tu : TranslationUnit) (P1 : Parser)
      (os : String) (T : ScopeTree) (os1 : String) (U : IRUnit),
      Parse X file os0 = .ok tu P1 → Analyze file tu os = some (some T, os1) →
      LowerToLLVMIR X file tu T = some U →
      ∀ front fn back, tu.FNs = front ++ fn :: back →
        ∃ (vars : List Range) (added : List IR.Instr),
          T.get? (front.length + 1) = some ⟨some 0, some ⟨0, front.length⟩,
            fn.Params.map AnalyzerVisitor.paramSymbol ++
              vars.map (fun n => ⟨.Var, n, none⟩)⟩ ∧
          vars.Pairwise (fun a b => a.Begin < b.Begin) ∧
          (∀ i ∈ added, i.isAlloca = false) ∧
          U.Module.Functions[front.length]? = some ⟨file.slice fn.Name, fn.Params.length,
            LowerToLLVMIRVisitor.paramSlots front.length 0
                (fn.Params.map (fun pd => file.slice pd.Name)) ++
              LowerToLLVMIRVisitor.varSlots (vars.map (fun n => file.slice n)) ++ added⟩) ∧
    (∃ tu T, Examples.parsed Examples.oneParam = some tu ∧
      Analyze Examples.oneParam tu "" = some (some T, "") ∧
      LowerToLLVMIR Examples.X0 Examples.oneParam tu T =
        some ⟨⟨"mua module", "one.mua", [⟨[102], 1, [.Alloca [120],
          .Store (.Argument 0 0) (.Instruction 0 0), .Load (.Instruction 0 0) [120],
          .Ret (.Instruction 0 2)]⟩]⟩⟩) := by
  refine ⟨?_, ?_, ?_⟩
  · intro X file tu os T os1 U h hU front fn back hf
    have hd := AnalyzerVisitor.accepted_distinct h
    have hT := AnalyzerVisitor.Analyze_store h
    subst hT
    obtain ⟨added, hna, hent⟩ := LowerToLLVMIRVisitor.lowered_entry X file tu.FNs hd _
      (LowerToLLVMIRVisitor.start_facts file).1 (LowerToLLVMIRVisitor.start_facts file).2 hf
    rw [← LowerToLLVMIR_module hU] at hent
    have hpp := acceptedStore_params_perm file front fn back
    have hvp := acceptedStore_vars_perm file front fn back
    rw [← hf] at hpp hvp
    have hpn := acceptedStore_param_names file front fn back
    have hvn := acceptedStore_var_names file front fn back
    rw [← hf] at hpn hvn
    have hlen : ((acceptedStore file tu.FNs).getSymbols (front.length + 1)
        (some .Param)).length = fn.Params.length := by
      rw [hpp.length_eq, List.length_map, List.length_range]
    have hp2 := hpp.map (fun s => LowerToLLVMIRVisitor.symbolName file
      (acceptedStore file tu.FNs) (some s))
    have hv2 := hvp.map (fun s => LowerToLLVMIRVisitor.symbolName file
      (acceptedStore file tu.FNs) (some s))
    rw [hpn] at hp2
    rw [hvn] at hv2
    rw [hlen] at hent
    refine ⟨_, _, _, added, ?_, hp2, hv2, hna, hent, ?_⟩
    · rw [hf]; exact acceptedStore_function file front fn back
    · rw [LowerToLLVMIRVisitor.slots_allocas _ _ _ hna, hp2.length_eq, hv2.length_eq,
        List.length_map, List.length_map]
  · intro X file os0 tu P1 os T os1 U hp h hU front fn back hf
    have hd := AnalyzerVisitor.accepted_distinct h
    have hT := AnalyzerVisitor.Analyze_store h
    subst hT
    obtain ⟨hr, ho⟩ := Parse_ordered hp
    have hs := Parse_spaced hp
    obtain ⟨added, hna, hent⟩ := LowerToLLVMIRVisitor.lowered_entry X file tu.FNs hd _
      (LowerToLLVMIRVisitor.start_facts file).1 (LowerToLLVMIRVisitor.start_facts file).2 hf
    rw [← LowerToLLVMIR_module hU, acceptedStore_params file hr ho hs hf,
      acceptedStore_vars file hr ho hs hf] at hent
    have hpn := acceptedStore_param_names file front fn back
    have hvn := acceptedStore_var_names file front fn back
    rw [← hf] at hpn hvn
    rw [hpn, hvn, List.length_map, List.length_range] at hent
    have hmem : fn ∈ tu.FNs := by rw [hf]; simp
    have hinc := FunctionDecl.locals_increasing (hr.2 fn hmem).1 (ho.1 fn hmem) (hs fn hmem)
    rw [List.pairwise_append] at hinc
    refine ⟨_, added, ?_, ?_, hna, hent⟩
    · rw [hf]; exact acceptedStore_function file front fn back
    · exact hinc.2.1.sublist (firstOccurrences_sublist file _ _)
  · exact ⟨⟨[⟨⟨9, 10⟩, [⟨⟨11, 12⟩⟩],
        ⟨[.ReturnStmt (.IdentifierExpr ⟨21, 22⟩) ⟨14, 22⟩], ⟨14, 26⟩⟩, ⟨0, 26⟩⟩], ⟨0, 26⟩⟩,
      ⟨[⟨none, none, [⟨.Function, ⟨9, 10⟩, some 1⟩]⟩,
        ⟨some 0, some ⟨0, 0⟩, [⟨.Param, ⟨11, 12⟩, none⟩]⟩]⟩, rfl, by decide, by decide⟩

/-! ## The same on example sources -/

/-- C23, on `function f(x) y = x + 1 return y end`: the scope of `f` holds the
`Param` symbol of `x`, then `Var` symbols of names of different texts. -/
theorem implicit_variables_witness :
    ∃ vars : List Range,
      ScopeTree.get? ⟨[⟨none, none, [⟨.Function, ⟨9, 10⟩, some 1⟩]⟩,
          ⟨some 0, some ⟨0, 0⟩, [⟨.Param, ⟨11, 12⟩, none⟩, ⟨.Var, ⟨14, 15⟩, none⟩]⟩]⟩ 1 =
        some ⟨some 0, some ⟨0, 0⟩,
          [⟨.Param, ⟨11, 12⟩, none⟩] ++ vars.map (fun n => ⟨.Var, n, none⟩)⟩ ∧
      vars.Pairwise
        (fun a b => Examples.implicitVar.slice a ≠ Examples.implicitVar.slice b) := by
  obtain ⟨vars, -, h2, -, h4, -⟩ := implicit_variables.1 Examples.implicitVar
    ⟨[⟨⟨9, 10⟩, [⟨⟨11, 12⟩⟩],
      ⟨[.ExprStmt (.BinaryExpr .Assign (.IdentifierExpr ⟨14, 15⟩)
          (.BinaryExpr .Add (.IdentifierExpr ⟨18, 19⟩) (.NumberExpr ⟨0⟩ ⟨22, 23⟩) ⟨18, 23⟩)
          ⟨14, 23⟩),
        .ReturnStmt (.IdentifierExpr ⟨31, 32⟩) ⟨24, 32⟩], ⟨14, 36⟩⟩, ⟨0, 36⟩⟩], ⟨0, 36⟩⟩ ""
    ⟨[⟨none, none, [⟨.Function, ⟨9, 10⟩, some 1⟩]⟩,
      ⟨some 0, some ⟨0, 0⟩, [⟨.Param, ⟨11, 12⟩, none⟩, ⟨.Var, ⟨14, 15⟩, none⟩]⟩]⟩ ""
    (by decide) []
    ⟨⟨9, 10⟩, [⟨⟨11, 12⟩⟩],
      ⟨[.ExprStmt (.BinaryExpr .Assign (.IdentifierExpr ⟨14, 15⟩)
          (.BinaryExpr .Add (.IdentifierExpr ⟨18, 19⟩) (.NumberExpr ⟨0⟩ ⟨22, 23⟩) ⟨18, 23⟩)
          ⟨14, 23⟩),
        .ReturnStmt (.IdentifierExpr ⟨31, 32⟩) ⟨24, 32⟩], ⟨14, 36⟩⟩, ⟨0, 36⟩⟩ [] rfl
  exact ⟨vars, h2, h4⟩

/-- C24, on `function f(a, b) return a end`: `getSymbols(Param)` on the scope
of `f` returns the symbol of `a`, then the symbol of `b`. -/
theorem parameter_order_witness :
    ScopeTree.getSymbols ⟨[⟨none, none, [⟨.Function, ⟨9, 10⟩, some 1⟩]⟩,
        ⟨some 0, some ⟨0, 0⟩, [⟨.Param, ⟨11, 12⟩, none⟩, ⟨.Param, ⟨14, 15⟩, none⟩]⟩]⟩ 1
      (some .Param) = [⟨1, 0⟩, ⟨1, 1⟩] :=
  parameter_order.2 Examples.X0 Examples.twoParams ""
    ⟨[⟨⟨9, 10⟩, [⟨⟨11, 12⟩⟩, ⟨⟨14, 15⟩⟩],
      ⟨[.ReturnStmt (.IdentifierExpr ⟨24, 25⟩) ⟨17, 25⟩], ⟨17, 29⟩⟩, ⟨0, 29⟩⟩], ⟨0, 29⟩⟩ _ ""
    ⟨[⟨none, none, [⟨.Function, ⟨9, 10⟩, some 1⟩]⟩,
      ⟨some 0, some ⟨0, 0⟩, [⟨.Param, ⟨11, 12⟩, none⟩, ⟨.Param, ⟨14, 15⟩, none⟩]⟩]⟩ ""
    rfl (by decide) []
    ⟨⟨9, 10⟩, [⟨⟨11, 12⟩⟩, ⟨⟨14, 15⟩⟩],
      ⟨[.ReturnStmt (.IdentifierExpr ⟨24, 25⟩) ⟨17, 25⟩], ⟨17, 29⟩⟩, ⟨0, 29⟩⟩ [] rfl

/-- C27, on `function f(a, b) return a end`: what `getSymbols` returns on the
scope of `f`, with no kind given, is in strictly ascending order. -/
theorem getSymbols_contract_witness :
    (ScopeTree.getSymbols ⟨[⟨none, none, [⟨.Function, ⟨9, 10⟩, some 1⟩]⟩,
        ⟨some 0, some ⟨0, 0⟩, [⟨.Param, ⟨11, 12⟩, none⟩, ⟨.Param, ⟨14, 15⟩, none⟩]⟩]⟩ 1
      none).Pairwise (fun r1 r2 => ∀ s1 s2,
        ScopeTree.symbol? ⟨[⟨none, none, [⟨.Function, ⟨9, 10⟩, some 1⟩]⟩,
          ⟨some 0, some ⟨0, 0⟩, [⟨.Param, ⟨11, 12⟩, none⟩, ⟨.Param, ⟨14, 15⟩, none⟩]⟩]⟩ r1
          = some s1 →
        ScopeTree.symbol? ⟨[⟨none, none, [⟨.Function, ⟨9, 10⟩, some 1⟩]⟩,
          ⟨some 0, some ⟨0, 0⟩, [⟨.Param, ⟨11, 12⟩, none⟩, ⟨.Param, ⟨14, 15⟩, none⟩]⟩]⟩ r2
          = some s2 → s1.Name.Begin < s2.Name.Begin) :=
  getSymbols_contract.2 Examples.X0 Examples.twoParams ""
    ⟨[⟨⟨9, 10⟩, [⟨⟨11, 12⟩⟩, ⟨⟨14, 15⟩⟩],
      ⟨[.ReturnStmt (.IdentifierExpr ⟨24, 25⟩) ⟨17, 25⟩], ⟨17, 29⟩⟩, ⟨0, 29⟩⟩], ⟨0, 29⟩⟩ _ ""
    ⟨[⟨none, none, [⟨.Function, ⟨9, 10⟩, some 1⟩]⟩,
      ⟨some 0, some ⟨0, 0⟩, [⟨.Param, ⟨11, 12⟩, none⟩, ⟨.Param, ⟨14, 15⟩, none⟩]⟩]⟩ ""
    rfl (by decide) 1 none

/-- C28, on `function f(a, b) return a end`: the entry block of the function
the lowering makes for `f` begins with the slot of `a`, into which the first
argument is stored, and the slot of `b`, into which the second is stored. -/
theorem stack_slots_witness :
    ∃ (vars : List Range) (added : List IR.Instr),
      (∀ i ∈ added, i.isAlloca = false) ∧
      (IR.Module.Functions ⟨"mua module", "params.mua", [⟨[102], 2, [.Alloca [97],
          .Store (.Argument 0 0) (.Instruction 0 0), .Alloca [98],
          .Store (.Argument 0 1) (.Instruction 0 2), .Load (.Instruction 0 0) [97],
          .Ret (.Instruction 0 4)]⟩]⟩)[0]? =
        some ⟨Examples.twoParams.slice ⟨9, 10⟩, 2,
          LowerToLLVMIRVisitor.paramSlots 0 0
              [Examples.twoParams.slice ⟨11, 12⟩, Examples.twoParams.slice ⟨14, 15⟩] ++
            LowerToLLVMIRVisitor.varSlots (vars.map (fun n => Examples.twoParams.slice n)) ++
            added⟩ := by
  obtain ⟨vars, added, -, -, h3, h4⟩ := stack_slots.2.1 Examples.X0 Examples.twoParams ""
    ⟨[⟨⟨9, 10⟩, [⟨⟨11, 12⟩⟩, ⟨⟨14, 15⟩⟩],
      ⟨[.ReturnStmt (.IdentifierExpr ⟨24, 25⟩) ⟨17, 25⟩], ⟨17, 29⟩⟩, ⟨0, 29⟩⟩], ⟨0, 29⟩⟩ _ ""
    ⟨[⟨none, none, [⟨.Function, ⟨9, 10⟩, some 1⟩]⟩,
      ⟨some 0, some ⟨0, 0⟩, [⟨.Param, ⟨11, 12⟩, none⟩, ⟨.Param, ⟨14, 15⟩, none⟩]⟩]⟩ ""
    ⟨⟨"mua module", "params.mua", [⟨[102], 2, [.Alloca [97],
      .Store (.Argument 0 0) (.Instruction 0 0), .Alloca [98],
      .Store (.Argument 0 1) (.Instruction 0 2), .Load (.Instruction 0 0) [97],
      .Ret (.Instruction 0 4)]⟩]⟩⟩
    rfl (by decide) (by decide) []
    ⟨⟨9, 10⟩, [⟨⟨11, 12⟩⟩, ⟨⟨14, 15⟩⟩],
      ⟨[.ReturnStmt (.IdentifierExpr ⟨24, 25⟩) ⟨17, 25⟩], ⟨17, 29⟩⟩, ⟨0, 29⟩⟩ [] rfl
  exact ⟨vars, added, h3, h4⟩

set_option maxRecDepth 8192

/-! ## The line table of a file and the excerpt of a diagnostic -/

theorem toUnsigned_natCast {n : Nat} (h : n < 2 ^ 32) : toUnsigned (n : Int) = n := by
  unfold toUnsigned
  omega

theorem toUnsigned_succ {n : Nat} (h : n + 1 < 2 ^ 32) : toUnsigned ((n : Int) + 1) = n + 1 := by
  unfold toUnsigned
  omega

theorem toUnsigned_sub {a b : Nat} (hb : b ≤ a) (ha : a < 2 ^ 32) :
    toUnsigned ((a : Int) - (b : Int)) = a - b := by
  unfold toUnsigned
  omega

theorem toOffset_of_lt {n : Nat} (h : n < 2 ^ 32) : toOffset n = n := by
  unfold toOffset
  omega

/-- The entries the loop of `File::File` pushes from the byte index `i` on lie
behind `i`, within the buffer, and each is greater than the one before. -/
theorem lineOffsetsFrom_increasing (buf : List Nat) :
    ∀ i, i + buf.length < 2 ^ 32 →
      (∀ x ∈ lineOffsetsFrom buf i, i < x ∧ x ≤ i + buf.length) ∧
      (lineOffsetsFrom buf i).Pairwise (fun a b => a < b) := by
  induction buf with
  | nil => intro i _; simp [lineOffsetsFrom]
  | cons b rest ih =>
    intro i hi
    simp only [List.length_cons] at hi
    obtain ⟨h1, h2⟩ := ih (i + 1) (by omega)
    unfold lineOffsetsFrom
    split
    · rw [toOffset_of_lt (by omega)]
      refine ⟨?_, ?_⟩
      · intro x hx
        simp only [List.mem_cons] at hx
        simp only [List.length_cons]
        rcases hx with rfl | hx
        · omega
        · have := h1 x hx; omega
      · refine List.Pairwise.cons ?_ h2
        intro x hx
        have := h1 x hx; omega
    · refine ⟨?_, h2⟩
      intro x hx
      simp only [List.length_cons]
      have := h1 x hx; omega

/-- One entry for each newline byte. -/
theorem lineOffsetsFrom_length (buf : List Nat) :
    ∀ i, (lineOffsetsFrom buf i).length = buf.count 10 := by
  induction buf with
  | nil => intro i; simp [lineOffsetsFrom]
  | cons b rest ih =>
    intro i
    unfold lineOffsetsFrom
    split
    · rename_i hb
      subst hb
      simp [ih]
    · rename_i hb
      rw [ih, List.count_cons_of_ne]
      exact fun h => hb h.symm

/-- The entries up to the offset `o` are the newline bytes in front of `o`. -/
theorem upperBound_lineOffsetsFrom (buf : List Nat) :
    ∀ i o, i + buf.length < 2 ^ 32 →
      upperBound (lineOffsetsFrom buf i) o = (buf.take (o - i)).count 10 := by
  induction buf with
  | nil => intro i o _; simp [lineOffsetsFrom, upperBound]
  | cons b rest ih =>
    intro i o hi
    simp only [List.length_cons] at hi
    have ih1 := ih (i + 1) o (by omega)
    unfold lineOffsetsFrom
    split
    · rename_i hb
      subst hb
      rw [toOffset_of_lt (by omega)]
      unfold upperBound
      split
      · rename_i hlt
        have : o - i = 0 := by omega
        simp [this]
      · rename_i hlt
        have : o - i = (o - (i + 1)) + 1 := by omega
        rw [this, List.take_succ_cons, List.count_cons_self, ih1]
    · rename_i hb
      rw [ih1]
      rcases Nat.lt_or_ge i o with hlt | hge
      · have : o - i = (o - (i + 1)) + 1 := by omega
        rw [this, List.take_succ_cons, List.count_cons_of_ne]
        exact fun h => hb h.symm
      · have h1 : o - i = 0 := by omega
        have h2 : o - (i + 1) = 0 := by omega
        simp [h1, h2]

/-- The entry of a newline byte is the offset right behind it. -/
theorem lineOffsetsFrom_getD (buf : List Nat) :
    ∀ i j, i + buf.length < 2 ^ 32 → buf[j]? = some 10 →
      (lineOffsetsFrom buf i).getD ((buf.take j).count 10) 0 = i + j + 1 := by
  induction buf with
  | nil => intro i j _ h; simp at h
  | cons b rest ih =>
    intro i j hi hj
    simp only [List.length_cons] at hi
    cases j with
    | zero =>
      simp only [List.getElem?_cons_zero, Option.some.injEq] at hj
      subst hj
      unfold lineOffsetsFrom
      simp [toOffset_of_lt (show i + 1 < 2 ^ 32 by omega)]
    | succ j =>
      simp only [List.getElem?_cons_succ] at hj
      have ih1 := ih (i + 1) j (by omega) hj
      unfold lineOffsetsFrom
      split
      · rename_i hb
        subst hb
        rw [List.take_succ_cons, List.count_cons_self, List.getD_cons_succ, ih1]
        omega
      · rename_i hb
        rw [List.take_succ_cons, List.count_cons_of_ne (fun h => hb h.symm), ih1]
        omega

/-- The entry of the table for the line of the offset `o`: the offset right
behind the last newline byte in front of `o`, and `0` if there is none. -/
theorem lineStart_spec (f : File) :
    ∀ o, o ≤ f.size →
      f.LineOffsets.getD ((f.Buffer.take o).count 10) 0 ≤ o ∧
      (f.LineOffsets.getD ((f.Buffer.take o).count 10) 0 = 0 ∨
        f.Buffer[f.LineOffsets.getD ((f.Buffer.take o).count 10) 0 - 1]? = some 10) ∧
      ∀ j, f.LineOffsets.getD ((f.Buffer.take o).count 10) 0 ≤ j → j < o →
        f.Buffer[j]? ≠ some 10 := by
  intro o
  induction o with
  | zero => intro _; simp [File.LineOffsets]
  | succ o ih =>
    intro ho
    have hlt : o < f.Buffer.length := by unfold File.size at ho; omega
    obtain ⟨h1, h2, h3⟩ := ih (by omega)
    have hfit := f.fits
    rw [List.take_succ, List.getElem?_eq_getElem hlt]
    simp only [Option.toList_some, List.count_append]
    by_cases hb : f.Buffer[o] = 10
    · have hget : f.Buffer[o]? = some 10 := by rw [List.getElem?_eq_getElem hlt, hb]
      have hM := lineOffsetsFrom_getD f.Buffer 0 o (by omega) hget
      have : f.LineOffsets.getD ((f.Buffer.take o).count 10 + [f.Buffer[o]].count 10) 0
          = o + 1 := by
        rw [hb]
        simp only [File.LineOffsets, List.count_singleton_self, List.getD_cons_succ, hM]
        omega
      rw [this]
      refine ⟨by omega, Or.inr ?_, ?_⟩
      · simpa using hget
      · intro j hj1 hj2; omega
    · have : [f.Buffer[o]].count 10 = 0 := by
        rw [List.count_eq_zero]
        simpa using fun h => hb h.symm
      rw [this, Nat.add_zero]
      refine ⟨by omega, h2, ?_⟩
      intro j hj1 hj2
      rcases Nat.lt_or_ge j o with hjo | hjo
      · exact h3 j hj1 hjo
      · have : j = o := by omega
        subst this
        rw [List.getElem?_eq_getElem hlt]
        simpa using hb

/-- The line and the column of an offset of the buffer: the newline bytes in
front of it, and the distance from the entry of the table for that line. -/
theorem getLineAndColumn_eq (f : File) {o : Nat} (ho : o ≤ f.size) :
    f.getLineAndColumn o = ((f.Buffer.take o).count 10,
      o - f.LineOffsets.getD ((f.Buffer.take o).count 10) 0) := by
  have hfit := f.fits
  have hsz : o < 2 ^ 32 := by unfold File.size at ho; omega
  have hub : upperBound f.LineOffsets o = (f.Buffer.take o).count 10 + 1 := by
    unfold File.LineOffsets upperBound
    rw [if_neg (by omega), upperBound_lineOffsetsFrom f.Buffer 0 o (by omega)]
    rfl
  have hcnt : (f.Buffer.take o).count 10 ≤ o := by
    have := List.count_le_length 10 (f.Buffer.take o)
    simp only [List.length_take] at this
    omega
  have hline : toUnsigned ((upperBound f.LineOffsets o : Int) - 1) = (f.Buffer.take o).count 10 := by
    rw [hub]
    unfold toUnsigned
    omega
  unfold File.getLineAndColumn
  simp only [hline]
  rw [toUnsigned_sub (lineStart_spec f o ho).1 hsz]

/-- C34. Line index and line/column lookup. The table of line offsets is
strictly increasing, starts with `0` and has one entry for each newline byte
plus one. For every offset `o` up to the size of the buffer the line that
`getLineAndColumn` returns is the number of newline bytes in front of `o`, and
the column is `o - s`, where `s` is the offset right behind the last newline
byte in front of `o`, and `0` if there is none: both count from `0`. A range
is printed with each of them plus one (in a file in which `size + 1` is an
`unsigned`). -/
theorem line_index :
    (∀ f : File, f.LineOffsets.Pairwise (fun a b => a < b) ∧ f.LineOffsets.head? = some 0 ∧
      f.LineOffsets.length = f.Buffer.count 10 + 1) ∧
    (∀ (f : File) (o : Nat), o ≤ f.size →
      (f.getLineAndColumn o).1 = (f.Buffer.take o).count 10 ∧
      ∃ s, (f.getLineAndColumn o).2 = o - s ∧ s ≤ o ∧
        (s = 0 ∨ f.Buffer[s - 1]? = some 10) ∧
        ∀ j, s ≤ j → j < o → f.Buffer[j]? ≠ some 10) ∧
    (∀ (f : File) (r : Range), r.Begin ≤ f.size → r.End ≤ f.size → f.size + 1 < 2 ^ 32 →
      Range.print f r =
        if (f.getLineAndColumn r.Begin).1 = (f.getLineAndColumn r.End).1 then
          f.Filename ++ ":" ++ toString ((f.getLineAndColumn r.Begin).1 + 1) ++ ":"
            ++ toString ((f.getLineAndColumn r.Begin).2 + 1) ++ "-"
            ++ toString ((f.getLineAndColumn r.End).2 + 1)
        else
          f.Filename ++ ":" ++ toString ((f.getLineAndColumn r.Begin).1 + 1) ++ ":"
            ++ toString ((f.getLineAndColumn r.Begin).2 + 1) ++ "-"
            ++ toString ((f.getLineAndColumn r.End).1 + 1) ++ ":"
            ++ toString ((f.getLineAndColumn r.End).2 + 1)) := by
  refine ⟨?_, ?_, ?_⟩
  · intro f
    have hfit := f.fits
    obtain ⟨h1, h2⟩ := lineOffsetsFrom_increasing f.Buffer 0 (by omega)
    refine ⟨?_, rfl, ?_⟩
    · unfold File.LineOffsets
      refine List.Pairwise.cons ?_ h2
      intro x hx
      exact (h1 x hx).1
    · unfold File.LineOffsets
      rw [List.length_cons, lineOffsetsFrom_length]
  · intro f o ho
    rw [getLineAndColumn_eq f ho]
    obtain ⟨h1, h2, h3⟩ := lineStart_spec f o ho
    exact ⟨rfl, _, rfl, h1, h2, h3⟩
  · intro f r hb he hsz
    have bound : ∀ o, o ≤ f.size → (f.getLineAndColumn o).1 + 1 < 2 ^ 32 ∧
        (f.getLineAndColumn o).2 + 1 < 2 ^ 32 := by
      intro o ho
      rw [getLineAndColumn_eq f ho]
      have := List.count_le_length 10 (f.Buffer.take o)
      simp only [List.length_take] at this
      constructor
      · show (f.Buffer.take o).count 10 + 1 < 2 ^ 32
        omega
      · show o - _ + 1 < 2 ^ 32
        omega
    obtain ⟨b1, b2⟩ := bound r.Begin hb
    obtain ⟨e1, e2⟩ := bound r.End he
    unfold Range.print
    simp only [toUnsigned_succ b1, toUnsigned_succ b2, toUnsigned_succ e1, toUnsigned_succ e2]

/-- C34, on the three lines `ab`, the empty line and `c`: the offset `4`, of
the byte `c`, is on the line `2`, in the column `0`, and the range of `c` is
printed as `3:1-2`. -/
theorem line_index_witness :
    ((Examples.threeLines.getLineAndColumn 4).1 = (Examples.threeLines.Buffer.take 4).count 10 ∧
      ∃ s, (Examples.threeLines.getLineAndColumn 4).2 = 4 - s ∧ s ≤ 4 ∧
        (s = 0 ∨ Examples.threeLines.Buffer[s - 1]? = some 10) ∧
        ∀ j, s ≤ j → j < 4 → Examples.threeLines.Buffer[j]? ≠ some 10) ∧
    Examples.threeLines.getLineAndColumn 4 = (2, 0) ∧
    Range.print Examples.threeLines ⟨4, 5⟩ = "lines.mua:3:1-2" :=
  ⟨line_index.2.1 Examples.threeLines 4 (by decide), by decide,
    (line_index.2.2 Examples.threeLines ⟨4, 5⟩ (by decide) (by decide) (by decide)).trans
      (by decide)⟩

/-- The column of an offset of the buffer is no greater than the offset. -/
theorem column_le (f : File) {o : Nat} (ho : o ≤ f.size) : (f.getLineAndColumn o).2 ≤ o := by
  rw [getLineAndColumn_eq f ho]
  exact Nat.sub_le _ _

/-- The caret line of `File::print` on a range of the buffer. -/
theorem print_eq (f : File) (r : Range) (hr : r.Begin ≤ r.End) (he : r.End ≤ f.size) :
    f.print r = Range.print f r ++ "\n" ++ bytesToString (f.getLineAt r.Begin) ++ "\n"
      ++ String.mk (List.replicate (f.getLineAndColumn r.Begin).2 ' ')
      ++ String.mk (List.replicate
          (max 1 (if (f.getLineAndColumn r.Begin).2 ≤ (f.getLineAt r.Begin).length then
              min (r.End - r.Begin)
                ((f.getLineAt r.Begin).length - (f.getLineAndColumn r.Begin).2)
            else r.End - r.Begin)) '^') := by
  have hfit := f.fits
  have hsz : r.End < 2 ^ 32 := by unfold File.size at he; omega
  have hraw : toUnsigned ((r.End : Int) - (r.Begin : Int)) = r.End - r.Begin :=
    toUnsigned_sub hr hsz
  have hcol := column_le f (le_trans hr he)
  unfold File.print
  simp only [hraw]
  congr 2
  by_cases hc : (f.getLineAndColumn r.Begin).2 ≤ (f.getLineAt r.Begin).length
  · have hlen : (f.getLineAt r.Begin).length < 2 ^ 32 := by
      have : (f.getLineAt r.Begin).length ≤ f.Buffer.length := by
        unfold File.getLineAt rtrim
        simp only [List.length_reverse]
        refine le_trans (List.Sublist.length_le (List.dropWhile_sublist _)) ?_
        simp only [List.length_reverse, List.length_take, List.length_drop]
        omega
      omega
    rw [toUnsigned_sub hc hlen, if_pos hc]
    by_cases h0 : r.End - r.Begin = 0
    · simp [h0]
    · simp only [ne_eq, h0, not_false_eq_true, if_true]
      by_cases h1 : min (r.End - r.Begin)
          ((f.getLineAt r.Begin).length - (f.getLineAndColumn r.Begin).2) = 0
      · simp [h1]
      · simp only [h1, not_false_eq_true, if_true]
        congr 1
        omega
  · rw [if_neg hc]
    have hwrap : toUnsigned (((f.getLineAt r.Begin).length : Int)
        - ((f.getLineAndColumn r.Begin).2 : Int)) =
        2 ^ 32 - ((f.getLineAndColumn r.Begin).2 - (f.getLineAt r.Begin).length) := by
      unfold toUnsigned
      omega
    rw [hwrap]
    by_cases h0 : r.End - r.Begin = 0
    · simp [h0]
    · have hmin : min (r.End - r.Begin)
          (2 ^ 32 - ((f.getLineAndColumn r.Begin).2 - (f.getLineAt r.Begin).length)) =
          r.End - r.Begin := by
        apply Nat.min_eq_left
        omega
      simp only [ne_eq, h0, not_false_eq_true, if_true, hmin]
      congr 1
      omega

/-- C35 fails on two diagnostics of the front end. On `function` the parser
reports the end of the file, whose range is empty: the caret line holds one
caret, not none. On `function f()`, newline, `end`, the analyzer reports the
function, whose range of 16 bytes goes over two lines: the caret line holds 12
carets, as many as the line printed above it has bytes. -/
theorem caret_count_differs :
    ((∃ P, Parse Examples.X0 Examples.noName "" = .null P ∧
        P.OS = "error: expected token after function\n"
          ++ Examples.noName.print ⟨8, 8⟩ ++ "\n") ∧
      Examples.noName.print ⟨8, 8⟩ = "eof.mua:1:9-9\nfunction\n        ^" ∧
      Examples.noName.print ⟨8, 8⟩ ≠
        Range.print Examples.noName ⟨8, 8⟩ ++ "\n"
          ++ bytesToString (Examples.noName.getLineAt 8) ++ "\n"
          ++ String.mk (List.replicate (Examples.noName.getLineAndColumn 8).2 ' ')
          ++ String.mk (List.replicate (8 - 8) '^')) ∧
    ((∃ tu, Examples.parsed Examples.brokenLine = some tu ∧
        Analyze Examples.brokenLine tu "" = some (none,
          "error: function f must end with a return statement\n"
            ++ Examples.brokenLine.print ⟨0, 16⟩ ++ "\n")) ∧
      Examples.brokenLine.print ⟨0, 16⟩ = "broken.mua:1:1-2:4\nfunction f()\n^^^^^^^^^^^^" ∧
      Examples.brokenLine.print ⟨0, 16⟩ ≠
        Range.print Examples.brokenLine ⟨0, 16⟩ ++ "\n"
          ++ bytesToString (Examples.brokenLine.getLineAt 0) ++ "\n"
          ++ String.mk (List.replicate (Examples.brokenLine.getLineAndColumn 0).2 ' ')
          ++ String.mk (List.replicate (16 - 0) '^')) := by
  refine ⟨⟨⟨_, rfl, rfl⟩, by decide, by decide⟩, ⟨⟨_, rfl, rfl⟩, by decide, by decide⟩⟩

/-- C35, amended. For every range `[b, e)` with `b ≤ e` that ends within the
buffer, the ranges the assertions of `Range` and `File::makePosition` admit,
`File::print` writes the range header, a newline, the line `getLineAt` returns
for `b`, a newline, then `column` spaces and the carets, with no newline behind
them. The carets are at least one, and as many as the range has bytes, `e - b`,
clipped to the bytes the printed line has from the column on when the range
begins within the printed line, and not clipped when it begins behind the end
of the printed line, in the white space that `getLineAt` strips. So an empty
range gets one caret; a range that is not empty and ends within the printed
line gets exactly `e - b` carets; a range that is not empty, begins within
the printed line and ends behind it gets the carets from the column up to the
end of the printed line, and one if there is none; a range that is not empty
and begins behind the end of the printed line gets exactly `e - b` carets,
as the range `[3, 5)` of the two lines `ab   ` and `cd` does. -/
theorem caret_line :
    (∀ (f : File) (r : Range), r.Begin ≤ r.End → r.End ≤ f.size →
      f.print r = Range.print f r ++ "\n" ++ bytesToString (f.getLineAt r.Begin) ++ "\n"
        ++ String.mk (List.replicate (f.getLineAndColumn r.Begin).2 ' ')
        ++ String.mk (List.replicate
            (max 1 (if (f.getLineAndColumn r.Begin).2 ≤ (f.getLineAt r.Begin).length then
                min (r.End - r.Begin)
                  ((f.getLineAt r.Begin).length - (f.getLineAndColumn r.Begin).2)
              else r.End - r.Begin)) '^')) ∧
    (∀ (f : File) (r : Range), r.Begin = r.End → r.End ≤ f.size →
      f.print r = Range.print f r ++ "\n" ++ bytesToString (f.getLineAt r.Begin) ++ "\n"
        ++ String.mk (List.replicate (f.getLineAndColumn r.Begin).2 ' ') ++ "^") ∧
    (∀ (f : File) (r : Range), r.Begin < r.End → r.End ≤ f.size →
      (f.getLineAndColumn r.Begin).2 + (r.End - r.Begin) ≤ (f.getLineAt r.Begin).length →
      f.print r = Range.print f r ++ "\n" ++ bytesToString (f.getLineAt r.Begin) ++ "\n"
        ++ String.mk (List.replicate (f.getLineAndColumn r.Begin).2 ' ')
        ++ String.mk (List.replicate (r.End - r.Begin) '^')) ∧
    (∀ (f : File) (r : Range), r.Begin < r.End → r.End ≤ f.size →
      (f.getLineAndColumn r.Begin).2 ≤ (f.getLineAt r.Begin).length →
      (f.getLineAt r.Begin).length < (f.getLineAndColumn r.Begin).2 + (r.End - r.Begin) →
      f.print r = Range.print f r ++ "\n" ++ bytesToString (f.getLineAt r.Begin) ++ "\n"
        ++ String.mk (List.replicate (f.getLineAndColumn r.Begin).2 ' ')
        ++ String.mk (List.replicate
            (max 1 ((f.getLineAt r.Begin).length - (f.getLineAndColumn r.Begin).2)) '^')) ∧
    (∀ (f : File) (r : Range), r.Begin < r.End → r.End ≤ f.size →
      (f.getLineAt r.Begin).length < (f.getLineAndColumn r.Begin).2 →
      f.print r = Range.print f r ++ "\n" ++ bytesToString (f.getLineAt r.Begin) ++ "\n"
        ++ String.mk (List.replicate (f.getLineAndColumn r.Begin).2 ' ')
        ++ String.mk (List.replicate (r.End - r.Begin) '^')) ∧
    (Examples.trailingSpace.getLineAt 3 = [97, 98] ∧
      (Examples.trailingSpace.getLineAndColumn 3).2 = 3 ∧
      Examples.trailingSpace.print ⟨3, 5⟩ = "space.mua:1:4-6\nab\n   ^^") := by
  refine ⟨print_eq, ?_, ?_, ?_, ?_, by decide, by decide, by decide⟩
  · intro f r hr he
    rw [print_eq f r (by omega) he]
    have h0 : r.End - r.Begin = 0 := by omega
    simp only [h0, Nat.zero_min, ite_self, Nat.max_zero]
    rfl
  · intro f r hr he hw
    rw [print_eq f r (by omega) he, if_pos (by omega)]
    congr 3
    omega
  · intro f r hr he hc hw
    rw [print_eq f r (by omega) he, if_pos hc]
    congr 3
    omega
  · intro f r hr he hc
    rw [print_eq f r (by omega) he, if_neg (by omega)]
    congr 3
    omega

/-- C35, amended, on `function f() return g() end`: the range of the call
`g()` gets three carets. -/
theorem caret_line_witness :
    Examples.undeclared.print ⟨20, 23⟩ =
      Range.print Examples.undeclared ⟨20, 23⟩ ++ "\n"
        ++ bytesToString (Examples.undeclared.getLineAt 20) ++ "\n"
        ++ String.mk (List.replicate (Examples.undeclared.getLineAndColumn 20).2 ' ')
        ++ String.mk (List.replicate (23 - 20) '^') :=
  caret_line.2.2.1 Examples.undeclared ⟨20, 23⟩ (by decide) (by decide) (by decide)

/-! ## The driver -/

/-- `Parse` returns a unit or `nullptr`: its loop budget does not run out. -/
theorem Parse_returns (X : Extern) (file : File) (os : String) :
    (∃ tu P, Parse X file os = .ok tu P) ∨ (∃ P, Parse X file os = .null P) := by
  have h := Parse_good X file os
  generalize Parse X file os = r at h
  cases h with
  | ok a h => exact Or.inl ⟨_, _, rfl⟩
  | null h expected context => exact Or.inr ⟨_, rfl⟩

/-- `Analyze` returns: the walk dereferences no null pointer. -/
theorem Analyze_returns (file : File) (tu : TranslationUnit) (os : String) :
    ∃ r os1, Analyze file tu os = some (r, os1) :=
  ⟨_, _, AnalyzerVisitor.Analyze_total file tu os⟩

/-- C36. The exit code of the driver as a function of the results of the
pipeline, once the options are parsed: `2` if the file does not open;
otherwise `3` if `Parse` returns `nullptr`; otherwise `0` right after the dump
of the AST under `--emit=ast`, and `Analyze` is not called; otherwise `4` if
`Analyze` returns `nullptr`; otherwise `0`, after the dump of the scopes under
`--emit=sema`, with no call of the lowering, or after the lowering and, under
`--emit=llvm`, the dump of the module. After a pass has returned `nullptr` no
other call is made. `main` returns in each of these cases: it returns no value
only where the lowering is called and does not return. -/
theorem driver_exit_code (X : Extern) (H : muac.Host) (argv : List String) (filename : String)
    (action : muac.Action) (errs : String)
    (hcl : H.parseCommandLineOptions argv = (some (filename, action), errs)) :
    (∀ message, H.getFile filename = .error message →
      muac.main X H argv = some ⟨2,
        errs ++ "error: could not open file " ++ filename ++ ": " ++ message ++ "\n",
        [.ParseCommandLineOptions, .Open]⟩) ∧
    (∀ file, H.getFile filename = .ok file →
      (∀ P, Parse X file errs = .null P →
        muac.main X H argv = some ⟨3, P.OS, [.ParseCommandLineOptions, .Open, .Parse]⟩) ∧
      (∀ tu P, Parse X file errs = .ok tu P →
        (action = .DumpAST →
          muac.main X H argv = some ⟨0, P.OS ++ H.dumpAST tu,
            [.ParseCommandLineOptions, .Open, .Parse, .DumpAST]⟩) ∧
        (action ≠ .DumpAST →
          (∀ errs2, Analyze file tu P.OS = some (none, errs2) →
            muac.main X H argv = some ⟨4, errs2,
              [.ParseCommandLineOptions, .Open, .Parse, .Analyze]⟩) ∧
          (∀ scope errs2, Analyze file tu P.OS = some (some scope, errs2) →
            (action = .DumpSema →
              muac.main X H argv = some ⟨0, errs2 ++ H.dumpSema scope,
                [.ParseCommandLineOptions, .Open, .Parse, .Analyze, .DumpSema]⟩) ∧
            (action = .DumpLLVM → ∀ unit, LowerToLLVMIR X file tu scope = some unit →
              muac.main X H argv = some ⟨0, errs2 ++ H.dumpLLVM unit,
                [.ParseCommandLineOptions, .Open, .Parse, .Analyze, .LowerToLLVMIR,
                  .DumpLLVM]⟩) ∧
            (action = .None → ∀ unit, LowerToLLVMIR X file tu scope = some unit →
              muac.main X H argv = some ⟨0, errs2,
                [.ParseCommandLineOptions, .Open, .Parse, .Analyze, .LowerToLLVMIR]⟩))))) ∧
    (muac.main X H argv = none ↔
      ∃ file tu P scope errs2, H.getFile filename = .ok file ∧ Parse X file errs = .ok tu P ∧
        Analyze file tu P.OS = some (some scope, errs2) ∧
        (action = .None ∨ action = .DumpLLVM) ∧ LowerToLLVMIR X file tu scope = none) := by
  refine ⟨?_, ?_, ?_⟩
  · intro message hf
    simp only [muac.main, hcl, muac.Open, hf]
  · intro file hf
    refine ⟨?_, ?_⟩
    · intro P hp
      simp only [muac.main, hcl, muac.Open, hf, hp]
    · intro tu P hp
      refine ⟨?_, ?_⟩
      · intro ha
        simp only [muac.main, hcl, muac.Open, hf, hp, ha, if_true]
      · intro ha
        refine ⟨?_, ?_⟩
        · intro errs2 han
          simp only [muac.main, hcl, muac.Open, hf, hp, ha, if_false, han]
        · intro scope errs2 han
          refine ⟨?_, ?_, ?_⟩
          · intro hs
            subst hs
            simp only [muac.main, hcl, muac.Open, hf, hp, han]
            simp
          · intro hs unit hl
            subst hs
            simp only [muac.main, hcl, muac.Open, hf, hp, han, hl]
            simp
          · intro hs unit hl
            subst hs
            simp only [muac.main, hcl, muac.Open, hf, hp, han, hl]
            simp
  · cases hf : H.getFile filename with
    | error message =>
      have hm : muac.main X H argv = some ⟨2,
          errs ++ "error: could not open file " ++ filename ++ ": " ++ message ++ "\n",
          [.ParseCommandLineOptions, .Open]⟩ := by
        simp only [muac.main, hcl, muac.Open, hf]
      constructor
      · intro h; rw [hm] at h; cases h
      · rintro ⟨file1, tu1, P1, scope1, errs3, h1, -⟩
        cases h1
    | ok file =>
      rcases Parse_returns X file errs with ⟨tu, P, hp⟩ | ⟨P, hp⟩
      · obtain ⟨r, errs2, han⟩ := Analyze_returns file tu P.OS
        by_cases ha : action = .DumpAST
        · have hm : muac.main X H argv = some ⟨0, P.OS ++ H.dumpAST tu,
              [.ParseCommandLineOptions, .Open, .Parse, .DumpAST]⟩ := by
            simp only [muac.main, hcl, muac.Open, hf, hp, ha, if_true]
          constructor
          · intro h; rw [hm] at h; cases h
          · rintro ⟨file1, tu1, P1, scope1, errs3, -, -, -, h4, -⟩
            subst ha
            rcases h4 with h4 | h4 <;> cases h4
        · cases r with
          | none =>
            have hm : muac.main X H argv = some ⟨4, errs2,
                [.ParseCommandLineOptions, .Open, .Parse, .Analyze]⟩ := by
              simp only [muac.main, hcl, muac.Open, hf, hp, ha, if_false, han]
            constructor
            · intro h; rw [hm] at h; cases h
            · rintro ⟨file1, tu1, P1, scope1, errs3, h1, h2, h3, -, -⟩
              cases h1
              rw [hp] at h2
              cases h2
              rw [han] at h3
              cases h3
          | some scope =>
            by_cases hs : action = .DumpSema
            · have hm : muac.main X H argv = some ⟨0, errs2 ++ H.dumpSema scope,
                  [.ParseCommandLineOptions, .Open, .Parse, .Analyze, .DumpSema]⟩ := by
                subst hs
                simp only [muac.main, hcl, muac.Open, hf, hp, han]
                simp
              constructor
              · intro h; rw [hm] at h; cases h
              · rintro ⟨file1, tu1, P1, scope1, errs3, -, -, -, h4, -⟩
                rw [hs] at h4
                rcases h4 with h4 | h4 <;> cases h4
            · have hact : action = .None ∨ action = .DumpLLVM := by
                cases action
                · exact Or.inl rfl
                · exact absurd rfl ha
                · exact absurd rfl hs
                · exact Or.inr rfl
              cases hl : LowerToLLVMIR X file tu scope with
              | none =>
                have hm : muac.main X H argv = none := by
                  simp only [muac.main, hcl, muac.Open, hf, hp, ha, if_false, han, hs, hl]
                constructor
                · intro _
                  exact ⟨file, tu, P, scope, errs2, rfl, hp, han, hact, hl⟩
                · intro _
                  exact hm
              | some unit =>
                have hm : ∃ o, muac.main X H argv = some o := by
                  simp only [muac.main, hcl, muac.Open, hf, hp, ha, if_false, han, hs, hl]
                  split
                  · exact ⟨_, rfl⟩
                  · exact ⟨_, rfl⟩
                obtain ⟨o, hm⟩ := hm
                constructor
                · intro h; rw [hm] at h; cases h
                · rintro ⟨file1, tu1, P1, scope1, errs3, h1, h2, h3, -, h5⟩
                  cases h1
                  rw [hp] at h2
                  cases h2
                  rw [han] at h3
                  cases h3
                  rw [hl] at h5
                  cases h5
      · have hm : muac.main X H argv = some ⟨3, P.OS,
            [.ParseCommandLineOptions, .Open, .Parse]⟩ := by
          simp only [muac.main, hcl, muac.Open, hf, hp]
        constructor
        · intro h; rw [hm] at h; cases h
        · rintro ⟨file1, tu1, P1, scope1, errs3, h1, h2, -⟩
          cases h1
          rw [hp] at h2
          cases h2

/-- C36, on `function f() return g() end` without `--emit`: the exit code is
`4` and the lowering is not called. -/
theorem driver_exit_code_witness :
    muac.main Examples.X0 (Examples.host Examples.undeclared .None) [] =
      some ⟨4, AnalyzerVisitor.errorText Examples.undeclared ⟨20, 23⟩
          "use of undeclared function g",
        [.ParseCommandLineOptions, .Open, .Parse, .Analyze]⟩ :=
  ((((driver_exit_code Examples.X0 (Examples.host Examples.undeclared .None) []
    "undeclared.mua" .None "" rfl).2.1 Examples.undeclared rfl).2
      ⟨[⟨⟨9, 10⟩, [], ⟨[.ReturnStmt (.CallExpr ⟨20, 21⟩ [] ⟨20, 23⟩) ⟨13, 23⟩], ⟨13, 27⟩⟩,
        ⟨0, 27⟩⟩], ⟨0, 27⟩⟩ _ rfl).2 (by decide)).1 _ rfl

/-! ## The calls of hooks of a walk -/

open Walker

/-! The hooks of the recorder. -/

theorem recorder_onEnterNode (accept : Node → Bool) (n : Node) (log : List Event) :
    (recorder accept).onEnterNode n log = (true, log ++ [⟨.EnterNode, n⟩]) := rfl

theorem recorder_onExitNode (accept : Node → Bool) (n : Node) (log : List Event) :
    (recorder accept).onExitNode n log = log ++ [⟨.ExitNode, n⟩] := rfl

theorem recorder_onEnterExpr (accept : Node → Bool) (e : Expr) (log : List Event) :
    (recorder accept).onEnterExpr e log = (true, log ++ [⟨.EnterBase, .Expr e⟩]) := rfl

theorem recorder_onExitExpr (accept : Node → Bool) (e : Expr) (log : List Event) :
    (recorder accept).onExitExpr e log = log ++ [⟨.ExitBase, .Expr e⟩] := rfl

theorem recorder_onEnterStmt (accept : Node → Bool) (n : Node) (log : List Event) :
    (recorder accept).onEnterStmt n log = (true, log ++ [⟨.EnterBase, n⟩]) := rfl

theorem recorder_onExitStmt (accept : Node → Bool) (n : Node) (log : List Event) :
    (recorder accept).onExitStmt n log = log ++ [⟨.ExitBase, n⟩] := rfl

theorem recorder_onEnterDecl (accept : Node → Bool) (n : Node) (log : List Event) :
    (recorder accept).onEnterDecl n log = (true, log ++ [⟨.EnterBase, n⟩]) := rfl

theorem recorder_onExitDecl (accept : Node → Bool) (n : Node) (log : List Event) :
    (recorder accept).onExitDecl n log = log ++ [⟨.ExitBase, n⟩] := rfl

theorem recorder_onEnterNumberExpr (accept : Node → Bool) (e : Expr) (log : List Event) :
    (recorder accept).onEnterNumberExpr e log = (accept (.Expr e), log ++ [⟨.Enter, .Expr e⟩]) := rfl

theorem recorder_onExitNumberExpr (accept : Node → Bool) (e : Expr) (log : List Event) :
    (recorder accept).onExitNumberExpr e log = log ++ [⟨.Exit, .Expr e⟩] := rfl

theorem recorder_onEnterIdentifierExpr (accept : Node → Bool) (e : Expr) (log : List Event) :
    (recorder accept).onEnterIdentifierExpr e log = (accept (.Expr e), log ++ [⟨.Enter, .Expr e⟩]) := rfl

theorem recorder_onExitIdentifierExpr (accept : Node → Bool) (e : Expr) (log : List Event) :
    (recorder accept).onExitIdentifierExpr e log = log ++ [⟨.Exit, .Expr e⟩] := rfl

theorem recorder_onEnterCallExpr (accept : Node → Bool) (e : Expr) (log : List Event) :
    (recorder accept).onEnterCallExpr e log = (accept (.Expr e), log ++ [⟨.Enter, .Expr e⟩]) := rfl

theorem recorder_onExitCallExpr (accept : Node → Bool) (e : Expr) (log : List Event) :
    (recorder accept).onExitCallExpr e log = log ++ [⟨.Exit, .Expr e⟩] := rfl

theorem recorder_onEnterBinaryExpr (accept : Node → Bool) (e : Expr) (log : List Event) :
    (recorder accept).onEnterBinaryExpr e log = (accept (.Expr e), log ++ [⟨.Enter, .Expr e⟩]) := rfl

theorem recorder_onExitBinaryExpr (accept : Node → Bool) (e : Expr) (log : List Event) :
    (recorder accept).onExitBinaryExpr e log = log ++ [⟨.Exit, .Expr e⟩] := rfl

theorem recorder_onEnterExprStmt (accept : Node → Bool) (st : Stmt) (log : List Event) :
    (recorder accept).onEnterExprStmt st log = (accept (.Stmt st), log ++ [⟨.Enter, .Stmt st⟩]) := rfl

theorem recorder_onExitExprStmt (accept : Node → Bool) (st : Stmt) (log : List Event) :
    (recorder accept).onExitExprStmt st log = log ++ [⟨.Exit, .Stmt st⟩] := rfl

theorem recorder_onEnterReturnStmt (accept : Node → Bool) (st : Stmt) (log : List Event) :
    (recorder accept).onEnterReturnStmt st log = (accept (.Stmt st), log ++ [⟨.Enter, .Stmt st⟩]) := rfl

theorem recorder_onExitReturnStmt (accept : Node → Bool) (st : Stmt) (log : List Event) :
    (recorder accept).onExitReturnStmt st log = log ++ [⟨.Exit, .Stmt st⟩] := rfl

theorem recorder_onEnterCompoundStmt (accept : Node → Bool) (cs : CompoundStmt) (log : List Event) :
    (recorder accept).onEnterCompoundStmt cs log =
      (accept (.CompoundStmt cs), log ++ [⟨.Enter, .CompoundStmt cs⟩]) := rfl

theorem recorder_onExitCompoundStmt (accept : Node → Bool) (cs : CompoundStmt) (log : List Event) :
    (recorder accept).onExitCompoundStmt cs log = log ++ [⟨.Exit, .CompoundStmt cs⟩] := rfl

theorem recorder_onEnterParamDecl (accept : Node → Bool) (pd : ParamDecl) (log : List Event) :
    (recorder accept).onEnterParamDecl pd log =
      (accept (.ParamDecl pd), log ++ [⟨.Enter, .ParamDecl pd⟩]) := rfl

theorem recorder_onExitParamDecl (accept : Node → Bool) (pd : ParamDecl) (log : List Event) :
    (recorder accept).onExitParamDecl pd log = log ++ [⟨.Exit, .ParamDecl pd⟩] := rfl

theorem recorder_onEnterFunctionDecl (accept : Node → Bool) (fn : FunctionDecl) (log : List Event) :
    (recorder accept).onEnterFunctionDecl fn log =
      (accept (.FunctionDecl fn), log ++ [⟨.Enter, .FunctionDecl fn⟩]) := rfl

theorem recorder_onExitFunctionDecl (accept : Node → Bool) (fn : FunctionDecl) (log : List Event) :
    (recorder accept).onExitFunctionDecl fn log = log ++ [⟨.Exit, .FunctionDecl fn⟩] := rfl

theorem recorder_onEnterTranslationUnit (accept : Node → Bool) (tu : TranslationUnit) (log : List Event) :
    (recorder accept).onEnterTranslationUnit tu log =
      (accept (.TranslationUnit tu), log ++ [⟨.Enter, .TranslationUnit tu⟩]) := rfl

theorem recorder_onExitTranslationUnit (accept : Node → Bool) (tu : TranslationUnit) (log : List Event) :
    (recorder accept).onExitTranslationUnit tu log = log ++ [⟨.Exit, .TranslationUnit tu⟩] := rfl

/-- The frame of `walk` around an expression, for the recorder. -/
theorem aroundExpr_recorder (accept : Node → Bool) (e : Expr) (log : List Event)
    (kind : List Event → List Event) :
    aroundExpr (recorder accept) e log kind =
      kind (log ++ [⟨.EnterNode, .Expr e⟩, ⟨.EnterBase, .Expr e⟩])
        ++ [⟨.ExitBase, .Expr e⟩, ⟨.ExitNode, .Expr e⟩] := by
  simp [aroundExpr, recorder_onEnterNode, recorder_onExitNode, recorder_onEnterExpr,
    recorder_onExitExpr]

/-- The same for a statement. -/
theorem around_recorder_stmt (accept : Node → Bool) (n : Node) (log : List Event)
    (kind : List Event → List Event) :
    around (recorder accept) n (recorder accept).onEnterStmt (recorder accept).onExitStmt log
        kind =
      kind (log ++ [⟨.EnterNode, n⟩, ⟨.EnterBase, n⟩]) ++ [⟨.ExitBase, n⟩, ⟨.ExitNode, n⟩] := by
  simp [around, recorder_onEnterNode, recorder_onExitNode, recorder_onEnterStmt,
    recorder_onExitStmt, recorder_onEnterDecl, recorder_onExitDecl]

/-- The same for a declaration. -/
theorem around_recorder_decl (accept : Node → Bool) (n : Node) (log : List Event)
    (kind : List Event → List Event) :
    around (recorder accept) n (recorder accept).onEnterDecl (recorder accept).onExitDecl log
        kind =
      kind (log ++ [⟨.EnterNode, n⟩, ⟨.EnterBase, n⟩]) ++ [⟨.ExitBase, n⟩, ⟨.ExitNode, n⟩] := by
  simp [around, recorder_onEnterNode, recorder_onExitNode, recorder_onEnterStmt,
    recorder_onExitStmt, recorder_onEnterDecl, recorder_onExitDecl]

/-- The walk of an expression, and of a list of arguments, records the calls
of the traversal contract behind the calls so far. -/
theorem walkExpr_events (accept : Node → Bool) :
    (∀ e log, walkExpr (recorder accept) e log = log ++ e.events accept) ∧
    (∀ es log, walkExprs (recorder accept) es log = log ++ Expr.eventsOf accept es) := by
  apply AnalyzerVisitor.Expr.induct
  · intro v r log
    rw [walkExpr, aroundExpr_recorder, Expr.events]
    cases h : accept (.Expr (.NumberExpr v r)) <;> simp [entered, recorder_onEnterNumberExpr, recorder_onExitNumberExpr, visit, h]
  · intro n log
    rw [walkExpr, aroundExpr_recorder, Expr.events]
    cases h : accept (.Expr (.IdentifierExpr n)) <;> simp [entered, recorder_onEnterIdentifierExpr, recorder_onExitIdentifierExpr, visit, h]
  · intro c args r ih log
    rw [walkExpr, aroundExpr_recorder, Expr.events]
    cases h : accept (.Expr (.CallExpr c args r)) <;> simp [entered, recorder_onEnterCallExpr,
      recorder_onExitCallExpr, visit, h, ih]
  · intro op l r rg ihl ihr log
    rw [walkExpr, aroundExpr_recorder, Expr.events]
    cases h : accept (.Expr (.BinaryExpr op l r rg)) <;>
      simp [entered, recorder_onEnterBinaryExpr, recorder_onExitBinaryExpr, visit, h, ihl, ihr]
  · intro log
    simp [walkExprs, Expr.eventsOf]
  · intro e es ihe ihes log
    simp [walkExprs, Expr.eventsOf, ihe, ihes]

theorem walkStmt_events (accept : Node → Bool) (st : Stmt) (log : List Event) :
    walkStmt (recorder accept) st log = log ++ st.events accept := by
  rw [walkStmt, around_recorder_stmt, Stmt.events]
  cases st with
  | ExprStmt e =>
    cases h : accept (.Stmt (.ExprStmt e)) <;>
      simp [entered, recorder_onEnterExprStmt, recorder_onExitExprStmt, visit, h, (walkExpr_events accept).1, Stmt.expr]
  | ReturnStmt v r =>
    cases h : accept (.Stmt (.ReturnStmt v r)) <;>
      simp [entered, recorder_onEnterReturnStmt, recorder_onExitReturnStmt, visit, h, (walkExpr_events accept).1, Stmt.expr]

theorem walkStmts_events (accept : Node → Bool) (sts : List Stmt) :
    ∀ log, sts.foldl (fun acc st => walkStmt (recorder accept) st acc) log =
      log ++ (sts.map (Stmt.events accept)).flatten := by
  induction sts with
  | nil => intro log; simp
  | cons st rest ih =>
    intro log
    rw [List.foldl_cons, walkStmt_events, ih]
    simp

theorem walkCompoundStmt_events (accept : Node → Bool) (cs : CompoundStmt)
    (log : List Event) :
    walkCompoundStmt (recorder accept) cs log = log ++ cs.events accept := by
  rw [walkCompoundStmt, around_recorder_stmt, CompoundStmt.events]
  cases h : accept (.CompoundStmt cs) <;>
    simp [entered, recorder_onEnterCompoundStmt, recorder_onExitCompoundStmt, visit, h, walkStmts_events]

theorem walkParamDecl_events (accept : Node → Bool) (pd : ParamDecl) (log : List Event) :
    walkParamDecl (recorder accept) pd log = log ++ pd.events accept := by
  rw [walkParamDecl, around_recorder_decl, ParamDecl.events]
  cases h : accept (.ParamDecl pd) <;> simp [entered, recorder_onEnterParamDecl,
    recorder_onExitParamDecl, visit, h]

theorem walkParams_events (accept : Node → Bool) (pds : List ParamDecl) :
    ∀ log, pds.foldl (fun acc pd => walkParamDecl (recorder accept) pd acc) log =
      log ++ (pds.map (ParamDecl.events accept)).flatten := by
  induction pds with
  | nil => intro log; simp
  | cons pd rest ih =>
    intro log
    rw [List.foldl_cons, walkParamDecl_events, ih]
    simp

theorem walkFunctionDecl_events (accept : Node → Bool) (fn : FunctionDecl)
    (log : List Event) :
    walkFunctionDecl (recorder accept) fn log = log ++ fn.events accept := by
  rw [walkFunctionDecl, around_recorder_decl, FunctionDecl.events]
  cases h : accept (.FunctionDecl fn) <;>
    simp [entered, recorder_onEnterFunctionDecl, recorder_onExitFunctionDecl, visit, h, walkParams_events, walkCompoundStmt_events]

theorem walkFunctions_events (accept : Node → Bool) (fns : List FunctionDecl) :
    ∀ log, fns.foldl (fun acc fn => walkFunctionDecl (recorder accept) fn acc) log =
      log ++ (fns.map (FunctionDecl.events accept)).flatten := by
  induction fns with
  | nil => intro log; simp
  | cons fn rest ih =>
    intro log
    rw [List.foldl_cons, walkFunctionDecl_events, ih]
    simp

/-- C37. The traversal contract of the walker. The calls of hooks that `Walk`
makes on a translation unit are the calls of the contract, in pre-order and in
the order of the source: the functions of the unit in their order; for a
function all its parameters in their order, then its body; the statements of
a compound statement in their order; the left operand of a binary expression,
then the right one; the arguments of a call in their order, and no call for
the callee. When the `onEnter` hook of the kind of a node returns `false`, no
hook is called for a descendant of the node, and the `onExit` hook of its kind
is not called; otherwise that `onExit` hook is called after the calls for all
the descendants. -/
theorem walker_contract (accept : Node → Bool) (tu : TranslationUnit)
    (log : List Walker.Event) :
    Walk tu (Walker.recorder accept) log = log ++ tu.events accept := by
  rw [Walk, walkTranslationUnit, TranslationUnit.events]
  cases h : accept (.TranslationUnit tu) <;>
    simp [entered, recorder_onEnterTranslationUnit, recorder_onExitTranslationUnit,
      recorder_onEnterNode, recorder_onExitNode, h, walkFunctions_events]

/-! ## The instructions the lowering emits -/

namespace LowerToLLVMIRVisitor
open Walker

/-- The entry block at the insertion point, when that is the function `k`. -/
theorem block_eq {V : LowerToLLVMIRVisitor} {k : Nat} {f : IR.Function}
    (hp : V.InsertPoint = some k) (hf : V.Module.Functions[k]? = some f) :
    V.block = f.Entry := by
  unfold block
  rw [hp]
  simp only [Option.some_bind, hf]

/-- On a stretch of the lowering inside a function, instructions come behind
the entry block, and the ones that were there stay in front. -/
theorem Ext.block_append {k : Nat} {V V1 : LowerToLLVMIRVisitor} (h : Ext k V V1)
    (hp : V.InsertPoint = some k) (hk : k < V.Module.Functions.length) :
    ∃ added : List IR.Instr, (∀ i ∈ added, i.isAlloca = false) ∧
      V1.block = V.block ++ added := by
  obtain ⟨added, hna, hadd⟩ := h.here
  have hf : V.Module.Functions[k]? = some V.Module.Functions[k] := List.getElem?_eq_getElem hk
  refine ⟨added, hna, ?_⟩
  rw [block_eq hp hf, block_eq (h.point.trans hp) (hadd _ hf)]

theorem Ext.validPoint {k : Nat} {V V1 : LowerToLLVMIRVisitor} (h : Ext k V V1)
    (hk : k < V.Module.Functions.length) : k < V1.Module.Functions.length := by
  rw [h.length]; exact hk

/-- The block after one more instruction. -/
theorem insert_block {k : Nat} {V : LowerToLLVMIRVisitor} (hp : V.InsertPoint = some k)
    (hk : k < V.Module.Functions.length) (i : IR.Instr) :
    (V.insert i).2.block = V.block ++ [i] ∧ (V.insert i).1 = .Instruction k V.block.length ∧
    (V.insert i).2.Undefined = V.Undefined ∧ (V.insert i).2.InsertPoint = some k ∧
    (V.insert i).2.Module.Functions.length = V.Module.Functions.length := by
  have hf : V.Module.Functions[k]? = some V.Module.Functions[k] := List.getElem?_eq_getElem hk
  rw [insert_eq hp hf, block_eq hp hf]
  refine ⟨?_, rfl, rfl, hp, by simp⟩
  unfold block
  simp only [hp, Option.some_bind]
  rw [List.getElem?_set_self hk]

/-- The lowering of an arithmetic operator: the left operand, the right
operand in the state the left one leaves, then the instruction. -/
theorem lower_arith (X : Extern) (file : File) (T : ScopeTree) {op : Op} (hop : op ≠ .Assign)
    (l r : Expr) (rg : Range) (V : LowerToLLVMIRVisitor) :
    lower X file T (.BinaryExpr op l r rg) V =
      createBinOp X (lower X file T r (lower X file T l V).2).2 op (lower X file T l V).1
        (lower X file T r (lower X file T l V).2).1 := by
  cases op with
  | Assign => exact absurd rfl hop
  | Add => rw [lower]
  | Sub => rw [lower]
  | Mul => rw [lower]
  | Div => rw [lower]

/-- `IRBuilder.CreateFAdd` and the like, where the constant folder does not
fold: the instruction is inserted. -/
theorem createBinOp_of_none (X : Extern) (V : LowerToLLVMIRVisitor) {op : Op}
    (hop : op ≠ .Assign) (lhs rhs : IR.Value)
    (hn : ¬ ∃ a b c, lhs = .ConstantFP a ∧ rhs = .ConstantFP b ∧ X.foldBinOp op a b = some c) :
    ∃ i, arith op lhs rhs = [i] ∧ createBinOp X V op lhs rhs = V.insert i := by
  unfold createBinOp
  simp only
  split
  · rename_i c heq
    exfalso
    split at heq
    · exact hn ⟨_, _, _, rfl, rfl, heq⟩
    · cases heq
  · cases op with
    | Assign => exact absurd rfl hop
    | Add => exact ⟨_, rfl, rfl⟩
    | Sub => exact ⟨_, rfl, rfl⟩
    | Mul => exact ⟨_, rfl, rfl⟩
    | Div => exact ⟨_, rfl, rfl⟩

/-- `IRBuilder.CreateFAdd` and the like: the constant folder returns a
constant and nothing is emitted, or the instruction comes behind the block. -/
theorem createBinOp_block (X : Extern) {k : Nat} {V : LowerToLLVMIRVisitor}
    (hp : V.InsertPoint = some k) (hk : k < V.Module.Functions.length) {op : Op}
    (hop : op ≠ .Assign) (lhs rhs : IR.Value) :
    (∃ a b c, lhs = .ConstantFP a ∧ rhs = .ConstantFP b ∧ X.foldBinOp op a b = some c ∧
      createBinOp X V op lhs rhs = (.ConstantFP c, V)) ∨
    ((¬ ∃ a b c, lhs = .ConstantFP a ∧ rhs = .ConstantFP b ∧ X.foldBinOp op a b = some c) ∧
      (createBinOp X V op lhs rhs).2.block = V.block ++ arith op lhs rhs ∧
      (createBinOp X V op lhs rhs).1 = .Instruction k V.block.length ∧
      (createBinOp X V op lhs rhs).2.Undefined = V.Undefined) := by
  by_cases hn : ∃ a b c, lhs = .ConstantFP a ∧ rhs = .ConstantFP b ∧ X.foldBinOp op a b = some c
  · left
    obtain ⟨a, b, c, rfl, rfl, hc⟩ := hn
    refine ⟨a, b, c, rfl, rfl, hc, ?_⟩
    unfold createBinOp
    simp only [hc]
  · right
    refine ⟨hn, ?_⟩
    obtain ⟨i, hi, he⟩ := createBinOp_of_none X V hop lhs rhs hn
    rw [he, hi]
    obtain ⟨h1, h2, h3, -⟩ := insert_block hp hk i
    exact ⟨h1, h2, h3⟩

/-- The loop over the arguments, one argument further. -/
theorem lowerArgs_snoc (X : Extern) (file : File) (T : ScopeTree) (front : List Expr)
    (a : Expr) :
    ∀ acc (V : LowerToLLVMIRVisitor),
      lowerArgs X file T (front ++ [a]) acc V =
        ((lowerArgs X file T front acc V).1
            ++ [(lower X file T a (lowerArgs X file T front acc V).2).1],
          (lower X file T a (lowerArgs X file T front acc V).2).2) := by
  induction front with
  | nil =>
    intro acc V
    rw [List.nil_append, lowerArgs, lowerArgs, lowerArgs]
  | cons e es ih =>
    intro acc V
    rw [List.cons_append, lowerArgs, ih, lowerArgs]

/-- The loop over the arguments, continued. -/
theorem lowerArgs_append (X : Extern) (file : File) (T : ScopeTree) (front back : List Expr) :
    ∀ acc (V : LowerToLLVMIRVisitor),
      lowerArgs X file T (front ++ back) acc V =
        lowerArgs X file T back (lowerArgs X file T front acc V).1
          (lowerArgs X file T front acc V).2 := by
  induction front with
  | nil =>
    intro acc V
    rw [List.nil_append, lowerArgs]
  | cons e es ih =>
    intro acc V
    rw [List.cons_append, lowerArgs, ih, lowerArgs]

/-- The loop over the arguments returns a value for each argument. -/
theorem lowerArgs_length (X : Extern) (file : File) (T : ScopeTree) (args : List Expr) :
    ∀ acc (V : LowerToLLVMIRVisitor),
      (lowerArgs X file T args acc V).1.length = acc.length + args.length := by
  induction args with
  | nil => intro acc V; rw [lowerArgs]; rfl
  | cons e es ih =>
    intro acc V
    rw [lowerArgs, ih]
    simp only [List.length_append, List.length_cons, List.length_nil]
    omega

end LowerToLLVMIRVisitor

namespace LowerToLLVMIRVisitor
open Walker

theorem insert_symbols (V : LowerToLLVMIRVisitor) (i : IR.Instr) :
    (V.insert i).2.SymbolToValue = V.SymbolToValue := by
  unfold insert
  split
  · rfl
  · split <;> rfl

theorem createBinOp_symbols (X : Extern) (V : LowerToLLVMIRVisitor) (op : Op)
    (lhs rhs : IR.Value) : (createBinOp X V op lhs rhs).2.SymbolToValue = V.SymbolToValue := by
  unfold createBinOp
  simp only
  split
  · rfl
  · cases op <;> first | exact insert_symbols _ _ | rfl

/-- The lowering of an expression leaves the map from symbols to addresses as
it is. -/
theorem lower_symbols (X : Extern) (file : File) (T : ScopeTree) :
    (∀ e (V : LowerToLLVMIRVisitor), (lower X file T e V).2.SymbolToValue = V.SymbolToValue) ∧
    (∀ es acc (V : LowerToLLVMIRVisitor),
      (lowerArgs X file T es acc V).2.SymbolToValue = V.SymbolToValue) := by
  apply AnalyzerVisitor.Expr.induct
  · intro v r V
    rw [lower]
  · intro n V
    rw [lower]
    split
    · rfl
    · exact insert_symbols _ _
  · intro c args r ih V
    rw [lower]
    exact (insert_symbols _ _).trans (ih [] V)
  · intro op l r rg ihl ihr V
    by_cases hop : op = .Assign
    · subst hop
      cases l with
      | IdentifierExpr name =>
        rw [lower]
        simp only
        split
        · exact ihr V
        · exact (insert_symbols _ _).trans (ihr V)
      | NumberExpr v r0 =>
        rw [lower]
        intro name h; cases h
      | CallExpr c a r0 =>
        rw [lower]
        intro name h; cases h
      | BinaryExpr o a b r0 =>
        rw [lower]
        intro name h; cases h
    · rw [lower_arith X file T hop]
      exact (createBinOp_symbols X _ _ _ _).trans ((ihr _).trans (ihl V))
  · intro acc V
    rw [lowerArgs]
  · intro e es ihe ihes acc V
    rw [lowerArgs]
    exact (ihes _ _).trans (ihe V)

theorem addressOf_congr {V V1 : LowerToLLVMIRVisitor}
    (h : V1.SymbolToValue = V.SymbolToValue) (symbol : Option SymbolRef) :
    V1.addressOf symbol = V.addressOf symbol := by
  unfold addressOf
  rw [h]

/-- The lowering of an assignment to an identifier: the right-hand side, then
the store into the address of the symbol, if the map has one. -/
theorem lower_assign (X : Extern) (file : File) (T : ScopeTree) (name : Range) (e : Expr)
    (rg : Range) (V : LowerToLLVMIRVisitor) :
    lower X file T (.BinaryExpr .Assign (.IdentifierExpr name) e rg) V =
      match V.addressOf (V.CurrentScope.bind fun cur => T.lookup file cur name) with
      | none => ((lower X file T e V).1, { (lower X file T e V).2 with Undefined := true })
      | some addr =>
        ((lower X file T e V).1,
          ((lower X file T e V).2.insert (.Store (lower X file T e V).1 addr)).2) := by
  rw [lower]
  simp only
  rw [addressOf_congr ((lower_symbols X file T).1 e V)]

/-- C31. The lowering of an assignment. In a state in which the builder
stands in a function of the module, the lowering of `x = e` emits the
instructions of `e` behind the block, then one `store` of the value of `e`
into the address the map holds for the symbol that `x` resolves to from the
current scope, and nothing else: no `load` of `x`. The value of the
assignment is the value of `e`. Where the map holds no address for the symbol
the lowering is not defined. For `y = x + 1` with the parameter `x` the
instructions are the `load` of `x`, the `fadd` of that and the constant, and the
`store` into the slot of `y`. -/
theorem assignment_lowering :
    (∀ (X : Extern) (file : File) (T : ScopeTree) (name : Range) (e : Expr) (rg : Range)
      (V : LowerToLLVMIRVisitor) (k : Nat),
      V.InsertPoint = some k → k < V.Module.Functions.length →
      (lower X file T (.BinaryExpr .Assign (.IdentifierExpr name) e rg) V).1 =
        (lower X file T e V).1 ∧
      ∃ A : List IR.Instr, (lower X file T e V).2.block = V.block ++ A ∧
        (∀ addr, V.addressOf (V.CurrentScope.bind fun cur => T.lookup file cur name) = some addr →
          (lower X file T (.BinaryExpr .Assign (.IdentifierExpr name) e rg) V).2.block =
            V.block ++ A ++ [.Store (lower X file T e V).1 addr] ∧
          (lower X file T (.BinaryExpr .Assign (.IdentifierExpr name) e rg) V).2.Undefined =
            (lower X file T e V).2.Undefined) ∧
        (V.addressOf (V.CurrentScope.bind fun cur => T.lookup file cur name) = none →
          (lower X file T (.BinaryExpr .Assign (.IdentifierExpr name) e rg) V).2.Undefined =
            true)) ∧
    (∃ tu P T, Parse Examples.X1 Examples.implicitVar "" = .ok tu P ∧
      Analyze Examples.implicitVar tu "" = some (some T, "") ∧
      LowerToLLVMIR Examples.X1 Examples.implicitVar tu T =
        some ⟨⟨"mua module", "implicit.mua", [⟨[102], 1, [.Alloca [120],
          .Store (.Argument 0 0) (.Instruction 0 0), .Alloca [121],
          .Load (.Instruction 0 0) [120],
          .FAdd (.Instruction 0 3) (.ConstantFP ⟨4607182418800017408⟩),
          .Store (.Instruction 0 4) (.Instruction 0 2), .Load (.Instruction 0 2) [121],
          .Ret (.Instruction 0 6)]⟩]⟩⟩) := by
  refine ⟨?_, ⟨⟨[⟨⟨9, 10⟩, [⟨⟨11, 12⟩⟩],
      ⟨[.ExprStmt (.BinaryExpr .Assign (.IdentifierExpr ⟨14, 15⟩)
          (.BinaryExpr .Add (.IdentifierExpr ⟨18, 19⟩)
            (.NumberExpr ⟨4607182418800017408⟩ ⟨22, 23⟩) ⟨18, 23⟩)
          ⟨14, 23⟩),
        .ReturnStmt (.IdentifierExpr ⟨31, 32⟩) ⟨24, 32⟩], ⟨14, 36⟩⟩, ⟨0, 36⟩⟩], ⟨0, 36⟩⟩, _,
    ⟨[⟨none, none, [⟨.Function, ⟨9, 10⟩, some 1⟩]⟩,
      ⟨some 0, some ⟨0, 0⟩, [⟨.Param, ⟨11, 12⟩, none⟩, ⟨.Var, ⟨14, 15⟩, none⟩]⟩]⟩,
    rfl, by decide, by decide⟩⟩
  intro X file T name e rg V k hp hk
  have hext := (lower_ext X file T k).1 e V hp
  obtain ⟨A, -, hA⟩ := hext.block_append hp hk
  rw [lower_assign]
  refine ⟨?_, A, hA, ?_, ?_⟩
  · split <;> rfl
  · intro addr ha
    rw [ha]
    simp only
    obtain ⟨h1, -, h3, -⟩ := insert_block (hext.point.trans hp) (hext.validPoint hk)
      (.Store (lower X file T e V).1 addr)
    rw [h1, hA]
    exact ⟨rfl, h3⟩
  · intro ha
    rw [ha]

end LowerToLLVMIRVisitor

namespace LowerToLLVMIRVisitor
open Walker

/-- On a stretch of the lowering inside a function the functions of the module
keep their names and their numbers of parameters. -/
theorem Ext.signatures_eq {k : Nat} {V V1 : LowerToLLVMIRVisitor} (h : Ext k V V1) :
    V1.signatures = V.signatures := by
  unfold signatures
  apply List.ext_getElem?
  intro j
  rw [List.getElem?_map, List.getElem?_map]
  by_cases hj : j = k
  · subst hj
    obtain ⟨added, -, hadd⟩ := h.here
    cases hf : V.Module.Functions[j]? with
    | none =>
      have hlen : V.Module.Functions.length ≤ j := List.getElem?_eq_none_iff.1 hf
      rw [List.getElem?_eq_none_iff.2 (h.length ▸ hlen)]
    | some f =>
      rw [hadd f hf]
      rfl
  · rw [h.others j hj]

/-- The state between two functions of a translation unit on its accepted
store: the current scope is the global scope and the module holds a function
with the name and the number of parameters of each function so far. -/
theorem atFunction_signatures (X : Extern) (file : File) (fns : List FunctionDecl)
    (hd : fns.Pairwise (fun a b => file.slice a.Name ≠ file.slice b.Name))
    (front : List FunctionDecl) :
    ∀ back, fns = front ++ back →
      (atFunction X file (acceptedStore file fns) front).CurrentScope = some 0 ∧
      (atFunction X file (acceptedStore file fns) front).signatures =
        front.map (FunctionDecl.signature file) := by
  induction front using List.reverseRecOn with
  | nil =>
    intro back _
    exact ⟨rfl, rfl⟩
  | append_singleton front fn ih =>
    intro back hb
    rw [List.append_assoc, List.singleton_append] at hb
    obtain ⟨h1, h2⟩ := ih (fn :: back) hb
    have hlen : (atFunction X file (acceptedStore file fns) front).Module.Functions.length =
        front.length := by
      have := congrArg List.length h2
      simpa [signatures] using this
    unfold atFunction at h1 h2 hlen ⊢
    rw [List.foldl_append, List.foldl_cons, List.foldl_nil]
    have hlk := acceptedStore_lookup file front fn back (hb ▸ hd)
    rw [← hb] at hlk
    have hg := acceptedStore_function file front fn back
    rw [← hb] at hg
    obtain ⟨s1, s2, s3, added, -, s4⟩ := walkFunctionDecl_spec X file (acceptedStore file fns) fn
      h1 hlk.1 hlk.2 rfl hg
    refine ⟨s1, ?_⟩
    have hpar : ((acceptedStore file fns).getSymbols (front.length + 1) (some .Param)).length =
        fn.Params.length := by
      have hpp := acceptedStore_params_perm file front fn back
      rw [← hb] at hpp
      rw [hpp.length_eq, List.length_map, List.length_range]
    apply List.ext_getElem?
    intro j
    unfold signatures at h2 ⊢
    rw [List.getElem?_map]
    rcases Nat.lt_trichotomy j front.length with hj | hj | hj
    · rw [s3 j (by rw [hlen]; exact hj), ← List.getElem?_map, h2, List.map_append,
        List.getElem?_append_left (by rw [List.length_map]; exact hj)]
    · subst hj
      rw [hlen] at s4
      rw [s4, List.map_append, List.getElem?_append_right (by rw [List.length_map]),
        List.length_map, Nat.sub_self]
      simp only [Option.map_some', List.map_cons, List.map_nil, List.getElem?_cons_zero,
        hpar, FunctionDecl.signature]
    · rw [List.getElem?_eq_none_iff.2 (by rw [s2, hlen]; omega),
        List.getElem?_eq_none_iff.2 (by
          rw [List.length_map, List.length_append, List.length_singleton]; omega)]
      rfl

/-- The state at a statement of a function of a translation unit on its
accepted store: the builder stands in the function the lowering has made for
the function, which is the last function of the module, and the module holds a
function with the name and the number of parameters of each function up to
this one. -/
theorem atStmt_facts (X : Extern) (file : File) (fns : List FunctionDecl)
    (hd : fns.Pairwise (fun a b => file.slice a.Name ≠ file.slice b.Name))
    {front : List FunctionDecl} {fn : FunctionDecl} {back : List FunctionDecl}
    (hf : fns = front ++ fn :: back) (sfront : List Stmt) :
    (atStmt X file (acceptedStore file fns) fn sfront
      (atFunction X file (acceptedStore file fns) front)).InsertPoint = some front.length ∧
    front.length < (atStmt X file (acceptedStore file fns) fn sfront
      (atFunction X file (acceptedStore file fns) front)).Module.Functions.length ∧
    (atStmt X file (acceptedStore file fns) fn sfront
      (atFunction X file (acceptedStore file fns) front)).signatures =
        (front ++ [fn]).map (FunctionDecl.signature file) := by
  obtain ⟨h1, h2⟩ := atFunction_signatures X file fns hd front (fn :: back) hf
  have hlen : (atFunction X file (acceptedStore file fns) front).Module.Functions.length =
      front.length := by
    have := congrArg List.length h2
    simpa [signatures] using this
  have hlk := acceptedStore_lookup file front fn back (hf ▸ hd)
  rw [← hf] at hlk
  obtain ⟨e1, e2, e3⟩ := onEnterFunctionDecl_spec file (acceptedStore file fns) fn h1
    hlk.1 hlk.2 rfl
  rw [hlen] at e1
  have hpar : ((acceptedStore file fns).getSymbols (front.length + 1) (some .Param)).length =
      fn.Params.length := by
    have hpp := acceptedStore_params_perm file front fn back
    rw [← hf] at hpp
    rw [hpp.length_eq, List.length_map, List.length_range]
  have hext := stmts_ext X file (acceptedStore file fns) sfront e1
  unfold atStmt
  refine ⟨hext.point.trans e1, ?_, ?_⟩
  · rw [hext.length, e3, List.length_append, hlen]
    exact Nat.lt_succ_self _
  · rw [hext.signatures_eq]
    unfold signatures at h2 ⊢
    rw [e3, List.map_append, h2, List.map_append]
    simp only [List.map_cons, List.map_nil, hpar, FunctionDecl.signature]

/-- The calls of `lower` inside the lowering of an expression come on a
stretch of the lowering inside the function. -/
theorem LowersExpr.ext {X : Extern} {file : File} {T : ScopeTree} {e e1 : Expr}
    {V V1 : LowerToLLVMIRVisitor} (h : LowersExpr X file T e V e1 V1) {k : Nat}
    (hp : V.InsertPoint = some k) : Ext k V V1 := by
  induction h with
  | here e V => exact Ext.reflExt k V
  | arg hargs h ih =>
    rename_i callee args range V front a back e1 V1
    have h1 := (lower_ext X file T k).2 front [] V hp
    exact h1.transExt (ih (h1.point.trans hp))
  | lhs hop h ih => exact ih hp
  | rhs hop h ih =>
    rename_i op l r range V e1 V1
    have h1 := (lower_ext X file T k).1 l V hp
    exact h1.transExt (ih (h1.point.trans hp))
  | assigned h ih => exact ih hp

/-- An expression on which `lower` is called inside the lowering of an
expression occurs in it. -/
theorem LowersExpr.sub {X : Extern} {file : File} {T : ScopeTree} {e e1 : Expr}
    {V V1 : LowerToLLVMIRVisitor} (h : LowersExpr X file T e V e1 V1) : Expr.Sub e1 e := by
  induction h with
  | here e V => exact Expr.Sub.here _
  | arg hargs h ih => exact Expr.Sub.arg (by rw [hargs]; simp) ih
  | lhs hop h ih => exact Expr.Sub.lhs ih
  | rhs hop h ih => exact Expr.Sub.rhs ih
  | assigned h ih => exact Expr.Sub.rhs ih

/-- A state in which `lower` is called while the lowering of a translation unit
on its accepted store runs: the builder stands in the function of the
expression, and the module holds a function with the name and the number of
parameters of each function up to that one. -/
theorem Lowers.loweringFacts {X : Extern} {file : File} {tu : TranslationUnit} {fn : FunctionDecl}
    {e : Expr} {V : LowerToLLVMIRVisitor}
    (hd : tu.FNs.Pairwise (fun a b => file.slice a.Name ≠ file.slice b.Name))
    (h : Lowers X file (acceptedStore file tu.FNs) tu fn e V) :
    ∃ front back, tu.FNs = front ++ fn :: back ∧ fn.Contains e ∧
      V.InsertPoint = some front.length ∧ front.length < V.Module.Functions.length ∧
      V.signatures = (front ++ [fn]).map (FunctionDecl.signature file) := by
  obtain ⟨front, back, sfront, st, sback, hf, hs, hl⟩ := h
  obtain ⟨a1, a2, a3⟩ := atStmt_facts X file tu.FNs hd hf sfront
  have hext := hl.ext a1
  refine ⟨front, back, hf, ?_, hext.point.trans a1, hext.validPoint a2,
    hext.signatures_eq.trans a3⟩
  exact ⟨st, by rw [hs]; simp, hl.sub⟩

end LowerToLLVMIRVisitor

namespace AnalyzerVisitor
open Walker

/-- With no error after a function, there is none after the functions in
front of it and the function itself. -/
theorem accepted_front {file : File} {os : String} {front back : List FunctionDecl}
    {fn : FunctionDecl} (he : (atFunction file os (front ++ fn :: back)).Error = false) :
    (atFunction file os (front ++ [fn])).Error = false := by
  obtain ⟨-, -, -, -, h⟩ := accepted_function he
  rw [atFunction_append]
  exact h

/-- With no error up to the end of a function, the callee of every call in
the function has the name of a function declared so far, the function itself
or one in front of it, and the call has as many arguments as that function
has parameters. -/
theorem accepted_callee {file : File} {os : String} {front : List FunctionDecl}
    {fn : FunctionDecl} (he : (atFunction file os (front ++ [fn])).Error = false)
    {callee : Range} {args : List Expr} {range : Range}
    (hc : fn.Contains (.CallExpr callee args range)) :
    ∃ g ∈ front ++ [fn], file.slice g.Name = file.slice callee ∧
      args.length = g.Params.length := by
  have hmem : fn ∈ (⟨front ++ [fn], ⟨0, 0⟩⟩ : TranslationUnit).FNs := by simp
  obtain ⟨A1, hA1⟩ := @accepted_enters file ⟨front ++ [fn], ⟨0, 0⟩⟩ os he fn hmem _ hc
  obtain ⟨hinv, c, hcur, hsc⟩ := hA1.scope
  obtain ⟨front1, back1, sc0, T1, -, -, hw, hb, hl⟩ := hA1.facts
  have hclean := hl.clean_before he
  obtain ⟨cur, hcur2, hcases⟩ := enter_call file callee args range hinv
  rw [hcur] at hcur2
  simp only [Option.some.injEq] at hcur2
  subst hcur2
  rcases hcases with ⟨-, hx⟩ | ⟨ref, sym, -, -, -, hx⟩ | ⟨ref, sym, scope, -, -, -, -, -, hx⟩ |
    ⟨ref, sym, scope, h1, h2, h3, h4, h5, hx⟩
  · rw [hx] at hclean; cases hclean
  · rw [hx] at hclean; cases hclean
  · rw [hx] at hclean; cases hclean
  · rw [hx] at hclean
    obtain ⟨g, hg, scope2, e1, e2⟩ := hA1.function_symbol hclean hcur h1 h2 h3
    have hscope : scope2 = scope := by
      rw [e1] at h4
      simp only [Option.some.injEq] at h4
      exact h4
    subst hscope
    refine ⟨g, hg, ?_, by rw [h5, e2]⟩
    have : sym.Name = g.Name := by rw [e1]
    rw [← this]
    obtain ⟨s3, hs3, hn3⟩ := ScopeTree.lookup_some h1
    rw [h2] at hs3
    simp only [Option.some.injEq] at hs3
    rw [hs3]
    exact hn3

end AnalyzerVisitor

namespace LowerToLLVMIRVisitor
open Walker

/-- `Module::getFunction` on a module that holds a function with the name and
the number of parameters of each of the functions `l`, which have different
names: the name of one of them is found, at a function of that name with the
number of parameters of the function of `l`. -/
theorem getFunction_declared {file : File} {V : LowerToLLVMIRVisitor} {l : List FunctionDecl}
    (hs : V.signatures = l.map (FunctionDecl.signature file))
    (hd : l.Pairwise (fun a b => file.slice a.Name ≠ file.slice b.Name))
    {g : FunctionDecl} (hg : g ∈ l) :
    ∃ k f, V.Module.getFunction (file.slice g.Name) = some k ∧
      V.Module.Functions[k]? = some f ∧ f.Name = file.slice g.Name ∧
      f.NumParams = g.Params.length := by
  have hlen : V.Module.Functions.length = l.length := by
    have := congrArg List.length hs
    simpa [signatures] using this
  obtain ⟨j, hj, hjg⟩ := List.getElem_of_mem hg
  have hjl : j < V.Module.Functions.length := by rw [hlen]; exact hj
  have hsj : (V.Module.Functions[j]).Name = file.slice g.Name := by
    have := congrArg (fun s => s[j]?) hs
    simp only [signatures, List.getElem?_map] at this
    rw [List.getElem?_eq_getElem hjl, List.getElem?_eq_getElem hj, hjg] at this
    simp only [Option.map_some', Option.some.injEq, FunctionDecl.signature,
      Prod.mk.injEq] at this
    exact this.1
  have hex : ∃ f ∈ V.Module.Functions, (f.Name == file.slice g.Name) = true :=
    ⟨_, List.getElem_mem _, by rw [hsj]; simp⟩
  have hlt := List.findIdx_lt_length_of_exists hex
  have hfound := @List.findIdx_getElem _ _ _ hlt
  have hk : (V.Module.Functions.findIdx (fun f => f.Name == file.slice g.Name)) < l.length := by
    rw [← hlen]; exact hlt
  refine ⟨_, _, ?_, List.getElem?_eq_getElem hlt, by simpa using hfound, ?_⟩
  · unfold IR.Module.getFunction
    simp only [hlt, if_true]
  · have hname : (V.Module.Functions[V.Module.Functions.findIdx
        (fun f => f.Name == file.slice g.Name)]).Name = file.slice g.Name := by
      simpa using hfound
    have hsk := congrArg (fun s => s[V.Module.Functions.findIdx
        (fun f => f.Name == file.slice g.Name)]?) hs
    simp only [signatures, List.getElem?_map] at hsk
    rw [List.getElem?_eq_getElem hlt, List.getElem?_eq_getElem hk] at hsk
    simp only [Option.map_some', Option.some.injEq, FunctionDecl.signature,
      Prod.mk.injEq] at hsk
    have hsym : Symmetric (fun a b : FunctionDecl =>
        file.slice a.Name ≠ file.slice b.Name) := fun a b hab hba => hab hba.symm
    have heq : l[V.Module.Functions.findIdx (fun f => f.Name == file.slice g.Name)] = g := by
      by_contra hne
      exact hd.forall hsym (List.getElem_mem _) hg hne (hsk.1.symm.trans hname)
    rw [hsk.2, heq]

/-- C33. The lowering of a call is defined on analyzed input. On every
translation unit on which `Analyze` returns a scope, in every state in which
`lower` is called on a `CallExpr`, the module holds a function with the name
of the callee, so `Module::getFunction` returns it, also for a call of a
function in its own body, and that function has as many parameters as the
call has arguments, each of which is lowered to a value. The `call`
instruction that is emitted behind the instructions of the arguments calls
that function. -/
theorem call_lowering_defined :
    (∀ (X : Extern) (file : File) (tu : TranslationUnit) (os : String) (T : ScopeTree)
      (os1 : String), Analyze file tu os = some (some T, os1) →
      ∀ (fn : FunctionDecl) (callee : Range) (args : List Expr) (range : Range)
        (V : LowerToLLVMIRVisitor), Lowers X file T tu fn (.CallExpr callee args range) V →
        ∃ k f, V.Module.getFunction (file.slice callee) = some k ∧
          V.Module.Functions[k]? = some f ∧ f.Name = file.slice callee ∧
          f.NumParams = args.length ∧
          (lowerArgs X file T args [] V).1.length = args.length ∧
          ∃ A : List IR.Instr, (lowerArgs X file T args [] V).2.block = V.block ++ A ∧
            (lower X file T (.CallExpr callee args range) V).2.block =
              V.block ++ A ++ [.Call (some k) (lowerArgs X file T args [] V).1]) ∧
    (∃ tu T, Examples.parsed Examples.recursive = some tu ∧
      Analyze Examples.recursive tu "" = some (some T, "") ∧
      LowerToLLVMIR Examples.X0 Examples.recursive tu T =
        some ⟨⟨"mua module", "recursive.mua", [⟨[102], 1, [.Alloca [120],
          .Store (.Argument 0 0) (.Instruction 0 0), .Load (.Instruction 0 0) [120],
          .Call (some 0) [.Instruction 0 2], .Ret (.Instruction 0 3)]⟩]⟩⟩) := by
  refine ⟨?_, ⟨⟨[⟨⟨9, 10⟩, [⟨⟨11, 12⟩⟩], ⟨[.ReturnStmt (.CallExpr ⟨21, 22⟩
      [.IdentifierExpr ⟨23, 24⟩] ⟨21, 25⟩) ⟨14, 25⟩], ⟨14, 29⟩⟩, ⟨0, 29⟩⟩], ⟨0, 29⟩⟩,
    ⟨[⟨none, none, [⟨.Function, ⟨9, 10⟩, some 1⟩]⟩,
      ⟨some 0, some ⟨0, 0⟩, [⟨.Param, ⟨11, 12⟩, none⟩]⟩]⟩, rfl, by decide, by decide⟩⟩
  intro X file tu os T os1 h fn callee args range V hV
  have hd := AnalyzerVisitor.accepted_distinct h
  have hT := AnalyzerVisitor.Analyze_store h
  subst hT
  obtain ⟨he, -, -⟩ := AnalyzerVisitor.accepted h
  obtain ⟨front, back, hf, hc, hp, hk, hsig⟩ := Lowers.loweringFacts hd hV
  rw [hf] at he
  obtain ⟨g, hg, hname, hcount⟩ := AnalyzerVisitor.accepted_callee
    (AnalyzerVisitor.accepted_front he) hc
  have hd2 : (front ++ [fn]).Pairwise (fun a b => file.slice a.Name ≠ file.slice b.Name) := by
    have : (front ++ [fn]).Sublist tu.FNs := by
      rw [hf]
      exact List.Sublist.append_left (List.Sublist.cons₂ _ (List.nil_sublist _)) _
    exact hd.sublist this
  obtain ⟨k, f, a1, a2, a3, a4⟩ := getFunction_declared hsig hd2 hg
  rw [hname] at a1 a3
  have hext := (lower_ext X file (acceptedStore file tu.FNs) front.length).2 args [] V hp
  obtain ⟨A, -, hA⟩ := hext.block_append hp hk
  refine ⟨k, f, a1, a2, a3, by rw [a4, hcount], ?_, A, hA, ?_⟩
  · rw [lowerArgs_length]; simp
  · rw [lower]
    simp only [a1]
    rw [(insert_block (hext.point.trans hp) (hext.validPoint hk) _).1, hA]

end LowerToLLVMIRVisitor

namespace LowerToLLVMIRVisitor
open Walker

/-- The statements in front of a statement, then the statement. -/
theorem atStmt_snoc (X : Extern) (file : File) (T : ScopeTree) (fn : FunctionDecl)
    (sfront : List Stmt) (st : Stmt) (V : LowerToLLVMIRVisitor) :
    atStmt X file T fn (sfront ++ [st]) V =
      walkStmt (visitor X file T) st (atStmt X file T fn sfront V) := by
  unfold atStmt
  rw [List.foldl_append, List.foldl_cons, List.foldl_nil]

/-- C32. The order of evaluation of the lowering, in a state in which the
builder stands in a function of the module. For an arithmetic operator the
instructions of the left operand come behind the block, behind them the
instructions of the right operand, which is lowered in the state the left
operand leaves, and behind them the instruction of the operator on the two
values, unless the constant folder of the builder folds two constants and
nothing is emitted. For a call every argument is lowered in the state the
arguments in front of it leave, so its instructions come behind theirs, and
the `call` comes behind the instructions of all the arguments. Every statement
of a body is lowered in the state the statements in front of it leave: the
instructions of its expression come behind the block, and for a `ReturnStmt`
the `ret` behind them. At every statement of a translation unit on which
`Analyze` returns a scope the builder stands in the function of the
statement. -/
theorem evaluation_order :
    (∀ (X : Extern) (file : File) (T : ScopeTree) (op : Op) (l r : Expr) (rg : Range)
      (V : LowerToLLVMIRVisitor) (k : Nat), op ≠ .Assign → V.InsertPoint = some k →
      k < V.Module.Functions.length →
      ∃ A B C : List IR.Instr,
        (lower X file T l V).2.block = V.block ++ A ∧
        (lower X file T r (lower X file T l V).2).2.block = V.block ++ A ++ B ∧
        (lower X file T (.BinaryExpr op l r rg) V).2.block = V.block ++ A ++ B ++ C ∧
        ((C = [] ∧ ∃ a b c, (lower X file T l V).1 = .ConstantFP a ∧
            (lower X file T r (lower X file T l V).2).1 = .ConstantFP b ∧
            X.foldBinOp op a b = some c ∧
            (lower X file T (.BinaryExpr op l r rg) V).1 = .ConstantFP c) ∨
          (C = arith op (lower X file T l V).1 (lower X file T r (lower X file T l V).2).1 ∧
            C.length = 1 ∧
            (lower X file T (.BinaryExpr op l r rg) V).1 =
              .Instruction k (V.block ++ A ++ B).length))) ∧
    (∀ (X : Extern) (file : File) (T : ScopeTree) (callee : Range) (args : List Expr)
      (rg : Range) (V : LowerToLLVMIRVisitor) (k : Nat), V.InsertPoint = some k →
      k < V.Module.Functions.length →
      (∀ front a back, args = front ++ a :: back →
        (lowerArgs X file T (front ++ [a]) [] V).2 =
          (lower X file T a (lowerArgs X file T front [] V).2).2 ∧
        ∃ A : List IR.Instr,
          (lower X file T a (lowerArgs X file T front [] V).2).2.block =
            (lowerArgs X file T front [] V).2.block ++ A) ∧
      ∃ A : List IR.Instr, (lowerArgs X file T args [] V).2.block = V.block ++ A ∧
        (lower X file T (.CallExpr callee args rg) V).2.block =
          V.block ++ A ++ [.Call (V.Module.getFunction (file.slice callee))
            (lowerArgs X file T args [] V).1]) ∧
    (∀ (X : Extern) (file : File) (T : ScopeTree) (fn : FunctionDecl) (sfront : List Stmt)
      (st : Stmt) (V : LowerToLLVMIRVisitor) (k : Nat),
      (atStmt X file T fn sfront V).InsertPoint = some k →
      k < (atStmt X file T fn sfront V).Module.Functions.length →
      ∃ A : List IR.Instr,
        (lower X file T st.expr (atStmt X file T fn sfront V)).2.block =
          (atStmt X file T fn sfront V).block ++ A ∧
        (∀ e, st = .ExprStmt e →
          (atStmt X file T fn (sfront ++ [st]) V).block =
            (atStmt X file T fn sfront V).block ++ A) ∧
        (∀ v range, st = .ReturnStmt v range →
          (atStmt X file T fn (sfront ++ [st]) V).block =
            (atStmt X file T fn sfront V).block ++ A ++
              [.Ret (lower X file T v (atStmt X file T fn sfront V)).1])) ∧
    (∀ (X : Extern) (file : File) (tu : TranslationUnit) (os : String) (T : ScopeTree)
      (os1 : String), Analyze file tu os = some (some T, os1) →
      ∀ front fn back sfront, tu.FNs = front ++ fn :: back →
        (atStmt X file T fn sfront (atFunction X file T front)).InsertPoint =
          some front.length ∧
        front.length <
          (atStmt X file T fn sfront (atFunction X file T front)).Module.Functions.length) := by
  refine ⟨?_, ?_, ?_, ?_⟩
  · intro X file T op l r rg V k hop hp hk
    have h1 := (lower_ext X file T k).1 l V hp
    have hp1 := h1.point.trans hp
    have hk1 := h1.validPoint hk
    have h2 := (lower_ext X file T k).1 r _ hp1
    have hp2 := h2.point.trans hp1
    have hk2 := h2.validPoint hk1
    obtain ⟨A, -, hA⟩ := h1.block_append hp hk
    obtain ⟨B, -, hB⟩ := h2.block_append hp1 hk1
    rw [hA] at hB
    rw [lower_arith X file T hop]
    rcases createBinOp_block X hp2 hk2 hop (lower X file T l V).1
        (lower X file T r (lower X file T l V).2).1 with
      ⟨a, b, c, e1, e2, e3, e4⟩ | ⟨-, e1, e2, -⟩
    · refine ⟨A, B, [], hA, hB, ?_, Or.inl ⟨rfl, a, b, c, e1, e2, e3, ?_⟩⟩
      · rw [e4, List.append_nil]; exact hB
      · rw [e4]
    · refine ⟨A, B, _, hA, hB, ?_, Or.inr ⟨rfl, ?_, ?_⟩⟩
      · rw [e1, hB]
      · cases op with
        | Assign => exact absurd rfl hop
        | Add => rfl
        | Sub => rfl
        | Mul => rfl
        | Div => rfl
      · rw [e2, hB]
  · intro X file T callee args rg V k hp hk
    refine ⟨?_, ?_⟩
    · intro front a back _
      have h1 := (lower_ext X file T k).2 front [] V hp
      have h2 := (lower_ext X file T k).1 a _ (h1.point.trans hp)
      obtain ⟨A, -, hA⟩ := h2.block_append (h1.point.trans hp) (h1.validPoint hk)
      exact ⟨by rw [lowerArgs_snoc], A, hA⟩
    · have hext := (lower_ext X file T k).2 args [] V hp
      obtain ⟨A, -, hA⟩ := hext.block_append hp hk
      refine ⟨A, hA, ?_⟩
      rw [lower]
      rw [(insert_block (hext.point.trans hp) (hext.validPoint hk) _).1, hA]
  · intro X file T fn sfront st V k hp hk
    have h1 := (lower_ext X file T k).1 st.expr _ hp
    obtain ⟨A, -, hA⟩ := h1.block_append hp hk
    refine ⟨A, hA, ?_, ?_⟩
    · intro e he
      subst he
      rw [atStmt_snoc, walkStmt_lower]
      exact hA
    · intro v range he
      subst he
      rw [atStmt_snoc, walkStmt_lower]
      simp only
      have h3 := (insert_block (h1.point.trans hp) (h1.validPoint hk)
        (.Ret (lower X file T v (atStmt X file T fn sfront V)).1)).1
      simp only [Stmt.expr] at h3 hA
      rw [h3, hA]
  · intro X file tu os T os1 h front fn back sfront hf
    have hd := AnalyzerVisitor.accepted_distinct h
    have hT := AnalyzerVisitor.Analyze_store h
    subst hT
    obtain ⟨a1, a2, -⟩ := atStmt_facts X file tu.FNs hd hf sfront
    exact ⟨a1, a2⟩

end LowerToLLVMIRVisitor

open LowerToLLVMIRVisitor

/-- C31, on `function f(x) y = x + 1 return y end`, at the statement
`y = x + 1`: the value of the assignment is the value of `x + 1`. -/
theorem assignment_lowering_witness :
    (lower Examples.X1 Examples.implicitVar
      ⟨[⟨none, none, [⟨.Function, ⟨9, 10⟩, some 1⟩]⟩,
        ⟨some 0, some ⟨0, 0⟩, [⟨.Param, ⟨11, 12⟩, none⟩, ⟨.Var, ⟨14, 15⟩, none⟩]⟩]⟩
      (.BinaryExpr .Assign (.IdentifierExpr ⟨14, 15⟩)
        (.BinaryExpr .Add (.IdentifierExpr ⟨18, 19⟩)
          (.NumberExpr ⟨4607182418800017408⟩ ⟨22, 23⟩) ⟨18, 23⟩) ⟨14, 23⟩)
      ⟨⟨"mua module", "implicit.mua", [⟨[102], 1, [.Alloca [120],
          .Store (.Argument 0 0) (.Instruction 0 0), .Alloca [121]]⟩]⟩, some 1, some 0,
        [(⟨1, 1⟩, .Instruction 0 2), (⟨1, 0⟩, .Instruction 0 0)], false⟩).1 =
    (lower Examples.X1 Examples.implicitVar
      ⟨[⟨none, none, [⟨.Function, ⟨9, 10⟩, some 1⟩]⟩,
        ⟨some 0, some ⟨0, 0⟩, [⟨.Param, ⟨11, 12⟩, none⟩, ⟨.Var, ⟨14, 15⟩, none⟩]⟩]⟩
      (.BinaryExpr .Add (.IdentifierExpr ⟨18, 19⟩)
        (.NumberExpr ⟨4607182418800017408⟩ ⟨22, 23⟩) ⟨18, 23⟩)
      ⟨⟨"mua module", "implicit.mua", [⟨[102], 1, [.Alloca [120],
          .Store (.Argument 0 0) (.Instruction 0 0), .Alloca [121]]⟩]⟩, some 1, some 0,
        [(⟨1, 1⟩, .Instruction 0 2), (⟨1, 0⟩, .Instruction 0 0)], false⟩).1 :=
  (assignment_lowering.1 Examples.X1 Examples.implicitVar _ ⟨14, 15⟩ _ ⟨14, 23⟩ _ 0 rfl
    (by decide)).1

/-- The state of the lowering of `function f(x) y = x + 1 return y end` at
its first statement. -/
theorem implicitVar_state :
    atStmt Examples.X1 Examples.implicitVar
      ⟨[⟨none, none, [⟨.Function, ⟨9, 10⟩, some 1⟩]⟩,
        ⟨some 0, some ⟨0, 0⟩, [⟨.Param, ⟨11, 12⟩, none⟩, ⟨.Var, ⟨14, 15⟩, none⟩]⟩]⟩
      ⟨⟨9, 10⟩, [⟨⟨11, 12⟩⟩],
        ⟨[.ExprStmt (.BinaryExpr .Assign (.IdentifierExpr ⟨14, 15⟩)
            (.BinaryExpr .Add (.IdentifierExpr ⟨18, 19⟩)
              (.NumberExpr ⟨4607182418800017408⟩ ⟨22, 23⟩) ⟨18, 23⟩)
            ⟨14, 23⟩),
          .ReturnStmt (.IdentifierExpr ⟨31, 32⟩) ⟨24, 32⟩], ⟨14, 36⟩⟩, ⟨0, 36⟩⟩ []
      (atFunction Examples.X1 Examples.implicitVar
        ⟨[⟨none, none, [⟨.Function, ⟨9, 10⟩, some 1⟩]⟩,
          ⟨some 0, some ⟨0, 0⟩, [⟨.Param, ⟨11, 12⟩, none⟩, ⟨.Var, ⟨14, 15⟩, none⟩]⟩]⟩ []) =
    ⟨⟨"mua module", "implicit.mua", [⟨[102], 1, [.Alloca [120],
        .Store (.Argument 0 0) (.Instruction 0 0), .Alloca [121]]⟩]⟩, some 1, some 0,
      [(⟨1, 1⟩, .Instruction 0 2), (⟨1, 0⟩, .Instruction 0 0)], false⟩ := by
  decide

/-- C32, on `function f(x) y = x + 1 return y end`, at `x + 1`: the `load` of
`x`, no instruction for the constant, then the `fadd`. -/
theorem evaluation_order_witness :
    ∃ A B C : List IR.Instr,
      A = [.Load (.Instruction 0 0) [120]] ∧ B = [] ∧
      C = [.FAdd (.Instruction 0 3) (.ConstantFP ⟨4607182418800017408⟩)] ∧
      (lower Examples.X1 Examples.implicitVar
        ⟨[⟨none, none, [⟨.Function, ⟨9, 10⟩, some 1⟩]⟩,
          ⟨some 0, some ⟨0, 0⟩, [⟨.Param, ⟨11, 12⟩, none⟩, ⟨.Var, ⟨14, 15⟩, none⟩]⟩]⟩
        (.BinaryExpr .Add (.IdentifierExpr ⟨18, 19⟩)
          (.NumberExpr ⟨4607182418800017408⟩ ⟨22, 23⟩) ⟨18, 23⟩)
        ⟨⟨"mua module", "implicit.mua", [⟨[102], 1, [.Alloca [120],
            .Store (.Argument 0 0) (.Instruction 0 0), .Alloca [121]]⟩]⟩, some 1, some 0,
          [(⟨1, 1⟩, .Instruction 0 2), (⟨1, 0⟩, .Instruction 0 0)], false⟩).2.block =
        [.Alloca [120], .Store (.Argument 0 0) (.Instruction 0 0), .Alloca [121]]
          ++ A ++ B ++ C := by
  obtain ⟨A, B, C, h1, h2, h3, -⟩ := evaluation_order.1 Examples.X1 Examples.implicitVar
    ⟨[⟨none, none, [⟨.Function, ⟨9, 10⟩, some 1⟩]⟩,
      ⟨some 0, some ⟨0, 0⟩, [⟨.Param, ⟨11, 12⟩, none⟩, ⟨.Var, ⟨14, 15⟩, none⟩]⟩]⟩
    .Add (.IdentifierExpr ⟨18, 19⟩) (.NumberExpr ⟨4607182418800017408⟩ ⟨22, 23⟩) ⟨18, 23⟩
    ⟨⟨"mua module", "implicit.mua", [⟨[102], 1, [.Alloca [120],
        .Store (.Argument 0 0) (.Instruction 0 0), .Alloca [121]]⟩]⟩, some 1, some 0,
      [(⟨1, 1⟩, .Instruction 0 2), (⟨1, 0⟩, .Instruction 0 0)], false⟩ 0
    (by decide) rfl (by decide)
  exact ⟨_, _, _, rfl, rfl, rfl, by decide⟩

/-- C33, on `function f(x) return f(x) end`: where the call `f(x)` in the body
of `f` is lowered, the module holds the function `f`, with one parameter. -/
theorem call_lowering_defined_witness :
    ∃ k f,
      (atStmt Examples.X0 Examples.recursive
        ⟨[⟨none, none, [⟨.Function, ⟨9, 10⟩, some 1⟩]⟩,
          ⟨some 0, some ⟨0, 0⟩, [⟨.Param, ⟨11, 12⟩, none⟩]⟩]⟩
        ⟨⟨9, 10⟩, [⟨⟨11, 12⟩⟩], ⟨[.ReturnStmt (.CallExpr ⟨21, 22⟩ [.IdentifierExpr ⟨23, 24⟩]
          ⟨21, 25⟩) ⟨14, 25⟩], ⟨14, 29⟩⟩, ⟨0, 29⟩⟩ []
        (atFunction Examples.X0 Examples.recursive
          ⟨[⟨none, none, [⟨.Function, ⟨9, 10⟩, some 1⟩]⟩,
            ⟨some 0, some ⟨0, 0⟩, [⟨.Param, ⟨11, 12⟩, none⟩]⟩]⟩ [])).Module.getFunction
          (Examples.recursive.slice ⟨21, 22⟩) = some k ∧
      (atStmt Examples.X0 Examples.recursive
        ⟨[⟨none, none, [⟨.Function, ⟨9, 10⟩, some 1⟩]⟩,
          ⟨some 0, some ⟨0, 0⟩, [⟨.Param, ⟨11, 12⟩, none⟩]⟩]⟩
        ⟨⟨9, 10⟩, [⟨⟨11, 12⟩⟩], ⟨[.ReturnStmt (.CallExpr ⟨21, 22⟩ [.IdentifierExpr ⟨23, 24⟩]
          ⟨21, 25⟩) ⟨14, 25⟩], ⟨14, 29⟩⟩, ⟨0, 29⟩⟩ []
        (atFunction Examples.X0 Examples.recursive
          ⟨[⟨none, none, [⟨.Function, ⟨9, 10⟩, some 1⟩]⟩,
            ⟨some 0, some ⟨0, 0⟩, [⟨.Param, ⟨11, 12⟩, none⟩]⟩]⟩ [])).Module.Functions[k]? =
        some f ∧
      f.NumParams = [Expr.IdentifierExpr ⟨23, 24⟩].length := by
  obtain ⟨k, f, h1, h2, -, h4, -⟩ := call_lowering_defined.1 Examples.X0 Examples.recursive
    ⟨[⟨⟨9, 10⟩, [⟨⟨11, 12⟩⟩], ⟨[.ReturnStmt (.CallExpr ⟨21, 22⟩ [.IdentifierExpr ⟨23, 24⟩]
      ⟨21, 25⟩) ⟨14, 25⟩], ⟨14, 29⟩⟩, ⟨0, 29⟩⟩], ⟨0, 29⟩⟩ ""
    ⟨[⟨none, none, [⟨.Function, ⟨9, 10⟩, some 1⟩]⟩,
      ⟨some 0, some ⟨0, 0⟩, [⟨.Param, ⟨11, 12⟩, none⟩]⟩]⟩ "" (by decide)
    ⟨⟨9, 10⟩, [⟨⟨11, 12⟩⟩], ⟨[.ReturnStmt (.CallExpr ⟨21, 22⟩ [.IdentifierExpr ⟨23, 24⟩]
      ⟨21, 25⟩) ⟨14, 25⟩], ⟨14, 29⟩⟩, ⟨0, 29⟩⟩ ⟨21, 22⟩ [.IdentifierExpr ⟨23, 24⟩] ⟨21, 25⟩ _
    ⟨[], [], [], _, [], rfl, rfl, LowersExpr.here _ _⟩
  exact ⟨k, f, h1, h2, h4⟩

/-! ## The scope pointer of the analyzer -/

namespace AnalyzerVisitor
open Walker

/-- The walk of a function that goes through adds one scope to the store. -/
theorem FnWalk.store_length {file : File} {fn : FunctionDecl} {A : AnalyzerVisitor}
    {cur : ScopeId} {sc : Scope} {T1 : ScopeTree} (h : FnWalk file fn A cur sc T1)
    {A1 : AnalyzerVisitor} (hb : BodyStep file (atBody file fn A) A1) :
    A1.GlobalScope.scopes.length = A.GlobalScope.scopes.length + 1 := by
  obtain ⟨s1, s2, -, -⟩ := h.scopeIn
  have hchild : (onEnterFunctionDecl file fn A).2.GlobalScope.get? A.GlobalScope.scopes.length
      = some ⟨some cur, some ⟨cur, sc.Symbols.length⟩, []⟩ := by
    rw [s2]; exact h.declared.child rfl
  obtain ⟨padded, k1, e1, f1⟩ := h.params.locals _ _ s1 hchild
  have hcurP : (atBody file fn A).CurrentScope = some A.GlobalScope.scopes.length := by
    rw [h.params.scope, s1]
  have hP : (atBody file fn A).GlobalScope.get? A.GlobalScope.scopes.length =
      some ⟨some cur, some ⟨cur, sc.Symbols.length⟩, padded⟩ := by
    rw [e1, ScopeTree.get?_set_self _ hchild]
    simp
  obtain ⟨vadded, k2, e2⟩ := hb.locals _ _ hcurP hP
  rw [e2]
  simp only [List.length_set]
  rw [e1]
  simp only [List.length_set]
  rw [s2, h.declared.length]
  simp

/-- The scopes of the store between two functions: every scope but the global
scope is the scope of a symbol of the global scope. -/
theorem atFunction_covered (file : File) (os : String) (front : List FunctionDecl) :
    ∀ id sc, id ≠ 0 → (atFunction file os front).GlobalScope.get? id = some sc →
      ∃ sc0 sym, (atFunction file os front).GlobalScope.get? 0 = some sc0 ∧
        sym ∈ sc0.Symbols ∧ sym.TheScope = some id := by
  induction front using List.reverseRecOn with
  | nil =>
    intro id sc hid hget
    have hlt : id < 1 := ScopeTree.get?_lt hget
    exact absurd (Nat.lt_one_iff.1 hlt) hid
  | append_singleton l fn ih =>
    intro id sc hid hget
    obtain ⟨sc0, ht⟩ := topInv file os l
    rw [atFunction_append] at hget ⊢
    rcases walkFunctionDecl_cases file fn (atFunction_step file os l).inv ht.scope ht.global with
      ⟨r, sym, -, -, -, hw⟩ | ⟨T1, hw⟩
    · rw [hw] at hget ⊢
      exact ih id sc hid hget
    · obtain ⟨padded, vadded, -, -, -, g1, g2, g3, -⟩ := hw.store_inside hw.body
      have hlen := hw.store_length hw.body
      rw [hw.store] at hget ⊢
      have hlt : id < (atFunction file os l).GlobalScope.scopes.length + 1 := by
        rw [← hlen]
        exact ScopeTree.get?_lt hget
      rcases Nat.lt_or_ge id (atFunction file os l).GlobalScope.scopes.length with hj | hj
      · rw [g2 id hid hj] at hget
        obtain ⟨sc1, sym, h0, hm, hs⟩ := ih id sc hid hget
        rw [ht.global] at h0
        simp only [Option.some.injEq] at h0
        subst h0
        exact ⟨_, sym, g1, List.mem_append_left _ hm, hs⟩
      · have : id = (atFunction file os l).GlobalScope.scopes.length :=
          Nat.le_antisymm (Nat.lt_succ_iff.1 hlt) hj
        subst this
        exact ⟨_, _, g1, List.mem_append_right _ (List.mem_singleton_self _), rfl⟩

/-- The store between two functions is tidy. -/
theorem atFunction_tidy (file : File) (os : String) (front : List FunctionDecl) :
    (atFunction file os front).GlobalScope.Tidy := by
  obtain ⟨sc0, ht⟩ := topInv file os front
  refine ⟨⟨sc0, ht.global, ht.parent, ?_⟩, ?_⟩
  · intro sym hm
    obtain ⟨g, -, c, scc, e, -⟩ := ht.shape sym hm
    rw [e]
  · intro id sc hid hget
    obtain ⟨sc1, sym, h0, hm, hs⟩ := atFunction_covered file os front id sc hid hget
    rw [ht.global] at h0
    simp only [Option.some.injEq] at h0
    subst h0
    obtain ⟨g, -, c, scc, e, -, a3, a4, a5, -⟩ := ht.shape sym hm
    have hc : c = id := by
      rw [e] at hs
      simp only [Option.some.injEq] at hs
      exact hs
    subst hc
    rw [hget] at a3
    simp only [Option.some.injEq] at a3
    subst a3
    refine ⟨a4, ?_, _, sym, ht.global, hm, by rw [e], hs⟩
    intro s hsm
    have := a5 s hsm
    cases hk : s.TheKind with
    | Param => exact Or.inl rfl
    | Function => exact absurd hk this
    | Var => exact Or.inr rfl

/-- C39. The scope pointer of the analyzer. Before and after the walk of every
function of a translation unit `CurrentScope` is the global scope. Either the
function is rejected as a redefinition: `onEnter` returns `false` and leaves
the pointer on the global scope, and the walk calls no other hook. Or
`onEnter` returns `true` and sets the pointer to the scope of the function, a
scope other than the global scope whose parent is the global scope; it stays
there over the parameters and the statements, and `onExit` sets it back to
the parent. So in the store between two functions, and in the store `Analyze`
returns, every `Function` symbol is in the global scope, every other scope is
the scope of a function and has the global scope as its parent, and `Param`
and `Var` symbols are in the scopes of functions only. -/
theorem scope_discipline :
    (∀ (file : File) (os : String) (front : List FunctionDecl) (fn : FunctionDecl),
      (atFunction file os front).CurrentScope = some 0 ∧
      (walkFunctionDecl (visitor file) fn (atFunction file os front)).CurrentScope = some 0 ∧
      (((onEnterFunctionDecl file fn (atFunction file os front)).1 = false ∧
          (onEnterFunctionDecl file fn (atFunction file os front)).2.CurrentScope = some 0 ∧
          walkFunctionDecl (visitor file) fn (atFunction file os front) =
            (onEnterFunctionDecl file fn (atFunction file os front)).2) ∨
        ((onEnterFunctionDecl file fn (atFunction file os front)).1 = true ∧
          ∃ c scc, c ≠ 0 ∧
            (onEnterFunctionDecl file fn (atFunction file os front)).2.CurrentScope = some c ∧
            (∀ pfront, (atParam file fn pfront (atFunction file os front)).CurrentScope =
              some c) ∧
            (∀ sfront, (atStmt file sfront
              (atBody file fn (atFunction file os front))).CurrentScope = some c) ∧
            (atStmt file fn.Body.Stmts
              (atBody file fn (atFunction file os front))).GlobalScope.get? c = some scc ∧
            scc.Parent = some 0 ∧
            walkFunctionDecl (visitor file) fn (atFunction file os front) =
              onExitFunctionDecl file fn
                (atStmt file fn.Body.Stmts (atBody file fn (atFunction file os front)))))) ∧
    (∀ (file : File) (os : String) (fns : List FunctionDecl),
      (atFunction file os fns).GlobalScope.Tidy) ∧
    (∀ (file : File) (tu : TranslationUnit) (os : String) (T : ScopeTree) (os1 : String),
      Analyze file tu os = some (some T, os1) → T.Tidy) := by
  refine ⟨?_, atFunction_tidy, ?_⟩
  · intro file os front fn
    obtain ⟨sc0, ht⟩ := topInv file os front
    obtain ⟨sc1, ht1⟩ := topInv file os (front ++ [fn])
    rw [atFunction_append] at ht1
    refine ⟨ht.scope, ht1.scope, ?_⟩
    have hinv := (atFunction_step file os front).inv
    rcases walkFunctionDecl_cases file fn hinv ht.scope ht.global with
      ⟨r, sym, -, -, h3, hw⟩ | ⟨T1, hw⟩
    · left
      rcases onEnterFunctionDecl_cases file fn hinv ht.scope with
        ⟨r2, sym2, -, -, he⟩ | ⟨sc2, T2, -, he⟩
      · refine ⟨h3, ?_, ?_⟩
        · rw [he]; exact ht.scope
        · rw [walkFunctionDecl_eq, he]
          simp
      · rw [he] at h3
        cases h3
    · right
      obtain ⟨s1, s2, -, -⟩ := hw.scopeIn
      have hlen : 0 < (atFunction file os front).GlobalScope.scopes.length :=
        ScopeTree.get?_lt hw.declared.scope
      obtain ⟨hce, scc, hg, hp⟩ := hw.child_at_end
      refine ⟨by rw [hw.entered], _, scc, Nat.ne_of_gt hlen, s1, ?_, ?_, hg, hp, hw.walk⟩
      · intro pfront
        exact (atParam_facts hw pfront).2.1
      · intro sfront
        have hb := atStmt_step file sfront hw.params.inv
        rw [hb.scope, hw.params.scope, s1]
  · intro file tu os T os1 h
    obtain ⟨-, hT, -⟩ := accepted h
    rw [hT]
    exact atFunction_tidy file os tu.FNs

end AnalyzerVisitor

/-! ## Calls of functions declared further down -/

namespace AnalyzerVisitor
open Walker

theorem EntersAt.enters {file : File} {tu : TranslationUnit} {os : String}
    {front : List FunctionDecl} {fn : FunctionDecl} {back : List FunctionDecl} {e : Expr}
    {A : AnalyzerVisitor} (h : EntersAt file os front fn e A)
    (hf : tu.FNs = front ++ fn :: back) : Enters file tu os fn e A := by
  obtain ⟨sfront, st, sback, h1, h2, h3⟩ := h
  exact ⟨front, back, sfront, st, sback, hf, h1, h2, h3⟩

/-- Where the hook of an expression of a function is called, the walk has
gone into the function from the global scope and the state is a stretch of the
walk inside the body away from the start of the body. -/
theorem EntersAt.walk_facts {file : File} {os : String} {front : List FunctionDecl}
    {fn : FunctionDecl} {e : Expr} {A : AnalyzerVisitor}
    (h : EntersAt file os front fn e A) :
    ∃ sc0 T1, TopInv file front (atFunction file os front) sc0 ∧
      FnWalk file fn (atFunction file os front) 0 sc0 T1 ∧
      BodyStep file (atBody file fn (atFunction file os front)) A := by
  obtain ⟨sfront, st, sback, h2, h3, h4⟩ := h
  obtain ⟨sc0, htop⟩ := topInv file os front
  have h0 := atFunction_step file os front
  rcases walkFunctionDecl_cases file fn h0.inv htop.scope htop.global with
    ⟨r, sym, -, -, hf, -⟩ | ⟨T1, hw⟩
  · rw [hf] at h3
    cases h3
  · refine ⟨sc0, T1, htop, hw, ?_⟩
    have hs := atStmt_step file sfront hw.params.inv
    exact hs.transBody (h4.steps hs.inv).1

/-- Where the hook of an expression of a function is called, a name resolves
from the current scope to a parameter or a variable of the function, or to
the `Function` symbol of a function declared so far: the function itself or
one in front of it. -/
theorem EntersAt.resolves {file : File} {os : String} {front : List FunctionDecl}
    {fn : FunctionDecl} {e : Expr} {A : AnalyzerVisitor}
    (h : EntersAt file os front fn e A) {c : ScopeId} (hcur : A.CurrentScope = some c)
    {name : Range} {ref : SymbolRef} {sym : Symbol}
    (hl : A.GlobalScope.lookup file c name = some ref)
    (hs : A.GlobalScope.symbol? ref = some sym) :
    (∃ scc, A.GlobalScope.get? c = some scc ∧ sym ∈ scc.Symbols ∧
      (sym.TheKind = .Param ∨ sym.TheKind = .Var)) ∨
    (sym.TheKind = .Function ∧ ∃ g ∈ front ++ [fn], sym.Name = g.Name) := by
  obtain ⟨sc0, T1, htop, hw, hb⟩ := h.walk_facts
  obtain ⟨padded, vadded, k1, k2, -, g1, -, g3, g4⟩ := hw.store_inside hb
  rw [hcur] at g4
  simp only [Option.some.injEq] at g4
  subst g4
  rcases ScopeTree.lookup_two_level g3 rfl g1 htop.parent hl hs with hm | hm
  · left
    refine ⟨_, g3, hm, ?_⟩
    simp only at hm
    rcases List.mem_append.1 hm with hm | hm
    · exact Or.inl (k1 sym hm).1
    · exact Or.inr (k2 sym hm).1
  · right
    simp only at hm
    rcases List.mem_append.1 hm with hm | hm
    · obtain ⟨g, hg, cg, scg, a1, -⟩ := htop.shape sym hm
      rw [a1]
      exact ⟨rfl, g, List.mem_append_left _ hg, rfl⟩
    · rw [List.mem_singleton.1 hm]
      exact ⟨rfl, fn, List.mem_append_right _ (List.mem_singleton_self _), rfl⟩

/-- Where the hook of an expression of a function is called, the name of the
function resolves from the current scope to the `Function` symbol of the
function, and with no error so far the scope of that symbol holds one `Param`
symbol for each parameter of the function. -/
theorem EntersAt.self_symbol {file : File} {os : String} {front : List FunctionDecl}
    {fn : FunctionDecl} {e : Expr} {A : AnalyzerVisitor}
    (h : EntersAt file os front fn e A) {name : Range}
    (hn : file.slice name = file.slice fn.Name) :
    ∃ c ref, A.CurrentScope = some c ∧ A.GlobalScope.lookup file c name = some ref ∧
      A.GlobalScope.symbol? ref = some ⟨.Function, fn.Name, some c⟩ ∧
      (A.Error = false →
        (A.GlobalScope.getSymbols c (some .Param)).length = fn.Params.length) := by
  obtain ⟨sc0, T1, htop, hw, hb⟩ := h.walk_facts
  obtain ⟨padded, vadded, k1, k2, f1, g1, -, g3, g4⟩ := hw.store_inside hb
  obtain ⟨s1, s2, -, -⟩ := hw.scopeIn
  have hfresh : ScopeTree.find file sc0 fn.Name = none :=
    ScopeTree.lookup_none_find hw.declared.fresh hw.declared.scope
  have hlen : 0 < (atFunction file os front).GlobalScope.scopes.length :=
    ScopeTree.get?_lt hw.declared.scope
  have hT1len : T1.scopes.length =
      ((atFunction file os front).GlobalScope.scopes.length - 1 + 1) + 1 := by
    rw [hw.declared.length]
    simp only [if_true]
    omega
  have hlook1 : T1.lookup file (atFunction file os front).GlobalScope.scopes.length name =
      some ⟨0, sc0.Symbols.length⟩ := by
    rw [ScopeTree.lookup_succ, hw.declared.child rfl]
    simp only
    have hf0 : ScopeTree.find file ⟨some 0, some ⟨0, sc0.Symbols.length⟩, []⟩ name = none := by
      rw [ScopeTree.find_eq_none]
      intro s hs
      simp at hs
    rw [hf0]
    simp only
    rw [hT1len, ScopeTree.lookupFrom_succ, hw.declared.here]
    simp only
    rw [ScopeTree.find_congr _ hn,
      @ScopeTree.find_append_new file sc0 fn.Name
        ((atFunction file os front).GlobalScope.newSymbol .Function fn.Name) hfresh rfl]
  have hgrow : T1.Grows file A.GlobalScope := by
    have h1 := hw.params.grows
    rw [s2] at h1
    exact h1.transGrows hb.grows
  have hlookA := hgrow.lookup _ _ _ hlook1
  have hsymA : A.GlobalScope.symbol? ⟨0, sc0.Symbols.length⟩ =
      some ⟨.Function, fn.Name, some (atFunction file os front).GlobalScope.scopes.length⟩ := by
    unfold ScopeTree.symbol?
    simp only
    rw [g1]
    simp
  refine ⟨_, _, g4, hlookA, hsymA, ?_⟩
  intro he
  have hP := hb.toStep.error_false he
  rw [ScopeTree.getSymbols_length g3]
  simp only
  rw [filter_param_append k1 k2, f1 hP, List.length_map]

end AnalyzerVisitor

namespace AnalyzerVisitor
open Walker

/-- C40 (what the code does on calls of functions declared further down). In
`function f() return h(g()) end function g() return 0 end` the body of `f`
calls `g`, which is declared behind `f` and nowhere else; `Analyze` returns
none and all it writes is `use of undeclared function h`: the walk does not go
into the arguments of the rejected call of `h`, and nothing is written about
`g`. In `function f(g) return g() end function g() return 0 end` the callee
resolves to the parameter of `f`, and what `Analyze` writes is
`called object g is not a function` with its note. In
`function f(x, x) return f(0, 0) end` the call of `f` in its own body has as
many arguments as `f` has parameters, and `Analyze` writes
`call to function f with incorrect number of arguments` behind the
redefinition of the parameter. -/
theorem forward_call_not_reported :
    (∃ tu f g, Examples.parsed Examples.forwardInside = some tu ∧ tu.FNs = [f, g] ∧
      f.Contains (.CallExpr ⟨22, 23⟩ [] ⟨22, 25⟩) ∧
      Examples.forwardInside.slice ⟨22, 23⟩ = Examples.forwardInside.slice g.Name ∧
      Examples.forwardInside.slice ⟨22, 23⟩ ≠ Examples.forwardInside.slice f.Name ∧
      Analyze Examples.forwardInside tu "" = some (none,
        errorText Examples.forwardInside ⟨20, 26⟩ "use of undeclared function h")) ∧
    (∃ tu f g, Examples.parsed Examples.forwardShadowed = some tu ∧ tu.FNs = [f, g] ∧
      f.Contains (.CallExpr ⟨21, 22⟩ [] ⟨21, 24⟩) ∧
      Examples.forwardShadowed.slice ⟨21, 22⟩ = Examples.forwardShadowed.slice g.Name ∧
      Examples.forwardShadowed.slice ⟨21, 22⟩ ≠ Examples.forwardShadowed.slice f.Name ∧
      Analyze Examples.forwardShadowed tu "" = some (none,
        errorText Examples.forwardShadowed ⟨21, 24⟩ "called object g is not a function"
        ++ noteText Examples.forwardShadowed ⟨11, 12⟩ "previous definition is here")) ∧
    (∃ tu f, Examples.parsed Examples.recursiveTwice = some tu ∧ tu.FNs = [f] ∧
      f.Contains (.CallExpr ⟨24, 25⟩ [.NumberExpr ⟨0⟩ ⟨26, 27⟩, .NumberExpr ⟨0⟩ ⟨29, 30⟩]
        ⟨24, 31⟩) ∧
      Examples.recursiveTwice.slice ⟨24, 25⟩ = Examples.recursiveTwice.slice f.Name ∧
      f.Params.length = 2 ∧
      Analyze Examples.recursiveTwice tu "" = some (none,
        errorText Examples.recursiveTwice ⟨14, 15⟩ "redefinition of parameter x"
        ++ noteText Examples.recursiveTwice ⟨11, 12⟩ "previous definition is here"
        ++ errorText Examples.recursiveTwice ⟨24, 31⟩
          "call to function f with incorrect number of arguments")) :=
  ⟨⟨_, _, _, rfl, rfl,
      ⟨_, List.mem_cons_self _ _, Expr.Sub.arg (List.mem_cons_self _ _) (Expr.Sub.here _)⟩,
      by decide, by decide, by decide⟩,
    ⟨_, _, _, rfl, rfl, ⟨_, List.mem_cons_self _ _, Expr.Sub.here _⟩,
      by decide, by decide, by decide⟩,
    ⟨_, _, rfl, rfl, ⟨_, List.mem_cons_self _ _, Expr.Sub.here _⟩, by decide, rfl, by decide⟩⟩

/-- C40. No forward references to functions. In a translation unit in which
the body of a function `F` holds a call whose callee has the name of no
function declared so far, neither `F` nor a function in front of it, `Analyze`
returns none and writes an `error:` diagnostic. Where the walk calls the hook
of that call, the callee resolves to nothing and the diagnostic
`use of undeclared function G` is written at the range of the call, or it
resolves to a parameter or a variable of `F` and the diagnostic
`called object G is not a function` is written with a note at that symbol. A
call in the body of a function to the function itself, with as many arguments
as the function has parameters, is accepted by its hook, with no change of the
state, where the walk calls the hook with no error so far. So it is on
`function f() return g() end function g() return 0 end`, on which
`use of undeclared function g` is written, and on
`function f(x) return f(x) end`, which is accepted. -/
theorem forward_reference :
    (∀ (file : File) (tu : TranslationUnit) (os : String) (front : List FunctionDecl)
      (fn : FunctionDecl) (back : List FunctionDecl) (callee : Range) (args : List Expr)
      (range : Range),
      tu.FNs = front ++ fn :: back → fn.Contains (.CallExpr callee args range) →
      (∀ g ∈ front ++ [fn], file.slice g.Name ≠ file.slice callee) →
      ∃ rest, Analyze file tu os = some (none, os ++ ("error: " ++ rest))) ∧
    (∀ (file : File) (tu : TranslationUnit) (os : String) (front : List FunctionDecl)
      (fn : FunctionDecl) (back : List FunctionDecl) (callee : Range) (args : List Expr)
      (range : Range) (A : AnalyzerVisitor),
      tu.FNs = front ++ fn :: back →
      EntersAt file os front fn (.CallExpr callee args range) A →
      (∀ g ∈ front ++ [fn], file.slice g.Name ≠ file.slice callee) →
      ∃ c, A.CurrentScope = some c ∧
        ((A.GlobalScope.lookup file c callee = none ∧
            ∃ rest, Analyze file tu os = some (none, A.OS ++
              errorText file range ("use of undeclared function " ++ text file callee)
              ++ rest)) ∨
          (∃ ref sym scc, A.GlobalScope.lookup file c callee = some ref ∧
            A.GlobalScope.symbol? ref = some sym ∧ A.GlobalScope.get? c = some scc ∧
            sym ∈ scc.Symbols ∧ (sym.TheKind = .Param ∨ sym.TheKind = .Var) ∧
            ∃ rest, Analyze file tu os = some (none, A.OS ++
              (errorText file range
                ("called object " ++ text file callee ++ " is not a function")
                ++ noteText file sym.Name "previous definition is here")
              ++ rest)))) ∧
    (∀ (file : File) (os : String) (front : List FunctionDecl) (fn : FunctionDecl)
      (callee : Range) (args : List Expr) (range : Range) (A : AnalyzerVisitor),
      EntersAt file os front fn (.CallExpr callee args range) A → A.Error = false →
      file.slice callee = file.slice fn.Name → args.length = fn.Params.length →
      enter file (.CallExpr callee args range) A = (true, A)) ∧
    (∃ tu, Examples.parsed Examples.forwardCall = some tu ∧
      Analyze Examples.forwardCall tu "" = some (none,
        errorText Examples.forwardCall ⟨20, 23⟩ "use of undeclared function g")) ∧
    (∃ tu T, Examples.parsed Examples.recursive = some tu ∧
      Analyze Examples.recursive tu "" = some (some T, "")) := by
  refine ⟨?_, ?_, ?_, ⟨_, rfl, by decide⟩,
    ⟨_, ⟨[⟨none, none, [⟨.Function, ⟨9, 10⟩, some 1⟩]⟩,
      ⟨some 0, some ⟨0, 0⟩, [⟨.Param, ⟨11, 12⟩, none⟩]⟩]⟩, rfl, by decide⟩⟩
  · intro file tu os front fn back callee args range hf hc hno
    have hstep := atFunction_step file os tu.FNs
    obtain ⟨out, h1, h2, h3⟩ := hstep.wrote
    cases he : (atFunction file os tu.FNs).Error with
    | true =>
      obtain ⟨rest, hr⟩ := h3 rfl he
      refine ⟨rest, ?_⟩
      rw [Analyze_total, h1, hr]
      unfold takeGlobalScope
      rw [he]
      rfl
    | false =>
      exfalso
      rw [hf] at he
      obtain ⟨g, hg, hn, -⟩ := accepted_callee (accepted_front he) hc
      exact hno g hg hn
  · intro file tu os front fn back callee args range A hf hA hno
    have hE := hA.enters hf
    obtain ⟨hinv, c, hcur, hsc⟩ := hE.scope
    obtain ⟨front1, back1, sc0, T1, -, -, hw, hb, hl⟩ := hE.facts
    obtain ⟨cur, hcur2, hcases⟩ := enter_call file callee args range hinv
    rw [hcur] at hcur2
    simp only [Option.some.injEq] at hcur2
    subst hcur2
    have hkind : ∀ ref sym, A.GlobalScope.lookup file c callee = some ref →
        A.GlobalScope.symbol? ref = some sym →
        ∃ scc, A.GlobalScope.get? c = some scc ∧ sym ∈ scc.Symbols ∧
          (sym.TheKind = .Param ∨ sym.TheKind = .Var) := by
      intro ref sym h1 h2
      rcases hA.resolves hcur h1 h2 with h | ⟨-, g, hg, hn⟩
      · exact h
      · exfalso
        obtain ⟨s3, hs3, hn3⟩ := ScopeTree.lookup_some h1
        rw [h2] at hs3
        simp only [Option.some.injEq] at hs3
        subst hs3
        rw [hn] at hn3
        exact hno g hg hn3
    refine ⟨c, hcur, ?_⟩
    rcases hcases with ⟨h1, hx⟩ | ⟨ref, sym, h1, h2, -, hx⟩ |
      ⟨ref, sym, scope, h1, h2, h3, -, -, -⟩ | ⟨ref, sym, scope, h1, h2, h3, -, -, -⟩
    · left
      rw [hx] at hl
      obtain ⟨rest, hr⟩ := hl.analyze_none rfl
      exact ⟨h1, rest, by rw [hr, error_OS_text]⟩
    · right
      obtain ⟨scc, k1, k2, k3⟩ := hkind ref sym h1 h2
      rw [hx] at hl
      obtain ⟨rest, hr⟩ := hl.analyze_none rfl
      exact ⟨ref, sym, scc, h1, h2, k1, k2, k3, rest, by rw [hr, error_note_OS_text]⟩
    · exfalso
      obtain ⟨scc, -, -, k3⟩ := hkind ref sym h1 h2
      rw [h3] at k3
      rcases k3 with k3 | k3 <;> cases k3
    · exfalso
      obtain ⟨scc, -, -, k3⟩ := hkind ref sym h1 h2
      rw [h3] at k3
      rcases k3 with k3 | k3 <;> cases k3
  · intro file os front fn callee args range A hA he hn hlen
    have hE : Enters file ⟨front ++ [fn], ⟨0, 0⟩⟩ os fn (.CallExpr callee args range) A :=
      @EntersAt.enters file ⟨front ++ [fn], ⟨0, 0⟩⟩ os front fn [] _ A hA rfl
    obtain ⟨hinv, -⟩ := hE.scope
    obtain ⟨c, ref, hcur, hlook, hsym, hcount⟩ := hA.self_symbol hn
    obtain ⟨cur, hcur2, hcases⟩ := enter_call file callee args range hinv
    rw [hcur] at hcur2
    simp only [Option.some.injEq] at hcur2
    subst hcur2
    rcases hcases with ⟨h1, -⟩ | ⟨ref2, sym2, h1, h2, h3, -⟩ |
      ⟨ref2, sym2, scope, h1, h2, -, h4, h5, -⟩ | ⟨ref2, sym2, scope, -, -, -, -, -, hx⟩
    · rw [hlook] at h1
      cases h1
    · rw [hlook] at h1
      simp only [Option.some.injEq] at h1
      subst h1
      rw [hsym] at h2
      simp only [Option.some.injEq] at h2
      subst h2
      exact absurd rfl h3
    · rw [hlook] at h1
      simp only [Option.some.injEq] at h1
      subst h1
      rw [hsym] at h2
      simp only [Option.some.injEq] at h2
      subst h2
      simp only [Option.some.injEq] at h4
      subst h4
      rw [hcount he] at h5
      exact absurd hlen h5
    · exact hx

end AnalyzerVisitor

/-- C40, on `function f() return g() end function g() return 0 end`: the
callee of the call in `f` has the name of neither `f` nor a function in front
of it, and `Analyze` returns none with an `error:` diagnostic. -/
theorem forward_reference_witness :
    ∃ rest, Analyze Examples.forwardCall
      ⟨[⟨⟨9, 10⟩, [], ⟨[.ReturnStmt (.CallExpr ⟨20, 21⟩ [] ⟨20, 23⟩) ⟨13, 23⟩], ⟨13, 27⟩⟩,
          ⟨0, 27⟩⟩,
        ⟨⟨37, 38⟩, [], ⟨[.ReturnStmt (.NumberExpr ⟨0⟩ ⟨48, 49⟩) ⟨41, 49⟩], ⟨41, 53⟩⟩,
          ⟨28, 53⟩⟩], ⟨0, 53⟩⟩ "" = some (none, "" ++ ("error: " ++ rest)) :=
  AnalyzerVisitor.forward_reference.1 Examples.forwardCall
    ⟨[⟨⟨9, 10⟩, [], ⟨[.ReturnStmt (.CallExpr ⟨20, 21⟩ [] ⟨20, 23⟩) ⟨13, 23⟩], ⟨13, 27⟩⟩,
        ⟨0, 27⟩⟩,
      ⟨⟨37, 38⟩, [], ⟨[.ReturnStmt (.NumberExpr ⟨0⟩ ⟨48, 49⟩) ⟨41, 49⟩], ⟨41, 53⟩⟩,
        ⟨28, 53⟩⟩], ⟨0, 53⟩⟩ "" []
    ⟨⟨9, 10⟩, [], ⟨[.ReturnStmt (.CallExpr ⟨20, 21⟩ [] ⟨20, 23⟩) ⟨13, 23⟩], ⟨13, 27⟩⟩, ⟨0, 27⟩⟩
    [⟨⟨37, 38⟩, [], ⟨[.ReturnStmt (.NumberExpr ⟨0⟩ ⟨48, 49⟩) ⟨41, 49⟩], ⟨41, 53⟩⟩, ⟨28, 53⟩⟩]
    ⟨20, 21⟩ [] ⟨20, 23⟩ rfl ⟨_, List.mem_cons_self _ _, Expr.Sub.here _⟩
    (by
      intro g hg
      rw [List.nil_append, List.mem_singleton] at hg
      subst hg
      decide)

/-- C39, on `function f(x) return f(x) end`: the store that `Analyze` returns
has the `Function` symbol in the global scope and the parameter in the scope
of the function, whose parent is the global scope. -/
theorem scope_discipline_witness :
    ScopeTree.Tidy ⟨[⟨none, none, [⟨.Function, ⟨9, 10⟩, some 1⟩]⟩,
      ⟨some 0, some ⟨0, 0⟩, [⟨.Param, ⟨11, 12⟩, none⟩]⟩]⟩ :=
  AnalyzerVisitor.scope_discipline.2.2 Examples.recursive
    ⟨[⟨⟨9, 10⟩, [⟨⟨11, 12⟩⟩], ⟨[.ReturnStmt (.CallExpr ⟨21, 22⟩ [.IdentifierExpr ⟨23, 24⟩]
      ⟨21, 25⟩) ⟨14, 25⟩], ⟨14, 29⟩⟩, ⟨0, 29⟩⟩], ⟨0, 29⟩⟩ ""
    ⟨[⟨none, none, [⟨.Function, ⟨9, 10⟩, some 1⟩]⟩,
      ⟨some 0, some ⟨0, 0⟩, [⟨.Param, ⟨11, 12⟩, none⟩]⟩]⟩ "" (by decide)

/-! ## The parser accepts what the grammar derives -/

/-! ## Completeness of the parser -/

namespace Lexer

theorem Reads.split {X : Extern} {L L2 : Lexer} {ts us : List Token}
    (h : Reads X L (ts ++ us) L2) : ∃ L1, Reads X L ts L1 ∧ Reads X L1 us L2 := by
  induction ts generalizing L with
  | nil => exact ⟨L, rfl, h⟩
  | cons t ts ih =>
    obtain ⟨a, b, c, d⟩ := h
    obtain ⟨L1, h1, h2⟩ := ih d
    exact ⟨L1, ⟨a, b, c, h1⟩, h2⟩

theorem Reads.nilReads (X : Extern) (L : Lexer) : Reads X L [] L := rfl

theorem Reads.eq_of_nil {X : Extern} {L L1 : Lexer} (h : Reads X L [] L1) : L1 = L := h

theorem Reads.uncons {X : Extern} {L L1 : Lexer} {t : Token} {ts : List Token}
    (h : Reads X L (t :: ts) L1) :
    L.CurrentToken = t ∧ t ≠ Token.EndOfFile ∧
      (t = Token.Number → (X.getAsDouble (L.File.slice L.Range)).isSome = true) ∧
      Reads X L.next ts L1 := h

theorem Reads.current {X : Extern} {L L1 : Lexer} {t : Token} {ts : List Token}
    (h : Reads X L (t :: ts) L1) : L.CurrentToken = t := h.1

theorem Reads.toSpan {X : Extern} {L L1 : Lexer} {ts : List Token} (h : Reads X L ts L1) :
    Span L ts L1 := by
  induction ts generalizing L with
  | nil => exact h
  | cons t ts ih =>
    obtain ⟨a, b, -, d⟩ := h
    exact ⟨a, b, ih d⟩

theorem measure_zero {L : Lexer} (h : L.measure ≤ 0) : L.CurrentToken = Token.EndOfFile := by
  unfold measure at h
  by_contra hne
  rw [if_neg hne] at h
  omega

/-- With every `Number` lexeme converting, the tokens up to the end of the
file are read. -/
theorem reads_tokens (X : Extern) : ∀ (fuel : Nat) (L : Lexer), L.measure ≤ fuel →
    (∀ r ∈ numbers fuel L, (X.getAsDouble (L.File.slice r)).isSome = true) →
    ∀ ts, tokens fuel L = ts → ∃ L1, Reads X L ts L1 ∧ L1.CurrentToken = Token.EndOfFile := by
  intro fuel
  induction fuel with
  | zero =>
    intro L hm _ ts hts
    subst hts
    exact ⟨L, rfl, measure_zero hm⟩
  | succ n ih =>
    intro L hm hn ts hts
    subst hts
    by_cases he : L.CurrentToken = Token.EndOfFile
    · rw [tokens, if_pos he]
      exact ⟨L, rfl, he⟩
    · rw [tokens, if_neg he]
      have hlt := measure_next_lt L he
      rw [numbers, if_neg he] at hn
      have hn1 : ∀ r ∈ numbers n L.next,
          (X.getAsDouble (L.next.File.slice r)).isSome = true := by
        intro r hr
        rw [next_file]
        apply hn
        split
        · exact List.mem_cons_of_mem _ hr
        · exact hr
      obtain ⟨L1, h1, h2⟩ := ih L.next (by omega) hn1 _ rfl
      refine ⟨L1, ⟨rfl, he, ?_, h1⟩, h2⟩
      intro hnum
      apply hn
      rw [if_pos hnum]
      exact List.mem_cons_self _ _

end Lexer

theorem Result.Accepts.bindAccepts {α β : Type} {okP : α → Parser → Prop}
    {okQ : β → Parser → Prop} {r : Result α} {f : α → Parser → Result β}
    (h : Result.Accepts okP r) (hf : ∀ a P, okP a P → Result.Accepts okQ (f a P)) :
    Result.Accepts okQ (r.bind f) := by
  cases h with
  | ok h => exact hf _ _ h
  | outOfFuel => exact .outOfFuel

theorem Result.Accepts.monoAccepts {α : Type} {okP okQ : α → Parser → Prop} {r : Result α}
    (h : Result.Accepts okP r) (hf : ∀ a P, okP a P → okQ a P) : Result.Accepts okQ r := by
  cases h with
  | ok h => exact .ok (hf _ _ h)
  | outOfFuel => exact .outOfFuel

namespace Grammar

theorem FlatTail.appendFlat {tc : Bool} {ts us : List Token} (h : FlatTail tc ts)
    (hu : FlatTail tc us) : FlatTail tc (ts ++ us) := by
  induction h with
  | nil => exact hu
  | cons hq hp _ ih =>
    rw [List.cons_append, List.append_assoc]
    exact .cons hq hp ih

/-- A binary expression is a primary expression and a sequence of operators
with primary expressions. -/
theorem flat_of_binary (tc : Bool) : ∀ n : Nat,
    (∀ p ts, ts.length ≤ n → BinaryExpr tc p ts →
      ∃ primary tail, ts = primary ++ tail ∧ PrimaryExpr tc primary ∧ FlatTail tc tail) ∧
    (∀ p ts, ts.length ≤ n → BinaryTail tc p ts → FlatTail tc ts) := by
  intro n
  induction n with
  | zero =>
    have hB : ∀ p ts, ts.length ≤ 0 → BinaryTail tc p ts → FlatTail tc ts := by
      intro p ts hl h
      cases h with
      | nil => exact .nil
      | cons hq hp h hr => simp at hl
    refine ⟨?_, hB⟩
    intro p ts hl h
    cases h with
    | mk hp ht =>
      rw [List.length_append] at hl
      exact ⟨_, _, rfl, hp, hB _ _ (by omega) ht⟩
  | succ n ih =>
    obtain ⟨ihA, ihB⟩ := ih
    have hB : ∀ p ts, ts.length ≤ n + 1 → BinaryTail tc p ts → FlatTail tc ts := by
      intro p ts hl h
      cases h with
      | nil => exact .nil
      | cons hq hp h hr =>
        rw [List.length_cons, List.length_append] at hl
        obtain ⟨primary, tail, he, h1, h2⟩ := ihA _ _ (by omega) h
        have h3 := ihB _ _ (by omega) hr
        rw [he, List.append_assoc]
        exact .cons hq h1 (h2.appendFlat h3)
    refine ⟨?_, hB⟩
    intro p ts hl h
    cases h with
    | mk hp ht =>
      rw [List.length_append] at hl
      exact ⟨_, _, rfl, hp, hB _ _ (by omega) ht⟩

theorem BinaryExpr.flat {tc : Bool} {p : Int} {ts : List Token} (h : BinaryExpr tc p ts) :
    ∃ primary tail, ts = primary ++ tail ∧ PrimaryExpr tc primary ∧ FlatTail tc tail :=
  (flat_of_binary tc ts.length).1 p ts le_rfl h

theorem PrimaryExpr.primaryHead {tc : Bool} {ts : List Token} (h : PrimaryExpr tc ts) :
    ∃ t rest, ts = t :: rest ∧ (t = Token.Number ∨ t = Token.Identifier) := by
  cases h with
  | number => exact ⟨_, _, rfl, Or.inl rfl⟩
  | identifier => exact ⟨_, _, rfl, Or.inr rfl⟩
  | callEmpty => exact ⟨_, _, rfl, Or.inr rfl⟩
  | call h => exact ⟨_, _, rfl, Or.inr rfl⟩

theorem BinaryExpr.binaryHead {tc : Bool} {p : Int} {ts : List Token} (h : BinaryExpr tc p ts) :
    ∃ t rest, ts = t :: rest ∧ (t = Token.Number ∨ t = Token.Identifier) := by
  cases h with
  | mk hp ht =>
    obtain ⟨t, rest, he, ht⟩ := hp.primaryHead
    exact ⟨t, rest ++ _, by rw [he, List.cons_append], ht⟩

theorem prec_nonneg {op : Token} {q : Int} (h : prec op = some q) : 0 ≤ q := by
  cases op <;> simp [prec] at h <;> omega

theorem Create_of_prec {op : Token} {q : Int} (h : prec op = some q) :
    ∃ bop, BinaryExprOp.Create op = some bop ∧ bop.getPrecedence = q := by
  cases op <;> simp [prec] at h <;> subst h
  · exact ⟨.Assign, rfl, rfl⟩
  · exact ⟨.Add, rfl, rfl⟩
  · exact ⟨.Sub, rfl, rfl⟩
  · exact ⟨.Mul, rfl, rfl⟩
  · exact ⟨.Div, rfl, rfl⟩

theorem prec_ne_lparen {op : Token} {q : Int} (h : prec op = some q) : op ≠ Token.LParen := by
  intro he
  subst he
  simp [prec] at h

end Grammar

namespace Parser

theorem Rest.zero {X : Extern} {tc : Bool} {L L1 : Lexer} (h : Rest X tc 0 L L1) : L = L1 := by
  obtain ⟨ts, hr, -, h0 | ⟨op, rest, q, -, hq, hlt⟩⟩ := h
  · subst h0
    exact hr.symm
  · have := Grammar.prec_nonneg hq
    omega

theorem parsePrimaryExpr_number (X : Extern) (fuel : Nat) (ctx : String) (P : Parser)
    (h : P.getCurrent = .Number) :
    parsePrimaryExpr X (fuel + 1) ctx P = parseNumberExpr X ctx P := by
  rw [parsePrimaryExpr]
  split <;> simp_all

theorem parsePrimaryExpr_identifier (X : Extern) (fuel : Nat) (ctx : String) (P : Parser)
    (h : P.getCurrent = .Identifier) :
    parsePrimaryExpr X (fuel + 1) ctx P = parseIdentifierOrCallExpr X fuel P := by
  rw [parsePrimaryExpr]
  split <;> simp_all

theorem getCurrent_eq (P : Parser) : P.getCurrent = P.TheLexer.CurrentToken := rfl

end Parser

namespace Parser
open Lexer Grammar

theorem expr_complete (X : Extern) (tc : Bool) (fuel : Nat) :
    (∀ ctx (P : Parser) primary L1, PrimaryExpr tc primary →
      Reads X P.TheLexer primary L1 → L1.CurrentToken ≠ .LParen →
      Result.Accepts (fun _ P1 => P1.TheLexer = L1) (parsePrimaryExpr X fuel ctx P)) ∧
    (∀ (P : Parser) primary L1, P.getCurrent = .Identifier → PrimaryExpr tc primary →
      Reads X P.TheLexer primary L1 → L1.CurrentToken ≠ .LParen →
      Result.Accepts (fun _ P1 => P1.TheLexer = L1) (parseIdentifierOrCallExpr X fuel P)) ∧
    (∀ args (P : Parser) ts L1, (ts = [] ∨ ArgList tc ts) →
      Reads X P.TheLexer ts L1 → L1.CurrentToken = .RParen →
      Result.Accepts (fun _ P1 => P1.TheLexer = L1) (parseArgs X fuel args P)) ∧
    (∀ minPrec ctx (P : Parser) primary tail L1, PrimaryExpr tc primary → FlatTail tc tail →
      Reads X P.TheLexer (primary ++ tail) L1 → Follow L1.CurrentToken →
      Result.Accepts (fun _ P1 => Rest X tc minPrec P1.TheLexer L1)
        (parseBinaryExpr X fuel minPrec ctx P)) ∧
    (∀ minPrec lhs (P : Parser) tail L1, FlatTail tc tail →
      Reads X P.TheLexer tail L1 → Follow L1.CurrentToken →
      Result.Accepts (fun _ P1 => Rest X tc minPrec P1.TheLexer L1)
        (parseBinaryExprLoop X fuel minPrec lhs P)) := by
  induction fuel with
  | zero =>
    refine ⟨?_, ?_, ?_, ?_, ?_⟩ <;> intros <;> exact .outOfFuel
  | succ n ih =>
    obtain ⟨ihPrim, ihId, ihArgs, ihBin, ihLoop⟩ := ih
    have ihExpr : ∀ ctx (P : Parser) e L1, BinaryExpr tc 0 e → Reads X P.TheLexer e L1 →
        Follow L1.CurrentToken →
        Result.Accepts (fun _ P1 => P1.TheLexer = L1) (parseBinaryExpr X n 0 ctx P) := by
      intro ctx P e L1 he hr hf
      obtain ⟨primary, tail, rfl, hp, ht⟩ := he.flat
      exact (ihBin 0 ctx P primary tail L1 hp ht hr hf).monoAccepts (fun _ _ h => h.zero)
    refine ⟨?_, ?_, ?_, ?_, ?_⟩
    · intro ctx P primary L1 hp hr hl
      cases hp with
      | number =>
        obtain ⟨hc, -, hconv, hnext⟩ := hr.uncons
        have hnext := hnext.eq_of_nil
        rw [parsePrimaryExpr_number X n ctx P hc]
        unfold parseNumberExpr
        simp only
        have hconv := hconv rfl
        unfold Lexer.getRange
        cases hv : X.getAsDouble (P.TheLexer.File.slice P.TheLexer.Range) with
        | none => rw [hv] at hconv; cases hconv
        | some v => exact .ok (by rw [consume_TheLexer, hnext])
      | identifier =>
        rw [parsePrimaryExpr_identifier X n ctx P hr.current]
        exact ihId P _ L1 hr.current .identifier hr hl
      | callEmpty =>
        rw [parsePrimaryExpr_identifier X n ctx P hr.current]
        exact ihId P _ L1 hr.current .callEmpty hr hl
      | call h =>
        rw [parsePrimaryExpr_identifier X n ctx P hr.current]
        exact ihId P _ L1 hr.current (.call h) hr hl
    · intro P primary L1 hc hp hr hl
      rw [parseIdentifierOrCallExpr]
      simp only
      cases hp with
      | number =>
        have := hr.current
        rw [getCurrent_eq] at hc
        rw [hc] at this
        cases this
      | identifier =>
        obtain ⟨-, -, -, hnext⟩ := hr.uncons
        have hnext : L1 = P.TheLexer.next := hnext.eq_of_nil
        have h1 : (P.consume .Identifier).getCurrent ≠ .LParen := by
          rw [getCurrent_eq, consume_TheLexer, ← hnext]
          exact hl
        rw [if_pos h1]
        exact .ok (by rw [consume_TheLexer, hnext])
      | callEmpty =>
        obtain ⟨-, -, -, hr1⟩ := hr.uncons
        obtain ⟨h2, -, -, hr2⟩ := hr1.uncons
        obtain ⟨h3, -, -, hr3⟩ := hr2.uncons
        have hnext : L1 = P.TheLexer.next.next.next := hr3.eq_of_nil
        have h1 : ¬ (P.consume .Identifier).getCurrent ≠ .LParen := by
          rw [getCurrent_eq, consume_TheLexer, h2]
          simp
        rw [if_neg h1]
        have hstart : Reads X ((P.consume .Identifier).consume .LParen).TheLexer []
            P.TheLexer.next.next := by
          rw [consume_TheLexer, consume_TheLexer]
          exact Reads.nilReads _ _
        refine (ihArgs [] ((P.consume .Identifier).consume .LParen) [] P.TheLexer.next.next
          (Or.inl rfl) hstart h3).bindAccepts ?_
        intro args P3 hP3
        have h4 : ¬ P3.getCurrent ≠ .RParen := by
          rw [getCurrent_eq, hP3, h3]
          simp
        rw [if_neg h4]
        exact .ok (by rw [consume_TheLexer, hP3, hnext])
      | call h =>
        rename_i targs
        obtain ⟨-, -, -, hr1⟩ := hr.uncons
        obtain ⟨h2, -, -, hrest⟩ := hr1.uncons
        obtain ⟨L3, ha, hlast⟩ := hrest.split
        obtain ⟨h3, -, -, hnext⟩ := hlast.uncons
        have hnext : L1 = L3.next := hnext.eq_of_nil
        have ha : Reads X ((P.consume .Identifier).consume .LParen).TheLexer targs L3 := by
          rw [consume_TheLexer, consume_TheLexer]
          exact ha
        have h1 : ¬ (P.consume .Identifier).getCurrent ≠ .LParen := by
          rw [getCurrent_eq, consume_TheLexer, h2]
          simp
        rw [if_neg h1]
        refine (ihArgs [] ((P.consume .Identifier).consume .LParen) _ L3
          (Or.inr h) ha h3).bindAccepts ?_
        intro args P3 hP3
        have h4 : ¬ P3.getCurrent ≠ .RParen := by
          rw [getCurrent_eq, hP3, h3]
          simp
        rw [if_neg h4]
        exact .ok (by rw [consume_TheLexer, hP3, hnext])
    · intro args P ts L1 hts hr hl
      rw [parseArgs]
      have hfr : Follow Token.RParen := ⟨rfl, by decide⟩
      have hfc : Follow Token.Comma := ⟨rfl, by decide⟩
      have hstart : ∀ e rest, BinaryExpr tc 0 e → Reads X P.TheLexer (e ++ rest) L1 →
          P.getCurrent ≠ .RParen := by
        intro e rest he hr
        obtain ⟨t, r, rfl, ht⟩ := he.binaryHead
        rw [getCurrent_eq, hr.current]
        rcases ht with rfl | rfl <;> decide
      rcases hts with rfl | hts
      · have : L1 = P.TheLexer := hr.eq_of_nil
        have hc : ¬ P.getCurrent ≠ .RParen := by
          rw [getCurrent_eq, ← this, hl]
          simp
        rw [if_neg hc]
        exact .ok this.symm
      · cases hts with
        | last he =>
          rw [if_pos (hstart _ [] he (by rw [List.append_nil]; exact hr))]
          refine (ihExpr _ P _ L1 he hr (by rw [hl]; exact hfr)).bindAccepts ?_
          intro arg P1 hP1
          have hc : P1.getCurrent ≠ .Comma := by
            rw [getCurrent_eq, hP1, hl]
            decide
          rw [if_pos hc]
          exact .ok hP1
        | lastComma _ he =>
          rw [if_pos (hstart _ _ he hr)]
          obtain ⟨L2, h1, hlast⟩ := hr.split
          obtain ⟨h2, -, -, hnext⟩ := hlast.uncons
          have hnext : L1 = L2.next := hnext.eq_of_nil
          refine (ihExpr _ P _ L2 he h1 (by rw [h2]; exact hfc)).bindAccepts ?_
          intro arg P1 hP1
          have hc : ¬ P1.getCurrent ≠ .Comma := by
            rw [getCurrent_eq, hP1, h2]
            simp
          rw [if_neg hc]
          exact ihArgs _ _ [] L1 (Or.inl rfl)
            (by rw [consume_TheLexer, hP1, hnext]; exact Reads.nilReads _ _) hl
        | cons he hrest =>
          rw [if_pos (hstart _ _ he hr)]
          obtain ⟨L2, h1, hlast⟩ := hr.split
          obtain ⟨h2, -, -, hnext⟩ := hlast.uncons
          refine (ihExpr _ P _ L2 he h1 (by rw [h2]; exact hfc)).bindAccepts ?_
          intro arg P1 hP1
          have hc : ¬ P1.getCurrent ≠ .Comma := by
            rw [getCurrent_eq, hP1, h2]
            simp
          rw [if_neg hc]
          exact ihArgs _ _ _ L1 (Or.inr hrest) (by rw [consume_TheLexer, hP1]; exact hnext) hl
    · intro minPrec ctx P primary tail L1 hp ht hr hf
      rw [parseBinaryExpr]
      obtain ⟨L2, h1, h2⟩ := hr.split
      have hl : L2.CurrentToken ≠ .LParen := by
        cases ht with
        | nil =>
          have : L1 = L2 := h2.eq_of_nil
          rw [← this]
          exact hf.2
        | cons hq _ _ =>
          rw [h2.current]
          exact prec_ne_lparen hq
      refine (ihPrim ctx P primary L2 hp h1 hl).bindAccepts ?_
      intro lhs P1 hP1
      exact ihLoop minPrec lhs P1 tail L1 ht (by rw [hP1]; exact h2) hf
    · intro minPrec lhs P tail L1 ht hr hf
      rw [parseBinaryExprLoop]
      simp only
      cases ht with
      | nil =>
        have h1 : L1 = P.TheLexer := hr.eq_of_nil
        have hn : BinaryExprOp.Create P.getCurrent = none := by
          rw [getCurrent_eq, ← h1]
          exact hf.1
        rw [hn]
        exact .ok ⟨[], by rw [h1]; exact Reads.nilReads _ _, .nil, Or.inl rfl⟩
      | cons hq hp hrest =>
        rename_i op q primary rest
        obtain ⟨bop, hb, hprec⟩ := Create_of_prec hq
        have hcur : P.getCurrent = op := hr.current
        rw [hcur, hb]
        simp only
        by_cases hlt : bop.getPrecedence < minPrec
        · rw [if_pos hlt]
          exact .ok ⟨_, hr, .cons hq hp hrest, Or.inr ⟨_, _, q, rfl, hq, by rw [← hprec]; exact hlt⟩⟩
        · rw [if_neg hlt]
          obtain ⟨-, -, -, hnext⟩ := hr.uncons
          have hnext : Reads X (P.consume op).TheLexer (primary ++ rest) L1 := by
            rw [consume_TheLexer]
            exact hnext
          refine (ihBin _ _ (P.consume op) primary rest L1 hp hrest hnext hf).bindAccepts ?_
          intro rhs P2 hP2
          obtain ⟨ts2, hr2, hf2, -⟩ := hP2
          exact ihLoop minPrec _ P2 ts2 L1 hf2 hr2 hf

end Parser

namespace Grammar

theorem Stmt.stmtHead {tc : Bool} {ts : List Token} (h : Stmt tc ts) :
    ∃ t rest, ts = t :: rest ∧
      (t = Token.Return ∨ t = Token.Number ∨ t = Token.Identifier) := by
  cases h with
  | returnStmt h => exact ⟨_, _, rfl, Or.inl rfl⟩
  | exprStmt h =>
    obtain ⟨t, rest, he, ht⟩ := BinaryExpr.binaryHead h
    exact ⟨t, rest, he, Or.inr ht⟩

theorem follow_of_head {t : Token}
    (h : t = Token.Return ∨ t = Token.Number ∨ t = Token.Identifier) : Follow t := by
  rcases h with rfl | rfl | rfl <;> exact ⟨rfl, by decide⟩

/-- The token at which a sequence of statements that is followed by `end`
begins may follow an expression. -/
theorem StmtsN.follow {X : Extern} {tc : Bool} {n : Nat} {ts : List Token} {L L1 : Lexer}
    (h : StmtsN tc n ts) (hr : Lexer.Reads X L ts L1) (hend : L1.CurrentToken = .End) :
    Follow L.CurrentToken := by
  cases h with
  | nil =>
    rw [← hr.eq_of_nil, hend]
    exact ⟨rfl, by decide⟩
  | cons hst _ =>
    obtain ⟨t, rest, he, ht⟩ := hst.stmtHead
    rw [he, List.cons_append] at hr
    rw [hr.current]
    exact follow_of_head ht

theorem Stmts.countedStmts {tc : Bool} {ts : List Token} (h : Stmts tc ts) : ∃ n, StmtsN tc n ts := by
  induction h with
  | nil => exact ⟨0, .nil⟩
  | cons h _ ih =>
    obtain ⟨n, hn⟩ := ih
    exact ⟨n + 1, .cons h hn⟩

theorem StmtsN.stmts {tc : Bool} {n : Nat} {ts : List Token} (h : StmtsN tc n ts) :
    Stmts tc ts := by
  induction h with
  | nil => exact .nil
  | cons h _ ih => exact .cons h ih

theorem ParamList.countedParams {tc : Bool} {ts : List Token} (h : ParamList tc ts) :
    ∃ k, ParamListN tc k ts := by
  induction h with
  | last => exact ⟨1, .last⟩
  | lastComma ht => exact ⟨1, .lastComma ht⟩
  | cons _ ih =>
    obtain ⟨k, hk⟩ := ih
    exact ⟨k + 1, .cons hk⟩

theorem ParamListN.paramList {tc : Bool} {k : Nat} {ts : List Token} (h : ParamListN tc k ts) :
    ParamList tc ts := by
  induction h with
  | last => exact .last
  | lastComma ht => exact .lastComma ht
  | cons _ ih => exact .cons ih

theorem FunctionDecl.countedFunction {tc : Bool} {ts : List Token} (h : FunctionDecl tc ts) :
    ∃ k n, FunctionDeclN tc k n ts := by
  cases h with
  | noParams hb =>
    obtain ⟨n, hn⟩ := hb.countedStmts
    exact ⟨0, n, .noParams hn⟩
  | params hp hb =>
    obtain ⟨k, hk⟩ := hp.countedParams
    obtain ⟨n, hn⟩ := hb.countedStmts
    exact ⟨k, n, .params hk hn⟩

theorem FunctionDeclN.functionDecl {tc : Bool} {k n : Nat} {ts : List Token}
    (h : FunctionDeclN tc k n ts) : FunctionDecl tc ts := by
  cases h with
  | noParams hb => exact .noParams hb.stmts
  | params hp hb => exact .params hp.paramList hb.stmts

/-- A token sequence is derivable from `TranslationUnit` exactly when it is a
sequence of `function ... end` groups. -/
theorem groups_iff (tc : Bool) (ts : List Token) :
    TranslationUnit tc ts ↔ ∃ l, Groups tc l ts := by
  constructor
  · intro h
    induction h with
    | nil => exact ⟨[], .nil⟩
    | cons h _ ih =>
      obtain ⟨l, hl⟩ := ih
      obtain ⟨k, n, hkn⟩ := h.countedFunction
      exact ⟨(k, n) :: l, .cons hkn hl⟩
  · rintro ⟨l, h⟩
    induction h with
    | nil => exact .nil
    | cons h _ ih => exact .cons h.functionDecl ih

end Grammar

namespace Parser
open Lexer Grammar

theorem parseExpr_complete (X : Extern) (tc : Bool) (fuel : Nat) (ctx : String) (P : Parser)
    (e : List Token) (L1 : Lexer) (he : Grammar.Expr tc e) (hr : Reads X P.TheLexer e L1)
    (hf : Follow L1.CurrentToken) :
    Result.Accepts (fun _ P1 => P1.TheLexer = L1) (parseExpr X fuel ctx P) := by
  unfold parseExpr
  obtain ⟨primary, tail, rfl, hp, ht⟩ := BinaryExpr.flat he
  exact ((expr_complete X tc fuel).2.2.2.1 0 ctx P primary tail L1 hp ht hr hf).monoAccepts
    (fun _ _ h => h.zero)

theorem parseStmt_return (X : Extern) (fuel : Nat) (ctx : String) (P : Parser)
    (h : P.getCurrent = .Return) : parseStmt X fuel ctx P = parseReturnStmt X fuel P := by
  unfold parseStmt
  split <;> simp_all

theorem parseStmt_expr (X : Extern) (fuel : Nat) (ctx : String) (P : Parser)
    (h : P.getCurrent ≠ .Return) : parseStmt X fuel ctx P = parseExprStmt X fuel ctx P := by
  unfold parseStmt
  split <;> simp_all

theorem parseStmt_complete (X : Extern) (tc : Bool) (fuel : Nat) (ctx : String) (P : Parser)
    (st : List Token) (L1 : Lexer) (hst : Grammar.Stmt tc st) (hr : Reads X P.TheLexer st L1)
    (hf : Follow L1.CurrentToken) :
    Result.Accepts (fun _ P1 => P1.TheLexer = L1) (parseStmt X fuel ctx P) := by
  cases hst with
  | returnStmt he =>
    rename_i e
    obtain ⟨hc, -, -, hnext⟩ := hr.uncons
    rw [parseStmt_return X fuel ctx P hc]
    unfold parseReturnStmt
    simp only
    have hnext : Reads X (P.consume .Return).TheLexer e L1 := by
      rw [consume_TheLexer]
      exact hnext
    refine (parseExpr_complete X tc fuel _ _ _ L1 he hnext hf).bindAccepts ?_
    intro value P2 hP2
    exact .ok hP2
  | exprStmt he =>
    obtain ⟨t, rest, hts, ht⟩ := BinaryExpr.binaryHead he
    have hc : P.getCurrent ≠ .Return := by
      rw [hts] at hr
      rw [getCurrent_eq, hr.current]
      rcases ht with rfl | rfl <;> decide
    rw [parseStmt_expr X fuel ctx P hc]
    unfold parseExprStmt
    refine (parseExpr_complete X tc fuel _ _ _ L1 he hr hf).bindAccepts ?_
    intro value P2 hP2
    exact .ok hP2

theorem parseStmts_complete (X : Extern) (tc : Bool) (fuel : Nat) :
    ∀ ctx stmts (P : Parser) n body L1, StmtsN tc n body → Reads X P.TheLexer body L1 →
      L1.CurrentToken = .End →
      Result.Accepts (fun ss P1 => P1.TheLexer = L1 ∧ ss.length = stmts.length + n)
        (parseStmts X fuel ctx stmts P) := by
  induction fuel with
  | zero => intros; exact .outOfFuel
  | succ m ih =>
    intro ctx stmts P n body L1 hb hr hend
    rw [parseStmts]
    cases hb with
    | nil =>
      have h1 : L1 = P.TheLexer := hr.eq_of_nil
      have hc : ¬ P.getCurrent ≠ .End := by
        rw [getCurrent_eq, ← h1, hend]
        simp
      rw [if_neg hc]
      exact .ok ⟨h1.symm, rfl⟩
    | cons hst hrest =>
      obtain ⟨t, rest, hts, ht⟩ := hst.stmtHead
      have hc : P.getCurrent ≠ .End := by
        rw [hts, List.cons_append] at hr
        rw [getCurrent_eq, hr.current]
        rcases ht with rfl | rfl | rfl <;> decide
      rw [if_pos hc]
      obtain ⟨L2, h1, h2⟩ := hr.split
      refine (parseStmt_complete X tc m ctx P _ L2 hst h1 (hrest.follow h2 hend)).bindAccepts ?_
      intro stmt P1 hP1
      refine (ih ctx _ P1 _ _ L1 hrest (by rw [hP1]; exact h2) hend).monoAccepts ?_
      intro ss P2 h
      refine ⟨h.1, ?_⟩
      rw [h.2, List.length_append, List.length_singleton]
      omega

theorem parseCompoundStmt_complete (X : Extern) (tc : Bool) (fuel : Nat) (ctx : String)
    (P : Parser) (n : Nat) (body : List Token) (L1 : Lexer) (hb : StmtsN tc n body)
    (hr : Reads X P.TheLexer (body ++ [.End]) L1) :
    Result.Accepts (fun cs P1 => P1.TheLexer = L1 ∧ cs.Stmts.length = n)
      (parseCompoundStmt X fuel ctx P) := by
  unfold parseCompoundStmt
  simp only
  obtain ⟨L2, h1, hlast⟩ := hr.split
  obtain ⟨hend, -, -, hnext⟩ := hlast.uncons
  have hnext : L1 = L2.next := hnext.eq_of_nil
  refine (parseStmts_complete X tc fuel ctx [] P n body L2 hb h1 hend).bindAccepts ?_
  intro ss P1 h
  refine .ok ⟨by rw [consume_TheLexer, h.1, hnext], ?_⟩
  rw [h.2]
  simp

theorem parseParams_complete (X : Extern) (tc : Bool) (fuel : Nat) :
    ∀ params (P : Parser) k ps L1, ((ps = [] ∧ k = 0) ∨ ParamListN tc k ps) →
      Reads X P.TheLexer ps L1 → L1.CurrentToken = .RParen →
      Result.Accepts (fun pds P1 => P1.TheLexer = L1 ∧ pds.length = params.length + k)
        (parseParams X fuel params P) := by
  induction fuel with
  | zero => intros; exact .outOfFuel
  | succ m ih =>
    intro params P k ps L1 hps hr hend
    rw [parseParams]
    rcases hps with ⟨rfl, rfl⟩ | hps
    · have h1 : L1 = P.TheLexer := hr.eq_of_nil
      have hc : ¬ P.getCurrent ≠ .RParen := by
        rw [getCurrent_eq, ← h1, hend]
        simp
      rw [if_neg hc]
      exact .ok ⟨h1.symm, rfl⟩
    · have hid : P.getCurrent = .Identifier := by
        rw [getCurrent_eq]
        cases hps with
        | last => exact hr.current
        | lastComma _ => exact hr.current
        | cons _ => exact hr.current
      have hc : P.getCurrent ≠ .RParen := by
        rw [hid]
        decide
      have hc2 : ¬ P.getCurrent ≠ .Identifier := by
        rw [hid]
        simp
      rw [if_pos hc, if_neg hc2]
      simp only
      cases hps with
      | last =>
        obtain ⟨-, -, -, hnext⟩ := hr.uncons
        have hnext : L1 = P.TheLexer.next := hnext.eq_of_nil
        have h3 : (P.consume .Identifier).getCurrent ≠ .Comma := by
          rw [getCurrent_eq, consume_TheLexer, ← hnext, hend]
          decide
        rw [if_pos h3]
        refine .ok ⟨by rw [consume_TheLexer, hnext], ?_⟩
        rw [List.length_append, List.length_singleton]
      | lastComma _ =>
        obtain ⟨-, -, -, hr1⟩ := hr.uncons
        obtain ⟨hcomma, -, -, hnext⟩ := hr1.uncons
        have hnext : L1 = P.TheLexer.next.next := hnext.eq_of_nil
        have h3 : ¬ (P.consume .Identifier).getCurrent ≠ .Comma := by
          rw [getCurrent_eq, consume_TheLexer, hcomma]
          simp
        rw [if_neg h3]
        have hstart : Reads X ((P.consume .Identifier).consume .Comma).TheLexer [] L1 := by
          rw [consume_TheLexer, consume_TheLexer, hnext]
          exact Reads.nilReads _ _
        refine (ih _ _ 0 [] L1 (Or.inl ⟨rfl, rfl⟩) hstart hend).monoAccepts ?_
        intro pds P1 h
        refine ⟨h.1, ?_⟩
        rw [h.2, List.length_append, List.length_singleton]
      | cons hrest =>
        rename_i k1 rest
        obtain ⟨-, -, -, hr1⟩ := hr.uncons
        obtain ⟨hcomma, -, -, hnext⟩ := hr1.uncons
        have h3 : ¬ (P.consume .Identifier).getCurrent ≠ .Comma := by
          rw [getCurrent_eq, consume_TheLexer, hcomma]
          simp
        rw [if_neg h3]
        have hstart : Reads X ((P.consume .Identifier).consume .Comma).TheLexer rest L1 := by
          rw [consume_TheLexer, consume_TheLexer]
          exact hnext
        refine (ih _ _ k1 rest L1 (Or.inr hrest) hstart hend).monoAccepts ?_
        intro pds P1 h
        refine ⟨h.1, ?_⟩
        rw [h.2, List.length_append, List.length_singleton]
        omega

theorem parseFunctionDecl_complete (X : Extern) (tc : Bool) (fuel : Nat) (ctx : String)
    (P : Parser) (k n : Nat) (ts : List Token) (L1 : Lexer) (hfn : FunctionDeclN tc k n ts)
    (hr : Reads X P.TheLexer ts L1) :
    Result.Accepts
      (fun fn P1 => P1.TheLexer = L1 ∧ fn.Params.length = k ∧ fn.Body.Stmts.length = n)
      (parseFunctionDecl X fuel ctx P) := by
  have key : ∀ (ps body : List Token), ((ps = [] ∧ k = 0) ∨ ParamListN tc k ps) →
      StmtsN tc n body →
      Reads X P.TheLexer
        (.Function :: .Identifier :: .LParen :: (ps ++ .RParen :: (body ++ [.End]))) L1 →
      Result.Accepts
        (fun fn P1 => P1.TheLexer = L1 ∧ fn.Params.length = k ∧ fn.Body.Stmts.length = n)
        (parseFunctionDecl X fuel ctx P) := by
    intro ps body hps hb hr
    obtain ⟨h1, -, -, hr1⟩ := hr.uncons
    obtain ⟨h2, -, -, hr2⟩ := hr1.uncons
    obtain ⟨h3, -, -, hr3⟩ := hr2.uncons
    obtain ⟨L4, hr4, hr5⟩ := hr3.split
    obtain ⟨h5, -, -, hr6⟩ := hr5.uncons
    unfold parseFunctionDecl
    simp only
    have c1 : ¬ P.getCurrent ≠ .Function := by
      rw [getCurrent_eq, h1]
      simp
    rw [if_neg c1]
    have c2 : ¬ (P.consume .Function).getCurrent ≠ .Identifier := by
      rw [getCurrent_eq, consume_TheLexer, h2]
      simp
    rw [if_neg c2]
    have c3 : ¬ ((P.consume .Function).consume .Identifier).getCurrent ≠ .LParen := by
      rw [getCurrent_eq, consume_TheLexer, consume_TheLexer, h3]
      simp
    rw [if_neg c3]
    have hstart : Reads X
        (((P.consume .Function).consume .Identifier).consume .LParen).TheLexer ps L4 := by
      rw [consume_TheLexer, consume_TheLexer, consume_TheLexer]
      exact hr4
    refine (parseParams_complete X tc fuel [] _ k ps L4 hps hstart h5).bindAccepts ?_
    intro params P4 hP4
    have c5 : ¬ P4.getCurrent ≠ .RParen := by
      rw [getCurrent_eq, hP4.1, h5]
      simp
    rw [if_neg c5]
    have hbody : Reads X (P4.consume .RParen).TheLexer (body ++ [.End]) L1 := by
      rw [consume_TheLexer, hP4.1]
      exact hr6
    refine (parseCompoundStmt_complete X tc fuel _ _ n body L1 hb hbody).bindAccepts ?_
    intro cs P6 hP6
    refine .ok ⟨hP6.1, ?_, hP6.2⟩
    simp only
    rw [hP4.2]
    simp
  cases hfn with
  | noParams hb => exact key [] _ (Or.inl ⟨rfl, rfl⟩) hb hr
  | params hp hb => exact key _ _ (Or.inr hp) hb hr

theorem parseFunctions_complete (X : Extern) (tc : Bool) (fuel : Nat) :
    ∀ fns (P : Parser) l ts L1, Groups tc l ts → Reads X P.TheLexer ts L1 →
      L1.CurrentToken = .EndOfFile →
      Result.Accepts
        (fun fs _ => fs.map (fun fn => (fn.Params.length, fn.Body.Stmts.length)) =
          fns.map (fun fn => (fn.Params.length, fn.Body.Stmts.length)) ++ l)
        (parseFunctions X fuel fns P) := by
  induction fuel with
  | zero => intros; exact .outOfFuel
  | succ m ih =>
    intro fns P l ts L1 hg hr hend
    rw [parseFunctions]
    cases hg with
    | nil =>
      have h1 : L1 = P.TheLexer := hr.eq_of_nil
      have hc : ¬ P.getCurrent ≠ .EndOfFile := by
        rw [getCurrent_eq, ← h1, hend]
        simp
      rw [if_neg hc]
      exact .ok (by simp)
    | cons hfn hrest =>
      obtain ⟨L2, h1, h2⟩ := hr.split
      have hc : P.getCurrent ≠ .EndOfFile := by
        rw [getCurrent_eq]
        cases hfn with
        | noParams _ => rw [h1.current]; decide
        | params _ _ => rw [h1.current]; decide
      rw [if_pos hc]
      refine (parseFunctionDecl_complete X tc m _ P _ _ _ L2 hfn h1).bindAccepts ?_
      intro fn P1 hP1
      refine (ih _ P1 _ _ L1 hrest (by rw [hP1.1]; exact h2) hend).monoAccepts ?_
      intro fs P2 h
      rw [h, List.map_append, List.append_assoc, List.map_singleton, hP1.2.1, hP1.2.2]
      rfl

theorem parseTranslationUnit_complete (X : Extern) (tc : Bool) (fuel : Nat) (P : Parser)
    (l : List (Nat × Nat)) (ts : List Token) (L1 : Lexer) (hg : Groups tc l ts)
    (hr : Reads X P.TheLexer.next ts L1) (hend : L1.CurrentToken = .EndOfFile) :
    Result.Accepts (fun tu _ => tu.counts = l) (parseTranslationUnit X fuel P) := by
  unfold parseTranslationUnit
  simp only
  have hr2 : Reads X (Parser.mk P.OS P.TheLexer.next).TheLexer ts L1 := hr
  refine (parseFunctions_complete X tc fuel [] (Parser.mk P.OS P.TheLexer.next) l ts L1 hg hr2
    hend).bindAccepts ?_
  intro fns P1 h
  refine .ok ?_
  unfold TranslationUnit.counts
  simpa using h

end Parser

/-- The parser accepts the files whose token sequence is a sequence of
`function ... end` groups and whose `Number` lexemes convert. -/
theorem Parse_groups (X : Extern) (tc : Bool) (file : File) (os : String)
    (l : List (Nat × Nat)) (hg : Grammar.Groups tc l file.tokens)
    (hn : ∀ r ∈ file.numbers, (X.getAsDouble (file.slice r)).isSome = true) :
    ∃ tu P1, Parse X file os = .ok tu P1 ∧ P1.OS = os ∧ tu.counts = l := by
  have hfile : (Lexer.init file).next.File = file := (Lexer.next_file _).trans rfl
  unfold File.numbers at hn
  have hn2 : ∀ r ∈ Lexer.numbers (file.size + 1) (Lexer.init file).next,
      (X.getAsDouble ((Lexer.init file).next.File.slice r)).isSome = true := by
    intro r hr
    rw [hfile]
    exact hn r hr
  generalize hts : file.tokens = ts at hg
  obtain ⟨L1, hr, hend⟩ := Lexer.reads_tokens X (file.size + 1) (Lexer.init file).next
    (Lexer.measure_init_next file) hn2 ts hts
  have hacc := Parser.parseTranslationUnit_complete X tc (parseFuel file)
    (Parser.mk os (Lexer.init file)) l ts L1 hg hr hend
  have hgood := Parse_good X file os
  unfold Parse at hgood ⊢
  generalize Parser.parseTranslationUnit X (parseFuel file) ⟨os, Lexer.init file⟩ = r
    at hacc hgood
  cases hacc with
  | ok h =>
    cases hgood with
    | ok _ hrel => exact ⟨_, _, rfl, hrel.os, h⟩
  | outOfFuel => cases hgood

/-- C38. Completeness of the parser with respect to the grammar of section
4.2, as printed and with a comma allowed at the end of a parameter list and of
an argument list. On every file whose token sequence is derivable from
`TranslationUnit` and whose `Number` lexemes all convert to a double, `Parse`
returns a translation unit and writes nothing. The token sequence is a
sequence of `function ... end` groups, and however it is read as one, the
unit has one function for each group, in the order of the source, with as
many parameters and as many statements as the group. -/
theorem Parse_complete (X : Extern) (tc : Bool) (file : File) (os : String)
    (hg : Grammar.TranslationUnit tc file.tokens)
    (hn : ∀ r ∈ file.numbers, (X.getAsDouble (file.slice r)).isSome = true) :
    ∃ tu P1, Parse X file os = .ok tu P1 ∧ P1.OS = os ∧
      (∃ l, Grammar.Groups tc l file.tokens) ∧
      ∀ l, Grammar.Groups tc l file.tokens → tu.counts = l := by
  obtain ⟨l0, hl0⟩ := (Grammar.groups_iff tc _).1 hg
  obtain ⟨tu, P1, h1, h2, h3⟩ := Parse_groups X tc file os l0 hl0 hn
  refine ⟨tu, P1, h1, h2, ⟨l0, hl0⟩, ?_⟩
  intro l hl
  obtain ⟨tu2, P2, h4, -, h6⟩ := Parse_groups X tc file os l hl hn
  rw [h1] at h4
  cases h4
  exact h6

/-- The token sequence of `function f() g = 1 return g end function g() return 0 end`
is derivable from `TranslationUnit` in the grammar as printed. -/
theorem lateFunction_derivable :
    Grammar.TranslationUnit false Examples.lateFunction.tokens := by
  have ht : Examples.lateFunction.tokens =
      [.Function, .Identifier, .LParen, .RParen, .Identifier, .Equal, .Number, .Return,
        .Identifier, .End, .Function, .Identifier, .LParen, .RParen, .Return, .Number,
        .End] := by decide
  rw [ht]
  have hnum : Grammar.Expr false [.Number] :=
    @Grammar.BinaryExpr.mk false 0 [.Number] [] .number .nil
  have hid : ∀ p, Grammar.BinaryExpr false p [.Identifier] := fun p =>
    @Grammar.BinaryExpr.mk false p [.Identifier] [] .identifier .nil
  have hassign : Grammar.Expr false [.Identifier, .Equal, .Number] :=
    @Grammar.BinaryExpr.mk false 0 [.Identifier] [.Equal, .Number] .identifier
      (@Grammar.BinaryTail.cons false 0 10 .Equal [.Number] [] rfl (by decide)
        (@Grammar.BinaryExpr.mk false _ [.Number] [] .number .nil) .nil)
  have hf : Grammar.FunctionDecl false
      [.Function, .Identifier, .LParen, .RParen, .Identifier, .Equal, .Number, .Return,
        .Identifier, .End] :=
    @Grammar.FunctionDecl.noParams false
      [.Identifier, .Equal, .Number, .Return, .Identifier]
      (@Grammar.Stmts.cons false [.Identifier, .Equal, .Number] [.Return, .Identifier]
        (.exprStmt hassign)
        (@Grammar.Stmts.cons false [.Return, .Identifier] [] (.returnStmt (hid 0)) .nil))
  have hgd : Grammar.FunctionDecl false
      [.Function, .Identifier, .LParen, .RParen, .Return, .Number, .End] :=
    @Grammar.FunctionDecl.noParams false [.Return, .Number]
      (@Grammar.Stmts.cons false [.Return, .Number] [] (.returnStmt hnum) .nil)
  exact @Grammar.TranslationUnit.cons false _ _ hf
    (@Grammar.TranslationUnit.cons false _ [] hgd .nil)

/-- C38, on `function f() g = 1 return g end function g() return 0 end`, with
every number lexeme converting: `Parse` returns a unit and writes nothing. -/
theorem Parse_complete_witness :
    ∃ tu P1, Parse Examples.X0 Examples.lateFunction "" = .ok tu P1 ∧ P1.OS = "" ∧
      (∃ l, Grammar.Groups false l Examples.lateFunction.tokens) ∧
      ∀ l, Grammar.Groups false l Examples.lateFunction.tokens → tu.counts = l :=
  Parse_complete Examples.X0 false Examples.lateFunction "" lateFunction_derivable
    (fun _ _ => rfl)

end mua
